import Mathlib

/-!
# jsonXstruct: a shallow embedding of the descriptor-tree marshalling engine

The development models `src/jsonXstruct.c` (with `jsonXstruct_priv.h` and
`jsonXstruct.h`).  Conventions of the embedding:

* target LP64, little endian: `sizeof(int) = 4`, `sizeof(bool) = 1`,
  `sizeof(float) = 4`, `sizeof(double) = 8`, pointers and `size_t` have 64 bits;
* `size_t` / `ptrdiff_t` / addresses are natural numbers, pointer arithmetic is
  taken modulo `PTR_MOD = 2^64`;
* memory is a total map from addresses to bytes;
* `jxs_mapper *` values are natural-number handles into the mapper store, a
  `NULL` mapper pointer is `none`;
* a `json_object *` is a value of `Json`, the `NULL` pointer being `Json.null`;
* recursion that the C code performs through `subjm` pointers may not terminate
  on a cyclic mapper graph, so the recursive walks take a fuel argument and
  return `none` when it is exhausted;
* logging (`jxs_log`) has no effect on results and is left out;
* the write-only cursor fields `now.jmhead`, `now.jmitem`, `now.idx` of the
  context are never read by the library and are left out.
-/

namespace JsonXStruct

/-! ## Machine words and memory -/

/-- Number of values of a 64-bit word (`size_t`, pointers). -/
def PTR_MOD : Nat := 18446744073709551616

/-- Byte-addressed memory. -/
abbrev Mem := Nat → Fin 256

/-- Low byte of a natural number. -/
def byte_of (v : Nat) : Fin 256 := ⟨v % 256, Nat.mod_lt _ (by decide)⟩

/-- Unsigned little-endian load of `n` bytes at address `a`. -/
def read_le (mem : Mem) : Nat → Nat → Nat
  | _, 0 => 0
  | a, n + 1 => (mem a).val + 256 * read_le mem (a + 1) n

/-- Little-endian store of the low `n` bytes of `v` at address `a`. -/
def write_le (mem : Mem) : Nat → Nat → Nat → Mem
  | _, 0, _ => mem
  | a, n + 1, v => write_le (fun x => if x = a then byte_of v else mem x) (a + 1) n (v / 256)

/-- Two's complement reading of an unsigned `8 * n`-bit pattern. -/
def to_signed (n : Nat) (u : Nat) : Int :=
  if u < 2 ^ (8 * n - 1) then (u : Int) else (u : Int) - (2 : Int) ^ (8 * n)

/-- Bit pattern (modulo `2 ^ (8 * n)`) of an integer, i.e. the C conversion to an
`n`-byte integer type. -/
def of_signed (n : Nat) (v : Int) : Nat := (v % (2 : Int) ^ (8 * n)).toNat

/-- Signed load of an `n`-byte integer (`*((intN_t *)vptr)`). -/
def read_int (mem : Mem) (a n : Nat) : Int := to_signed n (read_le mem a n)

/-- Store of an `n`-byte integer (`*((intN_t *)vptr) = v`). -/
def write_int (mem : Mem) (a n : Nat) (v : Int) : Mem := write_le mem a n (of_signed n v)

/-- `memset(vptr, 0, size)`. -/
def memset0 (mem : Mem) (a size : Nat) : Mem :=
  fun x => if a ≤ x ∧ x < a + size then 0 else mem x

/-- Store of a byte sequence at consecutive addresses. -/
def write_bytes (mem : Mem) : Nat → List Nat → Mem
  | _, [] => mem
  | a, b :: bs => write_bytes (fun x => if x = a then byte_of b else mem x) (a + 1) bs

/-- The bytes of memory from `a` up to (not including) the first NUL, looking at
no more than `n` bytes. -/
def read_cstr (mem : Mem) : Nat → Nat → List Nat
  | _, 0 => []
  | a, n + 1 => if (mem a).val = 0 then [] else (mem a).val :: read_cstr mem (a + 1) n

/-- The NUL-terminated string that starts at address `a` (`strlen` semantics,
bounded by the end of the address space). -/
def c_string (mem : Mem) (a : Nat) : List Nat := read_cstr mem a (PTR_MOD - a)

/-- What `snprintf(dst, size, "%s", s)` stores: nothing for `size = 0`, else the
first `size - 1` bytes of `s` (up to its first NUL) and a terminating NUL. -/
def snprintf_bytes (size : Nat) (s : List Nat) : List Nat :=
  if size = 0 then [] else (s.takeWhile (fun b => b % 256 ≠ 0)).take (size - 1) ++ [0]

/-! ## The document library boundary (json-c) -/

/-- Document tree of the JSON library; `null` also stands for the `NULL`
`json_object *`.  A boolean keeps the C `int` it was built from, a double is
kept as its IEEE-754 binary64 bit pattern, text is a byte string. -/
inductive Json where
  | null : Json
  | boolean (b : Int) : Json
  | double (bits : Nat) : Json
  | int (v : Int) : Json
  | string (s : List Nat) : Json
  | object (kvs : List (List Char × Json)) : Json
  | array (xs : List Json) : Json

/-- The parts of the document library and of the C floating-point conversions
that the embedding does not interpret. -/
structure JsonLib where
  /-- Conversion `(double)f` of a binary32 pattern. -/
  f32_to_f64 : Nat → Nat
  /-- Conversion `(float)d` of a binary64 pattern. -/
  f64_to_f32 : Nat → Nat
  /-- Conversion of a binary64 pattern to `int64_t` as done by json-c. -/
  f64_to_int64 : Nat → Int
  /-- Conversion of an `int64_t` to binary64. -/
  int64_to_f64 : Int → Nat
  /-- Result of `json_parse_int64` on a text, `0` when it does not parse. -/
  str_to_int64 : List Nat → Int
  /-- Result of `strtod` on a text as used by `json_object_get_double`. -/
  str_to_f64 : List Nat → Nat
  /-- The printed form `json_object_to_json_string` of a non-text value. -/
  to_json_string : Json → List Nat
  /-- The document a non-`NULL` `json_object *` found in memory points to. -/
  deref : Nat → Json
  /-- The address of a document node. -/
  addr_of : Json → Nat

/-- Test `jso == NULL`. -/
def Json.is_null : Json → Bool
  | .null => true
  | _ => false

/-- Test `json_object_get_type(jso) == json_type_object`. -/
def Json.is_object : Json → Bool
  | .object _ => true
  | _ => false

/-- Test `json_object_get_type(jso) == json_type_array`. -/
def Json.is_array : Json → Bool
  | .array _ => true
  | _ => false

/-- Keyed replacement inside an entry list: the first entry with key `k` gets
the new value, position kept; a new key is appended. -/
def kvs_add : List (List Char × Json) → List Char → Json → List (List Char × Json)
  | [], k, v => [(k, v)]
  | (k', v') :: rest, k, v => if k' = k then (k, v) :: rest else (k', v') :: kvs_add rest k v

/-- Model of `json_object_object_add(jso, key, val)`. -/
def json_object_object_add (jso : Json) (key : List Char) (val : Json) : Json :=
  match jso with
  | .object kvs => .object (kvs_add kvs key val)
  | j => j

/-- Lookup in an entry list. -/
def kvs_get : List (List Char × Json) → List Char → Json
  | [], _ => .null
  | (k', v') :: rest, k => if k' = k then v' else kvs_get rest k

/-- Model of `json_object_object_get(jso, key)`: `NULL` when `jso` is not an
object or has no such key. -/
def json_object_object_get (jso : Json) (key : List Char) : Json :=
  match jso with
  | .object kvs => kvs_get kvs key
  | _ => .null

/-- The keys of an object, in insertion order (empty for other kinds). -/
def Json.keys : Json → List (List Char)
  | .object kvs => kvs.map Prod.fst
  | _ => []

/-- Model of `json_object_array_add(arr, val)`. -/
def json_object_array_add (arr : Json) (val : Json) : Json :=
  match arr with
  | .array xs => .array (xs ++ [val])
  | j => j

/-- Model of `json_object_array_length(arr)`. -/
def json_object_array_length : Json → Nat
  | .array xs => xs.length
  | _ => 0

/-- Model of `json_object_array_get_idx(arr, i)`. -/
def json_object_array_get_idx (arr : Json) (i : Nat) : Json :=
  match arr with
  | .array xs => xs.getD i .null
  | _ => .null

/-- Clamp to the range of `int32_t`. -/
def sat_int32 (v : Int) : Int :=
  if v < -2147483648 then -2147483648 else if v > 2147483647 then 2147483647 else v

/-- Test `d != 0` on a binary64 pattern (both signed zeros compare equal to 0). -/
def f64_nonzero (bits : Nat) : Bool := decide (bits % 9223372036854775808 ≠ 0)

/-- Model of `json_object_get_boolean`. -/
def json_object_get_boolean : Json → Int
  | .boolean b => b
  | .int v => if v ≠ 0 then 1 else 0
  | .double d => if f64_nonzero d then 1 else 0
  | .string s => if s.length ≠ 0 then 1 else 0
  | _ => 0

/-- Model of `json_object_get_int64`. -/
def json_object_get_int64 (lib : JsonLib) : Json → Int
  | .int v => v
  | .double d => lib.f64_to_int64 d
  | .boolean b => b
  | .string s => lib.str_to_int64 s
  | _ => 0

/-- Model of `json_object_get_int` (an `int32_t`). -/
def json_object_get_int (lib : JsonLib) : Json → Int
  | .int v => sat_int32 v
  | .double d => sat_int32 (lib.f64_to_int64 d)
  | .boolean b => b
  | .string s => sat_int32 (lib.str_to_int64 s)
  | _ => 0

/-- Model of `json_object_get_double` (binary64 pattern). -/
def json_object_get_double (lib : JsonLib) : Json → Nat
  | .double d => d
  | .int v => lib.int64_to_f64 v
  | .boolean b => lib.int64_to_f64 b
  | .string s => lib.str_to_f64 s
  | _ => 0

/-- Model of `json_object_get_string`: `none` is the `NULL` result. -/
def json_object_get_string (lib : JsonLib) : Json → Option (List Nat)
  | .null => none
  | .string s => some s
  | j => some (lib.to_json_string j)

/-- Model of `json_object_get` applied to a pointer loaded from memory. -/
def jso_of_ptr (lib : JsonLib) (p : Nat) : Json := if p = 0 then .null else lib.deref p

/-- The pointer value stored for a document node. -/
def ptr_of_jso (lib : JsonLib) (j : Json) : Nat := if j.is_null then 0 else lib.addr_of j

/-! ## Descriptor nodes, descriptor trees, conversion context -/

/-- The enumeration `jxs_type` of `jsonXstruct.h`, in declaration order. -/
inductive jxs_type where
  | null | boolean | double | int | uint | string | struct | object | array
  deriving DecidableEq, Repr

/-- Rule constant `JXS_RULE_KEEP_RAW`. -/
def JXS_RULE_KEEP_RAW : Nat := 1
/-- Rule constant `JXS_RULE_SET_NULL`. -/
def JXS_RULE_SET_NULL : Nat := 2
/-- Rule constant `JXS_RULE_DROP_SELF`. -/
def JXS_RULE_DROP_SELF : Nat := 3

/-- Maximum array depth `JXS_ARRAY_DEPTH`. -/
def JXS_ARRAY_DEPTH : Nat := 8
/-- Buffer size `JXS_KEY_MAXLEN` of a locator string. -/
def JXS_KEY_MAXLEN : Nat := 1024

/-- The `arr` member of `struct _jmap_item`. -/
structure jmap_arr_t where
  length : Nat
  deptab : List Nat
  depth : Nat
  cur_depth : Nat
  deriving DecidableEq, Repr

/-- Descriptor node `struct _jmap_item`.  `offset` holds the 64-bit pattern of
the `ptrdiff_t`. -/
structure jmap_item_t where
  type : jxs_type
  key : List Char
  offset : Nat
  size : Nat
  subjm : Option Nat
  basetype : jxs_type
  arr : jmap_arr_t
  rule : Nat
  deriving DecidableEq, Repr

/-- Tree metadata `struct _jmap_head`. -/
structure jmap_head_t where
  isbuf : Bool
  limit : Nat
  idx : Nat
  ref : Nat
  start_addr : Nat
  deriving DecidableEq, Repr

/-- A descriptor tree: slot 0 of the `jxs_mapper` array is the head, the slots
after it are the nodes (`get_jmhead`, `get_jmlist`). -/
structure jxs_mapper where
  jmhead : jmap_head_t
  jmlist : Nat → jmap_item_t

/-- An all-zero node (`memset(item, 0, sizeof(jmap_item_t))`); the `NULL` key is
the empty text. -/
def jmap_item_zero : jmap_item_t :=
  { type := .null, key := [], offset := 0, size := 0, subjm := none, basetype := .null,
    arr := { length := 0, deptab := List.replicate 9 0, depth := 0, cur_depth := 0 },
    rule := 0 }

/-- An all-zero tree slot range (fresh pool buffer or `calloc` result). -/
def jxs_mapper_zero : jxs_mapper :=
  { jmhead := { isbuf := false, limit := 0, idx := 0, ref := 0, start_addr := 0 },
    jmlist := fun _ => jmap_item_zero }

/-- What a dynamic callback can read through `jxs_cvt_get_locator`,
`jxs_cvt_get_fuzzy_locator`, `jxs_cvt_get_item*` and `jxs_get_userdata`. -/
structure CbView where
  locator : Option (List Char)
  fzlocator : Option (List Char)
  vptr : Nat
  userdata : Nat
  mem : Mem

/-- What a dynamic callback does: the argument of its last
`jxs_cvt_set_item_rule` call, if any, and the memory it leaves. -/
structure CbEffect where
  rule : Option Nat
  mem : Mem

/-- Conversion context `jmap_context_t` (field `userdata` is the C member
named for the caller's user data pointer). -/
structure jmap_context_t where
  start_addr : Nat
  userdata : Nat
  buf_idx : Nat
  now_locator : Option (List Char)
  now_fzlocator : Option (List Char)
  now_vptr : Nat
  convert_rule : Nat
  convert_callback : Option (CbView → CbEffect)

/-- One visit of a traversal wrapper: the address computed for the node, its
resolved type and its size. -/
structure Visit where
  vptr : Nat
  type : jxs_type
  size : Nat
  deriving DecidableEq, Repr

/-- Everything a conversion call can read or change: the context, the mapper
store, the aggregate memory, and three records kept for specification purposes
only (callback invocations, wrapper visits, heap trees released, number of heap
trees allocated). -/
structure World where
  ctx : jmap_context_t
  mappers : Nat → jxs_mapper
  mem : Mem
  cb_calls : List CbView
  visits : List Visit
  freed : List Nat
  heap_next : Nat

/-- Result codes of the rule engine, `enum item_action`. -/
inductive item_action where
  | RULE_ITEM_ERROR | RULE_ITEM_KEEP | RULE_ITEM_DELETE | RULE_ITEM_SET
  deriving DecidableEq, Repr

/-! ## Locator strings -/

/-- What `snprintf` leaves in a `JXS_KEY_MAXLEN` buffer. -/
def snprintf_key (s : List Char) : List Char := s.take (JXS_KEY_MAXLEN - 1)

/-- Macro `SET_NEW_LOCATOR`. -/
def SET_NEW_LOCATOR (locator : Option (List Char)) (key : List Char) (isarray : Bool)
    (idx : Nat) : List Char :=
  if isarray then
    snprintf_key (locator.getD key ++ [Char.ofNat 91] ++ Nat.toDigits 10 idx ++ [Char.ofNat 93])
  else
    snprintf_key (locator.getD [] ++
      (match locator with
       | some (_ :: _) => [Char.ofNat 46]
       | _ => []) ++ key)

/-- Macro `SET_NEW_FUZZY_LOCATOR`; `locator` is the exact locator of the
enclosing function, which the separator test reads. -/
def SET_NEW_FUZZY_LOCATOR (fzlocator locator : Option (List Char)) (key : List Char)
    (isarray : Bool) : List Char :=
  if isarray then
    snprintf_key (fzlocator.getD key ++ [Char.ofNat 91, Char.ofNat 120, Char.ofNat 93])
  else
    snprintf_key (fzlocator.getD [] ++
      (match fzlocator, locator with
       | some _, some (_ :: _) => [Char.ofNat 46]
       | _, _ => []) ++ key)

/-! ## Dimension unrolling and rebasing -/

/-- Function `jmap_array_move_next_dimen`: the node of the next array dimension
at index `idx`, all-zero on a depth error. -/
def jmap_array_move_next_dimen (jmitem : jmap_item_t) (idx : Nat) : jmap_item_t :=
  if jmitem.arr.cur_depth ≥ jmitem.arr.depth ∨ jmitem.arr.deptab.getD 0 0 = 0 then
    jmap_item_zero
  else
    { type := if jmitem.arr.depth - jmitem.arr.cur_depth = 1 then jmitem.basetype else .array,
      key := jmitem.key,
      offset := (jmitem.offset + jmitem.size * idx) % PTR_MOD,
      size := jmitem.size / jmitem.arr.deptab.getD 0 0,
      subjm := jmitem.subjm,
      basetype := jmitem.basetype,
      arr := { length := jmitem.arr.deptab.getD 0 0,
               deptab := jmitem.arr.deptab.tail ++ [0],
               depth := jmitem.arr.depth,
               cur_depth := jmitem.arr.cur_depth + 1 },
      rule := jmitem.rule }

/-- Replace one tree of the store. -/
def set_mapper (w : World) (p : Nat) (m : jxs_mapper) : World :=
  { w with mappers := fun q => if q = p then m else w.mappers q }

/-- Replace the offset of a node. -/
def set_offset (it : jmap_item_t) (off : Nat) : jmap_item_t := { it with offset := off }

/-- Apply `f` to the first `n` nodes of a node list. -/
def map_first (n : Nat) (f : jmap_item_t → jmap_item_t) (l : Nat → jmap_item_t) :
    Nat → jmap_item_t :=
  fun i => if i < n then f (l i) else l i

/-- Function `jmap_struct_move_forward`: add `stsize * idx` to the offset of
each of the first `idx` (count) nodes of tree `p`. -/
def jmap_struct_move_forward (w : World) (p : Nat) (stsize idx : Nat) : World :=
  let m := w.mappers p
  set_mapper w p
    { jmhead := m.jmhead,
      jmlist := map_first m.jmhead.idx
        (fun it => set_offset it ((it.offset + stsize * idx) % PTR_MOD)) m.jmlist }

/-- Function `jmap_struct_move_backward`: subtract `stsize * idx` from the
offset of each node of tree `p`. -/
def jmap_struct_move_backward (w : World) (p : Nat) (stsize idx : Nat) : World :=
  let m := w.mappers p
  set_mapper w p
    { jmhead := m.jmhead,
      jmlist := map_first m.jmhead.idx
        (fun it => set_offset it
          ((it.offset + (PTR_MOD - (stsize * idx) % PTR_MOD)) % PTR_MOD)) m.jmlist }

/-- Assignment `sub_jmhead->start_addr = addr`. -/
def set_start_addr (w : World) (p : Nat) (addr : Nat) : World :=
  let m := w.mappers p
  set_mapper w p { jmhead := { m.jmhead with start_addr := addr }, jmlist := m.jmlist }

/-! ## Rule engine -/

/-- The emptiness classification of `jmap_convert_handler` (the `switch` that
computes `is_empty`), on the memory the handler sees. -/
def value_is_empty (mem : Mem) (type : jxs_type) (size vptr : Nat) : Bool :=
  match type with
  | .boolean =>
    if size = 4 then decide (read_int mem vptr 4 = 0)
    else if size = 1 then decide ((mem vptr).val = 0)
    else true
  | .double =>
    if size = 8 then !(f64_nonzero (read_le mem vptr 8))
    else if size = 4 then decide (read_le mem vptr 4 % 2147483648 = 0)
    else true
  | .int =>
    if size = 8 then decide (read_int mem vptr 8 = 0)
    else if size = 4 then decide (read_int mem vptr 4 = 0)
    else if size = 2 then decide (read_int mem vptr 2 = 0)
    else if size = 1 then decide (read_int mem vptr 1 = 0)
    else true
  | .string => decide (vptr = 0) || decide ((mem vptr).val = 0)
  | .object => decide (read_le mem vptr 8 = 0)
  | _ => false

/-- The view of the context that the callback gets for a visit at `vptr`. -/
def cb_view (w : World) (vptr : Nat) : CbView :=
  { locator := w.ctx.now_locator, fzlocator := w.ctx.now_fzlocator,
    vptr := vptr, userdata := w.ctx.userdata, mem := w.mem }

/-- Function `jmap_convert_handler`: the action for one visit, with the context
updated (`now.vptr`, the one-shot override slot) and the callback run. -/
def jmap_convert_handler (w : World) (jmitem : jmap_item_t) (vptr : Nat) :
    item_action × World :=
  if jmitem.rule = 0 then (.RULE_ITEM_ERROR, w)
  else
    let w1 : World := { w with ctx := { w.ctx with now_vptr := vptr } }
    let r : Nat × Bool × World :=
      match w1.ctx.convert_callback with
      | none => (jmitem.rule, false, w1)
      | some cb =>
        let view : CbView := cb_view w vptr
        let eff := cb view
        let crule :=
          match eff.rule with
          | some x => x % 256
          | none => w1.ctx.convert_rule
        let w2 : World :=
          { w1 with ctx := { w1.ctx with convert_rule := 0 }, mem := eff.mem,
                    cb_calls := w1.cb_calls ++ [view] }
        if crule ≠ 0 then (crule, true, w2) else (jmitem.rule, false, w2)
    let rule := r.1
    let is_force := r.2.1
    let w3 := r.2.2
    if rule = JXS_RULE_KEEP_RAW then (.RULE_ITEM_KEEP, w3)
    else if !is_force && !(value_is_empty w3.mem jmitem.type jmitem.size vptr) then
      (.RULE_ITEM_KEEP, w3)
    else if rule = JXS_RULE_DROP_SELF then (.RULE_ITEM_DELETE, w3)
    else if rule = JXS_RULE_SET_NULL then (.RULE_ITEM_SET, w3)
    else (.RULE_ITEM_KEEP, w3)

/-! ## Serialization -/

/-- The scalar cases of the `switch` of `jmap_to_json_warpper`; `none` is the
`goto end` of a size that matches no native width (and of a type that is not a
scalar). -/
def to_json_scalar (lib : JsonLib) (mem : Mem) (type : jxs_type) (size vptr : Nat) :
    Option Json :=
  match type with
  | .null => some .null
  | .boolean =>
    if size = 4 then some (.boolean (read_int mem vptr 4))
    else if size = 1 then some (.boolean ((mem vptr).val : Int))
    else none
  | .double =>
    if size = 8 then some (.double (read_le mem vptr 8))
    else if size = 4 then some (.double (lib.f32_to_f64 (read_le mem vptr 4)))
    else none
  | .int =>
    if size = 8 then some (.int (read_int mem vptr 8))
    else if size = 4 then some (.int (read_int mem vptr 4))
    else if size = 2 then some (.int (read_int mem vptr 2))
    else if size = 1 then some (.int (read_int mem vptr 1))
    else none
  | .string => some (.string (c_string mem vptr))
  | .object => some (jso_of_ptr lib (read_le mem vptr 8))
  | _ => none

/-- The address `start_addr + offset` of a node of a tree based at `start`. -/
def base_of (start : Nat) (jmitem : jmap_item_t) : Nat := (start + jmitem.offset) % PTR_MOD

/-- The address `start_addr + offset + size * idx` of element `idx` of a node. -/
def addr_of (start : Nat) (jmitem : jmap_item_t) (idx : Nat) : Nat :=
  (base_of start jmitem + jmitem.size * idx) % PTR_MOD

/-- The address `(uint8_t *)jmhead->start_addr + jmitem->offset` that both
wrappers compare with `NULL`. -/
def node_base (w : World) (hp : Nat) (jmitem : jmap_item_t) : Nat :=
  base_of (w.mappers hp).jmhead.start_addr jmitem

/-- The address `vptr` of element `idx` of a node: `node_base + size * idx`. -/
def node_addr (w : World) (hp : Nat) (jmitem : jmap_item_t) (idx : Nat) : Nat :=
  addr_of (w.mappers hp).jmhead.start_addr jmitem idx

/-- Add a visit to the record. -/
def record_visit (w : World) (vptr : Nat) (jmitem : jmap_item_t) : World :=
  { w with visits := w.visits ++ [{ vptr := vptr, type := jmitem.type, size := jmitem.size }] }

/-- Set the exact and fuzzy locator of the context. -/
def set_now (w : World) (loc fz : List Char) : World :=
  { w with ctx := { w.ctx with now_locator := some loc, now_fzlocator := some fz } }

/-- The `for` loop of `jmap_to_json_array`: `n` iterations left, next index `i`.
`wr` is the wrapper called for each element. -/
def to_json_array_loop (wr : Nat → jmap_item_t → Nat → World → Option (Int × Json × World))
    (hp : Nat) (jmitem : jmap_item_t) (locator fzlocator : Option (List Char)) :
    Nat → Nat → Json → World → Option (Int × Json × World)
  | 0, _, arrjso, w => some (0, arrjso, w)
  | n + 1, i, arrjso, w =>
    let w1 := set_now w (SET_NEW_LOCATOR locator jmitem.key true i)
      (SET_NEW_FUZZY_LOCATOR fzlocator locator jmitem.key true)
    match wr hp jmitem i w1 with
    | none => none
    | some (ret, item_jso, w2) =>
      if ret = -1 then some (-1, arrjso, w2)
      else if ret = 0 then
        to_json_array_loop wr hp jmitem locator fzlocator n (i + 1)
          (json_object_array_add arrjso item_jso) w2
      else to_json_array_loop wr hp jmitem locator fzlocator n (i + 1) arrjso w2

/-- Function `jmap_to_json_array` over a given element wrapper. -/
def jmap_to_json_array_with
    (wr : Nat → jmap_item_t → Nat → World → Option (Int × Json × World))
    (hp : Nat) (jmitem : jmap_item_t) (arrjso : Json) (w : World) :
    Option (Int × Json × World) :=
  if jmitem.size = 0 ∨ jmitem.arr.length = 0 then some (-1, arrjso, w)
  else if !arrjso.is_array then some (-1, arrjso, w)
  else to_json_array_loop wr hp jmitem w.ctx.now_locator w.ctx.now_fzlocator
    jmitem.arr.length 0 arrjso w

/-- The `for` loop of `jmap_to_json_object` over the nodes of tree `p`: `n`
iterations left, next node `i`. -/
def to_json_object_loop (wr : Nat → jmap_item_t → Nat → World → Option (Int × Json × World))
    (p : Nat) (locator fzlocator : Option (List Char)) :
    Nat → Nat → Json → World → Option (Int × Json × World)
  | 0, _, jso, w => some (0, jso, w)
  | n + 1, i, jso, w =>
    let jmitem := (w.mappers p).jmlist i
    let w1 := set_now w (SET_NEW_LOCATOR locator jmitem.key false 0)
      (SET_NEW_FUZZY_LOCATOR fzlocator locator jmitem.key false)
    match wr p jmitem 0 w1 with
    | none => none
    | some (ret, item_jso, w2) =>
      if ret = -1 then some (-1, jso, w2)
      else if ret = 0 then
        to_json_object_loop wr p locator fzlocator n (i + 1)
          (json_object_object_add jso jmitem.key item_jso) w2
      else to_json_object_loop wr p locator fzlocator n (i + 1) jso w2

/-- Function `jmap_to_json_object` over a given node wrapper. -/
def jmap_to_json_object_with
    (wr : Nat → jmap_item_t → Nat → World → Option (Int × Json × World))
    (p : Nat) (jso : Json) (w : World) : Option (Int × Json × World) :=
  if jso.is_null then some (-1, jso, w)
  else if !jso.is_object then some (-1, jso, w)
  else to_json_object_loop wr p w.ctx.now_locator w.ctx.now_fzlocator
    (w.mappers p).jmhead.idx 0 jso w

/-- The `switch (type)` of `jmap_to_json_warpper`, reached when the rule engine
neither deletes nor nulls the node; `wr` is the wrapper used by the recursive
walks, `vptr` the address of the node. -/
def to_json_by_type (lib : JsonLib)
    (wr : Nat → jmap_item_t → Nat → World → Option (Int × Json × World))
    (hp : Nat) (jmitem : jmap_item_t) (idx vptr : Nat) (w1 : World) :
    Option (Int × Json × World) :=
  match jmitem.type with
  | .struct =>
    match jmitem.subjm with
    | none => some (0, .null, w1)
    | some q =>
      let w2 := set_start_addr w1 q (node_base w1 hp jmitem)
      let w3 := jmap_struct_move_forward w2 q jmitem.size idx
      match jmap_to_json_object_with wr q (.object []) w3 with
      | none => none
      | some (ret, jso, w4) =>
        if ret = -1 then some (-1, .null, w4)
        else some (ret, jso, jmap_struct_move_backward w4 q jmitem.size idx)
  | .array =>
    match jmap_to_json_array_with wr hp (jmap_array_move_next_dimen jmitem idx)
        (.array []) w1 with
    | none => none
    | some (ret, jso, w4) =>
      if ret = -1 then some (-1, .null, w4) else some (ret, jso, w4)
  | t =>
    match to_json_scalar lib w1.mem t jmitem.size vptr with
    | some j => some (0, j, w1)
    | none => some (0, .null, w1)

/-- Function `jmap_to_json_warpper`: serialize node `jmitem` of the tree with
head `hp` at index `idx`.  The result is the return code, the value left in
`*jso` (`NULL` when it is not assigned) and the world. -/
def jmap_to_json_warpper (lib : JsonLib) :
    Nat → Nat → jmap_item_t → Nat → World → Option (Int × Json × World)
  | 0, _, _, _, _ => none
  | fuel + 1, hp, jmitem, idx, w =>
    if node_base w hp jmitem = 0 then some (-1, .null, w)
    else
      let vptr := node_addr w hp jmitem idx
      let r := jmap_convert_handler (record_visit w vptr jmitem) jmitem vptr
      match r.1 with
      | .RULE_ITEM_DELETE => some (1, .null, r.2)
      | .RULE_ITEM_SET => some (0, .null, r.2)
      | _ => to_json_by_type lib (jmap_to_json_warpper lib fuel) hp jmitem idx vptr r.2

/-- Function `jmap_to_json_array`. -/
def jmap_to_json_array (lib : JsonLib) (fuel : Nat) (hp : Nat) (jmitem : jmap_item_t)
    (arrjso : Json) (w : World) : Option (Int × Json × World) :=
  jmap_to_json_array_with (jmap_to_json_warpper lib fuel) hp jmitem arrjso w

/-- Function `jmap_to_json_object`. -/
def jmap_to_json_object (lib : JsonLib) (fuel : Nat) (p : Nat) (jso : Json) (w : World) :
    Option (Int × Json × World) :=
  jmap_to_json_object_with (jmap_to_json_warpper lib fuel) p jso w

/-! ## Deserialization -/

/-- The scalar cases of the `switch` of `jmap_from_json_warpper`: the memory
after the store, `none` for the `return -1` of a size that matches no native
width (and for a type that is not a scalar). -/
def from_json_scalar (lib : JsonLib) (mem : Mem) (type : jxs_type) (size vptr : Nat)
    (item_jso : Json) : Option Mem :=
  match type with
  | .null => some (memset0 mem vptr size)
  | .boolean =>
    if size = 4 then some (write_int mem vptr 4 (json_object_get_boolean item_jso))
    else if size = 1 then
      some (write_le mem vptr 1 (if json_object_get_boolean item_jso ≠ 0 then 1 else 0))
    else none
  | .double =>
    if size = 8 then some (write_le mem vptr 8 (json_object_get_double lib item_jso))
    else if size = 4 then
      some (write_le mem vptr 4 (lib.f64_to_f32 (json_object_get_double lib item_jso)))
    else none
  | .int =>
    if size = 8 then some (write_int mem vptr 8 (json_object_get_int64 lib item_jso))
    else if size = 4 then some (write_int mem vptr 4 (json_object_get_int lib item_jso))
    else if size = 2 then some (write_int mem vptr 2 (json_object_get_int lib item_jso))
    else if size = 1 then some (write_int mem vptr 1 (json_object_get_int lib item_jso))
    else none
  | .string =>
    match json_object_get_string lib item_jso with
    | none => some (memset0 mem vptr size)
    | some str => some (write_bytes mem vptr (snprintf_bytes size str))
  | .object => some (write_le mem vptr 8 (ptr_of_jso lib item_jso))
  | _ => none

/-- Replace the memory of a world. -/
def set_mem (w : World) (mem : Mem) : World := { w with mem := mem }

/-- The `for` loop of `jmap_from_json_array`: `n` iterations left, next index
`i`. -/
def from_json_array_loop (wr : Nat → jmap_item_t → Nat → Json → World → Option (Int × World))
    (hp : Nat) (jmitem : jmap_item_t) (locator fzlocator : Option (List Char))
    (arrjso : Json) : Nat → Nat → World → Option (Int × World)
  | 0, _, w => some (0, w)
  | n + 1, i, w =>
    let w1 := set_now w (SET_NEW_LOCATOR locator jmitem.key true i)
      (SET_NEW_FUZZY_LOCATOR fzlocator locator jmitem.key true)
    match wr hp jmitem i (json_object_array_get_idx arrjso i) w1 with
    | none => none
    | some (ret, w2) =>
      if ret ≠ 0 then some (-1, w2)
      else from_json_array_loop wr hp jmitem locator fzlocator arrjso n (i + 1) w2

/-- Function `jmap_from_json_array` over a given element wrapper.  The loop
bound is the length of the document array (`arr_len = jarr_len`). -/
def jmap_from_json_array_with
    (wr : Nat → jmap_item_t → Nat → Json → World → Option (Int × World))
    (hp : Nat) (jmitem : jmap_item_t) (arrjso : Json) (w : World) : Option (Int × World) :=
  if arrjso.is_null then some (-1, w)
  else if jmitem.size = 0 ∨ jmitem.arr.length = 0 then some (-1, w)
  else if !arrjso.is_array then some (-1, w)
  else from_json_array_loop wr hp jmitem w.ctx.now_locator w.ctx.now_fzlocator arrjso
    (json_object_array_length arrjso) 0 w

/-- The `for` loop of `jmap_from_json_object` over the nodes of tree `p`. -/
def from_json_object_loop (wr : Nat → jmap_item_t → Nat → Json → World → Option (Int × World))
    (p : Nat) (locator fzlocator : Option (List Char)) (jso : Json) :
    Nat → Nat → World → Option (Int × World)
  | 0, _, w => some (0, w)
  | n + 1, i, w =>
    let jmitem := (w.mappers p).jmlist i
    let w1 := set_now w (SET_NEW_LOCATOR locator jmitem.key false 0)
      (SET_NEW_FUZZY_LOCATOR fzlocator locator jmitem.key false)
    match wr p jmitem 0 (json_object_object_get jso jmitem.key) w1 with
    | none => none
    | some (ret, w2) =>
      if ret ≠ 0 then some (-1, w2)
      else from_json_object_loop wr p locator fzlocator jso n (i + 1) w2

/-- Function `jmap_from_json_object` over a given node wrapper. -/
def jmap_from_json_object_with
    (wr : Nat → jmap_item_t → Nat → Json → World → Option (Int × World))
    (p : Nat) (jso : Json) (w : World) : Option (Int × World) :=
  if jso.is_null then some (-1, w)
  else from_json_object_loop wr p w.ctx.now_locator w.ctx.now_fzlocator jso
    (w.mappers p).jmhead.idx 0 w

/-- The `switch (type)` of `jmap_from_json_warpper`; `wr` is the wrapper used
by the recursive walks, `vptr` the address of the node. -/
def from_json_by_type (lib : JsonLib)
    (wr : Nat → jmap_item_t → Nat → Json → World → Option (Int × World))
    (hp : Nat) (jmitem : jmap_item_t) (idx vptr : Nat) (item_jso : Json) (w1 : World) :
    Option (Int × World) :=
  match jmitem.type with
  | .struct =>
    match jmitem.subjm with
    | none => some (-1, w1)
    | some q =>
      if item_jso.is_null then some (0, set_mem w1 (memset0 w1.mem vptr jmitem.size))
      else
        let w2 := set_start_addr w1 q (node_base w1 hp jmitem)
        let w3 := jmap_struct_move_forward w2 q jmitem.size idx
        match jmap_from_json_object_with wr q item_jso w3 with
        | none => none
        | some (ret, w4) =>
          if ret ≠ 0 then some (-1, w4)
          else some (0, jmap_struct_move_backward w4 q jmitem.size idx)
  | .array =>
    if item_jso.is_null then some (0, set_mem w1 (memset0 w1.mem vptr jmitem.size))
    else
      match jmap_from_json_array_with wr hp (jmap_array_move_next_dimen jmitem idx)
          item_jso w1 with
      | none => none
      | some (ret, w4) => if ret ≠ 0 then some (-1, w4) else some (0, w4)
  | t =>
    match from_json_scalar lib w1.mem t jmitem.size vptr item_jso with
    | some mem => some (0, set_mem w1 mem)
    | none => some (-1, w1)

/-- Function `jmap_from_json_warpper`: fill node `jmitem` of the tree with head
`hp` at index `idx` from the document value `item_jso`. -/
def jmap_from_json_warpper (lib : JsonLib) :
    Nat → Nat → jmap_item_t → Nat → Json → World → Option (Int × World)
  | 0, _, _, _, _, _ => none
  | fuel + 1, hp, jmitem, idx, item_jso, w =>
    if node_base w hp jmitem = 0 then some (-1, w)
    else
      let vptr := node_addr w hp jmitem idx
      from_json_by_type lib (jmap_from_json_warpper lib fuel) hp jmitem idx vptr item_jso
        (record_visit w vptr jmitem)

/-- Function `jmap_from_json_array`. -/
def jmap_from_json_array (lib : JsonLib) (fuel : Nat) (hp : Nat) (jmitem : jmap_item_t)
    (arrjso : Json) (w : World) : Option (Int × World) :=
  jmap_from_json_array_with (jmap_from_json_warpper lib fuel) hp jmitem arrjso w

/-- Function `jmap_from_json_object`. -/
def jmap_from_json_object (lib : JsonLib) (fuel : Nat) (p : Nat) (jso : Json) (w : World) :
    Option (Int × World) :=
  jmap_from_json_object_with (jmap_from_json_warpper lib fuel) p jso w

/-! ## Construction, lifetime and the public entry points -/

/-- Pool size `MAPPER_BUFFER_LENGTH = 10000 / sizeof(jmap_item_t)`, with
`sizeof(jmap_item_t) = 152` on the LP64 target. -/
def MAPPER_BUFFER_LENGTH : Nat := 10000 / 152

/-- Function `jxs_map_basic_new`; `context` tells whether the context pointer is
non-`NULL`.  A pooled tree gets the pool index as its handle, a heap tree the
handle `MAPPER_BUFFER_LENGTH + heap_next`.  The heap branch is the one in which
`calloc` returns a block: the failure path of `calloc` (return `NULL`) is not
modelled.  A tree is addressed by its handle: the node lists of two pooled
trees whose slot ranges overlap are kept apart (the overlap shows in the
handles and limits, not as aliasing of nodes). -/
def jxs_map_basic_new (w : World) (context : Bool) (num : Nat) : Option Nat × World :=
  if num = 0 then (none, w)
  else if context = false then (none, w)
  else if (MAPPER_BUFFER_LENGTH + (PTR_MOD - w.ctx.buf_idx % PTR_MOD)) % PTR_MOD
      < (num + 1) % PTR_MOD then
    let p := MAPPER_BUFFER_LENGTH + w.heap_next
    let w1 : World := { w with heap_next := w.heap_next + 1 }
    (some p, set_mapper w1 p
      { jmhead := { isbuf := false, limit := num, idx := 0, ref := 0,
                    start_addr := w.ctx.start_addr },
        jmlist := fun _ => jmap_item_zero })
  else
    let p := w.ctx.buf_idx
    let w1 : World := { w with ctx := { w.ctx with buf_idx := (w.ctx.buf_idx + (num + 1)) % PTR_MOD } }
    let m := w1.mappers p
    (some p, set_mapper w1 p
      { jmhead := { m.jmhead with isbuf := true, limit := num, start_addr := w.ctx.start_addr },
        jmlist := m.jmlist })

/-- A pointer to a node: the tree handle and the slot index in its node list. -/
abbrev jxs_item := Nat × Nat

/-- The dimension table and depth that `jxs_item_basic_add` reads from its
variable argument list `va` (each argument an `int` converted to `size_t`; an
exhausted list reads as 0). -/
def va_deptab (va : List Int) : List Nat × Nat :=
  let vals := (List.range (JXS_ARRAY_DEPTH + 1)).map (fun i => of_signed 8 (va.getD i 0))
  let k := vals.findIdx (fun v => decide (v = 0))
  if k < JXS_ARRAY_DEPTH + 1 then
    (vals.take k ++ List.replicate (JXS_ARRAY_DEPTH + 1 - k) 0, k)
  else (vals, 0)

/-- Replace slot `i` of a node list. -/
def set_slot (l : Nat → jmap_item_t) (i : Nat) (it : jmap_item_t) : Nat → jmap_item_t :=
  fun j => if j = i then it else l j

/-- Function `jxs_item_basic_add`. -/
def jxs_item_basic_add (w : World) (mapper : Option Nat) (type : jxs_type) (key : List Char)
    (offset : Int) (mbsize : Nat) (subjm : Option Nat) (va : List Int) :
    Option jxs_item × World :=
  match mapper with
  | none => (none, w)
  | some p =>
    if type = .array then (none, w)
    else if type = .struct ∧ subjm = none then (none, w)
    else
      let m := w.mappers p
      if m.jmhead.idx ≥ m.jmhead.limit then (none, w)
      else
        let dt := va_deptab va
        let item0 : jmap_item_t :=
          { type := .null, key := key, offset := of_signed 8 offset, size := mbsize,
            subjm := subjm, basetype := type,
            arr := { length := 0, deptab := dt.1, depth := dt.2, cur_depth := 0 }, rule := 0 }
        if dt.1.getD JXS_ARRAY_DEPTH 0 ≠ 0 then
          (none, set_mapper w p { jmhead := m.jmhead, jmlist := set_slot m.jmlist m.jmhead.idx item0 })
        else
          let item : jmap_item_t :=
            { item0 with type := if dt.2 = 0 then type else .array, rule := JXS_RULE_KEEP_RAW }
          let w1 := set_mapper w p
            { jmhead := m.jmhead, jmlist := set_slot m.jmlist m.jmhead.idx item }
          let w2 :=
            match subjm with
            | none => w1
            | some q =>
              let mq := w1.mappers q
              set_mapper w1 q
                { jmhead := { mq.jmhead with ref := (mq.jmhead.ref + 1) % PTR_MOD },
                  jmlist := mq.jmlist }
          let mp := w2.mappers p
          (some (p, m.jmhead.idx), set_mapper w2 p
            { jmhead := { mp.jmhead with idx := (mp.jmhead.idx + 1) % PTR_MOD },
              jmlist := mp.jmlist })

/-- Function `jxs_item_set_rule`. -/
def jxs_item_set_rule (w : World) (item : Option jxs_item) (rule : Int) : World :=
  match item with
  | none => w
  | some (p, i) =>
    let m := w.mappers p
    set_mapper w p
      { jmhead := m.jmhead,
        jmlist := set_slot m.jmlist i { (m.jmlist i) with rule := of_signed 1 rule } }

/-- Function `jxs_item_set_constkey`. -/
def jxs_item_set_constkey (w : World) (item : Option jxs_item) (key : List Char) : World :=
  match item with
  | none => w
  | some (p, i) =>
    let m := w.mappers p
    set_mapper w p
      { jmhead := m.jmhead, jmlist := set_slot m.jmlist i { (m.jmlist i) with key := key } }

/-- Function `jxs_set_convert_callback` (a `NULL` callback is refused). -/
def jxs_set_convert_callback (w : World) (cb : Option (CbView → CbEffect)) : World :=
  match cb with
  | none => w
  | some f => { w with ctx := { w.ctx with convert_callback := some f } }

/-- The loop of `jxs_map_basic_delete` over the nodes of tree `p`; `del` is the
recursive call. -/
def map_delete_loop (del : Option Nat → World → Option World) (p : Nat) :
    Nat → Nat → World → Option World
  | 0, _, w => some w
  | n + 1, i, w =>
    let jmitem := (w.mappers p).jmlist i
    if jmitem.type = .struct ∨ jmitem.basetype = .struct then
      match del jmitem.subjm w with
      | none => none
      | some w1 => map_delete_loop del p n (i + 1) w1
    else map_delete_loop del p n (i + 1) w

/-- Function `jxs_map_basic_delete`; a heap tree that is released is added to
the `freed` record. -/
def jxs_map_basic_delete : Nat → Option Nat → World → Option World
  | 0, _, _ => none
  | _ + 1, none, w => some w
  | fuel + 1, some p, w =>
    if (w.mappers p).jmhead.ref = 1 then
      match map_delete_loop (jxs_map_basic_delete fuel) p (w.mappers p).jmhead.idx 0 w with
      | none => none
      | some w1 =>
        if (w1.mappers p).jmhead.isbuf = false then some { w1 with freed := w1.freed ++ [p] }
        else some w1
    else
      let m := w.mappers p
      some (set_mapper w p
        { jmhead := { m.jmhead with ref := (m.jmhead.ref + (PTR_MOD - 1)) % PTR_MOD },
          jmlist := m.jmlist })

/-- Function `check_ref_count`: the code and the world (root count set to 1 on
success). -/
def check_ref_count (w : World) (p : Nat) : Int × World :=
  let m := w.mappers p
  if m.jmhead.ref ≠ 0 then (-1, w)
  else (0, set_mapper w p { jmhead := { m.jmhead with ref := 1 }, jmlist := m.jmlist })

/-- A descriptor-builder callback `jxs_descriptor`: it returns the root tree or
`NULL`. -/
abbrev jxs_descriptor := World → Option Nat × World

/-- A call `func(&ctx)` of the builder: the builder works on the context and on
the mapper store only, the rest of the world is kept. -/
def call_descriptor (f : jxs_descriptor) (w : World) : Option Nat × World :=
  ((f w).1, { w with ctx := (f w).2.ctx, mappers := (f w).2.mappers })

/-- The world at the start of a public entry point: zeroed context and pool
buffer. -/
def world_init (mem : Mem) : World :=
  { ctx := { start_addr := 0, userdata := 0, buf_idx := 0, now_locator := none,
             now_fzlocator := none, now_vptr := 0, convert_rule := 0,
             convert_callback := none },
    mappers := fun _ => jxs_mapper_zero, mem := mem, cb_calls := [], visits := [],
    freed := [], heap_next := 0 }

/-- The assignments `ctx.start_addr = stptr; ctx.opaque = opaque`. -/
def set_ctx_target (w : World) (stptr userdata : Nat) : World :=
  { w with ctx := { w.ctx with start_addr := stptr, userdata := userdata } }

/-- Function `jxs_struct_to_json_object`: the returned document (`Json.null`
for the `NULL` result) and the final world. -/
def jxs_struct_to_json_object (lib : JsonLib) (fuel : Nat) (func : Option jxs_descriptor)
    (stptr userdata : Nat) (mem : Mem) : Option (Json × World) :=
  let w0 := world_init mem
  match func with
  | none => (jxs_map_basic_delete fuel none w0).map (fun w => (Json.null, w))
  | some f =>
    if stptr = 0 then (jxs_map_basic_delete fuel none w0).map (fun w => (Json.null, w))
    else
      let r := call_descriptor f (set_ctx_target w0 stptr userdata)
      match r.1 with
      | none => (jxs_map_basic_delete fuel none r.2).map (fun w => (Json.null, w))
      | some p =>
        let c := check_ref_count r.2 p
        if c.1 ≠ 0 then (jxs_map_basic_delete fuel (some p) c.2).map (fun w => (Json.null, w))
        else
          match jmap_to_json_object lib fuel p (.object []) c.2 with
          | none => none
          | some (ret, jso, w1) =>
            if ret ≠ 0 then (jxs_map_basic_delete fuel (some p) w1).map (fun w => (Json.null, w))
            else (jxs_map_basic_delete fuel (some p) w1).map (fun w => (jso, w))

/-- Function `jxs_struct_from_json_object`: the return code and the final
world. -/
def jxs_struct_from_json_object (lib : JsonLib) (fuel : Nat) (func : Option jxs_descriptor)
    (stptr userdata : Nat) (jso : Json) (mem : Mem) : Option (Int × World) :=
  let w0 := world_init mem
  match func with
  | none => (jxs_map_basic_delete fuel none w0).map (fun w => ((-1 : Int), w))
  | some f =>
    if stptr = 0 ∨ jso.is_null then
      (jxs_map_basic_delete fuel none w0).map (fun w => ((-1 : Int), w))
    else
      let r := call_descriptor f (set_ctx_target w0 stptr userdata)
      match r.1 with
      | none => (jxs_map_basic_delete fuel none r.2).map (fun w => ((-1 : Int), w))
      | some p =>
        let c := check_ref_count r.2 p
        if c.1 ≠ 0 then
          (jxs_map_basic_delete fuel (some p) c.2).map (fun w => ((-1 : Int), w))
        else
          match jmap_from_json_object lib fuel p jso c.2 with
          | none => none
          | some (ret, w1) =>
            if ret ≠ 0 then
              (jxs_map_basic_delete fuel (some p) w1).map (fun w => ((-1 : Int), w))
            else (jxs_map_basic_delete fuel (some p) w1).map (fun w => ((0 : Int), w))

/-! ## Concrete inputs used by the evaluations below -/

/-- A document library instance for evaluations (the uninterpreted parts are
constant). -/
def lib0 : JsonLib :=
  { f32_to_f64 := fun b => b, f64_to_f32 := fun b => b, f64_to_int64 := fun _ => 0,
    int64_to_f64 := fun _ => 0, str_to_int64 := fun _ => 0, str_to_f64 := fun _ => 0,
    to_json_string := fun _ => [], deref := fun _ => .null, addr_of := fun _ => 0 }

/-- Memory holding zero everywhere. -/
def mem_zero : Mem := fun _ => 0

/-- Builder of a one-node tree: an integer field `a` at offset 0 declared with
size 3. -/
def bld_int3 : jxs_descriptor := fun w =>
  let r := jxs_map_basic_new w true 1
  (r.1, (jxs_item_basic_add r.2 r.1 .int [Char.ofNat 97] 0 3 none [0]).2)

/-- The world in which the traversal of `bld_int3` starts, for the aggregate at
address 100 in zeroed memory. -/
def world_int3 : World :=
  (check_ref_count (call_descriptor bld_int3 (set_ctx_target (world_init mem_zero) 100 0)).2 0).2

/-- Builder of a one-node tree: an `int32_t v[2]` field at offset 0 (size 8). -/
def bld_arr2 : jxs_descriptor := fun w =>
  let r := jxs_map_basic_new w true 1
  (r.1, (jxs_item_basic_add r.2 r.1 .int [Char.ofNat 118] 0 8 none [2, 0]).2)

/-- The world in which the traversal of `bld_arr2` starts. -/
def world_arr2 : World :=
  (check_ref_count (call_descriptor bld_arr2 (set_ctx_target (world_init mem_zero) 100 0)).2 0).2

/-- A document array of three integers. -/
def doc_arr3 : Json := .array [.int 1, .int 2, .int 3]

/-- The world a visit without callback leaves: only `now.vptr` is set. -/
def set_now_vptr (w : World) (vptr : Nat) : World :=
  { w with ctx := { w.ctx with now_vptr := vptr } }


/-! ## Well-formedness of a mapper store -/

/-- The sub-tree relation is acyclic: `rank` strictly decreases from a tree to
the sub-tree of any of its nodes. -/
def Acyclic (rank : Nat → Nat) (S : Nat → jxs_mapper) : Prop :=
  ∀ p i q, i < (S p).jmhead.idx → ((S p).jmlist i).subjm = some q → rank q < rank p

/-- Every node offset is a 64-bit pattern. -/
def OffsOK (S : Nat → jxs_mapper) : Prop :=
  ∀ p i, i < (S p).jmhead.idx → ((S p).jmlist i).offset < PTR_MOD

/-- The sub-tree of node `it`, if any, lies below tree `hp`. -/
def Below (rank : Nat → Nat) (it : jmap_item_t) (hp : Nat) : Prop :=
  ∀ q, it.subjm = some q → rank q < rank hp

/-- What a traversal leaves of the mapper store: all node lists and counts, and
the base address of every tree of rank at least `n`. -/
structure StoreFrame (rank : Nat → Nat) (n : Nat) (w w' : World) : Prop where
  list : ∀ r, (w'.mappers r).jmlist = (w.mappers r).jmlist
  idx : ∀ r, (w'.mappers r).jmhead.idx = (w.mappers r).jmhead.idx
  start : ∀ r, n ≤ rank r →
    (w'.mappers r).jmhead.start_addr = (w.mappers r).jmhead.start_addr

/-- What a traversal leaves of the context and memory: the registered callback,
and, when no callback is registered, the memory and the override slot. -/
structure CtxFrame (w w' : World) : Prop where
  cb : w'.ctx.convert_callback = w.ctx.convert_callback
  mem : w.ctx.convert_callback = none → w'.mem = w.mem
  rule : w.ctx.convert_callback = none → w'.ctx.convert_rule = w.ctx.convert_rule

/-- The world that `jmap_convert_handler` leaves, apart from the action it
returns. -/
def handler_world (w : World) (jmitem : jmap_item_t) (vptr : Nat) : World :=
  if jmitem.rule = 0 then w
  else
    match w.ctx.convert_callback with
    | none => set_now_vptr w vptr
    | some cb =>
      { w with ctx := { w.ctx with now_vptr := vptr, convert_rule := 0 },
               mem := (cb (cb_view w vptr)).mem,
               cb_calls := w.cb_calls ++ [cb_view w vptr] }

/-- Frame property of a serialization wrapper: on a well-formed store it keeps
the context frame, and when it does not fail, the store frame at the rank of the
tree it works in. -/
def SerWrOK (rank : Nat → Nat)
    (wr : Nat → jmap_item_t → Nat → World → Option (Int × Json × World)) : Prop :=
  ∀ hp it idx w ret j w', Acyclic rank w.mappers → OffsOK w.mappers → Below rank it hp →
    wr hp it idx w = some (ret, j, w') →
    CtxFrame w w' ∧ (ret ≠ -1 → StoreFrame rank (rank hp) w w')

/-- Frame property of a deserialization wrapper. -/
def DeWrOK (rank : Nat → Nat)
    (wr : Nat → jmap_item_t → Nat → Json → World → Option (Int × World)) : Prop :=
  ∀ hp it idx jso w ret w', Acyclic rank w.mappers → OffsOK w.mappers → Below rank it hp →
    wr hp it idx jso w = some (ret, w') →
    w'.ctx.convert_callback = w.ctx.convert_callback ∧
      (ret = 0 → StoreFrame rank (rank hp) w w')

/-! ## More concrete inputs -/

/-- A node without array dimensions, as `jxs_item_basic_add` and
`jxs_item_set_rule` leave it. -/
def leaf_item (type : jxs_type) (key : List Char) (offset size rule : Nat) : jmap_item_t :=
  { type := type, key := key, offset := offset, size := size, subjm := none, basetype := type,
    arr := { length := 0, deptab := List.replicate 9 0, depth := 0, cur_depth := 0 },
    rule := rule }

/-- A world whose tree 0 holds the given nodes, for the aggregate at address
100. -/
def world_of_items (items : List jmap_item_t) (mem : Mem)
    (cb : Option (CbView → CbEffect)) : World :=
  { ctx := { start_addr := 100, userdata := 0, buf_idx := items.length + 1,
             now_locator := none, now_fzlocator := none, now_vptr := 0, convert_rule := 0,
             convert_callback := cb },
    mappers := fun p =>
      if p = 0 then
        { jmhead := { isbuf := true, limit := items.length, idx := items.length, ref := 1,
                      start_addr := 100 },
          jmlist := fun i => items.getD i jmap_item_zero }
      else jxs_mapper_zero,
    mem := mem, cb_calls := [], visits := [], freed := [], heap_next := 0 }

/-- A callback that forces keep-as-is on every visit and leaves memory alone. -/
def cb_keep_raw : CbView → CbEffect := fun v => { rule := some JXS_RULE_KEEP_RAW, mem := v.mem }

/-- An empty text field `s` of size 4 with static rule drop. -/
def item_text_drop : jmap_item_t := leaf_item .string [Char.ofNat 115] 0 4 JXS_RULE_DROP_SELF

/-- A callback that forces drop on every visit and leaves memory alone. -/
def cb_drop_all : CbView → CbEffect := fun v => { rule := some JXS_RULE_DROP_SELF, mem := v.mem }

/-- An `int32_t` field `a` at offset 0 whose rule was never initialised. -/
def item_int_rule0 : jmap_item_t := leaf_item .int [Char.ofNat 97] 0 4 0

/-- Memory holding the `int32_t` value 5 at address 100 and zero elsewhere. -/
def mem_five : Mem := fun a => if a = 100 then 5 else 0

/-- The override in force on a visit at `vptr`: what the override slot holds
after the callback has run, 0 when no callback is registered. -/
def override_of (w : World) (vptr : Nat) : Nat :=
  match w.ctx.convert_callback with
  | none => 0
  | some cb =>
    match (cb (cb_view w vptr)).rule with
    | some x => x % 256
    | none => w.ctx.convert_rule

/-- A node with its static rule replaced (the effect of `jxs_item_set_rule` on
the node). -/
def with_rule (it : jmap_item_t) (r : Nat) : jmap_item_t := { it with rule := r }

/-- The value of a node is empty in the sense of the specification: a boolean
or integer field whose bytes are all zero, a text whose first byte is NUL, a
`NULL` document reference. -/
def field_is_empty (mem : Mem) (type : jxs_type) (size vptr : Nat) : Prop :=
  match type with
  | .boolean => read_le mem vptr size = 0
  | .int => read_le mem vptr size = 0
  | .string => (mem vptr).val = 0
  | .object => read_le mem vptr 8 = 0
  | _ => False

instance field_is_empty_decidable (mem : Mem) (type : jxs_type) (size vptr : Nat) :
    Decidable (field_is_empty mem type size vptr) := by
  unfold field_is_empty
  cases type <;> infer_instance

/-- A node that `jxs_item_basic_add` builds for an array field with one
dimension `len`. -/
def array_item (type : jxs_type) (key : List Char) (offset size len rule : Nat) : jmap_item_t :=
  { type := .array, key := key, offset := offset, size := size, subjm := none, basetype := type,
    arr := { length := 0, deptab := len :: List.replicate 8 0, depth := 1, cur_depth := 0 },
    rule := rule }

/-- An `int32_t v[2]` field with static rule drop. -/
def item_arr_drop : jmap_item_t := array_item .int [Char.ofNat 118] 0 8 2 JXS_RULE_DROP_SELF

/-- Memory holding the `int32_t` values 0 and 5 at addresses 100 and 104. -/
def mem_zero_five : Mem := fun a => if a = 104 then 5 else 0

/-- The document of a serialization result (`Json.null` when there is none). -/
def result_json (r : Option (Int × Json × World)) : Json :=
  match r with
  | some (_, j, _) => j
  | none => .null

/-- An `int32_t` field `a` at offset 0 with static rule drop. -/
def item_a_drop : jmap_item_t := leaf_item .int [Char.ofNat 97] 0 4 JXS_RULE_DROP_SELF

/-- An `int32_t` field `a` at offset 0 with static rule force-null. -/
def item_a_null : jmap_item_t := leaf_item .int [Char.ofNat 97] 0 4 JXS_RULE_SET_NULL

/-- An `int32_t` field `b` at offset 4 with rule keep-as-is. -/
def item_b_keep : jmap_item_t := leaf_item .int [Char.ofNat 98] 4 4 JXS_RULE_KEEP_RAW

/-- An `int32_t` field at offset 4 that reuses the key `a`, rule keep-as-is. -/
def item_a_again : jmap_item_t := leaf_item .int [Char.ofNat 97] 4 4 JXS_RULE_KEEP_RAW

/-- The rank that puts every tree at level 0 (a store without sub-trees). -/
def rank_flat : Nat → Nat := fun _ => 0

/-- The element node of an `int32_t v[2]` field with static rule force-null. -/
def item_elem_null : jmap_item_t :=
  jmap_array_move_next_dimen (array_item .int [Char.ofNat 118] 0 8 2 JXS_RULE_SET_NULL) 0

/-- The declared size of a boolean, floating or integer node matches none of
the native widths that the wrappers support for its kind. -/
def width_unsupported (type : jxs_type) (size : Nat) : Prop :=
  match type with
  | .boolean => size ≠ 4 ∧ size ≠ 1
  | .double => size ≠ 8 ∧ size ≠ 4
  | .int => size ≠ 8 ∧ size ≠ 4 ∧ size ≠ 2 ∧ size ≠ 1
  | _ => False

instance width_unsupported_decidable (type : jxs_type) (size : Nat) :
    Decidable (width_unsupported type size) := by
  unfold width_unsupported
  cases type <;> infer_instance

/-- Visit property of a deserialization wrapper: it only appends to the visit
record, and a call that returns 0 has visited no node of unsupported width. -/
def DeVisitsOK (wr : Nat → jmap_item_t → Nat → Json → World → Option (Int × World)) : Prop :=
  ∀ hp it idx jso w ret w', wr hp it idx jso w = some (ret, w') →
    ∃ vs, w'.visits = w.visits ++ vs ∧
      (ret = 0 → ∀ v ∈ vs, ¬ width_unsupported v.type v.size)

/-- Builder of a one-node tree: a boolean field `b` at offset 0 declared with
size 2. -/
def bld_bool2 : jxs_descriptor := fun w =>
  let r := jxs_map_basic_new w true 1
  (r.1, (jxs_item_basic_add r.2 r.1 .boolean [Char.ofNat 98] 0 2 none [0]).2)

/-- A leaf kind whose declared size is a width that `jmap_from_json_warpper`
supports and stores inside the `size` bytes of the node. -/
def leaf_fits (type : jxs_type) (size : Nat) : Prop :=
  match type with
  | .null => True
  | .boolean => size = 4 ∨ size = 1
  | .double => size = 8 ∨ size = 4
  | .int => size = 8 ∨ size = 4 ∨ size = 2 ∨ size = 1
  | .string => True
  | .object => 8 ≤ size
  | _ => False

instance leaf_fits_decidable (type : jxs_type) (size : Nat) :
    Decidable (leaf_fits type size) := by
  unfold leaf_fits
  cases type <;> infer_instance

/-- The memory after the leaf elements `i, i + 1, ...` (`n` of them) of the
array node `it` based at `base` have been stored one after the other from the
document array `arr`. -/
def store_elems (lib : JsonLib) (it : jmap_item_t) (base : Nat) (arr : Json) :
    Nat → Nat → Mem → Mem
  | 0, _, mem => mem
  | n + 1, i, mem =>
    store_elems lib it base arr n (i + 1)
      ((from_json_scalar lib mem it.type it.size ((base + it.size * i) % PTR_MOD)
        (json_object_array_get_idx arr i)).getD mem)

/-- The element node of an integer array field of total size 6 declared with
2 elements: each element has the unsupported size 3. -/
def item_elem_int3 : jmap_item_t :=
  jmap_array_move_next_dimen (array_item .int [Char.ofNat 118] 0 6 2 JXS_RULE_KEEP_RAW) 0

/-- The element node of an `int32_t v[4]` field. -/
def item_elem_int4 : jmap_item_t :=
  jmap_array_move_next_dimen (array_item .int [Char.ofNat 118] 0 16 4 JXS_RULE_KEEP_RAW) 0

/-! ## Round trip: valid aggregates and what a round trip preserves -/

/-- A leaf of the kinds of claim C1 holds valid data in memory `x`: a boolean of
width 4 or 1 holding 0 or 1, an integer of width 8, 4, 2 or 1, a text that lies
inside the address space and has a NUL inside its declared size. -/
def leaf_data_ok (x : Mem) (type : jxs_type) (size a : Nat) : Prop :=
  match type with
  | .boolean => (size = 4 ∧ read_le x a 4 ≤ 1) ∨ (size = 1 ∧ (x a).val ≤ 1)
  | .int => size = 8 ∨ size = 4 ∨ size = 2 ∨ size = 1
  | .string => a + size ≤ PTR_MOD ∧ ∃ k, k < size ∧ (x (a + k)).val = 0
  | _ => False

instance leaf_data_ok_decidable (x : Mem) (type : jxs_type) (size a : Nat) :
    Decidable (leaf_data_ok x type size a) := by
  unfold leaf_data_ok
  cases type <;> infer_instance

/-- Node `it` at index `idx`, in a tree based at `start`, describes valid data
of memory `x` under rule keep-as-is: its address is not `NULL`; a leaf holds
valid data; a sub-structure node has a sub-tree with pairwise distinct keys
whose nodes, rebased to the element, are valid; an array node has dimensions
left, a non-zero outer dimension and slice size, and valid elements.  `S` is the
mapper store at rest. -/
inductive NodeOK (S : Nat → jxs_mapper) (x : Mem) : Nat → jmap_item_t → Nat → Prop where
  | leaf (start : Nat) (it : jmap_item_t) (idx : Nat) :
      base_of start it ≠ 0 → it.rule = JXS_RULE_KEEP_RAW →
      leaf_data_ok x it.type it.size (addr_of start it idx) →
      NodeOK S x start it idx
  | struct (start : Nat) (it : jmap_item_t) (idx q : Nat) :
      base_of start it ≠ 0 → it.rule = JXS_RULE_KEEP_RAW →
      it.type = jxs_type.struct → it.subjm = some q →
      (∀ i j, i < (S q).jmhead.idx → j < (S q).jmhead.idx → i ≠ j →
        ((S q).jmlist i).key ≠ ((S q).jmlist j).key) →
      (∀ i, i < (S q).jmhead.idx →
        NodeOK S x (base_of start it)
          (set_offset ((S q).jmlist i) ((((S q).jmlist i).offset + it.size * idx) % PTR_MOD))
          0) →
      NodeOK S x start it idx
  | array (start : Nat) (it : jmap_item_t) (idx : Nat) :
      base_of start it ≠ 0 → it.rule = JXS_RULE_KEEP_RAW →
      it.type = jxs_type.array →
      it.arr.cur_depth < it.arr.depth → it.arr.deptab.getD 0 0 ≠ 0 →
      it.size / it.arr.deptab.getD 0 0 ≠ 0 →
      (∀ i, i < it.arr.deptab.getD 0 0 →
        NodeOK S x start (jmap_array_move_next_dimen it idx) i) →
      NodeOK S x start it idx

/-- The fields that node `it` at index `idx` describes, in a tree based at
`start`, as visits: the node itself, the fields of the nodes of its sub-tree
rebased to the element, and the fields of its array elements. -/
inductive Described (S : Nat → jxs_mapper) : Nat → jmap_item_t → Nat → Visit → Prop where
  | self (start : Nat) (it : jmap_item_t) (idx : Nat) :
      Described S start it idx
        { vptr := addr_of start it idx, type := it.type, size := it.size }
  | field (start : Nat) (it : jmap_item_t) (idx q i : Nat) (v : Visit) :
      it.type = jxs_type.struct → it.subjm = some q → i < (S q).jmhead.idx →
      Described S (base_of start it)
        (set_offset ((S q).jmlist i) ((((S q).jmlist i).offset + it.size * idx) % PTR_MOD))
        0 v →
      Described S start it idx v
  | elem (start : Nat) (it : jmap_item_t) (idx i : Nat) (v : Visit) :
      it.type = jxs_type.array → i < it.arr.deptab.getD 0 0 →
      Described S start (jmap_array_move_next_dimen it idx) i v →
      Described S start it idx v

/-- Tree `p` of store `S` describes valid data of memory `x`: its keys are
pairwise distinct and each of its nodes is valid. -/
def TreeOK (S : Nat → jxs_mapper) (x : Mem) (p : Nat) : Prop :=
  (∀ i j, i < (S p).jmhead.idx → j < (S p).jmhead.idx → i ≠ j →
    ((S p).jmlist i).key ≠ ((S p).jmlist j).key) ∧
  ∀ i, i < (S p).jmhead.idx → NodeOK S x (S p).jmhead.start_addr ((S p).jmlist i) 0

/-- Every byte of `m'` is the byte of `m` or the byte of `x` at that address. -/
def MemRel (x m m' : Mem) : Prop := ∀ a, m' a = m a ∨ m' a = x a

/-- The bytes that decide the value of the visited leaf `v` agree in `m` and
`x`: all bytes of a boolean or integer, the bytes of a text up to its NUL. -/
def field_agrees (x m : Mem) (v : Visit) : Prop :=
  match v.type with
  | .boolean => ∀ k, k < v.size → m (v.vptr + k) = x (v.vptr + k)
  | .int => ∀ k, k < v.size → m (v.vptr + k) = x (v.vptr + k)
  | .string => ∃ k, v.vptr + k < PTR_MOD ∧ (x (v.vptr + k)).val = 0 ∧
      ∀ j, j ≤ k → m (v.vptr + j) = x (v.vptr + j)
  | _ => True

/-- The visited leaf `v` has the same value in `m` and in `x`: equal loads for
a boolean or integer, equal NUL-terminated strings for a text. -/
def same_field (x m : Mem) (v : Visit) : Prop :=
  match v.type with
  | .boolean => read_le m v.vptr v.size = read_le x v.vptr v.size
  | .int => read_le m v.vptr v.size = read_le x v.vptr v.size
  | .string => c_string m v.vptr = c_string x v.vptr
  | _ => True

/-- The trees of rank below `n` have the node lists and counts of store `S`. -/
def AtRest (S : Nat → jxs_mapper) (rank : Nat → Nat) (n : Nat) (w : World) : Prop :=
  ∀ r, rank r < n →
    (w.mappers r).jmlist = (S r).jmlist ∧ (w.mappers r).jmhead.idx = (S r).jmhead.idx

/-- The state in which a walk of a tree `hp` based at `start` runs. -/
def WalkInv (S : Nat → jxs_mapper) (rank : Nat → Nat) (hp start : Nat) (w : World) : Prop :=
  Acyclic rank w.mappers ∧ OffsOK w.mappers ∧ (w.mappers hp).jmhead.start_addr = start ∧
    AtRest S rank (rank hp) w

/-- Round trip of one node with fuel `fuel`: serialization from memory `x`
returns 0 with a document and a list of visits that holds every field the
node describes, and deserialization of that
document into any memory returns 0, changes bytes only to the bytes of `x`, and
leaves the visited leaves in agreement with `x`. -/
def RoundTrip (lib : JsonLib) (S : Nat → jxs_mapper) (rank : Nat → Nat) (x : Mem)
    (fuel hp start : Nat) (it : jmap_item_t) (idx : Nat) : Prop :=
  ∀ ws, WalkInv S rank hp start ws → ws.mem = x → ws.ctx.convert_callback = none →
    ∃ j ws' vs, jmap_to_json_warpper lib fuel hp it idx ws = some (0, j, ws') ∧
      ws'.visits = ws.visits ++ vs ∧ (∀ v, Described S start it idx v → v ∈ vs) ∧
      ∀ wt, WalkInv S rank hp start wt →
        ∃ wt', jmap_from_json_warpper lib fuel hp it idx j wt = some (0, wt') ∧
          MemRel x wt.mem wt'.mem ∧ ∀ v ∈ vs, field_agrees x wt'.mem v

/-- Builder that mirrors the layout
`struct pair { bool b; int8_t c; }; struct rec { int32_t n; struct pair s[2]; int16_t v[2]; char t[4]; }`:
a root tree of four nodes and a sub-tree of two nodes, all rules as
`jxs_item_basic_add` leaves them. -/
def bld_rec : jxs_descriptor := fun w =>
  let r := jxs_map_basic_new w true 4
  let s := jxs_map_basic_new r.2 true 2
  let w1 := (jxs_item_basic_add s.2 r.1 .int [Char.ofNat 110] 0 4 none [0]).2
  let w2 := (jxs_item_basic_add w1 r.1 .struct [Char.ofNat 115] 4 4 s.1 [2, 0]).2
  let w3 := (jxs_item_basic_add w2 r.1 .int [Char.ofNat 118] 8 4 none [2, 0]).2
  let w4 := (jxs_item_basic_add w3 r.1 .string [Char.ofNat 116] 12 4 none [0]).2
  let w5 := (jxs_item_basic_add w4 s.1 .boolean [Char.ofNat 98] 0 1 none [0]).2
  (r.1, (jxs_item_basic_add w5 s.1 .int [Char.ofNat 99] 1 1 none [0]).2)

/-- Memory holding a `struct rec` at address 100: `n = 7`,
`s = {{1, -1}, {0, 3}}`, `v = {-2, 5}`, `t = "hi"` followed by a stray byte. -/
def mem_rec : Mem := fun a =>
  if a < 100 then 0
  else byte_of ([7, 0, 0, 0, 1, 255, 0, 3, 254, 255, 5, 0, 104, 105, 0, 9].getD (a - 100) 0)

/-- The world in which the traversal of `bld_rec` starts, for the aggregate at
address 100 in `mem_rec`. -/
def world_rec : World :=
  (check_ref_count (call_descriptor bld_rec (set_ctx_target (world_init mem_rec) 100 0)).2 0).2

/-- The rank that puts the root tree of `bld_rec` above its sub-tree. -/
def rank_rec : Nat → Nat := fun p => if p = 0 then 1 else 0

/-- Builder of a tree with two `int32_t` nodes, at offsets 0 and 4, that share
the key `a`. -/
def bld_twins : jxs_descriptor := fun w =>
  let r := jxs_map_basic_new w true 2
  let w1 := (jxs_item_basic_add r.2 r.1 .int [Char.ofNat 97] 0 4 none [0]).2
  (r.1, (jxs_item_basic_add w1 r.1 .int [Char.ofNat 97] 4 4 none [0]).2)

/-- Memory holding the `int32_t` values 1 and 2 at addresses 100 and 104. -/
def mem_one_two : Mem := fun a => if a = 100 then 1 else if a = 104 then 2 else 0

/-- The world in which the traversal of `bld_twins` starts, for the aggregate at
address 100 in `mem_one_two`. -/
def world_twins : World :=
  (check_ref_count (call_descriptor bld_twins
    (set_ctx_target (world_init mem_one_two) 100 0)).2 0).2

/-- Serialization of tree `p` followed by deserialization of the document into
target memory `t`, from the same world: the two return codes and the resulting
memory. -/
def round_trip_mem (lib : JsonLib) (fuel p : Nat) (w : World) (t : Mem) :
    Option (Int × Int × Mem) :=
  match jmap_to_json_object lib fuel p (.object []) w with
  | none => none
  | some (ret, doc, _) =>
    (jmap_from_json_object lib fuel p doc (set_mem w t)).map (fun r => (ret, r.1, r.2.mem))

/-! ## Inputs for the document-shape claims -/

/-- Builder of a one-node tree: an `int32_t` field `a` at offset 0. -/
def bld_int4 : jxs_descriptor := fun w =>
  let r := jxs_map_basic_new w true 1
  (r.1, (jxs_item_basic_add r.2 r.1 .int [Char.ofNat 97] 0 4 none [0]).2)

/-- Builder that mirrors `struct inner { int32_t a; }; struct outer { struct inner s; }`:
a root tree with the sub-structure node `s` and a sub-tree with the node `a`. -/
def bld_nest : jxs_descriptor := fun w =>
  let r := jxs_map_basic_new w true 1
  let s := jxs_map_basic_new r.2 true 1
  let w1 := (jxs_item_basic_add s.2 r.1 .struct [Char.ofNat 115] 0 4 s.1 [0]).2
  (r.1, (jxs_item_basic_add w1 s.1 .int [Char.ofNat 97] 0 4 none [0]).2)

/-- Two nodes agree in everything but the offset. -/
def same_shape (a b : jmap_item_t) : Prop := set_offset a 0 = set_offset b 0

/-- What every traversal leaves of the mapper store, whatever its return code:
the nodes up to their offsets, and the count, reference count and origin flag of
every tree. -/
structure ShapeFrame (w w' : World) : Prop where
  item : ∀ r i, same_shape ((w'.mappers r).jmlist i) ((w.mappers r).jmlist i)
  idx : ∀ r, (w'.mappers r).jmhead.idx = (w.mappers r).jmhead.idx
  ref : ∀ r, (w'.mappers r).jmhead.ref = (w.mappers r).jmhead.ref
  isbuf : ∀ r, (w'.mappers r).jmhead.isbuf = (w.mappers r).jmhead.isbuf

/-- The document value `j` given for node `it` holds a shape error that the
deserialization walk of `it` reaches: `it` is an array node and `j` is neither
absent nor an array; or `j` is an array and one of its elements holds a shape
error for the element node; or `it` is a sub-structure node, `j` is present and
the value `j` holds for the key of one node of the sub-tree is a shape error for
that node.  `S` is the mapper store. -/
inductive ShapeErr (S : Nat → jxs_mapper) : jmap_item_t → Json → Prop where
  | here (it : jmap_item_t) (j : Json) :
      it.type = jxs_type.array → j.is_null = false → j.is_array = false → ShapeErr S it j
  | elem (it : jmap_item_t) (xs : List Json) (k : Nat) :
      it.type = jxs_type.array → k < xs.length →
      ShapeErr S (jmap_array_move_next_dimen it 0) (xs.getD k .null) →
      ShapeErr S it (.array xs)
  | field (it : jmap_item_t) (q : Nat) (j : Json) (i : Nat) :
      it.type = jxs_type.struct → it.subjm = some q → j.is_null = false →
      i < (S q).jmhead.idx →
      ShapeErr S ((S q).jmlist i) (json_object_object_get j ((S q).jmlist i).key) →
      ShapeErr S it j

/-- The mapper store of world `w` has the shape of store `S`: the same node
counts and, up to offsets, the same nodes. -/
def ShapeStore (S : Nat → jxs_mapper) (w : World) : Prop :=
  ∀ q, (w.mappers q).jmhead.idx = (S q).jmhead.idx ∧
    ∀ i, same_shape ((w.mappers q).jmlist i) ((S q).jmlist i)

/-- What teardown leaves alone: the node lists, counts, origin flags and base
addresses of all trees, the aggregate memory, the visit record and the context
(it changes reference counts and the record of released heap trees only). -/
structure DelFrame (w w' : World) : Prop where
  list : ∀ r, (w'.mappers r).jmlist = (w.mappers r).jmlist
  idx : ∀ r, (w'.mappers r).jmhead.idx = (w.mappers r).jmhead.idx
  isbuf : ∀ r, (w'.mappers r).jmhead.isbuf = (w.mappers r).jmhead.isbuf
  start : ∀ r, (w'.mappers r).jmhead.start_addr = (w.mappers r).jmhead.start_addr
  mem : w'.mem = w.mem
  visits : w'.visits = w.visits
  ctx : w'.ctx = w.ctx

/-- The world in which the traversal of a public entry point starts: the
builder `f` has run for the aggregate at `stptr` and `check_ref_count` has been
applied to the tree `p` it returned. -/
def traversal_world (f : jxs_descriptor) (stptr userdata : Nat) (mem : Mem) (p : Nat) : World :=
  (check_ref_count (call_descriptor f (set_ctx_target (world_init mem) stptr userdata)).2 p).2

/-- The code of `check_ref_count` on the tree `p` returned by the builder `f`. -/
def traversal_check (f : jxs_descriptor) (stptr userdata : Nat) (mem : Mem) (p : Nat) : Int :=
  (check_ref_count (call_descriptor f (set_ctx_target (world_init mem) stptr userdata)).2 p).1

/-- Builder of a one-node tree: an `int32_t m[3][2]` field at offset 0 (size 24). -/
def bld_mat : jxs_descriptor := fun w =>
  let r := jxs_map_basic_new w true 1
  (r.1, (jxs_item_basic_add r.2 r.1 .int [Char.ofNat 109] 0 24 none [3, 2, 0]).2)

/-- Memory holding the `int32_t` values 10, 11, ..., 15 at addresses 100, 104,
..., 120 and zero elsewhere. -/
def mem_mat : Mem := fun a =>
  if 100 ≤ a ∧ a < 124 ∧ (a - 100) % 4 = 0 then byte_of (10 + (a - 100) / 4) else 0

/-- The world in which the traversal of `bld_mat` starts, for the aggregate at
address 100 in `mem_mat`. -/
def world_mat : World := traversal_world bld_mat 100 0 mem_mat 0

/-- A document for `bld_mat` whose third row is a number instead of an array. -/
def doc_mat_bad : Json :=
  .object [([Char.ofNat 109], .array [.array [.int 1, .int 2], .array [.int 3, .int 4], .int 7])]


/-- A field of 10 bytes declared with one dimension of length 3 (the size is not
a multiple of the length). -/
def item_arr_odd : jmap_item_t := array_item .int [Char.ofNat 118] 0 10 3 JXS_RULE_KEEP_RAW



/-- What a successful traversal leaves of the mapper store: the node list and
the node count of every tree. -/
structure OffsKept (w w' : World) : Prop where
  list : ∀ r, (w'.mappers r).jmlist = (w.mappers r).jmlist
  idx : ∀ r, (w'.mappers r).jmhead.idx = (w.mappers r).jmhead.idx

/-- A serialization wrapper that keeps the node lists when it does not fail. -/
def SerKeeps (wr : Nat → jmap_item_t → Nat → World → Option (Int × Json × World)) : Prop :=
  ∀ hp it idx w r, OffsOK w.mappers → wr hp it idx w = some r → r.1 ≠ -1 → OffsKept w r.2.2

/-- A deserialization wrapper that keeps the node lists when it returns 0. -/
def DeKeeps (wr : Nat → jmap_item_t → Nat → Json → World → Option (Int × World)) : Prop :=
  ∀ hp it idx j w r, OffsOK w.mappers → wr hp it idx j w = some r → r.1 = 0 → OffsKept w r.2



/-- A visit of a leaf: the node visited is neither a sub-structure nor an
array node. -/
def is_leaf_visit (v : Visit) : Bool :=
  decide (v.type ≠ jxs_type.struct) && decide (v.type ≠ jxs_type.array)

/-- Every node of every tree has a non-zero static rule. -/
def RulesSet (S : Nat → jxs_mapper) : Prop :=
  ∀ p i, i < (S p).jmhead.idx → ((S p).jmlist i).rule ≠ 0

/-- The invariant of a wrapper call for the count of callback invocations: a
callback is registered, and the node and all nodes of the store have a non-zero
static rule. -/
def CallbackRuns (w : World) (it : jmap_item_t) : Prop :=
  w.ctx.convert_callback.isSome = true ∧ it.rule ≠ 0 ∧ RulesSet w.mappers

/-- The callback record grows in step with the visit record: the visits added
are `vs`, and the callback invocations added are one per visit of `vs`, in the
same order and for the same address. -/
def CallsFollowVisits (w w' : World) : Prop :=
  w'.ctx.convert_callback = w.ctx.convert_callback ∧
  ∃ vs, w'.visits = w.visits ++ vs ∧
    w'.cb_calls.map (fun c => c.vptr) = w.cb_calls.map (fun c => c.vptr)
      ++ vs.map (fun v => v.vptr)



/-! ## Paths -/

/-- One step of the way from the root tree to a visited node: into the field
with a key, or to the element with an index. -/
inductive Step where
  | key (k : List Char)
  | index (i : Nat)
  deriving DecidableEq, Repr

/-- A path extended by one step: `.` and the key after a non-empty path, the key
alone after an empty one; `[`, the rendering `ix i` of the index and `]`. -/
def ext_path (ix : Nat → List Char) (P : List Char) : Step → List Char
  | .key k => P ++ (if P.isEmpty then [] else [Char.ofNat 46]) ++ k
  | .index i => P ++ [Char.ofNat 91] ++ ix i ++ [Char.ofNat 93]

/-- The path of a list of steps, indices rendered by `ix`. -/
def render_path (ix : Nat → List Char) (steps : List Step) : List Char :=
  steps.foldl (ext_path ix) []

/-- The exact path: indices in decimal. -/
def exact_path (steps : List Step) : List Char := render_path (Nat.toDigits 10) steps

/-- The fuzzy path: every index replaced by the wildcard `x`. -/
def fuzzy_path (steps : List Step) : List Char := render_path (fun _ => [Char.ofNat 120]) steps

/-- The steps with every index forgotten. -/
def wild_steps (steps : List Step) : List Step :=
  steps.map (fun s => match s with
    | .key k => .key k
    | .index _ => .index 0)

/-- The ways from the root tree `p0` of store `S` to its nodes: `Route S p0
steps it` says that `steps` leads to node `it` (up to the offset of `it`). -/
inductive Route (S : Nat → jxs_mapper) (p0 : Nat) : List Step → jmap_item_t → Prop where
  | root (i : Nat) : i < (S p0).jmhead.idx →
      Route S p0 [.key ((S p0).jmlist i).key] ((S p0).jmlist i)
  | field (steps : List Step) (it : jmap_item_t) (q i : Nat) :
      Route S p0 steps it → it.type = jxs_type.struct → it.subjm = some q →
      i < (S q).jmhead.idx →
      Route S p0 (steps ++ [.key ((S q).jmlist i).key]) ((S q).jmlist i)
  | elem (steps : List Step) (it : jmap_item_t) (i : Nat) :
      Route S p0 steps it → it.type = jxs_type.array →
      i < (jmap_array_move_next_dimen it 0).arr.length →
      Route S p0 (steps ++ [.index i]) (jmap_array_move_next_dimen it 0)

/-- The locators `loc` and `fz` are the exact and the fuzzy path of a route of
the root tree `p0` of store `S`, as `snprintf` leaves them in a buffer of
`JXS_KEY_MAXLEN` bytes. -/
def PathOf (S : Nat → jxs_mapper) (p0 : Nat) (loc fz : Option (List Char)) : Prop :=
  ∃ steps it, Route S p0 steps it ∧ loc = some (snprintf_key (exact_path steps)) ∧
    fz = some (snprintf_key (fuzzy_path steps))

/-- The invariant of a wrapper call for locators: the store has the shape of
`S` and the locators of the context are the paths of a route to the node. -/
def PathInv (S : Nat → jxs_mapper) (p0 : Nat) (w : World) (it : jmap_item_t) : Prop :=
  ShapeStore S w ∧
  ∃ steps it', Route S p0 steps it' ∧ same_shape it it' ∧
    w.ctx.now_locator = some (snprintf_key (exact_path steps)) ∧
    w.ctx.now_fzlocator = some (snprintf_key (fuzzy_path steps))

/-- The callback invocations added from `w` to `w'` all see the paths of a
route. -/
def ViewsOnRoutes (S : Nat → jxs_mapper) (p0 : Nat) (w w' : World) : Prop :=
  ∃ vs, w'.cb_calls = w.cb_calls ++ vs ∧ ∀ v ∈ vs, PathOf S p0 v.locator v.fzlocator

/-- The number a list of decimal digit characters stands for. -/
def decode_digits (l : List Char) : Nat := l.foldl (fun a c => 10 * a + (c.toNat - 48)) 0


/-- Builder of a tree for `struct { struct { struct { int32_t c; } b[3]; } a; }`
with a callback registered: the root tree (handle 0) holds `a`, the tree of `a`
(handle 2) holds `b` with one dimension of length 3, and the tree of `b`
(handle 4) holds `c`. -/
def bld_path : jxs_descriptor := fun w =>
  let r := jxs_map_basic_new w true 1
  let a := jxs_map_basic_new r.2 true 1
  let b := jxs_map_basic_new a.2 true 1
  let w0 := jxs_set_convert_callback b.2 (some cb_keep_raw)
  let w1 := (jxs_item_basic_add w0 r.1 .struct [Char.ofNat 97] 0 12 a.1 [0]).2
  let w2 := (jxs_item_basic_add w1 a.1 .struct [Char.ofNat 98] 0 12 b.1 [3, 0]).2
  (r.1, (jxs_item_basic_add w2 b.1 .int [Char.ofNat 99] 0 4 none [0]).2)

/-- The world in which the traversal of `bld_path` starts, for an aggregate of
zero bytes at address 100. -/
def world_path : World := traversal_world bld_path 100 0 mem_zero 0

/-- A key of 1022 characters. -/
def long_key : List Char := List.replicate 1022 (Char.ofNat 97)

/-- A tree with one field `int32_t v[2]` whose key is `long_key`, with a
callback registered. -/
def world_long : World :=
  world_of_items [array_item .int long_key 0 8 2 JXS_RULE_KEEP_RAW] mem_zero (some cb_keep_raw)



/-- The keys of the nodes of tree `q`, in declaration order. -/
def node_keys (S : Nat → jxs_mapper) (q : Nat) : List (List Char) :=
  (List.range (S q).jmhead.idx).map (fun i => ((S q).jmlist i).key)

/-- The keys of the nodes of each tree are pairwise distinct. -/
def KeysDistinct (S : Nat → jxs_mapper) : Prop := ∀ q, (node_keys S q).Nodup

/-- The rule of node `it` is the static rule of some node of the store. -/
def StoreRule (S : Nat → jxs_mapper) (it : jmap_item_t) : Prop :=
  ∃ p i, i < (S p).jmhead.idx ∧ it.rule = ((S p).jmlist i).rule

/-- Every action is Keep: under the callback registered in `w` (or none), the
rule engine answers Keep for every node that has a static rule of the store,
whatever the value visited. -/
def KeepsAll (w : World) : Prop :=
  ∀ (w' : World) (it : jmap_item_t) (v : Nat),
    w'.ctx.convert_callback = w.ctx.convert_callback → StoreRule w.mappers it →
    (jmap_convert_handler w' it v).1 = item_action.RULE_ITEM_KEEP

/-- The document value `j` has the form that node `it` of store `S` gives it:
for a sub-structure node with sub-tree `q`, an object with exactly one entry
per node of `q`, in declaration order and under the node's key, each value of
the form given by its node; for a sub-structure node without sub-tree, `null`;
for an array node, an array with one element per index of the outer dimension,
each of the form given by the element node; any value for a leaf. -/
inductive DocOf (S : Nat → jxs_mapper) : jmap_item_t → Json → Prop where
  | struct (it : jmap_item_t) (q : Nat) (kvs : List (List Char × Json)) :
      it.type = jxs_type.struct → it.subjm = some q →
      kvs.map Prod.fst = node_keys S q →
      (∀ i, i < (S q).jmhead.idx →
        DocOf S ((S q).jmlist i) (kvs_get kvs ((S q).jmlist i).key)) →
      DocOf S it (.object kvs)
  | nosub (it : jmap_item_t) :
      it.type = jxs_type.struct → it.subjm = none → DocOf S it .null
  | array (it : jmap_item_t) (xs : List Json) :
      it.type = jxs_type.array →
      xs.length = (jmap_array_move_next_dimen it 0).arr.length →
      (∀ i, i < xs.length → DocOf S (jmap_array_move_next_dimen it 0) (xs.getD i .null)) →
      DocOf S it (.array xs)
  | leaf (it : jmap_item_t) (j : Json) :
      it.type ≠ jxs_type.struct → it.type ≠ jxs_type.array → DocOf S it j

/-- What the form of the document needs of a world: the store has the shape of
`S` and the callback is `cb`. -/
def DocWorld (S : Nat → jxs_mapper) (cb : Option (CbView → CbEffect)) (w : World) : Prop :=
  ShapeStore S w ∧ w.ctx.convert_callback = cb

/-- A serialization wrapper that, when every action is Keep, returns 0 or -1
and, with 0, a value of the form given by the node. -/
def SerDocOK (S : Nat → jxs_mapper) (cb : Option (CbView → CbEffect))
    (wr : Nat → jmap_item_t → Nat → World → Option (Int × Json × World)) : Prop :=
  ∀ hp it idx w r, DocWorld S cb w → StoreRule S it → wr hp it idx w = some r →
    DocWorld S cb r.2.2 ∧ (r.1 = 0 ∨ r.1 = -1) ∧ (r.1 = 0 → DocOf S it r.2.1)



/-- A document for the tree of `bld_rec` after node `n` got the key `x`:
`{"x": 5, "n": 1}`. -/
def doc_x5_n1 : Json := .object [([Char.ofNat 120], .int 5), ([Char.ofNat 110], .int 1)]

/-- The document `{"x": 5, "n": 2}`. -/
def doc_x5_n2 : Json := .object [([Char.ofNat 120], .int 5), ([Char.ofNat 110], .int 2)]



/-- The visit record of `w'` extends that of `w`. -/
def VisitsGrow (w w' : World) : Prop := ∃ vs, w'.visits = w.visits ++ vs

/-- The visit that a wrapper call records for node `it` at index `idx`. -/
def visit_of (w : World) (hp : Nat) (it : jmap_item_t) (idx : Nat) : Visit :=
  { vptr := node_addr w hp it idx, type := it.type, size := it.size }


/-- The node that a successful `jxs_item_basic_add` writes. -/
def added_item (type : jxs_type) (key : List Char) (offset : Int) (mbsize : Nat)
    (subjm : Option Nat) (va : List Int) : jmap_item_t :=
  { type := if (va_deptab va).2 = 0 then type else .array, key := key,
    offset := of_signed 8 offset, size := mbsize, subjm := subjm, basetype := type,
    arr := { length := 0, deptab := (va_deptab va).1, depth := (va_deptab va).2,
             cur_depth := 0 },
    rule := JXS_RULE_KEEP_RAW }

/-- The conditions under which `jxs_item_basic_add` on tree `p` gets past all
its checks. -/
def AddOK (w : World) (p : Nat) (type : jxs_type) (subjm : Option Nat) (va : List Int) : Prop :=
  type ≠ jxs_type.array ∧ ¬ (type = jxs_type.struct ∧ subjm = none) ∧
  (w.mappers p).jmhead.idx < (w.mappers p).jmhead.limit ∧
  (va_deptab va).1.getD JXS_ARRAY_DEPTH 0 = 0

/-- The store `jmlist[idx] = item` of `jxs_item_basic_add`. -/
def add_store_item (w : World) (p : Nat) (item : jmap_item_t) : World :=
  set_mapper w p
    { jmhead := (w.mappers p).jmhead,
      jmlist := set_slot (w.mappers p).jmlist (w.mappers p).jmhead.idx item }

/-- The statement `head->ref++` on tree `q`. -/
def add_ref (w : World) (q : Nat) : World :=
  set_mapper w q
    { jmhead := { (w.mappers q).jmhead with ref := ((w.mappers q).jmhead.ref + 1) % PTR_MOD },
      jmlist := (w.mappers q).jmlist }

/-- The statement `jmhead->idx++` on tree `p`. -/
def add_count (w : World) (p : Nat) : World :=
  set_mapper w p
    { jmhead := { (w.mappers p).jmhead with idx := ((w.mappers p).jmhead.idx + 1) % PTR_MOD },
      jmlist := (w.mappers p).jmlist }

/-- The three stores of a successful `jxs_item_basic_add`, in order. -/
def add_stores (w : World) (p : Nat) (item : jmap_item_t) (subjm : Option Nat) : World :=
  add_count
    (match subjm with
     | none => add_store_item w p item
     | some q => add_ref (add_store_item w p item) q) p



/-! ## Dimension unrolling: the visits of an array field -/

/-- The visits of the walk of a node with remaining dimensions `ds`, element
type `t`, slot address `a` and size `s`: the node itself (an array node while
dimensions remain, the leaf otherwise), then, for each index `i` of the outer
dimension `d` in turn, the visits of the slice at `a + s / d * i`. -/
def slice_visits (t : jxs_type) : List Nat → Nat → Nat → List Visit
  | [], a, s => [{ vptr := a, type := t, size := s }]
  | d :: ds, a, s =>
    { vptr := a, type := jxs_type.array, size := s } ::
      (List.range d).flatMap (fun i => slice_visits t ds (a + s / d * i) (s / d))

/-- The leaf that the nested loops reach through the indices `is`, one per
remaining dimension. -/
def leaf_at (t : jxs_type) : List Nat → List Nat → Nat → Nat → Visit
  | d :: ds, i :: is, a, s => leaf_at t ds is (a + s / d * i) (s / d)
  | _, _, a, s => { vptr := a, type := t, size := s }

/-- The row-major index `((i0 * d1 + i1) * d2 + i2) ...` of the indices `is` in
an array of dimensions `ds`, with `acc` the index of the dimensions before. -/
def row_major : List Nat → List Nat → Nat → Nat
  | d :: ds, i :: is, acc => row_major ds is (acc * d + i)
  | _, _, acc => acc

/-- The indices `is` are in range for the dimensions `ds`. -/
def in_range : List Nat → List Nat → Prop
  | d :: ds, i :: is => i < d ∧ in_range ds is
  | [], [] => True
  | _, _ => False

/-- The document value is a nest of arrays of lengths `ds`, one level per
dimension. -/
def nested_arrays : List Nat → Json → Prop
  | [], _ => True
  | d :: ds, j => ∃ xs, j = .array xs ∧ xs.length = d ∧ ∀ k, k < d → nested_arrays ds (xs.getD k .null)

/-- Node `node` stands for an array slice with remaining dimensions `ds`,
element type `t` and element size `e`. -/
structure ArrNode (t : jxs_type) (e : Nat) (ds : List Nat) (node : jmap_item_t) : Prop where
  type_leaf : ds = [] → node.type = t
  type_arr : ds ≠ [] → node.type = jxs_type.array
  basetype : node.basetype = t
  size : node.size = e * ds.prod
  depth : node.arr.cur_depth + ds.length = node.arr.depth
  dims : ∀ j, j < ds.length → node.arr.deptab.getD j 0 = ds.getD j 0

/-- The document of the walk of an array slice with scalar elements over memory
`mem`: the value of the element for a leaf, else the array of the documents of
the slices at `a + s / d * i`, one per index of the outer dimension. -/
def slice_doc (lib : JsonLib) (mem : Mem) (t : jxs_type) : List Nat → Nat → Nat → Json
  | [], a, s => (to_json_scalar lib mem t s a).getD .null
  | d :: ds, a, s =>
    .array ((List.range d).map (fun i => slice_doc lib mem t ds (a + s / d * i) (s / d)))

/-- The value of a document reached through the array indices `is`. -/
def doc_at : Json → List Nat → Json
  | j, [] => j
  | j, i :: is => doc_at (json_object_array_get_idx j i) is



/-- The visits of the walk of a field of shape [3][2] with element type `t` and
element size `size` at address `base`: the field, then for each row `i` the
row and its two elements `j`. -/
def walk_3_2 (t : jxs_type) (base size : Nat) : List Visit :=
  { vptr := base, type := jxs_type.array, size := size * 6 } ::
    (List.range 3).flatMap (fun i =>
      { vptr := base + size * (2 * i), type := jxs_type.array, size := size * 2 } ::
        (List.range 2).map (fun j =>
          ({ vptr := base + size * (2 * i + j), type := t, size := size } : Visit)))



/-- The node has a kind and a declared size for which the `switch` of
`jmap_from_json_warpper` stores a value that fills it: one of the native
widths of a boolean, floating or integer node, the pointer width of a document
node, any size of a null, text or array node, and a sub-structure node with its
sub-tree (the unsigned integer kind has no case). -/
def width_supported (it : jmap_item_t) : Prop :=
  match it.type with
  | .null => True
  | .boolean => it.size = 4 ∨ it.size = 1
  | .double => it.size = 8 ∨ it.size = 4
  | .int => it.size = 8 ∨ it.size = 4 ∨ it.size = 2 ∨ it.size = 1
  | .uint => False
  | .string => True
  | .struct => it.subjm ≠ none
  | .object => it.size = 8
  | .array => True

instance width_supported_decidable (it : jmap_item_t) : Decidable (width_supported it) := by
  unfold width_supported
  cases it.type <;> infer_instance



/-- The builder `bld_rec` with the wrong return value: it builds the same two
trees and returns the sub-tree, which is attached under node `s` of the root. -/
def bld_rec_sub : jxs_descriptor := fun w =>
  let r := jxs_map_basic_new w true 4
  let s := jxs_map_basic_new r.2 true 2
  let w1 := (jxs_item_basic_add s.2 r.1 .int [Char.ofNat 110] 0 4 none [0]).2
  let w2 := (jxs_item_basic_add w1 r.1 .struct [Char.ofNat 115] 4 4 s.1 [2, 0]).2
  let w3 := (jxs_item_basic_add w2 r.1 .int [Char.ofNat 118] 8 4 none [2, 0]).2
  let w4 := (jxs_item_basic_add w3 r.1 .string [Char.ofNat 116] 12 4 none [0]).2
  let w5 := (jxs_item_basic_add w4 s.1 .boolean [Char.ofNat 98] 0 1 none [0]).2
  (s.1, (jxs_item_basic_add w5 s.1 .int [Char.ofNat 99] 1 1 none [0]).2)



/-! ## Teardown of a graph of trees -/

/-- Node `i` of tree `p` refers to the sub-tree `q` (`subjm` is `q`). -/
def refers (S : Nat → jxs_mapper) (p i q : Nat) : Bool :=
  decide (((S p).jmlist i).subjm = some q)

/-- The number of nodes among the first `j` nodes of tree `p` that refer to the
sub-tree `q`. -/
def attach_lt (S : Nat → jxs_mapper) (p j q : Nat) : Nat :=
  ((List.range j).filter (fun i => refers S p i q)).length

/-- The number of nodes of tree `p` that refer to the sub-tree `q`. -/
def attach (S : Nat → jxs_mapper) (p q : Nat) : Nat := attach_lt S p (S p).jmhead.idx q

/-- The number of nodes of the trees `T` that refer to the sub-tree `q`: the
number of times `q` has been attached. -/
def attach_total (S : Nat → jxs_mapper) (T : Finset Nat) (q : Nat) : Nat :=
  T.sum (fun p => attach S p q)

/-- The number of references to `q` among the nodes that teardown has passed,
when it has passed the first `prog p` nodes of each tree `p`. -/
def attach_done (S : Nat → jxs_mapper) (T : Finset Nat) (prog : Nat → Nat) (q : Nat) : Nat :=
  T.sum (fun p => attach_lt S p (prog p) q)

/-- A graph of descriptor trees: the trees `T` of the store `S`, with sub-tree
references that are well-founded (`rank`), stay inside `T` and sit on
sub-structure nodes only (nodes of type struct or of element type struct). -/
structure TreeGraph (rank : Nat → Nat) (S : Nat → jxs_mapper) (T : Finset Nat) : Prop where
  acyclic : Acyclic rank S
  closed : ∀ p ∈ T, ∀ i q, i < (S p).jmhead.idx → ((S p).jmlist i).subjm = some q → q ∈ T
  struct_only : ∀ p ∈ T, ∀ i q, i < (S p).jmhead.idx → ((S p).jmlist i).subjm = some q →
    ((S p).jmlist i).type = jxs_type.struct ∨ ((S p).jmlist i).basetype = jxs_type.struct
  small : ∀ q ∈ T, attach_total S T q < PTR_MOD

/-- The state of teardown below rank `n`: the node lists are those of `S`;
`prog p` nodes of tree `p` have been passed; a tree below rank `n` that is not
yet released has not been entered and its reference count is the number of its
attachments not yet passed, at least 1; the trees `rel` are released, each
once, with all their nodes and all the references to them passed. -/
structure TearInv (rank : Nat → Nat) (S : Nat → jxs_mapper) (T : Finset Nat) (n : Nat)
    (w : World) (prog : Nat → Nat) (rel : List Nat) : Prop where
  list : ∀ r, (w.mappers r).jmlist = (S r).jmlist
  idx : ∀ r, (w.mappers r).jmhead.idx = (S r).jmhead.idx
  isbuf : ∀ r, (w.mappers r).jmhead.isbuf = (S r).jmhead.isbuf
  prog_le : ∀ p, prog p ≤ (S p).jmhead.idx
  low : ∀ q ∈ T, rank q < n → q ∉ rel →
    (w.mappers q).jmhead.ref + attach_done S T prog q = attach_total S T q ∧
    1 ≤ (w.mappers q).jmhead.ref ∧ prog q = 0
  done : ∀ q ∈ rel, q ∈ T ∧ prog q = (S q).jmhead.idx ∧
    attach_done S T prog q = attach_total S T q
  nodup : rel.Nodup

/-- Tree `q` is reachable from tree `root` through sub-tree references. -/
inductive Reach (S : Nat → jxs_mapper) (root : Nat) : Nat → Prop where
  | root : Reach S root root
  | step (p i q : Nat) : Reach S root p → i < (S p).jmhead.idx →
      ((S p).jmlist i).subjm = some q → Reach S root q



/-- What a teardown call `del` does for a reference to a tree `c` of rank below
`m`, met at the next node of a tree `p`, in the state `TearInv` below a rank `n`
between the ranks of `c` and `p`: it returns, the state holds again with the
node passed and the trees `new` released in addition, the trees of rank `n` and
above are left alone, and the heap trees among `new` are added to the record of
released heap trees.  A call on no tree returns at once. -/
def DelSpec (rank : Nat → Nat) (S : Nat → jxs_mapper) (T : Finset Nat) (m : Nat)
    (del : Option Nat → World → Option World) : Prop :=
  (∀ w, del none w = some w) ∧
  ∀ (c p n : Nat) (w : World) (prog : Nat → Nat) (rel : List Nat),
    c ∈ T → p ∈ T → rank c < m → rank c < n → n ≤ rank p →
    prog p < (S p).jmhead.idx → ((S p).jmlist (prog p)).subjm = some c →
    TearInv rank S T n w prog rel →
    ∃ w' prog' new, del (some c) w = some w' ∧ TearInv rank S T n w' prog' (rel ++ new) ∧
      prog' p = prog p + 1 ∧
      (∀ a, n ≤ rank a → a ≠ p → prog' a = prog a) ∧
      (∀ a, n ≤ rank a → (w'.mappers a).jmhead.ref = (w.mappers a).jmhead.ref) ∧
      (∀ x ∈ new, rank x < n) ∧
      w'.freed = w.freed ++ new.filter (fun x => decide ((S x).jmhead.isbuf = false))



/-- Builder of a pooled root tree with two sub-structure fields `a` and `b`
that share one sub-tree, a heap tree of one `int32_t` node `n` (it is created
with room for 100 nodes, more than the pool holds). -/
def bld_shared : jxs_descriptor := fun w =>
  let r := jxs_map_basic_new w true 2
  let s := jxs_map_basic_new r.2 true 100
  let w1 := (jxs_item_basic_add s.2 s.1 .int [Char.ofNat 110] 0 4 none [0]).2
  let w2 := (jxs_item_basic_add w1 r.1 .struct [Char.ofNat 97] 0 4 s.1 [0]).2
  (r.1, (jxs_item_basic_add w2 r.1 .struct [Char.ofNat 98] 4 4 s.1 [0]).2)

/-- The world that `bld_shared` leaves for the aggregate at address 100. -/
def world_shared : World :=
  (call_descriptor bld_shared (set_ctx_target (world_init mem_zero) 100 0)).2



/-! ## Documents that conform to a descriptor tree -/

/-- The document value `doc` conforms to a leaf of the kind and declared size:
a boolean of width 4 or 1 with the value false or true; an integer of width 8,
4, 2 or 1 with a value inside the range of the width; a floating value of width
8, or of width 4 when the narrowing to binary32 and back gives the value again;
a text shorter than the declared size whose bytes are not NUL. -/
def leaf_conf (lib : JsonLib) (type : jxs_type) (size : Nat) (doc : Json) : Prop :=
  match type with
  | .boolean => (size = 4 ∨ size = 1) ∧ (doc = .boolean 0 ∨ doc = .boolean 1)
  | .int => (size = 8 ∨ size = 4 ∨ size = 2 ∨ size = 1) ∧
      ∃ v : Int, doc = .int v ∧ -(2 : Int) ^ (8 * size - 1) ≤ v ∧ v < (2 : Int) ^ (8 * size - 1)
  | .double => ∃ b : Nat, doc = .double b ∧
      ((size = 8 ∧ b < 2 ^ 64) ∨
       (size = 4 ∧ lib.f32_to_f64 (lib.f64_to_f32 b % 2 ^ 32) = b))
  | .string => ∃ s : List Nat, doc = .string s ∧ s.length < size ∧ ∀ c ∈ s, 0 < c ∧ c < 256
  | _ => False



/-- The address `start + offset + size * idx` of element `idx` of a node, as a
natural number (it is the address `addr_of` when the field lies inside the
address space). -/
def node_lo (start : Nat) (it : jmap_item_t) (idx : Nat) : Nat :=
  start + it.offset + it.size * idx

/-- The document value `doc` conforms to node `it` at index `idx`, in a tree
based at `start`, and `out` is `doc` with the entries of each object listed in
declaration order.  The field of the node lies at an address that is not `NULL`,
inside the address space, under rule keep-as-is.  A leaf value conforms as
`leaf_conf` says.  The value of a sub-structure node is an object that has
exactly the keys of the sub-tree, which are pairwise distinct; the value of each
key conforms to its node, rebased to the element; the fields of the nodes lie
inside the element and do not overlap.  The value of an array node, which has
dimensions left, a non-zero outer dimension and slice size, is an array of
exactly the declared length whose values conform to the elements. -/
inductive Conf (lib : JsonLib) (S : Nat → jxs_mapper) :
    Nat → jmap_item_t → Nat → Json → Json → Prop where
  | leaf (start : Nat) (it : jmap_item_t) (idx : Nat) (doc : Json) :
      base_of start it ≠ 0 → it.rule = JXS_RULE_KEEP_RAW →
      node_lo start it idx + it.size ≤ PTR_MOD →
      leaf_conf lib it.type it.size doc →
      Conf lib S start it idx doc doc
  | struct (start : Nat) (it : jmap_item_t) (idx q : Nat) (kvs : List (List Char × Json))
      (outs : Nat → Json) :
      base_of start it ≠ 0 → it.rule = JXS_RULE_KEEP_RAW →
      node_lo start it idx + it.size ≤ PTR_MOD →
      it.type = jxs_type.struct → it.subjm = some q →
      (∀ i j, i < (S q).jmhead.idx → j < (S q).jmhead.idx → i ≠ j →
        ((S q).jmlist i).key ≠ ((S q).jmlist j).key) →
      (∀ k, k ∈ kvs.map Prod.fst ↔ ∃ i, i < (S q).jmhead.idx ∧ ((S q).jmlist i).key = k) →
      (∀ i, i < (S q).jmhead.idx →
        Conf lib S (base_of start it)
          (set_offset ((S q).jmlist i) ((((S q).jmlist i).offset + it.size * idx) % PTR_MOD))
          0 (kvs_get kvs ((S q).jmlist i).key) (outs i)) →
      (∀ i, i < (S q).jmhead.idx →
        node_lo start it idx ≤ node_lo (base_of start it)
          (set_offset ((S q).jmlist i) ((((S q).jmlist i).offset + it.size * idx) % PTR_MOD)) 0 ∧
        node_lo (base_of start it)
          (set_offset ((S q).jmlist i) ((((S q).jmlist i).offset + it.size * idx) % PTR_MOD)) 0
          + ((S q).jmlist i).size ≤ node_lo start it idx + it.size) →
      (∀ i j, i < (S q).jmhead.idx → j < (S q).jmhead.idx → i ≠ j →
        node_lo (base_of start it)
          (set_offset ((S q).jmlist i) ((((S q).jmlist i).offset + it.size * idx) % PTR_MOD)) 0
          + ((S q).jmlist i).size ≤
        node_lo (base_of start it)
          (set_offset ((S q).jmlist j) ((((S q).jmlist j).offset + it.size * idx) % PTR_MOD)) 0 ∨
        node_lo (base_of start it)
          (set_offset ((S q).jmlist j) ((((S q).jmlist j).offset + it.size * idx) % PTR_MOD)) 0
          + ((S q).jmlist j).size ≤
        node_lo (base_of start it)
          (set_offset ((S q).jmlist i) ((((S q).jmlist i).offset + it.size * idx) % PTR_MOD)) 0) →
      Conf lib S start it idx (.object kvs)
        (.object ((List.range (S q).jmhead.idx).map (fun i => (((S q).jmlist i).key, outs i))))
  | array (start : Nat) (it : jmap_item_t) (idx : Nat) (xs : List Json) (outs : Nat → Json) :
      base_of start it ≠ 0 → it.rule = JXS_RULE_KEEP_RAW →
      node_lo start it idx + it.size ≤ PTR_MOD →
      it.type = jxs_type.array →
      it.arr.cur_depth < it.arr.depth → it.arr.deptab.getD 0 0 ≠ 0 →
      it.size / it.arr.deptab.getD 0 0 ≠ 0 →
      xs.length = it.arr.deptab.getD 0 0 →
      (∀ i, i < it.arr.deptab.getD 0 0 →
        Conf lib S start (jmap_array_move_next_dimen it idx) i (xs.getD i .null) (outs i)) →
      Conf lib S start it idx (.array xs)
        (.array ((List.range (it.arr.deptab.getD 0 0)).map outs))

/-- Deserialization followed by serialization of one node with fuel `fuel`:
deserialization of `doc` into any memory returns 0 and changes no byte outside
the field of the node, and serialization from any memory that agrees on the
field with the memory that deserialization has left returns 0 with `out`. -/
def Back (lib : JsonLib) (S : Nat → jxs_mapper) (rank : Nat → Nat)
    (fuel hp start : Nat) (it : jmap_item_t) (idx : Nat) (doc out : Json) : Prop :=
  ∀ wt, WalkInv S rank hp start wt →
    ∃ wt', jmap_from_json_warpper lib fuel hp it idx doc wt = some (0, wt') ∧
      (∀ x, x < node_lo start it idx ∨ node_lo start it idx + it.size ≤ x →
        wt'.mem x = wt.mem x) ∧
      ∀ ws, WalkInv S rank hp start ws → ws.ctx.convert_callback = none →
        (∀ x, node_lo start it idx ≤ x → x < node_lo start it idx + it.size →
          ws.mem x = wt'.mem x) →
        ∃ ws', jmap_to_json_warpper lib fuel hp it idx ws = some (0, out, ws')



/-- Two documents are equal as documents: equal scalars; arrays of the same
length with equal elements; objects with the same keys and, key by key, equal
values (the order of the entries does not matter). -/
inductive JsonEq : Json → Json → Prop where
  | refl (j : Json) : JsonEq j j
  | object (kvs kvs' : List (List Char × Json)) :
      (∀ k, k ∈ kvs.map Prod.fst ↔ k ∈ kvs'.map Prod.fst) →
      (∀ k, JsonEq (kvs_get kvs k) (kvs_get kvs' k)) →
      JsonEq (.object kvs) (.object kvs')
  | array (xs ys : List Json) :
      xs.length = ys.length →
      (∀ i, i < xs.length → JsonEq (xs.getD i .null) (ys.getD i .null)) →
      JsonEq (.array xs) (.array ys)

/-- The document `doc` conforms to tree `p` of store `S`, and `out` is `doc`
with the entries of each object listed in declaration order: `doc` is an object
that has exactly the keys of the tree, which are pairwise distinct; the value of
each key conforms to its node; the fields of the nodes do not overlap. -/
def ConfTree (lib : JsonLib) (S : Nat → jxs_mapper) (p : Nat) (doc out : Json) : Prop :=
  ∃ (kvs : List (List Char × Json)) (outs : Nat → Json),
    doc = .object kvs ∧
    out = .object ((List.range (S p).jmhead.idx).map (fun i => (((S p).jmlist i).key, outs i))) ∧
    (∀ i j, i < (S p).jmhead.idx → j < (S p).jmhead.idx → i ≠ j →
      ((S p).jmlist i).key ≠ ((S p).jmlist j).key) ∧
    (∀ k, k ∈ kvs.map Prod.fst ↔ ∃ i, i < (S p).jmhead.idx ∧ ((S p).jmlist i).key = k) ∧
    (∀ i, i < (S p).jmhead.idx →
      Conf lib S (S p).jmhead.start_addr ((S p).jmlist i) 0
        (kvs_get kvs ((S p).jmlist i).key) (outs i)) ∧
    (∀ i j, i < (S p).jmhead.idx → j < (S p).jmhead.idx → i ≠ j →
      node_lo (S p).jmhead.start_addr ((S p).jmlist i) 0 + ((S p).jmlist i).size
        ≤ node_lo (S p).jmhead.start_addr ((S p).jmlist j) 0 ∨
      node_lo (S p).jmhead.start_addr ((S p).jmlist j) 0 + ((S p).jmlist j).size
        ≤ node_lo (S p).jmhead.start_addr ((S p).jmlist i) 0)

/-- Deserialization of `doc` into target memory `t` followed by serialization
of the memory it leaves, both from the world `w` the builder has left: the two
return codes and the document. -/
def round_trip_doc (lib : JsonLib) (fuel p : Nat) (w : World) (t : Mem) (doc : Json) :
    Option (Int × Int × Json) :=
  match jmap_from_json_object lib fuel p doc (set_mem w t) with
  | none => none
  | some (ret, w1) =>
    (jmap_to_json_object lib fuel p (.object []) (set_mem w w1.mem)).map
      (fun r => (ret, r.1, r.2.1))



/-- Builder of a tree that mirrors `union { int32_t a; int32_t b; }`: two
`int32_t` nodes `a` and `b`, both at offset 0. -/
def bld_union : jxs_descriptor := fun w =>
  let r := jxs_map_basic_new w true 2
  let w1 := (jxs_item_basic_add r.2 r.1 .int [Char.ofNat 97] 0 4 none [0]).2
  (r.1, (jxs_item_basic_add w1 r.1 .int [Char.ofNat 98] 0 4 none [0]).2)

/-- The world in which the traversal of `bld_union` starts, for the aggregate
at address 100. -/
def world_union : World := traversal_world bld_union 100 0 mem_zero 0

/-- Builder of a one-node tree: a text field `t` of 4 bytes at offset 0. -/
def bld_text4 : jxs_descriptor := fun w =>
  let r := jxs_map_basic_new w true 1
  (r.1, (jxs_item_basic_add r.2 r.1 .string [Char.ofNat 116] 0 4 none [0]).2)

/-- The world in which the traversal of `bld_text4` starts, for the aggregate
at address 100. -/
def world_text4 : World := traversal_world bld_text4 100 0 mem_zero 0

/-- A document for the tree of `bld_rec`:
`{"n": 7, "s": [{"b": true, "c": -1}, {"b": false, "c": 3}], "v": [-2, 5], "t": "hi"}`. -/
def doc_rec : Json :=
  .object [([Char.ofNat 110], .int 7),
    ([Char.ofNat 115], .array [
      .object [([Char.ofNat 98], .boolean 1), ([Char.ofNat 99], .int (-1))],
      .object [([Char.ofNat 98], .boolean 0), ([Char.ofNat 99], .int 3)]]),
    ([Char.ofNat 118], .array [.int (-2), .int 5]),
    ([Char.ofNat 116], .string [104, 105])]



/-- An array field `int32_t v[4]` declared with the size 2 of a smaller type:
the slice size `2 / 4` is 0. -/
def item_arr_small : jmap_item_t := array_item .int [Char.ofNat 118] 0 2 4 JXS_RULE_KEEP_RAW



/-- A text field `t` of 8 bytes at offset 0. -/
def item_text8 : jmap_item_t := leaf_item .string [Char.ofNat 116] 0 8 JXS_RULE_KEEP_RAW

/-- Memory holding the byte 7 everywhere. -/
def mem_sevens : Mem := fun _ => 7



/-- The node derived from `it` by `jmap_array_move_next_dimen` through the
element indices `idxs`, outermost first. -/
def derived_node (it : jmap_item_t) (idxs : List Nat) : jmap_item_t :=
  idxs.foldl jmap_array_move_next_dimen it

/-- Node `it` has the type, base type and dimension record that a successful
`jxs_item_basic_add` writes (its key, offset, size, sub-tree and rule are
free: `jxs_item_set_rule`, `jxs_item_set_constkey` and the rebasing of a
sub-structure change them). -/
def ApiNode (it : jmap_item_t) : Prop :=
  ∃ (type : jxs_type) (va : List Int),
    type ≠ jxs_type.array ∧ (va_deptab va).1.getD JXS_ARRAY_DEPTH 0 = 0 ∧
    it.type = (if (va_deptab va).2 = 0 then type else jxs_type.array) ∧
    it.basetype = type ∧
    it.arr = { length := 0, deptab := (va_deptab va).1, depth := (va_deptab va).2,
               cur_depth := 0 }

/-- The dimensions of a node are in order: its base type is not the array
kind, an array node has dimensions left, and every dimension left is not 0. -/
def DimsLeft (it : jmap_item_t) : Prop :=
  it.basetype ≠ jxs_type.array ∧
  (it.type = jxs_type.array → it.arr.cur_depth < it.arr.depth) ∧
  ∀ j, it.arr.cur_depth + j < it.arr.depth → it.arr.deptab.getD j 0 ≠ 0



/-! ## The traversals with the intended fuzzy locator rule -/

/-- The fuzzy locator of a visit by the intended rule: as
`SET_NEW_FUZZY_LOCATOR`, but the separator is inserted when the fuzzy locator
of the parent itself is present and not empty (the exact locator is not
read). -/
def intended_fuzzy_locator (fzlocator : Option (List Char)) (key : List Char)
    (isarray : Bool) : List Char :=
  if isarray then
    snprintf_key (fzlocator.getD key ++ [Char.ofNat 91, Char.ofNat 120, Char.ofNat 93])
  else
    snprintf_key (fzlocator.getD [] ++
      (match fzlocator with
       | some (_ :: _) => [Char.ofNat 46]
       | _ => []) ++ key)

/-- The loop of `to_json_array_loop` with the intended fuzzy locator rule. -/
def to_json_array_loop_intended
    (wr : Nat → jmap_item_t → Nat → World → Option (Int × Json × World))
    (hp : Nat) (jmitem : jmap_item_t) (locator fzlocator : Option (List Char)) :
    Nat → Nat → Json → World → Option (Int × Json × World)
  | 0, _, arrjso, w => some (0, arrjso, w)
  | n + 1, i, arrjso, w =>
    let w1 := set_now w (SET_NEW_LOCATOR locator jmitem.key true i)
      (intended_fuzzy_locator fzlocator jmitem.key true)
    match wr hp jmitem i w1 with
    | none => none
    | some (ret, item_jso, w2) =>
      if ret = -1 then some (-1, arrjso, w2)
      else if ret = 0 then
        to_json_array_loop_intended wr hp jmitem locator fzlocator n (i + 1)
          (json_object_array_add arrjso item_jso) w2
      else to_json_array_loop_intended wr hp jmitem locator fzlocator n (i + 1) arrjso w2

/-- Function `jmap_to_json_array_with` with the intended fuzzy locator rule. -/
def jmap_to_json_array_with_intended
    (wr : Nat → jmap_item_t → Nat → World → Option (Int × Json × World))
    (hp : Nat) (jmitem : jmap_item_t) (arrjso : Json) (w : World) :
    Option (Int × Json × World) :=
  if jmitem.size = 0 ∨ jmitem.arr.length = 0 then some (-1, arrjso, w)
  else if !arrjso.is_array then some (-1, arrjso, w)
  else to_json_array_loop_intended wr hp jmitem w.ctx.now_locator w.ctx.now_fzlocator
    jmitem.arr.length 0 arrjso w

/-- The loop of `to_json_object_loop` with the intended fuzzy locator rule. -/
def to_json_object_loop_intended
    (wr : Nat → jmap_item_t → Nat → World → Option (Int × Json × World))
    (p : Nat) (locator fzlocator : Option (List Char)) :
    Nat → Nat → Json → World → Option (Int × Json × World)
  | 0, _, jso, w => some (0, jso, w)
  | n + 1, i, jso, w =>
    let jmitem := (w.mappers p).jmlist i
    let w1 := set_now w (SET_NEW_LOCATOR locator jmitem.key false 0)
      (intended_fuzzy_locator fzlocator jmitem.key false)
    match wr p jmitem 0 w1 with
    | none => none
    | some (ret, item_jso, w2) =>
      if ret = -1 then some (-1, jso, w2)
      else if ret = 0 then
        to_json_object_loop_intended wr p locator fzlocator n (i + 1)
          (json_object_object_add jso jmitem.key item_jso) w2
      else to_json_object_loop_intended wr p locator fzlocator n (i + 1) jso w2

/-- Function `jmap_to_json_object_with` with the intended fuzzy locator rule. -/
def jmap_to_json_object_with_intended
    (wr : Nat → jmap_item_t → Nat → World → Option (Int × Json × World))
    (p : Nat) (jso : Json) (w : World) : Option (Int × Json × World) :=
  if jso.is_null then some (-1, jso, w)
  else if !jso.is_object then some (-1, jso, w)
  else to_json_object_loop_intended wr p w.ctx.now_locator w.ctx.now_fzlocator
    (w.mappers p).jmhead.idx 0 jso w

/-- The type switch `to_json_by_type` over the walks with the intended fuzzy
locator rule. -/
def to_json_by_type_intended (lib : JsonLib)
    (wr : Nat → jmap_item_t → Nat → World → Option (Int × Json × World))
    (hp : Nat) (jmitem : jmap_item_t) (idx vptr : Nat) (w1 : World) :
    Option (Int × Json × World) :=
  match jmitem.type with
  | .struct =>
    match jmitem.subjm with
    | none => some (0, .null, w1)
    | some q =>
      let w2 := set_start_addr w1 q (node_base w1 hp jmitem)
      let w3 := jmap_struct_move_forward w2 q jmitem.size idx
      match jmap_to_json_object_with_intended wr q (.object []) w3 with
      | none => none
      | some (ret, jso, w4) =>
        if ret = -1 then some (-1, .null, w4)
        else some (ret, jso, jmap_struct_move_backward w4 q jmitem.size idx)
  | .array =>
    match jmap_to_json_array_with_intended wr hp (jmap_array_move_next_dimen jmitem idx)
        (.array []) w1 with
    | none => none
    | some (ret, jso, w4) =>
      if ret = -1 then some (-1, .null, w4) else some (ret, jso, w4)
  | t =>
    match to_json_scalar lib w1.mem t jmitem.size vptr with
    | some j => some (0, j, w1)
    | none => some (0, .null, w1)

/-- Function `jmap_to_json_warpper` with the intended fuzzy locator rule. -/
def jmap_to_json_warpper_intended (lib : JsonLib) :
    Nat → Nat → jmap_item_t → Nat → World → Option (Int × Json × World)
  | 0, _, _, _, _ => none
  | fuel + 1, hp, jmitem, idx, w =>
    if node_base w hp jmitem = 0 then some (-1, .null, w)
    else
      let vptr := node_addr w hp jmitem idx
      let r := jmap_convert_handler (record_visit w vptr jmitem) jmitem vptr
      match r.1 with
      | .RULE_ITEM_DELETE => some (1, .null, r.2)
      | .RULE_ITEM_SET => some (0, .null, r.2)
      | _ => to_json_by_type_intended lib (jmap_to_json_warpper_intended lib fuel) hp jmitem idx
          vptr r.2

/-- Function `jmap_to_json_object` with the intended fuzzy locator rule. -/
def jmap_to_json_object_intended (lib : JsonLib) (fuel : Nat) (p : Nat) (jso : Json)
    (w : World) : Option (Int × Json × World) :=
  jmap_to_json_object_with_intended (jmap_to_json_warpper_intended lib fuel) p jso w

/-- The loop of `from_json_array_loop` with the intended fuzzy locator rule. -/
def from_json_array_loop_intended
    (wr : Nat → jmap_item_t → Nat → Json → World → Option (Int × World))
    (hp : Nat) (jmitem : jmap_item_t) (locator fzlocator : Option (List Char))
    (arrjso : Json) : Nat → Nat → World → Option (Int × World)
  | 0, _, w => some (0, w)
  | n + 1, i, w =>
    let w1 := set_now w (SET_NEW_LOCATOR locator jmitem.key true i)
      (intended_fuzzy_locator fzlocator jmitem.key true)
    match wr hp jmitem i (json_object_array_get_idx arrjso i) w1 with
    | none => none
    | some (ret, w2) =>
      if ret ≠ 0 then some (-1, w2)
      else from_json_array_loop_intended wr hp jmitem locator fzlocator arrjso n (i + 1) w2

/-- Function `jmap_from_json_array_with` with the intended fuzzy locator
rule. -/
def jmap_from_json_array_with_intended
    (wr : Nat → jmap_item_t → Nat → Json → World → Option (Int × World))
    (hp : Nat) (jmitem : jmap_item_t) (arrjso : Json) (w : World) : Option (Int × World) :=
  if arrjso.is_null then some (-1, w)
  else if jmitem.size = 0 ∨ jmitem.arr.length = 0 then some (-1, w)
  else if !arrjso.is_array then some (-1, w)
  else from_json_array_loop_intended wr hp jmitem w.ctx.now_locator w.ctx.now_fzlocator arrjso
    (json_object_array_length arrjso) 0 w

/-- The loop of `from_json_object_loop` with the intended fuzzy locator rule. -/
def from_json_object_loop_intended
    (wr : Nat → jmap_item_t → Nat → Json → World → Option (Int × World))
    (p : Nat) (locator fzlocator : Option (List Char)) (jso : Json) :
    Nat → Nat → World → Option (Int × World)
  | 0, _, w => some (0, w)
  | n + 1, i, w =>
    let jmitem := (w.mappers p).jmlist i
    let w1 := set_now w (SET_NEW_LOCATOR locator jmitem.key false 0)
      (intended_fuzzy_locator fzlocator jmitem.key false)
    match wr p jmitem 0 (json_object_object_get jso jmitem.key) w1 with
    | none => none
    | some (ret, w2) =>
      if ret ≠ 0 then some (-1, w2)
      else from_json_object_loop_intended wr p locator fzlocator jso n (i + 1) w2

/-- Function `jmap_from_json_object_with` with the intended fuzzy locator
rule. -/
def jmap_from_json_object_with_intended
    (wr : Nat → jmap_item_t → Nat → Json → World → Option (Int × World))
    (p : Nat) (jso : Json) (w : World) : Option (Int × World) :=
  if jso.is_null then some (-1, w)
  else from_json_object_loop_intended wr p w.ctx.now_locator w.ctx.now_fzlocator jso
    (w.mappers p).jmhead.idx 0 w

/-- The type switch `from_json_by_type` over the walks with the intended fuzzy
locator rule. -/
def from_json_by_type_intended (lib : JsonLib)
    (wr : Nat → jmap_item_t → Nat → Json → World → Option (Int × World))
    (hp : Nat) (jmitem : jmap_item_t) (idx vptr : Nat) (item_jso : Json) (w1 : World) :
    Option (Int × World) :=
  match jmitem.type with
  | .struct =>
    match jmitem.subjm with
    | none => some (-1, w1)
    | some q =>
      if item_jso.is_null then some (0, set_mem w1 (memset0 w1.mem vptr jmitem.size))
      else
        let w2 := set_start_addr w1 q (node_base w1 hp jmitem)
        let w3 := jmap_struct_move_forward w2 q jmitem.size idx
        match jmap_from_json_object_with_intended wr q item_jso w3 with
        | none => none
        | some (ret, w4) =>
          if ret ≠ 0 then some (-1, w4)
          else some (0, jmap_struct_move_backward w4 q jmitem.size idx)
  | .array =>
    if item_jso.is_null then some (0, set_mem w1 (memset0 w1.mem vptr jmitem.size))
    else
      match jmap_from_json_array_with_intended wr hp (jmap_array_move_next_dimen jmitem idx)
          item_jso w1 with
      | none => none
      | some (ret, w4) => if ret ≠ 0 then some (-1, w4) else some (0, w4)
  | t =>
    match from_json_scalar lib w1.mem t jmitem.size vptr item_jso with
    | some mem => some (0, set_mem w1 mem)
    | none => some (-1, w1)

/-- Function `jmap_from_json_warpper` with the intended fuzzy locator rule. -/
def jmap_from_json_warpper_intended (lib : JsonLib) :
    Nat → Nat → jmap_item_t → Nat → Json → World → Option (Int × World)
  | 0, _, _, _, _, _ => none
  | fuel + 1, hp, jmitem, idx, item_jso, w =>
    if node_base w hp jmitem = 0 then some (-1, w)
    else
      let vptr := node_addr w hp jmitem idx
      from_json_by_type_intended lib (jmap_from_json_warpper_intended lib fuel) hp jmitem idx
        vptr item_jso (record_visit w vptr jmitem)

/-- Function `jmap_from_json_object` with the intended fuzzy locator rule. -/
def jmap_from_json_object_intended (lib : JsonLib) (fuel : Nat) (p : Nat) (jso : Json)
    (w : World) : Option (Int × World) :=
  jmap_from_json_object_with_intended (jmap_from_json_warpper_intended lib fuel) p jso w

/-- The exact and the fuzzy locator agree on being present and on being
empty. -/
def LocAgree (loc fz : Option (List Char)) : Prop :=
  (loc = none ∧ fz = none) ∨ ∃ l f, loc = some l ∧ fz = some f ∧ (l = [] ↔ f = [])



/-- Two nodes agree in everything but the static rule. -/
def same_but_rule (a b : jmap_item_t) : Prop := with_rule a 0 = with_rule b 0

/-- Two worlds hold the same trees up to the static rules of the nodes, and the
same memory.  Their contexts are free: a callback may be registered in one and
not in the other. -/
structure RuleBlind (w w' : World) : Prop where
  head : ∀ p, (w'.mappers p).jmhead = (w.mappers p).jmhead
  item : ∀ p i, same_but_rule ((w'.mappers p).jmlist i) ((w.mappers p).jmlist i)
  mem : w'.mem = w.mem

/-- Two deserialization results agree: both are missing, or they hold the same
return code and worlds that agree up to rules and context. -/
def DeAgree (r r' : Option (Int × World)) : Prop :=
  match r, r' with
  | none, none => True
  | some a, some b => a.1 = b.1 ∧ RuleBlind a.2 b.2
  | _, _ => False

/-- The world of `bld_rec` over zeroed memory after the rule of its first node
is set to drop and a callback that drops every visit is registered. -/
def world_rec_rules_changed : World :=
  jxs_set_convert_callback (jxs_item_set_rule (set_mem world_rec mem_zero) (some (0, 0)) 3)
    (some cb_drop_all)



/-- The number of array dimensions a node has left: `depth - cur_depth`. -/
def remaining_dims (it : jmap_item_t) : Nat := it.arr.depth - it.arr.cur_depth

/-- Every node of the store has at most `JXS_ARRAY_DEPTH` array dimensions
left (as `jxs_item_basic_add` leaves it: depth at most `JXS_ARRAY_DEPTH`,
current depth 0). -/
def DimsBounded (S : Nat → jxs_mapper) : Prop :=
  ∀ q i, i < (S q).jmhead.idx → remaining_dims ((S q).jmlist i) ≤ JXS_ARRAY_DEPTH



/-- The document values of the elements `i, i + 1, ...` (`n` of them) of the
leaf element node `e` of a tree based at `start` that the rule engine does not
find empty in memory `mem`, in index order. -/
def kept_elems (lib : JsonLib) (mem : Mem) (e : jmap_item_t) (start i n : Nat) : List Json :=
  ((List.range' i n).filter
    (fun k => !value_is_empty mem e.type e.size (addr_of start e k))).map
    (fun k => (to_json_scalar lib mem e.type e.size (addr_of start e k)).getD .null)



/-- A non-empty value in the sense of the specification, which classifies a
value as empty by type: a boolean that is not false and a number that is not
zero (some byte of the field is non-zero; for a floating field, some bit other
than the sign bit is set), a text that is present and whose first byte is not
NUL, a document reference that is not `NULL`.  A node of any other kind (null,
unsigned, sub-structure, array) has no empty value. -/
def field_is_nonempty (mem : Mem) (type : jxs_type) (size vptr : Nat) : Prop :=
  match type with
  | .boolean => read_le mem vptr size ≠ 0
  | .int => read_le mem vptr size ≠ 0
  | .double => read_le mem vptr size % 2 ^ (8 * size - 1) ≠ 0
  | .string => vptr ≠ 0 ∧ (mem vptr).val ≠ 0
  | .object => read_le mem vptr 8 ≠ 0
  | _ => True

instance field_is_nonempty_decidable (mem : Mem) (type : jxs_type) (size vptr : Nat) :
    Decidable (field_is_nonempty mem type size vptr) := by
  unfold field_is_nonempty
  cases type <;> infer_instance

/-- An integer field `a` at offset 0 declared with size 3, with static rule
drop. -/
def item_int3_drop : jmap_item_t := leaf_item .int [Char.ofNat 97] 0 3 JXS_RULE_DROP_SELF



/-- The address of byte `b` of element `k` of a node of a tree based at
`start`: `vptr + b` for the address `vptr` of the element. -/
def elem_at (start : Nat) (it : jmap_item_t) (k b : Nat) : Nat :=
  (addr_of start it k + b) % PTR_MOD

/-- The element node of the array field `item_arr_small`: its size `2 / 4` is
0. -/
def item_elem_small : jmap_item_t := jmap_array_move_next_dimen item_arr_small 0

/-- The element node of an array field of two document references declared
with the size 8 of one reference: each element has size 4. -/
def item_elem_ref4 : jmap_item_t :=
  jmap_array_move_next_dimen (array_item .object [Char.ofNat 118] 0 8 2 JXS_RULE_KEEP_RAW) 0

set_option maxRecDepth 100000

/-! ## Rule engine: basic facts -/

theorem handler_no_callback (w : World) (jmitem : jmap_item_t) (vptr : Nat)
    (hr : jmitem.rule ≠ 0) (hcb : w.ctx.convert_callback = none) :
    jmap_convert_handler w jmitem vptr =
      (if jmitem.rule = JXS_RULE_KEEP_RAW then item_action.RULE_ITEM_KEEP
       else if value_is_empty w.mem jmitem.type jmitem.size vptr = false then
         item_action.RULE_ITEM_KEEP
       else if jmitem.rule = JXS_RULE_DROP_SELF then item_action.RULE_ITEM_DELETE
       else if jmitem.rule = JXS_RULE_SET_NULL then item_action.RULE_ITEM_SET
       else item_action.RULE_ITEM_KEEP, set_now_vptr w vptr) := by
  unfold jmap_convert_handler
  simp only [JXS_RULE_KEEP_RAW, JXS_RULE_DROP_SELF, JXS_RULE_SET_NULL] at *
  simp only [hr, if_false, hcb, set_now_vptr]
  by_cases h1 : jmitem.rule = 1
  · simp [h1]
  · cases he : value_is_empty w.mem jmitem.type jmitem.size vptr
    · simp [h1, he]
    · by_cases h3 : jmitem.rule = 3
      · simp [h1, he, h3]
      · by_cases h2 : jmitem.rule = 2
        · simp [h1, he, h3, h2]
        · simp [h1, he, h3, h2]

theorem handler_rule_zero (w : World) (jmitem : jmap_item_t) (vptr : Nat)
    (hr : jmitem.rule = 0) :
    jmap_convert_handler w jmitem vptr = (item_action.RULE_ITEM_ERROR, w) := by
  unfold jmap_convert_handler
  simp [hr]


/-! ## Projections of the world updates -/

@[simp] theorem set_now_mappers (w : World) (a b : List Char) :
    (set_now w a b).mappers = w.mappers := rfl
@[simp] theorem set_now_mem (w : World) (a b : List Char) : (set_now w a b).mem = w.mem := rfl
@[simp] theorem set_now_cb (w : World) (a b : List Char) :
    (set_now w a b).ctx.convert_callback = w.ctx.convert_callback := rfl
@[simp] theorem set_now_rule (w : World) (a b : List Char) :
    (set_now w a b).ctx.convert_rule = w.ctx.convert_rule := rfl
@[simp] theorem set_now_visits (w : World) (a b : List Char) :
    (set_now w a b).visits = w.visits := rfl
@[simp] theorem record_visit_mappers (w : World) (v : Nat) (it : jmap_item_t) :
    (record_visit w v it).mappers = w.mappers := rfl
@[simp] theorem record_visit_mem (w : World) (v : Nat) (it : jmap_item_t) :
    (record_visit w v it).mem = w.mem := rfl
@[simp] theorem record_visit_ctx (w : World) (v : Nat) (it : jmap_item_t) :
    (record_visit w v it).ctx = w.ctx := rfl
@[simp] theorem record_visit_visits (w : World) (v : Nat) (it : jmap_item_t) :
    (record_visit w v it).visits
      = w.visits ++ [{ vptr := v, type := it.type, size := it.size }] := rfl
@[simp] theorem set_mem_mappers (w : World) (m : Mem) : (set_mem w m).mappers = w.mappers := rfl
@[simp] theorem set_mem_mem (w : World) (m : Mem) : (set_mem w m).mem = m := rfl
@[simp] theorem set_mem_ctx (w : World) (m : Mem) : (set_mem w m).ctx = w.ctx := rfl
@[simp] theorem set_mem_visits (w : World) (m : Mem) : (set_mem w m).visits = w.visits := rfl
@[simp] theorem set_mapper_mappers (w : World) (p : Nat) (m : jxs_mapper) (q : Nat) :
    (set_mapper w p m).mappers q = if q = p then m else w.mappers q := rfl
@[simp] theorem set_mapper_mem (w : World) (p : Nat) (m : jxs_mapper) :
    (set_mapper w p m).mem = w.mem := rfl
@[simp] theorem set_mapper_ctx (w : World) (p : Nat) (m : jxs_mapper) :
    (set_mapper w p m).ctx = w.ctx := rfl
@[simp] theorem set_mapper_visits (w : World) (p : Nat) (m : jxs_mapper) :
    (set_mapper w p m).visits = w.visits := rfl

@[simp] theorem set_start_addr_mem (w : World) (p a : Nat) : (set_start_addr w p a).mem = w.mem := rfl
@[simp] theorem set_start_addr_ctx (w : World) (p a : Nat) : (set_start_addr w p a).ctx = w.ctx := rfl
@[simp] theorem set_start_addr_visits (w : World) (p a : Nat) :
    (set_start_addr w p a).visits = w.visits := rfl
@[simp] theorem move_forward_mem (w : World) (p s i : Nat) :
    (jmap_struct_move_forward w p s i).mem = w.mem := rfl
@[simp] theorem move_forward_ctx (w : World) (p s i : Nat) :
    (jmap_struct_move_forward w p s i).ctx = w.ctx := rfl
@[simp] theorem move_forward_visits (w : World) (p s i : Nat) :
    (jmap_struct_move_forward w p s i).visits = w.visits := rfl
@[simp] theorem move_backward_mem (w : World) (p s i : Nat) :
    (jmap_struct_move_backward w p s i).mem = w.mem := rfl
@[simp] theorem move_backward_ctx (w : World) (p s i : Nat) :
    (jmap_struct_move_backward w p s i).ctx = w.ctx := rfl
@[simp] theorem move_backward_visits (w : World) (p s i : Nat) :
    (jmap_struct_move_backward w p s i).visits = w.visits := rfl

theorem set_start_addr_jmlist (w : World) (p a r : Nat) :
    ((set_start_addr w p a).mappers r).jmlist = (w.mappers r).jmlist := by
  unfold set_start_addr
  by_cases h : r = p <;> simp [h]

theorem set_start_addr_idx (w : World) (p a r : Nat) :
    ((set_start_addr w p a).mappers r).jmhead.idx = (w.mappers r).jmhead.idx := by
  unfold set_start_addr
  by_cases h : r = p <;> simp [h]

theorem set_start_addr_start (w : World) (p a r : Nat) :
    ((set_start_addr w p a).mappers r).jmhead.start_addr
      = if r = p then a else (w.mappers r).jmhead.start_addr := by
  unfold set_start_addr
  by_cases h : r = p <;> simp [h]

theorem move_forward_head (w : World) (p s i r : Nat) :
    ((jmap_struct_move_forward w p s i).mappers r).jmhead = (w.mappers r).jmhead := by
  unfold jmap_struct_move_forward
  by_cases h : r = p <;> simp [h]

theorem move_backward_head (w : World) (p s i r : Nat) :
    ((jmap_struct_move_backward w p s i).mappers r).jmhead = (w.mappers r).jmhead := by
  unfold jmap_struct_move_backward
  by_cases h : r = p <;> simp [h]

theorem move_forward_jmlist (w : World) (p s i r : Nat) :
    ((jmap_struct_move_forward w p s i).mappers r).jmlist
      = if r = p then
          map_first (w.mappers p).jmhead.idx
            (fun it => set_offset it ((it.offset + s * i) % PTR_MOD)) (w.mappers p).jmlist
        else (w.mappers r).jmlist := by
  unfold jmap_struct_move_forward
  by_cases h : r = p <;> simp [h]

theorem move_backward_jmlist (w : World) (p s i r : Nat) :
    ((jmap_struct_move_backward w p s i).mappers r).jmlist
      = if r = p then
          map_first (w.mappers p).jmhead.idx
            (fun it => set_offset it
              ((it.offset + (PTR_MOD - (s * i) % PTR_MOD)) % PTR_MOD)) (w.mappers p).jmlist
        else (w.mappers r).jmlist := by
  unfold jmap_struct_move_backward
  by_cases h : r = p <;> simp [h]

/-- Moving an offset forward and backward by the same amount restores it. -/
theorem offset_restore (o d : Nat) (ho : o < PTR_MOD) :
    ((o + d) % PTR_MOD + (PTR_MOD - d % PTR_MOD)) % PTR_MOD = o := by
  unfold PTR_MOD at *
  omega

/-! ## The rule engine leaves the store alone -/

theorem handler_snd (w : World) (it : jmap_item_t) (v : Nat) :
    (jmap_convert_handler w it v).2 = handler_world w it v := by
  unfold jmap_convert_handler handler_world
  by_cases hr : it.rule = 0
  · simp [hr]
  · simp only [hr, if_false]
    cases hcb : w.ctx.convert_callback with
    | none =>
      simp only []
      repeat' split
      all_goals simp [set_now_vptr, hcb]
    | some cb =>
      simp only []
      repeat' split
      all_goals simp [hcb]

theorem handler_mappers (w : World) (it : jmap_item_t) (v : Nat) :
    (jmap_convert_handler w it v).2.mappers = w.mappers := by
  rw [handler_snd]; unfold handler_world
  repeat' split
  all_goals rfl

theorem handler_visits (w : World) (it : jmap_item_t) (v : Nat) :
    (jmap_convert_handler w it v).2.visits = w.visits := by
  rw [handler_snd]; unfold handler_world
  repeat' split
  all_goals rfl

theorem handler_ctx_frame (w : World) (it : jmap_item_t) (v : Nat) :
    CtxFrame w (jmap_convert_handler w it v).2 := by
  rw [handler_snd]; unfold handler_world
  by_cases hr : it.rule = 0
  · simp only [hr, if_true]
    exact ⟨rfl, fun _ => rfl, fun _ => rfl⟩
  · simp only [hr, if_false]
    cases hcb : w.ctx.convert_callback with
    | none => exact ⟨(by simp [set_now_vptr]), fun _ => rfl, fun _ => rfl⟩
    | some cb =>
      exact ⟨hcb.symm, fun h => (by rw [hcb] at h; cases h), fun h => (by rw [hcb] at h; cases h)⟩

/-! ## Frames: basic algebra -/

theorem store_frame_refl (rank : Nat → Nat) (n : Nat) (w : World) : StoreFrame rank n w w :=
  ⟨fun _ => rfl, fun _ => rfl, fun _ _ => rfl⟩

theorem store_frame_of_mappers_eq (rank : Nat → Nat) (n : Nat) {w w' : World}
    (h : w'.mappers = w.mappers) : StoreFrame rank n w w' :=
  ⟨fun _ => by rw [h], fun _ => by rw [h], fun _ _ => by rw [h]⟩

theorem store_frame_trans {rank : Nat → Nat} {n : Nat} {w1 w2 w3 : World}
    (h1 : StoreFrame rank n w1 w2) (h2 : StoreFrame rank n w2 w3) : StoreFrame rank n w1 w3 :=
  ⟨fun r => (h2.list r).trans (h1.list r), fun r => (h2.idx r).trans (h1.idx r),
   fun r hr => (h2.start r hr).trans (h1.start r hr)⟩

theorem store_frame_mono {rank : Nat → Nat} {n m : Nat} {w1 w2 : World}
    (h : StoreFrame rank n w1 w2) (hnm : n ≤ m) : StoreFrame rank m w1 w2 :=
  ⟨h.list, h.idx, fun r hr => h.start r (Nat.le_trans hnm hr)⟩

theorem ctx_frame_refl (w : World) : CtxFrame w w := ⟨rfl, fun _ => rfl, fun _ => rfl⟩

theorem ctx_frame_trans {w1 w2 w3 : World} (h1 : CtxFrame w1 w2) (h2 : CtxFrame w2 w3) :
    CtxFrame w1 w3 :=
  ⟨h2.cb.trans h1.cb,
   fun h => (h2.mem (h1.cb.trans h)).trans (h1.mem h),
   fun h => (h2.rule (h1.cb.trans h)).trans (h1.rule h)⟩

theorem acyclic_of_frame {rank : Nat → Nat} {n : Nat} {w w' : World}
    (h : Acyclic rank w.mappers) (hf : StoreFrame rank n w w') : Acyclic rank w'.mappers := by
  intro p i q hi hq
  rw [hf.idx p] at hi
  rw [hf.list p] at hq
  exact h p i q hi hq

theorem offs_ok_of_frame {rank : Nat → Nat} {n : Nat} {w w' : World}
    (h : OffsOK w.mappers) (hf : StoreFrame rank n w w') : OffsOK w'.mappers := by
  intro p i hi
  rw [hf.idx p] at hi
  rw [hf.list p]
  exact h p i hi

theorem below_next_dimen {rank : Nat → Nat} {it : jmap_item_t} {hp : Nat}
    (h : Below rank it hp) (idx : Nat) : Below rank (jmap_array_move_next_dimen it idx) hp := by
  intro q hq
  unfold jmap_array_move_next_dimen at hq
  split at hq
  · simp [jmap_item_zero] at hq
  · exact h q hq

/-! ## Serialization keeps the store -/

theorem to_json_array_loop_frame {rank : Nat → Nat}
    {wr : Nat → jmap_item_t → Nat → World → Option (Int × Json × World)}
    (hwr : SerWrOK rank wr) (hp : Nat) (it : jmap_item_t) (loc fz : Option (List Char))
    (hb : Below rank it hp) :
    ∀ (n i : Nat) (arr : Json) (w : World) (ret : Int) (j : Json) (w' : World),
      Acyclic rank w.mappers → OffsOK w.mappers →
      to_json_array_loop wr hp it loc fz n i arr w = some (ret, j, w') →
      CtxFrame w w' ∧ (ret ≠ -1 → StoreFrame rank (rank hp) w w') := by
  intro n
  induction n with
  | zero =>
    intro i arr w ret j w' _ _ h
    simp only [to_json_array_loop, Option.some.injEq, Prod.mk.injEq] at h
    obtain ⟨_, _, rfl⟩ := h
    exact ⟨ctx_frame_refl _, fun _ => store_frame_refl _ _ _⟩
  | succ n ih =>
    intro i arr w ret j w' hac hoff h
    simp only [to_json_array_loop] at h
    cases hw : wr hp it i (set_now w (SET_NEW_LOCATOR loc it.key true i)
        (SET_NEW_FUZZY_LOCATOR fz loc it.key true)) with
    | none => rw [hw] at h; cases h
    | some r =>
      obtain ⟨r1, ij, w2⟩ := r
      rw [hw] at h
      simp only [] at h
      have hf := hwr hp it i _ r1 ij w2 (by simpa using hac) (by simpa using hoff) hb hw
      have hc1 : CtxFrame w w2 := ⟨hf.1.cb, fun hn => hf.1.mem hn, fun hn => hf.1.rule hn⟩
      by_cases hr1 : r1 = -1
      · simp only [hr1, if_true, Option.some.injEq, Prod.mk.injEq] at h
        obtain ⟨rfl, _, rfl⟩ := h
        exact ⟨hc1, fun hne => absurd rfl hne⟩
      · have hs1 : StoreFrame rank (rank hp) w w2 := by
          have := hf.2 hr1
          exact ⟨this.list, this.idx, this.start⟩
        simp only [hr1, if_false] at h
        by_cases hr0 : r1 = 0
        · simp only [hr0, if_true] at h
          have := ih _ _ _ _ _ _ (acyclic_of_frame hac hs1) (offs_ok_of_frame hoff hs1) h
          exact ⟨ctx_frame_trans hc1 this.1, fun hne => store_frame_trans hs1 (this.2 hne)⟩
        · simp only [hr0, if_false] at h
          have := ih _ _ _ _ _ _ (acyclic_of_frame hac hs1) (offs_ok_of_frame hoff hs1) h
          exact ⟨ctx_frame_trans hc1 this.1, fun hne => store_frame_trans hs1 (this.2 hne)⟩

theorem to_json_object_loop_frame {rank : Nat → Nat}
    {wr : Nat → jmap_item_t → Nat → World → Option (Int × Json × World)}
    (hwr : SerWrOK rank wr) (p : Nat) (loc fz : Option (List Char)) :
    ∀ (n i : Nat) (jso : Json) (w : World) (ret : Int) (j : Json) (w' : World),
      Acyclic rank w.mappers → OffsOK w.mappers → i + n ≤ (w.mappers p).jmhead.idx →
      to_json_object_loop wr p loc fz n i jso w = some (ret, j, w') →
      CtxFrame w w' ∧ (ret ≠ -1 → StoreFrame rank (rank p) w w') := by
  intro n
  induction n with
  | zero =>
    intro i jso w ret j w' _ _ _ h
    simp only [to_json_object_loop, Option.some.injEq, Prod.mk.injEq] at h
    obtain ⟨_, _, rfl⟩ := h
    exact ⟨ctx_frame_refl _, fun _ => store_frame_refl _ _ _⟩
  | succ n ih =>
    intro i jso w ret j w' hac hoff hin h
    simp only [to_json_object_loop] at h
    have hb : Below rank ((w.mappers p).jmlist i) p := fun q hq => hac p i q (by omega) hq
    cases hw : wr p ((w.mappers p).jmlist i) 0
        (set_now w (SET_NEW_LOCATOR loc ((w.mappers p).jmlist i).key false 0)
          (SET_NEW_FUZZY_LOCATOR fz loc ((w.mappers p).jmlist i).key false)) with
    | none => rw [hw] at h; cases h
    | some r =>
      obtain ⟨r1, ij, w2⟩ := r
      rw [hw] at h
      simp only [] at h
      have hf := hwr p _ 0 _ r1 ij w2 (by simpa using hac) (by simpa using hoff) hb hw
      have hc1 : CtxFrame w w2 := ⟨hf.1.cb, fun hn => hf.1.mem hn, fun hn => hf.1.rule hn⟩
      by_cases hr1 : r1 = -1
      · simp only [hr1, if_true, Option.some.injEq, Prod.mk.injEq] at h
        obtain ⟨rfl, _, rfl⟩ := h
        exact ⟨hc1, fun hne => absurd rfl hne⟩
      · have hs1 : StoreFrame rank (rank p) w w2 := by
          have := hf.2 hr1
          exact ⟨this.list, this.idx, this.start⟩
        have hin2 : i + 1 + n ≤ (w2.mappers p).jmhead.idx := by rw [hs1.idx p]; omega
        simp only [hr1, if_false] at h
        by_cases hr0 : r1 = 0
        · simp only [hr0, if_true] at h
          have := ih _ _ _ _ _ _ (acyclic_of_frame hac hs1) (offs_ok_of_frame hoff hs1) hin2 h
          exact ⟨ctx_frame_trans hc1 this.1, fun hne => store_frame_trans hs1 (this.2 hne)⟩
        · simp only [hr0, if_false] at h
          have := ih _ _ _ _ _ _ (acyclic_of_frame hac hs1) (offs_ok_of_frame hoff hs1) hin2 h
          exact ⟨ctx_frame_trans hc1 this.1, fun hne => store_frame_trans hs1 (this.2 hne)⟩

theorem acyclic_rebase {rank : Nat → Nat} {w : World} (h : Acyclic rank w.mappers)
    (q a s i : Nat) :
    Acyclic rank (jmap_struct_move_forward (set_start_addr w q a) q s i).mappers := by
  intro p k r hk hr
  rw [move_forward_head, set_start_addr_idx] at hk
  rw [move_forward_jmlist] at hr
  by_cases hpq : p = q
  · subst hpq
    simp only [if_true, map_first, set_start_addr_idx, set_start_addr_jmlist, hk, set_offset] at hr
    exact h p k r hk hr
  · simp only [hpq, if_false, set_start_addr_jmlist] at hr
    exact h p k r hk hr

theorem offs_ok_rebase {w : World} (h : OffsOK w.mappers) (q a s i : Nat) :
    OffsOK (jmap_struct_move_forward (set_start_addr w q a) q s i).mappers := by
  intro p k hk
  rw [move_forward_head, set_start_addr_idx] at hk
  rw [move_forward_jmlist]
  by_cases hpq : p = q
  · subst hpq
    simp only [if_true, map_first, set_start_addr_idx, set_start_addr_jmlist, hk, set_offset]
    exact Nat.mod_lt _ (by decide)
  · simp only [hpq, if_false, set_start_addr_jmlist]
    exact h p k hk

/-- Rebasing a sub-tree, walking it with a store-preserving traversal and
moving it back restores the store, up to the base address of the sub-tree. -/
theorem rebase_frame {rank : Nat → Nat} {w1 w4 : World} {q a s i n : Nat}
    (hoff : OffsOK w1.mappers) (hq : rank q < n)
    (hf : StoreFrame rank (rank q)
      (jmap_struct_move_forward (set_start_addr w1 q a) q s i) w4) :
    StoreFrame rank n w1 (jmap_struct_move_backward w4 q s i) := by
  refine ⟨fun r => ?_, fun r => ?_, fun r hr => ?_⟩
  · rw [move_backward_jmlist]
    by_cases hrq : r = q
    · subst hrq
      simp only [if_true]
      rw [hf.list r, hf.idx r, move_forward_jmlist, move_forward_head, set_start_addr_idx]
      simp only [if_true, set_start_addr_idx, set_start_addr_jmlist]
      funext k
      simp only [map_first]
      by_cases hk : k < (w1.mappers r).jmhead.idx
      · simp only [hk, if_true, set_offset]
        rw [offset_restore _ _ (hoff r k hk)]
      · simp only [hk, if_false]
    · simp only [hrq, if_false]
      rw [hf.list r, move_forward_jmlist]
      simp only [hrq, if_false, set_start_addr_jmlist]
  · rw [move_backward_head, hf.idx r, move_forward_head, set_start_addr_idx]
  · have hrq : r ≠ q := by
      intro h; subst h; omega
    rw [move_backward_head, hf.start r (by omega), move_forward_head, set_start_addr_start]
    simp only [hrq, if_false]

theorem to_json_object_with_frame {rank : Nat → Nat}
    {wr : Nat → jmap_item_t → Nat → World → Option (Int × Json × World)}
    (hwr : SerWrOK rank wr) (p : Nat) (jso : Json) (w : World) (ret : Int) (j : Json)
    (w' : World) (hac : Acyclic rank w.mappers) (hoff : OffsOK w.mappers)
    (h : jmap_to_json_object_with wr p jso w = some (ret, j, w')) :
    CtxFrame w w' ∧ (ret ≠ -1 → StoreFrame rank (rank p) w w') := by
  unfold jmap_to_json_object_with at h
  split at h
  · simp only [Option.some.injEq, Prod.mk.injEq] at h
    obtain ⟨rfl, _, rfl⟩ := h
    exact ⟨ctx_frame_refl _, fun hne => absurd rfl hne⟩
  · split at h
    · simp only [Option.some.injEq, Prod.mk.injEq] at h
      obtain ⟨rfl, _, rfl⟩ := h
      exact ⟨ctx_frame_refl _, fun hne => absurd rfl hne⟩
    · exact to_json_object_loop_frame hwr p _ _ _ 0 jso w ret j w' hac hoff (by omega) h

theorem to_json_array_with_frame {rank : Nat → Nat}
    {wr : Nat → jmap_item_t → Nat → World → Option (Int × Json × World)}
    (hwr : SerWrOK rank wr) (hp : Nat) (it : jmap_item_t) (arr : Json) (w : World) (ret : Int)
    (j : Json) (w' : World) (hac : Acyclic rank w.mappers) (hoff : OffsOK w.mappers)
    (hb : Below rank it hp)
    (h : jmap_to_json_array_with wr hp it arr w = some (ret, j, w')) :
    CtxFrame w w' ∧ (ret ≠ -1 → StoreFrame rank (rank hp) w w') := by
  unfold jmap_to_json_array_with at h
  split at h
  · simp only [Option.some.injEq, Prod.mk.injEq] at h
    obtain ⟨rfl, _, rfl⟩ := h
    exact ⟨ctx_frame_refl _, fun hne => absurd rfl hne⟩
  · split at h
    · simp only [Option.some.injEq, Prod.mk.injEq] at h
      obtain ⟨rfl, _, rfl⟩ := h
      exact ⟨ctx_frame_refl _, fun hne => absurd rfl hne⟩
    · exact to_json_array_loop_frame hwr hp it _ _ hb _ 0 arr w ret j w' hac hoff h

theorem ctx_frame_of_eq {w w' : World} (hc : w'.ctx = w.ctx) (hm : w'.mem = w.mem) :
    CtxFrame w w' :=
  ⟨by rw [hc], fun _ => hm, fun _ => by rw [hc]⟩

theorem to_json_by_type_frame {rank : Nat → Nat} (lib : JsonLib)
    {wr : Nat → jmap_item_t → Nat → World → Option (Int × Json × World)}
    (hwr : SerWrOK rank wr) (hp : Nat) (it : jmap_item_t) (idx vptr : Nat) (w : World)
    (ret : Int) (j : Json) (w' : World) (hac : Acyclic rank w.mappers)
    (hoff : OffsOK w.mappers) (hb : Below rank it hp)
    (h : to_json_by_type lib wr hp it idx vptr w = some (ret, j, w')) :
    CtxFrame w w' ∧ (ret ≠ -1 → StoreFrame rank (rank hp) w w') := by
  unfold to_json_by_type at h
  split at h
  · -- struct
    split at h
    · simp only [Option.some.injEq, Prod.mk.injEq] at h
      obtain ⟨_, _, rfl⟩ := h
      exact ⟨ctx_frame_refl _, fun _ => store_frame_refl _ _ _⟩
    · rename_i q hq
      simp only [] at h
      split at h
      · cases h
      · rename_i r1 jso w4 hw
        have hf := to_json_object_with_frame hwr q _ _ r1 jso w4
          (acyclic_rebase hac q _ it.size idx) (offs_ok_rebase hoff q _ it.size idx) hw
        have hc : CtxFrame w w4 :=
          ctx_frame_trans (ctx_frame_of_eq (w := w) (by simp) (by simp)) hf.1
        by_cases hr1 : r1 = -1
        · simp only [hr1, if_true, Option.some.injEq, Prod.mk.injEq] at h
          obtain ⟨rfl, _, rfl⟩ := h
          exact ⟨hc, fun hne => absurd rfl hne⟩
        · simp only [hr1, if_false, Option.some.injEq, Prod.mk.injEq] at h
          obtain ⟨rfl, _, rfl⟩ := h
          refine ⟨ctx_frame_trans hc (ctx_frame_of_eq (by simp) (by simp)), fun _ => ?_⟩
          exact rebase_frame hoff (hb q hq) (hf.2 hr1)
  · -- array
    split at h
    · cases h
    · rename_i r1 jso w4 hw
      have hf := to_json_array_with_frame hwr hp _ _ w r1 jso w4 hac hoff (below_next_dimen hb idx) hw
      by_cases hr1 : r1 = -1
      · simp only [hr1, if_true, Option.some.injEq, Prod.mk.injEq] at h
        obtain ⟨rfl, _, rfl⟩ := h
        exact ⟨hf.1, fun hne => absurd rfl hne⟩
      · simp only [hr1, if_false, Option.some.injEq, Prod.mk.injEq] at h
        obtain ⟨rfl, _, rfl⟩ := h
        exact ⟨hf.1, fun _ => hf.2 hr1⟩
  · -- scalar
    split at h <;>
    · simp only [Option.some.injEq, Prod.mk.injEq] at h
      obtain ⟨_, _, rfl⟩ := h
      exact ⟨ctx_frame_refl _, fun _ => store_frame_refl _ _ _⟩

/-- Serialization frame: every serialization wrapper call keeps the context
frame, and a call that does not fail keeps the store frame. -/
theorem ser_wrapper_frame (lib : JsonLib) (rank : Nat → Nat) :
    ∀ fuel, SerWrOK rank (jmap_to_json_warpper lib fuel) := by
  intro fuel
  induction fuel with
  | zero =>
    intro hp it idx w ret j w' _ _ _ h
    simp [jmap_to_json_warpper] at h
  | succ fuel ih =>
    intro hp it idx w ret j w' hac hoff hb h
    simp only [jmap_to_json_warpper] at h
    split at h
    · simp only [Option.some.injEq, Prod.mk.injEq] at h
      obtain ⟨rfl, _, rfl⟩ := h
      exact ⟨ctx_frame_refl _, fun hne => absurd rfl hne⟩
    · have hcf : CtxFrame w (jmap_convert_handler (record_visit w (node_addr w hp it idx)
          it) it (node_addr w hp it idx)).2 :=
        ctx_frame_trans (ctx_frame_of_eq (w := w) (by simp) (by simp)) (handler_ctx_frame _ _ _)
      have hmp := handler_mappers (record_visit w (node_addr w hp it idx) it) it
        (node_addr w hp it idx)
      simp only [record_visit_mappers] at hmp
      split at h
      · simp only [Option.some.injEq, Prod.mk.injEq] at h
        obtain ⟨_, _, rfl⟩ := h
        exact ⟨hcf, fun _ => store_frame_of_mappers_eq _ _ hmp⟩
      · simp only [Option.some.injEq, Prod.mk.injEq] at h
        obtain ⟨_, _, rfl⟩ := h
        exact ⟨hcf, fun _ => store_frame_of_mappers_eq _ _ hmp⟩
      · have hf := to_json_by_type_frame lib ih hp it idx _ _ ret j w'
          (by rw [hmp]; exact hac) (by rw [hmp]; exact hoff) hb h
        exact ⟨ctx_frame_trans hcf hf.1,
          fun hne => store_frame_trans (store_frame_of_mappers_eq _ _ hmp) (hf.2 hne)⟩

/-! ## Return codes of the serialization walks -/

theorem to_json_array_loop_ret
    (wr : Nat → jmap_item_t → Nat → World → Option (Int × Json × World))
    (hp : Nat) (it : jmap_item_t) (loc fz : Option (List Char)) :
    ∀ (n i : Nat) (arr : Json) (w : World) (ret : Int) (j : Json) (w' : World),
      to_json_array_loop wr hp it loc fz n i arr w = some (ret, j, w') →
      ret = 0 ∨ ret = -1 := by
  intro n
  induction n with
  | zero =>
    intro i arr w ret j w' h
    simp only [to_json_array_loop, Option.some.injEq, Prod.mk.injEq] at h
    exact Or.inl h.1.symm
  | succ n ih =>
    intro i arr w ret j w' h
    simp only [to_json_array_loop] at h
    split at h
    · cases h
    · rename_i r1 ij w2 _
      by_cases hr1 : r1 = -1
      · simp only [hr1, if_true, Option.some.injEq, Prod.mk.injEq] at h
        exact Or.inr h.1.symm
      · simp only [hr1, if_false] at h
        split at h <;> exact ih _ _ _ _ _ _ h

theorem to_json_object_loop_ret
    (wr : Nat → jmap_item_t → Nat → World → Option (Int × Json × World))
    (p : Nat) (loc fz : Option (List Char)) :
    ∀ (n i : Nat) (jso : Json) (w : World) (ret : Int) (j : Json) (w' : World),
      to_json_object_loop wr p loc fz n i jso w = some (ret, j, w') →
      ret = 0 ∨ ret = -1 := by
  intro n
  induction n with
  | zero =>
    intro i jso w ret j w' h
    simp only [to_json_object_loop, Option.some.injEq, Prod.mk.injEq] at h
    exact Or.inl h.1.symm
  | succ n ih =>
    intro i jso w ret j w' h
    simp only [to_json_object_loop] at h
    split at h
    · cases h
    · rename_i r1 ij w2 _
      by_cases hr1 : r1 = -1
      · simp only [hr1, if_true, Option.some.injEq, Prod.mk.injEq] at h
        exact Or.inr h.1.symm
      · simp only [hr1, if_false] at h
        split at h <;> exact ih _ _ _ _ _ _ h

theorem to_json_by_type_ret (lib : JsonLib)
    (wr : Nat → jmap_item_t → Nat → World → Option (Int × Json × World))
    (hp : Nat) (it : jmap_item_t) (idx vptr : Nat) (w : World) (ret : Int) (j : Json)
    (w' : World) (h : to_json_by_type lib wr hp it idx vptr w = some (ret, j, w')) :
    ret = 0 ∨ ret = -1 := by
  unfold to_json_by_type at h
  split at h
  · split at h
    · simp only [Option.some.injEq, Prod.mk.injEq] at h
      exact Or.inl h.1.symm
    · simp only [] at h
      split at h
      · cases h
      · rename_i r1 jso w4 hw
        unfold jmap_to_json_object_with at hw
        have hr : r1 = 0 ∨ r1 = -1 := by
          split at hw
          · simp only [Option.some.injEq, Prod.mk.injEq] at hw
            exact Or.inr hw.1.symm
          · split at hw
            · simp only [Option.some.injEq, Prod.mk.injEq] at hw
              exact Or.inr hw.1.symm
            · exact to_json_object_loop_ret _ _ _ _ _ _ _ _ _ _ _ hw
        by_cases hr1 : r1 = -1
        · simp only [hr1, if_true, Option.some.injEq, Prod.mk.injEq] at h
          exact Or.inr h.1.symm
        · simp only [hr1, if_false, Option.some.injEq, Prod.mk.injEq] at h
          rcases hr with hr | hr
          · exact Or.inl (h.1.symm.trans hr)
          · exact absurd hr hr1
  · split at h
    · cases h
    · rename_i r1 jso w4 hw
      unfold jmap_to_json_array_with at hw
      have hr : r1 = 0 ∨ r1 = -1 := by
        split at hw
        · simp only [Option.some.injEq, Prod.mk.injEq] at hw
          exact Or.inr hw.1.symm
        · split at hw
          · simp only [Option.some.injEq, Prod.mk.injEq] at hw
            exact Or.inr hw.1.symm
          · exact to_json_array_loop_ret _ _ _ _ _ _ _ _ _ _ _ _ hw
      by_cases hr1 : r1 = -1
      · simp only [hr1, if_true, Option.some.injEq, Prod.mk.injEq] at h
        exact Or.inr h.1.symm
      · simp only [hr1, if_false, Option.some.injEq, Prod.mk.injEq] at h
        rcases hr with hr | hr
        · exact Or.inl (h.1.symm.trans hr)
        · exact absurd hr hr1
  · split at h <;>
    · simp only [Option.some.injEq, Prod.mk.injEq] at h
      exact Or.inl h.1.symm

/-- On a scalar node of a supported width the type switch emits the value read
from memory. -/
theorem to_json_by_type_scalar (lib : JsonLib)
    (wr : Nat → jmap_item_t → Nat → World → Option (Int × Json × World))
    (hp : Nat) (it : jmap_item_t) (idx vptr : Nat) (w : World) (v : Json)
    (h : to_json_scalar lib w.mem it.type it.size vptr = some v) :
    to_json_by_type lib wr hp it idx vptr w = some (0, v, w) := by
  unfold to_json_by_type
  cases ht : it.type <;> rw [ht] at h <;> simp only [] <;>
    first
    | (simp [to_json_scalar] at h; done)
    | (rw [h])

/-- The serialization wrapper on a node whose address is not `NULL`. -/
theorem wrapper_unfold (lib : JsonLib) (fuel hp : Nat) (it : jmap_item_t) (idx : Nat)
    (w : World) (h0 : node_base w hp it ≠ 0) :
    jmap_to_json_warpper lib (fuel + 1) hp it idx w =
      match (jmap_convert_handler (record_visit w (node_addr w hp it idx) it) it
          (node_addr w hp it idx)).1 with
      | .RULE_ITEM_DELETE =>
        some (1, .null, handler_world (record_visit w (node_addr w hp it idx) it) it
          (node_addr w hp it idx))
      | .RULE_ITEM_SET =>
        some (0, .null, handler_world (record_visit w (node_addr w hp it idx) it) it
          (node_addr w hp it idx))
      | _ => to_json_by_type lib (jmap_to_json_warpper lib fuel) hp it idx
          (node_addr w hp it idx)
          (handler_world (record_visit w (node_addr w hp it idx) it) it
            (node_addr w hp it idx)) := by
  simp only [jmap_to_json_warpper, h0, if_false, handler_snd]

/-! ## Claims C4 and C2: evaluations of the two defects -/

/-- C4 (defect in the code): an integer node declared with size 3 matches no
native width, yet `jmap_to_json_warpper` returns 0 for it (the `goto end` keeps
`ret = 0`), the node is emitted as `null` and `jxs_struct_to_json_object`
returns a document instead of failing. -/
theorem c4_width_mismatch_is_not_reported :
    ((world_int3.mappers 0).jmlist 0).type = jxs_type.int ∧
    ((world_int3.mappers 0).jmlist 0).size = 3 ∧
    (jmap_to_json_warpper lib0 1 0 ((world_int3.mappers 0).jmlist 0) 0 world_int3).map
      (fun r => (r.1, r.2.1.is_null)) = some ((0 : Int), true) ∧
    (jxs_struct_to_json_object lib0 2 (some bld_int3) 100 0 mem_zero).map (fun r => r.1)
      = some (.object [([Char.ofNat 97], .null)]) := by
  refine ⟨by decide, by decide, by decide, ?_⟩
  rfl

/-- C2 (defect in the code): for an `int32_t v[2]` field at address 100 and a
document array of length 3, `jmap_from_json_array` returns 0 but runs three
iterations (`arr_len = jarr_len`): the third element is stored at address 108,
outside the 8 bytes of the field. -/
theorem c2_longer_document_array_overflows :
    (jmap_array_move_next_dimen ((world_arr2.mappers 0).jmlist 0) 0).arr.length = 2 ∧
    (jmap_array_move_next_dimen ((world_arr2.mappers 0).jmlist 0) 0).size = 4 ∧
    (mem_zero 108).val = 0 ∧
    (jmap_from_json_array lib0 1 0
        (jmap_array_move_next_dimen ((world_arr2.mappers 0).jmlist 0) 0) doc_arr3
        world_arr2).map (fun r => (r.1, (r.2.mem 108).val, r.2.visits.length))
      = some ((0 : Int), 3, 3) ∧
    (jxs_struct_from_json_object lib0 2 (some bld_arr2) 100 0
        (.object [([Char.ofNat 118], doc_arr3)]) mem_zero).map
        (fun r => (r.1, (r.2.mem 108).val)) = some ((0 : Int), 3) := by
  refine ⟨by decide, by decide, by decide, by decide, by decide⟩

/-! ## Claims C9 and C10: override and uninitialised rule -/

/-- The action of a visit on which the callback sets an override. -/
theorem handler_override (w : World) (it : jmap_item_t) (vptr : Nat)
    (cb : CbView → CbEffect) (r : Nat) (hrule : it.rule ≠ 0)
    (hcb : w.ctx.convert_callback = some cb) (hset : (cb (cb_view w vptr)).rule = some r)
    (hr : r = JXS_RULE_KEEP_RAW ∨ r = JXS_RULE_SET_NULL ∨ r = JXS_RULE_DROP_SELF) :
    (jmap_convert_handler w it vptr).1 =
      if r = JXS_RULE_KEEP_RAW then item_action.RULE_ITEM_KEEP
      else if r = JXS_RULE_SET_NULL then item_action.RULE_ITEM_SET
      else item_action.RULE_ITEM_DELETE := by
  unfold jmap_convert_handler
  simp only [JXS_RULE_KEEP_RAW, JXS_RULE_DROP_SELF, JXS_RULE_SET_NULL] at *
  simp only [hrule, if_false, hcb, hset]
  rcases hr with h | h | h <;> subst h <;> simp

/-- C9: when the callback sets an override rule `r` (keep-as-is, force-null or
drop) on a visit of a node with a non-zero static rule, the action of
`jmap_convert_handler` is determined by `r` alone, whatever the static rule and
the value; and with the override keep-as-is a scalar node of a supported width
is emitted with the value read from memory (return code 0), also when that
value is empty and the static rule is drop or force-null. -/
theorem c9_override_decides_action (lib : JsonLib) (w : World) (hp : Nat) (jmitem : jmap_item_t)
    (idx fuel : Nat) (cb : CbView → CbEffect) (r : Nat)
    (hrule : jmitem.rule ≠ 0)
    (hcb : w.ctx.convert_callback = some cb)
    (hr : r = JXS_RULE_KEEP_RAW ∨ r = JXS_RULE_SET_NULL ∨ r = JXS_RULE_DROP_SELF) :
    (∀ vptr, (cb (cb_view w vptr)).rule = some r →
      (jmap_convert_handler w jmitem vptr).1 =
        if r = JXS_RULE_KEEP_RAW then item_action.RULE_ITEM_KEEP
        else if r = JXS_RULE_SET_NULL then item_action.RULE_ITEM_SET
        else item_action.RULE_ITEM_DELETE) ∧
    (∀ v, node_base w hp jmitem ≠ 0 →
      (cb (cb_view w (node_addr w hp jmitem idx))).rule = some JXS_RULE_KEEP_RAW →
      to_json_scalar lib (cb (cb_view w (node_addr w hp jmitem idx))).mem jmitem.type
        jmitem.size (node_addr w hp jmitem idx) = some v →
      (jmap_to_json_warpper lib (fuel + 1) hp jmitem idx w).map (fun x => (x.1, x.2.1))
        = some (0, v)) := by
  refine ⟨fun vptr hset => handler_override w jmitem vptr cb r hrule hcb hset hr, ?_⟩
  intro v h0 hset hv
  rw [wrapper_unfold lib fuel hp jmitem idx w h0]
  have hact := handler_override (record_visit w (node_addr w hp jmitem idx) jmitem) jmitem
    (node_addr w hp jmitem idx) cb JXS_RULE_KEEP_RAW hrule hcb hset (Or.inl rfl)
  simp only [if_true] at hact
  rw [hact]
  simp only []
  rw [to_json_by_type_scalar lib _ hp jmitem idx _ _ v]
  · rfl
  · simp only [handler_world, hrule, if_false, record_visit_ctx, hcb]
    exact hv

/-- Witness for C9: an empty text field with static rule drop and a callback
that forces keep-as-is is emitted as the empty text. -/
theorem c9_override_decides_action_witness :
    (jmap_convert_handler (world_of_items [item_text_drop] mem_zero (some cb_keep_raw))
        item_text_drop 100).1 = item_action.RULE_ITEM_KEEP ∧
    (jmap_to_json_warpper lib0 1 0 item_text_drop 0
        (world_of_items [item_text_drop] mem_zero (some cb_keep_raw))).map
      (fun x => (x.1, x.2.1)) = some (0, Json.string []) :=
  ⟨(c9_override_decides_action lib0 (world_of_items [item_text_drop] mem_zero (some cb_keep_raw))
      0 item_text_drop 0 0 cb_keep_raw JXS_RULE_KEEP_RAW (by decide) rfl (Or.inl rfl)).1 100 rfl,
   (c9_override_decides_action lib0 (world_of_items [item_text_drop] mem_zero (some cb_keep_raw))
      0 item_text_drop 0 0 cb_keep_raw JXS_RULE_KEEP_RAW (by decide) rfl (Or.inl rfl)).2
      (Json.string []) (by decide) rfl rfl⟩

/-- C10: a node whose static rule is 0 is treated as Keep, with or without a
registered callback: `jmap_convert_handler` reports the rule error without
running the callback or touching the context, `jmap_to_json_warpper` goes on
with the conversion by type, never returns the delete code 1, and for a scalar
node of a supported width returns 0 with the value read from memory. -/
theorem c10_rule_zero_is_treated_as_keep (lib : JsonLib) (w : World) (hp : Nat)
    (jmitem : jmap_item_t) (idx fuel : Nat) (hr : jmitem.rule = 0) :
    (∀ vptr, jmap_convert_handler w jmitem vptr = (item_action.RULE_ITEM_ERROR, w)) ∧
    (node_base w hp jmitem ≠ 0 →
      jmap_to_json_warpper lib (fuel + 1) hp jmitem idx w =
        to_json_by_type lib (jmap_to_json_warpper lib fuel) hp jmitem idx
          (node_addr w hp jmitem idx) (record_visit w (node_addr w hp jmitem idx) jmitem)) ∧
    (∀ ret j w', jmap_to_json_warpper lib fuel hp jmitem idx w = some (ret, j, w') → ret ≠ 1) ∧
    (∀ v, node_base w hp jmitem ≠ 0 →
      to_json_scalar lib w.mem jmitem.type jmitem.size (node_addr w hp jmitem idx) = some v →
      jmap_to_json_warpper lib (fuel + 1) hp jmitem idx w =
        some (0, v, record_visit w (node_addr w hp jmitem idx) jmitem)) := by
  have hunf : node_base w hp jmitem ≠ 0 →
      jmap_to_json_warpper lib (fuel + 1) hp jmitem idx w =
        to_json_by_type lib (jmap_to_json_warpper lib fuel) hp jmitem idx
          (node_addr w hp jmitem idx) (record_visit w (node_addr w hp jmitem idx) jmitem) := by
    intro h0
    rw [wrapper_unfold lib fuel hp jmitem idx w h0, handler_rule_zero _ _ _ hr]
    simp only [handler_world, hr, if_true]
  refine ⟨fun vptr => handler_rule_zero w jmitem vptr hr, hunf, ?_, ?_⟩
  · intro ret j w' h
    cases fuel with
    | zero => simp [jmap_to_json_warpper] at h
    | succ n =>
      by_cases h0 : node_base w hp jmitem = 0
      · simp only [jmap_to_json_warpper, h0, if_true, Option.some.injEq, Prod.mk.injEq] at h
        omega
      · rw [wrapper_unfold lib n hp jmitem idx w h0, handler_rule_zero _ _ _ hr] at h
        simp only [] at h
        have := to_json_by_type_ret lib _ hp jmitem idx _ _ ret j w' h
        omega
  · intro v h0 hv
    rw [hunf h0]
    exact to_json_by_type_scalar lib _ hp jmitem idx _ _ v hv

/-- Witness for C10: an `int32_t` field holding 5 with rule 0 is emitted as 5
although a callback that drops every visit is registered. -/
theorem c10_rule_zero_is_treated_as_keep_witness :
    jmap_to_json_warpper lib0 1 0 item_int_rule0 0
        (world_of_items [item_int_rule0] mem_five (some cb_drop_all)) =
      some (0, Json.int 5, record_visit
        (world_of_items [item_int_rule0] mem_five (some cb_drop_all))
        (node_addr (world_of_items [item_int_rule0] mem_five (some cb_drop_all)) 0
          item_int_rule0 0) item_int_rule0) :=
  (c10_rule_zero_is_treated_as_keep lib0
    (world_of_items [item_int_rule0] mem_five (some cb_drop_all)) 0 item_int_rule0 0 0 rfl).2.2.2
    (Json.int 5) (by decide) rfl

/-! ## Claim C8: non-empty values are kept -/

/-- The action of a visit without override. -/
theorem handler_no_override (w : World) (it : jmap_item_t) (vptr : Nat)
    (hrule : it.rule ≠ 0) (hov : override_of w vptr = 0) :
    (jmap_convert_handler w it vptr).1 =
      if it.rule = JXS_RULE_KEEP_RAW then item_action.RULE_ITEM_KEEP
      else if value_is_empty (handler_world w it vptr).mem it.type it.size vptr = false then
        item_action.RULE_ITEM_KEEP
      else if it.rule = JXS_RULE_DROP_SELF then item_action.RULE_ITEM_DELETE
      else if it.rule = JXS_RULE_SET_NULL then item_action.RULE_ITEM_SET
      else item_action.RULE_ITEM_KEEP := by
  cases hcb : w.ctx.convert_callback with
  | none =>
    rw [handler_no_callback w it vptr hrule hcb]
    simp only [handler_world, hrule, if_false, hcb, set_now_vptr]
  | some cb =>
    unfold override_of at hov
    simp only [hcb] at hov
    unfold jmap_convert_handler handler_world
    simp only [JXS_RULE_KEEP_RAW, JXS_RULE_DROP_SELF, JXS_RULE_SET_NULL] at *
    simp only [hrule, if_false, hcb, hov, ne_eq, not_true_eq_false]
    by_cases h1 : it.rule = 1
    · simp [h1]
    · cases he : value_is_empty (cb (cb_view w vptr)).mem it.type it.size vptr
      · simp [h1, he]
      · by_cases h3 : it.rule = 3
        · simp [h1, he, h3]
        · by_cases h2 : it.rule = 2
          · simp [h1, he, h3, h2]
          · simp [h1, he, h3, h2]

theorem handler_world_with_rule (w : World) (it : jmap_item_t) (vptr r : Nat)
    (hrule : it.rule ≠ 0) (hr : r ≠ 0) :
    handler_world w (with_rule it r) vptr = handler_world w it vptr := by
  simp only [handler_world, with_rule, hrule, hr, if_false]

theorem to_json_by_type_with_rule (lib : JsonLib)
    (wr : Nat → jmap_item_t → Nat → World → Option (Int × Json × World))
    (hp : Nat) (it : jmap_item_t) (idx vptr r : Nat) (w : World)
    (ht : it.type ≠ jxs_type.array) :
    to_json_by_type lib wr hp (with_rule it r) idx vptr w
      = to_json_by_type lib wr hp it idx vptr w := by
  unfold to_json_by_type
  cases h : it.type <;> simp only [with_rule, h] <;> first | rfl | exact absurd h ht

/-! ## Claims C6 and C7: empty values under the drop and force-null rules -/

theorem to_signed_zero (n : Nat) (hn : n = 1 ∨ n = 2 ∨ n = 4 ∨ n = 8) : to_signed n 0 = 0 := by
  rcases hn with h | h | h | h <;> subst h <;> simp [to_signed]

theorem read_le_one (mem : Mem) (a : Nat) : read_le mem a 1 = (mem a).val := by
  simp [read_le]

/-- An empty field in the sense of the specification is empty for the rule
engine. -/
theorem value_is_empty_of_field (mem : Mem) (type : jxs_type) (size vptr : Nat)
    (h : field_is_empty mem type size vptr) : value_is_empty mem type size vptr = true := by
  cases type <;> simp only [field_is_empty] at h
  · -- boolean
    simp only [value_is_empty]
    by_cases h4 : size = 4
    · subst h4; simp [read_int, h, to_signed_zero]
    · by_cases h1 : size = 1
      · subst h1; rw [read_le_one] at h; simp [h]
      · simp [h4, h1]
  · -- int
    simp only [value_is_empty]
    by_cases h8 : size = 8
    · subst h8; simp [read_int, h, to_signed_zero]
    · by_cases h4 : size = 4
      · subst h4; simp [read_int, h, to_signed_zero]
      · by_cases h2 : size = 2
        · subst h2; simp [read_int, h, to_signed_zero]
        · by_cases h1 : size = 1
          · subst h1; simp [read_int, h, to_signed_zero]
          · simp [h8, h4, h2, h1]
  · simp [value_is_empty, h]
  · simp [value_is_empty, h]

/-- The kinds of node that claims C6 and C7 speak about. -/
theorem field_is_empty_type (mem : Mem) (type : jxs_type) (size vptr : Nat)
    (h : field_is_empty mem type size vptr) :
    type = .boolean ∨ type = .int ∨ type = .string ∨ type = .object := by
  cases type <;> simp [field_is_empty] at h ⊢

/-- An empty node under rule drop, without callback: the handler deletes. -/
theorem handler_empty_drop (w : World) (it : jmap_item_t) (vptr : Nat)
    (hcb : w.ctx.convert_callback = none) (hrule : it.rule = JXS_RULE_DROP_SELF)
    (he : field_is_empty w.mem it.type it.size vptr) :
    jmap_convert_handler w it vptr = (item_action.RULE_ITEM_DELETE, set_now_vptr w vptr) := by
  rw [handler_no_callback w it vptr (by rw [hrule]; decide) hcb,
    value_is_empty_of_field _ _ _ _ he, hrule]
  simp [JXS_RULE_DROP_SELF, JXS_RULE_KEEP_RAW]

/-- An empty node under rule force-null, without callback: the handler nulls. -/
theorem handler_empty_null (w : World) (it : jmap_item_t) (vptr : Nat)
    (hcb : w.ctx.convert_callback = none) (hrule : it.rule = JXS_RULE_SET_NULL)
    (he : field_is_empty w.mem it.type it.size vptr) :
    jmap_convert_handler w it vptr = (item_action.RULE_ITEM_SET, set_now_vptr w vptr) := by
  rw [handler_no_callback w it vptr (by rw [hrule]; decide) hcb,
    value_is_empty_of_field _ _ _ _ he, hrule]
  simp [JXS_RULE_DROP_SELF, JXS_RULE_KEEP_RAW, JXS_RULE_SET_NULL]

theorem wrapper_empty_drop (lib : JsonLib) (fuel hp : Nat) (it : jmap_item_t) (idx : Nat)
    (w : World) (hcb : w.ctx.convert_callback = none) (hrule : it.rule = JXS_RULE_DROP_SELF)
    (he : field_is_empty w.mem it.type it.size (node_addr w hp it idx))
    (h0 : node_base w hp it ≠ 0) :
    jmap_to_json_warpper lib (fuel + 1) hp it idx w =
      some (1, .null, set_now_vptr (record_visit w (node_addr w hp it idx) it)
        (node_addr w hp it idx)) := by
  rw [wrapper_unfold lib fuel hp it idx w h0,
    handler_empty_drop (record_visit w (node_addr w hp it idx) it) it _ hcb hrule he]
  simp only [handler_world, hrule, JXS_RULE_DROP_SELF, record_visit_ctx, hcb]
  rfl

theorem wrapper_empty_null (lib : JsonLib) (fuel hp : Nat) (it : jmap_item_t) (idx : Nat)
    (w : World) (hcb : w.ctx.convert_callback = none) (hrule : it.rule = JXS_RULE_SET_NULL)
    (he : field_is_empty w.mem it.type it.size (node_addr w hp it idx))
    (h0 : node_base w hp it ≠ 0) :
    jmap_to_json_warpper lib (fuel + 1) hp it idx w =
      some (0, .null, set_now_vptr (record_visit w (node_addr w hp it idx) it)
        (node_addr w hp it idx)) := by
  rw [wrapper_unfold lib fuel hp it idx w h0,
    handler_empty_null (record_visit w (node_addr w hp it idx) it) it _ hcb hrule he]
  simp only [handler_world, hrule, JXS_RULE_SET_NULL, record_visit_ctx, hcb]
  rfl

/-! ### Keys and lookups of a document object -/

theorem kvs_add_keys (kvs : List (List Char × Json)) (k : List Char) (v : Json) (k' : List Char) :
    k' ∈ (kvs_add kvs k v).map Prod.fst ↔ k' ∈ kvs.map Prod.fst ∨ k' = k := by
  induction kvs with
  | nil => simp [kvs_add]
  | cons hd tl ih =>
    obtain ⟨a, b⟩ := hd
    simp only [kvs_add]
    by_cases h : a = k
    · subst h
      simp only [if_true, List.map_cons, List.mem_cons]
      tauto
    · simp only [h, if_false, List.map_cons, List.mem_cons, ih]
      tauto

theorem kvs_get_add (kvs : List (List Char × Json)) (k : List Char) (v : Json) (k' : List Char) :
    kvs_get (kvs_add kvs k v) k' = if k' = k then v else kvs_get kvs k' := by
  induction kvs with
  | nil =>
    simp only [kvs_add, kvs_get]
    by_cases h : k = k'
    · subst h; simp
    · have h' : ¬ k' = k := fun e => h e.symm
      simp [h, h']
  | cons hd tl ih =>
    obtain ⟨a, b⟩ := hd
    simp only [kvs_add]
    by_cases h : a = k
    · subst h
      simp only [if_true, kvs_get]
      by_cases h2 : a = k'
      · subst h2; simp
      · have h2' : ¬ k' = a := fun e => h2 e.symm
        simp [h2, h2']
    · simp only [h, if_false, kvs_get, ih]
      by_cases h2 : a = k'
      · subst h2
        have : ¬ a = k := h
        simp [this]
      · simp [h2]

theorem object_add_keys (jso : Json) (k : List Char) (v : Json) (k' : List Char)
    (ho : jso.is_object = true) :
    k' ∈ (json_object_object_add jso k v).keys ↔ k' ∈ jso.keys ∨ k' = k := by
  cases jso <;> simp [Json.is_object] at ho
  simp only [json_object_object_add, Json.keys]
  exact kvs_add_keys _ _ _ _

theorem object_get_add (jso : Json) (k : List Char) (v : Json) (k' : List Char)
    (ho : jso.is_object = true) :
    json_object_object_get (json_object_object_add jso k v) k'
      = if k' = k then v else json_object_object_get jso k' := by
  cases jso <;> simp [Json.is_object] at ho
  simp only [json_object_object_add, json_object_object_get]
  exact kvs_get_add _ _ _ _

theorem object_add_is_object (jso : Json) (k : List Char) (v : Json) :
    (json_object_object_add jso k v).is_object = jso.is_object := by
  cases jso <;> rfl

theorem store_frame_set_now {rank : Nat → Nat} {n : Nat} {w w1 : World}
    (h : StoreFrame rank n w w1) (a b : List Char) : StoreFrame rank n w (set_now w1 a b) :=
  ⟨h.list, h.idx, h.start⟩

theorem ctx_frame_set_now {w w1 : World} (h : CtxFrame w w1) (a b : List Char) :
    CtxFrame w (set_now w1 a b) :=
  ⟨h.cb, h.mem, h.rule⟩

/-- Invariant rule for the node loop of `jmap_to_json_object` on a well-formed
store: a property of the object under construction that every non-failing node
visit preserves holds of the object of a successful walk. -/
theorem to_json_object_loop_inv (lib : JsonLib) (rank : Nat → Nat) (fuel p : Nat)
    (loc fz : Option (List Char)) (w : World) (I : Nat → Json → Prop)
    (hac : Acyclic rank w.mappers) (hoff : OffsOK w.mappers)
    (hstep : ∀ i w1 r1 ij w2 jso, i < (w.mappers p).jmhead.idx →
      StoreFrame rank (rank p) w w1 → CtxFrame w w1 →
      jmap_to_json_warpper lib fuel p ((w.mappers p).jmlist i) 0 w1 = some (r1, ij, w2) →
      r1 ≠ -1 → jso.is_object = true → I i jso →
      I (i + 1)
        (if r1 = 0 then json_object_object_add jso ((w.mappers p).jmlist i).key ij else jso)) :
    ∀ (n i : Nat) (jso : Json) (w1 : World) (jso' : Json) (w' : World),
      i + n ≤ (w.mappers p).jmhead.idx → StoreFrame rank (rank p) w w1 → CtxFrame w w1 →
      jso.is_object = true → I i jso →
      to_json_object_loop (jmap_to_json_warpper lib fuel) p loc fz n i jso w1
        = some (0, jso', w') →
      I (i + n) jso' ∧ jso'.is_object = true := by
  intro n
  induction n with
  | zero =>
    intro i jso w1 jso' w' _ _ _ ho hI h
    simp only [to_json_object_loop, Option.some.injEq, Prod.mk.injEq] at h
    obtain ⟨_, rfl, _⟩ := h
    exact ⟨hI, ho⟩
  | succ n ih =>
    intro i jso w1 jso' w' hin hsf hcf ho hI h
    simp only [to_json_object_loop] at h
    rw [hsf.list p] at h
    cases hw : jmap_to_json_warpper lib fuel p ((w.mappers p).jmlist i) 0
        (set_now w1 (SET_NEW_LOCATOR loc ((w.mappers p).jmlist i).key false 0)
          (SET_NEW_FUZZY_LOCATOR fz loc ((w.mappers p).jmlist i).key false)) with
    | none => rw [hw] at h; cases h
    | some r =>
      obtain ⟨r1, ij, w2⟩ := r
      rw [hw] at h
      simp only [] at h
      have hsf1 := store_frame_set_now hsf (SET_NEW_LOCATOR loc ((w.mappers p).jmlist i).key false 0)
        (SET_NEW_FUZZY_LOCATOR fz loc ((w.mappers p).jmlist i).key false)
      have hcf1 := ctx_frame_set_now hcf (SET_NEW_LOCATOR loc ((w.mappers p).jmlist i).key false 0)
        (SET_NEW_FUZZY_LOCATOR fz loc ((w.mappers p).jmlist i).key false)
      by_cases hr1 : r1 = -1
      · simp only [hr1, if_true, Option.some.injEq, Prod.mk.injEq] at h
        omega
      · have hb : Below rank ((w.mappers p).jmlist i) p := fun q hq => hac p i q (by omega) hq
        have hf := ser_wrapper_frame lib rank fuel p _ 0 _ r1 ij w2
          (acyclic_of_frame hac hsf1) (offs_ok_of_frame hoff hsf1) hb hw
        have hsf2 : StoreFrame rank (rank p) w w2 := store_frame_trans hsf1 (hf.2 hr1)
        have hcf2 : CtxFrame w w2 := ctx_frame_trans hcf1 hf.1
        have hI2 := hstep i _ r1 ij w2 jso (by omega) hsf1 hcf1 hw hr1 ho hI
        simp only [hr1, if_false] at h
        by_cases hr0 : r1 = 0
        · simp only [hr0, if_true] at h hI2
          have := ih (i + 1) _ w2 jso' w' (by omega) hsf2 hcf2
            (by rw [object_add_is_object]; exact ho) hI2 h
          rw [show i + (n + 1) = i + 1 + n by omega]
          exact this
        · simp only [hr0, if_false] at h hI2
          have := ih (i + 1) _ w2 jso' w' (by omega) hsf2 hcf2 ho hI2 h
          rw [show i + (n + 1) = i + 1 + n by omega]
          exact this

theorem node_base_of_frame {rank : Nat → Nat} {w w1 : World} {p : Nat}
    (hsf : StoreFrame rank (rank p) w w1) (it : jmap_item_t) :
    node_base w1 p it = node_base w p it := by
  unfold node_base
  rw [hsf.start p (Nat.le_refl _)]

theorem node_addr_of_frame {rank : Nat → Nat} {w w1 : World} {p : Nat}
    (hsf : StoreFrame rank (rank p) w w1) (it : jmap_item_t) (idx : Nat) :
    node_addr w1 p it idx = node_addr w p it idx := by
  unfold node_addr
  rw [hsf.start p (Nat.le_refl _)]

theorem world_of_items_acyclic (items : List jmap_item_t) (mem : Mem)
    (cb : Option (CbView → CbEffect)) (h : ∀ it ∈ items, it.subjm = none) :
    Acyclic rank_flat (world_of_items items mem cb).mappers := by
  intro p i q hi hq
  simp only [world_of_items] at hi hq
  by_cases hp : p = 0
  · simp only [hp, if_true] at hi hq
    rw [List.getD_eq_getElem _ _ hi] at hq
    rw [h _ (List.getElem_mem hi)] at hq
    cases hq
  · simp only [hp, if_false, jxs_mapper_zero] at hi
    omega

theorem world_of_items_offs (items : List jmap_item_t) (mem : Mem)
    (cb : Option (CbView → CbEffect)) (h : ∀ it ∈ items, it.offset < PTR_MOD) :
    OffsOK (world_of_items items mem cb).mappers := by
  intro p i hi
  simp only [world_of_items] at hi ⊢
  by_cases hp : p = 0
  · simp only [hp, if_true] at hi ⊢
    rw [List.getD_eq_getElem _ _ hi]
    exact h _ (List.getElem_mem hi)
  · simp only [hp, if_false, jxs_mapper_zero] at hi
    omega

/-- C6 (as amended): for a boolean, integer, text or document-passthrough node
with static rule drop, no callback and an empty value, `jmap_convert_handler`
returns Delete, `jmap_to_json_warpper` returns the delete code 1 without a
value, and, on an acyclic store, the object of a successful
`jmap_to_json_object` walk of the node's tree has no entry for the node's key
provided no other node of the tree has the same key. -/
theorem c6_empty_value_is_dropped (lib : JsonLib) (rank : Nat → Nat) (w : World)
    (p i0 fuel : Nat)
    (hac : Acyclic rank w.mappers) (hoff : OffsOK w.mappers)
    (hcb : w.ctx.convert_callback = none)
    (hi0 : i0 < (w.mappers p).jmhead.idx)
    (hrule : ((w.mappers p).jmlist i0).rule = JXS_RULE_DROP_SELF)
    (he : field_is_empty w.mem ((w.mappers p).jmlist i0).type ((w.mappers p).jmlist i0).size
      (node_addr w p ((w.mappers p).jmlist i0) 0))
    (hkeys : ∀ j, j < (w.mappers p).jmhead.idx → j ≠ i0 →
      ((w.mappers p).jmlist j).key ≠ ((w.mappers p).jmlist i0).key) :
    (jmap_convert_handler w ((w.mappers p).jmlist i0)
      (node_addr w p ((w.mappers p).jmlist i0) 0)).1 = item_action.RULE_ITEM_DELETE ∧
    (node_base w p ((w.mappers p).jmlist i0) ≠ 0 →
      ∃ w1, jmap_to_json_warpper lib (fuel + 1) p ((w.mappers p).jmlist i0) 0 w
        = some (1, Json.null, w1)) ∧
    (∀ jso' w', jmap_to_json_object lib fuel p (.object []) w = some (0, jso', w') →
      ((w.mappers p).jmlist i0).key ∉ jso'.keys) := by
  refine ⟨?_, ?_, ?_⟩
  · rw [handler_empty_drop w _ _ hcb hrule he]
  · intro h0
    exact ⟨_, wrapper_empty_drop lib fuel p _ 0 w hcb hrule he h0⟩
  · intro jso' w' h
    unfold jmap_to_json_object jmap_to_json_object_with at h
    simp only [Json.is_null, Json.is_object, Bool.not_true, if_false, Bool.false_eq_true] at h
    have := to_json_object_loop_inv lib rank fuel p w.ctx.now_locator w.ctx.now_fzlocator w
      (fun _ jso => ((w.mappers p).jmlist i0).key ∉ jso.keys) hac hoff ?_
      (w.mappers p).jmhead.idx 0 (.object []) w jso' w' (by omega)
      (store_frame_refl _ _ _) (ctx_frame_refl _) rfl (by simp [Json.keys]) h
    · exact this.1
    · intro i w1 r1 ij w2 jso hi hsf hcf hw hr1 ho hI
      by_cases hii : i = i0
      · subst hii
        have hcb1 : w1.ctx.convert_callback = none := hcf.cb.trans hcb
        have he1 : field_is_empty w1.mem ((w.mappers p).jmlist i).type
            ((w.mappers p).jmlist i).size (node_addr w1 p ((w.mappers p).jmlist i) 0) := by
          rw [hcf.mem hcb, node_addr_of_frame hsf]; exact he
        cases fuel with
        | zero => simp [jmap_to_json_warpper] at hw
        | succ f =>
          by_cases h0 : node_base w1 p ((w.mappers p).jmlist i) = 0
          · simp only [jmap_to_json_warpper, h0, if_true, Option.some.injEq,
              Prod.mk.injEq] at hw
            exact absurd hw.1.symm hr1
          · rw [wrapper_empty_drop lib f p _ 0 w1 hcb1 hrule he1 h0] at hw
            simp only [Option.some.injEq, Prod.mk.injEq] at hw
            have : r1 ≠ 0 := by omega
            simp only [this, if_false]
            exact hI
      · by_cases hr0 : r1 = 0
        · simp only [hr0, if_true]
          rw [object_add_keys _ _ _ _ ho]
          intro hc
          rcases hc with hc | hc
          · exact hI hc
          · exact hkeys i hi hii hc.symm
        · simp only [hr0, if_false]
          exact hI

/-- Witness for C6: the tree with the fields `a` (rule drop, value 0) and `b`
(value 0, rule keep-as-is) at address 100. -/
theorem c6_empty_value_is_dropped_witness :
    (jmap_convert_handler (world_of_items [item_a_drop, item_b_keep] mem_zero none)
      item_a_drop 100).1 = item_action.RULE_ITEM_DELETE ∧
    (∀ jso' w', jmap_to_json_object lib0 1 0 (.object [])
        (world_of_items [item_a_drop, item_b_keep] mem_zero none) = some (0, jso', w') →
      [Char.ofNat 97] ∉ jso'.keys) ∧
    (jmap_to_json_object lib0 1 0 (.object [])
        (world_of_items [item_a_drop, item_b_keep] mem_zero none)).map
      (fun r => (r.1, r.2.1.keys)) = some (0, [[Char.ofNat 98]]) :=
  have h := c6_empty_value_is_dropped lib0 rank_flat
    (world_of_items [item_a_drop, item_b_keep] mem_zero none) 0 0 1
    (world_of_items_acyclic _ _ _ (by decide)) (world_of_items_offs _ _ _ (by decide))
    rfl (by decide) rfl (by decide) (by decide)
  ⟨h.1, h.2.2, by decide⟩

/-- Counterexample to C6 as stated: the node `a` has rule drop and an empty
value, but a second node of the same tree reuses the key `a` and is kept, so
the object produced by `jmap_to_json_object` does contain the key `a`. -/
theorem c6_counterexample_shared_key :
    item_a_drop.rule = JXS_RULE_DROP_SELF ∧
    (jmap_convert_handler (world_of_items [item_a_drop, item_a_again] mem_zero none)
      item_a_drop 100).1 = item_action.RULE_ITEM_DELETE ∧
    (jmap_to_json_object lib0 1 0 (.object [])
        (world_of_items [item_a_drop, item_a_again] mem_zero none)).map
      (fun r => (r.1, r.2.1.keys)) = some (0, [item_a_drop.key]) := by
  refine ⟨rfl, by decide, by decide⟩

/-- The type switch on a node that is neither a sub-structure nor an array. -/
theorem to_json_by_type_leaf (lib : JsonLib)
    (wr : Nat → jmap_item_t → Nat → World → Option (Int × Json × World))
    (hp : Nat) (it : jmap_item_t) (idx vptr : Nat) (w : World)
    (hs : it.type ≠ jxs_type.struct) (ha : it.type ≠ jxs_type.array) :
    to_json_by_type lib wr hp it idx vptr w
      = some (0, (to_json_scalar lib w.mem it.type it.size vptr).getD .null, w) := by
  unfold to_json_by_type
  cases ht : it.type <;> simp only [] <;>
    first
    | exact absurd ht hs
    | exact absurd ht ha
    | (cases to_json_scalar lib w.mem _ it.size vptr <;> rfl)

/-- A leaf node under rule force-null, without callback: the visit returns 0,
with a null value when the field is empty. -/
theorem wrapper_leaf_set_null (lib : JsonLib) (fuel hp : Nat) (it : jmap_item_t) (idx : Nat)
    (w : World) (hcb : w.ctx.convert_callback = none) (hrule : it.rule = JXS_RULE_SET_NULL)
    (hs : it.type ≠ jxs_type.struct) (ha : it.type ≠ jxs_type.array)
    (h0 : node_base w hp it ≠ 0) :
    ∃ j, jmap_to_json_warpper lib (fuel + 1) hp it idx w =
        some (0, j, set_now_vptr (record_visit w (node_addr w hp it idx) it)
          (node_addr w hp it idx)) ∧
      (field_is_empty w.mem it.type it.size (node_addr w hp it idx) → j = .null) := by
  have hr0 : it.rule ≠ 0 := by rw [hrule]; decide
  rw [wrapper_unfold lib fuel hp it idx w h0,
    handler_no_callback (record_visit w (node_addr w hp it idx) it) it _ hr0 hcb]
  have hw : handler_world (record_visit w (node_addr w hp it idx) it) it (node_addr w hp it idx)
      = set_now_vptr (record_visit w (node_addr w hp it idx) it) (node_addr w hp it idx) := by
    simp only [handler_world, hr0, if_false, record_visit_ctx, hcb]
  rw [hw]
  simp only [hrule, JXS_RULE_SET_NULL, JXS_RULE_KEEP_RAW, JXS_RULE_DROP_SELF, record_visit_mem]
  cases hemp : value_is_empty w.mem it.type it.size (node_addr w hp it idx)
  · simp only [show ¬ (2 = 1) by decide, if_false, if_true]
    rw [to_json_by_type_leaf lib _ hp it idx _ _ hs ha]
    refine ⟨_, rfl, fun he => ?_⟩
    rw [value_is_empty_of_field _ _ _ _ he] at hemp
    cases hemp
  · simp only [show ¬ (2 = 1) by decide, show ¬ (2 = 3) by decide, if_false, if_true,
      Bool.true_eq_false]
    exact ⟨.null, rfl, fun _ => rfl⟩

/-- The element loop of `jmap_to_json_array` over leaf elements under rule
force-null, without callback: every element is appended, empty ones as null. -/
theorem to_json_array_loop_set_null (lib : JsonLib) (fuel hp : Nat) (it : jmap_item_t)
    (loc fz : Option (List Char)) (hrule : it.rule = JXS_RULE_SET_NULL)
    (hs : it.type ≠ jxs_type.struct) (ha : it.type ≠ jxs_type.array) :
    ∀ (n i : Nat) (xs : List Json) (w : World), w.ctx.convert_callback = none →
      node_base w hp it ≠ 0 →
      ∃ ys w', to_json_array_loop (jmap_to_json_warpper lib (fuel + 1)) hp it loc fz n i
          (.array xs) w = some (0, .array (xs ++ ys), w') ∧
        ys.length = n ∧
        (∀ k, k < n → field_is_empty w.mem it.type it.size (node_addr w hp it (i + k)) →
          ys[k]? = some .null) := by
  intro n
  induction n with
  | zero =>
    intro i xs w _ _
    exact ⟨[], w, by simp [to_json_array_loop], rfl, fun k hk => absurd hk (by omega)⟩
  | succ n ih =>
    intro i xs w hcb h0
    obtain ⟨j, hj, hje⟩ := wrapper_leaf_set_null lib fuel hp it i
      (set_now w (SET_NEW_LOCATOR loc it.key true i) (SET_NEW_FUZZY_LOCATOR fz loc it.key true))
      hcb hrule hs ha h0
    obtain ⟨ys, w', hl, hlen, hys⟩ := ih (i + 1) (xs ++ [j])
      (set_now_vptr (record_visit
        (set_now w (SET_NEW_LOCATOR loc it.key true i) (SET_NEW_FUZZY_LOCATOR fz loc it.key true))
        (node_addr (set_now w (SET_NEW_LOCATOR loc it.key true i)
          (SET_NEW_FUZZY_LOCATOR fz loc it.key true)) hp it i) it)
        (node_addr (set_now w (SET_NEW_LOCATOR loc it.key true i)
          (SET_NEW_FUZZY_LOCATOR fz loc it.key true)) hp it i)) hcb h0
    refine ⟨j :: ys, w', ?_, by simp [hlen], ?_⟩
    · simp only [to_json_array_loop, hj, json_object_array_add]
      simp only [show ¬ ((0 : Int) = -1) by decide, if_false, if_true]
      rw [hl]
      simp
    · intro k hk he
      cases k with
      | zero => simp only [List.getElem?_cons_zero, Option.some.injEq]; exact hje he
      | succ k =>
        simp only [List.getElem?_cons_succ]
        exact hys k (by omega) (by rw [show i + 1 + k = i + (k + 1) by omega]; exact he)

/-- C7 (as amended): for a boolean, integer, text or document-passthrough node
with static rule force-null, no callback and an empty value,
`jmap_convert_handler` returns SetNull and `jmap_to_json_warpper` returns 0 with
a null value; on an acyclic store the object of a successful
`jmap_to_json_object` walk maps the node's key to null provided no other node
of the tree has the same key; and `jmap_to_json_array` over such leaf elements
returns an array of the declared length whose entries for empty elements are
null. -/
theorem c7_empty_value_is_nulled (lib : JsonLib) (rank : Nat → Nat) (w : World)
    (p i0 fuel : Nat)
    (hac : Acyclic rank w.mappers) (hoff : OffsOK w.mappers)
    (hcb : w.ctx.convert_callback = none)
    (hi0 : i0 < (w.mappers p).jmhead.idx)
    (hrule : ((w.mappers p).jmlist i0).rule = JXS_RULE_SET_NULL)
    (he : field_is_empty w.mem ((w.mappers p).jmlist i0).type ((w.mappers p).jmlist i0).size
      (node_addr w p ((w.mappers p).jmlist i0) 0))
    (hkeys : ∀ j, j < (w.mappers p).jmhead.idx → j ≠ i0 →
      ((w.mappers p).jmlist j).key ≠ ((w.mappers p).jmlist i0).key) :
    (jmap_convert_handler w ((w.mappers p).jmlist i0)
      (node_addr w p ((w.mappers p).jmlist i0) 0)).1 = item_action.RULE_ITEM_SET ∧
    (node_base w p ((w.mappers p).jmlist i0) ≠ 0 →
      ∃ w1, jmap_to_json_warpper lib (fuel + 1) p ((w.mappers p).jmlist i0) 0 w
        = some (0, Json.null, w1)) ∧
    (∀ jso' w', jmap_to_json_object lib fuel p (.object []) w = some (0, jso', w') →
      ((w.mappers p).jmlist i0).key ∈ jso'.keys ∧
      json_object_object_get jso' ((w.mappers p).jmlist i0).key = .null) ∧
    (∀ hp it, it.rule = JXS_RULE_SET_NULL → it.type ≠ jxs_type.struct →
      it.type ≠ jxs_type.array → it.size ≠ 0 → it.arr.length ≠ 0 → node_base w hp it ≠ 0 →
      ∃ ys w', jmap_to_json_array lib (fuel + 1) hp it (.array []) w
          = some (0, .array ys, w') ∧
        ys.length = it.arr.length ∧
        (∀ k, k < it.arr.length →
          field_is_empty w.mem it.type it.size (node_addr w hp it k) → ys[k]? = some .null)) := by
  refine ⟨?_, ?_, ?_, ?_⟩
  · rw [handler_empty_null w _ _ hcb hrule he]
  · intro h0
    exact ⟨_, wrapper_empty_null lib fuel p _ 0 w hcb hrule he h0⟩
  · intro jso' w' h
    unfold jmap_to_json_object jmap_to_json_object_with at h
    simp only [Json.is_null, Json.is_object, Bool.not_true, if_false, Bool.false_eq_true] at h
    have := to_json_object_loop_inv lib rank fuel p w.ctx.now_locator w.ctx.now_fzlocator w
      (fun i jso => i0 < i → (((w.mappers p).jmlist i0).key ∈ jso.keys ∧
        json_object_object_get jso ((w.mappers p).jmlist i0).key = .null)) hac hoff ?_
      (w.mappers p).jmhead.idx 0 (.object []) w jso' w' (by omega)
      (store_frame_refl _ _ _) (ctx_frame_refl _) rfl (fun hlt => absurd hlt (by omega)) h
    · exact this.1 (by omega)
    · intro i w1 r1 ij w2 jso hi hsf hcf hw hr1 ho hI
      by_cases hii : i = i0
      · subst hii
        have hcb1 : w1.ctx.convert_callback = none := hcf.cb.trans hcb
        have he1 : field_is_empty w1.mem ((w.mappers p).jmlist i).type
            ((w.mappers p).jmlist i).size (node_addr w1 p ((w.mappers p).jmlist i) 0) := by
          rw [hcf.mem hcb, node_addr_of_frame hsf]; exact he
        cases fuel with
        | zero => simp [jmap_to_json_warpper] at hw
        | succ f =>
          by_cases h0 : node_base w1 p ((w.mappers p).jmlist i) = 0
          · simp only [jmap_to_json_warpper, h0, if_true, Option.some.injEq,
              Prod.mk.injEq] at hw
            exact absurd hw.1.symm hr1
          · rw [wrapper_empty_null lib f p _ 0 w1 hcb1 hrule he1 h0] at hw
            simp only [Option.some.injEq, Prod.mk.injEq] at hw
            obtain ⟨hr, hj, _⟩ := hw
            subst hr; subst hj
            intro _
            simp only [if_true]
            rw [object_add_keys _ _ _ _ ho, object_get_add _ _ _ _ ho]
            exact ⟨Or.inr rfl, by simp⟩
      · intro hlt
        have hprev := hI (by omega)
        have hk : ¬ ((w.mappers p).jmlist i0).key = ((w.mappers p).jmlist i).key :=
          fun e => hkeys i hi hii e.symm
        by_cases hr0 : r1 = 0
        · simp only [hr0, if_true]
          rw [object_add_keys _ _ _ _ ho, object_get_add _ _ _ _ ho]
          simp only [hk, if_false]
          exact ⟨Or.inl hprev.1, hprev.2⟩
        · simp only [hr0, if_false]
          exact hprev
  · intro hp it hr hs ha hsz hlen h0
    obtain ⟨ys, w', hl, hlen', hys⟩ := to_json_array_loop_set_null lib fuel hp it
      w.ctx.now_locator w.ctx.now_fzlocator hr hs ha it.arr.length 0 [] w hcb h0
    refine ⟨ys, w', ?_, hlen', fun k hk hek => hys k hk (by rw [Nat.zero_add]; exact hek)⟩
    unfold jmap_to_json_array jmap_to_json_array_with
    simp only [hsz, hlen, or_self, if_false, Json.is_array, Bool.not_true, Bool.false_eq_true]
    simpa using hl

/-- Witness for C7: the tree with the fields `a` (rule force-null, value 0) and
`b` (rule keep-as-is) at address 100, and the elements of an `int32_t v[2]`
field with rule force-null holding 0 and 5. -/
theorem c7_empty_value_is_nulled_witness :
    (jmap_convert_handler (world_of_items [item_a_null, item_b_keep] mem_zero_five none)
      item_a_null 100).1 = item_action.RULE_ITEM_SET ∧
    (∀ jso' w', jmap_to_json_object lib0 1 0 (.object [])
        (world_of_items [item_a_null, item_b_keep] mem_zero_five none) = some (0, jso', w') →
      [Char.ofNat 97] ∈ jso'.keys ∧ json_object_object_get jso' [Char.ofNat 97] = .null) ∧
    (jmap_to_json_object lib0 1 0 (.object [])
        (world_of_items [item_a_null, item_b_keep] mem_zero_five none)).map
      (fun r => (r.1, r.2.1.keys)) = some (0, [[Char.ofNat 97], [Char.ofNat 98]]) ∧
    (∃ ys w', jmap_to_json_array lib0 1 0 item_elem_null (.array [])
        (world_of_items [item_a_null, item_b_keep] mem_zero_five none)
          = some (0, .array ys, w') ∧ ys.length = 2 ∧ ys[0]? = some .null) :=
  have h1 := c7_empty_value_is_nulled lib0 rank_flat
    (world_of_items [item_a_null, item_b_keep] mem_zero_five none) 0 0 1
    (world_of_items_acyclic _ _ _ (by decide)) (world_of_items_offs _ _ _ (by decide))
    rfl (by decide) rfl (by decide) (by decide)
  have h := c7_empty_value_is_nulled lib0 rank_flat
    (world_of_items [item_a_null, item_b_keep] mem_zero_five none) 0 0 0
    (world_of_items_acyclic _ _ _ (by decide)) (world_of_items_offs _ _ _ (by decide))
    rfl (by decide) rfl (by decide) (by decide)
  ⟨h.1, h1.2.2.1, by decide,
    (h.2.2.2 0 item_elem_null rfl (by decide) (by decide) (by decide) (by decide)
      (by decide)).elim fun ys hys => hys.elim fun w' hw =>
        ⟨ys, w', hw.1, hw.2.1, hw.2.2 0 (by decide) (by decide)⟩⟩

/-- Counterexample to C7 as stated: the node `a` has rule force-null and an
empty value, but a later node of the same tree reuses the key `a` with the
value 5, so the object produced by `jmap_to_json_object` maps `a` to 5, not to
null. -/
theorem c7_counterexample_shared_key :
    item_a_null.rule = JXS_RULE_SET_NULL ∧
    (jmap_convert_handler (world_of_items [item_a_null, item_a_again] mem_zero_five none)
      item_a_null 100).1 = item_action.RULE_ITEM_SET ∧
    (jmap_to_json_object lib0 1 0 (.object [])
        (world_of_items [item_a_null, item_a_again] mem_zero_five none)).map
      (fun r => (r.1, (json_object_object_get r.2.1 item_a_null.key).is_null,
        json_object_get_int64 lib0 (json_object_object_get r.2.1 item_a_null.key)))
      = some (0, false, 5) := by
  refine ⟨rfl, by decide, by decide⟩

/-! ## Claim C5: a width mismatch aborts deserialization -/

theorem from_json_scalar_unsupported (lib : JsonLib) (mem : Mem) (type : jxs_type)
    (size vptr : Nat) (jso : Json) (h : width_unsupported type size) :
    from_json_scalar lib mem type size vptr jso = none := by
  cases type <;> simp only [width_unsupported] at h <;> simp [from_json_scalar, h]

theorem from_json_by_type_unsupported (lib : JsonLib)
    (wr : Nat → jmap_item_t → Nat → Json → World → Option (Int × World))
    (hp : Nat) (it : jmap_item_t) (idx vptr : Nat) (jso : Json) (w : World)
    (h : width_unsupported it.type it.size) :
    from_json_by_type lib wr hp it idx vptr jso w = some (-1, w) := by
  unfold from_json_by_type
  cases ht : it.type <;> rw [ht] at h <;> simp only [width_unsupported] at h <;>
    simp only [] <;> rw [from_json_scalar_unsupported lib _ _ _ _ _ (by simpa [width_unsupported] using h)]

theorem from_json_array_loop_visits
    {wr : Nat → jmap_item_t → Nat → Json → World → Option (Int × World)}
    (hwr : DeVisitsOK wr) (hp : Nat) (it : jmap_item_t) (loc fz : Option (List Char))
    (arr : Json) :
    ∀ (n i : Nat) (w : World) (ret : Int) (w' : World),
      from_json_array_loop wr hp it loc fz arr n i w = some (ret, w') →
      ∃ vs, w'.visits = w.visits ++ vs ∧
        (ret = 0 → ∀ v ∈ vs, ¬ width_unsupported v.type v.size) := by
  intro n
  induction n with
  | zero =>
    intro i w ret w' h
    simp only [from_json_array_loop, Option.some.injEq, Prod.mk.injEq] at h
    obtain ⟨_, rfl⟩ := h
    exact ⟨[], by simp, fun _ v hv => by simp at hv⟩
  | succ n ih =>
    intro i w ret w' h
    simp only [from_json_array_loop] at h
    split at h
    · cases h
    · rename_i r1 w2 hw
      obtain ⟨vs1, hv1, hb1⟩ := hwr _ _ _ _ _ _ _ hw
      simp only [set_now_visits] at hv1
      by_cases hr1 : r1 = 0
      · simp only [hr1, ne_eq, not_true_eq_false, if_false] at h
        obtain ⟨vs2, hv2, hb2⟩ := ih _ _ _ _ h
        refine ⟨vs1 ++ vs2, by rw [hv2, hv1, List.append_assoc], fun hr v hv => ?_⟩
        rcases List.mem_append.mp hv with hv | hv
        · exact hb1 hr1 v hv
        · exact hb2 hr v hv
      · simp only [ne_eq, hr1, not_false_eq_true, if_true, Option.some.injEq,
          Prod.mk.injEq] at h
        obtain ⟨rfl, rfl⟩ := h
        exact ⟨vs1, hv1, fun hr => by omega⟩

theorem from_json_object_loop_visits
    {wr : Nat → jmap_item_t → Nat → Json → World → Option (Int × World)}
    (hwr : DeVisitsOK wr) (p : Nat) (loc fz : Option (List Char)) (jso : Json) :
    ∀ (n i : Nat) (w : World) (ret : Int) (w' : World),
      from_json_object_loop wr p loc fz jso n i w = some (ret, w') →
      ∃ vs, w'.visits = w.visits ++ vs ∧
        (ret = 0 → ∀ v ∈ vs, ¬ width_unsupported v.type v.size) := by
  intro n
  induction n with
  | zero =>
    intro i w ret w' h
    simp only [from_json_object_loop, Option.some.injEq, Prod.mk.injEq] at h
    obtain ⟨_, rfl⟩ := h
    exact ⟨[], by simp, fun _ v hv => by simp at hv⟩
  | succ n ih =>
    intro i w ret w' h
    simp only [from_json_object_loop] at h
    split at h
    · cases h
    · rename_i r1 w2 hw
      obtain ⟨vs1, hv1, hb1⟩ := hwr _ _ _ _ _ _ _ hw
      simp only [set_now_visits] at hv1
      by_cases hr1 : r1 = 0
      · simp only [hr1, ne_eq, not_true_eq_false, if_false] at h
        obtain ⟨vs2, hv2, hb2⟩ := ih _ _ _ _ h
        refine ⟨vs1 ++ vs2, by rw [hv2, hv1, List.append_assoc], fun hr v hv => ?_⟩
        rcases List.mem_append.mp hv with hv | hv
        · exact hb1 hr1 v hv
        · exact hb2 hr v hv
      · simp only [ne_eq, hr1, not_false_eq_true, if_true, Option.some.injEq,
          Prod.mk.injEq] at h
        obtain ⟨rfl, rfl⟩ := h
        exact ⟨vs1, hv1, fun hr => by omega⟩

theorem from_json_object_with_visits
    {wr : Nat → jmap_item_t → Nat → Json → World → Option (Int × World)}
    (hwr : DeVisitsOK wr) (p : Nat) (jso : Json) (w : World) (ret : Int) (w' : World)
    (h : jmap_from_json_object_with wr p jso w = some (ret, w')) :
    ∃ vs, w'.visits = w.visits ++ vs ∧
      (ret = 0 → ∀ v ∈ vs, ¬ width_unsupported v.type v.size) := by
  unfold jmap_from_json_object_with at h
  split at h
  · simp only [Option.some.injEq, Prod.mk.injEq] at h
    obtain ⟨rfl, rfl⟩ := h
    exact ⟨[], by simp, fun hr => by omega⟩
  · exact from_json_object_loop_visits hwr p _ _ jso _ _ _ _ _ h

theorem from_json_array_with_visits
    {wr : Nat → jmap_item_t → Nat → Json → World → Option (Int × World)}
    (hwr : DeVisitsOK wr) (hp : Nat) (it : jmap_item_t) (arr : Json) (w : World) (ret : Int)
    (w' : World) (h : jmap_from_json_array_with wr hp it arr w = some (ret, w')) :
    ∃ vs, w'.visits = w.visits ++ vs ∧
      (ret = 0 → ∀ v ∈ vs, ¬ width_unsupported v.type v.size) := by
  unfold jmap_from_json_array_with at h
  split at h
  · simp only [Option.some.injEq, Prod.mk.injEq] at h
    obtain ⟨rfl, rfl⟩ := h
    exact ⟨[], by simp, fun hr => by omega⟩
  · split at h
    · simp only [Option.some.injEq, Prod.mk.injEq] at h
      obtain ⟨rfl, rfl⟩ := h
      exact ⟨[], by simp, fun hr => by omega⟩
    · split at h
      · simp only [Option.some.injEq, Prod.mk.injEq] at h
        obtain ⟨rfl, rfl⟩ := h
        exact ⟨[], by simp, fun hr => by omega⟩
      · exact from_json_array_loop_visits hwr hp it _ _ arr _ _ _ _ _ h

theorem from_json_by_type_visits (lib : JsonLib)
    {wr : Nat → jmap_item_t → Nat → Json → World → Option (Int × World)}
    (hwr : DeVisitsOK wr) (hp : Nat) (it : jmap_item_t) (idx vptr : Nat) (jso : Json)
    (w : World) (ret : Int) (w' : World)
    (h : from_json_by_type lib wr hp it idx vptr jso w = some (ret, w')) :
    ∃ vs, w'.visits = w.visits ++ vs ∧
      (ret = 0 → ∀ v ∈ vs, ¬ width_unsupported v.type v.size) := by
  unfold from_json_by_type at h
  split at h
  · split at h
    · simp only [Option.some.injEq, Prod.mk.injEq] at h
      obtain ⟨rfl, rfl⟩ := h
      exact ⟨[], by simp, fun hr => by omega⟩
    · split at h
      · simp only [Option.some.injEq, Prod.mk.injEq] at h
        obtain ⟨_, rfl⟩ := h
        exact ⟨[], by simp, fun _ v hv => by simp at hv⟩
      · simp only [] at h
        split at h
        · cases h
        · rename_i r1 w4 hw
          obtain ⟨vs, hv, hb⟩ := from_json_object_with_visits hwr _ _ _ _ _ hw
          simp only [move_forward_visits, set_start_addr_visits] at hv
          by_cases hr1 : r1 = 0
          · simp only [hr1, ne_eq, not_true_eq_false, if_false, Option.some.injEq,
              Prod.mk.injEq] at h
            obtain ⟨_, rfl⟩ := h
            exact ⟨vs, by simpa using hv, fun _ => hb hr1⟩
          · simp only [ne_eq, hr1, not_false_eq_true, if_true, Option.some.injEq,
              Prod.mk.injEq] at h
            obtain ⟨rfl, rfl⟩ := h
            exact ⟨vs, hv, fun hr => by omega⟩
  · split at h
    · simp only [Option.some.injEq, Prod.mk.injEq] at h
      obtain ⟨_, rfl⟩ := h
      exact ⟨[], by simp, fun _ v hv => by simp at hv⟩
    · split at h
      · cases h
      · rename_i r1 w4 hw
        obtain ⟨vs, hv, hb⟩ := from_json_array_with_visits hwr _ _ _ _ _ _ hw
        by_cases hr1 : r1 = 0
        · simp only [hr1, ne_eq, not_true_eq_false, if_false, Option.some.injEq,
            Prod.mk.injEq] at h
          obtain ⟨_, rfl⟩ := h
          exact ⟨vs, hv, fun _ => hb hr1⟩
        · simp only [ne_eq, hr1, not_false_eq_true, if_true, Option.some.injEq,
            Prod.mk.injEq] at h
          obtain ⟨rfl, rfl⟩ := h
          exact ⟨vs, hv, fun hr => by omega⟩
  · split at h
    · simp only [Option.some.injEq, Prod.mk.injEq] at h
      obtain ⟨_, rfl⟩ := h
      exact ⟨[], by simp, fun _ v hv => by simp at hv⟩
    · simp only [Option.some.injEq, Prod.mk.injEq] at h
      obtain ⟨rfl, rfl⟩ := h
      exact ⟨[], by simp, fun hr => by omega⟩

/-- Every deserialization wrapper call that returns 0 has visited only nodes
of supported width. -/
theorem de_wrapper_visits (lib : JsonLib) :
    ∀ fuel, DeVisitsOK (jmap_from_json_warpper lib fuel) := by
  intro fuel
  induction fuel with
  | zero =>
    intro hp it idx jso w ret w' h
    simp [jmap_from_json_warpper] at h
  | succ fuel ih =>
    intro hp it idx jso w ret w' h
    simp only [jmap_from_json_warpper] at h
    split at h
    · simp only [Option.some.injEq, Prod.mk.injEq] at h
      obtain ⟨rfl, rfl⟩ := h
      exact ⟨[], by simp, fun hr => by omega⟩
    · by_cases hbad : width_unsupported it.type it.size
      · rw [from_json_by_type_unsupported lib _ hp it idx _ jso _ hbad] at h
        simp only [Option.some.injEq, Prod.mk.injEq] at h
        obtain ⟨rfl, rfl⟩ := h
        exact ⟨_, record_visit_visits _ _ _, fun hr => by omega⟩
      · obtain ⟨vs, hv, hb⟩ := from_json_by_type_visits lib ih hp it idx _ jso _ ret w' h
        rw [record_visit_visits] at hv
        refine ⟨{ vptr := node_addr w hp it idx, type := it.type, size := it.size } :: vs,
          by rw [hv]; simp, fun hr v hv' => ?_⟩
        rcases List.mem_cons.mp hv' with hv' | hv'
        · subst hv'; exact hbad
        · exact hb hr v hv'

theorem from_json_array_loop_ret
    (wr : Nat → jmap_item_t → Nat → Json → World → Option (Int × World))
    (hp : Nat) (it : jmap_item_t) (loc fz : Option (List Char)) (arr : Json) :
    ∀ (n i : Nat) (w : World) (ret : Int) (w' : World),
      from_json_array_loop wr hp it loc fz arr n i w = some (ret, w') →
      ret = 0 ∨ ret = -1 := by
  intro n
  induction n with
  | zero =>
    intro i w ret w' h
    simp only [from_json_array_loop, Option.some.injEq, Prod.mk.injEq] at h
    exact Or.inl h.1.symm
  | succ n ih =>
    intro i w ret w' h
    simp only [from_json_array_loop] at h
    split at h
    · cases h
    · split at h
      · simp only [Option.some.injEq, Prod.mk.injEq] at h
        exact Or.inr h.1.symm
      · exact ih _ _ _ _ h

theorem from_json_object_loop_ret
    (wr : Nat → jmap_item_t → Nat → Json → World → Option (Int × World))
    (p : Nat) (loc fz : Option (List Char)) (jso : Json) :
    ∀ (n i : Nat) (w : World) (ret : Int) (w' : World),
      from_json_object_loop wr p loc fz jso n i w = some (ret, w') →
      ret = 0 ∨ ret = -1 := by
  intro n
  induction n with
  | zero =>
    intro i w ret w' h
    simp only [from_json_object_loop, Option.some.injEq, Prod.mk.injEq] at h
    exact Or.inl h.1.symm
  | succ n ih =>
    intro i w ret w' h
    simp only [from_json_object_loop] at h
    split at h
    · cases h
    · split at h
      · simp only [Option.some.injEq, Prod.mk.injEq] at h
        exact Or.inr h.1.symm
      · exact ih _ _ _ _ h

theorem from_json_object_ret (lib : JsonLib) (fuel p : Nat) (jso : Json) (w : World)
    (ret : Int) (w' : World) (h : jmap_from_json_object lib fuel p jso w = some (ret, w')) :
    ret = 0 ∨ ret = -1 := by
  unfold jmap_from_json_object jmap_from_json_object_with at h
  split at h
  · simp only [Option.some.injEq, Prod.mk.injEq] at h
    exact Or.inr h.1.symm
  · exact from_json_object_loop_ret _ _ _ _ _ _ _ _ _ _ h

theorem map_delete_loop_visits (del : Option Nat → World → Option World) (p : Nat)
    (hdel : ∀ q w w', del q w = some w' → w'.visits = w.visits) :
    ∀ (n i : Nat) (w w' : World), map_delete_loop del p n i w = some w' →
      w'.visits = w.visits := by
  intro n
  induction n with
  | zero =>
    intro i w w' h
    simp only [map_delete_loop, Option.some.injEq] at h
    rw [h]
  | succ n ih =>
    intro i w w' h
    simp only [map_delete_loop] at h
    split at h
    · split at h
      · cases h
      · rename_i w1 hw
        rw [ih _ _ _ h, hdel _ _ _ hw]
    · exact ih _ _ _ h

theorem map_delete_visits :
    ∀ (fuel : Nat) (p : Option Nat) (w w' : World),
      jxs_map_basic_delete fuel p w = some w' → w'.visits = w.visits := by
  intro fuel
  induction fuel with
  | zero => intro p w w' h; simp [jxs_map_basic_delete] at h
  | succ fuel ih =>
    intro p w w' h
    cases p with
    | none =>
      simp only [jxs_map_basic_delete, Option.some.injEq] at h
      rw [h]
    | some p =>
      simp only [jxs_map_basic_delete] at h
      split at h
      · split at h
        · cases h
        · rename_i w1 hw
          have h1 := map_delete_loop_visits _ p (ih) _ _ _ _ hw
          split at h
          · simp only [Option.some.injEq] at h
            rw [← h]; exact h1
          · simp only [Option.some.injEq] at h
            rw [← h]; exact h1
      · simp only [Option.some.injEq] at h
        rw [← h]; rfl

/-- C5: a boolean, integer or floating node whose declared size is not a
supported width makes `jmap_from_json_warpper` return -1 whatever the document
holds, and a walk that has visited such a node fails: `jmap_from_json_object`
and `jxs_struct_from_json_object` return -1. -/
theorem c5_width_mismatch_aborts_deserialization (lib : JsonLib) (fuel : Nat) :
    (∀ hp it idx jso w, width_unsupported it.type it.size →
      ∃ w', jmap_from_json_warpper lib (fuel + 1) hp it idx jso w = some (-1, w')) ∧
    (∀ p jso w ret w', jmap_from_json_object lib fuel p jso w = some (ret, w') →
      (∃ v ∈ w'.visits.drop w.visits.length, width_unsupported v.type v.size) → ret = -1) ∧
    (∀ func stptr userdata jso mem ret w',
      jxs_struct_from_json_object lib fuel func stptr userdata jso mem = some (ret, w') →
      (∃ v ∈ w'.visits, width_unsupported v.type v.size) → ret = -1) := by
  have hobj : ∀ p jso w ret w', jmap_from_json_object lib fuel p jso w = some (ret, w') →
      (∃ v ∈ w'.visits.drop w.visits.length, width_unsupported v.type v.size) → ret = -1 := by
    intro p jso w ret w' h hbad
    obtain ⟨vs, hv, hb⟩ := from_json_object_with_visits (de_wrapper_visits lib fuel) p jso w
      ret w' h
    rcases from_json_object_ret lib fuel p jso w ret w' h with hr | hr
    · obtain ⟨v, hv', hbv⟩ := hbad
      rw [hv, List.drop_left] at hv'
      exact absurd hbv (hb hr v hv')
    · exact hr
  refine ⟨?_, hobj, ?_⟩
  · intro hp it idx jso w hbad
    simp only [jmap_from_json_warpper]
    split
    · exact ⟨_, rfl⟩
    · exact ⟨_, from_json_by_type_unsupported lib _ hp it idx _ jso _ hbad⟩
  · intro func stptr userdata jso mem ret w' h hbad
    unfold jxs_struct_from_json_object at h
    have hdone : ∀ (q : Option Nat) (wa : World) (c : Int), c = -1 ∨ wa.visits = [] ∨
        (c = 0 ∧ ∀ v ∈ wa.visits, ¬ width_unsupported v.type v.size) →
        (jxs_map_basic_delete fuel q wa).map (fun w => (c, w)) = some (ret, w') → ret = -1 := by
      intro q wa c hc hm
      cases hd : jxs_map_basic_delete fuel q wa with
      | none => rw [hd] at hm; cases hm
      | some wb =>
        rw [hd] at hm
        simp only [Option.map_some', Option.some.injEq, Prod.mk.injEq] at hm
        obtain ⟨rfl, rfl⟩ := hm
        have hvis := map_delete_visits fuel q wa wb hd
        obtain ⟨v, hv, hbv⟩ := hbad
        rw [hvis] at hv
        rcases hc with hc | hc | hc
        · exact hc
        · rw [hc] at hv; cases hv
        · exact absurd hbv (hc.2 v hv)
    cases func with
    | none => exact hdone _ _ _ (Or.inl rfl) h
    | some f =>
      simp only [] at h
      split at h
      · exact hdone _ _ _ (Or.inl rfl) h
      · split at h
        · exact hdone _ _ _ (Or.inl rfl) h
        · rename_i p hp
          split at h
          · exact hdone _ _ _ (Or.inl rfl) h
          · split at h
            · cases h
            · rename_i r1 w1 hw
              have hv0 : (check_ref_count (call_descriptor f
                  (set_ctx_target (world_init mem) stptr userdata)).2 p).2.visits = [] := by
                unfold check_ref_count
                simp only []
                split <;> rfl
              obtain ⟨vs, hv, hb⟩ := from_json_object_with_visits (de_wrapper_visits lib fuel)
                p jso _ r1 w1 hw
              rw [hv0, List.nil_append] at hv
              split at h
              · exact hdone _ _ _ (Or.inl rfl) h
              · rename_i hr1
                have hr1' : r1 = 0 := by simpa using hr1
                exact hdone _ _ _ (Or.inr (Or.inr ⟨rfl, by rw [hv]; exact hb hr1'⟩)) h

/-- Witness for C5: a boolean field declared with size 2, and the document
`{"b": true}`. -/
theorem c5_width_mismatch_aborts_deserialization_witness :
    (∃ w', jmap_from_json_warpper lib0 1 0 (leaf_item .boolean [Char.ofNat 98] 0 2 1) 0
      (.boolean 1) (world_of_items [leaf_item .boolean [Char.ofNat 98] 0 2 1] mem_zero none)
        = some (-1, w')) ∧
    (jxs_struct_from_json_object lib0 2 (some bld_bool2) 100 0
      (.object [([Char.ofNat 98], .boolean 1)]) mem_zero).map
        (fun r => (r.1, r.2.visits)) = some (-1, [{ vptr := 100, type := .boolean, size := 2 }]) :=
  ⟨(c5_width_mismatch_aborts_deserialization lib0 0).1 0
      (leaf_item .boolean [Char.ofNat 98] 0 2 1) 0 (.boolean 1)
      (world_of_items [leaf_item .boolean [Char.ofNat 98] 0 2 1] mem_zero none) (by decide),
   by decide⟩

/-! ## Memory: loads and stores -/

theorem write_le_apply (mem : Mem) (a n v x : Nat) :
    write_le mem a n v x
      = if a ≤ x ∧ x < a + n then byte_of (v / 256 ^ (x - a)) else mem x := by
  induction n generalizing mem a v with
  | zero =>
    simp only [write_le]
    rw [if_neg (by omega)]
  | succ n ih =>
    simp only [write_le, ih]
    by_cases h1 : a + 1 ≤ x ∧ x < a + 1 + n
    · have h2 : a ≤ x ∧ x < a + (n + 1) := by omega
      simp only [h1, h2, and_self, if_true]
      congr 1
      rw [Nat.div_div_eq_div_mul]
      have : x - a = (x - (a + 1)) + 1 := by omega
      rw [this, pow_succ, Nat.mul_comm]
    · simp only [h1, if_false]
      by_cases hx : x = a
      · subst hx
        have h2 : x ≤ x ∧ x < x + (n + 1) := by omega
        simp [h2]
      · have h2 : ¬ (a ≤ x ∧ x < a + (n + 1)) := by omega
        simp [hx, h2]

theorem write_bytes_apply (mem : Mem) (a : Nat) (bs : List Nat) (x : Nat) :
    write_bytes mem a bs x
      = if a ≤ x ∧ x < a + bs.length then byte_of (bs.getD (x - a) 0) else mem x := by
  induction bs generalizing mem a with
  | nil =>
    simp only [write_bytes, List.length_nil]
    rw [if_neg (by omega)]
  | cons b bs ih =>
    simp only [write_bytes, ih, List.length_cons]
    by_cases h1 : a + 1 ≤ x ∧ x < a + 1 + bs.length
    · have h2 : a ≤ x ∧ x < a + (bs.length + 1) := by omega
      simp only [h1, h2, and_self, if_true]
      have : x - a = (x - (a + 1)) + 1 := by omega
      rw [this, List.getD_cons_succ]
    · simp only [h1, if_false]
      by_cases hx : x = a
      · subst hx
        have h2 : x ≤ x ∧ x < x + (bs.length + 1) := by omega
        simp [h2]
      · have h2 : ¬ (a ≤ x ∧ x < a + (bs.length + 1)) := by omega
        simp [hx, h2]

theorem read_le_lt (mem : Mem) (a n : Nat) : read_le mem a n < 256 ^ n := by
  induction n generalizing a with
  | zero => simp [read_le]
  | succ n ih =>
    simp only [read_le, pow_succ]
    have h1 := ih (a + 1)
    have h2 := (mem a).isLt
    omega

/-- Byte `k` of a little-endian load is the byte of memory at offset `k`. -/
theorem read_le_byte (mem : Mem) (a n k : Nat) (hk : k < n) :
    byte_of (read_le mem a n / 256 ^ k) = mem (a + k) := by
  induction n generalizing a k with
  | zero => omega
  | succ n ih =>
    simp only [read_le]
    cases k with
    | zero =>
      simp only [pow_zero, Nat.div_one, Nat.add_zero]
      apply Fin.ext
      simp only [byte_of]
      have := (mem a).isLt
      omega
    | succ k =>
      have h := ih (a + 1) k (by omega)
      rw [show a + (k + 1) = a + 1 + k by omega, ← h]
      have hq : ((mem a).val + 256 * read_le mem (a + 1) n) / 256 ^ (k + 1)
          = read_le mem (a + 1) n / 256 ^ k := by
        rw [pow_succ, Nat.mul_comm (256 ^ k) 256, ← Nat.div_div_eq_div_mul]
        congr 1
        have := (mem a).isLt
        omega
      rw [hq]

/-- Loads depend only on the bytes they read. -/
theorem read_le_congr (m1 m2 : Mem) (a n : Nat) (h : ∀ k, k < n → m1 (a + k) = m2 (a + k)) :
    read_le m1 a n = read_le m2 a n := by
  induction n generalizing a with
  | zero => rfl
  | succ n ih =>
    simp only [read_le]
    have h0 := h 0 (by omega)
    simp only [Nat.add_zero] at h0
    rw [h0, ih (a + 1) (fun k hk => by
      have := h (k + 1) (by omega)
      rw [show a + 1 + k = a + (k + 1) by omega]; exact this)]

theorem read_cstr_congr (m1 m2 : Mem) (a n k : Nat) (hk : k < n)
    (h : ∀ j, j ≤ k → m1 (a + j) = m2 (a + j)) (hz : (m2 (a + k)).val = 0) :
    read_cstr m1 a n = read_cstr m2 a n := by
  induction n generalizing a k with
  | zero => rfl
  | succ n ih =>
    simp only [read_cstr]
    have h0 := h 0 (by omega)
    simp only [Nat.add_zero] at h0
    rw [h0]
    cases k with
    | zero =>
      simp only [Nat.add_zero] at hz
      simp [hz]
    | succ k =>
      by_cases hb : (m2 a).val = 0
      · simp [hb]
      · simp only [hb, if_false]
        congr 1
        apply ih (a + 1) k (by omega)
        · intro j hj
          have := h (j + 1) (by omega)
          rw [show a + 1 + j = a + (j + 1) by omega]; exact this
        · rw [show a + 1 + k = a + (k + 1) by omega]; exact hz

theorem of_signed_to_signed (n u : Nat) (hn : n = 1 ∨ n = 2 ∨ n = 4 ∨ n = 8)
    (hu : u < 256 ^ n) : of_signed n (to_signed n u) = u := by
  rcases hn with h | h | h | h <;> subst h <;>
    simp only [of_signed, to_signed] <;> norm_num at hu ⊢ <;> split <;> omega

/-! ## Claim C3: a shorter document array -/

theorem snprintf_bytes_length (size : Nat) (s : List Nat) :
    (snprintf_bytes size s).length ≤ size := by
  unfold snprintf_bytes
  split
  · simp
  · simp only [List.length_append, List.length_take, List.length_singleton]
    omega

/-- A scalar store of a fitting leaf succeeds and writes inside the node. -/
theorem from_json_scalar_fits (lib : JsonLib) (mem : Mem) (type : jxs_type) (size vptr : Nat)
    (jso : Json) (h : leaf_fits type size) :
    ∃ m', from_json_scalar lib mem type size vptr jso = some m' ∧
      ∀ x, x < vptr ∨ vptr + size ≤ x → m' x = mem x := by
  have key : ∀ (m' : Mem), from_json_scalar lib mem type size vptr jso = some m' →
      ∀ x, x < vptr ∨ vptr + size ≤ x → m' x = mem x := by
    intro m' hm x hx
    cases type <;> simp only [leaf_fits] at h <;> simp only [from_json_scalar] at hm
    · cases hm; simp only [memset0]; rw [if_neg (by omega)]
    · rcases h with h | h <;> subst h <;> simp at hm <;> subst hm <;>
        simp only [write_int, write_le_apply] <;> rw [if_neg (by omega)]
    · rcases h with h | h <;> subst h <;> simp at hm <;> subst hm <;>
        simp only [write_int, write_le_apply] <;> rw [if_neg (by omega)]
    · rcases h with h | h | h | h <;> subst h <;> simp at hm <;> subst hm <;>
        simp only [write_int, write_le_apply] <;> rw [if_neg (by omega)]
    · cases hs : json_object_get_string lib jso with
      | none =>
        rw [hs] at hm; cases hm
        simp only [memset0]; rw [if_neg (by omega)]
      | some str =>
        rw [hs] at hm
        simp only [Option.some.injEq] at hm
        subst hm
        have := snprintf_bytes_length size str
        simp only [write_bytes_apply]
        rw [if_neg (by omega)]
    · cases hm; simp only [write_le_apply]; rw [if_neg (by omega)]
  have hsome : ∃ m', from_json_scalar lib mem type size vptr jso = some m' := by
    cases type <;> simp only [leaf_fits] at h <;> simp only [from_json_scalar]
    · exact ⟨_, rfl⟩
    · rcases h with h | h <;> subst h <;> simp
    · rcases h with h | h <;> subst h <;> simp
    · rcases h with h | h | h | h <;> subst h <;> simp
    · cases json_object_get_string lib jso <;> exact ⟨_, rfl⟩
    · exact ⟨_, rfl⟩
  obtain ⟨m', hm⟩ := hsome
  exact ⟨m', hm, key m' hm⟩

/-- What a scalar store leaves at an address depends only on what memory held
at that address. -/
theorem from_json_scalar_pointwise (lib : JsonLib) (m1 m2 : Mem) (type : jxs_type)
    (size vptr : Nat) (jso : Json) (x : Nat) (h : m1 x = m2 x) :
    (from_json_scalar lib m1 type size vptr jso).getD m1 x
      = (from_json_scalar lib m2 type size vptr jso).getD m2 x := by
  cases type <;> simp only [from_json_scalar]
  · simp [memset0, h]
  · split
    · simp [write_int, write_le_apply, h]
    · split
      · simp [write_le_apply, h]
      · simpa using h
  · split
    · simp [write_le_apply, h]
    · split
      · simp [write_le_apply, h]
      · simpa using h
  · split
    · simp [write_int, write_le_apply, h]
    · split
      · simp [write_int, write_le_apply, h]
      · split
        · simp [write_int, write_le_apply, h]
        · split
          · simp [write_int, write_le_apply, h]
          · simpa using h
  · simpa using h
  · cases json_object_get_string lib jso with
    | none => simp [memset0, h]
    | some str => simp [write_bytes_apply, h]
  · simpa using h
  · simp [write_le_apply, h]
  · simpa using h

theorem leaf_fits_not_container (type : jxs_type) (size : Nat) (h : leaf_fits type size) :
    type ≠ .struct ∧ type ≠ .array := by
  cases type <;> simp [leaf_fits] at h ⊢

/-- The deserialization wrapper on a fitting leaf at a non-`NULL` address. -/
theorem de_wrapper_leaf (lib : JsonLib) (fuel hp : Nat) (it : jmap_item_t) (idx : Nat)
    (jso : Json) (w : World) (hfit : leaf_fits it.type it.size) (h0 : node_base w hp it ≠ 0) :
    jmap_from_json_warpper lib (fuel + 1) hp it idx jso w =
      some (0, set_mem (record_visit w (node_addr w hp it idx) it)
        ((from_json_scalar lib w.mem it.type it.size (node_addr w hp it idx) jso).getD w.mem)) := by
  obtain ⟨m', hm, _⟩ := from_json_scalar_fits lib w.mem it.type it.size (node_addr w hp it idx)
    jso hfit
  simp only [jmap_from_json_warpper, h0, if_false]
  unfold from_json_by_type
  cases ht : it.type <;> rw [ht] at hfit hm <;> simp only [leaf_fits] at hfit <;>
    simp only [record_visit_mem, hm, Option.getD_some]

theorem from_json_array_loop_leaf (lib : JsonLib) (fuel hp : Nat) (it : jmap_item_t)
    (loc fz : Option (List Char)) (arr : Json) (hfit : leaf_fits it.type it.size) :
    ∀ (n i : Nat) (w : World), node_base w hp it ≠ 0 →
      ∃ w', from_json_array_loop (jmap_from_json_warpper lib (fuel + 1)) hp it loc fz arr n i w
          = some (0, w') ∧
        w'.mappers = w.mappers ∧
        w'.mem = store_elems lib it (node_base w hp it) arr n i w.mem := by
  intro n
  induction n with
  | zero =>
    intro i w _
    exact ⟨w, rfl, rfl, rfl⟩
  | succ n ih =>
    intro i w h0
    have hstep := de_wrapper_leaf lib fuel hp it i (json_object_array_get_idx arr i)
      (set_now w (SET_NEW_LOCATOR loc it.key true i) (SET_NEW_FUZZY_LOCATOR fz loc it.key true))
      hfit h0
    obtain ⟨w', hl, hmp, hmem⟩ := ih (i + 1) _ (show node_base (set_mem (record_visit
      (set_now w (SET_NEW_LOCATOR loc it.key true i) (SET_NEW_FUZZY_LOCATOR fz loc it.key true))
      (node_addr (set_now w (SET_NEW_LOCATOR loc it.key true i)
        (SET_NEW_FUZZY_LOCATOR fz loc it.key true)) hp it i) it)
      ((from_json_scalar lib (set_now w (SET_NEW_LOCATOR loc it.key true i)
        (SET_NEW_FUZZY_LOCATOR fz loc it.key true)).mem it.type it.size
        (node_addr (set_now w (SET_NEW_LOCATOR loc it.key true i)
          (SET_NEW_FUZZY_LOCATOR fz loc it.key true)) hp it i)
        (json_object_array_get_idx arr i)).getD
        (set_now w (SET_NEW_LOCATOR loc it.key true i)
          (SET_NEW_FUZZY_LOCATOR fz loc it.key true)).mem)) hp it ≠ 0 from h0)
    refine ⟨w', ?_, ?_, ?_⟩
    · simp only [from_json_array_loop, hstep]
      simp only [ne_eq, not_true_eq_false, if_false]
      exact hl
    · rw [hmp]; rfl
    · rw [hmem]; rfl

theorem store_elems_frame (lib : JsonLib) (it : jmap_item_t) (base : Nat) (arr : Json)
    (hfit : leaf_fits it.type it.size) (x : Nat) :
    ∀ (n i : Nat) (mem : Mem),
      (∀ k, i ≤ k → k < i + n →
        x < (base + it.size * k) % PTR_MOD ∨ (base + it.size * k) % PTR_MOD + it.size ≤ x) →
      store_elems lib it base arr n i mem x = mem x := by
  intro n
  induction n with
  | zero => intro i mem _; rfl
  | succ n ih =>
    intro i mem h
    simp only [store_elems]
    rw [ih (i + 1) _ (fun k hk1 hk2 => h k (by omega) (by omega))]
    obtain ⟨m', hm, hf⟩ := from_json_scalar_fits lib mem it.type it.size
      ((base + it.size * i) % PTR_MOD) (json_object_array_get_idx arr i) hfit
    rw [hm, Option.getD_some]
    exact hf x (h i (by omega) (by omega))

theorem store_elems_content (lib : JsonLib) (it : jmap_item_t) (base : Nat) (arr : Json)
    (hfit : leaf_fits it.type it.size) (x : Nat) :
    ∀ (n i : Nat) (mem : Mem), base + it.size * (i + n) ≤ PTR_MOD →
      ∀ k, i ≤ k → k < i + n → base + it.size * k ≤ x → x < base + it.size * k + it.size →
      store_elems lib it base arr n i mem x
        = (from_json_scalar lib mem it.type it.size (base + it.size * k)
            (json_object_array_get_idx arr k)).getD mem x := by
  intro n
  induction n with
  | zero => intro i mem _ k h1 h2; omega
  | succ n ih =>
    intro i mem hw k hk1 hk2 hx1 hx2
    simp only [store_elems]
    have hmul : ∀ j, j < i + (n + 1) → it.size * j + it.size ≤ it.size * (i + (n + 1)) := by
      intro j hj
      have : it.size * (j + 1) ≤ it.size * (i + (n + 1)) := Nat.mul_le_mul_left _ (by omega)
      rw [Nat.mul_add, Nat.mul_one] at this
      exact this
    have hmod : ∀ j, j < i + (n + 1) → (base + it.size * j) % PTR_MOD = base + it.size * j := by
      intro j hj
      have := hmul j hj
      by_cases hs : it.size = 0
      · omega
      · exact Nat.mod_eq_of_lt (by omega)
    have hmono : ∀ a b, a < b → it.size * a + it.size ≤ it.size * b := by
      intro a b hab
      have : it.size * (a + 1) ≤ it.size * b := Nat.mul_le_mul_left _ (by omega)
      rw [Nat.mul_add, Nat.mul_one] at this
      exact this
    by_cases hki : k = i
    · subst hki
      rw [store_elems_frame lib it base arr hfit x n (k + 1) _ (fun j hj1 hj2 => by
        rw [hmod j (by omega)]
        have := hmono k j (by omega)
        omega)]
      rw [hmod k (by omega)]
    · rw [ih (i + 1) _ (by rw [show i + 1 + n = i + (n + 1) by omega]; exact hw) k (by omega)
        (by omega) hx1 hx2]
      apply from_json_scalar_pointwise
      obtain ⟨m', hm, hf⟩ := from_json_scalar_fits lib mem it.type it.size
        ((base + it.size * i) % PTR_MOD) (json_object_array_get_idx arr i) hfit
      rw [hm, Option.getD_some]
      apply hf
      rw [hmod i (by omega)]
      have := hmono i k (by omega)
      omega

/-! ## Deserialization keeps the store -/

theorem from_json_array_loop_frame {rank : Nat → Nat}
    {wr : Nat → jmap_item_t → Nat → Json → World → Option (Int × World)}
    (hwr : DeWrOK rank wr) (hp : Nat) (it : jmap_item_t) (loc fz : Option (List Char))
    (arr : Json) (hb : Below rank it hp) :
    ∀ (n i : Nat) (w : World) (ret : Int) (w' : World),
      Acyclic rank w.mappers → OffsOK w.mappers →
      from_json_array_loop wr hp it loc fz arr n i w = some (ret, w') →
      w'.ctx.convert_callback = w.ctx.convert_callback ∧
        (ret = 0 → StoreFrame rank (rank hp) w w') := by
  intro n
  induction n with
  | zero =>
    intro i w ret w' _ _ h
    simp only [from_json_array_loop, Option.some.injEq, Prod.mk.injEq] at h
    obtain ⟨_, rfl⟩ := h
    exact ⟨rfl, fun _ => store_frame_refl _ _ _⟩
  | succ n ih =>
    intro i w ret w' hac hoff h
    simp only [from_json_array_loop] at h
    split at h
    · cases h
    · rename_i r1 w2 hw
      have hf := hwr hp it i _ _ r1 w2 (by simpa using hac) (by simpa using hoff) hb hw
      have hc1 : w2.ctx.convert_callback = w.ctx.convert_callback := by simpa using hf.1
      by_cases hr1 : r1 = 0
      · have hs1 : StoreFrame rank (rank hp) w w2 := by
          have := hf.2 hr1
          exact ⟨this.list, this.idx, this.start⟩
        simp only [hr1, ne_eq, not_true_eq_false, if_false] at h
        have := ih _ _ _ _ (acyclic_of_frame hac hs1) (offs_ok_of_frame hoff hs1) h
        exact ⟨this.1.trans hc1, fun hr => store_frame_trans hs1 (this.2 hr)⟩
      · simp only [ne_eq, hr1, not_false_eq_true, if_true, Option.some.injEq,
          Prod.mk.injEq] at h
        obtain ⟨rfl, rfl⟩ := h
        exact ⟨hc1, fun hr => by omega⟩

theorem from_json_object_loop_frame {rank : Nat → Nat}
    {wr : Nat → jmap_item_t → Nat → Json → World → Option (Int × World)}
    (hwr : DeWrOK rank wr) (p : Nat) (loc fz : Option (List Char)) (jso : Json) :
    ∀ (n i : Nat) (w : World) (ret : Int) (w' : World),
      Acyclic rank w.mappers → OffsOK w.mappers → i + n ≤ (w.mappers p).jmhead.idx →
      from_json_object_loop wr p loc fz jso n i w = some (ret, w') →
      w'.ctx.convert_callback = w.ctx.convert_callback ∧
        (ret = 0 → StoreFrame rank (rank p) w w') := by
  intro n
  induction n with
  | zero =>
    intro i w ret w' _ _ _ h
    simp only [from_json_object_loop, Option.some.injEq, Prod.mk.injEq] at h
    obtain ⟨_, rfl⟩ := h
    exact ⟨rfl, fun _ => store_frame_refl _ _ _⟩
  | succ n ih =>
    intro i w ret w' hac hoff hin h
    simp only [from_json_object_loop] at h
    have hb : Below rank ((w.mappers p).jmlist i) p := fun q hq => hac p i q (by omega) hq
    split at h
    · cases h
    · rename_i r1 w2 hw
      have hf := hwr p _ 0 _ _ r1 w2 (by simpa using hac) (by simpa using hoff) hb hw
      have hc1 : w2.ctx.convert_callback = w.ctx.convert_callback := by simpa using hf.1
      by_cases hr1 : r1 = 0
      · have hs1 : StoreFrame rank (rank p) w w2 := by
          have := hf.2 hr1
          exact ⟨this.list, this.idx, this.start⟩
        have hin2 : i + 1 + n ≤ (w2.mappers p).jmhead.idx := by rw [hs1.idx p]; omega
        simp only [hr1, ne_eq, not_true_eq_false, if_false] at h
        have := ih _ _ _ _ (acyclic_of_frame hac hs1) (offs_ok_of_frame hoff hs1) hin2 h
        exact ⟨this.1.trans hc1, fun hr => store_frame_trans hs1 (this.2 hr)⟩
      · simp only [ne_eq, hr1, not_false_eq_true, if_true, Option.some.injEq,
          Prod.mk.injEq] at h
        obtain ⟨rfl, rfl⟩ := h
        exact ⟨hc1, fun hr => by omega⟩

theorem from_json_object_with_frame {rank : Nat → Nat}
    {wr : Nat → jmap_item_t → Nat → Json → World → Option (Int × World)}
    (hwr : DeWrOK rank wr) (p : Nat) (jso : Json) (w : World) (ret : Int) (w' : World)
    (hac : Acyclic rank w.mappers) (hoff : OffsOK w.mappers)
    (h : jmap_from_json_object_with wr p jso w = some (ret, w')) :
    w'.ctx.convert_callback = w.ctx.convert_callback ∧
      (ret = 0 → StoreFrame rank (rank p) w w') := by
  unfold jmap_from_json_object_with at h
  split at h
  · simp only [Option.some.injEq, Prod.mk.injEq] at h
    obtain ⟨rfl, rfl⟩ := h
    exact ⟨rfl, fun hr => by omega⟩
  · exact from_json_object_loop_frame hwr p _ _ jso _ 0 w ret w' hac hoff (by omega) h

theorem from_json_array_with_frame {rank : Nat → Nat}
    {wr : Nat → jmap_item_t → Nat → Json → World → Option (Int × World)}
    (hwr : DeWrOK rank wr) (hp : Nat) (it : jmap_item_t) (arr : Json) (w : World) (ret : Int)
    (w' : World) (hac : Acyclic rank w.mappers) (hoff : OffsOK w.mappers)
    (hb : Below rank it hp)
    (h : jmap_from_json_array_with wr hp it arr w = some (ret, w')) :
    w'.ctx.convert_callback = w.ctx.convert_callback ∧
      (ret = 0 → StoreFrame rank (rank hp) w w') := by
  unfold jmap_from_json_array_with at h
  split at h
  · simp only [Option.some.injEq, Prod.mk.injEq] at h
    obtain ⟨rfl, rfl⟩ := h
    exact ⟨rfl, fun hr => by omega⟩
  · split at h
    · simp only [Option.some.injEq, Prod.mk.injEq] at h
      obtain ⟨rfl, rfl⟩ := h
      exact ⟨rfl, fun hr => by omega⟩
    · split at h
      · simp only [Option.some.injEq, Prod.mk.injEq] at h
        obtain ⟨rfl, rfl⟩ := h
        exact ⟨rfl, fun hr => by omega⟩
      · exact from_json_array_loop_frame hwr hp it _ _ arr hb _ 0 w ret w' hac hoff h

theorem from_json_by_type_frame {rank : Nat → Nat} (lib : JsonLib)
    {wr : Nat → jmap_item_t → Nat → Json → World → Option (Int × World)}
    (hwr : DeWrOK rank wr) (hp : Nat) (it : jmap_item_t) (idx vptr : Nat) (jso : Json)
    (w : World) (ret : Int) (w' : World) (hac : Acyclic rank w.mappers)
    (hoff : OffsOK w.mappers) (hb : Below rank it hp)
    (h : from_json_by_type lib wr hp it idx vptr jso w = some (ret, w')) :
    w'.ctx.convert_callback = w.ctx.convert_callback ∧
      (ret = 0 → StoreFrame rank (rank hp) w w') := by
  unfold from_json_by_type at h
  split at h
  · split at h
    · simp only [Option.some.injEq, Prod.mk.injEq] at h
      obtain ⟨rfl, rfl⟩ := h
      exact ⟨rfl, fun hr => by omega⟩
    · rename_i q hq
      split at h
      · simp only [Option.some.injEq, Prod.mk.injEq] at h
        obtain ⟨_, rfl⟩ := h
        exact ⟨rfl, fun _ => store_frame_of_mappers_eq _ _ rfl⟩
      · simp only [] at h
        split at h
        · cases h
        · rename_i r1 w4 hw
          have hf := from_json_object_with_frame hwr q _ _ r1 w4
            (acyclic_rebase hac q _ it.size idx) (offs_ok_rebase hoff q _ it.size idx) hw
          have hc : w4.ctx.convert_callback = w.ctx.convert_callback := by simpa using hf.1
          by_cases hr1 : r1 = 0
          · simp only [hr1, ne_eq, not_true_eq_false, if_false, Option.some.injEq,
              Prod.mk.injEq] at h
            obtain ⟨_, rfl⟩ := h
            exact ⟨by simpa using hc, fun _ => rebase_frame hoff (hb q hq) (hf.2 hr1)⟩
          · simp only [ne_eq, hr1, not_false_eq_true, if_true, Option.some.injEq,
              Prod.mk.injEq] at h
            obtain ⟨rfl, rfl⟩ := h
            exact ⟨hc, fun hr => by omega⟩
  · split at h
    · simp only [Option.some.injEq, Prod.mk.injEq] at h
      obtain ⟨_, rfl⟩ := h
      exact ⟨rfl, fun _ => store_frame_of_mappers_eq _ _ rfl⟩
    · split at h
      · cases h
      · rename_i r1 w4 hw
        have hf := from_json_array_with_frame hwr hp _ _ w r1 w4 hac hoff
          (below_next_dimen hb idx) hw
        by_cases hr1 : r1 = 0
        · simp only [hr1, ne_eq, not_true_eq_false, if_false, Option.some.injEq,
            Prod.mk.injEq] at h
          obtain ⟨_, rfl⟩ := h
          exact ⟨hf.1, fun _ => hf.2 hr1⟩
        · simp only [ne_eq, hr1, not_false_eq_true, if_true, Option.some.injEq,
            Prod.mk.injEq] at h
          obtain ⟨rfl, rfl⟩ := h
          exact ⟨hf.1, fun hr => by omega⟩
  · split at h
    · simp only [Option.some.injEq, Prod.mk.injEq] at h
      obtain ⟨_, rfl⟩ := h
      exact ⟨rfl, fun _ => store_frame_of_mappers_eq _ _ rfl⟩
    · simp only [Option.some.injEq, Prod.mk.injEq] at h
      obtain ⟨rfl, rfl⟩ := h
      exact ⟨rfl, fun hr => by omega⟩

/-- Deserialization frame: a deserialization wrapper call keeps the registered
callback, and a call that returns 0 keeps the store frame. -/
theorem de_wrapper_frame (lib : JsonLib) (rank : Nat → Nat) :
    ∀ fuel, DeWrOK rank (jmap_from_json_warpper lib fuel) := by
  intro fuel
  induction fuel with
  | zero =>
    intro hp it idx jso w ret w' _ _ _ h
    simp [jmap_from_json_warpper] at h
  | succ fuel ih =>
    intro hp it idx jso w ret w' hac hoff hb h
    simp only [jmap_from_json_warpper] at h
    split at h
    · simp only [Option.some.injEq, Prod.mk.injEq] at h
      obtain ⟨rfl, rfl⟩ := h
      exact ⟨rfl, fun hr => by omega⟩
    · have hf := from_json_by_type_frame lib ih hp it idx _ jso _ ret w'
        (by simpa using hac) (by simpa using hoff) hb h
      exact ⟨by simpa using hf.1, fun hr => by
        have := hf.2 hr
        exact ⟨this.list, this.idx, this.start⟩⟩

/-! ## Round trip of a leaf -/

theorem write_le_read_le (x t : Mem) (a n y : Nat) :
    write_le t a n (read_le x a n) y = if a ≤ y ∧ y < a + n then x y else t y := by
  rw [write_le_apply]
  by_cases h : a ≤ y ∧ y < a + n
  · simp only [h, and_self, if_true]
    rw [read_le_byte x a n (y - a) (by omega)]
    congr 1
    omega
  · simp only [h, if_false]

theorem to_signed_range (n u : Nat) (hn : n = 1 ∨ n = 2 ∨ n = 4) (hu : u < 256 ^ n) :
    sat_int32 (to_signed n u) = to_signed n u := by
  rcases hn with h | h | h <;> subst h <;>
    simp only [sat_int32, to_signed] <;> norm_num at hu ⊢ <;> split <;> split <;> omega

theorem write_int_read_int (x t : Mem) (a n y : Nat) (hn : n = 1 ∨ n = 2 ∨ n = 4 ∨ n = 8) :
    write_int t a n (read_int x a n) y = if a ≤ y ∧ y < a + n then x y else t y := by
  unfold write_int read_int
  rw [of_signed_to_signed n _ hn (read_le_lt x a n), write_le_read_le]

theorem read_cstr_spec (x : Mem) (a n k : Nat) (hk : k < n) (hz : (x (a + k)).val = 0) :
    (read_cstr x a n).length ≤ k ∧
    (x (a + (read_cstr x a n).length)).val = 0 ∧
    (∀ j, j < (read_cstr x a n).length →
      (read_cstr x a n).getD j 0 = (x (a + j)).val) ∧
    (∀ b ∈ read_cstr x a n, b % 256 ≠ 0) := by
  induction n generalizing a k with
  | zero => omega
  | succ n ih =>
    simp only [read_cstr]
    by_cases hb : (x a).val = 0
    · simp [hb]
    · simp only [hb, if_false, List.length_cons]
      cases k with
      | zero => simp only [Nat.add_zero] at hz; exact absurd hz hb
      | succ k =>
        have h := ih (a + 1) k (by omega) (by rw [show a + 1 + k = a + (k + 1) by omega]; exact hz)
        refine ⟨by omega, ?_, ?_, ?_⟩
        · rw [show a + ((read_cstr x (a + 1) n).length + 1)
            = a + 1 + (read_cstr x (a + 1) n).length by omega]
          exact h.2.1
        · intro j hj
          cases j with
          | zero => simp
          | succ j =>
            rw [List.getD_cons_succ, h.2.2.1 j (by omega)]
            rw [show a + 1 + j = a + (j + 1) by omega]
        · intro b hb'
          rcases List.mem_cons.mp hb' with hb' | hb'
          · subst hb'
            have := (x a).isLt
            omega
          · exact h.2.2.2 b hb'

theorem byte_of_val (b : Fin 256) : byte_of b.val = b := by
  apply Fin.ext
  simp only [byte_of]
  have := b.isLt
  omega

theorem fin_eq_zero_of_val (b : Fin 256) (h : b.val = 0) : byte_of 0 = b := by
  apply Fin.ext
  simp [byte_of, h]

theorem mem_rel_of_patch (x t m' : Mem) (lo hi : Nat)
    (h : ∀ y, m' y = if lo ≤ y ∧ y < hi then x y else t y) : MemRel x t m' := by
  intro y
  rw [h y]
  by_cases hy : lo ≤ y ∧ y < hi
  · simp [hy]
  · simp [hy]

theorem cstr_store (x t : Mem) (a size k : Nat) (hk : k < size) (hz : (x (a + k)).val = 0)
    (hw : a + size ≤ PTR_MOD) (y : Nat) :
    write_bytes t a (snprintf_bytes size (c_string x a)) y
      = if a ≤ y ∧ y < a + (c_string x a).length + 1 then x y else t y := by
  have hspec := read_cstr_spec x a (PTR_MOD - a) k (by omega) hz
  have hs0 : size ≠ 0 := by omega
  have htw : (c_string x a).takeWhile (fun b => decide (b % 256 ≠ 0)) = c_string x a := by
    rw [List.takeWhile_eq_self_iff]
    intro b hb
    simpa using hspec.2.2.2 b hb
  have hlen : (c_string x a).length ≤ size - 1 := by
    have := hspec.1
    unfold c_string
    omega
  have hbytes : snprintf_bytes size (c_string x a) = c_string x a ++ [0] := by
    unfold snprintf_bytes
    simp only [hs0, if_false]
    rw [htw, List.take_of_length_le hlen]
  rw [hbytes, write_bytes_apply]
  simp only [List.length_append, List.length_singleton, ← Nat.add_assoc]
  by_cases hy : a ≤ y ∧ y < a + (c_string x a).length + 1
  · simp only [hy, and_self, if_true]
    by_cases hlt : y - a < (c_string x a).length
    · rw [List.getD_append _ _ _ _ hlt]
      have := hspec.2.2.1 (y - a) hlt
      unfold c_string at this ⊢
      rw [this, byte_of_val]
      congr 1
      omega
    · have hya : y - a = (c_string x a).length := by omega
      rw [List.getD_append_right _ _ _ _ (by omega), hya]
      simp only [Nat.sub_self, List.getD_cons_zero]
      have hz' := hspec.2.1
      have hy' : y = a + (c_string x a).length := by omega
      rw [hy']
      exact fin_eq_zero_of_val _ hz'
  · simp only [hy, if_false]

/-- Round trip of one leaf: the document value read from `x` stores, into any
memory `t`, bytes of `x` only, and leaves the leaf in agreement with `x`. -/
theorem leaf_round_trip (lib : JsonLib) (x t : Mem) (type : jxs_type) (size a : Nat)
    (hd : leaf_data_ok x type size a) :
    ∃ j m', to_json_scalar lib x type size a = some j ∧
      from_json_scalar lib t type size a j = some m' ∧ MemRel x t m' ∧
      field_agrees x m' { vptr := a, type := type, size := size } := by
  cases type <;> simp only [leaf_data_ok] at hd
  · -- boolean
    rcases hd with ⟨hs, _⟩ | ⟨hs, hv⟩
    · subst hs
      have hp := fun y => write_int_read_int x t a 4 y (by decide)
      refine ⟨.boolean (read_int x a 4), write_int t a 4 (read_int x a 4), ?_, ?_,
        mem_rel_of_patch x t _ a (a + 4) hp, ?_⟩
      · simp [to_json_scalar]
      · simp [from_json_scalar, json_object_get_boolean]
      · intro k hk
        simp only [] at hk ⊢
        rw [hp, if_pos (by omega)]
    · subst hs
      have hval : (if ((x a).val : Int) ≠ 0 then 1 else 0) = (x a).val := by
        have : (x a).val = 0 ∨ (x a).val = 1 := by omega
        rcases this with h | h <;> simp [h]
      have hp : ∀ y, write_le t a 1 (if ((x a).val : Int) ≠ 0 then 1 else 0) y
          = if a ≤ y ∧ y < a + 1 then x y else t y := by
        intro y
        rw [hval, write_le_apply]
        by_cases hy : a ≤ y ∧ y < a + 1
        · have : y = a := by omega
          subst this
          simp [byte_of_val]
        · simp [hy]
      refine ⟨.boolean ((x a).val : Int),
        write_le t a 1 (if ((x a).val : Int) ≠ 0 then 1 else 0), ?_, ?_,
        mem_rel_of_patch x t _ a (a + 1) hp, ?_⟩
      · simp [to_json_scalar]
      · simp [from_json_scalar, json_object_get_boolean]
      · intro k hk
        simp only [] at hk ⊢
        rw [hp, if_pos (by omega)]
  · -- int
    have hget : ∀ n, n = 1 ∨ n = 2 ∨ n = 4 →
        json_object_get_int lib (Json.int (read_int x a n)) = read_int x a n := by
      intro n hn
      simp only [json_object_get_int, read_int]
      exact to_signed_range n _ hn (read_le_lt x a n)
    rcases hd with hs | hs | hs | hs <;> subst hs
    · have hp := fun y => write_int_read_int x t a 8 y (by decide)
      refine ⟨.int (read_int x a 8), write_int t a 8 (read_int x a 8), ?_, ?_,
        mem_rel_of_patch x t _ a (a + 8) hp, ?_⟩
      · simp [to_json_scalar]
      · simp [from_json_scalar, json_object_get_int64]
      · intro k hk
        simp only [] at hk ⊢
        rw [hp, if_pos (by omega)]
    · have hp := fun y => write_int_read_int x t a 4 y (by decide)
      refine ⟨.int (read_int x a 4), write_int t a 4 (read_int x a 4), ?_, ?_,
        mem_rel_of_patch x t _ a (a + 4) hp, ?_⟩
      · simp [to_json_scalar]
      · simp [from_json_scalar, hget 4 (by decide)]
      · intro k hk
        simp only [] at hk ⊢
        rw [hp, if_pos (by omega)]
    · have hp := fun y => write_int_read_int x t a 2 y (by decide)
      refine ⟨.int (read_int x a 2), write_int t a 2 (read_int x a 2), ?_, ?_,
        mem_rel_of_patch x t _ a (a + 2) hp, ?_⟩
      · simp [to_json_scalar]
      · simp [from_json_scalar, hget 2 (by decide)]
      · intro k hk
        simp only [] at hk ⊢
        rw [hp, if_pos (by omega)]
    · have hp := fun y => write_int_read_int x t a 1 y (by decide)
      refine ⟨.int (read_int x a 1), write_int t a 1 (read_int x a 1), ?_, ?_,
        mem_rel_of_patch x t _ a (a + 1) hp, ?_⟩
      · simp [to_json_scalar]
      · simp [from_json_scalar, hget 1 (by decide)]
      · intro k hk
        simp only [] at hk ⊢
        rw [hp, if_pos (by omega)]
  · -- string
    obtain ⟨hw, k, hk, hz⟩ := hd
    have hp := cstr_store x t a size k hk hz hw
    have hspec := read_cstr_spec x a (PTR_MOD - a) k (by omega) hz
    refine ⟨.string (c_string x a), write_bytes t a (snprintf_bytes size (c_string x a)),
      rfl, ?_, mem_rel_of_patch x t _ a (a + (c_string x a).length + 1) hp, ?_⟩
    · simp only [from_json_scalar, json_object_get_string]
    · refine ⟨(c_string x a).length, ?_, hspec.2.1, fun j hj => ?_⟩
      · have := hspec.1
        simp only []
        unfold c_string
        omega
      · simp only []
        rw [hp, if_pos (by omega)]

/-! ## Round trip: bookkeeping -/

theorem mem_rel_refl (x m : Mem) : MemRel x m m := fun _ => Or.inl rfl

theorem mem_rel_trans {x m m1 m2 : Mem} (h1 : MemRel x m m1) (h2 : MemRel x m1 m2) :
    MemRel x m m2 := by
  intro a
  rcases h2 a with h | h
  · rw [h]; exact h1 a
  · exact Or.inr h

theorem field_agrees_of_rel {x m1 m2 : Mem} {v : Visit} (h : field_agrees x m1 v)
    (hr : MemRel x m1 m2) : field_agrees x m2 v := by
  unfold field_agrees at h ⊢
  cases hv : v.type <;> rw [hv] at h <;> simp only [] at h ⊢
  · intro k hk
    rcases hr (v.vptr + k) with h' | h'
    · rw [h']; exact h k hk
    · exact h'
  · intro k hk
    rcases hr (v.vptr + k) with h' | h'
    · rw [h']; exact h k hk
    · exact h'
  · obtain ⟨k, hk1, hk2, hk3⟩ := h
    refine ⟨k, hk1, hk2, fun j hj => ?_⟩
    rcases hr (v.vptr + j) with h' | h'
    · rw [h']; exact hk3 j hj
    · exact h'

theorem same_field_of_agrees {x m : Mem} {v : Visit} (h : field_agrees x m v) :
    same_field x m v := by
  unfold field_agrees at h
  unfold same_field
  cases hv : v.type <;> rw [hv] at h <;> simp only [] at h ⊢
  · exact read_le_congr _ _ _ _ h
  · exact read_le_congr _ _ _ _ h
  · obtain ⟨k, hk1, hk2, hk3⟩ := h
    unfold c_string
    exact read_cstr_congr _ _ _ _ k (by omega) hk3 hk2

theorem walk_inv_of_frame {S : Nat → jxs_mapper} {rank : Nat → Nat} {hp start : Nat}
    {w w' : World} (h : WalkInv S rank hp start w) (hf : StoreFrame rank (rank hp) w w') :
    WalkInv S rank hp start w' := by
  obtain ⟨hac, hoff, hst, hrest⟩ := h
  refine ⟨acyclic_of_frame hac hf, offs_ok_of_frame hoff hf, ?_, fun r hr => ?_⟩
  · rw [hf.start hp (Nat.le_refl _)]; exact hst
  · rw [hf.list r, hf.idx r]; exact hrest r hr

theorem walk_inv_of_mappers_eq {S : Nat → jxs_mapper} {rank : Nat → Nat} {hp start : Nat}
    {w w' : World} (h : WalkInv S rank hp start w) (he : w'.mappers = w.mappers) :
    WalkInv S rank hp start w' :=
  walk_inv_of_frame h (store_frame_of_mappers_eq rank _ he)

theorem uniform_bound (n : Nat) (P : Nat → Nat → Prop)
    (h : ∀ i, i < n → ∃ N, ∀ fuel, N ≤ fuel → P i fuel) :
    ∃ N, ∀ fuel, N ≤ fuel → ∀ i, i < n → P i fuel := by
  induction n with
  | zero => exact ⟨0, fun _ _ i hi => absurd hi (by omega)⟩
  | succ n ih =>
    obtain ⟨N1, h1⟩ := ih (fun i hi => h i (by omega))
    obtain ⟨N2, h2⟩ := h n (by omega)
    refine ⟨max N1 N2, fun fuel hf i hi => ?_⟩
    by_cases hin : i = n
    · subst hin; exact h2 fuel (by omega)
    · exact h1 fuel (by omega) i (by omega)

theorem leaf_fits_of_data_ok (x : Mem) (type : jxs_type) (size a : Nat)
    (h : leaf_data_ok x type size a) : leaf_fits type size := by
  cases type <;> simp only [leaf_data_ok] at h <;> simp only [leaf_fits]
  · rcases h with ⟨h, _⟩ | ⟨h, _⟩
    · exact Or.inl h
    · exact Or.inr h
  · exact h

/-- Round trip of a leaf node. -/
theorem round_trip_leaf (lib : JsonLib) (S : Nat → jxs_mapper) (rank : Nat → Nat) (x : Mem)
    (fuel hp start : Nat) (it : jmap_item_t) (idx : Nat)
    (h0 : base_of start it ≠ 0) (hrule : it.rule = JXS_RULE_KEEP_RAW)
    (hd : leaf_data_ok x it.type it.size (addr_of start it idx)) :
    RoundTrip lib S rank x (fuel + 1) hp start it idx := by
  intro ws hinv hmem hcb
  obtain ⟨j, _, hj, _, _, _⟩ := leaf_round_trip lib x x it.type it.size (addr_of start it idx) hd
  have hst := hinv.2.2.1
  have hbase : node_base ws hp it = base_of start it := by unfold node_base; rw [hst]
  have haddr : node_addr ws hp it idx = addr_of start it idx := by unfold node_addr; rw [hst]
  have hr0 : it.rule ≠ 0 := by rw [hrule]; decide
  refine ⟨j, set_now_vptr (record_visit ws (node_addr ws hp it idx) it) (node_addr ws hp it idx),
    [{ vptr := addr_of start it idx, type := it.type, size := it.size }], ?_, ?_, ?_, ?_⟩
  · rw [wrapper_unfold lib fuel hp it idx ws (by rw [hbase]; exact h0),
      handler_no_callback (record_visit ws (node_addr ws hp it idx) it) it _ hr0 hcb]
    simp only [hrule, if_true]
    rw [show handler_world (record_visit ws (node_addr ws hp it idx) it) it
        (node_addr ws hp it idx)
        = set_now_vptr (record_visit ws (node_addr ws hp it idx) it)
          (node_addr ws hp it idx) by
      simp only [handler_world, hrule, JXS_RULE_KEEP_RAW, record_visit_ctx, hcb]; rfl]
    exact to_json_by_type_scalar lib _ hp it idx _ _ j (by
      show to_json_scalar lib ws.mem it.type it.size (node_addr ws hp it idx) = some j
      rw [hmem, haddr]; exact hj)
  · show ws.visits ++ [{ vptr := node_addr ws hp it idx, type := it.type, size := it.size }] = _
    rw [haddr]
  · intro v hv
    cases hv with
    | self => simp
    | field _ _ _ q i _ hty _ _ _ => rw [hty] at hd; exact hd.elim
    | elem _ _ _ i _ hty _ _ => rw [hty] at hd; exact hd.elim
  · intro wt hinvt
    have hstt := hinvt.2.2.1
    have hbaset : node_base wt hp it = base_of start it := by unfold node_base; rw [hstt]
    have haddrt : node_addr wt hp it idx = addr_of start it idx := by
      unfold node_addr; rw [hstt]
    obtain ⟨j', m', hj', hm', hrel, hag⟩ :=
      leaf_round_trip lib x wt.mem it.type it.size (addr_of start it idx) hd
    have hjj : j' = j := by
      rw [hj] at hj'
      exact (Option.some.inj hj').symm
    subst hjj
    refine ⟨set_mem (record_visit wt (node_addr wt hp it idx) it) m', ?_, hrel, ?_⟩
    · rw [de_wrapper_leaf lib fuel hp it idx j' wt
        (leaf_fits_of_data_ok x _ _ _ hd) (by rw [hbaset]; exact h0), haddrt, hm']
      rfl
    · intro v hv
      simp only [List.mem_singleton] at hv
      subst hv
      exact hag

/-! ## Round trip of the element loop and of the node loop -/

theorem array_loop_round_trip (lib : JsonLib) (S : Nat → jxs_mapper) (rank : Nat → Nat)
    (x : Mem) (fuel hp start : Nat) (e : jmap_item_t) (ntot : Nat)
    (hb : Below rank e hp)
    (H : ∀ i, i < ntot → RoundTrip lib S rank x fuel hp start e i) :
    ∀ (n i : Nat), i + n = ntot → ∀ (ws : World) (xs : List Json)
      (loc fz : Option (List Char)),
      WalkInv S rank hp start ws → ws.mem = x → ws.ctx.convert_callback = none →
      ∃ js ws' vs,
        to_json_array_loop (jmap_to_json_warpper lib fuel) hp e loc fz n i (.array xs) ws
          = some (0, .array (xs ++ js), ws') ∧
        js.length = n ∧ ws'.visits = ws.visits ++ vs ∧
        (∀ k, k < n → ∀ v, Described S start e (i + k) v → v ∈ vs) ∧
        ∀ (arr : List Json), (∀ k, k < n → arr.getD (i + k) .null = js.getD k .null) →
          ∀ (wt : World) (loc' fz' : Option (List Char)), WalkInv S rank hp start wt →
            ∃ wt', from_json_array_loop (jmap_from_json_warpper lib fuel) hp e loc' fz'
                (.array arr) n i wt = some (0, wt') ∧
              MemRel x wt.mem wt'.mem ∧ ∀ v ∈ vs, field_agrees x wt'.mem v := by
  intro n
  induction n with
  | zero =>
    intro i _ ws xs loc fz _ _ _
    refine ⟨[], ws, [], by simp [to_json_array_loop], rfl, by simp,
      fun k hk => absurd hk (by omega), ?_⟩
    intro arr _ wt loc' fz' _
    exact ⟨wt, rfl, mem_rel_refl _ _, fun v hv => by simp at hv⟩
  | succ n ih =>
    intro i hin ws xs loc fz hinv hmem hcb
    have hinv1 : WalkInv S rank hp start (set_now ws (SET_NEW_LOCATOR loc e.key true i)
        (SET_NEW_FUZZY_LOCATOR fz loc e.key true)) := walk_inv_of_mappers_eq hinv rfl
    obtain ⟨j, ws2, vs1, hser, hvis1, hdesc1, hde⟩ := H i (by omega) _ hinv1 hmem hcb
    have hfr := ser_wrapper_frame lib rank fuel hp e i _ 0 j ws2 hinv1.1 hinv1.2.1 hb hser
    have hsf := hfr.2 (by decide)
    have hinv2 : WalkInv S rank hp start ws2 := walk_inv_of_frame hinv1 hsf
    have hmem2 : ws2.mem = x := (hfr.1.mem hcb).trans hmem
    have hcb2 : ws2.ctx.convert_callback = none := hfr.1.cb.trans hcb
    obtain ⟨js, ws', vs2, hloop, hlen, hvis2, hdesc2, hde2⟩ :=
      ih (i + 1) (by omega) ws2 (xs ++ [j]) loc fz hinv2 hmem2 hcb2
    refine ⟨j :: js, ws', vs1 ++ vs2, ?_, by simp [hlen], ?_, ?_, ?_⟩
    · simp only [to_json_array_loop, hser]
      simp only [show ¬ ((0 : Int) = -1) by decide, if_false, if_true, json_object_array_add]
      rw [hloop]
      simp
    · rw [hvis2, hvis1]
      simp
    · intro k hk v hv
      rcases Nat.eq_zero_or_pos k with h0 | h0
      · subst h0
        exact List.mem_append_left _ (hdesc1 v hv)
      · refine List.mem_append_right _ (hdesc2 (k - 1) (by omega) v ?_)
        rw [show i + 1 + (k - 1) = i + k by omega]
        exact hv
    · intro arr harr wt loc' fz' hinvt
      have hinvt1 : WalkInv S rank hp start (set_now wt (SET_NEW_LOCATOR loc' e.key true i)
          (SET_NEW_FUZZY_LOCATOR fz' loc' e.key true)) := walk_inv_of_mappers_eq hinvt rfl
      obtain ⟨wt2, hdeq, hrel1, hag1⟩ := hde _ hinvt1
      have hfrt := de_wrapper_frame lib rank fuel hp e i j _ 0 wt2 hinvt1.1 hinvt1.2.1 hb hdeq
      have hinvt2 : WalkInv S rank hp start wt2 := walk_inv_of_frame hinvt1 (hfrt.2 rfl)
      obtain ⟨wt', hdeq2, hrel2, hag2⟩ := hde2 arr (fun k hk => by
        have := harr (k + 1) (by omega)
        rw [show i + 1 + k = i + (k + 1) by omega, this]
        simp) wt2 loc' fz' hinvt2
      have h0 := harr 0 (by omega)
      simp only [Nat.add_zero, List.getD_cons_zero] at h0
      refine ⟨wt', ?_, mem_rel_trans hrel1 hrel2, fun v hv => ?_⟩
      · simp only [from_json_array_loop, json_object_array_get_idx, h0, hdeq]
        simp only [ne_eq, not_true_eq_false, if_false]
        exact hdeq2
      · rcases List.mem_append.mp hv with hv | hv
        · exact field_agrees_of_rel (hag1 v hv) hrel2
        · exact hag2 v hv

theorem object_loop_round_trip (lib : JsonLib) (S : Nat → jxs_mapper) (rank : Nat → Nat)
    (x : Mem) (fuel q start : Nat) (L : Nat → jmap_item_t) (ntot : Nat)
    (hkeys : ∀ i j, i < ntot → j < ntot → i ≠ j → (L i).key ≠ (L j).key)
    (hb : ∀ i, i < ntot → Below rank (L i) q)
    (H : ∀ i, i < ntot → RoundTrip lib S rank x fuel q start (L i) 0) :
    ∀ (n i : Nat), i + n = ntot → ∀ (ws : World) (jso : Json)
      (loc fz : Option (List Char)),
      WalkInv S rank q start ws → (ws.mappers q).jmlist = L → ws.mem = x →
      ws.ctx.convert_callback = none → jso.is_object = true →
      ∃ jso' ws' vs,
        to_json_object_loop (jmap_to_json_warpper lib fuel) q loc fz n i jso ws
          = some (0, jso', ws') ∧
        jso'.is_object = true ∧ ws'.visits = ws.visits ++ vs ∧
        (∀ m, i ≤ m → m < ntot → ∀ v, Described S start (L m) 0 v → v ∈ vs) ∧
        StoreFrame rank (rank q) ws ws' ∧
        (∀ m, m < i → json_object_object_get jso' (L m).key
          = json_object_object_get jso (L m).key) ∧
        ∀ (doc : Json), (∀ m, i ≤ m → m < ntot → json_object_object_get doc (L m).key
            = json_object_object_get jso' (L m).key) →
          ∀ (wt : World) (loc' fz' : Option (List Char)), WalkInv S rank q start wt →
            (wt.mappers q).jmlist = L →
            ∃ wt', from_json_object_loop (jmap_from_json_warpper lib fuel) q loc' fz' doc n i wt
                = some (0, wt') ∧
              StoreFrame rank (rank q) wt wt' ∧
              MemRel x wt.mem wt'.mem ∧ ∀ v ∈ vs, field_agrees x wt'.mem v := by
  intro n
  induction n with
  | zero =>
    intro i _ ws jso loc fz _ _ _ _ hobj
    refine ⟨jso, ws, [], by simp [to_json_object_loop], hobj, by simp,
      fun m h1 h2 => absurd h2 (by omega), store_frame_refl _ _ _, fun _ _ => rfl, ?_⟩
    intro doc _ wt loc' fz' _ _
    exact ⟨wt, rfl, store_frame_refl _ _ _, mem_rel_refl _ _, fun v hv => by simp at hv⟩
  | succ n ih =>
    intro i hin ws jso loc fz hinv hL hmem hcb hobj
    have hinv1 : WalkInv S rank q start (set_now ws (SET_NEW_LOCATOR loc (L i).key false 0)
        (SET_NEW_FUZZY_LOCATOR fz loc (L i).key false)) := walk_inv_of_mappers_eq hinv rfl
    obtain ⟨j, ws2, vs1, hser, hvis1, hdesc1, hde⟩ := H i (by omega) _ hinv1 hmem hcb
    have hfr := ser_wrapper_frame lib rank fuel q (L i) 0 _ 0 j ws2 hinv1.1 hinv1.2.1
      (hb i (by omega)) hser
    have hsf0 : StoreFrame rank (rank q) ws (set_now ws (SET_NEW_LOCATOR loc (L i).key false 0)
        (SET_NEW_FUZZY_LOCATOR fz loc (L i).key false)) := store_frame_of_mappers_eq rank _ rfl
    have hsf : StoreFrame rank (rank q) ws ws2 := store_frame_trans hsf0 (hfr.2 (by decide))
    have hinv2 : WalkInv S rank q start ws2 := walk_inv_of_frame hinv hsf
    have hL2 : (ws2.mappers q).jmlist = L := (hsf.list q).trans hL
    have hmem2 : ws2.mem = x := (hfr.1.mem hcb).trans hmem
    have hcb2 : ws2.ctx.convert_callback = none := hfr.1.cb.trans hcb
    obtain ⟨jso', ws', vs2, hloop, hobj', hvis2, hdesc2, hsf2, hframe, hde2⟩ :=
      ih (i + 1) (by omega) ws2 (json_object_object_add jso (L i).key j) loc fz hinv2 hL2 hmem2
        hcb2 ((object_add_is_object _ _ _).trans hobj)
    refine ⟨jso', ws', vs1 ++ vs2, ?_, hobj', ?_, ?_, store_frame_trans hsf hsf2, ?_, ?_⟩
    · simp only [to_json_object_loop, hL, hser]
      simp only [show ¬ ((0 : Int) = -1) by decide, if_false, if_true]
      exact hloop
    · rw [hvis2, hvis1]
      simp
    · intro m hm1 hm2 v hv
      rcases Nat.eq_or_lt_of_le hm1 with h0 | h0
      · subst h0
        exact List.mem_append_left _ (hdesc1 v hv)
      · exact List.mem_append_right _ (hdesc2 m (by omega) hm2 v hv)
    · intro m hm
      rw [hframe m (by omega), object_get_add _ _ _ _ hobj,
        if_neg (hkeys m i (by omega) (by omega) (by omega))]
    · intro doc hdoc wt loc' fz' hinvt hLt
      have hinvt1 : WalkInv S rank q start (set_now wt (SET_NEW_LOCATOR loc' (L i).key false 0)
          (SET_NEW_FUZZY_LOCATOR fz' loc' (L i).key false)) := walk_inv_of_mappers_eq hinvt rfl
      obtain ⟨wt2, hdeq, hrel1, hag1⟩ := hde _ hinvt1
      have hfrt := de_wrapper_frame lib rank fuel q (L i) 0 j _ 0 wt2 hinvt1.1 hinvt1.2.1
        (hb i (by omega)) hdeq
      have hsft0 : StoreFrame rank (rank q) wt (set_now wt
          (SET_NEW_LOCATOR loc' (L i).key false 0)
          (SET_NEW_FUZZY_LOCATOR fz' loc' (L i).key false)) :=
        store_frame_of_mappers_eq rank _ rfl
      have hsft : StoreFrame rank (rank q) wt wt2 := store_frame_trans hsft0 (hfrt.2 rfl)
      have hinvt2 : WalkInv S rank q start wt2 := walk_inv_of_frame hinvt hsft
      have hLt2 : (wt2.mappers q).jmlist = L := (hsft.list q).trans hLt
      obtain ⟨wt', hdeq2, hsft2, hrel2, hag2⟩ := hde2 doc
        (fun m hm1 hm2 => hdoc m (by omega) hm2) wt2 loc' fz' hinvt2 hLt2
      have hget : json_object_object_get doc (L i).key = j := by
        rw [hdoc i (Nat.le_refl _) (by omega), hframe i (by omega),
          object_get_add _ _ _ _ hobj, if_pos rfl]
      refine ⟨wt', ?_, store_frame_trans hsft hsft2, mem_rel_trans hrel1 hrel2, fun v hv => ?_⟩
      · simp only [from_json_object_loop, hLt, hget, hdeq]
        simp only [ne_eq, not_true_eq_false, if_false]
        exact hdeq2
      · rcases List.mem_append.mp hv with hv | hv
        · exact field_agrees_of_rel (hag1 v hv) hrel2
        · exact hag2 v hv

/-! ## Round trip of a sub-structure node and of an array node -/

@[simp] theorem set_now_vptr_mappers (w : World) (v : Nat) :
    (set_now_vptr w v).mappers = w.mappers := rfl
@[simp] theorem set_now_vptr_mem (w : World) (v : Nat) : (set_now_vptr w v).mem = w.mem := rfl
@[simp] theorem set_now_vptr_visits (w : World) (v : Nat) :
    (set_now_vptr w v).visits = w.visits := rfl
@[simp] theorem set_now_vptr_cb (w : World) (v : Nat) :
    (set_now_vptr w v).ctx.convert_callback = w.ctx.convert_callback := rfl

theorem is_null_of_is_object (j : Json) (h : j.is_object = true) : j.is_null = false := by
  cases j <;> simp_all [Json.is_object, Json.is_null]

theorem ser_wrapper_keep (lib : JsonLib) (fuel hp : Nat) (it : jmap_item_t) (idx : Nat)
    (ws : World) (h0 : node_base ws hp it ≠ 0) (hrule : it.rule = JXS_RULE_KEEP_RAW)
    (hcb : ws.ctx.convert_callback = none) :
    jmap_to_json_warpper lib (fuel + 1) hp it idx ws
      = to_json_by_type lib (jmap_to_json_warpper lib fuel) hp it idx (node_addr ws hp it idx)
          (set_now_vptr (record_visit ws (node_addr ws hp it idx) it)
            (node_addr ws hp it idx)) := by
  have hr0 : it.rule ≠ 0 := by rw [hrule]; decide
  rw [wrapper_unfold lib fuel hp it idx ws h0,
    handler_no_callback (record_visit ws (node_addr ws hp it idx) it) it _ hr0 hcb]
  simp only [hrule, if_true]
  rw [show handler_world (record_visit ws (node_addr ws hp it idx) it) it
      (node_addr ws hp it idx)
      = set_now_vptr (record_visit ws (node_addr ws hp it idx) it)
        (node_addr ws hp it idx) by
    simp only [handler_world, hrule, JXS_RULE_KEEP_RAW, record_visit_ctx, hcb]; rfl]

theorem de_wrapper_unfold (lib : JsonLib) (fuel hp : Nat) (it : jmap_item_t) (idx : Nat)
    (j : Json) (wt : World) (h0 : node_base wt hp it ≠ 0) :
    jmap_from_json_warpper lib (fuel + 1) hp it idx j wt
      = from_json_by_type lib (jmap_from_json_warpper lib fuel) hp it idx
          (node_addr wt hp it idx) j (record_visit wt (node_addr wt hp it idx) it) := by
  simp only [jmap_from_json_warpper, h0, if_false]

theorem rebase_walk_inv {S : Nat → jxs_mapper} {rank : Nat → Nat} {hp start q : Nat}
    {w : World} (hinv : WalkInv S rank hp start w) (hlt : rank q < rank hp) (a s idx : Nat) :
    WalkInv S rank q a (jmap_struct_move_forward (set_start_addr w q a) q s idx) ∧
    ((jmap_struct_move_forward (set_start_addr w q a) q s idx).mappers q).jmlist
      = map_first (S q).jmhead.idx
          (fun it => set_offset it ((it.offset + s * idx) % PTR_MOD)) (S q).jmlist ∧
    ((jmap_struct_move_forward (set_start_addr w q a) q s idx).mappers q).jmhead.idx
      = (S q).jmhead.idx := by
  obtain ⟨hac, hoff, _, hrest⟩ := hinv
  have hq := hrest q hlt
  refine ⟨⟨acyclic_rebase hac q a s idx, offs_ok_rebase hoff q a s idx, ?_, ?_⟩, ?_, ?_⟩
  · rw [move_forward_head, set_start_addr_start, if_pos rfl]
  · intro r hr
    have hrq : r ≠ q := fun h => by subst h; omega
    rw [move_forward_jmlist, if_neg hrq, move_forward_head, set_start_addr_jmlist,
      set_start_addr_idx]
    exact hrest r (by omega)
  · rw [move_forward_jmlist, if_pos rfl, set_start_addr_idx, set_start_addr_jmlist, hq.1, hq.2]
  · rw [move_forward_head, set_start_addr_idx, hq.2]

theorem round_trip_struct (lib : JsonLib) (S : Nat → jxs_mapper) (rank : Nat → Nat) (x : Mem)
    (fuel hp start : Nat) (it : jmap_item_t) (idx q : Nat)
    (h0 : base_of start it ≠ 0) (hrule : it.rule = JXS_RULE_KEEP_RAW)
    (hty : it.type = jxs_type.struct) (hsub : it.subjm = some q)
    (hlt : rank q < rank hp) (hS : Acyclic rank S)
    (hkeys : ∀ i j, i < (S q).jmhead.idx → j < (S q).jmhead.idx → i ≠ j →
      ((S q).jmlist i).key ≠ ((S q).jmlist j).key)
    (H : ∀ i, i < (S q).jmhead.idx →
      RoundTrip lib S rank x fuel q (base_of start it)
        (set_offset ((S q).jmlist i) ((((S q).jmlist i).offset + it.size * idx) % PTR_MOD)) 0) :
    RoundTrip lib S rank x (fuel + 1) hp start it idx := by
  intro ws hinv hmem hcb
  have hst := hinv.2.2.1
  have hbase : node_base ws hp it = base_of start it := by unfold node_base; rw [hst]
  have haddr : node_addr ws hp it idx = addr_of start it idx := by unfold node_addr; rw [hst]
  have hL : ∀ i, i < (S q).jmhead.idx →
      map_first (S q).jmhead.idx
        (fun it' => set_offset it' ((it'.offset + it.size * idx) % PTR_MOD)) (S q).jmlist i
      = set_offset ((S q).jmlist i) ((((S q).jmlist i).offset + it.size * idx) % PTR_MOD) := by
    intro i hi
    simp only [map_first, hi, if_true]
  have hinv1 : WalkInv S rank hp start
      (set_now_vptr (record_visit ws (addr_of start it idx) it) (addr_of start it idx)) :=
    walk_inv_of_mappers_eq hinv rfl
  obtain ⟨hinv3, hL3, hn3⟩ := rebase_walk_inv hinv1 hlt (base_of start it) it.size idx
  obtain ⟨jso', ws', vs2, hloop, hobj, hvis, hdesc, hsf, _, hde⟩ :=
    object_loop_round_trip lib S rank x fuel q (base_of start it)
      (map_first (S q).jmhead.idx
        (fun it' => set_offset it' ((it'.offset + it.size * idx) % PTR_MOD)) (S q).jmlist)
      (S q).jmhead.idx
      (fun i j hi hj hij => by rw [hL i hi, hL j hj]; exact hkeys i j hi hj hij)
      (fun i hi r hr => by
        rw [hL i hi] at hr
        exact hS q i r hi hr)
      (fun i hi => by rw [hL i hi]; exact H i hi)
      (S q).jmhead.idx 0 (by omega) _ (.object [])
      (set_now_vptr (record_visit ws (addr_of start it idx) it)
        (addr_of start it idx)).ctx.now_locator
      (set_now_vptr (record_visit ws (addr_of start it idx) it)
        (addr_of start it idx)).ctx.now_fzlocator
      hinv3 hL3 hmem hcb rfl
  refine ⟨jso', jmap_struct_move_backward ws' q it.size idx,
    { vptr := addr_of start it idx, type := it.type, size := it.size } :: vs2, ?_, ?_, ?_, ?_⟩
  · rw [ser_wrapper_keep lib fuel hp it idx ws (by rw [hbase]; exact h0) hrule hcb, haddr]
    simp only [to_json_by_type, hty, hsub, jmap_to_json_object_with, Json.is_null,
      Json.is_object]
    simp only [node_base, set_now_vptr_mappers, record_visit_mappers, hst, hn3,
      move_forward_ctx, set_start_addr_ctx]
    simp only [Bool.false_eq_true, if_false, Bool.not_true]
    rw [hloop]
    simp
  · rw [move_backward_visits, hvis]
    simp
  · intro v hv
    cases hv with
    | self => exact List.mem_cons_self _ _
    | field _ _ _ q' i _ _ hsub' hi hv' =>
      rw [hsub] at hsub'
      cases hsub'
      refine List.mem_cons_of_mem _ (hdesc i (by omega) hi v ?_)
      rw [hL i hi]
      exact hv'
    | elem _ _ _ i _ hty' _ _ => rw [hty] at hty'; cases hty'
  · intro wt hinvt
    have hstt := hinvt.2.2.1
    have hbaset : node_base wt hp it = base_of start it := by unfold node_base; rw [hstt]
    have haddrt : node_addr wt hp it idx = addr_of start it idx := by
      unfold node_addr; rw [hstt]
    have hinvt1 : WalkInv S rank hp start (record_visit wt (addr_of start it idx) it) :=
      walk_inv_of_mappers_eq hinvt rfl
    obtain ⟨hinvt3, hLt3, hnt3⟩ := rebase_walk_inv hinvt1 hlt (base_of start it) it.size idx
    obtain ⟨wt', hdeq, _, hrel, hag⟩ := hde jso' (fun _ _ _ => rfl) _
      (record_visit wt (addr_of start it idx) it).ctx.now_locator
      (record_visit wt (addr_of start it idx) it).ctx.now_fzlocator hinvt3 hLt3
    refine ⟨jmap_struct_move_backward wt' q it.size idx, ?_, ?_, ?_⟩
    · rw [de_wrapper_unfold lib fuel hp it idx jso' wt (by rw [hbaset]; exact h0), haddrt]
      simp only [from_json_by_type, hty, hsub, jmap_from_json_object_with,
        is_null_of_is_object jso' hobj]
      simp only [node_base, record_visit_mappers, hstt, hnt3,
        move_forward_ctx, set_start_addr_ctx]
      simp only [Bool.false_eq_true, if_false]
      rw [hdeq]
      simp
    · exact hrel
    · intro v hv
      rcases List.mem_cons.mp hv with hv | hv
      · subst hv
        simp [field_agrees, hty]
      · exact hag v hv

theorem next_dimen_size (it : jmap_item_t) (idx : Nat)
    (hdep : it.arr.cur_depth < it.arr.depth) (hd0 : it.arr.deptab.getD 0 0 ≠ 0) :
    (jmap_array_move_next_dimen it idx).size = it.size / it.arr.deptab.getD 0 0 ∧
    (jmap_array_move_next_dimen it idx).arr.length = it.arr.deptab.getD 0 0 := by
  unfold jmap_array_move_next_dimen
  rw [if_neg (by
    intro h
    rcases h with h | h
    · omega
    · exact hd0 h)]
  exact ⟨rfl, rfl⟩

theorem round_trip_array (lib : JsonLib) (S : Nat → jxs_mapper) (rank : Nat → Nat) (x : Mem)
    (fuel hp start : Nat) (it : jmap_item_t) (idx : Nat)
    (h0 : base_of start it ≠ 0) (hrule : it.rule = JXS_RULE_KEEP_RAW)
    (hty : it.type = jxs_type.array)
    (hdep : it.arr.cur_depth < it.arr.depth) (hd0 : it.arr.deptab.getD 0 0 ≠ 0)
    (hsz : it.size / it.arr.deptab.getD 0 0 ≠ 0)
    (hb : Below rank it hp)
    (H : ∀ i, i < it.arr.deptab.getD 0 0 →
      RoundTrip lib S rank x fuel hp start (jmap_array_move_next_dimen it idx) i) :
    RoundTrip lib S rank x (fuel + 1) hp start it idx := by
  intro ws hinv hmem hcb
  have hst := hinv.2.2.1
  have hbase : node_base ws hp it = base_of start it := by unfold node_base; rw [hst]
  have haddr : node_addr ws hp it idx = addr_of start it idx := by unfold node_addr; rw [hst]
  obtain ⟨hesz, helen⟩ := next_dimen_size it idx hdep hd0
  have hinv1 : WalkInv S rank hp start
      (set_now_vptr (record_visit ws (addr_of start it idx) it) (addr_of start it idx)) :=
    walk_inv_of_mappers_eq hinv rfl
  obtain ⟨js, ws', vs2, hloop, hlen, hvis, hdesc, hde⟩ :=
    array_loop_round_trip lib S rank x fuel hp start (jmap_array_move_next_dimen it idx)
      (it.arr.deptab.getD 0 0) (below_next_dimen hb idx) H
      (it.arr.deptab.getD 0 0) 0 (by omega) _ []
      (set_now_vptr (record_visit ws (addr_of start it idx) it)
        (addr_of start it idx)).ctx.now_locator
      (set_now_vptr (record_visit ws (addr_of start it idx) it)
        (addr_of start it idx)).ctx.now_fzlocator
      hinv1 hmem hcb
  refine ⟨.array ([] ++ js), ws',
    { vptr := addr_of start it idx, type := it.type, size := it.size } :: vs2, ?_, ?_, ?_, ?_⟩
  · rw [ser_wrapper_keep lib fuel hp it idx ws (by rw [hbase]; exact h0) hrule hcb, haddr]
    simp only [to_json_by_type, hty, jmap_to_json_array_with, hesz, helen, hsz, hd0,
      Json.is_array, or_self, if_false, Bool.not_true, Bool.false_eq_true]
    rw [hloop]
    simp
  · rw [hvis]
    simp
  · intro v hv
    cases hv with
    | self => exact List.mem_cons_self _ _
    | field _ _ _ q' i _ hty' _ _ _ => rw [hty] at hty'; cases hty'
    | elem _ _ _ i _ _ hi hv' =>
      refine List.mem_cons_of_mem _ (hdesc i hi v ?_)
      rw [Nat.zero_add]
      exact hv'
  · intro wt hinvt
    have hstt := hinvt.2.2.1
    have hbaset : node_base wt hp it = base_of start it := by unfold node_base; rw [hstt]
    have haddrt : node_addr wt hp it idx = addr_of start it idx := by
      unfold node_addr; rw [hstt]
    have hinvt1 : WalkInv S rank hp start (record_visit wt (addr_of start it idx) it) :=
      walk_inv_of_mappers_eq hinvt rfl
    obtain ⟨wt', hdeq, hrel, hag⟩ := hde ([] ++ js) (fun k _ => by simp) _
      (record_visit wt (addr_of start it idx) it).ctx.now_locator
      (record_visit wt (addr_of start it idx) it).ctx.now_fzlocator hinvt1
    refine ⟨wt', ?_, hrel, ?_⟩
    · rw [de_wrapper_unfold lib fuel hp it idx _ wt (by rw [hbaset]; exact h0), haddrt]
      simp only [from_json_by_type, hty, jmap_from_json_array_with, hesz, helen, hsz, hd0,
        Json.is_array, Json.is_null, or_self, if_false, Bool.not_true, Bool.false_eq_true,
        json_object_array_length, List.nil_append, hlen]
      simp only [List.nil_append] at hdeq
      rw [hdeq]
      simp
    · intro v hv
      rcases List.mem_cons.mp hv with hv | hv
      · subst hv
        simp [field_agrees, hty]
      · exact hag v hv

/-! ## Round trip of a valid node and of a valid tree -/

theorem node_round_trip (lib : JsonLib) (S : Nat → jxs_mapper) (rank : Nat → Nat) (x : Mem)
    (hS : Acyclic rank S) :
    ∀ (start : Nat) (it : jmap_item_t) (idx : Nat), NodeOK S x start it idx →
      ∀ hp, Below rank it hp →
        ∃ N, ∀ fuel, N ≤ fuel → RoundTrip lib S rank x fuel hp start it idx := by
  intro start it idx h
  induction h with
  | leaf start it idx h0 hr hd =>
    intro hp _
    refine ⟨1, fun fuel hf => ?_⟩
    obtain ⟨f, rfl⟩ : ∃ f, fuel = f + 1 := ⟨fuel - 1, by omega⟩
    exact round_trip_leaf lib S rank x f hp start it idx h0 hr hd
  | struct start it idx q h0 hr hty hsub hkeys _ ih =>
    intro hp hb
    obtain ⟨N, hN⟩ := uniform_bound (S q).jmhead.idx
      (fun i fuel => RoundTrip lib S rank x fuel q (base_of start it)
        (set_offset ((S q).jmlist i) ((((S q).jmlist i).offset + it.size * idx) % PTR_MOD)) 0)
      (fun i hi => ih i hi q (fun r hr => hS q i r hi hr))
    refine ⟨N + 1, fun fuel hf => ?_⟩
    obtain ⟨f, rfl⟩ : ∃ f, fuel = f + 1 := ⟨fuel - 1, by omega⟩
    exact round_trip_struct lib S rank x f hp start it idx q h0 hr hty hsub (hb q hsub) hS
      hkeys (fun i hi => hN f (by omega) i hi)
  | array start it idx h0 hr hty hdep hd0 hsz _ ih =>
    intro hp hb
    obtain ⟨N, hN⟩ := uniform_bound (it.arr.deptab.getD 0 0)
      (fun i fuel => RoundTrip lib S rank x fuel hp start (jmap_array_move_next_dimen it idx) i)
      (fun i hi => ih i hi hp (below_next_dimen hb idx))
    refine ⟨N + 1, fun fuel hf => ?_⟩
    obtain ⟨f, rfl⟩ : ∃ f, fuel = f + 1 := ⟨fuel - 1, by omega⟩
    exact round_trip_array lib S rank x f hp start it idx h0 hr hty hdep hd0 hsz hb
      (fun i hi => hN f (by omega) i hi)

/-- Claim C1, amended: for a mapper store whose sub-tree references are
well-founded and whose offsets are 64-bit patterns, with no dynamic callback,
and a tree `p` that is valid for the memory of the world (`TreeOK`: rule
keep-as-is everywhere, pairwise distinct keys within every tree, no node at
address `NULL`, booleans of width 1 or 4 holding 0 or 1, integers of width 1, 2,
4 or 8, texts NUL-terminated inside their size, array slices of non-zero size),
there is a recursion budget from which on `jmap_to_json_object` returns 0 with a
document, `jmap_from_json_object` of that document into any target memory `t`
returns 0, and every field that a node of the tree describes (the node, the
fields of its sub-tree at the element, the fields of its array elements) has the
same value in the resulting memory as in the source memory. -/
theorem c1_round_trip_distinct_keys (lib : JsonLib) (rank : Nat → Nat) (w : World) (t : Mem)
    (p : Nat) (hac : Acyclic rank w.mappers) (hoff : OffsOK w.mappers)
    (hcb : w.ctx.convert_callback = none) (hok : TreeOK w.mappers w.mem p) :
    ∃ N, ∀ fuel, N ≤ fuel →
      ∃ doc w1 w2,
        jmap_to_json_object lib fuel p (.object []) w = some (0, doc, w1) ∧
        jmap_from_json_object lib fuel p doc (set_mem w t) = some (0, w2) ∧
        ∀ i, i < (w.mappers p).jmhead.idx → ∀ v,
          Described w.mappers (w.mappers p).jmhead.start_addr ((w.mappers p).jmlist i) 0 v →
          same_field w.mem w2.mem v := by
  obtain ⟨hkeys, hnodes⟩ := hok
  obtain ⟨N, hN⟩ := uniform_bound (w.mappers p).jmhead.idx
    (fun i fuel => RoundTrip lib w.mappers rank w.mem fuel p (w.mappers p).jmhead.start_addr
      ((w.mappers p).jmlist i) 0)
    (fun i hi => node_round_trip lib w.mappers rank w.mem hac _ _ _ (hnodes i hi) p
      (fun r hr => hac p i r hi hr))
  refine ⟨N, fun fuel hf => ?_⟩
  have hinv : WalkInv w.mappers rank p (w.mappers p).jmhead.start_addr w :=
    ⟨hac, hoff, rfl, fun r _ => ⟨rfl, rfl⟩⟩
  obtain ⟨doc, w1, vs, hloop, hobj, _, hdesc, _, _, hde⟩ :=
    object_loop_round_trip lib w.mappers rank w.mem fuel p (w.mappers p).jmhead.start_addr
      (w.mappers p).jmlist (w.mappers p).jmhead.idx hkeys
      (fun i hi r hr => hac p i r hi hr) (fun i hi => hN fuel hf i hi)
      (w.mappers p).jmhead.idx 0 (by omega) w (.object []) w.ctx.now_locator
      w.ctx.now_fzlocator hinv rfl rfl hcb rfl
  obtain ⟨w2, hdeq, _, _, hag⟩ := hde doc (fun _ _ _ => rfl) (set_mem w t)
    w.ctx.now_locator w.ctx.now_fzlocator (walk_inv_of_mappers_eq hinv rfl) rfl
  refine ⟨doc, w1, w2, ?_, ?_, ?_⟩
  · simp only [jmap_to_json_object, jmap_to_json_object_with, Json.is_null, Json.is_object,
      Bool.false_eq_true, if_false, Bool.not_true]
    exact hloop
  · simp only [jmap_from_json_object, jmap_from_json_object_with,
      is_null_of_is_object doc hobj, Bool.false_eq_true, if_false]
    exact hdeq
  · intro i hi v hv
    exact same_field_of_agrees (hag v (hdesc i (by omega) hi v hv))

/-! ## Claim C1 on a concrete tree: a record with an array of sub-structures -/

theorem item_add_mappers_other (w : World) (p : Nat) (type : jxs_type) (key : List Char)
    (offset : Int) (mbsize : Nat) (subjm : Option Nat) (va : List Int) (r : Nat)
    (hp : r ≠ p) (hq : subjm ≠ some r) :
    (jxs_item_basic_add w (some p) type key offset mbsize subjm va).2.mappers r
      = w.mappers r := by
  cases subjm with
  | none =>
    unfold jxs_item_basic_add
    simp only []
    split_ifs <;> simp [set_mapper, hp]
  | some q =>
    have hrq : r ≠ q := fun h => hq (by rw [h])
    unfold jxs_item_basic_add
    simp only []
    split_ifs <;> simp [set_mapper, hp, hrq]

theorem map_new_mappers_other (w : World) (c : Bool) (n r : Nat)
    (h : (jxs_map_basic_new w c n).1 ≠ some r) :
    (jxs_map_basic_new w c n).2.mappers r = w.mappers r := by
  unfold jxs_map_basic_new at h ⊢
  split_ifs at h ⊢
  · rfl
  · rfl
  · have hr : r ≠ MAPPER_BUFFER_LENGTH + w.heap_next := fun e => h (by rw [e])
    simp [set_mapper, hr]
  · have hr : r ≠ w.ctx.buf_idx := fun e => h (by rw [e])
    simp [set_mapper, hr]

theorem check_ref_count_other (w : World) (q r : Nat) (h : r ≠ q) :
    (check_ref_count w q).2.mappers r = w.mappers r := by
  unfold check_ref_count
  simp only []
  split_ifs
  · rfl
  · simp [set_mapper, h]

theorem world_rec_other (p : Nat) (h0 : p ≠ 0) (h5 : p ≠ 5) :
    world_rec.mappers p = jxs_mapper_zero := by
  have hr : (jxs_map_basic_new (set_ctx_target (world_init mem_rec) 100 0) true 4).1 = some 0 := by
    decide
  have hs : (jxs_map_basic_new
      (jxs_map_basic_new (set_ctx_target (world_init mem_rec) 100 0) true 4).2 true 2).1
      = some 5 := by decide
  have n0 : (none : Option Nat) ≠ some p := by simp
  have n5 : some 5 ≠ some p := fun h => h5 (Option.some.inj h).symm
  rw [world_rec, check_ref_count_other _ _ _ h0]
  show (bld_rec _).2.mappers p = _
  simp only [bld_rec, hr, hs]
  rw [item_add_mappers_other _ _ _ _ _ _ _ _ _ h5 n0,
    item_add_mappers_other _ _ _ _ _ _ _ _ _ h5 n0,
    item_add_mappers_other _ _ _ _ _ _ _ _ _ h0 n0,
    item_add_mappers_other _ _ _ _ _ _ _ _ _ h0 n0,
    item_add_mappers_other _ _ _ _ _ _ _ _ _ h0 n5,
    item_add_mappers_other _ _ _ _ _ _ _ _ _ h0 n0,
    map_new_mappers_other _ _ _ _ (by rw [hs]; exact n5),
    map_new_mappers_other _ _ _ _ (by rw [hr]; exact fun h => h0 (Option.some.inj h).symm)]
  rfl

theorem world_rec_acyclic : Acyclic rank_rec world_rec.mappers := by
  intro p i q hi hq
  by_cases h0 : p = 0
  · subst h0
    have h := (show ∀ i, i < 4 → ((world_rec.mappers 0).jmlist i).subjm = none ∨
      ((world_rec.mappers 0).jmlist i).subjm = some 5 by decide) i hi
    rcases h with h | h <;> rw [h] at hq <;> cases hq
    decide
  · by_cases h5 : p = 5
    · subst h5
      have h := (show ∀ i, i < 2 → ((world_rec.mappers 5).jmlist i).subjm = none by decide) i hi
      rw [h] at hq
      cases hq
    · rw [world_rec_other p h0 h5] at hi
      exact absurd hi (by simp [jxs_mapper_zero])

theorem world_rec_offs : OffsOK world_rec.mappers := by
  intro p i hi
  by_cases h0 : p = 0
  · subst h0
    exact (show ∀ i, i < 4 → ((world_rec.mappers 0).jmlist i).offset < PTR_MOD by decide) i hi
  · by_cases h5 : p = 5
    · subst h5
      exact (show ∀ i, i < 2 → ((world_rec.mappers 5).jmlist i).offset < PTR_MOD by decide) i hi
    · rw [world_rec_other p h0 h5] at hi
      exact absurd hi (by simp [jxs_mapper_zero])

theorem world_rec_tree_ok : TreeOK world_rec.mappers world_rec.mem 0 := by
  refine ⟨?_, ?_⟩
  · intro i j hi hj hij
    have hi4 : i < 4 := hi
    have hj4 : j < 4 := hj
    interval_cases i <;> interval_cases j <;> first | exact absurd rfl hij | decide
  · intro i hi
    have hi4 : i < 4 := hi
    interval_cases i
    · exact NodeOK.leaf _ _ _ (by decide) (by decide) (by decide)
    · refine NodeOK.array _ _ _ (by decide) (by decide) (by decide) (by decide) (by decide)
        (by decide) ?_
      intro k hk
      have hk2 : k < 2 := hk
      have hkeys : ∀ i j, i < (world_rec.mappers 5).jmhead.idx →
          j < (world_rec.mappers 5).jmhead.idx → i ≠ j →
          ((world_rec.mappers 5).jmlist i).key ≠ ((world_rec.mappers 5).jmlist j).key := by
        intro i j hi hj hij
        have hi2 : i < 2 := hi
        have hj2 : j < 2 := hj
        interval_cases i <;> interval_cases j <;> first | exact absurd rfl hij | decide
      interval_cases k
      · refine NodeOK.struct _ _ _ 5 (by decide) (by decide) (by decide) (by decide) hkeys ?_
        intro m hm
        have hm2 : m < 2 := hm
        interval_cases m <;> exact NodeOK.leaf _ _ _ (by decide) (by decide) (by decide)
      · refine NodeOK.struct _ _ _ 5 (by decide) (by decide) (by decide) (by decide) hkeys ?_
        intro m hm
        have hm2 : m < 2 := hm
        interval_cases m <;> exact NodeOK.leaf _ _ _ (by decide) (by decide) (by decide)
    · refine NodeOK.array _ _ _ (by decide) (by decide) (by decide) (by decide) (by decide)
        (by decide) ?_
      intro k hk
      have hk2 : k < 2 := hk
      interval_cases k <;> exact NodeOK.leaf _ _ _ (by decide) (by decide) (by decide)
    · exact NodeOK.leaf _ _ _ (by decide) (by decide) (by decide)

/-- Witness for C1: the tree of `bld_rec` (an integer, an array of two
sub-structures, an array of two integers, a text) over `mem_rec`, deserialized
into zeroed memory. -/
theorem c1_round_trip_distinct_keys_witness :
    Acyclic rank_rec world_rec.mappers ∧ OffsOK world_rec.mappers ∧
    TreeOK world_rec.mappers world_rec.mem 0 ∧
    ∃ N, ∀ fuel, N ≤ fuel →
      ∃ doc w1 w2,
        jmap_to_json_object lib0 fuel 0 (.object []) world_rec = some (0, doc, w1) ∧
        jmap_from_json_object lib0 fuel 0 doc (set_mem world_rec mem_zero) = some (0, w2) ∧
        ∀ i, i < (world_rec.mappers 0).jmhead.idx → ∀ v,
          Described world_rec.mappers (world_rec.mappers 0).jmhead.start_addr
            ((world_rec.mappers 0).jmlist i) 0 v →
          same_field world_rec.mem w2.mem v :=
  ⟨world_rec_acyclic, world_rec_offs, world_rec_tree_ok,
    c1_round_trip_distinct_keys lib0 rank_rec world_rec mem_zero 0 world_rec_acyclic
      world_rec_offs rfl world_rec_tree_ok⟩

/-- The round trip of the tree of `bld_rec` evaluated with budget 3: both return
codes are 0 and the sixteen bytes of the record come back, up to the stray byte
after the NUL of the text. -/
theorem round_trip_rec_eval :
    (round_trip_mem lib0 3 0 world_rec mem_zero).map
      (fun r => (r.1, r.2.1, (List.range 16).map (fun i => (r.2.2 (100 + i)).val)))
      = some (0, 0, [7, 0, 0, 0, 1, 255, 0, 3, 254, 255, 5, 0, 104, 105, 0, 0]) := by
  decide

/-- Counterexample to C1 as stated: the tree of `bld_twins`, built with
`jxs_item_basic_add` from two 4-byte integer fields that share the key `a`, all
rules keep-as-is and no callback, over memory holding 1 and 2.  Serialization
and deserialization into zeroed memory both return 0, but the first field of
the target holds 2 where the source holds 1. -/
theorem c1_counterexample_shared_key :
    world_twins.ctx.convert_callback.isNone = true ∧
    (∀ i, i < (world_twins.mappers 0).jmhead.idx →
      ((world_twins.mappers 0).jmlist i).rule = JXS_RULE_KEEP_RAW ∧
      ((world_twins.mappers 0).jmlist i).type = jxs_type.int ∧
      ((world_twins.mappers 0).jmlist i).size = 4) ∧
    read_le world_twins.mem 100 4 = 1 ∧
    (round_trip_mem lib0 1 0 world_twins mem_zero).map
      (fun r => (r.1, r.2.1, read_le r.2.2 100 4)) = some (0, 0, 2) := by
  refine ⟨rfl, by decide, by decide, by decide⟩

/-! ## Claim C11: a document array where an object is expected -/

theorem from_json_object_loop_of_array
    (wr : Nat → jmap_item_t → Nat → Json → World → Option (Int × World))
    (p : Nat) (loc fz : Option (List Char)) (xs : List Json) :
    ∀ (n i : Nat) (w : World),
      from_json_object_loop wr p loc fz (.array xs) n i w
        = from_json_object_loop wr p loc fz (.object []) n i w := by
  intro n
  induction n with
  | zero => intro i w; rfl
  | succ n ih =>
    intro i w
    simp only [from_json_object_loop, json_object_object_get, kvs_get]
    cases wr p ((w.mappers p).jmlist i) 0 Json.null
        (set_now w (SET_NEW_LOCATOR loc ((w.mappers p).jmlist i).key false 0)
          (SET_NEW_FUZZY_LOCATOR fz loc ((w.mappers p).jmlist i).key false)) with
    | none => rfl
    | some r =>
      obtain ⟨ret, w2⟩ := r
      simp only []
      split
      · rfl
      · exact ih (i + 1) w2

/-- The deserializer never looks at the kind of the document it is given for a
tree: an array is walked exactly as the empty object is, every key reading as
absent. -/
theorem from_json_object_of_array (lib : JsonLib) (fuel p : Nat) (xs : List Json) (w : World) :
    jmap_from_json_object lib fuel p (.array xs) w
      = jmap_from_json_object lib fuel p (.object []) w := by
  simp only [jmap_from_json_object, jmap_from_json_object_with, Json.is_null]
  exact from_json_object_loop_of_array _ p _ _ xs _ 0 w

/-- C11 (defect in the code): `jmap_from_json_object` has no test of the kind of
its document, unlike `jmap_to_json_object` and `jmap_from_json_array`.  For the
tree of `bld_int4` (one `int32_t` field holding 5) and the document `[1]`, a
JSON array where an object is expected, `jmap_from_json_object` and
`jxs_struct_from_json_object` return 0 and the field is zeroed; for the tree of
`bld_nest` and the document `{"s": [1]}`, whose sub-structure value is an
array, the call returns 0 as well. -/
theorem c11_array_for_object_is_accepted :
    (jmap_from_json_object lib0 1 0 (.array [.int 1])
        (check_ref_count (call_descriptor bld_int4
          (set_ctx_target (world_init mem_five) 100 0)).2 0).2).map
      (fun r => (r.1, read_le r.2.mem 100 4)) = some ((0 : Int), 0) ∧
    read_le mem_five 100 4 = 5 ∧
    (jxs_struct_from_json_object lib0 2 (some bld_int4) 100 0 (.array [.int 1]) mem_five).map
      (fun r => (r.1, read_le r.2.mem 100 4)) = some ((0 : Int), 0) ∧
    (jxs_struct_from_json_object lib0 3 (some bld_nest) 100 0
        (.object [([Char.ofNat 115], .array [.int 1])]) mem_five).map
      (fun r => (r.1, read_le r.2.mem 100 4)) = some ((0 : Int), 0) := by
  refine ⟨by decide, by decide, by decide, by decide⟩

/-! ## A relation kept by every step of deserialization is kept by the walk -/

theorem from_json_array_loop_rel (R : World → World → Prop)
    (hrefl : ∀ w, R w w) (htrans : ∀ a b c, R a b → R b c → R a c)
    (hnow : ∀ w a b, R w (set_now w a b))
    {wr : Nat → jmap_item_t → Nat → Json → World → Option (Int × World)}
    (hwr : ∀ hp it idx j w r, wr hp it idx j w = some r → R w r.2)
    (hp : Nat) (it : jmap_item_t) (loc fz : Option (List Char)) (arr : Json) :
    ∀ (n i : Nat) (w : World) (r : Int × World),
      from_json_array_loop wr hp it loc fz arr n i w = some r → R w r.2 := by
  intro n
  induction n with
  | zero =>
    intro i w r h
    simp only [from_json_array_loop, Option.some.injEq] at h
    rw [← h]
    exact hrefl w
  | succ n ih =>
    intro i w r h
    simp only [from_json_array_loop] at h
    split at h
    · cases h
    · rename_i r1 w2 hw
      have h1 : R w w2 := htrans _ _ _ (hnow w _ _) (hwr _ _ _ _ _ _ hw)
      split at h
      · simp only [Option.some.injEq] at h
        rw [← h]
        exact h1
      · exact htrans _ _ _ h1 (ih _ _ _ h)

theorem from_json_object_loop_rel (R : World → World → Prop)
    (hrefl : ∀ w, R w w) (htrans : ∀ a b c, R a b → R b c → R a c)
    (hnow : ∀ w a b, R w (set_now w a b))
    {wr : Nat → jmap_item_t → Nat → Json → World → Option (Int × World)}
    (hwr : ∀ hp it idx j w r, wr hp it idx j w = some r → R w r.2)
    (p : Nat) (loc fz : Option (List Char)) (jso : Json) :
    ∀ (n i : Nat) (w : World) (r : Int × World),
      from_json_object_loop wr p loc fz jso n i w = some r → R w r.2 := by
  intro n
  induction n with
  | zero =>
    intro i w r h
    simp only [from_json_object_loop, Option.some.injEq] at h
    rw [← h]
    exact hrefl w
  | succ n ih =>
    intro i w r h
    simp only [from_json_object_loop] at h
    split at h
    · cases h
    · rename_i r1 w2 hw
      have h1 : R w w2 := htrans _ _ _ (hnow w _ _) (hwr _ _ _ _ _ _ hw)
      split at h
      · simp only [Option.some.injEq] at h
        rw [← h]
        exact h1
      · exact htrans _ _ _ h1 (ih _ _ _ h)

theorem from_json_by_type_rel (lib : JsonLib) (R : World → World → Prop)
    (hrefl : ∀ w, R w w) (htrans : ∀ a b c, R a b → R b c → R a c)
    (hnow : ∀ w a b, R w (set_now w a b))
    (hmem : ∀ w m, R w (set_mem w m))
    (hfwd : ∀ w q a s i, R w (jmap_struct_move_forward (set_start_addr w q a) q s i))
    (hbwd : ∀ w q s i, R w (jmap_struct_move_backward w q s i))
    {wr : Nat → jmap_item_t → Nat → Json → World → Option (Int × World)}
    (hwr : ∀ hp it idx j w r, wr hp it idx j w = some r → R w r.2)
    (hp : Nat) (it : jmap_item_t) (idx vptr : Nat) (j : Json) (w : World) (r : Int × World)
    (h : from_json_by_type lib wr hp it idx vptr j w = some r) : R w r.2 := by
  unfold from_json_by_type at h
  split at h
  · split at h
    · simp only [Option.some.injEq] at h
      rw [← h]; exact hrefl w
    · split at h
      · simp only [Option.some.injEq] at h
        rw [← h]; exact hmem w _
      · simp only [] at h
        split at h
        · cases h
        · rename_i r1 w4 hw
          have h1 : R w w4 := by
            unfold jmap_from_json_object_with at hw
            split at hw
            · simp only [Option.some.injEq, Prod.mk.injEq] at hw
              rw [← hw.2]; exact hfwd w _ _ _ _
            · exact htrans _ _ _ (hfwd w _ _ _ _)
                (from_json_object_loop_rel R hrefl htrans hnow hwr _ _ _ _ _ _ _ _ hw)
          split at h
          · simp only [Option.some.injEq] at h
            rw [← h]; exact h1
          · simp only [Option.some.injEq] at h
            rw [← h]; exact htrans _ _ _ h1 (hbwd w4 _ _ _)
  · split at h
    · simp only [Option.some.injEq] at h
      rw [← h]; exact hmem w _
    · split at h
      · cases h
      · rename_i r1 w4 hw
        have h1 : R w w4 := by
          unfold jmap_from_json_array_with at hw
          split at hw
          · simp only [Option.some.injEq, Prod.mk.injEq] at hw
            rw [← hw.2]; exact hrefl w
          · split at hw
            · simp only [Option.some.injEq, Prod.mk.injEq] at hw
              rw [← hw.2]; exact hrefl w
            · split at hw
              · simp only [Option.some.injEq, Prod.mk.injEq] at hw
                rw [← hw.2]; exact hrefl w
              · exact from_json_array_loop_rel R hrefl htrans hnow hwr _ _ _ _ _ _ _ _ _ hw
        split at h
        · simp only [Option.some.injEq] at h
          rw [← h]; exact h1
        · simp only [Option.some.injEq] at h
          rw [← h]; exact h1
  · split at h
    · simp only [Option.some.injEq] at h
      rw [← h]; exact hmem w _
    · simp only [Option.some.injEq] at h
      rw [← h]; exact hrefl w

/-- Induction principle of the deserialization walk: a reflexive and transitive
relation on worlds that every primitive step of the walk keeps (new locators, a
recorded visit, a store to memory, the rebasing of a sub-tree and its undoing)
relates the world before a wrapper call to the world after it, whatever the
return code. -/
theorem de_wrapper_rel (lib : JsonLib) (R : World → World → Prop)
    (hrefl : ∀ w, R w w) (htrans : ∀ a b c, R a b → R b c → R a c)
    (hnow : ∀ w a b, R w (set_now w a b))
    (hvisit : ∀ w v it, R w (record_visit w v it))
    (hmem : ∀ w m, R w (set_mem w m))
    (hfwd : ∀ w q a s i, R w (jmap_struct_move_forward (set_start_addr w q a) q s i))
    (hbwd : ∀ w q s i, R w (jmap_struct_move_backward w q s i)) :
    ∀ fuel hp it idx j w r, jmap_from_json_warpper lib fuel hp it idx j w = some r →
      R w r.2 := by
  intro fuel
  induction fuel with
  | zero =>
    intro hp it idx j w r h
    simp [jmap_from_json_warpper] at h
  | succ fuel ih =>
    intro hp it idx j w r h
    simp only [jmap_from_json_warpper] at h
    split at h
    · simp only [Option.some.injEq] at h
      rw [← h]; exact hrefl w
    · exact htrans _ _ _ (hvisit w _ it)
        (from_json_by_type_rel lib R hrefl htrans hnow hmem hfwd hbwd ih _ _ _ _ _ _ _ h)

/-! ## The shape of the mapper store survives every deserialization -/

theorem same_shape_refl (a : jmap_item_t) : same_shape a a := rfl

theorem same_shape_symm {a b : jmap_item_t} (h : same_shape a b) : same_shape b a :=
  Eq.symm h

theorem same_shape_trans {a b c : jmap_item_t} (h1 : same_shape a b) (h2 : same_shape b c) :
    same_shape a c := Eq.trans h1 h2

theorem same_shape_set_offset (a : jmap_item_t) (o : Nat) : same_shape (set_offset a o) a := rfl

theorem same_shape_fields {a b : jmap_item_t} (h : same_shape a b) :
    a.type = b.type ∧ a.key = b.key ∧ a.size = b.size ∧ a.subjm = b.subjm ∧
    a.basetype = b.basetype ∧ a.arr = b.arr ∧ a.rule = b.rule := by
  unfold same_shape set_offset at h
  have h1 := congrArg jmap_item_t.type h
  have h2 := congrArg jmap_item_t.key h
  have h3 := congrArg jmap_item_t.size h
  have h4 := congrArg jmap_item_t.subjm h
  have h5 := congrArg jmap_item_t.basetype h
  have h6 := congrArg jmap_item_t.arr h
  have h7 := congrArg jmap_item_t.rule h
  exact ⟨h1, h2, h3, h4, h5, h6, h7⟩

theorem same_shape_next_dimen {a b : jmap_item_t} (h : same_shape a b) (i j : Nat) :
    same_shape (jmap_array_move_next_dimen a i) (jmap_array_move_next_dimen b j) := by
  obtain ⟨h1, h2, h3, h4, h5, h6, h7⟩ := same_shape_fields h
  unfold jmap_array_move_next_dimen
  rw [h6]
  split
  · rfl
  · simp only [same_shape, set_offset, h2, h3, h4, h5, h6, h7]

theorem shape_frame_refl (w : World) : ShapeFrame w w :=
  ⟨fun _ _ => rfl, fun _ => rfl, fun _ => rfl, fun _ => rfl⟩

theorem shape_frame_trans (a b c : World) (h1 : ShapeFrame a b) (h2 : ShapeFrame b c) :
    ShapeFrame a c :=
  ⟨fun r i => same_shape_trans (h2.item r i) (h1.item r i),
   fun r => (h2.idx r).trans (h1.idx r), fun r => (h2.ref r).trans (h1.ref r),
   fun r => (h2.isbuf r).trans (h1.isbuf r)⟩

theorem shape_frame_of_mappers_eq {w w' : World} (h : w'.mappers = w.mappers) :
    ShapeFrame w w' :=
  ⟨fun _ _ => by rw [h]; rfl, fun _ => by rw [h], fun _ => by rw [h], fun _ => by rw [h]⟩

theorem shape_frame_forward (w : World) (q a s i : Nat) :
    ShapeFrame w (jmap_struct_move_forward (set_start_addr w q a) q s i) := by
  refine ⟨fun r k => ?_, fun r => ?_, fun r => ?_, fun r => ?_⟩
  · rw [move_forward_jmlist]
    by_cases hr : r = q
    · subst hr
      simp only [if_true, map_first, set_start_addr_jmlist]
      split
      · exact same_shape_set_offset _ _
      · rfl
    · simp only [hr, if_false, set_start_addr_jmlist]
      rfl
  · rw [move_forward_head, set_start_addr_idx]
  · rw [move_forward_head]
    unfold set_start_addr
    by_cases hr : r = q <;> simp [hr]
  · rw [move_forward_head]
    unfold set_start_addr
    by_cases hr : r = q <;> simp [hr]

theorem shape_frame_backward (w : World) (q s i : Nat) :
    ShapeFrame w (jmap_struct_move_backward w q s i) := by
  refine ⟨fun r k => ?_, fun r => ?_, fun r => ?_, fun r => ?_⟩
  · rw [move_backward_jmlist]
    by_cases hr : r = q
    · subst hr
      simp only [if_true, map_first]
      split
      · exact same_shape_set_offset _ _
      · rfl
    · simp only [hr, if_false]
      rfl
  · rw [move_backward_head]
  · rw [move_backward_head]
  · rw [move_backward_head]

/-- A deserialization wrapper call keeps the shape of the mapper store, also
when it fails. -/
theorem de_wrapper_shape (lib : JsonLib) (fuel hp : Nat) (it : jmap_item_t) (idx : Nat)
    (j : Json) (w : World) (r : Int × World)
    (h : jmap_from_json_warpper lib fuel hp it idx j w = some r) : ShapeFrame w r.2 :=
  de_wrapper_rel lib ShapeFrame shape_frame_refl shape_frame_trans
    (fun _ _ _ => shape_frame_of_mappers_eq rfl) (fun _ _ _ => shape_frame_of_mappers_eq rfl)
    (fun _ _ => shape_frame_of_mappers_eq rfl) shape_frame_forward shape_frame_backward
    fuel hp it idx j w r h

/-! ## Deserialization returns: the recursion follows the document -/

theorem json_size_pos (j : Json) : 1 ≤ sizeOf j := by
  cases j <;> simp

theorem kvs_get_size (kvs : List (List Char × Json)) (k : List Char)
    (h : (kvs_get kvs k).is_null = false) : sizeOf (kvs_get kvs k) < sizeOf kvs := by
  induction kvs with
  | nil => simp [kvs_get, Json.is_null] at h
  | cons kv rest ih =>
    obtain ⟨k', v'⟩ := kv
    simp only [kvs_get] at h ⊢
    split
    · simp only [List.cons.sizeOf_spec, Prod.mk.sizeOf_spec]
      omega
    · rename_i hk
      simp only [hk, if_false] at h
      have := ih h
      simp only [List.cons.sizeOf_spec, Prod.mk.sizeOf_spec]
      omega

theorem object_get_size (j : Json) (k : List Char)
    (h : (json_object_object_get j k).is_null = false) :
    sizeOf (json_object_object_get j k) < sizeOf j := by
  cases j with
  | object kvs =>
    simp only [json_object_object_get] at h ⊢
    have h1 := kvs_get_size _ _ h
    simp only [Json.object.sizeOf_spec]
    omega
  | _ => simp [json_object_object_get, Json.is_null] at h

theorem list_getD_size (xs : List Json) (k : Nat) (h : (xs.getD k .null).is_null = false) :
    sizeOf (xs.getD k .null) < sizeOf xs := by
  induction xs generalizing k with
  | nil => simp [Json.is_null] at h
  | cons x rest ih =>
    cases k with
    | zero =>
      simp only [List.getD_cons_zero, List.cons.sizeOf_spec]
      omega
    | succ k =>
      simp only [List.getD_cons_succ] at h ⊢
      have := ih k h
      simp only [List.cons.sizeOf_spec]
      omega

theorem array_get_size (j : Json) (k : Nat)
    (h : (json_object_array_get_idx j k).is_null = false) :
    sizeOf (json_object_array_get_idx j k) < sizeOf j := by
  cases j with
  | array xs =>
    simp only [json_object_array_get_idx] at h ⊢
    have h1 := list_getD_size _ _ h
    simp only [Json.array.sizeOf_spec]
    omega
  | _ => simp [json_object_array_get_idx, Json.is_null] at h

theorem from_json_array_loop_total
    {wr : Nat → jmap_item_t → Nat → Json → World → Option (Int × World)}
    (hp : Nat) (it : jmap_item_t) (loc fz : Option (List Char)) (arr : Json)
    (hwr : ∀ i w, ∃ r, wr hp it i (json_object_array_get_idx arr i) w = some r) :
    ∀ (n i : Nat) (w : World), ∃ r, from_json_array_loop wr hp it loc fz arr n i w = some r := by
  intro n
  induction n with
  | zero => intro i w; exact ⟨_, rfl⟩
  | succ n ih =>
    intro i w
    simp only [from_json_array_loop]
    obtain ⟨⟨r1, w2⟩, hr⟩ := hwr i (set_now w (SET_NEW_LOCATOR loc it.key true i)
      (SET_NEW_FUZZY_LOCATOR fz loc it.key true))
    rw [hr]
    simp only []
    split
    · exact ⟨_, rfl⟩
    · exact ih (i + 1) w2

theorem from_json_object_loop_total
    {wr : Nat → jmap_item_t → Nat → Json → World → Option (Int × World)}
    (p : Nat) (loc fz : Option (List Char)) (jso : Json)
    (hwr : ∀ it k w, ∃ r, wr p it 0 (json_object_object_get jso k) w = some r) :
    ∀ (n i : Nat) (w : World), ∃ r, from_json_object_loop wr p loc fz jso n i w = some r := by
  intro n
  induction n with
  | zero => intro i w; exact ⟨_, rfl⟩
  | succ n ih =>
    intro i w
    simp only [from_json_object_loop]
    obtain ⟨⟨r1, w2⟩, hr⟩ := hwr ((w.mappers p).jmlist i) ((w.mappers p).jmlist i).key
      (set_now w (SET_NEW_LOCATOR loc ((w.mappers p).jmlist i).key false 0)
        (SET_NEW_FUZZY_LOCATOR fz loc ((w.mappers p).jmlist i).key false))
    rw [hr]
    simp only []
    split
    · exact ⟨_, rfl⟩
    · exact ih (i + 1) w2

/-- Deserialization of a node returns whenever the budget exceeds the size of
the document value: the recursion descends into the document, whatever the
mapper store holds. -/
theorem de_wrapper_total (lib : JsonLib) :
    ∀ (fuel : Nat) (j : Json), (j.is_null = true ∧ 1 ≤ fuel) ∨ sizeOf j + 1 ≤ fuel →
      ∀ hp it idx w, ∃ r, jmap_from_json_warpper lib fuel hp it idx j w = some r := by
  intro fuel
  induction fuel with
  | zero =>
    intro j h
    rcases h with h | h <;> omega
  | succ f ih =>
    intro j h hp it idx w
    simp only [jmap_from_json_warpper]
    split
    · exact ⟨_, rfl⟩
    · have hsub : ∀ s : Json, (s.is_null = false → sizeOf s < sizeOf j) → j.is_null = false →
          (s.is_null = true ∧ 1 ≤ f) ∨ sizeOf s + 1 ≤ f := by
        intro s hs hj
        have hf : sizeOf j ≤ f := by
          rcases h with h | h
          · rw [hj] at h; cases h.1
          · omega
        have := json_size_pos j
        cases hn : s.is_null with
        | true => exact Or.inl ⟨rfl, by omega⟩
        | false => exact Or.inr (by have := hs hn; omega)
      unfold from_json_by_type
      split
      · split
        · exact ⟨_, rfl⟩
        · split
          · exact ⟨_, rfl⟩
          · rename_i hj
            have hj' : j.is_null = false := by simpa using hj
            have hobj : ∀ q w1, ∃ r4, jmap_from_json_object_with (jmap_from_json_warpper lib f)
                q j w1 = some r4 := by
              intro q w1
              simp only [jmap_from_json_object_with, hj', Bool.false_eq_true, if_false]
              exact from_json_object_loop_total _ _ _ j (fun it' k w' =>
                ih _ (hsub _ (object_get_size j k) hj') _ it' 0 w') _ 0 _
            rename_i q _
            obtain ⟨⟨r1, w4⟩, hr⟩ := hobj q (jmap_struct_move_forward
              (set_start_addr (record_visit w (node_addr w hp it idx) it) q
                (node_base (record_visit w (node_addr w hp it idx) it) hp it)) q it.size idx)
            simp only []
            rw [hr]
            simp only []
            split <;> exact ⟨_, rfl⟩
      · split
        · exact ⟨_, rfl⟩
        · rename_i hj
          have hj' : j.is_null = false := by simpa using hj
          have harr : ∀ e w1, ∃ r4, jmap_from_json_array_with (jmap_from_json_warpper lib f)
              hp e j w1 = some r4 := by
            intro e w1
            unfold jmap_from_json_array_with
            split
            · exact ⟨_, rfl⟩
            · split
              · exact ⟨_, rfl⟩
              · split
                · exact ⟨_, rfl⟩
                · exact from_json_array_loop_total hp _ _ _ j (fun i w' =>
                    ih _ (hsub _ (array_get_size j i) hj') _ _ i w') _ 0 _
          obtain ⟨⟨r1, w4⟩, hr⟩ := harr (jmap_array_move_next_dimen it idx)
            (record_visit w (node_addr w hp it idx) it)
          rw [hr]
          simp only []
          split <;> exact ⟨_, rfl⟩
      · split <;> exact ⟨_, rfl⟩

/-! ## Claim C12: a shape error that the walk reaches makes it fail -/

theorem int_neg_one_ne : (-1 : Int) ≠ 0 := by decide

theorem from_json_array_not_array
    (wr : Nat → jmap_item_t → Nat → Json → World → Option (Int × World))
    (hp : Nat) (e : jmap_item_t) (j : Json) (w : World)
    (hn : j.is_null = false) (ha : j.is_array = false) :
    jmap_from_json_array_with wr hp e j w = some (-1, w) := by
  simp only [jmap_from_json_array_with, hn, ha, Bool.false_eq_true, if_false, Bool.not_false,
    if_true, ite_self]

theorem shape_store_of_frame {S : Nat → jxs_mapper} {w w' : World} (h : ShapeStore S w)
    (hf : ShapeFrame w w') : ShapeStore S w' :=
  fun q => ⟨(hf.idx q).trans (h q).1, fun i => same_shape_trans (hf.item q i) ((h q).2 i)⟩

theorem from_json_array_loop_fails
    {wr : Nat → jmap_item_t → Nat → Json → World → Option (Int × World)}
    (hwr : ∀ hp it idx j w r, wr hp it idx j w = some r → ShapeFrame w r.2)
    (S : Nat → jxs_mapper) (hp : Nat) (e : jmap_item_t) (loc fz : Option (List Char))
    (arr : Json) (k : Nat)
    (hbad : ∀ w, ShapeStore S w → ∀ r,
      wr hp e k (json_object_array_get_idx arr k) w = some r → r.1 ≠ 0) :
    ∀ (n i : Nat) (w : World) (r : Int × World), ShapeStore S w → i ≤ k → k < i + n →
      from_json_array_loop wr hp e loc fz arr n i w = some r → r.1 ≠ 0 := by
  intro n
  induction n with
  | zero => intro i w r _ h1 h2 _; omega
  | succ n ih =>
    intro i w r hS h1 h2 h
    simp only [from_json_array_loop] at h
    split at h
    · cases h
    · rename_i r1 w2 hw
      have hS1 : ShapeStore S (set_now w (SET_NEW_LOCATOR loc e.key true i)
          (SET_NEW_FUZZY_LOCATOR fz loc e.key true)) :=
        shape_store_of_frame hS (shape_frame_of_mappers_eq rfl)
      split at h
      · simp only [Option.some.injEq] at h
        rw [← h]
        exact int_neg_one_ne
      · rename_i hr1
        have hr1' : r1 = 0 := by simpa using hr1
        by_cases hik : i = k
        · subst hik
          exact absurd hr1' (hbad _ hS1 _ hw)
        · exact ih (i + 1) w2 r (shape_store_of_frame hS1 (hwr _ _ _ _ _ _ hw)) (by omega)
            (by omega) h

theorem from_json_object_loop_fails
    {wr : Nat → jmap_item_t → Nat → Json → World → Option (Int × World)}
    (hwr : ∀ hp it idx j w r, wr hp it idx j w = some r → ShapeFrame w r.2)
    (S : Nat → jxs_mapper) (p : Nat) (loc fz : Option (List Char)) (jso : Json) (k : Nat)
    (hbad : ∀ w, ShapeStore S w → ∀ r,
      wr p ((w.mappers p).jmlist k) 0
        (json_object_object_get jso ((w.mappers p).jmlist k).key) w = some r → r.1 ≠ 0) :
    ∀ (n i : Nat) (w : World) (r : Int × World), ShapeStore S w → i ≤ k → k < i + n →
      from_json_object_loop wr p loc fz jso n i w = some r → r.1 ≠ 0 := by
  intro n
  induction n with
  | zero => intro i w r _ h1 h2 _; omega
  | succ n ih =>
    intro i w r hS h1 h2 h
    simp only [from_json_object_loop] at h
    split at h
    · cases h
    · rename_i r1 w2 hw
      have hS1 : ShapeStore S (set_now w
          (SET_NEW_LOCATOR loc ((w.mappers p).jmlist i).key false 0)
          (SET_NEW_FUZZY_LOCATOR fz loc ((w.mappers p).jmlist i).key false)) :=
        shape_store_of_frame hS (shape_frame_of_mappers_eq rfl)
      split at h
      · simp only [Option.some.injEq] at h
        rw [← h]
        exact int_neg_one_ne
      · rename_i hr1
        have hr1' : r1 = 0 := by simpa using hr1
        by_cases hik : i = k
        · subst hik
          exact absurd hr1' (hbad _ hS1 _ hw)
        · exact ih (i + 1) w2 r (shape_store_of_frame hS1 (hwr _ _ _ _ _ _ hw)) (by omega)
            (by omega) h

/-- A deserialization wrapper call on a node whose document value holds a
reachable shape error does not return 0. -/
theorem shape_err_fails (lib : JsonLib) (S : Nat → jxs_mapper) :
    ∀ (it : jmap_item_t) (j : Json), ShapeErr S it j →
      ∀ (fuel hp : Nat) (it' : jmap_item_t) (idx : Nat) (w : World) (r : Int × World),
        same_shape it' it → ShapeStore S w →
        jmap_from_json_warpper lib fuel hp it' idx j w = some r → r.1 ≠ 0 := by
  intro it j herr
  induction herr with
  | here it j hty hnull harr =>
    intro fuel hp it' idx w r hsh _ h
    cases fuel with
    | zero => simp [jmap_from_json_warpper] at h
    | succ f =>
      have hty' : it'.type = jxs_type.array := (same_shape_fields hsh).1.trans hty
      simp only [jmap_from_json_warpper] at h
      split at h
      · simp only [Option.some.injEq] at h
        rw [← h]; exact int_neg_one_ne
      · simp only [from_json_by_type, hty', hnull, Bool.false_eq_true, if_false,
          from_json_array_not_array _ _ _ j _ hnull harr] at h
        simp only [show ((-1 : Int) ≠ 0) = True by simp, if_true, Option.some.injEq] at h
        rw [← h]; exact int_neg_one_ne
  | elem it xs k hty hk _ ih =>
    intro fuel hp it' idx w r hsh hS h
    cases fuel with
    | zero => simp [jmap_from_json_warpper] at h
    | succ f =>
      have hty' : it'.type = jxs_type.array := (same_shape_fields hsh).1.trans hty
      simp only [jmap_from_json_warpper] at h
      split at h
      · simp only [Option.some.injEq] at h
        rw [← h]; exact int_neg_one_ne
      · simp only [from_json_by_type, hty', Json.is_null, Bool.false_eq_true, if_false] at h
        split at h
        · cases h
        · rename_i r1 w4 hw
          have hS1 : ShapeStore S (record_visit w (node_addr w hp it' idx) it') :=
            shape_store_of_frame hS (shape_frame_of_mappers_eq rfl)
          have hr1 : r1 ≠ 0 := by
            unfold jmap_from_json_array_with at hw
            split at hw
            · simp only [Option.some.injEq, Prod.mk.injEq] at hw
              rw [← hw.1]; exact int_neg_one_ne
            · split at hw
              · simp only [Option.some.injEq, Prod.mk.injEq] at hw
                rw [← hw.1]; exact int_neg_one_ne
              · split at hw
                · simp only [Option.some.injEq, Prod.mk.injEq] at hw
                  rw [← hw.1]; exact int_neg_one_ne
                · exact from_json_array_loop_fails (de_wrapper_shape lib f) S hp _ _ _ _ k
                    (fun w' hS' r' hr' => ih f hp _ k w' r'
                      (same_shape_next_dimen hsh idx 0) hS' hr')
                    _ 0 _ (r1, w4) hS1 (by omega)
                    (by simpa [json_object_array_length] using hk) hw
          simp only [hr1, ne_eq, not_false_eq_true, if_true, Option.some.injEq] at h
          rw [← h]; exact int_neg_one_ne
  | field it q j i hty hsub hnull hi _ ih =>
    intro fuel hp it' idx w r hsh hS h
    cases fuel with
    | zero => simp [jmap_from_json_warpper] at h
    | succ f =>
      obtain ⟨h1, _, _, h4, _⟩ := same_shape_fields hsh
      have hty' : it'.type = jxs_type.struct := h1.trans hty
      have hsub' : it'.subjm = some q := h4.trans hsub
      simp only [jmap_from_json_warpper] at h
      split at h
      · simp only [Option.some.injEq] at h
        rw [← h]; exact int_neg_one_ne
      · simp only [from_json_by_type, hty', hsub', hnull, Bool.false_eq_true, if_false] at h
        split at h
        · cases h
        · rename_i r1 w4 hw
          have hS3 : ShapeStore S (jmap_struct_move_forward
              (set_start_addr (record_visit w (node_addr w hp it' idx) it') q
                (node_base (record_visit w (node_addr w hp it' idx) it') hp it')) q it'.size
              idx) :=
            shape_store_of_frame
              (shape_store_of_frame hS (shape_frame_of_mappers_eq
                (show (record_visit w (node_addr w hp it' idx) it').mappers = w.mappers from rfl)))
              (shape_frame_forward (record_visit w (node_addr w hp it' idx) it') _ _ _ _)
          have hr1 : r1 ≠ 0 := by
            simp only [jmap_from_json_object_with, hnull, Bool.false_eq_true, if_false] at hw
            refine from_json_object_loop_fails (de_wrapper_shape lib f) S q _ _ j i
              (fun w' hS' r' hr' => ?_) _ 0 _ (r1, w4) hS3 (by omega)
              (by rw [Nat.zero_add, (hS3 q).1]; exact hi) hw
            have hk := (same_shape_fields ((hS' q).2 i)).2.1
            rw [hk] at hr'
            exact ih f q _ 0 w' r' ((hS' q).2 i) hS' hr'
          simp only [hr1, ne_eq, not_false_eq_true, if_true, Option.some.injEq] at h
          rw [← h]; exact int_neg_one_ne

/-! ## Teardown: what it keeps, and that it returns on an acyclic store -/

theorem map_delete_loop_rel (R : World → World → Prop)
    (hrefl : ∀ w, R w w) (htrans : ∀ a b c, R a b → R b c → R a c)
    {del : Option Nat → World → Option World}
    (hdel : ∀ q w w', del q w = some w' → R w w') (p : Nat) :
    ∀ (n i : Nat) (w w' : World), map_delete_loop del p n i w = some w' → R w w' := by
  intro n
  induction n with
  | zero =>
    intro i w w' h
    simp only [map_delete_loop, Option.some.injEq] at h
    rw [← h]; exact hrefl w
  | succ n ih =>
    intro i w w' h
    simp only [map_delete_loop] at h
    split at h
    · split at h
      · cases h
      · rename_i w1 hw
        exact htrans _ _ _ (hdel _ _ _ hw) (ih _ _ _ h)
    · exact ih _ _ _ h

/-- Induction principle of teardown: a reflexive and transitive relation that
the two primitive steps keep (a reference count is decremented, a heap tree is
recorded as released) relates the worlds before and after
`jxs_map_basic_delete`. -/
theorem map_delete_rel (R : World → World → Prop)
    (hrefl : ∀ w, R w w) (htrans : ∀ a b c, R a b → R b c → R a c)
    (hdec : ∀ w p, R w (set_mapper w p
      { jmhead := { (w.mappers p).jmhead with
                    ref := ((w.mappers p).jmhead.ref + (PTR_MOD - 1)) % PTR_MOD },
        jmlist := (w.mappers p).jmlist }))
    (hfree : ∀ (w : World) (p : Nat), R w { w with freed := w.freed ++ [p] }) :
    ∀ (fuel : Nat) (p : Option Nat) (w w' : World),
      jxs_map_basic_delete fuel p w = some w' → R w w' := by
  intro fuel
  induction fuel with
  | zero => intro p w w' h; simp [jxs_map_basic_delete] at h
  | succ fuel ih =>
    intro p w w' h
    cases p with
    | none =>
      simp only [jxs_map_basic_delete, Option.some.injEq] at h
      rw [← h]; exact hrefl w
    | some p =>
      simp only [jxs_map_basic_delete] at h
      split at h
      · split at h
        · cases h
        · rename_i w1 hw
          have h1 := map_delete_loop_rel R hrefl htrans ih p _ _ _ _ hw
          split at h
          · simp only [Option.some.injEq] at h
            rw [← h]; exact htrans _ _ _ h1 (hfree w1 p)
          · simp only [Option.some.injEq] at h
            rw [← h]; exact h1
      · simp only [Option.some.injEq] at h
        rw [← h]; exact hdec w p

theorem del_frame_refl (w : World) : DelFrame w w :=
  ⟨fun _ => rfl, fun _ => rfl, fun _ => rfl, fun _ => rfl, rfl, rfl, rfl⟩

theorem del_frame_trans (a b c : World) (h1 : DelFrame a b) (h2 : DelFrame b c) :
    DelFrame a c :=
  ⟨fun r => (h2.list r).trans (h1.list r), fun r => (h2.idx r).trans (h1.idx r),
   fun r => (h2.isbuf r).trans (h1.isbuf r), fun r => (h2.start r).trans (h1.start r),
   h2.mem.trans h1.mem, h2.visits.trans h1.visits, h2.ctx.trans h1.ctx⟩

theorem set_mapper_same (w : World) (p : Nat) (m : jxs_mapper) :
    (set_mapper w p m).mappers p = m := by
  rw [set_mapper_mappers, if_pos rfl]

theorem set_mapper_other (w : World) (p r : Nat) (m : jxs_mapper) (h : r ≠ p) :
    (set_mapper w p m).mappers r = w.mappers r := by
  rw [set_mapper_mappers, if_neg h]

theorem mapper_mk_jmlist (h : jmap_head_t) (l : Nat → jmap_item_t) :
    ({ jmhead := h, jmlist := l } : jxs_mapper).jmlist = l := rfl

theorem mapper_mk_jmhead (h : jmap_head_t) (l : Nat → jmap_item_t) :
    ({ jmhead := h, jmlist := l } : jxs_mapper).jmhead = h := rfl

theorem head_set_ref (h : jmap_head_t) (x : Nat) :
    ({ h with ref := x } : jmap_head_t).idx = h.idx ∧
    ({ h with ref := x } : jmap_head_t).isbuf = h.isbuf ∧
    ({ h with ref := x } : jmap_head_t).start_addr = h.start_addr ∧
    ({ h with ref := x } : jmap_head_t).limit = h.limit ∧
    ({ h with ref := x } : jmap_head_t).ref = x := ⟨rfl, rfl, rfl, rfl, rfl⟩

theorem del_frame_set_mapper (w : World) (p : Nat) (m : jxs_mapper)
    (hl : m.jmlist = (w.mappers p).jmlist) (hi : m.jmhead.idx = (w.mappers p).jmhead.idx)
    (hb : m.jmhead.isbuf = (w.mappers p).jmhead.isbuf)
    (hs : m.jmhead.start_addr = (w.mappers p).jmhead.start_addr) :
    DelFrame w (set_mapper w p m) := by
  refine ⟨fun r => ?_, fun r => ?_, fun r => ?_, fun r => ?_, rfl, rfl, rfl⟩
  · by_cases hr : r = p
    · rw [hr, set_mapper_same, hl]
    · rw [set_mapper_other _ _ _ _ hr]
  · by_cases hr : r = p
    · rw [hr, set_mapper_same, hi]
    · rw [set_mapper_other _ _ _ _ hr]
  · by_cases hr : r = p
    · rw [hr, set_mapper_same, hb]
    · rw [set_mapper_other _ _ _ _ hr]
  · by_cases hr : r = p
    · rw [hr, set_mapper_same, hs]
    · rw [set_mapper_other _ _ _ _ hr]

theorem del_frame_dec (w : World) (p : Nat) :
    DelFrame w (set_mapper w p
      { jmhead := { (w.mappers p).jmhead with
                    ref := ((w.mappers p).jmhead.ref + (PTR_MOD - 1)) % PTR_MOD },
        jmlist := (w.mappers p).jmlist }) := by
  apply del_frame_set_mapper
  · exact mapper_mk_jmlist _ _
  · rw [mapper_mk_jmhead]
  · rw [mapper_mk_jmhead]
  · rw [mapper_mk_jmhead]

theorem del_frame_free (w : World) (p : Nat) :
    DelFrame w { w with freed := w.freed ++ [p] } :=
  ⟨fun _ => rfl, fun _ => rfl, fun _ => rfl, fun _ => rfl, rfl, rfl, rfl⟩

/-- Teardown keeps the node lists, the memory, the visits and the context. -/
theorem map_delete_frame (fuel : Nat) (p : Option Nat) (w w' : World)
    (h : jxs_map_basic_delete fuel p w = some w') : DelFrame w w' :=
  map_delete_rel DelFrame del_frame_refl del_frame_trans del_frame_dec del_frame_free
    fuel p w w' h

theorem acyclic_of_del_frame {rank : Nat → Nat} {w w' : World}
    (h : Acyclic rank w.mappers) (hf : DelFrame w w') : Acyclic rank w'.mappers := by
  intro p i q hi hq
  rw [hf.idx p] at hi
  rw [hf.list p] at hq
  exact h p i q hi hq

theorem acyclic_of_shape_frame {rank : Nat → Nat} {w w' : World}
    (h : Acyclic rank w.mappers) (hf : ShapeFrame w w') : Acyclic rank w'.mappers := by
  intro p i q hi hq
  rw [hf.idx p] at hi
  rw [(same_shape_fields (hf.item p i)).2.2.2.1] at hq
  exact h p i q hi hq

theorem map_delete_loop_total {rank : Nat → Nat}
    {del : Option Nat → World → Option World}
    (hfr : ∀ q w w', del q w = some w' → DelFrame w w') (p : Nat)
    (hdel : ∀ q w, Acyclic rank w.mappers → (∀ x, q = some x → rank x < rank p) →
      ∃ w', del q w = some w') :
    ∀ (n i : Nat) (w : World), Acyclic rank w.mappers → i + n ≤ (w.mappers p).jmhead.idx →
      ∃ w', map_delete_loop del p n i w = some w' := by
  intro n
  induction n with
  | zero => intro i w _ _; exact ⟨w, rfl⟩
  | succ n ih =>
    intro i w hac hin
    simp only [map_delete_loop]
    split
    · obtain ⟨w1, hw1⟩ := hdel ((w.mappers p).jmlist i).subjm w hac
        (fun x hx => hac p i x (by omega) hx)
      rw [hw1]
      simp only []
      have hf := hfr _ _ _ hw1
      exact ih (i + 1) w1 (acyclic_of_del_frame hac hf) (by rw [hf.idx p]; omega)
    · exact ih (i + 1) w hac (by omega)

/-- Teardown returns on a store whose sub-tree references are well-founded: a
budget above the rank of the tree (plus one for the call on an absent sub-tree)
is enough. -/
theorem map_delete_total (rank : Nat → Nat) :
    ∀ (fuel : Nat) (p : Option Nat) (w : World), Acyclic rank w.mappers →
      (∀ x, p = some x → rank x + 1 < fuel) → 1 ≤ fuel →
      ∃ w', jxs_map_basic_delete fuel p w = some w' := by
  intro fuel
  induction fuel with
  | zero => intro p w _ _ h; omega
  | succ f ih =>
    intro p w hac hp _
    cases p with
    | none => exact ⟨w, rfl⟩
    | some p =>
      have hpf := hp p rfl
      simp only [jxs_map_basic_delete]
      split
      · obtain ⟨w1, hw1⟩ := @map_delete_loop_total rank (jxs_map_basic_delete f)
          (fun q w w' h => map_delete_frame f q w w' h) p
          (fun q w' hac' hq => ih q w' hac' (fun x hx => by have := hq x hx; omega) (by omega))
          (w.mappers p).jmhead.idx 0 w hac (by omega)
        rw [hw1]
        simp only []
        split <;> exact ⟨_, rfl⟩
      · exact ⟨_, rfl⟩

theorem from_json_object_shape (lib : JsonLib) (fuel p : Nat) (j : Json) (w : World)
    (r : Int × World) (h : jmap_from_json_object lib fuel p j w = some r) :
    ShapeFrame w r.2 := by
  unfold jmap_from_json_object jmap_from_json_object_with at h
  split at h
  · simp only [Option.some.injEq] at h
    rw [← h]; exact shape_frame_refl w
  · exact from_json_object_loop_rel ShapeFrame shape_frame_refl shape_frame_trans
      (fun _ _ _ => shape_frame_of_mappers_eq rfl) (de_wrapper_shape lib fuel) _ _ _ _ _ _ _ _ h

/-- Deserialization of a tree returns whenever the budget exceeds the size of
the document by two. -/
theorem from_json_object_total (lib : JsonLib) (fuel p : Nat) (doc : Json) (w : World)
    (hf : sizeOf doc + 2 ≤ fuel) :
    ∃ r, jmap_from_json_object lib fuel p doc w = some r := by
  unfold jmap_from_json_object jmap_from_json_object_with
  split
  · exact ⟨_, rfl⟩
  · refine from_json_object_loop_total _ _ _ doc (fun it k w' => ?_) _ 0 w
    refine de_wrapper_total lib fuel _ ?_ _ _ _ _
    cases hn : (json_object_object_get doc k).is_null with
    | true => exact Or.inl ⟨rfl, by omega⟩
    | false =>
      have := object_get_size doc k hn
      exact Or.inr (by omega)

theorem from_json_object_fails (lib : JsonLib) (p : Nat) (doc : Json) (w : World) (i : Nat)
    (hdoc : doc.is_null = false) (hi : i < (w.mappers p).jmhead.idx)
    (herr : ShapeErr w.mappers ((w.mappers p).jmlist i)
      (json_object_object_get doc ((w.mappers p).jmlist i).key))
    (fuel : Nat) (hf : sizeOf doc + 2 ≤ fuel) :
    ∃ w', jmap_from_json_object lib fuel p doc w = some (-1, w') := by
  obtain ⟨⟨ret, w'⟩, hr⟩ := from_json_object_total lib fuel p doc w hf
  have hS : ShapeStore w.mappers w := fun q => ⟨rfl, fun _ => rfl⟩
  have hne : ret ≠ 0 := by
    have h := hr
    simp only [jmap_from_json_object, jmap_from_json_object_with, hdoc, Bool.false_eq_true,
      if_false] at h
    refine from_json_object_loop_fails (de_wrapper_shape lib fuel) w.mappers p _ _ doc i
      (fun w' hS' r' hr' => ?_) _ 0 w (ret, w') hS (by omega) (by omega) h
    have hk := (same_shape_fields ((hS' p).2 i)).2.1
    rw [hk] at hr'
    exact shape_err_fails lib w.mappers _ _ herr fuel p _ 0 w' r' ((hS' p).2 i) hS' hr'
  rcases from_json_object_ret lib fuel p doc w ret w' hr with h0 | h1
  · exact absurd h0 hne
  · exact ⟨w', by rw [hr, h1]⟩

/-- The body of `jxs_struct_from_json_object` once the builder has returned a
tree that passes `check_ref_count`: the traversal, then teardown. -/
theorem struct_from_json_unfold (lib : JsonLib) (fuel : Nat) (f : jxs_descriptor)
    (stptr userdata : Nat) (doc : Json) (mem : Mem) (p : Nat)
    (hst : stptr ≠ 0) (hdoc : doc.is_null = false)
    (hp : (call_descriptor f (set_ctx_target (world_init mem) stptr userdata)).1 = some p)
    (hchk : traversal_check f stptr userdata mem p = 0) :
    jxs_struct_from_json_object lib fuel (some f) stptr userdata doc mem =
      match jmap_from_json_object lib fuel p doc (traversal_world f stptr userdata mem p) with
      | none => none
      | some (ret, w1) =>
        if ret ≠ 0 then (jxs_map_basic_delete fuel (some p) w1).map (fun w => ((-1 : Int), w))
        else (jxs_map_basic_delete fuel (some p) w1).map (fun w => ((0 : Int), w)) := by
  unfold traversal_check at hchk
  simp only [jxs_struct_from_json_object, hst, hdoc, Bool.false_eq_true, or_self, if_false, hp,
    hchk, ne_eq, not_true_eq_false, traversal_world]

/-- C12: a document value that is present, not null and not an array, given for
an array node, makes `jmap_from_json_array` return -1 with the world untouched
and `jmap_from_json_warpper` return -1 for the node; the failure propagates: a
tree one of whose nodes meets such a value on the walk (`ShapeErr`: at the node
itself, inside an element of its array at any dimension level, or inside a
field of its sub-structure) makes `jmap_from_json_object` return -1 from some
recursion budget on, and `jxs_struct_from_json_object` returns -1 after
teardown, which returns on a store whose sub-tree references are
well-founded. -/
theorem c12_non_array_value_fails (lib : JsonLib) :
    (∀ fuel hp e j w, j.is_null = false → j.is_array = false →
      jmap_from_json_array lib fuel hp e j w = some (-1, w)) ∧
    (∀ fuel hp (it : jmap_item_t) idx j w, it.type = jxs_type.array → j.is_null = false →
      j.is_array = false →
      ∃ w', jmap_from_json_warpper lib (fuel + 1) hp it idx j w = some (-1, w')) ∧
    (∀ p doc (w : World) i, doc.is_null = false → i < (w.mappers p).jmhead.idx →
      ShapeErr w.mappers ((w.mappers p).jmlist i)
        (json_object_object_get doc ((w.mappers p).jmlist i).key) →
      ∃ N, ∀ fuel, N ≤ fuel →
        ∃ w', jmap_from_json_object lib fuel p doc w = some (-1, w')) ∧
    (∀ f stptr userdata doc mem p i rank, stptr ≠ 0 → doc.is_null = false →
      (call_descriptor f (set_ctx_target (world_init mem) stptr userdata)).1 = some p →
      traversal_check f stptr userdata mem p = 0 →
      i < ((traversal_world f stptr userdata mem p).mappers p).jmhead.idx →
      ShapeErr (traversal_world f stptr userdata mem p).mappers
        (((traversal_world f stptr userdata mem p).mappers p).jmlist i)
        (json_object_object_get doc
          (((traversal_world f stptr userdata mem p).mappers p).jmlist i).key) →
      Acyclic rank (traversal_world f stptr userdata mem p).mappers →
      ∃ N, ∀ fuel, N ≤ fuel →
        ∃ w', jxs_struct_from_json_object lib fuel (some f) stptr userdata doc mem
          = some (-1, w')) := by
  refine ⟨?_, ?_, ?_, ?_⟩
  · intro fuel hp e j w hn ha
    exact from_json_array_not_array _ hp e j w hn ha
  · intro fuel hp it idx j w hty hn ha
    simp only [jmap_from_json_warpper]
    split
    · exact ⟨_, rfl⟩
    · simp only [from_json_by_type, hty, hn, Bool.false_eq_true, if_false,
        from_json_array_not_array _ _ _ j _ hn ha]
      exact ⟨_, rfl⟩
  · intro p doc w i hdoc hi herr
    exact ⟨sizeOf doc + 2, fun fuel hf =>
      from_json_object_fails lib p doc w i hdoc hi herr fuel hf⟩
  · intro f stptr userdata doc mem p i rank hst hdoc hp hchk hi herr hac
    refine ⟨sizeOf doc + 2 + (rank p + 2), fun fuel hf => ?_⟩
    have hf1 : sizeOf doc + 2 ≤ fuel := by omega
    have hf2 : rank p + 2 ≤ fuel := by omega
    obtain ⟨w1, hw1⟩ := from_json_object_fails lib p doc _ i hdoc hi herr fuel hf1
    have hsh := from_json_object_shape lib fuel p doc _ _ hw1
    obtain ⟨w2, hw2⟩ := map_delete_total rank fuel (some p) w1
      (acyclic_of_shape_frame hac hsh)
      (fun x hx => by cases hx; omega) (by omega)
    refine ⟨w2, ?_⟩
    rw [struct_from_json_unfold lib fuel f stptr userdata doc mem p hst hdoc hp hchk, hw1]
    simp only [ne_eq, show ¬ ((-1 : Int) = 0) by decide, not_false_eq_true, if_true, hw2,
      Option.map_some']

/-- Witness for C12: the `int32_t m[3][2]` field of `bld_mat` and the document
`{"m": [[1, 2], [3, 4], 7]}`, whose third row is a number: the walk stores the
first two rows, reaches the shape error at the second dimension level and
fails, and `jxs_struct_from_json_object` returns -1. -/
theorem c12_non_array_value_fails_witness :
    (∃ N, ∀ fuel, N ≤ fuel →
      ∃ w', jmap_from_json_object lib0 fuel 0 doc_mat_bad world_mat = some (-1, w')) ∧
    (jxs_struct_from_json_object lib0 4 (some bld_mat) 100 0 doc_mat_bad mem_mat).map
      (fun r => (r.1, r.2.visits.map (fun v => v.vptr)))
      = some (-1, [100, 100, 100, 104, 108, 108, 112, 116]) :=
  ⟨(c12_non_array_value_fails lib0).2.2.1 0 doc_mat_bad world_mat 0 rfl (by decide)
      (ShapeErr.elem _ _ 2 (by decide) (by decide) (ShapeErr.here _ _ (by decide) rfl rfl)),
    by decide⟩


/-- Claim C26: for a parent node with current depth below its depth and a
non-zero outer dimension, `jmap_array_move_next_dimen` at index `idx` gives the
node whose locator is the parent's plus `size * idx` (pointer arithmetic, modulo
`2^64`), whose size is the parent's size divided by the outer dimension, whose
length is the outer dimension, whose dimension list is the parent's shifted
left by one (zero-filled at the end), whose current depth is one more, whose
type is the base type when one dimension remained and the array kind otherwise,
and whose key, sub-tree, base type, depth and rule are the parent's. -/
theorem c26_next_dimen_fields (it : jmap_item_t) (idx : Nat)
    (hdep : it.arr.cur_depth < it.arr.depth) (hd0 : it.arr.deptab.getD 0 0 ≠ 0) :
    (jmap_array_move_next_dimen it idx).offset = (it.offset + it.size * idx) % PTR_MOD ∧
    (jmap_array_move_next_dimen it idx).size = it.size / it.arr.deptab.getD 0 0 ∧
    (jmap_array_move_next_dimen it idx).arr.length = it.arr.deptab.getD 0 0 ∧
    (jmap_array_move_next_dimen it idx).arr.deptab = it.arr.deptab.tail ++ [0] ∧
    (∀ k, k + 1 < it.arr.deptab.length →
      (jmap_array_move_next_dimen it idx).arr.deptab.getD k 0 = it.arr.deptab.getD (k + 1) 0) ∧
    (jmap_array_move_next_dimen it idx).arr.cur_depth = it.arr.cur_depth + 1 ∧
    (jmap_array_move_next_dimen it idx).arr.depth = it.arr.depth ∧
    (jmap_array_move_next_dimen it idx).type =
      (if it.arr.depth - it.arr.cur_depth = 1 then it.basetype else jxs_type.array) ∧
    (jmap_array_move_next_dimen it idx).key = it.key ∧
    (jmap_array_move_next_dimen it idx).subjm = it.subjm ∧
    (jmap_array_move_next_dimen it idx).basetype = it.basetype ∧
    (jmap_array_move_next_dimen it idx).rule = it.rule := by
  have hc : ¬ (it.arr.cur_depth ≥ it.arr.depth ∨ it.arr.deptab.getD 0 0 = 0) := by
    intro h
    rcases h with h | h
    · omega
    · exact hd0 h
  unfold jmap_array_move_next_dimen
  rw [if_neg hc]
  refine ⟨rfl, rfl, rfl, rfl, ?_, rfl, rfl, rfl, rfl, rfl, rfl, rfl⟩
  intro k hk
  show (it.arr.deptab.tail ++ [0]).getD k 0 = it.arr.deptab.getD (k + 1) 0
  cases hl : it.arr.deptab with
  | nil => rw [hl] at hk; simp at hk
  | cons a l =>
    rw [hl] at hk
    simp only [List.length_cons, Nat.add_lt_add_iff_right] at hk
    simp only [List.tail_cons, List.getD_cons_succ]
    rw [List.getD_append _ _ _ _ hk]

/-- Witness of `c26_next_dimen_fields`: the node of `int32 m[3][2]` at index 1. -/
theorem c26_next_dimen_fields_witness :
    (jmap_array_move_next_dimen (world_mat.mappers 0 |>.jmlist 0) 1).offset = 24 % PTR_MOD ∧
    (jmap_array_move_next_dimen (world_mat.mappers 0 |>.jmlist 0) 1).size = 8 ∧
    (jmap_array_move_next_dimen (world_mat.mappers 0 |>.jmlist 0) 1).arr.length = 3 := by
  have h := c26_next_dimen_fields ((world_mat.mappers 0).jmlist 0) 1 (by decide) (by decide)
  exact ⟨h.1, h.2.1, h.2.2.1⟩



/-- Claim C27 as stated fails: the node derived from a field of 10 bytes with
outer dimension 3 has size 3 and length 3, whose product is 9. -/
theorem c27_counterexample_remainder :
    ¬ (∀ (it : jmap_item_t) (idx : Nat), it.arr.deptab.getD 0 0 ≠ 0 →
        (jmap_array_move_next_dimen it idx).size *
          (jmap_array_move_next_dimen it idx).arr.length = it.size) := by
  intro h
  exact absurd (h item_arr_odd 0 (by decide)) (by decide)

/-- Claim C27, amended: for a parent with current depth below its depth and a
non-zero outer dimension, derived size times derived length is the parent's
size less its remainder by the outer dimension; it equals the parent's size
exactly when the outer dimension divides the parent's size. -/
theorem c27_size_times_length (it : jmap_item_t) (idx : Nat)
    (hdep : it.arr.cur_depth < it.arr.depth) (hd0 : it.arr.deptab.getD 0 0 ≠ 0) :
    (jmap_array_move_next_dimen it idx).size * (jmap_array_move_next_dimen it idx).arr.length
      = it.size - it.size % it.arr.deptab.getD 0 0 ∧
    ((jmap_array_move_next_dimen it idx).size * (jmap_array_move_next_dimen it idx).arr.length
      = it.size ↔ it.arr.deptab.getD 0 0 ∣ it.size) := by
  have hc : ¬ (it.arr.cur_depth ≥ it.arr.depth ∨ it.arr.deptab.getD 0 0 = 0) := by
    intro h
    rcases h with h | h
    · omega
    · exact hd0 h
  have hs : (jmap_array_move_next_dimen it idx).size = it.size / it.arr.deptab.getD 0 0 := by
    unfold jmap_array_move_next_dimen
    rw [if_neg hc]
  have hl : (jmap_array_move_next_dimen it idx).arr.length = it.arr.deptab.getD 0 0 := by
    unfold jmap_array_move_next_dimen
    rw [if_neg hc]
  rw [hs, hl]
  have hdm := Nat.div_add_mod it.size (it.arr.deptab.getD 0 0)
  have hcomm : it.size / it.arr.deptab.getD 0 0 * it.arr.deptab.getD 0 0
      = it.arr.deptab.getD 0 0 * (it.size / it.arr.deptab.getD 0 0) := Nat.mul_comm _ _
  refine ⟨by omega, ?_, ?_⟩
  · intro h
    exact ⟨it.size / it.arr.deptab.getD 0 0, by omega⟩
  · intro h
    exact Nat.div_mul_cancel h

/-- Witness of `c27_size_times_length`: the first slice of `int32 m[3][2]` (24
bytes) has size 8 and length 3. -/
theorem c27_size_times_length_witness :
    ((world_mat.mappers 0).jmlist 0).arr.cur_depth < ((world_mat.mappers 0).jmlist 0).arr.depth ∧
    (jmap_array_move_next_dimen ((world_mat.mappers 0).jmlist 0) 1).size *
      (jmap_array_move_next_dimen ((world_mat.mappers 0).jmlist 0) 1).arr.length = 24 :=
  ⟨by decide,
   (c27_size_times_length ((world_mat.mappers 0).jmlist 0) 1 (by decide) (by decide)).1⟩



/-! ## Claim C29: offsets are restored by a successful traversal -/

theorem offs_kept_refl (w : World) : OffsKept w w := ⟨fun _ => rfl, fun _ => rfl⟩

theorem offs_kept_trans {a b c : World} (h1 : OffsKept a b) (h2 : OffsKept b c) :
    OffsKept a c :=
  ⟨fun r => (h2.list r).trans (h1.list r), fun r => (h2.idx r).trans (h1.idx r)⟩

theorem offs_kept_of_mappers_eq {w w' : World} (h : w'.mappers = w.mappers) : OffsKept w w' :=
  ⟨fun r => by rw [h], fun r => by rw [h]⟩

theorem offs_ok_of_kept {w w' : World} (h : OffsOK w.mappers) (hk : OffsKept w w') :
    OffsOK w'.mappers := by
  intro p i hi
  rw [hk.idx] at hi
  rw [hk.list]
  exact h p i hi

/-- Rebasing a sub-tree, walking it with a traversal that keeps the node lists
and moving it back restores every node list. -/
theorem rebase_kept {w1 w4 : World} {q a s i : Nat} (hoff : OffsOK w1.mappers)
    (hf : OffsKept (jmap_struct_move_forward (set_start_addr w1 q a) q s i) w4) :
    OffsKept w1 (jmap_struct_move_backward w4 q s i) := by
  refine ⟨fun r => ?_, fun r => ?_⟩
  · rw [move_backward_jmlist]
    by_cases hrq : r = q
    · subst hrq
      simp only [if_true]
      rw [hf.list r, hf.idx r, move_forward_jmlist, move_forward_head, set_start_addr_idx]
      simp only [if_true, set_start_addr_idx, set_start_addr_jmlist]
      funext k
      simp only [map_first]
      by_cases hk : k < (w1.mappers r).jmhead.idx
      · simp only [hk, if_true, set_offset]
        rw [offset_restore _ _ (hoff r k hk)]
      · simp only [hk, if_false]
    · simp only [hrq, if_false]
      rw [hf.list r, move_forward_jmlist]
      simp only [hrq, if_false, set_start_addr_jmlist]
  · rw [move_backward_head, hf.idx r, move_forward_head, set_start_addr_idx]

theorem to_json_array_loop_kept
    {wr : Nat → jmap_item_t → Nat → World → Option (Int × Json × World)}
    (hwr : SerKeeps wr) (hp : Nat) (it : jmap_item_t) (loc fz : Option (List Char)) :
    ∀ (n i : Nat) (arr : Json) (w : World) (r : Int × Json × World),
      OffsOK w.mappers → to_json_array_loop wr hp it loc fz n i arr w = some r →
      r.1 ≠ -1 → OffsKept w r.2.2 := by
  intro n
  induction n with
  | zero =>
    intro i arr w r _ h _
    simp only [to_json_array_loop, Option.some.injEq] at h
    rw [← h]
    exact offs_kept_refl w
  | succ n ih =>
    intro i arr w r hoff h hne
    simp only [to_json_array_loop] at h
    split at h
    · cases h
    · rename_i r1 ij w2 hw
      have hk := hwr _ _ _ _ _ (by simpa using hoff) hw
      simp only [] at hk
      by_cases hr1 : r1 = -1
      · simp only [hr1, if_true, Option.some.injEq] at h
        rw [← h] at hne
        exact absurd rfl hne
      · have hk1 : OffsKept w w2 := ⟨(hk hr1).list, (hk hr1).idx⟩
        simp only [hr1, if_false] at h
        split at h
        · exact offs_kept_trans hk1 (ih _ _ _ _ (offs_ok_of_kept hoff hk1) h hne)
        · exact offs_kept_trans hk1 (ih _ _ _ _ (offs_ok_of_kept hoff hk1) h hne)

theorem to_json_object_loop_kept
    {wr : Nat → jmap_item_t → Nat → World → Option (Int × Json × World)}
    (hwr : SerKeeps wr) (p : Nat) (loc fz : Option (List Char)) :
    ∀ (n i : Nat) (jso : Json) (w : World) (r : Int × Json × World),
      OffsOK w.mappers → to_json_object_loop wr p loc fz n i jso w = some r →
      r.1 ≠ -1 → OffsKept w r.2.2 := by
  intro n
  induction n with
  | zero =>
    intro i jso w r _ h _
    simp only [to_json_object_loop, Option.some.injEq] at h
    rw [← h]
    exact offs_kept_refl w
  | succ n ih =>
    intro i jso w r hoff h hne
    simp only [to_json_object_loop] at h
    split at h
    · cases h
    · rename_i r1 ij w2 hw
      have hk := hwr _ _ _ _ _ (by simpa using hoff) hw
      simp only [] at hk
      by_cases hr1 : r1 = -1
      · simp only [hr1, if_true, Option.some.injEq] at h
        rw [← h] at hne
        exact absurd rfl hne
      · have hk1 : OffsKept w w2 := ⟨(hk hr1).list, (hk hr1).idx⟩
        simp only [hr1, if_false] at h
        split at h
        · exact offs_kept_trans hk1 (ih _ _ _ _ (offs_ok_of_kept hoff hk1) h hne)
        · exact offs_kept_trans hk1 (ih _ _ _ _ (offs_ok_of_kept hoff hk1) h hne)

theorem to_json_object_with_kept
    {wr : Nat → jmap_item_t → Nat → World → Option (Int × Json × World)}
    (hwr : SerKeeps wr) (p : Nat) (jso : Json) (w : World) (r : Int × Json × World)
    (hoff : OffsOK w.mappers) (h : jmap_to_json_object_with wr p jso w = some r)
    (hne : r.1 ≠ -1) : OffsKept w r.2.2 := by
  unfold jmap_to_json_object_with at h
  split at h
  · simp only [Option.some.injEq] at h
    rw [← h]; exact offs_kept_refl w
  · split at h
    · simp only [Option.some.injEq] at h
      rw [← h]; exact offs_kept_refl w
    · exact to_json_object_loop_kept hwr p _ _ _ _ _ _ _ hoff h hne

theorem to_json_array_with_kept
    {wr : Nat → jmap_item_t → Nat → World → Option (Int × Json × World)}
    (hwr : SerKeeps wr) (hp : Nat) (it : jmap_item_t) (arr : Json) (w : World)
    (r : Int × Json × World)
    (hoff : OffsOK w.mappers) (h : jmap_to_json_array_with wr hp it arr w = some r)
    (hne : r.1 ≠ -1) : OffsKept w r.2.2 := by
  unfold jmap_to_json_array_with at h
  split at h
  · simp only [Option.some.injEq] at h
    rw [← h]; exact offs_kept_refl w
  · split at h
    · simp only [Option.some.injEq] at h
      rw [← h]; exact offs_kept_refl w
    · exact to_json_array_loop_kept hwr hp it _ _ _ _ _ _ _ hoff h hne

theorem to_json_by_type_kept (lib : JsonLib)
    {wr : Nat → jmap_item_t → Nat → World → Option (Int × Json × World)}
    (hwr : SerKeeps wr) (hp : Nat) (it : jmap_item_t) (idx vptr : Nat) (w : World)
    (r : Int × Json × World) (hoff : OffsOK w.mappers)
    (h : to_json_by_type lib wr hp it idx vptr w = some r) (hne : r.1 ≠ -1) :
    OffsKept w r.2.2 := by
  unfold to_json_by_type at h
  split at h
  · split at h
    · simp only [Option.some.injEq] at h
      rw [← h]; exact offs_kept_refl w
    · simp only [] at h
      split at h
      · cases h
      · rename_i r1 jso w4 hw
        by_cases hr1 : r1 = -1
        · simp only [hr1, if_true, Option.some.injEq] at h
          rw [← h] at hne
          exact absurd rfl hne
        · simp only [hr1, if_false, Option.some.injEq] at h
          rw [← h]
          exact rebase_kept hoff
            (to_json_object_with_kept hwr _ _ _ _ (offs_ok_rebase hoff _ _ _ _) hw hr1)
  · split at h
    · cases h
    · rename_i r1 jso w4 hw
      by_cases hr1 : r1 = -1
      · simp only [hr1, if_true, Option.some.injEq] at h
        rw [← h] at hne
        exact absurd rfl hne
      · simp only [hr1, if_false, Option.some.injEq] at h
        rw [← h]
        exact to_json_array_with_kept hwr _ _ _ _ _ hoff hw hr1
  · split at h <;>
    · simp only [Option.some.injEq] at h
      rw [← h]; exact offs_kept_refl w

theorem ser_wrapper_kept (lib : JsonLib) : ∀ fuel, SerKeeps (jmap_to_json_warpper lib fuel) := by
  intro fuel
  induction fuel with
  | zero =>
    intro hp it idx w r _ h _
    simp [jmap_to_json_warpper] at h
  | succ fuel ih =>
    intro hp it idx w r hoff h hne
    simp only [jmap_to_json_warpper] at h
    split at h
    · simp only [Option.some.injEq] at h
      rw [← h]; exact offs_kept_refl w
    · have hmp := handler_mappers (record_visit w (node_addr w hp it idx) it) it
        (node_addr w hp it idx)
      simp only [record_visit_mappers] at hmp
      split at h
      · simp only [Option.some.injEq] at h
        rw [← h]; exact offs_kept_of_mappers_eq hmp
      · simp only [Option.some.injEq] at h
        rw [← h]; exact offs_kept_of_mappers_eq hmp
      · exact offs_kept_trans (offs_kept_of_mappers_eq hmp)
          (to_json_by_type_kept lib ih _ _ _ _ _ _ (by rw [hmp]; exact hoff) h hne)

theorem from_json_array_loop_kept
    {wr : Nat → jmap_item_t → Nat → Json → World → Option (Int × World)}
    (hwr : DeKeeps wr) (hp : Nat) (it : jmap_item_t) (loc fz : Option (List Char))
    (arr : Json) :
    ∀ (n i : Nat) (w : World) (r : Int × World),
      OffsOK w.mappers → from_json_array_loop wr hp it loc fz arr n i w = some r →
      r.1 = 0 → OffsKept w r.2 := by
  intro n
  induction n with
  | zero =>
    intro i w r _ h _
    simp only [from_json_array_loop, Option.some.injEq] at h
    rw [← h]
    exact offs_kept_refl w
  | succ n ih =>
    intro i w r hoff h hz
    simp only [from_json_array_loop] at h
    split at h
    · cases h
    · rename_i r1 w2 hw
      have hk := hwr _ _ _ _ _ _ (by simpa using hoff) hw
      simp only [] at hk
      by_cases hr1 : r1 = 0
      · have hk1 : OffsKept w w2 := ⟨(hk hr1).list, (hk hr1).idx⟩
        simp only [hr1, ne_eq, not_true_eq_false, if_false] at h
        exact offs_kept_trans hk1 (ih _ _ _ (offs_ok_of_kept hoff hk1) h hz)
      · simp only [ne_eq, hr1, not_false_eq_true, if_true, Option.some.injEq] at h
        rw [← h] at hz
        exact absurd hz int_neg_one_ne

theorem from_json_object_loop_kept
    {wr : Nat → jmap_item_t → Nat → Json → World → Option (Int × World)}
    (hwr : DeKeeps wr) (p : Nat) (loc fz : Option (List Char)) (jso : Json) :
    ∀ (n i : Nat) (w : World) (r : Int × World),
      OffsOK w.mappers → from_json_object_loop wr p loc fz jso n i w = some r →
      r.1 = 0 → OffsKept w r.2 := by
  intro n
  induction n with
  | zero =>
    intro i w r _ h _
    simp only [from_json_object_loop, Option.some.injEq] at h
    rw [← h]
    exact offs_kept_refl w
  | succ n ih =>
    intro i w r hoff h hz
    simp only [from_json_object_loop] at h
    split at h
    · cases h
    · rename_i r1 w2 hw
      have hk := hwr _ _ _ _ _ _ (by simpa using hoff) hw
      simp only [] at hk
      by_cases hr1 : r1 = 0
      · have hk1 : OffsKept w w2 := ⟨(hk hr1).list, (hk hr1).idx⟩
        simp only [hr1, ne_eq, not_true_eq_false, if_false] at h
        exact offs_kept_trans hk1 (ih _ _ _ (offs_ok_of_kept hoff hk1) h hz)
      · simp only [ne_eq, hr1, not_false_eq_true, if_true, Option.some.injEq] at h
        rw [← h] at hz
        exact absurd hz int_neg_one_ne

theorem from_json_object_with_kept
    {wr : Nat → jmap_item_t → Nat → Json → World → Option (Int × World)}
    (hwr : DeKeeps wr) (p : Nat) (jso : Json) (w : World) (r : Int × World)
    (hoff : OffsOK w.mappers) (h : jmap_from_json_object_with wr p jso w = some r)
    (hz : r.1 = 0) : OffsKept w r.2 := by
  unfold jmap_from_json_object_with at h
  split at h
  · simp only [Option.some.injEq] at h
    rw [← h]; exact offs_kept_refl w
  · exact from_json_object_loop_kept hwr p _ _ _ _ _ _ _ hoff h hz

theorem from_json_array_with_kept
    {wr : Nat → jmap_item_t → Nat → Json → World → Option (Int × World)}
    (hwr : DeKeeps wr) (hp : Nat) (it : jmap_item_t) (arr : Json) (w : World)
    (r : Int × World)
    (hoff : OffsOK w.mappers) (h : jmap_from_json_array_with wr hp it arr w = some r)
    (hz : r.1 = 0) : OffsKept w r.2 := by
  unfold jmap_from_json_array_with at h
  split at h
  · simp only [Option.some.injEq] at h
    rw [← h]; exact offs_kept_refl w
  · split at h
    · simp only [Option.some.injEq] at h
      rw [← h]; exact offs_kept_refl w
    · split at h
      · simp only [Option.some.injEq] at h
        rw [← h]; exact offs_kept_refl w
      · exact from_json_array_loop_kept hwr hp it _ _ _ _ _ _ _ hoff h hz

theorem from_json_by_type_kept (lib : JsonLib)
    {wr : Nat → jmap_item_t → Nat → Json → World → Option (Int × World)}
    (hwr : DeKeeps wr) (hp : Nat) (it : jmap_item_t) (idx vptr : Nat) (j : Json) (w : World)
    (r : Int × World) (hoff : OffsOK w.mappers)
    (h : from_json_by_type lib wr hp it idx vptr j w = some r) (hz : r.1 = 0) :
    OffsKept w r.2 := by
  unfold from_json_by_type at h
  split at h
  · split at h
    · simp only [Option.some.injEq] at h
      rw [← h]; exact offs_kept_refl w
    · split at h
      · simp only [Option.some.injEq] at h
        rw [← h]; exact offs_kept_of_mappers_eq rfl
      · simp only [] at h
        split at h
        · cases h
        · rename_i r1 w4 hw
          by_cases hr1 : r1 = 0
          · simp only [hr1, ne_eq, not_true_eq_false, if_false, Option.some.injEq] at h
            rw [← h]
            exact rebase_kept hoff
              (from_json_object_with_kept hwr _ _ _ (r1, w4) (offs_ok_rebase hoff _ _ _ _) hw hr1)
          · simp only [ne_eq, hr1, not_false_eq_true, if_true, Option.some.injEq] at h
            rw [← h] at hz
            exact absurd hz int_neg_one_ne
  · split at h
    · simp only [Option.some.injEq] at h
      rw [← h]; exact offs_kept_of_mappers_eq rfl
    · split at h
      · cases h
      · rename_i r1 w4 hw
        by_cases hr1 : r1 = 0
        · simp only [hr1, ne_eq, not_true_eq_false, if_false, Option.some.injEq] at h
          rw [← h]
          exact from_json_array_with_kept hwr _ _ _ _ (r1, w4) hoff hw hr1
        · simp only [ne_eq, hr1, not_false_eq_true, if_true, Option.some.injEq] at h
          rw [← h] at hz
          exact absurd hz int_neg_one_ne
  · split at h
    · simp only [Option.some.injEq] at h
      rw [← h]; exact offs_kept_of_mappers_eq rfl
    · simp only [Option.some.injEq] at h
      rw [← h]; exact offs_kept_refl w

theorem de_wrapper_kept (lib : JsonLib) : ∀ fuel, DeKeeps (jmap_from_json_warpper lib fuel) := by
  intro fuel
  induction fuel with
  | zero =>
    intro hp it idx j w r _ h _
    simp [jmap_from_json_warpper] at h
  | succ fuel ih =>
    intro hp it idx j w r hoff h hz
    simp only [jmap_from_json_warpper] at h
    split at h
    · simp only [Option.some.injEq] at h
      rw [← h]; exact offs_kept_refl w
    · have h0 : OffsKept w (record_visit w (node_addr w hp it idx) it) :=
        offs_kept_of_mappers_eq rfl
      exact offs_kept_trans h0
        (from_json_by_type_kept lib ih _ _ _ _ _ (record_visit w (node_addr w hp it idx) it) _
          (by simpa using hoff) h hz)

/-- Claim C29: when `jmap_to_json_object` or `jmap_from_json_object` returns 0
on a store whose offsets are 64-bit patterns, every node (so every offset) and
the node count of every tree, the root as well as each sub-tree, is what it was
before the call; no acyclicity is needed.  The step behind it: moving a tree
forward and then backward by the same `size * idx` restores each offset,
modulo `2^64`. -/
theorem c29_offsets_restored (lib : JsonLib) :
    (∀ fuel p jso (w : World) r, OffsOK w.mappers →
      jmap_to_json_object lib fuel p jso w = some r → r.1 = 0 →
      ∀ q, (r.2.2.mappers q).jmhead.idx = (w.mappers q).jmhead.idx ∧
        ∀ i, (r.2.2.mappers q).jmlist i = (w.mappers q).jmlist i) ∧
    (∀ fuel p jso (w : World) r, OffsOK w.mappers →
      jmap_from_json_object lib fuel p jso w = some r → r.1 = 0 →
      ∀ q, (r.2.mappers q).jmhead.idx = (w.mappers q).jmhead.idx ∧
        ∀ i, (r.2.mappers q).jmlist i = (w.mappers q).jmlist i) ∧
    (∀ (w : World) q s i k, OffsOK w.mappers → k < (w.mappers q).jmhead.idx →
      (((jmap_struct_move_backward (jmap_struct_move_forward w q s i) q s i).mappers q).jmlist
        k).offset = ((w.mappers q).jmlist k).offset ∧
      (((jmap_struct_move_forward w q s i).mappers q).jmlist k).offset
        = (((w.mappers q).jmlist k).offset + s * i) % PTR_MOD) := by
  refine ⟨?_, ?_, ?_⟩
  · intro fuel p jso w r hoff h hz q
    have hk := to_json_object_with_kept (ser_wrapper_kept lib fuel) p jso w r hoff h
      (by rw [hz]; decide)
    exact ⟨hk.idx q, fun i => by rw [hk.list q]⟩
  · intro fuel p jso w r hoff h hz q
    have hk := from_json_object_with_kept (de_wrapper_kept lib fuel) p jso w r hoff h hz
    exact ⟨hk.idx q, fun i => by rw [hk.list q]⟩
  · intro w q s i k hoff hk
    constructor
    · rw [move_backward_jmlist, move_forward_jmlist, move_forward_head]
      simp only [if_true, map_first, hk, set_offset]
      exact offset_restore _ _ (hoff q k hk)
    · rw [move_forward_jmlist]
      simp only [if_true, map_first, hk, set_offset]

/-- Witness of `c29_offsets_restored`: the tree of `bld_rec` (with an array of
two sub-structures) is serialized, and the document is read back into zeroed
memory; both calls return 0 and leave every node as it was. -/
theorem c29_offsets_restored_witness :
    OffsOK world_rec.mappers ∧
    ∃ r r', jmap_to_json_object lib0 3 0 (.object []) world_rec = some r ∧ r.1 = 0 ∧
      jmap_from_json_object lib0 3 0 r.2.1 (set_mem world_rec mem_zero) = some r' ∧ r'.1 = 0 ∧
      (∀ q, (r.2.2.mappers q).jmhead.idx = (world_rec.mappers q).jmhead.idx ∧
        ∀ i, (r.2.2.mappers q).jmlist i = (world_rec.mappers q).jmlist i) ∧
      (∀ q, (r'.2.mappers q).jmhead.idx = (world_rec.mappers q).jmhead.idx ∧
        ∀ i, (r'.2.mappers q).jmlist i = (world_rec.mappers q).jmlist i) := by
  have he : (jmap_to_json_object lib0 3 0 (.object []) world_rec).map (fun r => r.1)
      = some 0 := by decide
  have he2 : ((jmap_to_json_object lib0 3 0 (.object []) world_rec).bind
      (fun r => jmap_from_json_object lib0 3 0 r.2.1 (set_mem world_rec mem_zero))).map
      (fun r => r.1) = some 0 := by decide
  cases hr : jmap_to_json_object lib0 3 0 (.object []) world_rec with
  | none => rw [hr] at he; cases he
  | some r =>
    rw [hr] at he he2
    simp only [Option.map_some', Option.some.injEq, Option.some_bind] at he he2
    cases hr2 : jmap_from_json_object lib0 3 0 r.2.1 (set_mem world_rec mem_zero) with
    | none => rw [hr2] at he2; cases he2
    | some r' =>
      rw [hr2] at he2
      simp only [Option.map_some', Option.some.injEq] at he2
      exact ⟨world_rec_offs, r, r', rfl, he, hr2, he2,
        (c29_offsets_restored lib0).1 3 0 _ world_rec r world_rec_offs hr he,
        (c29_offsets_restored lib0).2.1 3 0 _ (set_mem world_rec mem_zero) r' world_rec_offs
          hr2 he2⟩



/-! ## An induction principle of the serialization walk -/

theorem to_json_array_loop_rel (R : World → World → Prop)
    (hrefl : ∀ w, R w w) (htrans : ∀ a b c, R a b → R b c → R a c)
    (hnow : ∀ w a b, R w (set_now w a b))
    {wr : Nat → jmap_item_t → Nat → World → Option (Int × Json × World)}
    (hwr : ∀ hp it idx w r, wr hp it idx w = some r → R w r.2.2)
    (hp : Nat) (it : jmap_item_t) (loc fz : Option (List Char)) :
    ∀ (n i : Nat) (arr : Json) (w : World) (r : Int × Json × World),
      to_json_array_loop wr hp it loc fz n i arr w = some r → R w r.2.2 := by
  intro n
  induction n with
  | zero =>
    intro i arr w r h
    simp only [to_json_array_loop, Option.some.injEq] at h
    rw [← h]
    exact hrefl w
  | succ n ih =>
    intro i arr w r h
    simp only [to_json_array_loop] at h
    split at h
    · cases h
    · rename_i r1 ij w2 hw
      have h1 : R w w2 := htrans _ _ _ (hnow w _ _) (hwr _ _ _ _ _ hw)
      split at h
      · simp only [Option.some.injEq] at h
        rw [← h]
        exact h1
      · split at h
        · exact htrans _ _ _ h1 (ih _ _ _ _ h)
        · exact htrans _ _ _ h1 (ih _ _ _ _ h)

theorem to_json_object_loop_rel (R : World → World → Prop)
    (hrefl : ∀ w, R w w) (htrans : ∀ a b c, R a b → R b c → R a c)
    (hnow : ∀ w a b, R w (set_now w a b))
    {wr : Nat → jmap_item_t → Nat → World → Option (Int × Json × World)}
    (hwr : ∀ hp it idx w r, wr hp it idx w = some r → R w r.2.2)
    (p : Nat) (loc fz : Option (List Char)) :
    ∀ (n i : Nat) (jso : Json) (w : World) (r : Int × Json × World),
      to_json_object_loop wr p loc fz n i jso w = some r → R w r.2.2 := by
  intro n
  induction n with
  | zero =>
    intro i jso w r h
    simp only [to_json_object_loop, Option.some.injEq] at h
    rw [← h]
    exact hrefl w
  | succ n ih =>
    intro i jso w r h
    simp only [to_json_object_loop] at h
    split at h
    · cases h
    · rename_i r1 ij w2 hw
      have h1 : R w w2 := htrans _ _ _ (hnow w _ _) (hwr _ _ _ _ _ hw)
      split at h
      · simp only [Option.some.injEq] at h
        rw [← h]
        exact h1
      · split at h
        · exact htrans _ _ _ h1 (ih _ _ _ _ h)
        · exact htrans _ _ _ h1 (ih _ _ _ _ h)

theorem to_json_by_type_rel (lib : JsonLib) (R : World → World → Prop)
    (hrefl : ∀ w, R w w) (htrans : ∀ a b c, R a b → R b c → R a c)
    (hnow : ∀ w a b, R w (set_now w a b))
    (hfwd : ∀ w q a s i, R w (jmap_struct_move_forward (set_start_addr w q a) q s i))
    (hbwd : ∀ w q s i, R w (jmap_struct_move_backward w q s i))
    {wr : Nat → jmap_item_t → Nat → World → Option (Int × Json × World)}
    (hwr : ∀ hp it idx w r, wr hp it idx w = some r → R w r.2.2)
    (hp : Nat) (it : jmap_item_t) (idx vptr : Nat) (w : World) (r : Int × Json × World)
    (h : to_json_by_type lib wr hp it idx vptr w = some r) : R w r.2.2 := by
  unfold to_json_by_type at h
  split at h
  · split at h
    · simp only [Option.some.injEq] at h
      rw [← h]; exact hrefl w
    · simp only [] at h
      split at h
      · cases h
      · rename_i r1 jso w4 hw
        have h1 : R w w4 := by
          unfold jmap_to_json_object_with at hw
          split at hw
          · simp only [Option.some.injEq, Prod.mk.injEq] at hw
            rw [← hw.2.2]; exact hfwd w _ _ _ _
          · split at hw
            · simp only [Option.some.injEq, Prod.mk.injEq] at hw
              rw [← hw.2.2]; exact hfwd w _ _ _ _
            · exact htrans _ _ _ (hfwd w _ _ _ _)
                (to_json_object_loop_rel R hrefl htrans hnow hwr _ _ _ _ _ _ _ _ hw)
        split at h
        · simp only [Option.some.injEq] at h
          rw [← h]; exact h1
        · simp only [Option.some.injEq] at h
          rw [← h]; exact htrans _ _ _ h1 (hbwd w4 _ _ _)
  · split at h
    · cases h
    · rename_i r1 jso w4 hw
      have h1 : R w w4 := by
        unfold jmap_to_json_array_with at hw
        split at hw
        · simp only [Option.some.injEq, Prod.mk.injEq] at hw
          rw [← hw.2.2]; exact hrefl w
        · split at hw
          · simp only [Option.some.injEq, Prod.mk.injEq] at hw
            rw [← hw.2.2]; exact hrefl w
          · exact to_json_array_loop_rel R hrefl htrans hnow hwr _ _ _ _ _ _ _ _ _ hw
      split at h
      · simp only [Option.some.injEq] at h
        rw [← h]; exact h1
      · simp only [Option.some.injEq] at h
        rw [← h]; exact h1
  · split at h <;>
    · simp only [Option.some.injEq] at h
      rw [← h]; exact hrefl w

/-- Induction principle of the serialization walk: a reflexive and transitive
relation on worlds that every primitive step of the walk keeps (new locators, a
recorded visit, a run of the rule engine, the rebasing of a sub-tree and its
undoing) relates the world before a wrapper call to the world after it,
whatever the return code. -/
theorem ser_wrapper_rel (lib : JsonLib) (R : World → World → Prop)
    (hrefl : ∀ w, R w w) (htrans : ∀ a b c, R a b → R b c → R a c)
    (hnow : ∀ w a b, R w (set_now w a b))
    (hvisit : ∀ w v it, R w (record_visit w v it))
    (hhandler : ∀ w it v, R w (jmap_convert_handler w it v).2)
    (hfwd : ∀ w q a s i, R w (jmap_struct_move_forward (set_start_addr w q a) q s i))
    (hbwd : ∀ w q s i, R w (jmap_struct_move_backward w q s i)) :
    ∀ fuel hp it idx w r, jmap_to_json_warpper lib fuel hp it idx w = some r →
      R w r.2.2 := by
  intro fuel
  induction fuel with
  | zero =>
    intro hp it idx w r h
    simp [jmap_to_json_warpper] at h
  | succ fuel ih =>
    intro hp it idx w r h
    simp only [jmap_to_json_warpper] at h
    have h0 : R w (jmap_convert_handler (record_visit w (node_addr w hp it idx) it) it
        (node_addr w hp it idx)).2 :=
      htrans _ _ _ (hvisit w _ it) (hhandler _ _ _)
    split at h
    · simp only [Option.some.injEq] at h
      rw [← h]; exact hrefl w
    · split at h
      · simp only [Option.some.injEq] at h
        rw [← h]; exact h0
      · simp only [Option.some.injEq] at h
        rw [← h]; exact h0
      · exact htrans _ _ _ h0
          (to_json_by_type_rel lib R hrefl htrans hnow hfwd hbwd ih _ _ _ _ _ _ h)

theorem to_json_object_rel (lib : JsonLib) (R : World → World → Prop)
    (hrefl : ∀ w, R w w) (htrans : ∀ a b c, R a b → R b c → R a c)
    (hnow : ∀ w a b, R w (set_now w a b))
    (hvisit : ∀ w v it, R w (record_visit w v it))
    (hhandler : ∀ w it v, R w (jmap_convert_handler w it v).2)
    (hfwd : ∀ w q a s i, R w (jmap_struct_move_forward (set_start_addr w q a) q s i))
    (hbwd : ∀ w q s i, R w (jmap_struct_move_backward w q s i))
    (fuel p : Nat) (jso : Json) (w : World) (r : Int × Json × World)
    (h : jmap_to_json_object lib fuel p jso w = some r) : R w r.2.2 := by
  unfold jmap_to_json_object jmap_to_json_object_with at h
  split at h
  · simp only [Option.some.injEq] at h
    rw [← h]; exact hrefl w
  · split at h
    · simp only [Option.some.injEq] at h
      rw [← h]; exact hrefl w
    · exact to_json_object_loop_rel R hrefl htrans hnow
        (ser_wrapper_rel lib R hrefl htrans hnow hvisit hhandler hfwd hbwd fuel) _ _ _ _ _ _ _ _ h

theorem shape_frame_handler (w : World) (it : jmap_item_t) (v : Nat) :
    ShapeFrame w (jmap_convert_handler w it v).2 :=
  shape_frame_of_mappers_eq (handler_mappers w it v)

/-- The shape of the mapper store survives every serialization wrapper call. -/
theorem ser_wrapper_shape (lib : JsonLib) (fuel hp : Nat) (it : jmap_item_t) (idx : Nat)
    (w : World) (r : Int × Json × World)
    (h : jmap_to_json_warpper lib fuel hp it idx w = some r) : ShapeFrame w r.2.2 :=
  ser_wrapper_rel lib ShapeFrame shape_frame_refl shape_frame_trans
    (fun _ _ _ => shape_frame_of_mappers_eq rfl) (fun _ _ _ => shape_frame_of_mappers_eq rfl)
    shape_frame_handler shape_frame_forward shape_frame_backward fuel hp it idx w r h

theorem handler_callback (w : World) (it : jmap_item_t) (v : Nat) :
    (jmap_convert_handler w it v).2.ctx.convert_callback = w.ctx.convert_callback := by
  have h := handler_ctx_frame w it v
  exact h.cb

/-- The registered callback survives every serialization wrapper call. -/
theorem ser_wrapper_callback (lib : JsonLib) (fuel hp : Nat) (it : jmap_item_t) (idx : Nat)
    (w : World) (r : Int × Json × World)
    (h : jmap_to_json_warpper lib fuel hp it idx w = some r) :
    r.2.2.ctx.convert_callback = w.ctx.convert_callback :=
  ser_wrapper_rel lib (fun a b => b.ctx.convert_callback = a.ctx.convert_callback)
    (fun _ => rfl) (fun _ _ _ h1 h2 => h2.trans h1)
    (fun _ _ _ => rfl) (fun _ _ _ => rfl) handler_callback
    (fun _ _ _ _ _ => rfl) (fun _ _ _ _ => rfl) fuel hp it idx w r h



/-! ## An induction principle with an invariant at every wrapper call -/

theorem handler_now_locator (w : World) (it : jmap_item_t) (v : Nat) :
    (jmap_convert_handler w it v).2.ctx.now_locator = w.ctx.now_locator ∧
    (jmap_convert_handler w it v).2.ctx.now_fzlocator = w.ctx.now_fzlocator := by
  rw [handler_snd]; unfold handler_world
  by_cases hr : it.rule = 0
  · simp only [hr, if_true, and_self]
  · simp only [hr, if_false]
    cases hcb : w.ctx.convert_callback with
    | none => exact ⟨rfl, rfl⟩
    | some cb => exact ⟨rfl, rfl⟩

theorem to_json_object_loop_inv_rel (J : World → Nat → jmap_item_t → Prop)
    (R : World → World → Prop) (htrans : ∀ a b c, R a b → R b c → R a c)
    (hnow : ∀ w a b, R w (set_now w a b))
    {wr : Nat → jmap_item_t → Nat → World → Option (Int × Json × World)}
    (hwr : ∀ hp it idx w r, J w hp it → wr hp it idx w = some r → R w r.2.2)
    (hws : ∀ hp it idx w r, wr hp it idx w = some r → ShapeFrame w r.2.2)
    (w0 : World) (p n0 : Nat) (loc fz : Option (List Char))
    (hJ : ∀ w i, R w0 w → ShapeFrame w0 w → i < n0 →
      J (set_now w (SET_NEW_LOCATOR loc ((w.mappers p).jmlist i).key false 0)
        (SET_NEW_FUZZY_LOCATOR fz loc ((w.mappers p).jmlist i).key false)) p
        ((w.mappers p).jmlist i)) :
    ∀ (n i : Nat) (jso : Json) (w : World) (r : Int × Json × World),
      R w0 w → ShapeFrame w0 w → i + n ≤ n0 →
      to_json_object_loop wr p loc fz n i jso w = some r →
      R w0 r.2.2 ∧ ShapeFrame w0 r.2.2 := by
  intro n
  induction n with
  | zero =>
    intro i jso w r hR hS _ h
    simp only [to_json_object_loop, Option.some.injEq] at h
    rw [← h]
    exact ⟨hR, hS⟩
  | succ n ih =>
    intro i jso w r hR hS hin h
    simp only [to_json_object_loop] at h
    split at h
    · cases h
    · rename_i r1 ij w2 hw
      have hj := hJ w i hR hS (by omega)
      have h1 : R w0 w2 := htrans _ _ _ hR (htrans _ _ _ (hnow w _ _) (hwr _ _ _ _ _ hj hw))
      have h2 : ShapeFrame w0 w2 :=
        shape_frame_trans _ _ _ hS
          (shape_frame_trans _ _ _ (shape_frame_of_mappers_eq (set_now_mappers w _ _))
            (hws _ _ _ _ _ hw))
      split at h
      · simp only [Option.some.injEq] at h
        rw [← h]
        exact ⟨h1, h2⟩
      · split at h
        · exact ih _ _ _ _ h1 h2 (by omega) h
        · exact ih _ _ _ _ h1 h2 (by omega) h

theorem to_json_array_loop_inv_rel (J : World → Nat → jmap_item_t → Prop)
    (R : World → World → Prop) (htrans : ∀ a b c, R a b → R b c → R a c)
    (hnow : ∀ w a b, R w (set_now w a b))
    {wr : Nat → jmap_item_t → Nat → World → Option (Int × Json × World)}
    (hwr : ∀ hp it idx w r, J w hp it → wr hp it idx w = some r → R w r.2.2)
    (hws : ∀ hp it idx w r, wr hp it idx w = some r → ShapeFrame w r.2.2)
    (w0 : World) (hp : Nat) (e : jmap_item_t) (n0 : Nat) (loc fz : Option (List Char))
    (hJ : ∀ w i, R w0 w → ShapeFrame w0 w → i < n0 →
      J (set_now w (SET_NEW_LOCATOR loc e.key true i)
        (SET_NEW_FUZZY_LOCATOR fz loc e.key true)) hp e) :
    ∀ (n i : Nat) (arr : Json) (w : World) (r : Int × Json × World),
      R w0 w → ShapeFrame w0 w → i + n ≤ n0 →
      to_json_array_loop wr hp e loc fz n i arr w = some r →
      R w0 r.2.2 ∧ ShapeFrame w0 r.2.2 := by
  intro n
  induction n with
  | zero =>
    intro i arr w r hR hS _ h
    simp only [to_json_array_loop, Option.some.injEq] at h
    rw [← h]
    exact ⟨hR, hS⟩
  | succ n ih =>
    intro i arr w r hR hS hin h
    simp only [to_json_array_loop] at h
    split at h
    · cases h
    · rename_i r1 ij w2 hw
      have hj := hJ w i hR hS (by omega)
      have h1 : R w0 w2 := htrans _ _ _ hR (htrans _ _ _ (hnow w _ _) (hwr _ _ _ _ _ hj hw))
      have h2 : ShapeFrame w0 w2 :=
        shape_frame_trans _ _ _ hS
          (shape_frame_trans _ _ _ (shape_frame_of_mappers_eq (set_now_mappers w _ _))
            (hws _ _ _ _ _ hw))
      split at h
      · simp only [Option.some.injEq] at h
        rw [← h]
        exact ⟨h1, h2⟩
      · split at h
        · exact ih _ _ _ _ h1 h2 (by omega) h
        · exact ih _ _ _ _ h1 h2 (by omega) h

/-- Induction principle of the serialization walk with an invariant `J` that
holds at the entry of every wrapper call.  `R` is a reflexive and transitive
relation kept by the primitive steps; the step of the rule engine may use `J`.
The sub-tree loop of a sub-structure node and the element loop of an array node
must establish `J` for each child from `J` of the parent: the child is called
with the locators that `SET_NEW_LOCATOR` and `SET_NEW_FUZZY_LOCATOR` build from
those the parent was called with. -/
theorem ser_wrapper_inv (lib : JsonLib) (J : World → Nat → jmap_item_t → Prop)
    (R : World → World → Prop)
    (hrefl : ∀ w, R w w) (htrans : ∀ a b c, R a b → R b c → R a c)
    (hnow : ∀ w a b, R w (set_now w a b))
    (hstep : ∀ w hp it idx, J w hp it → node_base w hp it ≠ 0 →
      R w (jmap_convert_handler (record_visit w (node_addr w hp it idx) it) it
        (node_addr w hp it idx)).2)
    (hfwd : ∀ w q a s i, R w (jmap_struct_move_forward (set_start_addr w q a) q s i))
    (hbwd : ∀ w q s i, R w (jmap_struct_move_backward w q s i))
    (hfield : ∀ w0 hp it w q i, J w0 hp it → it.type = jxs_type.struct → it.subjm = some q →
      R w0 w → ShapeFrame w0 w → i < (w0.mappers q).jmhead.idx →
      J (set_now w
          (SET_NEW_LOCATOR w0.ctx.now_locator ((w.mappers q).jmlist i).key false 0)
          (SET_NEW_FUZZY_LOCATOR w0.ctx.now_fzlocator w0.ctx.now_locator
            ((w.mappers q).jmlist i).key false)) q ((w.mappers q).jmlist i))
    (helem : ∀ w0 hp it idx w i, J w0 hp it → it.type = jxs_type.array →
      R w0 w → ShapeFrame w0 w → (jmap_array_move_next_dimen it idx).size ≠ 0 →
      i < (jmap_array_move_next_dimen it idx).arr.length →
      J (set_now w
          (SET_NEW_LOCATOR w0.ctx.now_locator (jmap_array_move_next_dimen it idx).key true i)
          (SET_NEW_FUZZY_LOCATOR w0.ctx.now_fzlocator w0.ctx.now_locator
            (jmap_array_move_next_dimen it idx).key true)) hp
        (jmap_array_move_next_dimen it idx)) :
    ∀ fuel hp it idx w r, J w hp it → jmap_to_json_warpper lib fuel hp it idx w = some r →
      R w r.2.2 := by
  intro fuel
  induction fuel with
  | zero =>
    intro hp it idx w r _ h
    simp [jmap_to_json_warpper] at h
  | succ fuel ih =>
    intro hp it idx w r hj h
    simp only [jmap_to_json_warpper] at h
    split at h
    · simp only [Option.some.injEq] at h
      rw [← h]; exact hrefl w
    · rename_i hnb
      have h0 : R w (jmap_convert_handler (record_visit w (node_addr w hp it idx) it) it
          (node_addr w hp it idx)).2 := hstep w hp it idx hj hnb
      have hs0 : ShapeFrame w (jmap_convert_handler (record_visit w (node_addr w hp it idx) it)
          it (node_addr w hp it idx)).2 :=
        shape_frame_of_mappers_eq
          ((handler_mappers _ _ _).trans (record_visit_mappers w _ it))
      have hl := handler_now_locator (record_visit w (node_addr w hp it idx) it) it
        (node_addr w hp it idx)
      simp only [record_visit_ctx] at hl
      generalize (jmap_convert_handler (record_visit w (node_addr w hp it idx) it) it
          (node_addr w hp it idx)) = hr at h h0 hs0 hl
      have hws := ser_wrapper_shape lib fuel
      split at h
      · simp only [Option.some.injEq] at h
        rw [← h]; exact h0
      · simp only [Option.some.injEq] at h
        rw [← h]; exact h0
      · unfold to_json_by_type at h
        split at h
        · rename_i hty
          split at h
          · simp only [Option.some.injEq] at h
            rw [← h]; exact h0
          · rename_i q hq
            simp only [] at h
            split at h
            · cases h
            · rename_i r1 jso w4 hw
              have hR3 : R w (jmap_struct_move_forward
                  (set_start_addr hr.2 q (node_base hr.2 hp it)) q it.size idx) :=
                htrans _ _ _ h0 (hfwd _ _ _ _ _)
              have hS3 : ShapeFrame w (jmap_struct_move_forward
                  (set_start_addr hr.2 q (node_base hr.2 hp it)) q it.size idx) :=
                shape_frame_trans _ _ _ hs0 (shape_frame_forward _ _ _ _ _)
              have h1 : R w w4 := by
                unfold jmap_to_json_object_with at hw
                split at hw
                · simp only [Option.some.injEq, Prod.mk.injEq] at hw
                  rw [← hw.2.2]; exact hR3
                · split at hw
                  · simp only [Option.some.injEq, Prod.mk.injEq] at hw
                    rw [← hw.2.2]; exact hR3
                  · simp only [move_forward_ctx, set_start_addr_ctx, hl.1, hl.2] at hw
                    have hidx := hS3.idx q
                    rw [hidx] at hw
                    exact (to_json_object_loop_inv_rel J R htrans hnow ih hws w q
                      (w.mappers q).jmhead.idx _ _
                      (fun w' i hR hS hi => hfield w hp it w' q i hj hty hq hR hS hi)
                      _ _ _ _ _ hR3 hS3 (by omega) hw).1
              split at h
              · simp only [Option.some.injEq] at h
                rw [← h]; exact h1
              · simp only [Option.some.injEq] at h
                rw [← h]; exact htrans _ _ _ h1 (hbwd w4 _ _ _)
        · rename_i hty
          split at h
          · cases h
          · rename_i r1 jso w4 hw
            have h1 : R w w4 := by
              unfold jmap_to_json_array_with at hw
              split at hw
              · simp only [Option.some.injEq, Prod.mk.injEq] at hw
                rw [← hw.2.2]; exact h0
              · rename_i hsz
                split at hw
                · simp only [Option.some.injEq, Prod.mk.injEq] at hw
                  rw [← hw.2.2]; exact h0
                · simp only [hl.1, hl.2] at hw
                  exact (to_json_array_loop_inv_rel J R htrans hnow ih hws w hp _
                    (jmap_array_move_next_dimen it idx).arr.length _ _
                    (fun w' i hR hS hi => helem w hp it idx w' i hj hty hR hS
                      (fun hz => hsz (Or.inl hz)) hi)
                    _ _ _ _ _ h0 hs0 (by omega) hw).1
            split at h
            · simp only [Option.some.injEq] at h
              rw [← h]; exact h1
            · simp only [Option.some.injEq] at h
              rw [← h]; exact h1
        · split at h <;>
          · simp only [Option.some.injEq] at h
            rw [← h]; exact h0

/-- The principle `ser_wrapper_inv` for a walk of the root tree by
`jmap_to_json_object`: the invariant of a root node is established from the
world the walk starts in. -/
theorem to_json_object_inv (lib : JsonLib) (J : World → Nat → jmap_item_t → Prop)
    (R : World → World → Prop)
    (hrefl : ∀ w, R w w) (htrans : ∀ a b c, R a b → R b c → R a c)
    (hnow : ∀ w a b, R w (set_now w a b))
    (hstep : ∀ w hp it idx, J w hp it → node_base w hp it ≠ 0 →
      R w (jmap_convert_handler (record_visit w (node_addr w hp it idx) it) it
        (node_addr w hp it idx)).2)
    (hfwd : ∀ w q a s i, R w (jmap_struct_move_forward (set_start_addr w q a) q s i))
    (hbwd : ∀ w q s i, R w (jmap_struct_move_backward w q s i))
    (hfield : ∀ w0 hp it w q i, J w0 hp it → it.type = jxs_type.struct → it.subjm = some q →
      R w0 w → ShapeFrame w0 w → i < (w0.mappers q).jmhead.idx →
      J (set_now w
          (SET_NEW_LOCATOR w0.ctx.now_locator ((w.mappers q).jmlist i).key false 0)
          (SET_NEW_FUZZY_LOCATOR w0.ctx.now_fzlocator w0.ctx.now_locator
            ((w.mappers q).jmlist i).key false)) q ((w.mappers q).jmlist i))
    (helem : ∀ w0 hp it idx w i, J w0 hp it → it.type = jxs_type.array →
      R w0 w → ShapeFrame w0 w → (jmap_array_move_next_dimen it idx).size ≠ 0 →
      i < (jmap_array_move_next_dimen it idx).arr.length →
      J (set_now w
          (SET_NEW_LOCATOR w0.ctx.now_locator (jmap_array_move_next_dimen it idx).key true i)
          (SET_NEW_FUZZY_LOCATOR w0.ctx.now_fzlocator w0.ctx.now_locator
            (jmap_array_move_next_dimen it idx).key true)) hp
        (jmap_array_move_next_dimen it idx))
    (fuel p : Nat) (jso : Json) (w0 : World) (r : Int × Json × World)
    (hroot : ∀ w i, R w0 w → ShapeFrame w0 w → i < (w0.mappers p).jmhead.idx →
      J (set_now w
          (SET_NEW_LOCATOR w0.ctx.now_locator ((w.mappers p).jmlist i).key false 0)
          (SET_NEW_FUZZY_LOCATOR w0.ctx.now_fzlocator w0.ctx.now_locator
            ((w.mappers p).jmlist i).key false)) p ((w.mappers p).jmlist i))
    (h : jmap_to_json_object lib fuel p jso w0 = some r) : R w0 r.2.2 := by
  unfold jmap_to_json_object jmap_to_json_object_with at h
  split at h
  · simp only [Option.some.injEq] at h
    rw [← h]; exact hrefl w0
  · split at h
    · simp only [Option.some.injEq] at h
      rw [← h]; exact hrefl w0
    · exact (to_json_object_loop_inv_rel J R htrans hnow
        (ser_wrapper_inv lib J R hrefl htrans hnow hstep hfwd hbwd hfield helem fuel)
        (ser_wrapper_shape lib fuel) w0 p (w0.mappers p).jmhead.idx _ _ hroot
        _ _ _ _ _ (hrefl w0) (shape_frame_refl w0) (by omega) h).1



/-! ## Claim C24: one callback invocation per visit -/

theorem calls_follow_refl (w : World) : CallsFollowVisits w w :=
  ⟨rfl, [], by simp, by simp⟩

theorem calls_follow_trans (a b c : World) (h1 : CallsFollowVisits a b)
    (h2 : CallsFollowVisits b c) : CallsFollowVisits a c := by
  obtain ⟨hc1, vs1, hv1, hb1⟩ := h1
  obtain ⟨hc2, vs2, hv2, hb2⟩ := h2
  refine ⟨hc2.trans hc1, vs1 ++ vs2, ?_, ?_⟩
  · rw [hv2, hv1, List.append_assoc]
  · rw [hb2, hb1, List.map_append, List.append_assoc]

theorem calls_follow_of_eq {w w' : World} (hc : w'.ctx.convert_callback = w.ctx.convert_callback)
    (hv : w'.visits = w.visits) (hb : w'.cb_calls = w.cb_calls) : CallsFollowVisits w w' :=
  ⟨hc, [], by simp [hv], by simp [hb]⟩

theorem rules_set_of_shape {w w' : World} (h : RulesSet w.mappers) (hs : ShapeFrame w w') :
    RulesSet w'.mappers := by
  intro p i hi
  rw [hs.idx] at hi
  have hr : ((w'.mappers p).jmlist i).rule = ((w.mappers p).jmlist i).rule :=
    (same_shape_fields (hs.item p i)).2.2.2.2.2.2
  rw [hr]
  exact h p i hi

theorem next_dimen_rule (it : jmap_item_t) (idx : Nat)
    (h : (jmap_array_move_next_dimen it idx).size ≠ 0) :
    (jmap_array_move_next_dimen it idx).rule = it.rule := by
  unfold jmap_array_move_next_dimen at h ⊢
  split
  · rename_i hc
    rw [if_pos hc] at h
    exact absurd rfl h
  · rfl

theorem handler_step_calls (w : World) (hp : Nat) (it : jmap_item_t) (idx : Nat)
    (hj : CallbackRuns w it) :
    CallsFollowVisits w (jmap_convert_handler (record_visit w (node_addr w hp it idx) it) it
      (node_addr w hp it idx)).2 := by
  obtain ⟨hcb, hr, _⟩ := hj
  rw [handler_snd]
  unfold handler_world
  simp only [hr, if_false, record_visit_ctx]
  cases hc : w.ctx.convert_callback with
  | none => rw [hc] at hcb; cases hcb
  | some cb =>
    refine ⟨?_, [{ vptr := node_addr w hp it idx, type := it.type, size := it.size }], ?_, ?_⟩
    · simp [hc]
    · simp [record_visit]
    · simp [record_visit, cb_view]

/-- Claim C24 as stated fails: the tree holds one field `int32_t v[2]` with a
non-zero static rule and a callback is registered.  The serialization visits
the array node and its two elements; the callback is invoked three times, while
two leaves are visited. -/
theorem c24_counterexample_array_node :
    (world_of_items [item_arr_drop] mem_zero_five (some cb_keep_raw)).ctx.convert_callback.isSome
      = true ∧
    RulesSet (world_of_items [item_arr_drop] mem_zero_five (some cb_keep_raw)).mappers ∧
    (jmap_to_json_object lib0 2 0 (.object [])
        (world_of_items [item_arr_drop] mem_zero_five (some cb_keep_raw))).map
      (fun r => (r.1, r.2.2.cb_calls.length, (r.2.2.visits.filter is_leaf_visit).length,
        r.2.2.visits.map (fun v => v.type)))
      = some (0, 3, 2, [jxs_type.array, jxs_type.int, jxs_type.int]) := by
  refine ⟨rfl, ?_, by decide⟩
  intro p i hi
  by_cases hp : p = 0
  · subst hp
    have hi1 : i = 0 := by
      simp [world_of_items] at hi
      exact hi
    subst hi1
    decide
  · simp [world_of_items, hp, jxs_mapper_zero] at hi

/-- Claim C24, amended: during a serialization by `jmap_to_json_object` with a
registered callback and every static rule non-zero, the callback is invoked
exactly once for each visit of a node, whether a leaf, a sub-structure node or
an array node, in the order of the visits and with the address of the visit; so
the number of callback invocations is the number of visits (each visited leaf
accounts for exactly one of them). -/
theorem c24_callback_once_per_visit (lib : JsonLib) (fuel p : Nat) (jso : Json) (w : World)
    (r : Int × Json × World)
    (hcb : w.ctx.convert_callback.isSome = true) (hrules : RulesSet w.mappers)
    (h : jmap_to_json_object lib fuel p jso w = some r) :
    ∃ vs, r.2.2.visits = w.visits ++ vs ∧
      r.2.2.cb_calls.map (fun c => c.vptr)
        = w.cb_calls.map (fun c => c.vptr) ++ vs.map (fun v => v.vptr) ∧
      r.2.2.cb_calls.length = w.cb_calls.length + vs.length := by
  have hR : CallsFollowVisits w r.2.2 := by
    refine to_json_object_inv lib (fun w _ it => CallbackRuns w it) CallsFollowVisits
      calls_follow_refl calls_follow_trans
      (fun w a b => calls_follow_of_eq rfl rfl rfl)
      (fun w hp it idx hj _ => handler_step_calls w hp it idx hj)
      (fun w q a s i => calls_follow_of_eq rfl rfl rfl)
      (fun w q s i => calls_follow_of_eq rfl rfl rfl)
      ?_ ?_ fuel p jso w r ?_ h
    · intro w0 hp it w' q i hj _ _ hR hS hi
      have hrs : RulesSet w'.mappers := rules_set_of_shape hj.2.2 hS
      refine ⟨?_, hrs q i (by rw [hS.idx]; exact hi), hrs⟩
      show w'.ctx.convert_callback.isSome = true
      rw [hR.1]; exact hj.1
    · intro w0 hp it idx w' i hj _ hR hS hsz _
      have hrs : RulesSet w'.mappers := rules_set_of_shape hj.2.2 hS
      refine ⟨?_, ?_, hrs⟩
      · show w'.ctx.convert_callback.isSome = true
        rw [hR.1]; exact hj.1
      · rw [next_dimen_rule it idx hsz]; exact hj.2.1
    · intro w' i hR hS hi
      have hrs : RulesSet w'.mappers := rules_set_of_shape hrules hS
      refine ⟨?_, hrs p i (by rw [hS.idx]; exact hi), hrs⟩
      show w'.ctx.convert_callback.isSome = true
      rw [hR.1]; exact hcb
  obtain ⟨_, vs, hv, hb⟩ := hR
  refine ⟨vs, hv, hb, ?_⟩
  have := congrArg List.length hb
  simpa using this

theorem world_rec_rules : RulesSet world_rec.mappers := by
  intro p i hi
  by_cases h0 : p = 0
  · subst h0
    exact (show ∀ i, i < 4 → ((world_rec.mappers 0).jmlist i).rule ≠ 0 by decide) i hi
  · by_cases h5 : p = 5
    · subst h5
      exact (show ∀ i, i < 2 → ((world_rec.mappers 5).jmlist i).rule ≠ 0 by decide) i hi
    · rw [world_rec_other p h0 h5] at hi
      exact absurd hi (by simp [jxs_mapper_zero])

/-- Witness of `c24_callback_once_per_visit`: the tree of `bld_rec` with a
callback registered: 12 visits (the two leaves of the root, the two array
nodes, two sub-structure elements with two leaves each, two array elements) and
12 callback invocations. -/
theorem c24_callback_once_per_visit_witness :
    ∃ r, jmap_to_json_object lib0 3 0 (.object [])
        (jxs_set_convert_callback world_rec (some cb_keep_raw)) = some r ∧
      r.1 = 0 ∧ r.2.2.cb_calls.length = 12 ∧
      ∃ vs, r.2.2.visits = (jxs_set_convert_callback world_rec (some cb_keep_raw)).visits ++ vs ∧
        r.2.2.cb_calls.map (fun c => c.vptr)
          = (jxs_set_convert_callback world_rec (some cb_keep_raw)).cb_calls.map
              (fun c => c.vptr) ++ vs.map (fun v => v.vptr) ∧
        r.2.2.cb_calls.length
          = (jxs_set_convert_callback world_rec (some cb_keep_raw)).cb_calls.length
            + vs.length := by
  have he : (jmap_to_json_object lib0 3 0 (.object [])
      (jxs_set_convert_callback world_rec (some cb_keep_raw))).map
      (fun r => (r.1, r.2.2.cb_calls.length)) = some (0, 12) := by decide
  cases hr : jmap_to_json_object lib0 3 0 (.object [])
      (jxs_set_convert_callback world_rec (some cb_keep_raw)) with
  | none => rw [hr] at he; cases he
  | some r =>
    rw [hr] at he
    simp only [Option.map_some', Option.some.injEq, Prod.mk.injEq] at he
    exact ⟨r, rfl, he.1, he.2,
      c24_callback_once_per_visit lib0 3 0 _ _ r rfl world_rec_rules hr⟩



/-! ## Paths: the locators of the context -/

theorem render_path_snoc (ix : Nat → List Char) (steps : List Step) (s : Step) :
    render_path ix (steps ++ [s]) = ext_path ix (render_path ix steps) s := by
  unfold render_path
  rw [List.foldl_append]
  rfl

theorem ext_path_empty_iff (ix1 ix2 : Nat → List Char) (P1 P2 : List Char) (s : Step)
    (h : P1 = [] ↔ P2 = []) : ext_path ix1 P1 s = [] ↔ ext_path ix2 P2 s = [] := by
  cases s with
  | key k =>
    simp only [ext_path, List.append_eq_nil, List.isEmpty_iff]
    constructor
    · rintro ⟨⟨h1, _⟩, h3⟩
      exact ⟨⟨h.1 h1, by simp [h.1 h1]⟩, h3⟩
    · rintro ⟨⟨h1, _⟩, h3⟩
      exact ⟨⟨h.2 h1, by simp [h.2 h1]⟩, h3⟩
  | index i => simp [ext_path]

theorem render_path_empty_iff (ix1 ix2 : Nat → List Char) (steps : List Step) :
    render_path ix1 steps = [] ↔ render_path ix2 steps = [] := by
  induction steps using List.reverseRecOn with
  | nil => simp [render_path]
  | append_singleton l s ih =>
    rw [render_path_snoc, render_path_snoc]
    exact ext_path_empty_iff ix1 ix2 _ _ s ih

theorem take_take_append (n : Nat) (a b : List Char) :
    (a.take n ++ b).take n = (a ++ b).take n := by
  by_cases h : a.length ≤ n
  · rw [List.take_of_length_le h]
  · have hn : n ≤ a.length := by omega
    rw [List.take_append_of_le_length (by rw [List.length_take]; omega),
      List.take_append_of_le_length hn, List.take_take, Nat.min_self]

theorem snprintf_key_empty_iff (P : List Char) : snprintf_key P = [] ↔ P = [] := by
  unfold snprintf_key JXS_KEY_MAXLEN
  cases P <;> simp

/-- The exact locator of a field, from the truncated exact path of its
parent. -/
theorem set_new_locator_key (P : List Char) (k : List Char) :
    SET_NEW_LOCATOR (some (snprintf_key P)) k false 0
      = snprintf_key (ext_path (Nat.toDigits 10) P (.key k)) := by
  unfold SET_NEW_LOCATOR ext_path
  simp only [Bool.false_eq_true, if_false, Option.getD_some]
  cases hP : P with
  | nil => simp [snprintf_key]
  | cons c t =>
    have hne : snprintf_key (c :: t) ≠ [] := by
      rw [Ne, snprintf_key_empty_iff]; simp
    cases hs : snprintf_key (c :: t) with
    | nil => exact absurd hs hne
    | cons c' t' =>
      simp only [List.isEmpty_cons, Bool.false_eq_true, if_false]
      rw [← hs]
      unfold snprintf_key
      rw [List.append_assoc, take_take_append, List.append_assoc]

/-- The exact locator of an array element, from the truncated exact path of
the array node. -/
theorem set_new_locator_index (P : List Char) (k : List Char) (i : Nat) :
    SET_NEW_LOCATOR (some (snprintf_key P)) k true i
      = snprintf_key (ext_path (Nat.toDigits 10) P (.index i)) := by
  unfold SET_NEW_LOCATOR ext_path
  simp only [if_true, Option.getD_some]
  unfold snprintf_key
  rw [List.append_assoc, List.append_assoc, take_take_append, List.append_assoc,
    List.append_assoc]

theorem set_new_fuzzy_key (F P : List Char) (k : List Char) (h : F = [] ↔ P = []) :
    SET_NEW_FUZZY_LOCATOR (some (snprintf_key F)) (some (snprintf_key P)) k false
      = snprintf_key (ext_path (fun _ => [Char.ofNat 120]) F (.key k)) := by
  unfold SET_NEW_FUZZY_LOCATOR ext_path
  simp only [Bool.false_eq_true, if_false, Option.getD_some]
  cases hP : P with
  | nil =>
    have hF : F = [] := h.2 hP
    subst hF
    simp [snprintf_key]
  | cons c t =>
    have hne : snprintf_key (c :: t) ≠ [] := by
      rw [Ne, snprintf_key_empty_iff]; simp
    have hFne : F ≠ [] := fun hF => by
      have := h.1 hF
      rw [hP] at this
      cases this
    cases hs : snprintf_key (c :: t) with
    | nil => exact absurd hs hne
    | cons c' t' =>
      cases hF : F with
      | nil => exact absurd hF hFne
      | cons d u =>
        simp only [List.isEmpty_cons, Bool.false_eq_true, if_false]
        unfold snprintf_key
        rw [List.append_assoc, take_take_append, List.append_assoc]

theorem set_new_fuzzy_index (F : List Char) (loc : Option (List Char)) (k : List Char) :
    SET_NEW_FUZZY_LOCATOR (some (snprintf_key F)) loc k true
      = snprintf_key (ext_path (fun _ => [Char.ofNat 120]) F (.index 0)) := by
  unfold SET_NEW_FUZZY_LOCATOR ext_path
  simp only [if_true, Option.getD_some]
  unfold snprintf_key
  rw [take_take_append]
  simp


theorem handler_cb_calls (w : World) (it : jmap_item_t) (v : Nat) :
    (jmap_convert_handler w it v).2.cb_calls = w.cb_calls ∨
    (jmap_convert_handler w it v).2.cb_calls = w.cb_calls ++ [cb_view w v] := by
  rw [handler_snd]; unfold handler_world
  by_cases hr : it.rule = 0
  · simp only [hr, if_true, true_or]
  · simp only [hr, if_false]
    cases hcb : w.ctx.convert_callback with
    | none => exact Or.inl rfl
    | some cb => exact Or.inr rfl

theorem views_on_routes_refl (S : Nat → jxs_mapper) (p0 : Nat) (w : World) :
    ViewsOnRoutes S p0 w w := ⟨[], by simp, by simp⟩

theorem views_on_routes_trans (S : Nat → jxs_mapper) (p0 : Nat) (a b c : World)
    (h1 : ViewsOnRoutes S p0 a b) (h2 : ViewsOnRoutes S p0 b c) : ViewsOnRoutes S p0 a c := by
  obtain ⟨v1, e1, g1⟩ := h1
  obtain ⟨v2, e2, g2⟩ := h2
  refine ⟨v1 ++ v2, by rw [e2, e1, List.append_assoc], ?_⟩
  intro v hv
  rcases List.mem_append.1 hv with h | h
  · exact g1 v h
  · exact g2 v h

theorem views_on_routes_of_eq (S : Nat → jxs_mapper) (p0 : Nat) {w w' : World}
    (h : w'.cb_calls = w.cb_calls) : ViewsOnRoutes S p0 w w' := ⟨[], by simp [h], by simp⟩

theorem path_inv_step (S : Nat → jxs_mapper) (p0 : Nat) (w : World) (hp : Nat)
    (it : jmap_item_t) (idx : Nat) (hj : PathInv S p0 w it) :
    ViewsOnRoutes S p0 w (jmap_convert_handler (record_visit w (node_addr w hp it idx) it) it
      (node_addr w hp it idx)).2 := by
  obtain ⟨_, steps, it', hr, _, hl, hf⟩ := hj
  rcases handler_cb_calls (record_visit w (node_addr w hp it idx) it) it
    (node_addr w hp it idx) with h | h
  · exact views_on_routes_of_eq S p0 h
  · refine ⟨[cb_view (record_visit w (node_addr w hp it idx) it) (node_addr w hp it idx)], h, ?_⟩
    intro v hv
    rw [List.mem_singleton] at hv
    subst hv
    exact ⟨steps, it', hr, hl, hf⟩

theorem path_inv_field (S : Nat → jxs_mapper) (p0 : Nat) (w0 : World) (it : jmap_item_t)
    (w : World) (q i : Nat) (hj : PathInv S p0 w0 it) (hty : it.type = jxs_type.struct)
    (hq : it.subjm = some q) (hS : ShapeFrame w0 w) (hi : i < (w0.mappers q).jmhead.idx) :
    PathInv S p0 (set_now w
      (SET_NEW_LOCATOR w0.ctx.now_locator ((w.mappers q).jmlist i).key false 0)
      (SET_NEW_FUZZY_LOCATOR w0.ctx.now_fzlocator w0.ctx.now_locator
        ((w.mappers q).jmlist i).key false)) ((w.mappers q).jmlist i) := by
  obtain ⟨hss, steps, it', hr, hsh, hl, hf⟩ := hj
  have hss' : ShapeStore S w := shape_store_of_frame hss hS
  have hfl := same_shape_fields hsh
  have hch := (hss' q).2 i
  have hk : ((w.mappers q).jmlist i).key = ((S q).jmlist i).key := (same_shape_fields hch).2.1
  refine ⟨hss', steps ++ [.key ((S q).jmlist i).key], (S q).jmlist i, ?_, hch, ?_, ?_⟩
  · exact Route.field steps it' q i hr (hfl.1 ▸ hty) (hfl.2.2.2.1 ▸ hq)
      (by rw [← (hss q).1]; exact hi)
  · show some _ = _
    rw [hl, hk, set_new_locator_key]
    unfold exact_path
    rw [render_path_snoc]
  · show some _ = _
    rw [hl, hf, hk]
    unfold fuzzy_path exact_path
    rw [set_new_fuzzy_key _ _ _ (render_path_empty_iff _ _ steps), render_path_snoc]

theorem path_inv_elem (S : Nat → jxs_mapper) (p0 : Nat) (w0 : World)
    (it : jmap_item_t) (idx : Nat) (w : World) (i : Nat) (hj : PathInv S p0 w0 it)
    (hty : it.type = jxs_type.array) (hS : ShapeFrame w0 w)
    (hi : i < (jmap_array_move_next_dimen it idx).arr.length) :
    PathInv S p0 (set_now w
      (SET_NEW_LOCATOR w0.ctx.now_locator (jmap_array_move_next_dimen it idx).key true i)
      (SET_NEW_FUZZY_LOCATOR w0.ctx.now_fzlocator w0.ctx.now_locator
        (jmap_array_move_next_dimen it idx).key true))
      (jmap_array_move_next_dimen it idx) := by
  obtain ⟨hss, steps, it', hr, hsh, hl, hf⟩ := hj
  have hss' : ShapeStore S w := shape_store_of_frame hss hS
  have hfl := same_shape_fields hsh
  have hse := same_shape_next_dimen hsh idx 0
  have harr := (same_shape_fields hse).2.2.2.2.2.1
  refine ⟨hss', steps ++ [.index i], jmap_array_move_next_dimen it' 0, ?_, hse, ?_, ?_⟩
  · exact Route.elem steps it' i hr (hfl.1 ▸ hty) (by rw [← harr]; exact hi)
  · show some _ = _
    rw [hl, set_new_locator_index]
    unfold exact_path
    rw [render_path_snoc]
  · show some _ = _
    rw [hf, set_new_fuzzy_index]
    unfold fuzzy_path
    rw [render_path_snoc]
    rfl

theorem path_inv_root (p : Nat) (w0 w : World) (i : Nat)
    (hl : w0.ctx.now_locator = none) (hf : w0.ctx.now_fzlocator = none)
    (hS : ShapeFrame w0 w) (hi : i < (w0.mappers p).jmhead.idx) :
    PathInv w0.mappers p (set_now w
      (SET_NEW_LOCATOR w0.ctx.now_locator ((w.mappers p).jmlist i).key false 0)
      (SET_NEW_FUZZY_LOCATOR w0.ctx.now_fzlocator w0.ctx.now_locator
        ((w.mappers p).jmlist i).key false)) ((w.mappers p).jmlist i) := by
  have hss : ShapeStore w0.mappers w := fun q => ⟨hS.idx q, fun k => hS.item q k⟩
  have hch := (hss p).2 i
  have hk : ((w.mappers p).jmlist i).key = ((w0.mappers p).jmlist i).key :=
    (same_shape_fields hch).2.1
  refine ⟨hss, [.key ((w0.mappers p).jmlist i).key], (w0.mappers p).jmlist i,
    Route.root i hi, hch, ?_, ?_⟩
  · show some _ = _
    rw [hl, hk]
    simp [SET_NEW_LOCATOR, exact_path, render_path, ext_path]
  · show some _ = _
    rw [hl, hf, hk]
    simp [SET_NEW_FUZZY_LOCATOR, fuzzy_path, render_path, ext_path]

/-- Every callback invocation of a serialization that starts at the root tree
with no locator set sees the exact and the fuzzy path of one route of the
tree. -/
theorem to_json_object_views (lib : JsonLib) (fuel p : Nat) (jso : Json) (w : World)
    (r : Int × Json × World)
    (hl : w.ctx.now_locator = none) (hf : w.ctx.now_fzlocator = none)
    (h : jmap_to_json_object lib fuel p jso w = some r) :
    ViewsOnRoutes w.mappers p w r.2.2 :=
  to_json_object_inv lib (fun w' _ it => PathInv w.mappers p w' it) (ViewsOnRoutes w.mappers p)
    (views_on_routes_refl _ _) (views_on_routes_trans _ _)
    (fun _ _ _ => views_on_routes_of_eq _ _ rfl)
    (fun w' hp it idx hj _ => path_inv_step _ _ w' hp it idx hj)
    (fun _ _ _ _ _ => views_on_routes_of_eq _ _ rfl)
    (fun _ _ _ _ => views_on_routes_of_eq _ _ rfl)
    (fun w0 _ it w' q i hj hty hq _ hS hi => path_inv_field _ _ w0 it w' q i hj hty hq hS hi)
    (fun w0 _ it idx w' i hj hty _ hS _ hi => path_inv_elem _ _ w0 it idx w' i hj hty hS hi)
    fuel p jso w r
    (fun w' i _ hS hi => path_inv_root p w w' i hl hf hS hi) h


/-! ## Decimal rendering of an index is injective -/

theorem digit_char_facts : ∀ m, m < 10 →
    (Nat.digitChar m).toNat - 48 = m ∧ Nat.digitChar m ≠ Char.ofNat 91 := by
  decide

theorem to_digits_core_spec : ∀ (fuel n : Nat) (ds : List Char), n < fuel →
    ∃ l, Nat.toDigitsCore 10 fuel n ds = l ++ ds ∧ (∀ c ∈ l, c ≠ Char.ofNat 91) ∧
      decode_digits l = n := by
  intro fuel
  induction fuel with
  | zero => intro n ds h; omega
  | succ fuel ih =>
    intro n ds h
    have hd := digit_char_facts (n % 10) (Nat.mod_lt _ (by decide))
    simp only [Nat.toDigitsCore]
    by_cases h0 : n / 10 = 0
    · simp only [h0, if_true]
      refine ⟨[Nat.digitChar (n % 10)], rfl, ?_, ?_⟩
      · intro c hc
        rw [List.mem_singleton] at hc
        rw [hc]; exact hd.2
      · simp only [decode_digits, List.foldl_cons, List.foldl_nil, hd.1]
        omega
    · simp only [h0, if_false]
      obtain ⟨l, hl, hn, hdec⟩ := ih (n / 10) (Nat.digitChar (n % 10) :: ds) (by omega)
      refine ⟨l ++ [Nat.digitChar (n % 10)], ?_, ?_, ?_⟩
      · rw [hl]; simp
      · intro c hc
        rcases List.mem_append.1 hc with h1 | h1
        · exact hn c h1
        · rw [List.mem_singleton] at h1
          rw [h1]; exact hd.2
      · unfold decode_digits at hdec ⊢
        rw [List.foldl_append, hdec]
        simp only [List.foldl_cons, List.foldl_nil, hd.1]
        omega

theorem to_digits_spec (n : Nat) :
    (∀ c ∈ Nat.toDigits 10 n, c ≠ Char.ofNat 91) ∧ decode_digits (Nat.toDigits 10 n) = n := by
  obtain ⟨l, hl, hn, hdec⟩ := to_digits_core_spec (n + 1) n [] (by omega)
  unfold Nat.toDigits
  rw [hl, List.append_nil]
  exact ⟨hn, hdec⟩

theorem to_digits_injective (i j : Nat) (h : Nat.toDigits 10 i = Nat.toDigits 10 j) : i = j := by
  rw [← (to_digits_spec i).2, ← (to_digits_spec j).2, h]

/-- Two lists split at the last occurrence of `c` are equal only if the parts
are. -/
theorem split_at_last (c : Char) : ∀ (l1 l2 d1 d2 : List Char),
    c ∉ d1 → c ∉ d2 → l1 ++ c :: d1 = l2 ++ c :: d2 → l1 = l2 ∧ d1 = d2 := by
  intro l1
  induction l1 with
  | nil =>
    intro l2 d1 d2 h1 h2 h
    cases l2 with
    | nil =>
      simp only [List.nil_append, List.cons.injEq, true_and] at h
      exact ⟨rfl, h⟩
    | cons y l2 =>
      simp only [List.nil_append, List.cons_append, List.cons.injEq] at h
      exact absurd (by rw [h.2]; simp) h1
  | cons x l1 ih =>
    intro l2 d1 d2 h1 h2 h
    cases l2 with
    | nil =>
      simp only [List.nil_append, List.cons_append, List.cons.injEq] at h
      exact absurd (by rw [← h.2]; simp) h2
    | cons y l2 =>
      simp only [List.cons_append, List.cons.injEq] at h
      obtain ⟨e1, e2⟩ := ih l2 d1 d2 h1 h2 h.2
      exact ⟨by rw [h.1, e1], e2⟩


theorem wild_steps_snoc (l : List Step) (a : Step) :
    wild_steps (l ++ [a]) = wild_steps l ++ wild_steps [a] := by
  unfold wild_steps
  rw [List.map_append]

theorem fuzzy_path_wild (s : List Step) : fuzzy_path (wild_steps s) = fuzzy_path s := by
  induction s using List.reverseRecOn with
  | nil => rfl
  | append_singleton l a ih =>
    rw [wild_steps_snoc]
    unfold fuzzy_path at ih ⊢
    cases a with
    | key k =>
      show render_path _ (wild_steps l ++ [Step.key k]) = _
      rw [render_path_snoc, render_path_snoc, ih]
    | index i =>
      show render_path _ (wild_steps l ++ [Step.index 0]) = _
      rw [render_path_snoc, render_path_snoc, ih]
      rfl

/-- Routes that differ only in array indices have the same fuzzy path. -/
theorem fuzzy_path_of_wild (s1 s2 : List Step) (h : wild_steps s1 = wild_steps s2) :
    fuzzy_path s1 = fuzzy_path s2 := by
  rw [← fuzzy_path_wild s1, ← fuzzy_path_wild s2, h]

theorem exact_empty_of_wild (s1 s2 : List Step) (h : wild_steps s1 = wild_steps s2) :
    exact_path s1 = [] ↔ exact_path s2 = [] := by
  unfold exact_path
  rw [render_path_empty_iff (Nat.toDigits 10) (fun _ => [Char.ofNat 120]) s1,
    render_path_empty_iff (Nat.toDigits 10) (fun _ => [Char.ofNat 120]) s2]
  have := fuzzy_path_of_wild s1 s2 h
  unfold fuzzy_path at this
  rw [this]

/-- Routes that differ only in array indices and have the same exact path are
the same route. -/
theorem exact_path_injective : ∀ (s1 s2 : List Step), wild_steps s1 = wild_steps s2 →
    exact_path s1 = exact_path s2 → s1 = s2 := by
  intro s1
  induction s1 using List.reverseRecOn with
  | nil =>
    intro s2 hw _
    cases s2 with
    | nil => rfl
    | cons b l => simp [wild_steps] at hw
  | append_singleton l1 a ih =>
    intro s2 hw he
    rcases List.eq_nil_or_concat s2 with h2 | ⟨l2, b, h2⟩
    · subst h2
      simp [wild_steps] at hw
    · rw [List.concat_eq_append] at h2
      subst h2
      rw [wild_steps_snoc, wild_steps_snoc] at hw
      have hlen : (wild_steps l1).length = (wild_steps l2).length := by
        have := congrArg List.length hw
        simp only [List.length_append, wild_steps, List.length_map, List.length_singleton] at this
        simp only [wild_steps, List.length_map]
        omega
      obtain ⟨hw1, hw2⟩ := List.append_inj hw hlen
      have hemp := exact_empty_of_wild l1 l2 hw1
      unfold exact_path at he hemp
      rw [render_path_snoc, render_path_snoc] at he
      cases a with
      | key k =>
        cases b with
        | index j => simp [wild_steps] at hw2
        | key k' =>
          have hk : k = k' := by
            simp only [wild_steps, List.map_cons, List.map_nil, List.cons.injEq, Step.key.injEq,
              and_true] at hw2
            exact hw2
          subst hk
          simp only [ext_path] at he
          have he1 := List.append_cancel_right he
          have hP : render_path (Nat.toDigits 10) l1 = render_path (Nat.toDigits 10) l2 := by
            by_cases h1 : render_path (Nat.toDigits 10) l1 = []
            · rw [h1, hemp.1 h1]
            · have h2 : render_path (Nat.toDigits 10) l2 ≠ [] := fun h => h1 (hemp.2 h)
              have e1 : (render_path (Nat.toDigits 10) l1).isEmpty = false := by
                cases hh : render_path (Nat.toDigits 10) l1 with
                | nil => exact absurd hh h1
                | cons _ _ => rfl
              have e2 : (render_path (Nat.toDigits 10) l2).isEmpty = false := by
                cases hh : render_path (Nat.toDigits 10) l2 with
                | nil => exact absurd hh h2
                | cons _ _ => rfl
              rw [e1, e2] at he1
              exact List.append_cancel_right he1
          rw [ih l2 hw1 hP]
      | index i =>
        cases b with
        | key k' => simp [wild_steps] at hw2
        | index j =>
          simp only [ext_path] at he
          have he1 := List.append_cancel_right he
          rw [List.append_assoc, List.append_assoc] at he1
          obtain ⟨hP, hd⟩ := split_at_last (Char.ofNat 91) _ _ _ _
            (fun hm => (to_digits_spec i).1 _ hm rfl) (fun hm => (to_digits_spec j).1 _ hm rfl) he1
          rw [ih l2 hw1 hP, to_digits_injective i j hd]


/-! ## Claims C30 and C21: exact and fuzzy paths -/

theorem snprintf_key_short (s : List Char) (h : s.length < JXS_KEY_MAXLEN) :
    snprintf_key s = s := by
  unfold snprintf_key
  exact List.take_of_length_le (by omega)

/-- Claim C30: the exact path is built step by step.  `SET_NEW_LOCATOR` gives,
for a field, the parent path, a `.` unless the parent path is absent or empty,
and the key; for an array element, the parent path, `[`, the index in decimal
and `]`; both provided the result is shorter than `JXS_KEY_MAXLEN`.  Every
callback invocation of a serialization of the root tree sees as exact locator
the path of a route from the root to a node, cut to `JXS_KEY_MAXLEN - 1`
characters, so the path itself when it is shorter than `JXS_KEY_MAXLEN`; and
the path of the route `a`, `b`, 2, `c` is `a.b[2].c`. -/
theorem c30_exact_path_construction (lib : JsonLib) :
    (∀ (P key : List Char),
      (P ++ (if P.isEmpty then [] else [Char.ofNat 46]) ++ key).length < JXS_KEY_MAXLEN →
      SET_NEW_LOCATOR (some P) key false 0
        = P ++ (if P.isEmpty then [] else [Char.ofNat 46]) ++ key) ∧
    (∀ (key : List Char), key.length < JXS_KEY_MAXLEN →
      SET_NEW_LOCATOR none key false 0 = key) ∧
    (∀ (P key : List Char) (i : Nat),
      (P ++ [Char.ofNat 91] ++ Nat.toDigits 10 i ++ [Char.ofNat 93]).length < JXS_KEY_MAXLEN →
      SET_NEW_LOCATOR (some P) key true i
        = P ++ [Char.ofNat 91] ++ Nat.toDigits 10 i ++ [Char.ofNat 93]) ∧
    (∀ (steps : List Step) (k : List Char) (i : Nat),
      exact_path (steps ++ [.key k])
        = exact_path steps ++ (if (exact_path steps).isEmpty then [] else [Char.ofNat 46]) ++ k ∧
      exact_path (steps ++ [.index i])
        = exact_path steps ++ [Char.ofNat 91] ++ Nat.toDigits 10 i ++ [Char.ofNat 93]) ∧
    (∀ fuel p jso (w : World) r, w.ctx.now_locator = none → w.ctx.now_fzlocator = none →
      jmap_to_json_object lib fuel p jso w = some r →
      ∃ vs, r.2.2.cb_calls = w.cb_calls ++ vs ∧
        ∀ v ∈ vs, ∃ steps it, Route w.mappers p steps it ∧
          v.locator = some (snprintf_key (exact_path steps)) ∧
          ((exact_path steps).length < JXS_KEY_MAXLEN → v.locator = some (exact_path steps))) ∧
    exact_path [.key "a".toList, .key "b".toList, .index 2, .key "c".toList]
      = "a.b[2].c".toList := by
  refine ⟨?_, ?_, ?_, ?_, ?_, by decide⟩
  · intro P key h
    unfold SET_NEW_LOCATOR
    simp only [Bool.false_eq_true, if_false, Option.getD_some]
    cases P with
    | nil => exact snprintf_key_short _ h
    | cons c t => exact snprintf_key_short _ h
  · intro key h
    unfold SET_NEW_LOCATOR
    simp only [Bool.false_eq_true, if_false, Option.getD_none, List.nil_append,
      List.append_nil]
    exact snprintf_key_short _ h
  · intro P key i h
    unfold SET_NEW_LOCATOR
    simp only [if_true, Option.getD_some]
    exact snprintf_key_short _ h
  · intro steps k i
    unfold exact_path
    rw [render_path_snoc, render_path_snoc]
    exact ⟨rfl, rfl⟩
  · intro fuel p jso w r hl hf h
    obtain ⟨vs, hvs, hg⟩ := to_json_object_views lib fuel p jso w r hl hf h
    refine ⟨vs, hvs, fun v hv => ?_⟩
    obtain ⟨steps, it, hr, hloc, _⟩ := hg v hv
    exact ⟨steps, it, hr, hloc, fun hlen => by rw [hloc, snprintf_key_short _ hlen]⟩

/-- Witness of `c30_exact_path_construction`: the serialization of the tree of
`bld_path` returns 0 and the callback sees, in turn, the exact locators `a`,
`a.b`, `a.b[0]`, `a.b[0].c`, `a.b[1]`, `a.b[1].c`, `a.b[2]` and `a.b[2].c`. -/
theorem c30_exact_path_construction_witness :
    world_path.ctx.now_locator = none ∧ world_path.ctx.now_fzlocator = none ∧
    ∃ r, jmap_to_json_object lib0 4 0 (.object []) world_path = some r ∧ r.1 = 0 ∧
      r.2.2.cb_calls.map (fun c => c.locator)
        = [some "a".toList, some "a.b".toList, some "a.b[0]".toList, some "a.b[0].c".toList,
           some "a.b[1]".toList, some "a.b[1].c".toList, some "a.b[2]".toList,
           some "a.b[2].c".toList] ∧
      ∃ vs, r.2.2.cb_calls = world_path.cb_calls ++ vs ∧
        ∀ v ∈ vs, ∃ steps it, Route world_path.mappers 0 steps it ∧
          v.locator = some (snprintf_key (exact_path steps)) ∧
          ((exact_path steps).length < JXS_KEY_MAXLEN → v.locator = some (exact_path steps)) := by
  have he : (jmap_to_json_object lib0 4 0 (.object []) world_path).map
      (fun r => (r.1, r.2.2.cb_calls.map (fun c => c.locator)))
      = some (0, [some "a".toList, some "a.b".toList, some "a.b[0]".toList,
           some "a.b[0].c".toList, some "a.b[1]".toList, some "a.b[1].c".toList,
           some "a.b[2]".toList, some "a.b[2].c".toList]) := by decide
  cases hr : jmap_to_json_object lib0 4 0 (.object []) world_path with
  | none => rw [hr] at he; cases he
  | some r =>
    rw [hr] at he
    simp only [Option.map_some', Option.some.injEq, Prod.mk.injEq] at he
    exact ⟨rfl, rfl, r, rfl, he.1, he.2,
      (c30_exact_path_construction lib0).2.2.2.2.1 4 0 _ world_path r rfl rfl hr⟩

/-- Claim C21 as stated fails: the field `v[2]` has a key of 1022 characters;
the visits of its elements 0 and 1 differ only in the array index, and the
callback sees the same exact locator for both, the key followed by `[`. -/
theorem c21_counterexample_truncated_path :
    (jmap_to_json_object lib0 2 0 (.object []) world_long).map
      (fun r => (r.1, r.2.2.cb_calls.map (fun c => c.vptr),
        decide ((r.2.2.cb_calls.map (fun c => c.locator)).getD 1 none
          = (r.2.2.cb_calls.map (fun c => c.locator)).getD 2 none),
        decide ((r.2.2.cb_calls.map (fun c => c.locator)).getD 1 none
          = some (long_key ++ [Char.ofNat 91]))))
      = some (0, [100, 100, 104], true, true) := by
  decide

/-- Claim C21, amended: every callback invocation of a serialization of the
root tree sees the exact and the fuzzy path of one route from the root to a
node, each cut to `JXS_KEY_MAXLEN - 1` characters; the fuzzy path is the exact
path with every index rendered as `x` (both are `render_path` of the same
steps).  Two routes that differ only in array indices have the same fuzzy path
and different exact paths, and the exact locators differ when both exact paths
are shorter than `JXS_KEY_MAXLEN`; so `list[0].thumb.url` and
`list[1].thumb.url` share the fuzzy path `list[x].thumb.url`. -/
theorem c21_fuzzy_path_is_wildcard_path (lib : JsonLib) :
    (∀ fuel p jso (w : World) r, w.ctx.now_locator = none → w.ctx.now_fzlocator = none →
      jmap_to_json_object lib fuel p jso w = some r →
      ∃ vs, r.2.2.cb_calls = w.cb_calls ++ vs ∧
        ∀ v ∈ vs, ∃ steps it, Route w.mappers p steps it ∧
          v.locator = some (snprintf_key (render_path (Nat.toDigits 10) steps)) ∧
          v.fzlocator = some (snprintf_key (render_path (fun _ => [Char.ofNat 120]) steps)) ∧
          ((exact_path steps).length < JXS_KEY_MAXLEN →
            (fuzzy_path steps).length < JXS_KEY_MAXLEN →
            v.locator = some (exact_path steps) ∧ v.fzlocator = some (fuzzy_path steps))) ∧
    (∀ s1 s2 : List Step, wild_steps s1 = wild_steps s2 →
      fuzzy_path s1 = fuzzy_path s2 ∧
      (s1 ≠ s2 → exact_path s1 ≠ exact_path s2) ∧
      (s1 ≠ s2 → (exact_path s1).length < JXS_KEY_MAXLEN →
        (exact_path s2).length < JXS_KEY_MAXLEN →
        snprintf_key (exact_path s1) ≠ snprintf_key (exact_path s2))) ∧
    exact_path [.key "list".toList, .index 0, .key "thumb".toList, .key "url".toList]
      = "list[0].thumb.url".toList ∧
    exact_path [.key "list".toList, .index 1, .key "thumb".toList, .key "url".toList]
      = "list[1].thumb.url".toList ∧
    fuzzy_path [.key "list".toList, .index 0, .key "thumb".toList, .key "url".toList]
      = "list[x].thumb.url".toList ∧
    fuzzy_path [.key "list".toList, .index 1, .key "thumb".toList, .key "url".toList]
      = "list[x].thumb.url".toList := by
  refine ⟨?_, ?_, by decide, by decide, by decide, by decide⟩
  · intro fuel p jso w r hl hf h
    obtain ⟨vs, hvs, hg⟩ := to_json_object_views lib fuel p jso w r hl hf h
    refine ⟨vs, hvs, fun v hv => ?_⟩
    obtain ⟨steps, it, hr, hloc, hfz⟩ := hg v hv
    refine ⟨steps, it, hr, hloc, hfz, fun h1 h2 => ?_⟩
    rw [hloc, hfz, snprintf_key_short _ h1, snprintf_key_short _ h2]
    exact ⟨rfl, rfl⟩
  · intro s1 s2 hw
    refine ⟨fuzzy_path_of_wild s1 s2 hw, fun hne he => hne (exact_path_injective s1 s2 hw he),
      fun hne h1 h2 he => ?_⟩
    rw [snprintf_key_short _ h1, snprintf_key_short _ h2] at he
    exact hne (exact_path_injective s1 s2 hw he)

/-- Witness of `c21_fuzzy_path_is_wildcard_path`: in the serialization of the
tree of `bld_path` the callback sees the fuzzy locator `a.b[x].c` at each of the
exact locators `a.b[0].c`, `a.b[1].c` and `a.b[2].c`. -/
theorem c21_fuzzy_path_is_wildcard_path_witness :
    world_path.ctx.now_locator = none ∧ world_path.ctx.now_fzlocator = none ∧
    ∃ r, jmap_to_json_object lib0 4 0 (.object []) world_path = some r ∧ r.1 = 0 ∧
      r.2.2.cb_calls.map (fun c => c.fzlocator)
        = [some "a".toList, some "a.b".toList, some "a.b[x]".toList, some "a.b[x].c".toList,
           some "a.b[x]".toList, some "a.b[x].c".toList, some "a.b[x]".toList,
           some "a.b[x].c".toList] ∧
      ∃ vs, r.2.2.cb_calls = world_path.cb_calls ++ vs ∧
        ∀ v ∈ vs, ∃ steps it, Route world_path.mappers 0 steps it ∧
          v.locator = some (snprintf_key (render_path (Nat.toDigits 10) steps)) ∧
          v.fzlocator = some (snprintf_key (render_path (fun _ => [Char.ofNat 120]) steps)) ∧
          ((exact_path steps).length < JXS_KEY_MAXLEN →
            (fuzzy_path steps).length < JXS_KEY_MAXLEN →
            v.locator = some (exact_path steps) ∧ v.fzlocator = some (fuzzy_path steps)) := by
  have he : (jmap_to_json_object lib0 4 0 (.object []) world_path).map
      (fun r => (r.1, r.2.2.cb_calls.map (fun c => c.fzlocator)))
      = some (0, [some "a".toList, some "a.b".toList, some "a.b[x]".toList,
           some "a.b[x].c".toList, some "a.b[x]".toList, some "a.b[x].c".toList,
           some "a.b[x]".toList, some "a.b[x].c".toList]) := by decide
  cases hr : jmap_to_json_object lib0 4 0 (.object []) world_path with
  | none => rw [hr] at he; cases he
  | some r =>
    rw [hr] at he
    simp only [Option.map_some', Option.some.injEq, Prod.mk.injEq] at he
    exact ⟨rfl, rfl, r, rfl, he.1, he.2,
      (c21_fuzzy_path_is_wildcard_path lib0).1 4 0 _ world_path r rfl rfl hr⟩




/-! ## Claim C22: the form of the document produced -/

theorem doc_of_congr (S : Nat → jxs_mapper) {a : jmap_item_t} {j : Json} (h : DocOf S a j) :
    ∀ b, same_shape a b → DocOf S b j := by
  induction h with
  | struct it q kvs hty hq hk _ _ =>
    intro b hs
    have hf := same_shape_fields hs
    exact DocOf.struct b q kvs (hf.1 ▸ hty) (hf.2.2.2.1 ▸ hq) hk (by assumption)
  | nosub it hty hq =>
    intro b hs
    have hf := same_shape_fields hs
    exact DocOf.nosub b (hf.1 ▸ hty) (hf.2.2.2.1 ▸ hq)
  | array it xs hty hlen _ ih =>
    intro b hs
    have hf := same_shape_fields hs
    have hse := same_shape_next_dimen hs 0 0
    have harr := (same_shape_fields hse).2.2.2.2.2.1
    exact DocOf.array b xs (hf.1 ▸ hty) (by rw [← harr]; exact hlen)
      (fun i hi => ih i hi _ hse)
  | leaf it j h1 h2 =>
    intro b hs
    have hf := same_shape_fields hs
    exact DocOf.leaf b j (hf.1 ▸ h1) (hf.1 ▸ h2)

theorem kvs_add_new (kvs : List (List Char × Json)) (k : List Char) (v : Json)
    (h : k ∉ kvs.map Prod.fst) : kvs_add kvs k v = kvs ++ [(k, v)] := by
  induction kvs with
  | nil => rfl
  | cons hd tl ih =>
    obtain ⟨a, b⟩ := hd
    simp only [List.map_cons, List.mem_cons, not_or] at h
    have hne : ¬ a = k := fun e => h.1 e.symm
    simp only [kvs_add, hne, if_false, ih h.2, List.cons_append]

theorem node_keys_inj (S : Nat → jxs_mapper) (q : Nat) (hd : (node_keys S q).Nodup)
    (i j : Nat) (hi : i < (S q).jmhead.idx) (hj : j < (S q).jmhead.idx)
    (h : ((S q).jmlist i).key = ((S q).jmlist j).key) : i = j :=
  List.inj_on_of_nodup_map hd (List.mem_range.2 hi) (List.mem_range.2 hj) h

theorem doc_world_of_shape {S : Nat → jxs_mapper} {cb : Option (CbView → CbEffect)}
    {w w' : World} (h : DocWorld S cb w) (hs : ShapeFrame w w')
    (hc : w'.ctx.convert_callback = w.ctx.convert_callback) : DocWorld S cb w' :=
  ⟨shape_store_of_frame h.1 hs, hc.trans h.2⟩

theorem to_json_object_loop_doc (S : Nat → jxs_mapper) (cb : Option (CbView → CbEffect))
    {wr : Nat → jmap_item_t → Nat → World → Option (Int × Json × World)}
    (hwr : SerDocOK S cb wr) (hkd : KeysDistinct S) (q : Nat) (loc fz : Option (List Char)) :
    ∀ (n i : Nat) (kvs : List (List Char × Json)) (w : World) (r : Int × Json × World),
      DocWorld S cb w → i + n = (S q).jmhead.idx →
      kvs.map Prod.fst = (List.range i).map (fun k => ((S q).jmlist k).key) →
      (∀ k, k < i → DocOf S ((S q).jmlist k) (kvs_get kvs ((S q).jmlist k).key)) →
      to_json_object_loop wr q loc fz n i (.object kvs) w = some r →
      DocWorld S cb r.2.2 ∧ (r.1 = 0 ∨ r.1 = -1) ∧
      (r.1 = 0 → ∃ kvs', r.2.1 = .object kvs' ∧ kvs'.map Prod.fst = node_keys S q ∧
        ∀ k, k < (S q).jmhead.idx →
          DocOf S ((S q).jmlist k) (kvs_get kvs' ((S q).jmlist k).key)) := by
  intro n
  induction n with
  | zero =>
    intro i kvs w r hw hin hk hd h
    simp only [to_json_object_loop, Option.some.injEq] at h
    rw [← h]
    have hi : i = (S q).jmhead.idx := by omega
    subst hi
    exact ⟨hw, Or.inl rfl, fun _ => ⟨kvs, rfl, hk, hd⟩⟩
  | succ n ih =>
    intro i kvs w r hw hin hk hd h
    simp only [to_json_object_loop] at h
    split at h
    · cases h
    · rename_i r1 ij w2 hwr1
      have hsh := (hw.1 q).2 i
      have hkey : ((w.mappers q).jmlist i).key = ((S q).jmlist i).key :=
        (same_shape_fields hsh).2.1
      have hrule : StoreRule S ((w.mappers q).jmlist i) :=
        ⟨q, i, by omega, (same_shape_fields hsh).2.2.2.2.2.2⟩
      have hw1 : DocWorld S cb (set_now w
          (SET_NEW_LOCATOR loc ((w.mappers q).jmlist i).key false 0)
          (SET_NEW_FUZZY_LOCATOR fz loc ((w.mappers q).jmlist i).key false)) := hw
      obtain ⟨hw2, hret, hdoc⟩ := hwr _ _ _ _ _ hw1 hrule hwr1
      simp only [] at hw2 hret hdoc
      rcases hret with hr0 | hr1
      · subst hr0
        simp only [Int.reduceNeg, OfNat.zero_ne_ofNat, if_false, if_true] at h
        have hnew : ((S q).jmlist i).key ∉ kvs.map Prod.fst := by
          rw [hk]
          intro hm
          obtain ⟨k, hk1, hk2⟩ := List.mem_map.1 hm
          have hki := List.mem_range.1 hk1
          have := node_keys_inj S q (hkd q) k i (by omega) (by omega) hk2
          omega
        rw [hkey] at h
        simp only [json_object_object_add] at h
        rw [kvs_add_new _ _ _ hnew] at h
        refine ih (i + 1) _ w2 r hw2 (by omega) ?_ ?_ h
        · rw [List.map_append, hk, List.range_succ, List.map_append]
          rfl
        · intro k hk'
          have hget : kvs_get (kvs ++ [(((S q).jmlist i).key, ij)]) ((S q).jmlist k).key
              = if ((S q).jmlist k).key = ((S q).jmlist i).key then ij
                else kvs_get kvs ((S q).jmlist k).key := by
            rw [← kvs_add_new _ _ _ hnew, kvs_get_add]
          rw [hget]
          by_cases hki : k = i
          · subst hki
            simp only [if_true]
            exact doc_of_congr S (hdoc rfl) _ hsh
          · have hne : ((S q).jmlist k).key ≠ ((S q).jmlist i).key := fun e =>
              hki (node_keys_inj S q (hkd q) k i (by omega) (by omega) e)
            simp only [hne, if_false]
            exact hd k (by omega)
      · subst hr1
        simp only [if_true, Option.some.injEq] at h
        rw [← h]
        exact ⟨hw2, Or.inr rfl, fun h0 => absurd h0 int_neg_one_ne⟩

theorem to_json_array_loop_doc (S : Nat → jxs_mapper) (cb : Option (CbView → CbEffect))
    {wr : Nat → jmap_item_t → Nat → World → Option (Int × Json × World)}
    (hwr : SerDocOK S cb wr) (hp : Nat) (e : jmap_item_t) (hrule : StoreRule S e)
    (loc fz : Option (List Char)) :
    ∀ (n i : Nat) (xs : List Json) (w : World) (r : Int × Json × World),
      DocWorld S cb w → xs.length = i →
      (∀ k, k < i → DocOf S e (xs.getD k .null)) →
      to_json_array_loop wr hp e loc fz n i (.array xs) w = some r →
      DocWorld S cb r.2.2 ∧ (r.1 = 0 ∨ r.1 = -1) ∧
      (r.1 = 0 → ∃ xs', r.2.1 = .array xs' ∧ xs'.length = i + n ∧
        ∀ k, k < xs'.length → DocOf S e (xs'.getD k .null)) := by
  intro n
  induction n with
  | zero =>
    intro i xs w r hw hlen hd h
    simp only [to_json_array_loop, Option.some.injEq] at h
    rw [← h]
    exact ⟨hw, Or.inl rfl, fun _ => ⟨xs, rfl, by omega, fun k hk => hd k (by omega)⟩⟩
  | succ n ih =>
    intro i xs w r hw hlen hd h
    simp only [to_json_array_loop] at h
    split at h
    · cases h
    · rename_i r1 ij w2 hwr1
      have hw1 : DocWorld S cb (set_now w (SET_NEW_LOCATOR loc e.key true i)
          (SET_NEW_FUZZY_LOCATOR fz loc e.key true)) := hw
      obtain ⟨hw2, hret, hdoc⟩ := hwr _ _ _ _ _ hw1 hrule hwr1
      simp only [] at hw2 hret hdoc
      rcases hret with hr0 | hr1
      · subst hr0
        simp only [Int.reduceNeg, OfNat.zero_ne_ofNat, if_false, if_true] at h
        simp only [json_object_array_add] at h
        obtain ⟨h1, h2, h3⟩ := ih (i + 1) (xs ++ [ij]) w2 r hw2 (by simp [hlen]) (by
          intro k hk
          by_cases hki : k < i
          · rw [List.getD_append _ _ _ _ (by omega)]
            exact hd k hki
          · have hk2 : k = xs.length := by omega
            subst hk2
            rw [List.getD_append_right _ _ _ _ (le_refl _)]
            simp only [Nat.sub_self, List.getD_cons_zero]
            exact hdoc rfl) h
        refine ⟨h1, h2, fun h0 => ?_⟩
        obtain ⟨xs', e1, e2, e3⟩ := h3 h0
        exact ⟨xs', e1, by omega, e3⟩
      · subst hr1
        simp only [if_true, Option.some.injEq] at h
        rw [← h]
        exact ⟨hw2, Or.inr rfl, fun h0 => absurd h0 int_neg_one_ne⟩


theorem to_json_by_type_doc (lib : JsonLib) (S : Nat → jxs_mapper)
    (cb : Option (CbView → CbEffect))
    {wr : Nat → jmap_item_t → Nat → World → Option (Int × Json × World)}
    (hwr : SerDocOK S cb wr) (hkd : KeysDistinct S)
    (hp : Nat) (it : jmap_item_t) (idx vptr : Nat) (w : World) (r : Int × Json × World)
    (hw : DocWorld S cb w) (hrule : StoreRule S it)
    (h : to_json_by_type lib wr hp it idx vptr w = some r) (h0 : r.1 = 0) :
    DocOf S it r.2.1 := by
  unfold to_json_by_type at h
  split at h
  · rename_i hty
    split at h
    · rename_i hq
      simp only [Option.some.injEq] at h
      rw [← h]
      exact DocOf.nosub it hty hq
    · rename_i q hq
      simp only [] at h
      split at h
      · cases h
      · rename_i r1 jso w4 hw3
        have hW3 : DocWorld S cb (jmap_struct_move_forward
            (set_start_addr w q (node_base w hp it)) q it.size idx) :=
          doc_world_of_shape hw (shape_frame_forward _ _ _ _ _) rfl
        unfold jmap_to_json_object_with at hw3
        simp only [Json.is_null, Json.is_object, Bool.false_eq_true, if_false,
          Bool.not_true] at hw3
        have hidx := (hW3.1 q).1
        rw [hidx] at hw3
        obtain ⟨_, _, hdoc⟩ := to_json_object_loop_doc S cb hwr hkd q _ _ _ 0 [] _ _ hW3
          (by omega) rfl (fun k hk => absurd hk (by omega)) hw3
        simp only [] at hdoc
        by_cases hr1 : r1 = -1
        · simp only [hr1, if_true, Option.some.injEq] at h
          rw [← h] at h0
          exact absurd h0 int_neg_one_ne
        · simp only [hr1, if_false, Option.some.injEq] at h
          rw [← h] at h0 ⊢
          obtain ⟨kvs, e1, e2, e3⟩ := hdoc h0
          simp only [] at e1 ⊢
          rw [e1]
          exact DocOf.struct it q kvs hty hq e2 e3
  · rename_i hty
    split at h
    · cases h
    · rename_i r1 jso w4 hw3
      unfold jmap_to_json_array_with at hw3
      by_cases hr1 : r1 = -1
      · simp only [hr1, if_true, Option.some.injEq] at h
        rw [← h] at h0
        exact absurd h0 int_neg_one_ne
      · simp only [hr1, if_false, Option.some.injEq] at h
        rw [← h] at h0 ⊢
        simp only [] at h0 ⊢
        split at hw3
        · simp only [Option.some.injEq, Prod.mk.injEq] at hw3
          exact absurd hw3.1.symm hr1
        · rename_i hsz
          simp only [Json.is_array, Bool.not_true, Bool.false_eq_true, if_false] at hw3
          have hsz0 : (jmap_array_move_next_dimen it idx).size ≠ 0 := fun hz => hsz (Or.inl hz)
          have hre : StoreRule S (jmap_array_move_next_dimen it idx) := by
            obtain ⟨p, i, hi, hr⟩ := hrule
            exact ⟨p, i, hi, (next_dimen_rule it idx hsz0).trans hr⟩
          obtain ⟨_, _, hdoc⟩ := to_json_array_loop_doc S cb hwr hp _ hre _ _ _ 0 [] _ _ hw
            rfl (fun k hk => absurd hk (by omega)) hw3
          obtain ⟨xs, e1, e2, e3⟩ := hdoc h0
          simp only [] at e1
          rw [e1]
          have hse := same_shape_next_dimen (same_shape_refl it) idx 0
          have harr := (same_shape_fields hse).2.2.2.2.2.1
          exact DocOf.array it xs hty (by rw [← harr]; omega)
            (fun i hi => doc_of_congr S (e3 i hi) _ hse)
  · rename_i hns hna
    exact DocOf.leaf it _ (fun e => hns e) (fun e => hna e)

/-- When every action is Keep, the serialization wrapper returns 0 or -1 and,
with 0, a value of the form given by the node. -/
theorem ser_wrapper_doc (lib : JsonLib) (S : Nat → jxs_mapper)
    (cb : Option (CbView → CbEffect))
    (hkeep : ∀ (w : World) (it : jmap_item_t) (v : Nat), w.ctx.convert_callback = cb →
      StoreRule S it → (jmap_convert_handler w it v).1 = item_action.RULE_ITEM_KEEP)
    (hkd : KeysDistinct S) : ∀ fuel, SerDocOK S cb (jmap_to_json_warpper lib fuel) := by
  intro fuel
  induction fuel with
  | zero =>
    intro hp it idx w r _ _ h
    simp [jmap_to_json_warpper] at h
  | succ fuel ih =>
    intro hp it idx w r hw hrule h
    have hW : DocWorld S cb r.2.2 :=
      doc_world_of_shape hw (ser_wrapper_shape lib _ hp it idx w r h)
        (ser_wrapper_callback lib _ hp it idx w r h)
    refine ⟨hW, ?_⟩
    simp only [jmap_to_json_warpper] at h
    split at h
    · simp only [Option.some.injEq] at h
      rw [← h]
      exact ⟨Or.inr rfl, fun h0 => absurd h0 int_neg_one_ne⟩
    · have hk := hkeep (record_visit w (node_addr w hp it idx) it) it (node_addr w hp it idx)
        hw.2 hrule
      have hw1 : DocWorld S cb (jmap_convert_handler (record_visit w (node_addr w hp it idx) it)
          it (node_addr w hp it idx)).2 :=
        ⟨by
          have hm := handler_mappers (record_visit w (node_addr w hp it idx) it) it
            (node_addr w hp it idx)
          intro q
          rw [hm]
          exact hw.1 q,
         (handler_callback _ _ _).trans hw.2⟩
      rw [hk] at h
      simp only [] at h
      obtain ⟨r1, j, w'⟩ := r
      exact ⟨to_json_by_type_ret lib _ hp it idx _ _ r1 j w' h,
        fun h0 => to_json_by_type_doc lib S cb ih hkd hp it idx _ _ _ hw1 hrule h h0⟩

theorem keeps_all_no_callback (w : World) (hcb : w.ctx.convert_callback = none)
    (hr : ∀ p i, i < (w.mappers p).jmhead.idx → ((w.mappers p).jmlist i).rule = JXS_RULE_KEEP_RAW) :
    KeepsAll w := by
  intro w' it v hc hs
  obtain ⟨p, i, hi, hrule⟩ := hs
  have h1 : it.rule = JXS_RULE_KEEP_RAW := hrule.trans (hr p i hi)
  rw [handler_no_callback w' it v (by rw [h1]; decide) (hc.trans hcb)]
  simp [h1]

/-- Claim C22: with every action Keep and pairwise distinct keys in each tree,
the object that `jmap_to_json_object` builds from an empty object for tree `p`
has exactly one entry per node of `p`, in declaration order and under the
node's key (`kvs.map Prod.fst` is the list of node keys); the value of a
sub-structure node is an object of the same form for its sub-tree, and the
value of an array node is an array with one element per index, each of the form
given by the element node (`DocOf`). -/
theorem c22_object_in_declaration_order (lib : JsonLib) (fuel p : Nat) (w : World)
    (r : Int × Json × World) (hkeep : KeepsAll w) (hkd : KeysDistinct w.mappers)
    (h : jmap_to_json_object lib fuel p (.object []) w = some r) (h0 : r.1 = 0) :
    ∃ kvs, r.2.1 = .object kvs ∧
      kvs.map Prod.fst
        = (List.range (w.mappers p).jmhead.idx).map (fun i => ((w.mappers p).jmlist i).key) ∧
      kvs.length = (w.mappers p).jmhead.idx ∧
      ∀ i, i < (w.mappers p).jmhead.idx →
        DocOf w.mappers ((w.mappers p).jmlist i) (kvs_get kvs ((w.mappers p).jmlist i).key) := by
  have hW : DocWorld w.mappers w.ctx.convert_callback w :=
    ⟨fun q => ⟨rfl, fun i => same_shape_refl _⟩, rfl⟩
  unfold jmap_to_json_object jmap_to_json_object_with at h
  simp only [Json.is_null, Json.is_object, Bool.false_eq_true, if_false, Bool.not_true] at h
  obtain ⟨_, _, hdoc⟩ := to_json_object_loop_doc w.mappers w.ctx.convert_callback
    (ser_wrapper_doc lib w.mappers w.ctx.convert_callback
      (fun w' it v hc hs => hkeep w' it v hc hs) hkd fuel) hkd p _ _ _ 0 [] w r hW
    (by omega) rfl (fun k hk => absurd hk (by omega)) h
  obtain ⟨kvs, e1, e2, e3⟩ := hdoc h0
  refine ⟨kvs, e1, e2, ?_, e3⟩
  have := congrArg List.length e2
  simpa [node_keys] using this


theorem world_rec_keep_raw : ∀ p i, i < (world_rec.mappers p).jmhead.idx →
    ((world_rec.mappers p).jmlist i).rule = JXS_RULE_KEEP_RAW := by
  intro p i hi
  by_cases h0 : p = 0
  · subst h0
    exact (show ∀ i, i < 4 → ((world_rec.mappers 0).jmlist i).rule = JXS_RULE_KEEP_RAW
      by decide) i hi
  · by_cases h5 : p = 5
    · subst h5
      exact (show ∀ i, i < 2 → ((world_rec.mappers 5).jmlist i).rule = JXS_RULE_KEEP_RAW
        by decide) i hi
    · rw [world_rec_other p h0 h5] at hi
      exact absurd hi (by simp [jxs_mapper_zero])

theorem world_rec_keys : KeysDistinct world_rec.mappers := by
  intro q
  by_cases h0 : q = 0
  · subst h0; decide
  · by_cases h5 : q = 5
    · subst h5; decide
    · unfold node_keys
      rw [world_rec_other q h0 h5]
      simp [jxs_mapper_zero]

/-- Witness of `c22_object_in_declaration_order`: the tree of `bld_rec`, with
keys `n`, `s`, `v`, `t`; the document has these four keys in this order. -/
theorem c22_object_in_declaration_order_witness :
    KeepsAll world_rec ∧ KeysDistinct world_rec.mappers ∧
    ∃ r, jmap_to_json_object lib0 3 0 (.object []) world_rec = some r ∧ r.1 = 0 ∧
      r.2.1.keys = [[Char.ofNat 110], [Char.ofNat 115], [Char.ofNat 118], [Char.ofNat 116]] ∧
      ∃ kvs, r.2.1 = .object kvs ∧
        kvs.map Prod.fst = (List.range (world_rec.mappers 0).jmhead.idx).map
          (fun i => ((world_rec.mappers 0).jmlist i).key) ∧
        kvs.length = (world_rec.mappers 0).jmhead.idx ∧
        ∀ i, i < (world_rec.mappers 0).jmhead.idx →
          DocOf world_rec.mappers ((world_rec.mappers 0).jmlist i)
            (kvs_get kvs ((world_rec.mappers 0).jmlist i).key) := by
  have he : (jmap_to_json_object lib0 3 0 (.object []) world_rec).map
      (fun r => (r.1, r.2.1.keys))
      = some (0, [[Char.ofNat 110], [Char.ofNat 115], [Char.ofNat 118], [Char.ofNat 116]]) := by
    decide
  have hk := keeps_all_no_callback world_rec rfl world_rec_keep_raw
  cases hr : jmap_to_json_object lib0 3 0 (.object []) world_rec with
  | none => rw [hr] at he; cases he
  | some r =>
    rw [hr] at he
    simp only [Option.map_some', Option.some.injEq, Prod.mk.injEq] at he
    exact ⟨hk, world_rec_keys, r, rfl, he.1, he.2,
      c22_object_in_declaration_order lib0 3 0 world_rec r hk world_rec_keys hr he.1⟩



/-! ## Claim C23: the key and the rule of a node can be replaced -/

theorem to_json_object_doc (lib : JsonLib) (fuel p : Nat) (w : World)
    (r : Int × Json × World) (hkeep : KeepsAll w) (hkd : KeysDistinct w.mappers)
    (h : jmap_to_json_object lib fuel p (.object []) w = some r) (h0 : r.1 = 0) :
    ∃ kvs, r.2.1 = .object kvs ∧ kvs.map Prod.fst = node_keys w.mappers p ∧
      ∀ i, i < (w.mappers p).jmhead.idx →
        DocOf w.mappers ((w.mappers p).jmlist i) (kvs_get kvs ((w.mappers p).jmlist i).key) := by
  have hW : DocWorld w.mappers w.ctx.convert_callback w :=
    ⟨fun q => ⟨rfl, fun i => same_shape_refl _⟩, rfl⟩
  unfold jmap_to_json_object jmap_to_json_object_with at h
  simp only [Json.is_null, Json.is_object, Bool.false_eq_true, if_false, Bool.not_true] at h
  obtain ⟨_, _, hdoc⟩ := to_json_object_loop_doc w.mappers w.ctx.convert_callback
    (ser_wrapper_doc lib w.mappers w.ctx.convert_callback
      (fun w' it v hc hs => hkeep w' it v hc hs) hkd fuel) hkd p _ _ _ 0 [] w r hW
    (by omega) rfl (fun k hk => absurd hk (by omega)) h
  exact hdoc h0

theorem from_json_object_loop_congr
    {wr : Nat → jmap_item_t → Nat → Json → World → Option (Int × World)}
    (hws : ∀ hp it idx j w r, wr hp it idx j w = some r → ShapeFrame w r.2)
    (w0 : World) (p : Nat) (loc fz : Option (List Char)) (d1 d2 : Json)
    (hd : ∀ j, j < (w0.mappers p).jmhead.idx →
      json_object_object_get d1 ((w0.mappers p).jmlist j).key
        = json_object_object_get d2 ((w0.mappers p).jmlist j).key) :
    ∀ (n i : Nat) (w : World), ShapeFrame w0 w → i + n ≤ (w0.mappers p).jmhead.idx →
      from_json_object_loop wr p loc fz d1 n i w = from_json_object_loop wr p loc fz d2 n i w := by
  intro n
  induction n with
  | zero => intro i w _ _; rfl
  | succ n ih =>
    intro i w hS hin
    simp only [from_json_object_loop]
    have hk : ((w.mappers p).jmlist i).key = ((w0.mappers p).jmlist i).key :=
      (same_shape_fields (hS.item p i)).2.1
    rw [hk, hd i (by omega)]
    cases hw : wr p ((w.mappers p).jmlist i) 0
        (json_object_object_get d2 ((w0.mappers p).jmlist i).key)
        (set_now w (SET_NEW_LOCATOR loc ((w0.mappers p).jmlist i).key false 0)
          (SET_NEW_FUZZY_LOCATOR fz loc ((w0.mappers p).jmlist i).key false)) with
    | none => rfl
    | some r =>
      obtain ⟨ret, w2⟩ := r
      simp only []
      by_cases hr : ret = 0
      · simp only [hr, ne_eq, not_true_eq_false, if_false]
        have hS2 : ShapeFrame w0 w2 :=
          shape_frame_trans _ _ _ hS
            (shape_frame_trans _ _ _ (shape_frame_of_mappers_eq (set_now_mappers w _ _))
              (hws _ _ _ _ _ _ hw))
        exact ih (i + 1) w2 hS2 (by omega)
      · simp only [ne_eq, hr, not_false_eq_true, if_true]

/-- Deserialization of a tree reads the document only at the keys of the nodes
of the tree: two present documents with the same values under these keys give
the same result. -/
theorem from_json_object_congr (lib : JsonLib) (fuel p : Nat) (d1 d2 : Json) (w : World)
    (h1 : d1.is_null = false) (h2 : d2.is_null = false)
    (hd : ∀ j, j < (w.mappers p).jmhead.idx →
      json_object_object_get d1 ((w.mappers p).jmlist j).key
        = json_object_object_get d2 ((w.mappers p).jmlist j).key) :
    jmap_from_json_object lib fuel p d1 w = jmap_from_json_object lib fuel p d2 w := by
  unfold jmap_from_json_object jmap_from_json_object_with
  simp only [h1, h2, Bool.false_eq_true, if_false]
  exact from_json_object_loop_congr (de_wrapper_shape lib fuel) w p _ _ d1 d2 hd _ 0 w
    (shape_frame_refl w) (by omega)

theorem set_constkey_mappers (w : World) (p i : Nat) (k : List Char) (q : Nat) :
    (jxs_item_set_constkey w (some (p, i)) k).mappers q
      = if q = p then
          { jmhead := (w.mappers p).jmhead,
            jmlist := set_slot (w.mappers p).jmlist i
              { ((w.mappers p).jmlist i) with key := k } }
        else w.mappers q := by
  simp only [jxs_item_set_constkey, set_mapper]

theorem set_rule_mappers (w : World) (p i : Nat) (rule : Int) (q : Nat) :
    (jxs_item_set_rule w (some (p, i)) rule).mappers q
      = if q = p then
          { jmhead := (w.mappers p).jmhead,
            jmlist := set_slot (w.mappers p).jmlist i
              { ((w.mappers p).jmlist i) with rule := of_signed 1 rule } }
        else w.mappers q := by
  simp only [jxs_item_set_rule, set_mapper]

/-- Claim C23: `jxs_item_set_constkey` replaces the key of the node and nothing
else (no other field of the node, no other node, no tree head, neither context
nor memory), and `jxs_item_set_rule` does the same for the rule (the byte the
rule is cast to).  After `jxs_item_set_constkey(item, k)` a serialization with
every action Keep and distinct keys emits the entry of the node under `k`, at
the node's place in declaration order, and a deserialization reads the document
only at the keys the nodes then have, so `k` for this node: two documents that
agree there give the same result, whatever they hold under the former key. -/
theorem c23_constkey_replaces_key (lib : JsonLib) (w : World) (p i : Nat) (k : List Char) :
    (((jxs_item_set_constkey w (some (p, i)) k).mappers p).jmlist i
        = { ((w.mappers p).jmlist i) with key := k } ∧
      (∀ q j, (q ≠ p ∨ j ≠ i) →
        ((jxs_item_set_constkey w (some (p, i)) k).mappers q).jmlist j
          = (w.mappers q).jmlist j) ∧
      (∀ q, ((jxs_item_set_constkey w (some (p, i)) k).mappers q).jmhead
        = (w.mappers q).jmhead) ∧
      (jxs_item_set_constkey w (some (p, i)) k).ctx = w.ctx ∧
      (jxs_item_set_constkey w (some (p, i)) k).mem = w.mem ∧
      jxs_item_set_constkey w none k = w) ∧
    (∀ rule : Int,
      ((jxs_item_set_rule w (some (p, i)) rule).mappers p).jmlist i
        = { ((w.mappers p).jmlist i) with rule := of_signed 1 rule } ∧
      (∀ q j, (q ≠ p ∨ j ≠ i) →
        ((jxs_item_set_rule w (some (p, i)) rule).mappers q).jmlist j
          = (w.mappers q).jmlist j) ∧
      (∀ q, ((jxs_item_set_rule w (some (p, i)) rule).mappers q).jmhead
        = (w.mappers q).jmhead) ∧
      (jxs_item_set_rule w (some (p, i)) rule).ctx = w.ctx ∧
      (jxs_item_set_rule w (some (p, i)) rule).mem = w.mem ∧
      jxs_item_set_rule w none rule = w) ∧
    (∀ fuel r, i < (w.mappers p).jmhead.idx →
      KeepsAll (jxs_item_set_constkey w (some (p, i)) k) →
      KeysDistinct (jxs_item_set_constkey w (some (p, i)) k).mappers →
      jmap_to_json_object lib fuel p (.object [])
        (jxs_item_set_constkey w (some (p, i)) k) = some r → r.1 = 0 →
      ∃ kvs, r.2.1 = .object kvs ∧
        kvs.map Prod.fst = (List.range (w.mappers p).jmhead.idx).map
          (fun j => if j = i then k else ((w.mappers p).jmlist j).key) ∧
        (kvs.map Prod.fst).getD i [] = k) ∧
    (∀ fuel d1 d2, d1.is_null = false → d2.is_null = false →
      (∀ j, j < (w.mappers p).jmhead.idx →
        json_object_object_get d1 (if j = i then k else ((w.mappers p).jmlist j).key)
          = json_object_object_get d2 (if j = i then k else ((w.mappers p).jmlist j).key)) →
      jmap_from_json_object lib fuel p d1 (jxs_item_set_constkey w (some (p, i)) k)
        = jmap_from_json_object lib fuel p d2 (jxs_item_set_constkey w (some (p, i)) k)) := by
  have hkey : ∀ j, (((jxs_item_set_constkey w (some (p, i)) k).mappers p).jmlist j).key
      = if j = i then k else ((w.mappers p).jmlist j).key := by
    intro j
    rw [set_constkey_mappers]
    simp only [if_true, set_slot]
    by_cases hj : j = i <;> simp [hj]
  have hidx : ((jxs_item_set_constkey w (some (p, i)) k).mappers p).jmhead.idx
      = (w.mappers p).jmhead.idx := by
    rw [set_constkey_mappers]
    simp only [if_true]
  refine ⟨⟨?_, ?_, ?_, rfl, rfl, rfl⟩, fun rule => ⟨?_, ?_, ?_, rfl, rfl, rfl⟩, ?_, ?_⟩
  · rw [set_constkey_mappers]
    simp only [if_true, set_slot]
  · intro q j h
    rw [set_constkey_mappers]
    by_cases hq : q = p
    · subst hq
      have hj : j ≠ i := by
        rcases h with h | h
        · exact absurd rfl h
        · exact h
      simp only [if_true, set_slot, hj, if_false]
    · simp only [hq, if_false]
  · intro q
    rw [set_constkey_mappers]
    by_cases hq : q = p
    · subst hq; simp only [if_true]
    · simp only [hq, if_false]
  · rw [set_rule_mappers]
    simp only [if_true, set_slot]
  · intro q j h
    rw [set_rule_mappers]
    by_cases hq : q = p
    · subst hq
      have hj : j ≠ i := by
        rcases h with h | h
        · exact absurd rfl h
        · exact h
      simp only [if_true, set_slot, hj, if_false]
    · simp only [hq, if_false]
  · intro q
    rw [set_rule_mappers]
    by_cases hq : q = p
    · subst hq; simp only [if_true]
    · simp only [hq, if_false]
  · intro fuel r hi hkeep hkd h h0
    obtain ⟨kvs, e1, e2, _⟩ := to_json_object_doc lib fuel p _ r hkeep hkd h h0
    have e3 : kvs.map Prod.fst = (List.range (w.mappers p).jmhead.idx).map
        (fun j => if j = i then k else ((w.mappers p).jmlist j).key) := by
      rw [e2]
      unfold node_keys
      rw [hidx]
      exact List.map_congr_left (fun j _ => hkey j)
    refine ⟨kvs, e1, e3, ?_⟩
    rw [e3, List.getD_eq_getElem _ _ (by simpa using hi)]
    simp
  · intro fuel d1 d2 h1 h2 hd
    apply from_json_object_congr lib fuel p d1 d2 _ h1 h2
    intro j hj
    rw [hidx] at hj
    rw [hkey j]
    exact hd j hj


theorem world_rec_constkey_other (q : Nat) (hq : q ≠ 0) :
    (jxs_item_set_constkey world_rec (some (0, 0)) [Char.ofNat 120]).mappers q
      = world_rec.mappers q := by
  rw [set_constkey_mappers]
  simp only [hq, if_false]

theorem world_rec_constkey_keep : ∀ p i,
    i < ((jxs_item_set_constkey world_rec (some (0, 0)) [Char.ofNat 120]).mappers p).jmhead.idx →
    (((jxs_item_set_constkey world_rec (some (0, 0)) [Char.ofNat 120]).mappers p).jmlist i).rule
      = JXS_RULE_KEEP_RAW := by
  intro p i hi
  by_cases h0 : p = 0
  · subst h0
    exact (show ∀ i, i < 4 →
      (((jxs_item_set_constkey world_rec (some (0, 0)) [Char.ofNat 120]).mappers 0).jmlist i).rule
        = JXS_RULE_KEEP_RAW by decide) i hi
  · rw [world_rec_constkey_other p h0] at hi ⊢
    exact world_rec_keep_raw p i hi

theorem world_rec_constkey_keys :
    KeysDistinct (jxs_item_set_constkey world_rec (some (0, 0)) [Char.ofNat 120]).mappers := by
  intro q
  by_cases h0 : q = 0
  · subst h0; decide
  · unfold node_keys
    rw [world_rec_constkey_other q h0]
    exact world_rec_keys q

/-- Witness of `c23_constkey_replaces_key`: node `n` of the tree of `bld_rec`
gets the key `x`.  The serialization emits the keys `x`, `s`, `v`, `t`, and the
documents `{"x": 5, "n": 1}` and `{"x": 5, "n": 2}` are read alike: the field
gets the value 5. -/
theorem c23_constkey_replaces_key_witness :
    (∃ r, jmap_to_json_object lib0 3 0 (.object [])
        (jxs_item_set_constkey world_rec (some (0, 0)) [Char.ofNat 120]) = some r ∧ r.1 = 0 ∧
      ∃ kvs, r.2.1 = .object kvs ∧
        kvs.map Prod.fst = (List.range (world_rec.mappers 0).jmhead.idx).map
          (fun j => if j = 0 then [Char.ofNat 120] else ((world_rec.mappers 0).jmlist j).key) ∧
        (kvs.map Prod.fst).getD 0 [] = [Char.ofNat 120]) ∧
    jmap_from_json_object lib0 3 0 doc_x5_n1
        (jxs_item_set_constkey world_rec (some (0, 0)) [Char.ofNat 120])
      = jmap_from_json_object lib0 3 0 doc_x5_n2
        (jxs_item_set_constkey world_rec (some (0, 0)) [Char.ofNat 120]) ∧
    (jmap_from_json_object lib0 3 0 doc_x5_n1
        (jxs_item_set_constkey world_rec (some (0, 0)) [Char.ofNat 120])).map
      (fun r => (r.1, read_le r.2.mem 100 4)) = some (0, 5) := by
  have he : (jmap_to_json_object lib0 3 0 (.object [])
      (jxs_item_set_constkey world_rec (some (0, 0)) [Char.ofNat 120])).map (fun r => r.1)
      = some 0 := by decide
  refine ⟨?_, ?_, by decide⟩
  · cases hr : jmap_to_json_object lib0 3 0 (.object [])
        (jxs_item_set_constkey world_rec (some (0, 0)) [Char.ofNat 120]) with
    | none => rw [hr] at he; cases he
    | some r =>
      rw [hr] at he
      simp only [Option.map_some', Option.some.injEq] at he
      exact ⟨r, rfl, he,
        (c23_constkey_replaces_key lib0 world_rec 0 0 [Char.ofNat 120]).2.2.1 3 r (by decide)
          (keeps_all_no_callback _ rfl world_rec_constkey_keep) world_rec_constkey_keys hr he⟩
  · refine (c23_constkey_replaces_key lib0 world_rec 0 0 [Char.ofNat 120]).2.2.2 3
      doc_x5_n1 doc_x5_n2 rfl rfl ?_
    intro j hj
    have hj4 : j < 4 := hj
    interval_cases j <;> rfl



/-! ## Claim C28: the address of a field of a sub-structure element -/

theorem visits_grow_refl (w : World) : VisitsGrow w w := ⟨[], by simp⟩

theorem visits_grow_trans (a b c : World) (h1 : VisitsGrow a b) (h2 : VisitsGrow b c) :
    VisitsGrow a c := by
  obtain ⟨v1, e1⟩ := h1
  obtain ⟨v2, e2⟩ := h2
  exact ⟨v1 ++ v2, by rw [e2, e1, List.append_assoc]⟩

theorem visits_grow_of_eq {w w' : World} (h : w'.visits = w.visits) : VisitsGrow w w' :=
  ⟨[], by simp [h]⟩

theorem ser_visits_grow (lib : JsonLib) (fuel hp : Nat) (it : jmap_item_t) (idx : Nat)
    (w : World) (r : Int × Json × World)
    (h : jmap_to_json_warpper lib fuel hp it idx w = some r) : VisitsGrow w r.2.2 :=
  ser_wrapper_rel lib VisitsGrow visits_grow_refl visits_grow_trans
    (fun _ _ _ => visits_grow_of_eq rfl) (fun w v it => ⟨_, record_visit_visits w v it⟩)
    (fun w it v => visits_grow_of_eq (handler_visits w it v))
    (fun _ _ _ _ _ => visits_grow_of_eq rfl) (fun _ _ _ _ => visits_grow_of_eq rfl)
    fuel hp it idx w r h

theorem de_visits_grow (lib : JsonLib) (fuel hp : Nat) (it : jmap_item_t) (idx : Nat)
    (j : Json) (w : World) (r : Int × World)
    (h : jmap_from_json_warpper lib fuel hp it idx j w = some r) : VisitsGrow w r.2 :=
  de_wrapper_rel lib VisitsGrow visits_grow_refl visits_grow_trans
    (fun _ _ _ => visits_grow_of_eq rfl) (fun w v it => ⟨_, record_visit_visits w v it⟩)
    (fun _ _ => visits_grow_of_eq rfl)
    (fun _ _ _ _ _ => visits_grow_of_eq rfl) (fun _ _ _ _ => visits_grow_of_eq rfl)
    fuel hp it idx j w r h

/-- A serialization wrapper call that does not fail records the visit of its
node first. -/
theorem ser_first_visit (lib : JsonLib) (fuel hp : Nat) (it : jmap_item_t) (idx : Nat)
    (w : World) (r : Int × Json × World)
    (h : jmap_to_json_warpper lib fuel hp it idx w = some r) (hr : r.1 ≠ -1) :
    ∃ vs, r.2.2.visits = w.visits ++ visit_of w hp it idx :: vs := by
  cases fuel with
  | zero => simp [jmap_to_json_warpper] at h
  | succ fuel =>
    simp only [jmap_to_json_warpper] at h
    split at h
    · simp only [Option.some.injEq] at h
      rw [← h] at hr
      exact absurd rfl hr
    · have hv : (jmap_convert_handler (record_visit w (node_addr w hp it idx) it) it
          (node_addr w hp it idx)).2.visits = w.visits ++ [visit_of w hp it idx] := by
        rw [handler_visits, record_visit_visits]
        rfl
      have hg : VisitsGrow (jmap_convert_handler (record_visit w (node_addr w hp it idx) it) it
          (node_addr w hp it idx)).2 r.2.2 := by
        split at h
        · simp only [Option.some.injEq] at h
          rw [← h]; exact visits_grow_refl _
        · simp only [Option.some.injEq] at h
          rw [← h]; exact visits_grow_refl _
        · exact to_json_by_type_rel lib VisitsGrow visits_grow_refl visits_grow_trans
            (fun _ _ _ => visits_grow_of_eq rfl)
            (fun _ _ _ _ _ => visits_grow_of_eq rfl) (fun _ _ _ _ => visits_grow_of_eq rfl)
            (ser_visits_grow lib fuel) _ _ _ _ _ _ h
      obtain ⟨vs, e⟩ := hg
      exact ⟨vs, by rw [e, hv, List.append_assoc]; rfl⟩

/-- A deserialization wrapper call that does not return at the `NULL` test
records the visit of its node first. -/
theorem de_first_visit (lib : JsonLib) (fuel hp : Nat) (it : jmap_item_t) (idx : Nat)
    (j : Json) (w : World) (r : Int × World)
    (h : jmap_from_json_warpper lib fuel hp it idx j w = some r) (hr : r.1 = 0) :
    ∃ vs, r.2.visits = w.visits ++ visit_of w hp it idx :: vs := by
  cases fuel with
  | zero => simp [jmap_from_json_warpper] at h
  | succ fuel =>
    simp only [jmap_from_json_warpper] at h
    split at h
    · simp only [Option.some.injEq] at h
      rw [← h] at hr
      exact absurd hr int_neg_one_ne
    · have hg := from_json_by_type_rel lib VisitsGrow visits_grow_refl visits_grow_trans
        (fun _ _ _ => visits_grow_of_eq rfl) (fun _ _ => visits_grow_of_eq rfl)
        (fun _ _ _ _ _ => visits_grow_of_eq rfl) (fun _ _ _ _ => visits_grow_of_eq rfl)
        (de_visits_grow lib fuel) _ _ _ _ _ _ _ h
      obtain ⟨vs, e⟩ := hg
      refine ⟨vs, ?_⟩
      rw [e, record_visit_visits, List.append_assoc]
      rfl

theorem to_json_object_loop_field_visits (lib : JsonLib) (rank : Nat → Nat) (fuel q : Nat)
    (loc fz : Option (List Char)) (w : World)
    (hac : Acyclic rank w.mappers) (hoff : OffsOK w.mappers) :
    ∀ (n i : Nat) (jso : Json) (w1 : World) (r : Int × Json × World),
      i + n ≤ (w.mappers q).jmhead.idx → StoreFrame rank (rank q) w w1 →
      to_json_object_loop (jmap_to_json_warpper lib fuel) q loc fz n i jso w1 = some r →
      r.1 = 0 →
      ∃ vs, r.2.2.visits = w1.visits ++ vs ∧
        ∀ k, i ≤ k → k < i + n → visit_of w q ((w.mappers q).jmlist k) 0 ∈ vs := by
  intro n
  induction n with
  | zero =>
    intro i jso w1 r _ _ h _
    simp only [to_json_object_loop, Option.some.injEq] at h
    rw [← h]
    exact ⟨[], by simp, fun k h1 h2 => by omega⟩
  | succ n ih =>
    intro i jso w1 r hin hsf h h0
    simp only [to_json_object_loop] at h
    rw [hsf.list q] at h
    split at h
    · cases h
    · rename_i r1 ij w2 hw
      have hsf1 := store_frame_set_now hsf
        (SET_NEW_LOCATOR loc ((w.mappers q).jmlist i).key false 0)
        (SET_NEW_FUZZY_LOCATOR fz loc ((w.mappers q).jmlist i).key false)
      by_cases hr1 : r1 = -1
      · simp only [hr1, if_true, Option.some.injEq] at h
        rw [← h] at h0
        exact absurd h0 int_neg_one_ne
      · have hb : Below rank ((w.mappers q).jmlist i) q := fun x hx => hac q i x (by omega) hx
        have hf := ser_wrapper_frame lib rank fuel q _ 0 _ r1 ij w2
          (acyclic_of_frame hac hsf1) (offs_ok_of_frame hoff hsf1) hb hw
        have hsf2 : StoreFrame rank (rank q) w w2 := store_frame_trans hsf1 (hf.2 hr1)
        obtain ⟨vs1, hv1⟩ := ser_first_visit lib fuel q _ 0 _ (r1, ij, w2) hw hr1
        simp only [set_now_visits] at hv1
        have haddr : visit_of (set_now w1
            (SET_NEW_LOCATOR loc ((w.mappers q).jmlist i).key false 0)
            (SET_NEW_FUZZY_LOCATOR fz loc ((w.mappers q).jmlist i).key false)) q
            ((w.mappers q).jmlist i) 0 = visit_of w q ((w.mappers q).jmlist i) 0 := by
          unfold visit_of
          rw [node_addr_of_frame hsf1]
        rw [haddr] at hv1
        simp only [hr1, if_false] at h
        have hrest : ∃ vs, r.2.2.visits = w2.visits ++ vs ∧
            ∀ k, i + 1 ≤ k → k < i + 1 + n → visit_of w q ((w.mappers q).jmlist k) 0 ∈ vs := by
          split at h
          · exact ih (i + 1) _ w2 r (by omega) hsf2 h h0
          · exact ih (i + 1) _ w2 r (by omega) hsf2 h h0
        obtain ⟨vs2, hv2, hm⟩ := hrest
        refine ⟨visit_of w q ((w.mappers q).jmlist i) 0 :: vs1 ++ vs2, ?_, ?_⟩
        · rw [hv2, hv1]; simp
        · intro k hk1 hk2
          by_cases hki : k = i
          · subst hki; simp
          · have := hm k (by omega) (by omega)
            simp [this]

theorem from_json_object_loop_field_visits (lib : JsonLib) (rank : Nat → Nat) (fuel q : Nat)
    (loc fz : Option (List Char)) (doc : Json) (w : World)
    (hac : Acyclic rank w.mappers) (hoff : OffsOK w.mappers) :
    ∀ (n i : Nat) (w1 : World) (r : Int × World),
      i + n ≤ (w.mappers q).jmhead.idx → StoreFrame rank (rank q) w w1 →
      from_json_object_loop (jmap_from_json_warpper lib fuel) q loc fz doc n i w1 = some r →
      r.1 = 0 →
      ∃ vs, r.2.visits = w1.visits ++ vs ∧
        ∀ k, i ≤ k → k < i + n → visit_of w q ((w.mappers q).jmlist k) 0 ∈ vs := by
  intro n
  induction n with
  | zero =>
    intro i w1 r _ _ h _
    simp only [from_json_object_loop, Option.some.injEq] at h
    rw [← h]
    exact ⟨[], by simp, fun k h1 h2 => by omega⟩
  | succ n ih =>
    intro i w1 r hin hsf h h0
    simp only [from_json_object_loop] at h
    rw [hsf.list q] at h
    split at h
    · cases h
    · rename_i r1 w2 hw
      have hsf1 := store_frame_set_now hsf
        (SET_NEW_LOCATOR loc ((w.mappers q).jmlist i).key false 0)
        (SET_NEW_FUZZY_LOCATOR fz loc ((w.mappers q).jmlist i).key false)
      by_cases hr1 : r1 = 0
      · have hb : Below rank ((w.mappers q).jmlist i) q := fun x hx => hac q i x (by omega) hx
        have hf := de_wrapper_frame lib rank fuel q _ 0 _ _ r1 w2
          (acyclic_of_frame hac hsf1) (offs_ok_of_frame hoff hsf1) hb hw
        have hsf2 : StoreFrame rank (rank q) w w2 := store_frame_trans hsf1 (hf.2 hr1)
        obtain ⟨vs1, hv1⟩ := de_first_visit lib fuel q _ 0 _ _ (r1, w2) hw hr1
        simp only [set_now_visits] at hv1
        have haddr : visit_of (set_now w1
            (SET_NEW_LOCATOR loc ((w.mappers q).jmlist i).key false 0)
            (SET_NEW_FUZZY_LOCATOR fz loc ((w.mappers q).jmlist i).key false)) q
            ((w.mappers q).jmlist i) 0 = visit_of w q ((w.mappers q).jmlist i) 0 := by
          unfold visit_of
          rw [node_addr_of_frame hsf1]
        rw [haddr] at hv1
        simp only [hr1, ne_eq, not_true_eq_false, if_false] at h
        obtain ⟨vs2, hv2, hm⟩ := ih (i + 1) w2 r (by omega) hsf2 h h0
        refine ⟨visit_of w q ((w.mappers q).jmlist i) 0 :: vs1 ++ vs2, ?_, ?_⟩
        · rw [hv2, hv1]; simp
        · intro k hk1 hk2
          by_cases hki : k = i
          · subst hki; simp
          · have := hm k (by omega) (by omega)
            simp [this]
      · simp only [ne_eq, hr1, not_false_eq_true, if_true, Option.some.injEq] at h
        rw [← h] at h0
        exact absurd h0 int_neg_one_ne


theorem rebased_field_visit (w : World) (hp q : Nat) (e : jmap_item_t) (idx k : Nat)
    (hk : k < (w.mappers q).jmhead.idx) :
    visit_of (jmap_struct_move_forward (set_start_addr w q (node_base w hp e)) q e.size idx) q
      (((jmap_struct_move_forward (set_start_addr w q (node_base w hp e)) q e.size idx).mappers
        q).jmlist k) 0
    = { vptr := ((w.mappers hp).jmhead.start_addr + e.offset + e.size * idx
          + ((w.mappers q).jmlist k).offset) % PTR_MOD,
        type := ((w.mappers q).jmlist k).type, size := ((w.mappers q).jmlist k).size } := by
  unfold visit_of node_addr addr_of base_of
  rw [move_forward_head, set_start_addr_start, move_forward_jmlist]
  simp only [if_true, set_start_addr_idx, set_start_addr_jmlist, map_first, hk, set_offset,
    node_base, base_of, Nat.mul_zero, Nat.add_zero]
  congr 1
  generalize e.size * idx = t
  generalize (w.mappers hp).jmhead.start_addr = B
  generalize ((w.mappers q).jmlist k).offset = f
  generalize e.offset = o
  unfold PTR_MOD
  omega

/-- Serialization of a sub-structure element: when the wrapper call for node
`e` (a sub-structure node with sub-tree `q`) at index `idx` returns 0 with a
value, the visits it records after that of the element include, for each node
`k` of `q`, the visit at the base address of the tree plus the offset of `e`
plus `size * idx` plus the offset of node `k`. -/
theorem ser_struct_field_visits (lib : JsonLib) (rank : Nat → Nat) (fuel hp q : Nat)
    (e : jmap_item_t) (idx : Nat) (w : World) (r : Int × Json × World)
    (hac : Acyclic rank w.mappers) (hoff : OffsOK w.mappers)
    (hty : e.type = jxs_type.struct) (hq : e.subjm = some q)
    (h : jmap_to_json_warpper lib fuel hp e idx w = some r) (h0 : r.1 = 0)
    (hnn : r.2.1.is_null = false) :
    ∃ vs, r.2.2.visits = w.visits ++ visit_of w hp e idx :: vs ∧
      ∀ k, k < (w.mappers q).jmhead.idx →
        ({ vptr := ((w.mappers hp).jmhead.start_addr + e.offset + e.size * idx
              + ((w.mappers q).jmlist k).offset) % PTR_MOD,
           type := ((w.mappers q).jmlist k).type,
           size := ((w.mappers q).jmlist k).size } : Visit) ∈ vs := by
  cases fuel with
  | zero => simp [jmap_to_json_warpper] at h
  | succ fuel =>
    simp only [jmap_to_json_warpper] at h
    split at h
    · simp only [Option.some.injEq] at h
      rw [← h] at h0
      exact absurd h0 int_neg_one_ne
    · have hv : (jmap_convert_handler (record_visit w (node_addr w hp e idx) e) e
          (node_addr w hp e idx)).2.visits = w.visits ++ [visit_of w hp e idx] := by
        rw [handler_visits, record_visit_visits]
        rfl
      have hm : (jmap_convert_handler (record_visit w (node_addr w hp e idx) e) e
          (node_addr w hp e idx)).2.mappers = w.mappers := by
        rw [handler_mappers, record_visit_mappers]
      generalize (jmap_convert_handler (record_visit w (node_addr w hp e idx) e) e
          (node_addr w hp e idx)) = hr at h hv hm
      split at h
      · simp only [Option.some.injEq] at h
        rw [← h] at h0
        simp at h0
      · simp only [Option.some.injEq] at h
        rw [← h] at hnn
        simp [Json.is_null] at hnn
      · unfold to_json_by_type at h
        split at h
        · split at h
          · rename_i hq'
            rw [hq] at hq'
            cases hq'
          · rename_i q' hq'
            rw [hq] at hq'
            cases hq'
            simp only [] at h
            split at h
            · cases h
            · rename_i r1 jso w4 hw3
              unfold jmap_to_json_object_with at hw3
              simp only [Json.is_null, Json.is_object, Bool.false_eq_true, if_false,
                Bool.not_true] at hw3
              by_cases hr1 : r1 = -1
              · simp only [hr1, if_true, Option.some.injEq] at h
                rw [← h] at h0
                exact absurd h0 int_neg_one_ne
              · simp only [hr1, if_false, Option.some.injEq] at h
                rw [← h] at h0 ⊢
                simp only [] at h0
                have hac1 : Acyclic rank hr.2.mappers := by rw [hm]; exact hac
                have hoff1 : OffsOK hr.2.mappers := by rw [hm]; exact hoff
                obtain ⟨vs, hvs, hmem⟩ := to_json_object_loop_field_visits lib rank fuel q _ _
                  (jmap_struct_move_forward (set_start_addr hr.2 q (node_base hr.2 hp e))
                    q e.size idx)
                  (acyclic_rebase hac1 q _ e.size idx) (offs_ok_rebase hoff1 q _ e.size idx)
                  _ 0 _ _ (r1, jso, w4) (by omega) (store_frame_refl _ _ _) hw3 h0
                refine ⟨vs, ?_, ?_⟩
                · simp only [move_backward_visits]
                  simp only [move_forward_visits, set_start_addr_visits] at hvs
                  rw [hvs, hv, List.append_assoc]
                  rfl
                · intro k hk
                  have hk1 : k < (hr.2.mappers q).jmhead.idx := by rw [hm]; exact hk
                  have := hmem k (by omega) (by
                    rw [move_forward_head, set_start_addr_idx]; omega)
                  rw [rebased_field_visit hr.2 hp q e idx k hk1, hm] at this
                  exact this
        · rename_i hty'
          rw [hty] at hty'
          cases hty'
        · rename_i hns _
          exact absurd hty hns

/-- Deserialization of a sub-structure element: when the wrapper call for node
`e` at index `idx` returns 0 for a value that is present, the visits it records
after that of the element include, for each node `k` of the sub-tree, the visit
at the base address plus the offset of `e` plus `size * idx` plus the offset of
node `k`. -/
theorem de_struct_field_visits (lib : JsonLib) (rank : Nat → Nat) (fuel hp q : Nat)
    (e : jmap_item_t) (idx : Nat) (j : Json) (w : World) (r : Int × World)
    (hac : Acyclic rank w.mappers) (hoff : OffsOK w.mappers)
    (hty : e.type = jxs_type.struct) (hq : e.subjm = some q) (hj : j.is_null = false)
    (h : jmap_from_json_warpper lib fuel hp e idx j w = some r) (h0 : r.1 = 0) :
    ∃ vs, r.2.visits = w.visits ++ visit_of w hp e idx :: vs ∧
      ∀ k, k < (w.mappers q).jmhead.idx →
        ({ vptr := ((w.mappers hp).jmhead.start_addr + e.offset + e.size * idx
              + ((w.mappers q).jmlist k).offset) % PTR_MOD,
           type := ((w.mappers q).jmlist k).type,
           size := ((w.mappers q).jmlist k).size } : Visit) ∈ vs := by
  cases fuel with
  | zero => simp [jmap_from_json_warpper] at h
  | succ fuel =>
    simp only [jmap_from_json_warpper] at h
    split at h
    · simp only [Option.some.injEq] at h
      rw [← h] at h0
      exact absurd h0 int_neg_one_ne
    · unfold from_json_by_type at h
      split at h
      · split at h
        · rename_i hq'
          rw [hq] at hq'
          cases hq'
        · rename_i q' hq'
          rw [hq] at hq'
          cases hq'
          simp only [hj, Bool.false_eq_true, if_false] at h
          split at h
          · cases h
          · rename_i r1 w4 hw3
            unfold jmap_from_json_object_with at hw3
            simp only [hj, Bool.false_eq_true, if_false] at hw3
            by_cases hr1 : r1 = 0
            · simp only [hr1, ne_eq, not_true_eq_false, if_false, Option.some.injEq] at h
              rw [← h]
              have hac1 : Acyclic rank (record_visit w (node_addr w hp e idx) e).mappers := hac
              have hoff1 : OffsOK (record_visit w (node_addr w hp e idx) e).mappers := hoff
              obtain ⟨vs, hvs, hmem⟩ := from_json_object_loop_field_visits lib rank fuel q _ _ j
                (jmap_struct_move_forward (set_start_addr (record_visit w (node_addr w hp e idx) e)
                  q (node_base (record_visit w (node_addr w hp e idx) e) hp e)) q e.size idx)
                (acyclic_rebase hac1 q _ e.size idx) (offs_ok_rebase hoff1 q _ e.size idx)
                _ 0 _ (r1, w4) (by omega) (store_frame_refl _ _ _) hw3 hr1
              refine ⟨vs, ?_, ?_⟩
              · simp only [move_backward_visits]
                simp only [move_forward_visits, set_start_addr_visits,
                  record_visit_visits] at hvs
                rw [hvs, List.append_assoc]
                rfl
              · intro k hk
                have := hmem k (by omega) (by
                  rw [move_forward_head, set_start_addr_idx, record_visit_mappers]; omega)
                rw [rebased_field_visit (record_visit w (node_addr w hp e idx) e) hp q e idx k
                  hk] at this
                exact this
            · simp only [ne_eq, hr1, not_false_eq_true, if_true, Option.some.injEq] at h
              rw [← h] at h0
              exact absurd h0 int_neg_one_ne
      · rename_i hty'
        rw [hty] at hty'
        cases hty'
      · rename_i hns _
        exact absurd hty hns


/-- Claim C28: let `e` be a sub-structure node with sub-tree `q` (the element
node of an array of sub-structures at offset `o` with element size `s`, or a
plain sub-structure field), in a tree with base address `B` of an acyclic
store.  When the traversal of element `idx` takes place and returns 0
(serialization: the wrapper returns 0 with a value; deserialization: it returns
0 for a present value), each node `k` of `q` is visited at the address
`B + o + s * idx + offset k` (modulo `2^64`), and afterwards every node list is
as before, so the same sub-tree serves the next element and any other parent.
The element node of an array node `it` of sub-structures has the offset of `it`
and the size of `it` divided by its length. -/
theorem c28_substruct_field_address (lib : JsonLib) (rank : Nat → Nat) :
    (∀ fuel hp q (e : jmap_item_t) idx (w : World) r,
      Acyclic rank w.mappers → OffsOK w.mappers →
      e.type = jxs_type.struct → e.subjm = some q → rank q < rank hp →
      jmap_to_json_warpper lib fuel hp e idx w = some r → r.1 = 0 → r.2.1.is_null = false →
      (∃ vs, r.2.2.visits = w.visits ++ visit_of w hp e idx :: vs ∧
        ∀ k, k < (w.mappers q).jmhead.idx →
          ({ vptr := ((w.mappers hp).jmhead.start_addr + e.offset + e.size * idx
                + ((w.mappers q).jmlist k).offset) % PTR_MOD,
             type := ((w.mappers q).jmlist k).type,
             size := ((w.mappers q).jmlist k).size } : Visit) ∈ vs) ∧
      ∀ x, (r.2.2.mappers x).jmlist = (w.mappers x).jmlist) ∧
    (∀ fuel hp q (e : jmap_item_t) idx j (w : World) r,
      Acyclic rank w.mappers → OffsOK w.mappers →
      e.type = jxs_type.struct → e.subjm = some q → rank q < rank hp → j.is_null = false →
      jmap_from_json_warpper lib fuel hp e idx j w = some r → r.1 = 0 →
      (∃ vs, r.2.visits = w.visits ++ visit_of w hp e idx :: vs ∧
        ∀ k, k < (w.mappers q).jmhead.idx →
          ({ vptr := ((w.mappers hp).jmhead.start_addr + e.offset + e.size * idx
                + ((w.mappers q).jmlist k).offset) % PTR_MOD,
             type := ((w.mappers q).jmlist k).type,
             size := ((w.mappers q).jmlist k).size } : Visit) ∈ vs) ∧
      ∀ x, (r.2.mappers x).jmlist = (w.mappers x).jmlist) ∧
    (∀ it : jmap_item_t, it.basetype = jxs_type.struct → it.arr.depth = it.arr.cur_depth + 1 →
      it.arr.deptab.getD 0 0 ≠ 0 → it.offset < PTR_MOD →
      (jmap_array_move_next_dimen it 0).type = jxs_type.struct ∧
      (jmap_array_move_next_dimen it 0).subjm = it.subjm ∧
      (jmap_array_move_next_dimen it 0).offset = it.offset ∧
      (jmap_array_move_next_dimen it 0).size = it.size / it.arr.deptab.getD 0 0) := by
  refine ⟨?_, ?_, ?_⟩
  · intro fuel hp q e idx w r hac hoff hty hq hrk h h0 hnn
    refine ⟨ser_struct_field_visits lib rank fuel hp q e idx w r hac hoff hty hq h h0 hnn, ?_⟩
    obtain ⟨r1, j, w'⟩ := r
    have hb : Below rank e hp := fun x hx => by
      rw [hq] at hx
      cases hx
      exact hrk
    have hf := (ser_wrapper_frame lib rank fuel hp e idx w r1 j w' hac hoff hb h).2
      (by simp only [] at h0; rw [h0]; decide)
    exact hf.list
  · intro fuel hp q e idx j w r hac hoff hty hq hrk hj h h0
    refine ⟨de_struct_field_visits lib rank fuel hp q e idx j w r hac hoff hty hq hj h h0, ?_⟩
    obtain ⟨r1, w'⟩ := r
    have hb : Below rank e hp := fun x hx => by
      rw [hq] at hx
      cases hx
      exact hrk
    exact ((de_wrapper_frame lib rank fuel hp e idx j w r1 w' hac hoff hb h).2 h0).list
  · intro it hbt hdep hd0 ho
    have hc : ¬ (it.arr.cur_depth ≥ it.arr.depth ∨ it.arr.deptab.getD 0 0 = 0) := by
      intro hx
      rcases hx with hx | hx
      · omega
      · exact hd0 hx
    unfold jmap_array_move_next_dimen
    rw [if_neg hc]
    refine ⟨?_, rfl, ?_, rfl⟩
    · show (if it.arr.depth - it.arr.cur_depth = 1 then it.basetype else jxs_type.array) = _
      rw [if_pos (by omega), hbt]
    · show (it.offset + it.size * 0) % PTR_MOD = it.offset
      rw [Nat.mul_zero, Nat.add_zero, Nat.mod_eq_of_lt ho]

/-- Witness of `c28_substruct_field_address`: element 1 of the array `s` of the
tree of `bld_rec` (offset 4, element size 2, aggregate at address 100): the
element is visited at 106 and its fields `b` and `c` at 106 and 107. -/
theorem c28_substruct_field_address_witness :
    Acyclic rank_rec world_rec.mappers ∧ OffsOK world_rec.mappers ∧
    ∃ r, jmap_to_json_warpper lib0 2 0
        (jmap_array_move_next_dimen ((world_rec.mappers 0).jmlist 1) 0) 1 world_rec = some r ∧
      r.1 = 0 ∧ r.2.2.visits.map (fun v => v.vptr) = [106, 106, 107] ∧
      (∃ vs, r.2.2.visits = world_rec.visits
          ++ visit_of world_rec 0 (jmap_array_move_next_dimen ((world_rec.mappers 0).jmlist 1) 0) 1
            :: vs ∧
        ∀ k, k < (world_rec.mappers 5).jmhead.idx →
          ({ vptr := ((world_rec.mappers 0).jmhead.start_addr
                + (jmap_array_move_next_dimen ((world_rec.mappers 0).jmlist 1) 0).offset
                + (jmap_array_move_next_dimen ((world_rec.mappers 0).jmlist 1) 0).size * 1
                + ((world_rec.mappers 5).jmlist k).offset) % PTR_MOD,
             type := ((world_rec.mappers 5).jmlist k).type,
             size := ((world_rec.mappers 5).jmlist k).size } : Visit) ∈ vs) ∧
      ∀ x, (r.2.2.mappers x).jmlist = (world_rec.mappers x).jmlist := by
  have he : (jmap_to_json_warpper lib0 2 0
      (jmap_array_move_next_dimen ((world_rec.mappers 0).jmlist 1) 0) 1 world_rec).map
      (fun r => (r.1, r.2.1.is_null, r.2.2.visits.map (fun v => v.vptr)))
      = some (0, false, [106, 106, 107]) := by decide
  cases hr : jmap_to_json_warpper lib0 2 0
      (jmap_array_move_next_dimen ((world_rec.mappers 0).jmlist 1) 0) 1 world_rec with
  | none => rw [hr] at he; cases he
  | some r =>
    rw [hr] at he
    simp only [Option.map_some', Option.some.injEq, Prod.mk.injEq] at he
    have h := (c28_substruct_field_address lib0 rank_rec).1 2 0 5 _ 1 world_rec r
      world_rec_acyclic world_rec_offs rfl rfl (by decide) hr he.1 he.2.1
    exact ⟨world_rec_acyclic, world_rec_offs, r, rfl, he.1, he.2.2, h.1, h.2⟩



/-! ## Claims C14 and C15: `jxs_item_basic_add` -/

theorem va_vals_length (va : List Int) :
    ((List.range (JXS_ARRAY_DEPTH + 1)).map (fun i => of_signed 8 (va.getD i 0))).length = 9 := by
  simp [JXS_ARRAY_DEPTH]

/-- The last slot of the dimension table is non-zero exactly when the first
nine variable arguments are all non-zero. -/
theorem va_deptab_last (va : List Int) :
    (va_deptab va).1.getD JXS_ARRAY_DEPTH 0 ≠ 0 ↔
      ∀ i, i < JXS_ARRAY_DEPTH + 1 → of_signed 8 (va.getD i 0) ≠ 0 := by
  unfold va_deptab
  simp only []
  have hlen := va_vals_length va
  generalize hv : (List.range (JXS_ARRAY_DEPTH + 1)).map (fun i => of_signed 8 (va.getD i 0))
    = vals at hlen
  have hget : ∀ i, i < JXS_ARRAY_DEPTH + 1 → vals.getD i 0 = of_signed 8 (va.getD i 0) := by
    intro i hi
    rw [← hv]
    rw [List.getD_eq_getElem _ _ (by simpa using hi)]
    simp
  by_cases hk : vals.findIdx (fun v => decide (v = 0)) < JXS_ARRAY_DEPTH + 1
  · simp only [hk, if_true]
    have hk9 : vals.findIdx (fun v => decide (v = 0)) < vals.length := by
      rw [hlen]; exact hk
    have hz := List.findIdx_getElem (w := hk9)
    simp only [decide_eq_true_eq] at hz
    constructor
    · intro h
      exfalso
      apply h
      rw [List.getD_append_right _ _ _ _ (by
        rw [List.length_take]; simp only [JXS_ARRAY_DEPTH] at hk ⊢; omega)]
      rw [List.getD_eq_getElem _ _ (by
        rw [List.length_take, List.length_replicate]
        simp only [JXS_ARRAY_DEPTH] at hk ⊢; omega)]
      simp
    · intro h
      exfalso
      have := h _ hk
      rw [← hget _ hk, List.getD_eq_getElem _ _ hk9] at this
      exact this hz
  · simp only [hk, if_false]
    have hall : ∀ x ∈ vals, ¬ (decide (x = 0) = true) := by
      intro x hx hp
      have := List.findIdx_lt_length_of_exists (p := fun v => decide (v = 0)) ⟨x, hx, hp⟩
      rw [hlen] at this
      exact hk this
    constructor
    · intro _ i hi
      rw [← hget i hi]
      have hm : vals.getD i 0 ∈ vals := by
        rw [List.getD_eq_getElem _ _ (by rw [hlen]; exact hi)]
        exact List.getElem_mem _
      have := hall _ hm
      simpa using this
    · intro h
      rw [hget _ (by simp [JXS_ARRAY_DEPTH])]
      exact h _ (by simp [JXS_ARRAY_DEPTH])



theorem head_set_idx (h : jmap_head_t) (x : Nat) :
    ({ h with idx := x } : jmap_head_t).idx = x ∧
    ({ h with idx := x } : jmap_head_t).isbuf = h.isbuf ∧
    ({ h with idx := x } : jmap_head_t).start_addr = h.start_addr ∧
    ({ h with idx := x } : jmap_head_t).limit = h.limit ∧
    ({ h with idx := x } : jmap_head_t).ref = h.ref := ⟨rfl, rfl, rfl, rfl, rfl⟩

/-- A call of `jxs_item_basic_add` that gets past the checks returns the slot
at the old count and does the three stores. -/
theorem item_add_unfold (w : World) (p : Nat) (type : jxs_type) (key : List Char)
    (offset : Int) (mbsize : Nat) (subjm : Option Nat) (va : List Int)
    (h : AddOK w p type subjm va) :
    jxs_item_basic_add w (some p) type key offset mbsize subjm va =
      (some (p, (w.mappers p).jmhead.idx),
        add_stores w p (added_item type key offset mbsize subjm va) subjm) := by
  obtain ⟨h1, h2, h3, h4⟩ := h
  unfold jxs_item_basic_add add_stores add_count add_ref add_store_item added_item
  simp only [h1, if_false, h2, not_le.2 h3, ge_iff_le, h4, ne_eq, not_true_eq_false]


theorem add_store_item_jmlist (w : World) (p : Nat) (item : jmap_item_t) (r : Nat) :
    ((add_store_item w p item).mappers r).jmlist
      = if r = p then set_slot (w.mappers p).jmlist (w.mappers p).jmhead.idx item
        else (w.mappers r).jmlist := by
  unfold add_store_item
  by_cases h : r = p
  · rw [h, set_mapper_same, if_pos rfl]
  · rw [set_mapper_other _ _ _ _ h, if_neg h]

theorem add_store_item_head (w : World) (p : Nat) (item : jmap_item_t) (r : Nat) :
    ((add_store_item w p item).mappers r).jmhead = (w.mappers r).jmhead := by
  unfold add_store_item
  by_cases h : r = p
  · rw [h, set_mapper_same]
  · rw [set_mapper_other _ _ _ _ h]

theorem add_ref_jmlist (w : World) (q r : Nat) :
    ((add_ref w q).mappers r).jmlist = (w.mappers r).jmlist := by
  unfold add_ref
  by_cases h : r = q
  · rw [h, set_mapper_same]
  · rw [set_mapper_other _ _ _ _ h]

theorem add_ref_head (w : World) (q r : Nat) :
    ((add_ref w q).mappers r).jmhead.idx = (w.mappers r).jmhead.idx ∧
    ((add_ref w q).mappers r).jmhead.limit = (w.mappers r).jmhead.limit ∧
    ((add_ref w q).mappers r).jmhead.isbuf = (w.mappers r).jmhead.isbuf ∧
    ((add_ref w q).mappers r).jmhead.start_addr = (w.mappers r).jmhead.start_addr ∧
    ((add_ref w q).mappers r).jmhead.ref
      = if r = q then ((w.mappers r).jmhead.ref + 1) % PTR_MOD else (w.mappers r).jmhead.ref := by
  unfold add_ref
  by_cases h : r = q
  · rw [h, set_mapper_same, mapper_mk_jmhead, if_pos rfl]
    have := head_set_ref (w.mappers q).jmhead (((w.mappers q).jmhead.ref + 1) % PTR_MOD)
    exact ⟨this.1, this.2.2.2.1, this.2.1, this.2.2.1, this.2.2.2.2⟩
  · rw [set_mapper_other _ _ _ _ h, if_neg h]
    exact ⟨rfl, rfl, rfl, rfl, rfl⟩

theorem add_count_jmlist (w : World) (p r : Nat) :
    ((add_count w p).mappers r).jmlist = (w.mappers r).jmlist := by
  unfold add_count
  by_cases h : r = p
  · rw [h, set_mapper_same]
  · rw [set_mapper_other _ _ _ _ h]

theorem add_count_head (w : World) (p r : Nat) :
    ((add_count w p).mappers r).jmhead.idx
      = (if r = p then ((w.mappers r).jmhead.idx + 1) % PTR_MOD else (w.mappers r).jmhead.idx) ∧
    ((add_count w p).mappers r).jmhead.limit = (w.mappers r).jmhead.limit ∧
    ((add_count w p).mappers r).jmhead.isbuf = (w.mappers r).jmhead.isbuf ∧
    ((add_count w p).mappers r).jmhead.start_addr = (w.mappers r).jmhead.start_addr ∧
    ((add_count w p).mappers r).jmhead.ref = (w.mappers r).jmhead.ref := by
  unfold add_count
  by_cases h : r = p
  · rw [h, set_mapper_same, mapper_mk_jmhead, if_pos rfl]
    have := head_set_idx (w.mappers p).jmhead (((w.mappers p).jmhead.idx + 1) % PTR_MOD)
    exact ⟨this.1, this.2.2.2.1, this.2.1, this.2.2.1, this.2.2.2.2⟩
  · rw [set_mapper_other _ _ _ _ h, if_neg h]
    exact ⟨rfl, rfl, rfl, rfl, rfl⟩

/-- The mapper store after the three stores of a successful
`jxs_item_basic_add`: node lists, and each field of the tree heads. -/
theorem add_stores_spec (w : World) (p : Nat) (item : jmap_item_t) (subjm : Option Nat)
    (r : Nat) :
    ((add_stores w p item subjm).mappers r).jmlist
      = (if r = p then set_slot (w.mappers p).jmlist (w.mappers p).jmhead.idx item
         else (w.mappers r).jmlist) ∧
    ((add_stores w p item subjm).mappers r).jmhead.idx
      = (if r = p then ((w.mappers r).jmhead.idx + 1) % PTR_MOD else (w.mappers r).jmhead.idx) ∧
    ((add_stores w p item subjm).mappers r).jmhead.ref
      = (if subjm = some r then ((w.mappers r).jmhead.ref + 1) % PTR_MOD
         else (w.mappers r).jmhead.ref) ∧
    ((add_stores w p item subjm).mappers r).jmhead.limit = (w.mappers r).jmhead.limit ∧
    ((add_stores w p item subjm).mappers r).jmhead.isbuf = (w.mappers r).jmhead.isbuf ∧
    ((add_stores w p item subjm).mappers r).jmhead.start_addr
      = (w.mappers r).jmhead.start_addr := by
  unfold add_stores
  have hc := add_count_head
  cases subjm with
  | none =>
    simp only []
    have h1 := add_count_head (add_store_item w p item) p r
    rw [add_count_jmlist, add_store_item_jmlist, h1.1, h1.2.1, h1.2.2.1, h1.2.2.2.1, h1.2.2.2.2,
      add_store_item_head]
    simp
  | some q =>
    simp only []
    have h1 := add_count_head (add_ref (add_store_item w p item) q) p r
    have h2 := add_ref_head (add_store_item w p item) q r
    rw [add_count_jmlist, add_ref_jmlist, add_store_item_jmlist, h1.1, h1.2.1, h1.2.2.1,
      h1.2.2.2.1, h1.2.2.2.2, h2.1, h2.2.1, h2.2.2.1, h2.2.2.2.1, h2.2.2.2.2,
      add_store_item_head]
    refine ⟨rfl, rfl, ?_, rfl, rfl, rfl⟩
    by_cases hrq : r = q
    · subst hrq; simp
    · have : ¬ (q = r) := fun e => hrq e.symm
      simp [hrq, this]

theorem add_stores_rest (w : World) (p : Nat) (item : jmap_item_t) (subjm : Option Nat) :
    (add_stores w p item subjm).ctx = w.ctx ∧ (add_stores w p item subjm).mem = w.mem ∧
    (add_stores w p item subjm).visits = w.visits ∧
    (add_stores w p item subjm).cb_calls = w.cb_calls ∧
    (add_stores w p item subjm).freed = w.freed ∧
    (add_stores w p item subjm).heap_next = w.heap_next := by
  unfold add_stores add_count add_ref add_store_item
  cases subjm <;> exact ⟨rfl, rfl, rfl, rfl, rfl, rfl⟩




/-- Claim C14: `jxs_item_basic_add` returns no node exactly when the tree is
absent, or the declared kind is the raw array kind, or it is the sub-structure
kind without a sub-tree, or the tree already holds `limit` nodes (its count is
not below `limit`), or the first nine variable arguments (more than
`JXS_ARRAY_DEPTH` dimensions) are all non-zero.  In every such failure the head
of each tree (count, reference count, limit) and the first `count` nodes of
each tree are unchanged.  Whatever the outcome, a tree whose count is at most
its limit stays so. -/
theorem c14_add_fails_iff (w : World) (mapper : Option Nat) (type : jxs_type)
    (key : List Char) (offset : Int) (mbsize : Nat) (subjm : Option Nat) (va : List Int) :
    ((jxs_item_basic_add w mapper type key offset mbsize subjm va).1 = none ↔
      mapper = none ∨ type = jxs_type.array ∨ (type = jxs_type.struct ∧ subjm = none) ∨
      (∃ p, mapper = some p ∧ (w.mappers p).jmhead.limit ≤ (w.mappers p).jmhead.idx) ∨
      (∀ i, i < JXS_ARRAY_DEPTH + 1 → of_signed 8 (va.getD i 0) ≠ 0)) ∧
    ((jxs_item_basic_add w mapper type key offset mbsize subjm va).1 = none →
      ∀ q, ((jxs_item_basic_add w mapper type key offset mbsize subjm va).2.mappers q).jmhead
          = (w.mappers q).jmhead ∧
        ∀ i, i < (w.mappers q).jmhead.idx →
          ((jxs_item_basic_add w mapper type key offset mbsize subjm va).2.mappers q).jmlist i
            = (w.mappers q).jmlist i) ∧
    (∀ q, (w.mappers q).jmhead.idx ≤ (w.mappers q).jmhead.limit →
      ((jxs_item_basic_add w mapper type key offset mbsize subjm va).2.mappers q).jmhead.idx
        ≤ ((jxs_item_basic_add w mapper type key offset mbsize subjm va).2.mappers q).jmhead.limit)
    := by
  cases mapper with
  | none =>
    refine ⟨⟨fun _ => Or.inl rfl, fun _ => rfl⟩, fun _ q => ⟨rfl, fun _ _ => rfl⟩, fun q h => h⟩
  | some p =>
    by_cases h1 : type = jxs_type.array
    · have he : jxs_item_basic_add w (some p) type key offset mbsize subjm va = (none, w) := by
        unfold jxs_item_basic_add
        simp only [h1, if_true]
      rw [he]
      exact ⟨⟨fun _ => Or.inr (Or.inl h1), fun _ => rfl⟩, fun _ q => ⟨rfl, fun _ _ => rfl⟩,
        fun q h => h⟩
    · by_cases h2 : type = jxs_type.struct ∧ subjm = none
      · have he : jxs_item_basic_add w (some p) type key offset mbsize subjm va = (none, w) := by
          unfold jxs_item_basic_add
          simp only [h2, and_self, if_true]
          split <;> rfl
        rw [he]
        exact ⟨⟨fun _ => Or.inr (Or.inr (Or.inl h2)), fun _ => rfl⟩,
          fun _ q => ⟨rfl, fun _ _ => rfl⟩, fun q h => h⟩
      · by_cases h3 : (w.mappers p).jmhead.idx ≥ (w.mappers p).jmhead.limit
        · have he : jxs_item_basic_add w (some p) type key offset mbsize subjm va
              = (none, w) := by
            unfold jxs_item_basic_add
            simp only [h1, if_false, h2, h3, if_true]
          rw [he]
          exact ⟨⟨fun _ => Or.inr (Or.inr (Or.inr (Or.inl ⟨p, rfl, h3⟩))), fun _ => rfl⟩,
            fun _ q => ⟨rfl, fun _ _ => rfl⟩, fun q h => h⟩
        · by_cases h4 : (va_deptab va).1.getD JXS_ARRAY_DEPTH 0 ≠ 0
          · have he : jxs_item_basic_add w (some p) type key offset mbsize subjm va
                = (none, add_store_item w p
                    { type := .null, key := key, offset := of_signed 8 offset, size := mbsize,
                      subjm := subjm, basetype := type,
                      arr := { length := 0, deptab := (va_deptab va).1,
                               depth := (va_deptab va).2, cur_depth := 0 }, rule := 0 }) := by
              unfold jxs_item_basic_add add_store_item
              simp only [h1, if_false, h2, h3, h4, ne_eq, not_false_eq_true, if_true]
            rw [he]
            refine ⟨⟨fun _ => Or.inr (Or.inr (Or.inr (Or.inr ((va_deptab_last va).1 h4)))),
              fun _ => rfl⟩, fun _ q => ⟨add_store_item_head _ _ _ _, fun i hi => ?_⟩,
              fun q h => by rw [add_store_item_head]; exact h⟩
            simp only []
            rw [add_store_item_jmlist]
            by_cases hq : q = p
            · subst hq
              have hne : i ≠ (w.mappers q).jmhead.idx := by omega
              simp only [if_true, set_slot, hne, if_false]
            · simp only [hq, if_false]
          · have hok : AddOK w p type subjm va :=
              ⟨h1, h2, by omega, by simpa using h4⟩
            rw [item_add_unfold w p type key offset mbsize subjm va hok]
            refine ⟨⟨fun h => (by cases h), fun h => ?_⟩, fun h => (by cases h), fun q hq => ?_⟩
            · exfalso
              rcases h with h | h | h | ⟨p', hp', hl⟩ | h
              · cases h
              · exact h1 h
              · exact h2 h
              · cases hp'
                exact h3 hl
              · exact h4 ((va_deptab_last va).2 h)
            · simp only []
              have hs := add_stores_spec w p (added_item type key offset mbsize subjm va) subjm q
              rw [hs.2.1, hs.2.2.2.1]
              by_cases hqp : q = p
              · subst hqp
                simp only [if_true]
                exact Nat.le_trans (Nat.mod_le _ _) (by omega)
              · simp only [hqp, if_false]
                exact hq

/-- Witness of `c14_add_fails_iff`: a ninth non-zero dimension makes the call
fail on a fresh tree and leaves its count at 0. -/
theorem c14_add_fails_iff_witness :
    (jxs_item_basic_add (jxs_map_basic_new (world_init mem_zero) true 2).2 (some 0) .int
        [Char.ofNat 97] 0 4 none [1, 2, 3, 4, 5, 6, 7, 8, 9, 0]).1 = none ∧
    ∀ q, ((jxs_item_basic_add (jxs_map_basic_new (world_init mem_zero) true 2).2 (some 0) .int
          [Char.ofNat 97] 0 4 none [1, 2, 3, 4, 5, 6, 7, 8, 9, 0]).2.mappers q).jmhead
        = ((jxs_map_basic_new (world_init mem_zero) true 2).2.mappers q).jmhead ∧
      ∀ i, i < ((jxs_map_basic_new (world_init mem_zero) true 2).2.mappers q).jmhead.idx →
        ((jxs_item_basic_add (jxs_map_basic_new (world_init mem_zero) true 2).2 (some 0) .int
            [Char.ofNat 97] 0 4 none [1, 2, 3, 4, 5, 6, 7, 8, 9, 0]).2.mappers q).jmlist i
          = ((jxs_map_basic_new (world_init mem_zero) true 2).2.mappers q).jmlist i :=
  ⟨by decide,
   (c14_add_fails_iff (jxs_map_basic_new (world_init mem_zero) true 2).2 (some 0) .int
      [Char.ofNat 97] 0 4 none [1, 2, 3, 4, 5, 6, 7, 8, 9, 0]).2.1 (by decide)⟩



/-- The dimension table that `jxs_item_basic_add` reads from the arguments
`d0, ..., dk-1, 0` with at most `JXS_ARRAY_DEPTH` non-zero dimensions: the
dimensions as `size_t`, zero-filled to nine slots, and depth `k`. -/
theorem va_deptab_dims (ds : List Int) (hk : ds.length ≤ JXS_ARRAY_DEPTH)
    (hnz : ∀ d ∈ ds, of_signed 8 d ≠ 0) :
    va_deptab (ds ++ [0])
      = (ds.map (of_signed 8) ++ List.replicate (JXS_ARRAY_DEPTH + 1 - ds.length) 0,
         ds.length) := by
  unfold va_deptab
  simp only []
  have hlen := va_vals_length (ds ++ [0])
  generalize hv : (List.range (JXS_ARRAY_DEPTH + 1)).map
    (fun i => of_signed 8 ((ds ++ [0]).getD i 0)) = vals at hlen
  have hk9 : ds.length < vals.length := by
    rw [hlen]; simp only [JXS_ARRAY_DEPTH] at hk; omega
  have hget : ∀ i (hi : i < vals.length), vals[i] = of_signed 8 ((ds ++ [0]).getD i 0) := by
    intro i hi
    subst hv
    simp
  have hz : of_signed 8 0 = 0 := by decide
  have hidx : vals.findIdx (fun v => decide (v = 0)) = ds.length := by
    rw [List.findIdx_eq hk9]
    constructor
    · rw [hget]
      rw [List.getD_append_right _ _ _ _ (le_refl _)]
      simp [hz]
    · intro j hj
      rw [hget j (by omega)]
      rw [List.getD_append _ _ _ _ hj, List.getD_eq_getElem _ _ hj]
      have := hnz ds[j] (List.getElem_mem _)
      simpa using this
  rw [hidx]
  have hlt : ds.length < JXS_ARRAY_DEPTH + 1 := by
    simp only [JXS_ARRAY_DEPTH] at hk ⊢; omega
  simp only [hlt, if_true]
  congr 2
  apply List.ext_getElem
  · rw [List.length_take, List.length_map]
    omega
  · intro i h1 h2
    rw [List.getElem_take, hget, List.getElem_map]
    rw [List.length_map] at h2
    rw [List.getD_append _ _ _ _ h2, List.getD_eq_getElem _ _ h2]


theorem item_add_ok_of_some (w : World) (p : Nat) (type : jxs_type) (key : List Char)
    (offset : Int) (mbsize : Nat) (subjm : Option Nat) (va : List Int)
    (h : (jxs_item_basic_add w (some p) type key offset mbsize subjm va).1 ≠ none) :
    AddOK w p type subjm va := by
  by_cases h1 : type = jxs_type.array
  · exfalso; apply h
    unfold jxs_item_basic_add
    simp only [h1, if_true]
  · by_cases h2 : type = jxs_type.struct ∧ subjm = none
    · exfalso; apply h
      unfold jxs_item_basic_add
      simp only [h2, and_self, if_true]
      split <;> rfl
    · by_cases h3 : (w.mappers p).jmhead.idx ≥ (w.mappers p).jmhead.limit
      · exfalso; apply h
        unfold jxs_item_basic_add
        simp only [h1, if_false, h2, h3, if_true]
      · by_cases h4 : (va_deptab va).1.getD JXS_ARRAY_DEPTH 0 ≠ 0
        · exfalso; apply h
          unfold jxs_item_basic_add
          simp only [h1, if_false, h2, h3, h4, ne_eq, not_false_eq_true, if_true]
        · exact ⟨h1, h2, by omega, by simpa using h4⟩

/-- Claim C15: a successful `jxs_item_basic_add(tree, type, key, offset, size,
sub, d0, ..., dk-1, 0)` with `k ≤ JXS_ARRAY_DEPTH` non-zero dimensions returns
the slot at the old count and writes there the node with that key, offset (its
64-bit pattern) and size, base type `type`, the dimension list `d0, ..., dk-1`
(zero-filled), depth `k`, current depth 0, type `type` when `k = 0` and the
array kind otherwise, rule keep-as-is and sub-tree `sub`; the count of the tree
grows by one (it stays below `2^64` when the limit is a `size_t`), the reference
count of `sub`, when given, grows by one (modulo `2^64`), and nothing else
changes: no other node of any tree, no other count or reference count, no
limit, origin flag or base address, neither context nor memory. -/
theorem c15_successful_add (w : World) (p : Nat) (type : jxs_type) (key : List Char)
    (offset : Int) (mbsize : Nat) (sub : Option Nat) (ds : List Int)
    (hk : ds.length ≤ JXS_ARRAY_DEPTH) (hnz : ∀ d ∈ ds, of_signed 8 d ≠ 0)
    (hs : (jxs_item_basic_add w (some p) type key offset mbsize sub (ds ++ [0])).1 ≠ none) :
    (jxs_item_basic_add w (some p) type key offset mbsize sub (ds ++ [0])).1
      = some (p, (w.mappers p).jmhead.idx) ∧
    ((jxs_item_basic_add w (some p) type key offset mbsize sub (ds ++ [0])).2.mappers p).jmlist
        (w.mappers p).jmhead.idx
      = { type := if ds.length = 0 then type else jxs_type.array, key := key,
          offset := of_signed 8 offset, size := mbsize, subjm := sub, basetype := type,
          arr := { length := 0,
                   deptab := ds.map (of_signed 8)
                     ++ List.replicate (JXS_ARRAY_DEPTH + 1 - ds.length) 0,
                   depth := ds.length, cur_depth := 0 },
          rule := JXS_RULE_KEEP_RAW } ∧
    ((jxs_item_basic_add w (some p) type key offset mbsize sub (ds ++ [0])).2.mappers p).jmhead.idx
      = ((w.mappers p).jmhead.idx + 1) % PTR_MOD ∧
    ((w.mappers p).jmhead.limit < PTR_MOD →
      ((jxs_item_basic_add w (some p) type key offset mbsize sub
        (ds ++ [0])).2.mappers p).jmhead.idx = (w.mappers p).jmhead.idx + 1) ∧
    (∀ q, ((jxs_item_basic_add w (some p) type key offset mbsize sub
        (ds ++ [0])).2.mappers q).jmhead.ref
      = if sub = some q then ((w.mappers q).jmhead.ref + 1) % PTR_MOD
        else (w.mappers q).jmhead.ref) ∧
    (∀ q, sub = some q → (w.mappers q).jmhead.ref + 1 < PTR_MOD →
      ((jxs_item_basic_add w (some p) type key offset mbsize sub
        (ds ++ [0])).2.mappers q).jmhead.ref = (w.mappers q).jmhead.ref + 1) ∧
    (∀ q i, (q ≠ p ∨ i ≠ (w.mappers p).jmhead.idx) →
      ((jxs_item_basic_add w (some p) type key offset mbsize sub (ds ++ [0])).2.mappers q).jmlist i
        = (w.mappers q).jmlist i) ∧
    (∀ q, q ≠ p →
      ((jxs_item_basic_add w (some p) type key offset mbsize sub
        (ds ++ [0])).2.mappers q).jmhead.idx = (w.mappers q).jmhead.idx) ∧
    (∀ q,
      ((jxs_item_basic_add w (some p) type key offset mbsize sub
        (ds ++ [0])).2.mappers q).jmhead.limit = (w.mappers q).jmhead.limit ∧
      ((jxs_item_basic_add w (some p) type key offset mbsize sub
        (ds ++ [0])).2.mappers q).jmhead.isbuf = (w.mappers q).jmhead.isbuf ∧
      ((jxs_item_basic_add w (some p) type key offset mbsize sub
        (ds ++ [0])).2.mappers q).jmhead.start_addr = (w.mappers q).jmhead.start_addr) ∧
    (jxs_item_basic_add w (some p) type key offset mbsize sub (ds ++ [0])).2.ctx = w.ctx ∧
    (jxs_item_basic_add w (some p) type key offset mbsize sub (ds ++ [0])).2.mem = w.mem := by
  have hok := item_add_ok_of_some w p type key offset mbsize sub (ds ++ [0]) hs
  rw [item_add_unfold w p type key offset mbsize sub (ds ++ [0]) hok]
  simp only []
  have hsp := add_stores_spec w p (added_item type key offset mbsize sub (ds ++ [0])) sub
  have hrest := add_stores_rest w p (added_item type key offset mbsize sub (ds ++ [0])) sub
  refine ⟨?_, ?_, ?_, ?_, ?_, ?_, ?_, ?_, ?_, hrest.1, hrest.2.1⟩
  · first
    | rfl
    | trivial
  · rw [(hsp p).1]
    simp only [if_true, set_slot]
    unfold added_item
    rw [va_deptab_dims ds hk hnz]
  · rw [(hsp p).2.1]
    simp only [if_true]
  · intro hl
    rw [(hsp p).2.1]
    simp only [if_true]
    exact Nat.mod_eq_of_lt (by have := hok.2.2.1; omega)
  · intro q
    exact (hsp q).2.2.1
  · intro q hq hlt
    rw [(hsp q).2.2.1, if_pos hq, Nat.mod_eq_of_lt hlt]
  · intro q i h
    rw [(hsp q).1]
    by_cases hq : q = p
    · subst hq
      have hi : i ≠ (w.mappers q).jmhead.idx := by
        rcases h with h | h
        · exact absurd rfl h
        · exact h
      simp only [if_true, set_slot, hi, if_false]
    · simp only [hq, if_false]
  · intro q hq
    rw [(hsp q).2.1, if_neg hq]
  · intro q
    exact ⟨(hsp q).2.2.2.1, (hsp q).2.2.2.2.1, (hsp q).2.2.2.2.2⟩

/-- Witness of `c15_successful_add`: `int32_t m[3][2]` added to a fresh tree of
limit 1 (the call of `bld_mat`). -/
theorem c15_successful_add_witness :
    (jxs_item_basic_add (jxs_map_basic_new (world_init mem_zero) true 1).2 (some 0) .int
        [Char.ofNat 109] 0 24 none ([3, 2] ++ [0])).1 = some (0, 0) ∧
    (((jxs_item_basic_add (jxs_map_basic_new (world_init mem_zero) true 1).2 (some 0) .int
        [Char.ofNat 109] 0 24 none ([3, 2] ++ [0])).2.mappers 0).jmlist 0).arr.deptab
      = [3, 2, 0, 0, 0, 0, 0, 0, 0] ∧
    ((jxs_item_basic_add (jxs_map_basic_new (world_init mem_zero) true 1).2 (some 0) .int
        [Char.ofNat 109] 0 24 none ([3, 2] ++ [0])).2.mappers 0).jmhead.idx = 1 := by
  have h := c15_successful_add (jxs_map_basic_new (world_init mem_zero) true 1).2 0 .int
    [Char.ofNat 109] 0 24 none [3, 2] (by decide) (by decide) (by decide)
  have h2 := h.2.1
  exact ⟨h.1, (congrArg (fun it => it.arr.deptab) h2).trans (by decide),
    h.2.2.2.1 (by decide)⟩



/-! ## Claim C16: `jxs_map_basic_new` -/

/-- Function `jxs_map_basic_new` when `num + 1` does not wrap and the pool index
is inside the pool: no tree for `num = 0` or an absent context; otherwise a
tree with limit `num` and the base address of the context, taken from the pool
(index advanced by `num + 1`, origin flag set) exactly when the remaining
capacity is at least `num + 1`, and from the heap (index unchanged, origin flag
clear, empty) otherwise. -/
theorem map_new_spec (w : World) (context : Bool) (num : Nat)
    (hnum : num + 1 < PTR_MOD) (hidx : w.ctx.buf_idx ≤ MAPPER_BUFFER_LENGTH) :
    ((jxs_map_basic_new w context num).1 = none ↔ num = 0 ∨ context = false) ∧
    (num ≠ 0 → context = true → num + 1 ≤ MAPPER_BUFFER_LENGTH - w.ctx.buf_idx →
      (jxs_map_basic_new w context num).1 = some w.ctx.buf_idx ∧
      (jxs_map_basic_new w context num).2.ctx.buf_idx = w.ctx.buf_idx + (num + 1) ∧
      ((jxs_map_basic_new w context num).2.mappers w.ctx.buf_idx).jmhead.isbuf = true ∧
      ((jxs_map_basic_new w context num).2.mappers w.ctx.buf_idx).jmhead.limit = num ∧
      ((jxs_map_basic_new w context num).2.mappers w.ctx.buf_idx).jmhead.start_addr
        = w.ctx.start_addr ∧
      ((jxs_map_basic_new w context num).2.mappers w.ctx.buf_idx).jmhead.idx
        = (w.mappers w.ctx.buf_idx).jmhead.idx ∧
      ((jxs_map_basic_new w context num).2.mappers w.ctx.buf_idx).jmhead.ref
        = (w.mappers w.ctx.buf_idx).jmhead.ref) ∧
    (num ≠ 0 → context = true → MAPPER_BUFFER_LENGTH - w.ctx.buf_idx < num + 1 →
      (jxs_map_basic_new w context num).1 = some (MAPPER_BUFFER_LENGTH + w.heap_next) ∧
      (jxs_map_basic_new w context num).2.ctx.buf_idx = w.ctx.buf_idx ∧
      ((jxs_map_basic_new w context num).2.mappers (MAPPER_BUFFER_LENGTH + w.heap_next)).jmhead
        = { isbuf := false, limit := num, idx := 0, ref := 0,
            start_addr := w.ctx.start_addr }) := by
  have hcap : (MAPPER_BUFFER_LENGTH + (PTR_MOD - w.ctx.buf_idx % PTR_MOD)) % PTR_MOD
      = MAPPER_BUFFER_LENGTH - w.ctx.buf_idx := by
    have hb : MAPPER_BUFFER_LENGTH = 65 := by decide
    rw [hb] at hidx ⊢
    unfold PTR_MOD
    omega
  have hn1 : (num + 1) % PTR_MOD = num + 1 := Nat.mod_eq_of_lt hnum
  refine ⟨?_, ?_, ?_⟩
  · unfold jxs_map_basic_new
    by_cases h0 : num = 0
    · rw [if_pos h0]
      exact ⟨fun _ => Or.inl h0, fun _ => rfl⟩
    · by_cases hc : context = false
      · rw [if_neg h0, if_pos hc]
        exact ⟨fun _ => Or.inr hc, fun _ => rfl⟩
      · rw [if_neg h0, if_neg hc]
        constructor
        · intro h
          split at h <;> cases h
        · intro h
          rcases h with h | h
          · exact absurd h h0
          · exact absurd h hc
  · intro h0 hc hle
    have hnot : ¬ ((MAPPER_BUFFER_LENGTH + (PTR_MOD - w.ctx.buf_idx % PTR_MOD)) % PTR_MOD
        < (num + 1) % PTR_MOD) := by
      rw [hcap, hn1]; omega
    have hb : MAPPER_BUFFER_LENGTH = 65 := by decide
    have hadd : (w.ctx.buf_idx + (num + 1)) % PTR_MOD = w.ctx.buf_idx + (num + 1) := by
      apply Nat.mod_eq_of_lt
      rw [hb] at hle hidx
      unfold PTR_MOD
      omega
    have hc' : ¬ context = false := by rw [hc]; decide
    unfold jxs_map_basic_new
    rw [if_neg h0, if_neg hc', if_neg hnot]
    refine ⟨rfl, ?_, ?_, ?_, ?_, ?_, ?_⟩
    · simp only [set_mapper_ctx, hadd]
    all_goals simp only [set_mapper_same]
  · intro h0 hc hlt
    have hyes : (MAPPER_BUFFER_LENGTH + (PTR_MOD - w.ctx.buf_idx % PTR_MOD)) % PTR_MOD
        < (num + 1) % PTR_MOD := by
      rw [hcap, hn1]; exact hlt
    have hc' : ¬ context = false := by rw [hc]; decide
    unfold jxs_map_basic_new
    rw [if_neg h0, if_neg hc', if_pos hyes]
    refine ⟨rfl, ?_, ?_⟩
    · simp only [set_mapper_ctx]
    · simp only [set_mapper_same]

/-- C16 (defect in the code): `jxs_map_basic_new(context, SIZE_MAX)` on a fresh
context.  The remaining pool capacity, 65 slots, is far below `num + 1 = 2^64`,
yet `num + 1` wraps to 0 in `size_t`, the test `capacity < num + 1` is false and
the tree is taken from the pool: flagged as pooled, with limit `2^64 - 1`, and
the pool index stays 0.  After one node is added, a second call for one node
returns the same slot, whose count is already 1. -/
theorem c16_pool_is_used_when_count_wraps :
    MAPPER_BUFFER_LENGTH - (set_ctx_target (world_init mem_zero) 100 0).ctx.buf_idx
      < (PTR_MOD - 1) + 1 ∧
    (jxs_map_basic_new (set_ctx_target (world_init mem_zero) 100 0) true (PTR_MOD - 1)).1
      = some 0 ∧
    ((jxs_map_basic_new (set_ctx_target (world_init mem_zero) 100 0) true
      (PTR_MOD - 1)).2.mappers 0).jmhead.isbuf = true ∧
    ((jxs_map_basic_new (set_ctx_target (world_init mem_zero) 100 0) true
      (PTR_MOD - 1)).2.mappers 0).jmhead.limit = PTR_MOD - 1 ∧
    (jxs_map_basic_new (set_ctx_target (world_init mem_zero) 100 0) true
      (PTR_MOD - 1)).2.ctx.buf_idx = 0 ∧
    (jxs_map_basic_new
      (jxs_item_basic_add
        (jxs_map_basic_new (set_ctx_target (world_init mem_zero) 100 0) true (PTR_MOD - 1)).2
        (some 0) .int [Char.ofNat 97] 0 4 none [0]).2 true 1).1 = some 0 ∧
    ((jxs_map_basic_new
      (jxs_item_basic_add
        (jxs_map_basic_new (set_ctx_target (world_init mem_zero) 100 0) true (PTR_MOD - 1)).2
        (some 0) .int [Char.ofNat 97] 0 4 none [0]).2 true 1).2.mappers 0).jmhead.idx = 1 := by
  decide



/-! ## Claims C19 and C20: row-major dimension unrolling -/

theorem getD_tail_append_zero (l : List Nat) (j : Nat) :
    (l.tail ++ [0]).getD j 0 = l.getD (j + 1) 0 := by
  cases l with
  | nil =>
    cases j <;> simp
  | cons a t =>
    simp only [List.tail_cons, List.getD_cons_succ]
    by_cases h : j < t.length
    · rw [List.getD_append _ _ _ _ h]
    · rw [List.getD_append_right _ _ _ _ (by omega), List.getD_eq_default t 0 (by omega)]
      cases hj : j - t.length <;> simp

/-- The node of the next dimension of an array slice is the slice of the
remaining dimensions. -/
theorem next_dimen_arr_node {t : jxs_type} {e d : Nat} {ds : List Nat} {node : jmap_item_t}
    (h : ArrNode t e (d :: ds) node) (hd : 0 < d) (idx : Nat) :
    ArrNode t e ds (jmap_array_move_next_dimen node idx) ∧
    (jmap_array_move_next_dimen node idx).arr.length = d ∧
    (jmap_array_move_next_dimen node idx).offset = (node.offset + node.size * idx) % PTR_MOD ∧
    (jmap_array_move_next_dimen node idx).rule = node.rule ∧
    (jmap_array_move_next_dimen node idx).size = node.size / d ∧
    node.size / d * d = node.size := by
  have hd0 : node.arr.deptab.getD 0 0 = d := by
    have := h.dims 0 (by simp)
    simpa using this
  have hdep := h.depth
  simp only [List.length_cons] at hdep
  have hc : ¬ (node.arr.cur_depth ≥ node.arr.depth ∨ node.arr.deptab.getD 0 0 = 0) := by
    intro hx
    rcases hx with hx | hx
    · omega
    · omega
  have hsz : node.size / d = e * ds.prod := by
    rw [h.size, List.prod_cons]
    rw [show e * (d * ds.prod) = d * (e * ds.prod) by ring]
    exact Nat.mul_div_cancel_left _ hd
  unfold jmap_array_move_next_dimen
  rw [if_neg hc]
  refine ⟨⟨?_, ?_, h.basetype, ?_, ?_, ?_⟩, hd0, rfl, rfl, by rw [hd0], ?_⟩
  · intro hds
    subst hds
    simp only [List.length_nil] at hdep
    show (if node.arr.depth - node.arr.cur_depth = 1 then node.basetype else jxs_type.array) = t
    rw [if_pos (by omega), h.basetype]
  · intro hds
    have : 0 < ds.length := List.length_pos.2 hds
    show (if node.arr.depth - node.arr.cur_depth = 1 then node.basetype else jxs_type.array) = _
    rw [if_neg (by omega)]
  · show node.size / node.arr.deptab.getD 0 0 = _
    rw [hd0, hsz]
  · show node.arr.cur_depth + 1 + ds.length = node.arr.depth
    omega
  · intro j hj
    show (node.arr.deptab.tail ++ [0]).getD j 0 = _
    rw [getD_tail_append_zero]
    have := h.dims (j + 1) (by simp; omega)
    simpa using this
  · rw [hsz, h.size, List.prod_cons]
    ring

theorem range_succ_flat_map {β : Type} (n : Nat) (g : Nat → List β) :
    (List.range (n + 1)).flatMap g = g 0 ++ (List.range n).flatMap (fun k => g (k + 1)) := by
  rw [List.range_succ_eq_map, List.flatMap_cons, List.flatMap_map]


theorem prod_pos_of_pos (ds : List Nat) (h : ∀ d ∈ ds, 0 < d) : 0 < ds.prod := by
  induction ds with
  | nil => simp
  | cons d ds ih =>
    rw [List.prod_cons]
    exact Nat.mul_pos (h d (List.mem_cons_self _ _))
      (ih (fun x hx => h x (List.mem_cons_of_mem _ hx)))

/-- The serialization wrapper on a kept node whose address does not wrap: the
visit is recorded, then the `switch` on the type runs in the world the rule
engine leaves. -/
theorem ser_wrapper_keep_step (lib : JsonLib) (fuel hp : Nat) (node : jmap_item_t) (idx : Nat)
    (w : World)
    (hkeep : (jmap_convert_handler (record_visit w (node_addr w hp node idx) node) node
      (node_addr w hp node idx)).1 = item_action.RULE_ITEM_KEEP)
    (h0 : 0 < (w.mappers hp).jmhead.start_addr + node.offset)
    (hle : (w.mappers hp).jmhead.start_addr + node.offset + node.size * idx < PTR_MOD) :
    node_addr w hp node idx = (w.mappers hp).jmhead.start_addr + node.offset + node.size * idx ∧
    jmap_to_json_warpper lib (fuel + 1) hp node idx w
      = to_json_by_type lib (jmap_to_json_warpper lib fuel) hp node idx
          ((w.mappers hp).jmhead.start_addr + node.offset + node.size * idx)
          (handler_world (record_visit w ((w.mappers hp).jmhead.start_addr + node.offset
            + node.size * idx) node) node
            ((w.mappers hp).jmhead.start_addr + node.offset + node.size * idx)) := by
  have hb : node_base w hp node = (w.mappers hp).jmhead.start_addr + node.offset := by
    unfold node_base base_of
    exact Nat.mod_eq_of_lt (by omega)
  have ha : node_addr w hp node idx
      = (w.mappers hp).jmhead.start_addr + node.offset + node.size * idx := by
    unfold node_addr addr_of base_of
    rw [Nat.mod_eq_of_lt (show (w.mappers hp).jmhead.start_addr + node.offset < PTR_MOD by omega)]
    exact Nat.mod_eq_of_lt hle
  refine ⟨ha, ?_⟩
  rw [wrapper_unfold lib fuel hp node idx w (by rw [hb]; omega), hkeep]
  simp only []
  rw [ha]

theorem handler_world_facts (w : World) (it : jmap_item_t) (v : Nat) :
    (handler_world w it v).mappers = w.mappers ∧
    (handler_world w it v).visits = w.visits ∧
    (handler_world w it v).ctx.convert_callback = w.ctx.convert_callback := by
  rw [← handler_snd]
  exact ⟨handler_mappers w it v, handler_visits w it v, handler_callback w it v⟩

/-- The element loop of an array slice whose elements are walked as `hel`
says, for an invariant `I` of the world: all iterations return 0, the
invariant is kept, the document array grows by one value per index and the
visits by the visits of each element in turn. -/
theorem to_json_array_loop_slices
    (wr : Nat → jmap_item_t → Nat → World → Option (Int × Json × World))
    (hp : Nat) (el : jmap_item_t) (loc fz : Option (List Char)) (I : World → Prop)
    (V : Nat → List Visit) (D : Nat → Json → Prop) (N : Nat)
    (hset : ∀ w l f, I w → I (set_now w l f))
    (hel : ∀ i w, I w → i < N →
      ∃ doc w', wr hp el i w = some (0, doc, w') ∧ I w' ∧
        w'.visits = w.visits ++ V i ∧ D i doc) :
    ∀ (n i : Nat) (xs : List Json) (w : World), I w → i + n ≤ N →
      ∃ ys w', to_json_array_loop wr hp el loc fz n i (.array xs) w
          = some (0, .array (xs ++ ys), w') ∧
        ys.length = n ∧ (∀ k, k < n → D (i + k) (ys.getD k .null)) ∧ I w' ∧
        w'.visits = w.visits ++ (List.range n).flatMap (fun k => V (i + k)) := by
  intro n
  induction n with
  | zero =>
    intro i xs w hI _
    exact ⟨[], w, by simp [to_json_array_loop], rfl, fun k hk => absurd hk (by omega), hI,
      by simp⟩
  | succ n ih =>
    intro i xs w hI hin
    obtain ⟨doc, w1, h1, hI1, hv1, hd1⟩ := hel i
      (set_now w (SET_NEW_LOCATOR loc el.key true i) (SET_NEW_FUZZY_LOCATOR fz loc el.key true))
      (hset _ _ _ hI) (by omega)
    obtain ⟨ys, w2, h2, hl2, hd2, hI2, hv2⟩ := ih (i + 1) (xs ++ [doc]) w1 hI1 (by omega)
    refine ⟨doc :: ys, w2, ?_, by simp [hl2], ?_, hI2, ?_⟩
    · simp only [to_json_array_loop, h1]
      simp only [Int.reduceNeg, OfNat.zero_ne_ofNat, if_false, if_true, json_object_array_add]
      rw [h2]
      simp
    · intro k hk
      cases k with
      | zero => simpa using hd1
      | succ k =>
        simp only [List.getD_cons_succ]
        rw [show i + (k + 1) = i + 1 + k by omega]
        exact hd2 k (by omega)
    · rw [hv2, hv1, range_succ_flat_map]
      simp only [set_now_visits, Nat.add_zero, List.append_assoc]
      congr 2
      apply congrArg
      funext k
      rw [show i + 1 + k = i + (k + 1) by omega]

theorem list_eq_range_map (ys : List Json) (n : Nat) (f : Nat → Json) (hl : ys.length = n)
    (h : ∀ k, k < n → ys.getD k .null = f k) : ys = (List.range n).map f := by
  apply List.ext_getElem
  · simp [hl]
  · intro k h1 h2
    have := h k (by omega)
    rw [List.getD_eq_getElem _ _ h1] at this
    rw [this]
    simp

/-- Serialization of an array slice with scalar elements, every action Keep:
with fuel above the number of remaining dimensions, the wrapper returns 0 with
a nest of arrays of the remaining lengths, keeps the store and records the
visits `slice_visits`; when the rule engine keeps the memory (`K`), the
document is `slice_doc` of the memory. -/
theorem ser_slice (lib : JsonLib) (t : jxs_type) (ht1 : t ≠ jxs_type.struct)
    (ht2 : t ≠ jxs_type.array) (e : Nat) (he : 0 < e) (cb : Option (CbView → CbEffect))
    (rule : Nat) (K : Prop)
    (hkeep : ∀ (w : World) (it : jmap_item_t) (v : Nat), w.ctx.convert_callback = cb →
      it.rule = rule → (jmap_convert_handler w it v).1 = item_action.RULE_ITEM_KEEP)
    (hmem : K → ∀ (w : World) (it : jmap_item_t) (v : Nat), w.ctx.convert_callback = cb →
      it.rule = rule → (handler_world w it v).mem = w.mem) :
    ∀ (ds : List Nat), (∀ d ∈ ds, 0 < d) →
      ∀ (node : jmap_item_t) (idx hp : Nat) (w : World) (fuel : Nat),
        ArrNode t e ds node → node.rule = rule → w.ctx.convert_callback = cb →
        ds.length < fuel →
        0 < (w.mappers hp).jmhead.start_addr + node.offset →
        (w.mappers hp).jmhead.start_addr + node.offset + node.size * (idx + 1) ≤ PTR_MOD →
        ∃ doc w', jmap_to_json_warpper lib fuel hp node idx w = some (0, doc, w') ∧
          w'.mappers = w.mappers ∧ w'.ctx.convert_callback = cb ∧
          w'.visits = w.visits ++ slice_visits t ds
            ((w.mappers hp).jmhead.start_addr + node.offset + node.size * idx) node.size ∧
          nested_arrays ds doc ∧
          (K → w'.mem = w.mem ∧ doc = slice_doc lib w.mem t ds
            ((w.mappers hp).jmhead.start_addr + node.offset + node.size * idx) node.size) := by
  intro ds
  induction ds with
  | nil =>
    intro _ node idx hp w fuel hn hr hc hf h0 hle
    obtain ⟨f, rfl⟩ : ∃ f, fuel = f + 1 := ⟨fuel - 1, by omega⟩
    have hsz : 0 < node.size := by rw [hn.size]; simpa using he
    have hlt : (w.mappers hp).jmhead.start_addr + node.offset + node.size * idx < PTR_MOD := by
      have : node.size * (idx + 1) = node.size * idx + node.size := by ring
      omega
    obtain ⟨ha, hw⟩ := ser_wrapper_keep_step lib f hp node idx w
      (hkeep _ _ _ (by simpa using hc) hr) h0 hlt
    have hty := hn.type_leaf rfl
    rw [hw, to_json_by_type_leaf lib _ hp node idx _ _ (by rw [hty]; exact ht1)
      (by rw [hty]; exact ht2)]
    have hf := handler_world_facts (record_visit w ((w.mappers hp).jmhead.start_addr
      + node.offset + node.size * idx) node) node
      ((w.mappers hp).jmhead.start_addr + node.offset + node.size * idx)
    refine ⟨_, _, rfl, by rw [hf.1]; rfl, by rw [hf.2.2]; exact hc, ?_, trivial, ?_⟩
    · rw [hf.2.1, record_visit_visits, hty]
      rfl
    · intro hK
      have hm := hmem hK (record_visit w ((w.mappers hp).jmhead.start_addr
        + node.offset + node.size * idx) node) node
        ((w.mappers hp).jmhead.start_addr + node.offset + node.size * idx)
        (by simpa using hc) hr
      rw [record_visit_mem] at hm
      refine ⟨hm, ?_⟩
      rw [hm, hty]
      rfl
  | cons d ds ih =>
    intro hpos node idx hp w fuel hn hr hc hf h0 hle
    obtain ⟨f, rfl⟩ : ∃ f, fuel = f + 1 := ⟨fuel - 1, by omega⟩
    have hd : 0 < d := hpos d (List.mem_cons_self _ _)
    have hpos' : ∀ x ∈ ds, 0 < x := fun x hx => hpos x (List.mem_cons_of_mem _ hx)
    obtain ⟨hel, hlen, hoffs, hrule, hesz, hmul⟩ := next_dimen_arr_node hn hd idx
    have hP : 0 < ds.prod := prod_pos_of_pos ds hpos'
    have hesz0 : 0 < (jmap_array_move_next_dimen node idx).size := by
      rw [hel.size]; exact Nat.mul_pos he hP
    have hsz : 0 < node.size := by
      rw [← hmul, ← hesz]; exact Nat.mul_pos hesz0 hd
    have hlt : (w.mappers hp).jmhead.start_addr + node.offset + node.size * idx < PTR_MOD := by
      have : node.size * (idx + 1) = node.size * idx + node.size := by ring
      omega
    obtain ⟨ha, hw⟩ := ser_wrapper_keep_step lib f hp node idx w
      (hkeep _ _ _ (by simpa using hc) hr) h0 hlt
    have hty := hn.type_arr (by simp)
    have hfw := handler_world_facts (record_visit w ((w.mappers hp).jmhead.start_addr
      + node.offset + node.size * idx) node) node
      ((w.mappers hp).jmhead.start_addr + node.offset + node.size * idx)
    have hm1 : K → (handler_world (record_visit w ((w.mappers hp).jmhead.start_addr
      + node.offset + node.size * idx) node) node
      ((w.mappers hp).jmhead.start_addr + node.offset + node.size * idx)).mem = w.mem := by
      intro hK
      have hm := hmem hK (record_visit w ((w.mappers hp).jmhead.start_addr
        + node.offset + node.size * idx) node) node
        ((w.mappers hp).jmhead.start_addr + node.offset + node.size * idx)
        (by simpa using hc) hr
      rw [record_visit_mem] at hm
      exact hm
    simp only [record_visit_mappers, record_visit_visits, record_visit_ctx] at hfw
    generalize hW1 : handler_world (record_visit w ((w.mappers hp).jmhead.start_addr
      + node.offset + node.size * idx) node) node
      ((w.mappers hp).jmhead.start_addr + node.offset + node.size * idx) = w1 at hw hfw hm1
    have hoff' : (jmap_array_move_next_dimen node idx).offset
        = node.offset + node.size * idx := by
      rw [hoffs]
      exact Nat.mod_eq_of_lt (by omega)
    have helem : ∀ i w2, (w2.mappers = w1.mappers ∧
          w2.ctx.convert_callback = w1.ctx.convert_callback ∧ (K → w2.mem = w.mem)) → i < d →
        ∃ doc w', jmap_to_json_warpper lib f hp (jmap_array_move_next_dimen node idx) i w2
            = some (0, doc, w') ∧
          (w'.mappers = w1.mappers ∧ w'.ctx.convert_callback = w1.ctx.convert_callback ∧
            (K → w'.mem = w.mem)) ∧
          w'.visits = w2.visits ++ slice_visits t ds
            ((w.mappers hp).jmhead.start_addr + node.offset + node.size * idx
              + node.size / d * i) (node.size / d) ∧
          (nested_arrays ds doc ∧ (K → doc = slice_doc lib w.mem t ds
            ((w.mappers hp).jmhead.start_addr + node.offset + node.size * idx
              + node.size / d * i) (node.size / d))) := by
      intro i w2 hI2 hi
      obtain ⟨hm2, hc2, hk2⟩ := hI2
      have hst : (w2.mappers hp).jmhead.start_addr = (w.mappers hp).jmhead.start_addr := by
        rw [hm2, hfw.1]
      have hbound : node.size / d * (i + 1) ≤ node.size := by
        calc node.size / d * (i + 1) ≤ node.size / d * d := Nat.mul_le_mul_left _ (by omega)
          _ = node.size := hmul
      obtain ⟨doc, w', h1, h2, h3, h4, h5, h6⟩ := ih hpos' (jmap_array_move_next_dimen node idx)
        i hp w2 f hel (hrule.trans hr) (by rw [hc2, hfw.2.2]; exact hc)
        (by simp only [List.length_cons] at hf; omega)
        (by rw [hst, hoff']; omega)
        (by
          rw [hst, hoff', hesz]
          have : node.size * (idx + 1) = node.size * idx + node.size := by ring
          omega)
      have haddr : (w2.mappers hp).jmhead.start_addr + (jmap_array_move_next_dimen node idx).offset
          + (jmap_array_move_next_dimen node idx).size * i
          = (w.mappers hp).jmhead.start_addr + node.offset + node.size * idx
              + node.size / d * i := by
        rw [hst, hoff', hesz]
        simp only [Nat.add_assoc]
      rw [haddr, hesz] at h4 h6
      refine ⟨doc, w', h1, ⟨by rw [h2, hm2], by rw [h3, hfw.2.2, hc], ?_⟩, h4, h5, ?_⟩
      · intro hK
        rw [(h6 hK).1, hk2 hK]
      · intro hK
        rw [(h6 hK).2, hk2 hK]
    obtain ⟨ys, w3, hl1, hl2, hl3, hl4, hl6⟩ := to_json_array_loop_slices
      (jmap_to_json_warpper lib f) hp (jmap_array_move_next_dimen node idx)
      w1.ctx.now_locator w1.ctx.now_fzlocator
      (fun w2 => w2.mappers = w1.mappers ∧
          w2.ctx.convert_callback = w1.ctx.convert_callback ∧ (K → w2.mem = w.mem))
      (fun i => slice_visits t ds ((w.mappers hp).jmhead.start_addr + node.offset
        + node.size * idx + node.size / d * i) (node.size / d))
      (fun i doc => nested_arrays ds doc ∧ (K → doc = slice_doc lib w.mem t ds
            ((w.mappers hp).jmhead.start_addr + node.offset + node.size * idx
              + node.size / d * i) (node.size / d)))
      d (fun w2 l f h => h) helem d 0 [] w1 ⟨rfl, rfl, hm1⟩ (by omega)
    rw [hw]
    unfold to_json_by_type
    rw [hty]
    simp only []
    unfold jmap_to_json_array_with
    rw [if_neg (by rw [hlen]; omega), hlen]
    simp only [Json.is_array, Bool.not_true, Bool.false_eq_true, if_false]
    rw [hl1]
    simp only [Int.reduceNeg, OfNat.zero_ne_ofNat, if_false, List.nil_append]
    refine ⟨_, _, rfl, by rw [hl4.1, hfw.1], by rw [hl4.2.1, hfw.2.2, hc], ?_,
      ⟨ys, rfl, hl2, fun k hk => ?_⟩, ?_⟩
    · rw [hl6, hfw.2.1]
      simp only [slice_visits, Nat.zero_add, List.append_assoc, List.singleton_append, hty]
    · simpa using (hl3 k hk).1
    · intro hK
      refine ⟨hl4.2.2 hK, ?_⟩
      simp only [slice_doc]
      congr 1
      apply list_eq_range_map ys d _ hl2
      intro k hk
      simpa using (hl3 k hk).2 hK

theorem range_mul_flat_map (d P : Nat) :
    List.range (d * P)
      = (List.range d).flatMap (fun i => (List.range P).map (fun n => P * i + n)) := by
  induction d with
  | zero => simp
  | succ d ih =>
    rw [Nat.succ_mul, List.range_add, ih, List.range_succ, List.flatMap_append]
    simp only [List.flatMap_cons, List.flatMap_nil, List.append_nil]
    congr 1
    rw [Nat.mul_comm d P]

/-- The leaves of an array slice with scalar elements, in the order of the
walk, are the elements at `a`, `a + e`, `a + 2 * e`, ...: one per element. -/
theorem slice_visits_leaves (t : jxs_type) (ht1 : t ≠ jxs_type.struct)
    (ht2 : t ≠ jxs_type.array) (e : Nat) :
    ∀ (ds : List Nat), (∀ d ∈ ds, 0 < d) → ∀ a,
      (slice_visits t ds a (e * ds.prod)).filter is_leaf_visit
        = (List.range ds.prod).map (fun n => ({ vptr := a + e * n, type := t, size := e } : Visit))
    := by
  intro ds
  induction ds with
  | nil =>
    intro _ a
    have : is_leaf_visit { vptr := a, type := t, size := e } = true := by
      simp [is_leaf_visit, ht1, ht2]
    simp [slice_visits, List.filter_cons, this]
    rfl
  | cons d ds ih =>
    intro hpos a
    have hd : 0 < d := hpos d (List.mem_cons_self _ _)
    have hpos' : ∀ x ∈ ds, 0 < x := fun x hx => hpos x (List.mem_cons_of_mem _ hx)
    have hdiv : e * (d * ds.prod) / d = e * ds.prod := by
      rw [show e * (d * ds.prod) = d * (e * ds.prod) by ring]
      exact Nat.mul_div_cancel_left _ hd
    have hna : is_leaf_visit { vptr := a, type := jxs_type.array, size := e * (d * ds.prod) }
        = false := by
      simp [is_leaf_visit]
    simp only [slice_visits, List.prod_cons, List.filter_cons, hna, Bool.false_eq_true, if_false,
      hdiv, List.filter_flatMap]
    rw [range_mul_flat_map, List.map_flatMap]
    apply congrArg
    funext i
    rw [ih hpos', List.map_map]
    apply List.map_congr_left
    intro n _
    simp only [Function.comp]
    congr 1
    ring

/-- The offset `i0 * (d1 * d2 ...) + i1 * (d2 ...) + ...` of the indices `is`,
in elements. -/
theorem row_major_spec : ∀ (ds is : List Nat) (acc : Nat), in_range ds is →
    row_major ds is acc = acc * ds.prod + row_major ds is 0 := by
  intro ds
  induction ds with
  | nil =>
    intro is acc h
    cases is with
    | nil => simp [row_major]
    | cons i is => exact absurd h (by simp [in_range])
  | cons d ds ih =>
    intro is acc h
    cases is with
    | nil => exact absurd h (by simp [in_range])
    | cons i is =>
      simp only [in_range] at h
      simp only [row_major, List.prod_cons, Nat.zero_mul, Nat.zero_add]
      rw [ih is (acc * d + i) h.2, ih is i h.2]
      ring

/-- The value of the document of an array slice at the indices `is` is the
value of the element at the row-major index of `is`. -/
theorem slice_doc_at (lib : JsonLib) (mem : Mem) (t : jxs_type) (e : Nat) :
    ∀ (ds is : List Nat), (∀ d ∈ ds, 0 < d) → in_range ds is → ∀ a,
      doc_at (slice_doc lib mem t ds a (e * ds.prod)) is
        = (to_json_scalar lib mem t e (a + e * row_major ds is 0)).getD .null := by
  intro ds
  induction ds with
  | nil =>
    intro is _ h a
    cases is with
    | nil => simp [doc_at, slice_doc, row_major]
    | cons i is => exact absurd h (by simp [in_range])
  | cons d ds ih =>
    intro is hpos h a
    cases is with
    | nil => exact absurd h (by simp [in_range])
    | cons i is =>
      simp only [in_range] at h
      have hd : 0 < d := hpos d (List.mem_cons_self _ _)
      have hpos' : ∀ x ∈ ds, 0 < x := fun x hx => hpos x (List.mem_cons_of_mem _ hx)
      have hdiv : e * (d * ds.prod) / d = e * ds.prod := by
        rw [show e * (d * ds.prod) = d * (e * ds.prod) by ring]
        exact Nat.mul_div_cancel_left _ hd
      simp only [doc_at, slice_doc, List.prod_cons, json_object_array_get_idx, hdiv]
      rw [List.getD_eq_getElem _ _ (by simpa using h.1)]
      simp only [List.getElem_map, List.getElem_range]
      rw [ih is hpos' h.2]
      simp only [row_major, Nat.zero_mul, Nat.zero_add]
      rw [row_major_spec ds is i h.2]
      congr 2
      ring

/-- The leaf reached through the indices `is` is the element at the row-major
index of `is`, and it is among the visits of the slice. -/
theorem leaf_at_row_major (t : jxs_type) (e : Nat) :
    ∀ (ds is : List Nat), (∀ d ∈ ds, 0 < d) → in_range ds is → ∀ a,
      leaf_at t ds is a (e * ds.prod)
        = { vptr := a + e * row_major ds is 0, type := t, size := e } ∧
      leaf_at t ds is a (e * ds.prod) ∈ slice_visits t ds a (e * ds.prod) ∧
      row_major ds is 0 < ds.prod := by
  intro ds
  induction ds with
  | nil =>
    intro is _ h a
    cases is with
    | nil => simp [leaf_at, row_major, slice_visits]
    | cons i is => exact absurd h (by simp [in_range])
  | cons d ds ih =>
    intro is hpos h a
    cases is with
    | nil => exact absurd h (by simp [in_range])
    | cons i is =>
      simp only [in_range] at h
      have hd : 0 < d := hpos d (List.mem_cons_self _ _)
      have hpos' : ∀ x ∈ ds, 0 < x := fun x hx => hpos x (List.mem_cons_of_mem _ hx)
      have hdiv : e * (d * ds.prod) / d = e * ds.prod := by
        rw [show e * (d * ds.prod) = d * (e * ds.prod) by ring]
        exact Nat.mul_div_cancel_left _ hd
      obtain ⟨h1, h2, h3⟩ := ih is hpos' h.2 (a + e * ds.prod * i)
      simp only [leaf_at, List.prod_cons, hdiv, row_major, Nat.zero_mul, Nat.zero_add,
        slice_visits]
      refine ⟨?_, ?_, ?_⟩
      · rw [h1, row_major_spec ds is i h.2]
        congr 1
        ring
      · apply List.mem_cons_of_mem
        rw [List.mem_flatMap]
        exact ⟨i, List.mem_range.2 h.1, h2⟩
      · rw [row_major_spec ds is i h.2]
        calc i * ds.prod + row_major ds is 0 < i * ds.prod + ds.prod := by omega
          _ = (i + 1) * ds.prod := by ring
          _ ≤ d * ds.prod := Nat.mul_le_mul_right _ (by omega)


/-- The deserialization wrapper on a node whose address does not wrap: the
visit is recorded, then the `switch` on the type runs. -/
theorem de_wrapper_step (lib : JsonLib) (fuel hp : Nat) (node : jmap_item_t) (idx : Nat)
    (j : Json) (w : World)
    (h0 : 0 < (w.mappers hp).jmhead.start_addr + node.offset)
    (hle : (w.mappers hp).jmhead.start_addr + node.offset + node.size * idx < PTR_MOD) :
    jmap_from_json_warpper lib (fuel + 1) hp node idx j w
      = from_json_by_type lib (jmap_from_json_warpper lib fuel) hp node idx
          ((w.mappers hp).jmhead.start_addr + node.offset + node.size * idx) j
          (record_visit w ((w.mappers hp).jmhead.start_addr + node.offset
            + node.size * idx) node) := by
  have hb : node_base w hp node = (w.mappers hp).jmhead.start_addr + node.offset := by
    unfold node_base base_of
    exact Nat.mod_eq_of_lt (by omega)
  have ha : node_addr w hp node idx
      = (w.mappers hp).jmhead.start_addr + node.offset + node.size * idx := by
    unfold node_addr addr_of base_of
    rw [Nat.mod_eq_of_lt (show (w.mappers hp).jmhead.start_addr + node.offset < PTR_MOD by omega)]
    exact Nat.mod_eq_of_lt hle
  simp only [jmap_from_json_warpper]
  rw [if_neg (by rw [hb]; omega), ha]

theorem from_json_array_loop_slices
    (wr : Nat → jmap_item_t → Nat → Json → World → Option (Int × World))
    (hp : Nat) (el : jmap_item_t) (loc fz : Option (List Char)) (arr : Json) (w0 : World)
    (V : Nat → List Visit) (N : Nat)
    (hel : ∀ i w, w.mappers = w0.mappers → i < N →
      ∃ w', wr hp el i (json_object_array_get_idx arr i) w = some (0, w') ∧
        w'.mappers = w0.mappers ∧ w'.visits = w.visits ++ V i) :
    ∀ (n i : Nat) (w : World), w.mappers = w0.mappers → i + n ≤ N →
      ∃ w', from_json_array_loop wr hp el loc fz arr n i w = some (0, w') ∧
        w'.mappers = w0.mappers ∧
        w'.visits = w.visits ++ (List.range n).flatMap (fun k => V (i + k)) := by
  intro n
  induction n with
  | zero =>
    intro i w hm _
    exact ⟨w, by simp [from_json_array_loop], hm, by simp⟩
  | succ n ih =>
    intro i w hm hin
    obtain ⟨w1, h1, hm1, hv1⟩ := hel i
      (set_now w (SET_NEW_LOCATOR loc el.key true i) (SET_NEW_FUZZY_LOCATOR fz loc el.key true))
      hm (by omega)
    obtain ⟨w2, h2, hm2, hv2⟩ := ih (i + 1) w1 hm1 (by omega)
    refine ⟨w2, ?_, hm2, ?_⟩
    · simp only [from_json_array_loop, h1]
      simp only [ne_eq, not_true_eq_false, if_false]
      exact h2
    · rw [hv2, hv1, range_succ_flat_map]
      simp only [set_now_visits, Nat.add_zero, List.append_assoc]
      congr 2
      apply congrArg
      funext k
      rw [show i + 1 + k = i + (k + 1) by omega]

/-- Deserialization of a nest of arrays of the declared lengths into an array
slice with scalar elements of a supported width: with fuel above the number of
remaining dimensions, the wrapper returns 0, keeps the store and records the
visits `slice_visits`. -/
theorem de_slice (lib : JsonLib) (t : jxs_type) (ht1 : t ≠ jxs_type.struct)
    (ht2 : t ≠ jxs_type.array) (e : Nat) (he : 0 < e)
    (hsup : ∀ mem v j, (from_json_scalar lib mem t e v j).isSome = true) :
    ∀ (ds : List Nat), (∀ d ∈ ds, 0 < d) →
      ∀ (node : jmap_item_t) (idx hp : Nat) (doc : Json) (w : World) (fuel : Nat),
        ArrNode t e ds node → nested_arrays ds doc → ds.length < fuel →
        0 < (w.mappers hp).jmhead.start_addr + node.offset →
        (w.mappers hp).jmhead.start_addr + node.offset + node.size * (idx + 1) ≤ PTR_MOD →
        ∃ w', jmap_from_json_warpper lib fuel hp node idx doc w = some (0, w') ∧
          w'.mappers = w.mappers ∧
          w'.visits = w.visits ++ slice_visits t ds
            ((w.mappers hp).jmhead.start_addr + node.offset + node.size * idx) node.size := by
  intro ds
  induction ds with
  | nil =>
    intro _ node idx hp doc w fuel hn _ hf h0 hle
    obtain ⟨f, rfl⟩ : ∃ f, fuel = f + 1 := ⟨fuel - 1, by omega⟩
    have hsz : node.size = e := by rw [hn.size]; simp
    have hlt : (w.mappers hp).jmhead.start_addr + node.offset + node.size * idx < PTR_MOD := by
      have : node.size * (idx + 1) = node.size * idx + node.size := by ring
      omega
    have hty := hn.type_leaf rfl
    rw [de_wrapper_step lib f hp node idx doc w h0 hlt]
    unfold from_json_by_type
    have hs := hsup (record_visit w ((w.mappers hp).jmhead.start_addr + node.offset
      + node.size * idx) node).mem
      ((w.mappers hp).jmhead.start_addr + node.offset + node.size * idx) doc
    rw [← hsz, ← hty] at hs
    cases hm : from_json_scalar lib (record_visit w ((w.mappers hp).jmhead.start_addr
      + node.offset + node.size * idx) node).mem node.type node.size
      ((w.mappers hp).jmhead.start_addr + node.offset + node.size * idx) doc with
    | none => rw [hm] at hs; cases hs
    | some mem =>
      have hns : node.type ≠ jxs_type.struct := by rw [hty]; exact ht1
      have hna : node.type ≠ jxs_type.array := by rw [hty]; exact ht2
      split
      · rename_i hx; exact absurd hx hns
      · rename_i hx; exact absurd hx hna
      · rw [hm]
        refine ⟨_, rfl, rfl, ?_⟩
        simp only [set_mem_visits, record_visit_visits, slice_visits, hty]
  | cons d ds ih =>
    intro hpos node idx hp doc w fuel hn hdoc hf h0 hle
    obtain ⟨f, rfl⟩ : ∃ f, fuel = f + 1 := ⟨fuel - 1, by omega⟩
    have hd : 0 < d := hpos d (List.mem_cons_self _ _)
    have hpos' : ∀ x ∈ ds, 0 < x := fun x hx => hpos x (List.mem_cons_of_mem _ hx)
    obtain ⟨hel, hlen, hoffs, _, hesz, hmul⟩ := next_dimen_arr_node hn hd idx
    have hP : 0 < ds.prod := prod_pos_of_pos ds hpos'
    have hesz0 : 0 < (jmap_array_move_next_dimen node idx).size := by
      rw [hel.size]; exact Nat.mul_pos he hP
    have hsz : 0 < node.size := by
      rw [← hmul, ← hesz]; exact Nat.mul_pos hesz0 hd
    have hlt : (w.mappers hp).jmhead.start_addr + node.offset + node.size * idx < PTR_MOD := by
      have : node.size * (idx + 1) = node.size * idx + node.size := by ring
      omega
    have hty := hn.type_arr (by simp)
    obtain ⟨xs, hxs, hxl, hxd⟩ := hdoc
    have hoff' : (jmap_array_move_next_dimen node idx).offset
        = node.offset + node.size * idx := by
      rw [hoffs]
      exact Nat.mod_eq_of_lt (by omega)
    have helem : ∀ i w2, w2.mappers = w.mappers → i < d →
        ∃ w', jmap_from_json_warpper lib f hp (jmap_array_move_next_dimen node idx) i
            (json_object_array_get_idx doc i) w2 = some (0, w') ∧ w'.mappers = w.mappers ∧
          w'.visits = w2.visits ++ slice_visits t ds
            ((w.mappers hp).jmhead.start_addr + node.offset + node.size * idx
              + node.size / d * i) (node.size / d) := by
      intro i w2 hm2 hi
      have hst : (w2.mappers hp).jmhead.start_addr = (w.mappers hp).jmhead.start_addr := by
        rw [hm2]
      have hbound : node.size / d * (i + 1) ≤ node.size := by
        calc node.size / d * (i + 1) ≤ node.size / d * d := Nat.mul_le_mul_left _ (by omega)
          _ = node.size := hmul
      have hdi : nested_arrays ds (json_object_array_get_idx doc i) := by
        rw [hxs]
        exact hxd i hi
      obtain ⟨w', h1, h2, h4⟩ := ih hpos' (jmap_array_move_next_dimen node idx) i hp
        (json_object_array_get_idx doc i) w2 f hel hdi
        (by simp only [List.length_cons] at hf; omega)
        (by rw [hst, hoff']; omega)
        (by
          rw [hst, hoff', hesz]
          have : node.size * (idx + 1) = node.size * idx + node.size := by ring
          omega)
      refine ⟨w', h1, by rw [h2, hm2], ?_⟩
      rw [h4, hst, hoff', hesz]
      simp only [Nat.add_assoc]
    obtain ⟨w3, hl1, hl4, hl6⟩ := from_json_array_loop_slices
      (jmap_from_json_warpper lib f) hp (jmap_array_move_next_dimen node idx)
      (record_visit w ((w.mappers hp).jmhead.start_addr + node.offset + node.size * idx)
        node).ctx.now_locator
      (record_visit w ((w.mappers hp).jmhead.start_addr + node.offset + node.size * idx)
        node).ctx.now_fzlocator doc w
      (fun i => slice_visits t ds ((w.mappers hp).jmhead.start_addr + node.offset
        + node.size * idx + node.size / d * i) (node.size / d))
      d helem d 0
      (record_visit w ((w.mappers hp).jmhead.start_addr + node.offset + node.size * idx) node)
      rfl (by omega)
    rw [de_wrapper_step lib f hp node idx doc w h0 hlt]
    unfold from_json_by_type
    rw [hty]
    simp only []
    have hnn : doc.is_null = false := by rw [hxs]; rfl
    rw [if_neg (by rw [hnn]; decide)]
    unfold jmap_from_json_array_with
    rw [if_neg (by rw [hnn]; decide), if_neg (by rw [hlen]; omega)]
    have hia : doc.is_array = true := by rw [hxs]; rfl
    have hjl : json_object_array_length doc = d := by rw [hxs]; exact hxl
    simp only [hia, Bool.not_true, Bool.false_eq_true, if_false, hjl]
    rw [hl1]
    simp only [ne_eq, not_true_eq_false, if_false]
    refine ⟨_, rfl, hl4, ?_⟩
    rw [hl6]
    simp only [record_visit_visits, slice_visits, Nat.zero_add, List.append_assoc,
      List.singleton_append, hty]



/-- A node as `jxs_item_basic_add` writes it for the dimensions `ds` (given
with the terminating 0), element size `e` and total size `e * ds.prod`, is the
array slice of all its dimensions. -/
theorem added_item_arr_node (t : jxs_type) (key : List Char) (o e : Nat) (sub : Option Nat)
    (ds : List Nat) (rule : Nat) (hk : ds.length ≤ JXS_ARRAY_DEPTH)
    (hd : ∀ d ∈ ds, 0 < d ∧ d < PTR_MOD) (ho : o < PTR_MOD) :
    ArrNode t e ds
      { added_item t key (o : Int) (e * ds.prod) sub (ds.map Int.ofNat ++ [0]) with
        rule := rule } ∧
    ({ added_item t key (o : Int) (e * ds.prod) sub (ds.map Int.ofNat ++ [0]) with
        rule := rule } : jmap_item_t).offset = o := by
  have hsig : ∀ d : Nat, d < PTR_MOD → of_signed 8 (Int.ofNat d) = d := by
    intro d hd
    unfold of_signed
    simp only [PTR_MOD] at hd
    have : ((Int.ofNat d) % (2 : Int) ^ (8 * 8)) = Int.ofNat d := by
      apply Int.emod_eq_of_lt
      · exact Int.ofNat_nonneg d
      · simp only [Int.ofNat_eq_coe]; norm_num; omega
    rw [this]
    rfl
  have hva := va_deptab_dims (ds.map Int.ofNat) (by simpa using hk)
    (by
      intro d hdm
      obtain ⟨x, hx, rfl⟩ := List.mem_map.1 hdm
      rw [hsig x (hd x hx).2]
      exact Nat.pos_iff_ne_zero.1 (hd x hx).1)
  have hmap : (ds.map Int.ofNat).map (of_signed 8) = ds := by
    rw [List.map_map]
    conv_rhs => rw [← List.map_id ds]
    apply List.map_congr_left
    intro d hdm
    exact hsig d (hd d hdm).2
  rw [hmap] at hva
  simp only [List.length_map] at hva
  refine ⟨⟨?_, ?_, rfl, rfl, ?_, ?_⟩, ?_⟩
  · intro h0
    show (if (va_deptab (ds.map Int.ofNat ++ [0])).2 = 0 then t else jxs_type.array) = t
    rw [hva, if_pos (by simp [h0])]
  · intro h0
    show (if (va_deptab (ds.map Int.ofNat ++ [0])).2 = 0 then t else jxs_type.array) = _
    rw [hva, if_neg (by simpa using h0)]
  · show 0 + ds.length = (va_deptab (ds.map Int.ofNat ++ [0])).2
    rw [hva]; simp
  · intro j hj
    show (va_deptab (ds.map Int.ofNat ++ [0])).1.getD j 0 = _
    rw [hva]
    simp only []
    rw [List.getD_append _ _ _ _ hj]
  · show of_signed 8 (o : Int) = o
    exact hsig o ho

theorem dim_le_prod (ds : List Nat) (h : ∀ d ∈ ds, 0 < d) : ∀ d ∈ ds, d ≤ ds.prod := by
  induction ds with
  | nil => intro d hd; cases hd
  | cons x xs ih =>
    intro d hd
    have hx : 0 < x := h x (List.mem_cons_self _ _)
    have hxs : ∀ y ∈ xs, 0 < y := fun y hy => h y (List.mem_cons_of_mem _ hy)
    have hP := prod_pos_of_pos xs hxs
    rw [List.prod_cons]
    rcases List.mem_cons.1 hd with rfl | hd
    · exact Nat.le_mul_of_pos_right _ hP
    · exact le_trans (ih hxs d hd) (Nat.le_mul_of_pos_left _ hx)

/-- Without a callback, a node with the default rule keep-as-is is kept. -/
theorem handler_keep_raw_none (w : World) (it : jmap_item_t) (v : Nat)
    (hcb : w.ctx.convert_callback = none) (hr : it.rule = JXS_RULE_KEEP_RAW) :
    (jmap_convert_handler w it v).1 = item_action.RULE_ITEM_KEEP := by
  rw [handler_no_callback w it v (by rw [hr]; decide) hcb, if_pos hr]

/-- Without a callback the rule engine leaves the memory alone. -/
theorem handler_world_mem_none (w : World) (it : jmap_item_t) (v : Nat)
    (hcb : w.ctx.convert_callback = none) : (handler_world w it v).mem = w.mem := by
  unfold handler_world
  split
  · rfl
  · rw [hcb]; rfl

theorem walk_3_2_eq (t : jxs_type) (base size : Nat) :
    slice_visits t [3, 2] base (size * 6) = walk_3_2 t base size := by
  have h1 : size * 6 / 3 = size * 2 := by omega
  have h2 : size * 2 / 2 = size := by omega
  have hr3 : List.range 3 = [0, 1, 2] := rfl
  have hr2 : List.range 2 = [0, 1] := rfl
  unfold walk_3_2
  simp only [slice_visits, h1, h2, hr3, hr2, List.flatMap_cons, List.flatMap_nil, List.map_cons,
    List.map_nil, List.append_nil, List.cons_append, List.nil_append, List.singleton_append,
    Nat.mul_zero, Nat.add_zero, Nat.mul_one]
  have e1 : base + size * 2 + size = base + size * (2 + 1) := by ring
  have e2 : base + size * 2 * 2 = base + size * (2 * 2) := by ring
  have e3 : base + size * 2 * 2 + size = base + size * (2 * 2 + 1) := by ring
  have e4 : base + size = base + size * (0 + 1) := by ring
  have e5 : base + size * (2 * 2) + size = base + size * (2 * 2 + 1) := by ring
  simp only [e1, e2, e3, e4, e5, Nat.zero_add, Nat.mul_one]


/-- Claim C19 as stated fails: for the `int32_t m[3][2]` field at address 100
holding 10, 11, ..., 15, serialization returns a document whose element (1, 0)
is 12, the value at 100 + 4 * (2 * 1 + 0) = 108, whereas 100 + 4 * (3 * 1 + 0) =
112 holds 13; and the address 100 + 4 * (3 * 2 + 1) = 128 claimed for element
(2, 1) is not among the six leaf addresses visited. -/
theorem c19_counterexample_stride :
    ∃ doc w', jmap_to_json_warpper lib0 3 0 ((world_mat.mappers 0).jmlist 0) 0 world_mat
        = some (0, doc, w') ∧
      (w'.visits.filter is_leaf_visit).map (fun v => v.vptr) = [100, 104, 108, 112, 116, 120] ∧
      doc_at doc [1, 0] = .int 12 ∧
      read_int world_mat.mem (100 + 4 * (3 * 1 + 0)) 4 = 13 ∧
      100 + 4 * (3 * 2 + 1) ∉ (w'.visits.filter is_leaf_visit).map (fun v => v.vptr) :=
  ⟨_, _, rfl, by decide, rfl, by decide, by decide⟩

/-- Claim C19, amended: for a scalar field of element size `size` declared with
shape [3][2] at address `base` (base address of the tree plus field offset, not
NULL, the field within the address space), serialization with every action Keep
returns 0 and deserialization of a 3-by-2 nest of arrays into elements of a
supported width returns 0, and both visit the field, then for each row `i` the
row and its elements `j` at `base + size * (2 * i + j)`: exactly 6 leaves, at
`base`, `base + size`, ..., `base + size * 5`.  When the rule engine keeps the
memory, the value of the document at the indices `(i, j)` is the value of the
element at `base + size * (2 * i + j)`. -/
theorem c19_shape_3_2_leaves (lib : JsonLib) (t : jxs_type) (ht1 : t ≠ jxs_type.struct)
    (ht2 : t ≠ jxs_type.array) (key : List Char) (o size : Nat) (sub : Option Nat)
    (hsize : 1 ≤ size) (cb : Option (CbView → CbEffect))
    (hkeep : ∀ (w : World) (it : jmap_item_t) (v : Nat), w.ctx.convert_callback = cb →
      it.rule = JXS_RULE_KEEP_RAW → (jmap_convert_handler w it v).1 = item_action.RULE_ITEM_KEEP)
    (hp : Nat) (w : World) (fuel : Nat) (hcb : w.ctx.convert_callback = cb) (hf : 2 < fuel)
    (h0 : 0 < (w.mappers hp).jmhead.start_addr + o)
    (hle : (w.mappers hp).jmhead.start_addr + o + size * 6 ≤ PTR_MOD) :
    (∃ doc w', jmap_to_json_warpper lib fuel hp
          (added_item t key (o : Int) (size * 6) sub [3, 2, 0]) 0 w = some (0, doc, w') ∧
        w'.visits = w.visits ++ walk_3_2 t ((w.mappers hp).jmhead.start_addr + o) size ∧
        ((∀ (w : World) (it : jmap_item_t) (v : Nat), w.ctx.convert_callback = cb →
            it.rule = JXS_RULE_KEEP_RAW → (handler_world w it v).mem = w.mem) →
          ∀ i j, i < 3 → j < 2 →
            doc_at doc [i, j] = (to_json_scalar lib w.mem t size
              ((w.mappers hp).jmhead.start_addr + o + size * (2 * i + j))).getD .null)) ∧
    (∀ doc, nested_arrays [3, 2] doc →
      (∀ mem v j, (from_json_scalar lib mem t size v j).isSome = true) →
      ∃ w', jmap_from_json_warpper lib fuel hp
          (added_item t key (o : Int) (size * 6) sub [3, 2, 0]) 0 doc w = some (0, w') ∧
        w'.visits = w.visits ++ walk_3_2 t ((w.mappers hp).jmhead.start_addr + o) size) ∧
    (walk_3_2 t ((w.mappers hp).jmhead.start_addr + o) size).filter is_leaf_visit
      = (List.range 6).map (fun n =>
          ({ vptr := (w.mappers hp).jmhead.start_addr + o + size * n, type := t, size := size }
            : Visit)) := by
  have hpos : ∀ d ∈ [3, 2], 0 < d := by decide
  have hposb : ∀ d ∈ [3, 2], 0 < d ∧ d < PTR_MOD := by decide
  have ho : o < PTR_MOD := by omega
  obtain ⟨hnode, hoff⟩ := added_item_arr_node t key o size sub [3, 2] JXS_RULE_KEEP_RAW
    (by decide) hposb ho
  have hprod : size * [3, 2].prod = size * 6 := rfl
  have hva : ([3, 2].map Int.ofNat ++ [0] : List Int) = [3, 2, 0] := rfl
  rw [hprod, hva] at hnode hoff
  have hsame : ({ added_item t key (o : Int) (size * 6) sub [3, 2, 0] with
      rule := JXS_RULE_KEEP_RAW } : jmap_item_t)
      = added_item t key (o : Int) (size * 6) sub [3, 2, 0] := rfl
  rw [hsame] at hnode hoff
  have hns : (added_item t key (o : Int) (size * 6) sub [3, 2, 0]).size = size * 6 := rfl
  refine ⟨?_, ?_, ?_⟩
  · obtain ⟨doc, w', h1, _, _, h4, _, h6⟩ := ser_slice lib t ht1 ht2 size hsize cb
      JXS_RULE_KEEP_RAW
      (∀ (w : World) (it : jmap_item_t) (v : Nat), w.ctx.convert_callback = cb →
            it.rule = JXS_RULE_KEEP_RAW → (handler_world w it v).mem = w.mem)
      hkeep (fun h => h) [3, 2] hpos _ 0 hp w fuel hnode rfl hcb (by simpa using hf)
      (by rw [hoff]; exact h0) (by rw [hoff, hns]; omega)
    rw [hoff, hns, Nat.mul_zero, Nat.add_zero] at h4 h6
    rw [walk_3_2_eq] at h4
    refine ⟨doc, w', h1, h4, ?_⟩
    intro hK i j hi hj
    rw [(h6 hK).2]
    have := slice_doc_at lib w.mem t size [3, 2] [i, j] hpos
      (by simp [in_range, hi, hj]) ((w.mappers hp).jmhead.start_addr + o)
    rw [hprod] at this
    rw [this]
    simp only [row_major, Nat.zero_mul, Nat.zero_add]
    rw [Nat.mul_comm i 2]
  · intro doc hdoc hsup
    obtain ⟨w', h1, _, h3⟩ := de_slice lib t ht1 ht2 size hsize hsup [3, 2] hpos _ 0 hp doc w
      fuel hnode hdoc (by simpa using hf) (by rw [hoff]; exact h0) (by rw [hoff, hns]; omega)
    rw [hoff, hns, Nat.mul_zero, Nat.add_zero, walk_3_2_eq] at h3
    exact ⟨w', h1, h3⟩
  · rw [← walk_3_2_eq, ← hprod, slice_visits_leaves t ht1 ht2 size [3, 2] hpos]
    rfl

/-- Witness of `c19_shape_3_2_leaves`: the `int32_t m[3][2]` field of
`world_mat`, the aggregate at address 100, without callback. -/
theorem c19_shape_3_2_leaves_witness :
    (world_mat.mappers 0).jmlist 0 = added_item .int [Char.ofNat 109] ((0 : Nat) : Int) (4 * 6)
      none [3, 2, 0] ∧
    (∃ doc w', jmap_to_json_warpper lib0 3 0
          (added_item .int [Char.ofNat 109] ((0 : Nat) : Int) (4 * 6) none [3, 2, 0]) 0
          world_mat = some (0, doc, w') ∧
        w'.visits = world_mat.visits
          ++ walk_3_2 .int ((world_mat.mappers 0).jmhead.start_addr + 0) 4 ∧
        ((∀ (w : World) (it : jmap_item_t) (v : Nat), w.ctx.convert_callback = none →
            it.rule = JXS_RULE_KEEP_RAW → (handler_world w it v).mem = w.mem) →
          ∀ i j, i < 3 → j < 2 →
            doc_at doc [i, j] = (to_json_scalar lib0 world_mat.mem .int 4
              ((world_mat.mappers 0).jmhead.start_addr + 0 + 4 * (2 * i + j))).getD .null)) ∧
    (∀ doc, nested_arrays [3, 2] doc →
      (∀ mem v j, (from_json_scalar lib0 mem .int 4 v j).isSome = true) →
      ∃ w', jmap_from_json_warpper lib0 3 0
          (added_item .int [Char.ofNat 109] ((0 : Nat) : Int) (4 * 6) none [3, 2, 0]) 0 doc
          world_mat = some (0, w') ∧
        w'.visits = world_mat.visits
          ++ walk_3_2 .int ((world_mat.mappers 0).jmhead.start_addr + 0) 4) ∧
    (walk_3_2 .int ((world_mat.mappers 0).jmhead.start_addr + 0) 4).filter is_leaf_visit
      = (List.range 6).map (fun n =>
          ({ vptr := (world_mat.mappers 0).jmhead.start_addr + 0 + 4 * n, type := .int, size := 4 }
            : Visit)) :=
  ⟨by decide,
   c19_shape_3_2_leaves lib0 .int (by decide) (by decide) [Char.ofNat 109] 0 4 none (by decide)
    none (fun w it v hcb hr => handler_keep_raw_none w it v hcb hr) 0 world_mat 3 rfl
    (by decide) (by decide) (by decide)⟩

/-- Claim C20: a field with scalar elements of size `e ≥ 1` declared through
`jxs_item_basic_add` with the dimensions `ds = [d0, ..., dk-1]` (1 ≤ k ≤ 8,
every `di ≥ 1`), total size `e * d0 * ... * dk-1` and offset `o`, at an address
`base + o` that is not NULL with the field inside the address space.  When
every action of the rule engine is Keep, serialization of the field returns 0
with `k` levels of nested arrays of lengths `d0, ..., dk-1`; the leaves it
visits are, in order, the `d0 * ... * dk-1` elements at `base + o + e * n`; and
when the rule engine keeps the memory, the value of the document at the indices
`is = (i0, ..., ik-1)` is the value of the element at
`base + o + e * (((i0 * d1 + i1) * d2 + i2) ... + ik-1)`. -/
theorem c20_row_major_order (lib : JsonLib) (t : jxs_type) (ht1 : t ≠ jxs_type.struct)
    (ht2 : t ≠ jxs_type.array) (key : List Char) (o e : Nat) (sub : Option Nat)
    (ds : List Nat) (rule : Nat) (hk : 1 ≤ ds.length ∧ ds.length ≤ JXS_ARRAY_DEPTH)
    (hd : ∀ d ∈ ds, 1 ≤ d) (he : 1 ≤ e) (cb : Option (CbView → CbEffect))
    (hkeep : ∀ (w : World) (it : jmap_item_t) (v : Nat), w.ctx.convert_callback = cb →
      it.rule = rule → (jmap_convert_handler w it v).1 = item_action.RULE_ITEM_KEEP)
    (hp : Nat) (w : World) (fuel : Nat) (hcb : w.ctx.convert_callback = cb)
    (hf : ds.length < fuel)
    (h0 : 0 < (w.mappers hp).jmhead.start_addr + o)
    (hle : (w.mappers hp).jmhead.start_addr + o + e * ds.prod ≤ PTR_MOD) :
    ∃ doc w' new, jmap_to_json_warpper lib fuel hp
        { added_item t key (o : Int) (e * ds.prod) sub (ds.map Int.ofNat ++ [0]) with
          rule := rule } 0 w = some (0, doc, w') ∧
      nested_arrays ds doc ∧
      w'.visits = w.visits ++ new ∧
      new.filter is_leaf_visit = (List.range ds.prod).map (fun n =>
        ({ vptr := (w.mappers hp).jmhead.start_addr + o + e * n, type := t, size := e } : Visit)) ∧
      (new.filter is_leaf_visit).length = ds.prod ∧
      ((∀ (w : World) (it : jmap_item_t) (v : Nat), w.ctx.convert_callback = cb →
          it.rule = rule → (handler_world w it v).mem = w.mem) →
        ∀ is, in_range ds is →
          doc_at doc is = (to_json_scalar lib w.mem t e
            ((w.mappers hp).jmhead.start_addr + o + e * row_major ds is 0)).getD .null) := by
  have hP : 0 < ds.prod := prod_pos_of_pos ds hd
  have hep : ds.prod ≤ e * ds.prod := Nat.le_mul_of_pos_left _ he
  have hprod : ds.prod < PTR_MOD := by omega
  have hposb : ∀ d ∈ ds, 0 < d ∧ d < PTR_MOD := fun d hdm =>
    ⟨hd d hdm, lt_of_le_of_lt (dim_le_prod ds hd d hdm) hprod⟩
  obtain ⟨hnode, hoff⟩ := added_item_arr_node t key o e sub ds rule hk.2 hposb (by omega)
  generalize hN : ({ added_item t key (o : Int) (e * ds.prod) sub (ds.map Int.ofNat ++ [0]) with
      rule := rule } : jmap_item_t) = node at hnode hoff
  have hns : node.size = e * ds.prod := hnode.size
  have hnr : node.rule = rule := by rw [← hN]
  obtain ⟨doc, w', h1, _, _, h4, h5, h6⟩ := ser_slice lib t ht1 ht2 e he cb rule
    (∀ (w : World) (it : jmap_item_t) (v : Nat), w.ctx.convert_callback = cb →
          it.rule = rule → (handler_world w it v).mem = w.mem)
    hkeep (fun h => h) ds hd node 0 hp w fuel hnode hnr hcb hf
    (by rw [hoff]; exact h0) (by rw [hoff, hns]; omega)
  rw [hoff, hns, Nat.mul_zero, Nat.add_zero] at h4 h6
  refine ⟨doc, w', _, h1, h5, h4, slice_visits_leaves t ht1 ht2 e ds hd _, ?_, ?_⟩
  · rw [slice_visits_leaves t ht1 ht2 e ds hd]
    simp
  · intro hK is hin
    rw [(h6 hK).2]
    exact slice_doc_at lib w.mem t e ds is hd hin _

/-- Witness of `c20_row_major_order`: the `int32_t m[3][2]` field of
`world_mat`, the aggregate at address 100, without callback. -/
theorem c20_row_major_order_witness :
    (world_mat.mappers 0).jmlist 0
      = { added_item .int [Char.ofNat 109] ((0 : Nat) : Int) (4 * [3, 2].prod) none
            ([3, 2].map Int.ofNat ++ [0]) with rule := JXS_RULE_KEEP_RAW } ∧
    ∃ doc w' new, jmap_to_json_warpper lib0 3 0
        { added_item .int [Char.ofNat 109] ((0 : Nat) : Int) (4 * [3, 2].prod) none
            ([3, 2].map Int.ofNat ++ [0]) with rule := JXS_RULE_KEEP_RAW } 0 world_mat
          = some (0, doc, w') ∧
      nested_arrays [3, 2] doc ∧
      w'.visits = world_mat.visits ++ new ∧
      new.filter is_leaf_visit = (List.range [3, 2].prod).map (fun n =>
        ({ vptr := (world_mat.mappers 0).jmhead.start_addr + 0 + 4 * n, type := .int, size := 4 }
          : Visit)) ∧
      (new.filter is_leaf_visit).length = [3, 2].prod ∧
      ((∀ (w : World) (it : jmap_item_t) (v : Nat), w.ctx.convert_callback = none →
          it.rule = JXS_RULE_KEEP_RAW → (handler_world w it v).mem = w.mem) →
        ∀ is, in_range [3, 2] is →
          doc_at doc is = (to_json_scalar lib0 world_mat.mem .int 4
            ((world_mat.mappers 0).jmhead.start_addr + 0 + 4 * row_major [3, 2] is 0)).getD
              .null) :=
  ⟨by decide,
   c20_row_major_order lib0 .int (by decide) (by decide) [Char.ofNat 109] 0 4 none [3, 2]
    JXS_RULE_KEEP_RAW (by decide) (by decide) (by decide) none
    (fun w it v hcb hr => handler_keep_raw_none w it v hcb hr) 0 world_mat 3 rfl
    (by decide) (by decide) (by decide)⟩



/-! ## Claim C13: absent keys and null values -/

theorem write_le_zero (mem : Mem) (a n : Nat) : write_le mem a n 0 = memset0 mem a n := by
  funext x
  rw [write_le_apply]
  unfold memset0
  split
  · simp [byte_of]
  · rfl

theorem kvs_get_absent (kvs : List (List Char × Json)) (k : List Char)
    (h : ∀ kv ∈ kvs, kv.1 ≠ k) : kvs_get kvs k = .null := by
  induction kvs with
  | nil => rfl
  | cons kv rest ih =>
    obtain ⟨k', v'⟩ := kv
    simp only [kvs_get]
    rw [if_neg (h (k', v') (List.mem_cons_self _ _))]
    exact ih (fun x hx => h x (List.mem_cons_of_mem _ hx))

/-- The `switch` of the deserialization wrapper on a null value, for a node of
supported width: return 0 with the field zeroed. -/
theorem from_json_by_type_null (lib : JsonLib)
    (wr : Nat → jmap_item_t → Nat → Json → World → Option (Int × World))
    (hp : Nat) (it : jmap_item_t) (idx vptr : Nat) (w : World)
    (hw : width_supported it)
    (hf : it.type = jxs_type.double → it.size = 4 → lib.f64_to_f32 0 = 0) :
    from_json_by_type lib wr hp it idx vptr .null w
      = some (0, set_mem w (memset0 w.mem vptr it.size)) := by
  unfold width_supported at hw
  unfold from_json_by_type
  cases ht : it.type <;> rw [ht] at hw <;> simp only [] at hw ⊢
  · rfl
  · rcases hw with h | h <;> rw [h] <;>
      simp [from_json_scalar, json_object_get_boolean, write_int, of_signed, write_le_zero]
  · rcases hw with h | h
    · rw [h]
      simp [from_json_scalar, json_object_get_double, write_le_zero]
    · have := hf ht h
      rw [h]
      simp [from_json_scalar, json_object_get_double, write_le_zero, this]
  · rcases hw with h | h | h | h <;> rw [h] <;>
      simp [from_json_scalar, json_object_get_int64, json_object_get_int, write_int, of_signed,
        write_le_zero]
  · simp [from_json_scalar, json_object_get_string]
  · cases hs : it.subjm with
    | none => exact absurd hs hw
    | some q => simp [Json.is_null]
  · rw [hw]
    simp [from_json_scalar, ptr_of_jso, Json.is_null, write_le_zero]
  · simp [Json.is_null]

/-- Claim C13: for a node of supported width whose key is absent from the
source object or maps to null, at an address that is not NULL and inside the
address space, `jmap_from_json_warpper` returns 0 for every positive fuel;
every byte of the field (the `size` bytes at the address of the node: the
boolean, integer or floating value, the whole declared size of a text, of a
sub-structure and of an array field or slice) is zero afterwards, no byte
outside the field is changed, and nothing is walked: the visit of the node is
the only one recorded and the store and the context are unchanged. -/
theorem c13_absent_or_null_zero_fills (lib : JsonLib) (fuel hp : Nat) (it : jmap_item_t)
    (idx : Nat) (kvs : List (List Char × Json)) (w : World)
    (hkey : (∀ kv ∈ kvs, kv.1 ≠ it.key) ∨ kvs_get kvs it.key = .null)
    (hw : width_supported it)
    (hf : it.type = jxs_type.double → it.size = 4 → lib.f64_to_f32 0 = 0)
    (h0 : 0 < (w.mappers hp).jmhead.start_addr + it.offset)
    (hlt : (w.mappers hp).jmhead.start_addr + it.offset + it.size * idx < PTR_MOD) :
    ∃ w', jmap_from_json_warpper lib (fuel + 1) hp it idx
        (json_object_object_get (.object kvs) it.key) w = some (0, w') ∧
      (∀ x, (w.mappers hp).jmhead.start_addr + it.offset + it.size * idx ≤ x →
        x < (w.mappers hp).jmhead.start_addr + it.offset + it.size * idx + it.size →
        w'.mem x = 0) ∧
      (∀ x, ¬ ((w.mappers hp).jmhead.start_addr + it.offset + it.size * idx ≤ x ∧
          x < (w.mappers hp).jmhead.start_addr + it.offset + it.size * idx + it.size) →
        w'.mem x = w.mem x) ∧
      w'.visits = w.visits ++
        [{ vptr := (w.mappers hp).jmhead.start_addr + it.offset + it.size * idx,
           type := it.type, size := it.size }] ∧
      w'.mappers = w.mappers ∧ w'.ctx = w.ctx := by
  have hnull : json_object_object_get (.object kvs) it.key = .null := by
    show kvs_get kvs it.key = .null
    rcases hkey with h | h
    · exact kvs_get_absent kvs it.key h
    · exact h
  rw [hnull, de_wrapper_step lib fuel hp it idx .null w h0 hlt,
    from_json_by_type_null lib _ hp it idx _ _ hw hf]
  refine ⟨_, rfl, ?_, ?_, rfl, rfl, rfl⟩
  · intro x h1 h2
    show memset0 w.mem _ it.size x = 0
    unfold memset0
    rw [if_pos ⟨h1, h2⟩]
  · intro x hx
    show memset0 w.mem _ it.size x = w.mem x
    unfold memset0
    rw [if_neg hx]

/-- Witness of `c13_absent_or_null_zero_fills`: the `int32_t m[3][2]` field of
`world_mat` (24 bytes at address 100) and an object without the key `m`. -/
theorem c13_absent_or_null_zero_fills_witness :
    ∃ w', jmap_from_json_warpper lib0 (0 + 1) 0 ((world_mat.mappers 0).jmlist 0) 0
        (json_object_object_get (.object []) ((world_mat.mappers 0).jmlist 0).key) world_mat
          = some (0, w') ∧
      (∀ x, (world_mat.mappers 0).jmhead.start_addr + ((world_mat.mappers 0).jmlist 0).offset
          + ((world_mat.mappers 0).jmlist 0).size * 0 ≤ x →
        x < (world_mat.mappers 0).jmhead.start_addr + ((world_mat.mappers 0).jmlist 0).offset
          + ((world_mat.mappers 0).jmlist 0).size * 0 + ((world_mat.mappers 0).jmlist 0).size →
        w'.mem x = 0) ∧
      (∀ x, ¬ ((world_mat.mappers 0).jmhead.start_addr + ((world_mat.mappers 0).jmlist 0).offset
          + ((world_mat.mappers 0).jmlist 0).size * 0 ≤ x ∧
          x < (world_mat.mappers 0).jmhead.start_addr + ((world_mat.mappers 0).jmlist 0).offset
            + ((world_mat.mappers 0).jmlist 0).size * 0
            + ((world_mat.mappers 0).jmlist 0).size) →
        w'.mem x = world_mat.mem x) ∧
      w'.visits = world_mat.visits ++
        [{ vptr := (world_mat.mappers 0).jmhead.start_addr
                     + ((world_mat.mappers 0).jmlist 0).offset
                     + ((world_mat.mappers 0).jmlist 0).size * 0,
           type := ((world_mat.mappers 0).jmlist 0).type,
           size := ((world_mat.mappers 0).jmlist 0).size }] ∧
      w'.mappers = world_mat.mappers ∧ w'.ctx = world_mat.ctx :=
  c13_absent_or_null_zero_fills lib0 0 0 ((world_mat.mappers 0).jmlist 0) 0 [] world_mat
    (Or.inl (by decide)) (by decide) (fun _ _ => rfl) (by decide) (by decide)



/-! ## Claim C17: the reference count of the returned tree -/

theorem acyclic_before_check {rank : Nat → Nat} {w : World} {p : Nat}
    (h : Acyclic rank (check_ref_count w p).2.mappers) : Acyclic rank w.mappers := by
  intro r i q hi hq
  have hm : (check_ref_count w p).2.mappers r = w.mappers r ∨
      ((check_ref_count w p).2.mappers r).jmlist = (w.mappers r).jmlist ∧
      ((check_ref_count w p).2.mappers r).jmhead.idx = (w.mappers r).jmhead.idx := by
    unfold check_ref_count
    simp only []
    split_ifs
    · exact Or.inl rfl
    · by_cases hr : r = p
      · subst hr
        right
        simp [set_mapper]
      · left
        simp [set_mapper, hr]
  rcases hm with hm | ⟨h1, h2⟩
  · exact h r i q (by rw [hm]; exact hi) (by rw [hm]; exact hq)
  · exact h r i q (by rw [h2]; exact hi) (by rw [h1]; exact hq)

/-- Claim C17: let the builder return tree `p` for a non-NULL aggregate (and a
non-NULL document), in a store whose sub-tree references are well-founded.
If the reference count of `p` is 0 (it was never attached as a sub-tree),
`check_ref_count` passes, the reference count of `p` is exactly 1 in the world
in which the traversal begins, and both entry points are that traversal
followed by teardown.  If the reference count of `p` is not 0 (it has been
attached), then for every recursion budget above the rank of `p` teardown of
`p` in the world the builder left returns, `jxs_struct_to_json_object` returns
no document and `jxs_struct_from_json_object` returns -1, both in the world
that teardown leaves; no node has been visited and the aggregate memory is
unchanged. -/
theorem c17_root_reference_check (lib : JsonLib) (rank : Nat → Nat) (f : jxs_descriptor)
    (stptr userdata : Nat) (doc : Json) (mem : Mem) (p : Nat)
    (hst : stptr ≠ 0) (hdoc : doc.is_null = false)
    (hp : (call_descriptor f (set_ctx_target (world_init mem) stptr userdata)).1 = some p)
    (hac : Acyclic rank
      (call_descriptor f (set_ctx_target (world_init mem) stptr userdata)).2.mappers) :
    ((((call_descriptor f (set_ctx_target (world_init mem) stptr userdata)).2.mappers
          p).jmhead.ref = 0 →
      traversal_check f stptr userdata mem p = 0 ∧
      ((traversal_world f stptr userdata mem p).mappers p).jmhead.ref = 1 ∧
      (∀ fuel, jxs_struct_to_json_object lib fuel (some f) stptr userdata mem =
        match jmap_to_json_object lib fuel p (.object [])
            (traversal_world f stptr userdata mem p) with
        | none => none
        | some (ret, jso, w1) =>
          if ret ≠ 0 then (jxs_map_basic_delete fuel (some p) w1).map (fun w => (Json.null, w))
          else (jxs_map_basic_delete fuel (some p) w1).map (fun w => (jso, w))) ∧
      (∀ fuel, jxs_struct_from_json_object lib fuel (some f) stptr userdata doc mem =
        match jmap_from_json_object lib fuel p doc (traversal_world f stptr userdata mem p) with
        | none => none
        | some (ret, w1) =>
          if ret ≠ 0 then (jxs_map_basic_delete fuel (some p) w1).map (fun w => ((-1 : Int), w))
          else (jxs_map_basic_delete fuel (some p) w1).map (fun w => ((0 : Int), w)))) ∧
     (((call_descriptor f (set_ctx_target (world_init mem) stptr userdata)).2.mappers
          p).jmhead.ref ≠ 0 →
      traversal_check f stptr userdata mem p = -1 ∧
      ∀ fuel, rank p + 1 < fuel →
        ∃ w', jxs_map_basic_delete fuel (some p)
            (call_descriptor f (set_ctx_target (world_init mem) stptr userdata)).2 = some w' ∧
          jxs_struct_to_json_object lib fuel (some f) stptr userdata mem
            = some (Json.null, w') ∧
          jxs_struct_from_json_object lib fuel (some f) stptr userdata doc mem
            = some (-1, w') ∧
          w'.mem = mem ∧ w'.visits = [])) := by
  refine ⟨fun h0 => ?_, fun h1 => ?_⟩
  · have hchk : traversal_check f stptr userdata mem p = 0 := by
      unfold traversal_check check_ref_count
      simp only [h0, ne_eq, not_true_eq_false, if_false]
    refine ⟨hchk, ?_, ?_, ?_⟩
    · unfold traversal_world check_ref_count
      simp only [h0, ne_eq, not_true_eq_false, if_false, set_mapper, if_true]
    · intro fuel
      unfold traversal_check at hchk
      simp only [jxs_struct_to_json_object, hst, if_false, hp, hchk, ne_eq, not_true_eq_false,
        traversal_world]
    · intro fuel
      exact struct_from_json_unfold lib fuel f stptr userdata doc mem p hst hdoc hp hchk
  · have hc : check_ref_count
        (call_descriptor f (set_ctx_target (world_init mem) stptr userdata)).2 p
        = (-1, (call_descriptor f (set_ctx_target (world_init mem) stptr userdata)).2) := by
      unfold check_ref_count
      simp only [ne_eq, h1, not_false_eq_true, if_true]
    refine ⟨by unfold traversal_check; rw [hc], ?_⟩
    intro fuel hf
    obtain ⟨w', hw'⟩ := map_delete_total rank fuel (some p) _ hac
      (fun x hx => by cases hx; exact hf) (by omega)
    have hfr := map_delete_frame fuel (some p) _ w' hw'
    refine ⟨w', hw', ?_, ?_, ?_, ?_⟩
    · simp only [jxs_struct_to_json_object, hst, if_false, hp, hc]
      simp only [ne_eq, Int.reduceNeg, Int.neg_eq_zero, one_ne_zero, not_false_eq_true, if_true,
        hw', Option.map_some']
    · simp only [jxs_struct_from_json_object, hst, hdoc, Bool.false_eq_true, or_self, if_false,
        hp, hc]
      simp only [ne_eq, Int.reduceNeg, Int.neg_eq_zero, one_ne_zero, not_false_eq_true, if_true,
        hw', Option.map_some']
    · rw [hfr.mem]; rfl
    · rw [hfr.visits]; rfl

theorem bld_rec_sub_acyclic :
    Acyclic rank_rec
      (call_descriptor bld_rec_sub (set_ctx_target (world_init mem_rec) 100 0)).2.mappers := by
  have h : Acyclic rank_rec (check_ref_count
      (call_descriptor bld_rec (set_ctx_target (world_init mem_rec) 100 0)).2 0).2.mappers :=
    world_rec_acyclic
  exact acyclic_before_check h

/-- Witness of `c17_root_reference_check`: the builder `bld_rec_sub`, which
returns the attached sub-tree (handle 5, reference count 1). -/
theorem c17_root_reference_check_witness :
    ((call_descriptor bld_rec_sub (set_ctx_target (world_init mem_rec) 100 0)).2.mappers
        5).jmhead.ref = 1 ∧
    traversal_check bld_rec_sub 100 0 mem_rec 5 = -1 ∧
    ∀ fuel, rank_rec 5 + 1 < fuel →
      ∃ w', jxs_map_basic_delete fuel (some 5)
          (call_descriptor bld_rec_sub (set_ctx_target (world_init mem_rec) 100 0)).2
            = some w' ∧
        jxs_struct_to_json_object lib0 fuel (some bld_rec_sub) 100 0 mem_rec
          = some (Json.null, w') ∧
        jxs_struct_from_json_object lib0 fuel (some bld_rec_sub) 100 0 (.object []) mem_rec
          = some (-1, w') ∧
        w'.mem = mem_rec ∧ w'.visits = [] :=
  ⟨by decide,
   (c17_root_reference_check lib0 rank_rec bld_rec_sub 100 0 (.object []) mem_rec 5 (by decide)
      rfl (by decide) bld_rec_sub_acyclic).2 (by decide)⟩



/-! ## Claim C18: teardown releases every heap tree exactly once -/

theorem attach_lt_succ (S : Nat → jxs_mapper) (p j q : Nat) :
    attach_lt S p (j + 1) q = attach_lt S p j q + (if refers S p j q = true then 1 else 0) := by
  unfold attach_lt
  rw [List.range_succ, List.filter_append, List.length_append]
  by_cases h : refers S p j q = true
  · simp [h]
  · simp [h]

theorem attach_lt_mono (S : Nat → jxs_mapper) (p q : Nat) {j k : Nat} (h : j ≤ k) :
    attach_lt S p j q ≤ attach_lt S p k q := by
  induction k with
  | zero =>
    have : j = 0 := by omega
    rw [this]
  | succ k ih =>
    by_cases hj : j = k + 1
    · rw [hj]
    · have := ih (by omega)
      rw [attach_lt_succ]
      omega

theorem attach_lt_zero_of_rank {rank : Nat → Nat} {S : Nat → jxs_mapper}
    (hac : Acyclic rank S) (a q : Nat) (hr : ¬ rank q < rank a) :
    ∀ j, j ≤ (S a).jmhead.idx → attach_lt S a j q = 0 := by
  intro j
  induction j with
  | zero => intro _; rfl
  | succ j ih =>
    intro hj
    rw [attach_lt_succ, ih (by omega)]
    have : ¬ refers S a j q = true := by
      intro h
      unfold refers at h
      exact hr (hac a j q (by omega) (of_decide_eq_true h))
    simp [this]

theorem attach_done_le (S : Nat → jxs_mapper) (T : Finset Nat) (prog : Nat → Nat) (q : Nat)
    (h : ∀ p, prog p ≤ (S p).jmhead.idx) : attach_done S T prog q ≤ attach_total S T q := by
  unfold attach_done attach_total attach
  exact Finset.sum_le_sum (fun p _ => attach_lt_mono S p q (h p))

/-- Passing one more node of tree `p`: the count of passed references grows by
one for the sub-tree the node refers to, and for no other tree. -/
theorem attach_done_step (S : Nat → jxs_mapper) (T : Finset Nat) (prog prog' : Nat → Nat)
    (p : Nat) (hp : p ∈ T) (h1 : prog' p = prog p + 1)
    (h2 : ∀ a ∈ T, a ≠ p → prog' a = prog a) (q : Nat) :
    attach_done S T prog' q
      = attach_done S T prog q + (if refers S p (prog p) q = true then 1 else 0) := by
  unfold attach_done
  rw [← Finset.add_sum_erase T _ hp, ← Finset.add_sum_erase T (fun a => attach_lt S a (prog a) q) hp]
  have : (T.erase p).sum (fun a => attach_lt S a (prog' a) q)
      = (T.erase p).sum (fun a => attach_lt S a (prog a) q) := by
    apply Finset.sum_congr rfl
    intro a ha
    rw [h2 a (Finset.mem_of_mem_erase ha) (Finset.ne_of_mem_erase ha)]
  rw [this]
  simp only [h1, attach_lt_succ]
  omega

/-- The count of passed references to `q` depends on the trees above `q` only. -/
theorem attach_done_congr {rank : Nat → Nat} {S : Nat → jxs_mapper} (hac : Acyclic rank S)
    (T : Finset Nat) (prog prog' : Nat → Nat) (q : Nat)
    (hle : ∀ p, prog p ≤ (S p).jmhead.idx) (hle' : ∀ p, prog' p ≤ (S p).jmhead.idx)
    (h : ∀ a ∈ T, rank q < rank a → prog' a = prog a) :
    attach_done S T prog' q = attach_done S T prog q := by
  unfold attach_done
  apply Finset.sum_congr rfl
  intro a ha
  by_cases hr : rank q < rank a
  · rw [h a ha hr]
  · rw [attach_lt_zero_of_rank hac a q hr _ (hle a), attach_lt_zero_of_rank hac a q hr _ (hle' a)]

/-- A reference that teardown has not passed yet is missing from the count. -/
theorem attach_done_lt (S : Nat → jxs_mapper) (T : Finset Nat) (prog : Nat → Nat)
    (p c : Nat) (hp : p ∈ T) (hle : ∀ a, prog a ≤ (S a).jmhead.idx)
    (hi : prog p < (S p).jmhead.idx) (hc : ((S p).jmlist (prog p)).subjm = some c) :
    attach_done S T prog c < attach_total S T c := by
  unfold attach_done attach_total attach
  apply Finset.sum_lt_sum (fun a _ => attach_lt_mono S a c (hle a))
  refine ⟨p, hp, ?_⟩
  have h1 : attach_lt S p (prog p + 1) c ≤ attach_lt S p (S p).jmhead.idx c :=
    attach_lt_mono S p c (by omega)
  rw [attach_lt_succ] at h1
  have : refers S p (prog p) c = true := by
    unfold refers
    exact decide_eq_true hc
  rw [if_pos this] at h1
  omega



theorem tear_inv_mono {rank : Nat → Nat} {S : Nat → jxs_mapper} {T : Finset Nat} {n k : Nat}
    {w : World} {prog : Nat → Nat} {rel : List Nat} (h : TearInv rank S T n w prog rel)
    (hk : k ≤ n) : TearInv rank S T k w prog rel :=
  ⟨h.list, h.idx, h.isbuf, h.prog_le, fun q hq hr hn => h.low q hq (by omega) hn, h.done,
    h.nodup⟩

/-- Passing a node that refers to no sub-tree keeps the state of teardown. -/
theorem tear_inv_skip {rank : Nat → Nat} {S : Nat → jxs_mapper} {T : Finset Nat}
    {w : World} {prog : Nat → Nat} {rel : List Nat} (p : Nat) (hp : p ∈ T)
    (h : TearInv rank S T (rank p) w prog rel) (hi : prog p < (S p).jmhead.idx)
    (hnone : ((S p).jmlist (prog p)).subjm = none) :
    TearInv rank S T (rank p) w (Function.update prog p (prog p + 1)) rel := by
  have hstep : ∀ q, attach_done S T (Function.update prog p (prog p + 1)) q
      = attach_done S T prog q := by
    intro q
    rw [attach_done_step S T prog _ p hp (by simp) (fun a _ ha => by simp [ha]) q]
    have : ¬ refers S p (prog p) q = true := by
      unfold refers
      rw [hnone]
      simp
    simp [this]
  refine ⟨h.list, h.idx, h.isbuf, ?_, ?_, ?_, h.nodup⟩
  · intro a
    by_cases ha : a = p
    · subst ha; simp; omega
    · simp [ha, h.prog_le a]
  · intro q hq hr hn
    have hqp : q ≠ p := fun e => by subst e; omega
    rw [hstep]
    simp only [Function.update_noteq hqp]
    exact h.low q hq hr hn
  · intro q hq
    have hd := h.done q hq
    have hqp : q ≠ p := fun e => by subst e; omega
    rw [hstep]
    simp only [Function.update_noteq hqp]
    exact hd

/-- The loop of teardown over the nodes of a tree `p`, from the node reached:
it returns with all nodes of `p` passed. -/
theorem map_delete_loop_spec {rank : Nat → Nat} {S : Nat → jxs_mapper} {T : Finset Nat}
    (hG : TreeGraph rank S T) {m : Nat} {del : Option Nat → World → Option World}
    (hdel : DelSpec rank S T m del) (p : Nat) (hp : p ∈ T) (hpm : rank p ≤ m) :
    ∀ (k : Nat) (w : World) (prog : Nat → Nat) (rel : List Nat),
      prog p + k = (S p).jmhead.idx → TearInv rank S T (rank p) w prog rel →
      ∃ w' prog' new, map_delete_loop del p k (prog p) w = some w' ∧
        TearInv rank S T (rank p) w' prog' (rel ++ new) ∧
        prog' p = (S p).jmhead.idx ∧
        (∀ a, rank p ≤ rank a → a ≠ p → prog' a = prog a) ∧
        (∀ a, rank p ≤ rank a → (w'.mappers a).jmhead.ref = (w.mappers a).jmhead.ref) ∧
        (∀ x ∈ new, rank x < rank p) ∧
        w'.freed = w.freed ++ new.filter (fun x => decide ((S x).jmhead.isbuf = false)) := by
  intro k
  induction k with
  | zero =>
    intro w prog rel hk hinv
    exact ⟨w, prog, [], rfl, by simpa using hinv, by omega, fun _ _ _ => rfl, fun _ _ => rfl,
      fun x hx => (by cases hx), by simp⟩
  | succ k ih =>
    intro w prog rel hk hinv
    have hi : prog p < (S p).jmhead.idx := by omega
    have hnode : (w.mappers p).jmlist (prog p) = (S p).jmlist (prog p) := by rw [hinv.list p]
    -- the state after a node that refers to no sub-tree
    have hskip : ((S p).jmlist (prog p)).subjm = none →
        ∃ w' prog' new, map_delete_loop del p k (prog p + 1) w = some w' ∧
          TearInv rank S T (rank p) w' prog' (rel ++ new) ∧
          prog' p = (S p).jmhead.idx ∧
          (∀ a, rank p ≤ rank a → a ≠ p → prog' a = prog a) ∧
          (∀ a, rank p ≤ rank a → (w'.mappers a).jmhead.ref = (w.mappers a).jmhead.ref) ∧
          (∀ x ∈ new, rank x < rank p) ∧
          w'.freed = w.freed ++ new.filter (fun x => decide ((S x).jmhead.isbuf = false)) := by
      intro hnone
      have hinv1 := tear_inv_skip p hp hinv hi hnone
      have hp1 : Function.update prog p (prog p + 1) p = prog p + 1 := by simp
      obtain ⟨w', prog', new, h1, h2, h3, h4, h5, h6, h7⟩ := ih w
        (Function.update prog p (prog p + 1)) rel (by rw [hp1]; omega) hinv1
      rw [hp1] at h1
      refine ⟨w', prog', new, h1, h2, h3, ?_, h5, h6, h7⟩
      intro a ha hap
      rw [h4 a ha hap, Function.update_noteq hap]
    simp only [map_delete_loop, hnode]
    cases hsub : ((S p).jmlist (prog p)).subjm with
    | none =>
      obtain ⟨w', prog', new, h1, h2⟩ := hskip hsub
      refine ⟨w', prog', new, ?_, h2⟩
      split
      · rw [hdel.1 w]
        exact h1
      · exact h1
    | some c =>
      have hst := hG.struct_only p hp (prog p) c hi hsub
      rw [if_pos hst]
      have hcT := hG.closed p hp (prog p) c hi hsub
      have hrk := hG.acyclic p (prog p) c hi hsub
      obtain ⟨w1, prog1, new1, h1, h2, h3, h4, h5, h6, h7⟩ := hdel.2 c p (rank p) w prog rel
        hcT hp (by omega) hrk (le_refl _) hi hsub hinv
      rw [h1]
      simp only []
      obtain ⟨w2, prog2, new2, g1, g2, g3, g4, g5, g6, g7⟩ := ih w1 prog1 (rel ++ new1)
        (by rw [h3]; omega) h2
      rw [h3] at g1
      refine ⟨w2, prog2, new1 ++ new2, g1, by rw [← List.append_assoc]; exact g2, g3, ?_, ?_, ?_,
        ?_⟩
      · intro a ha hap
        rw [g4 a ha hap, h4 a ha hap]
      · intro a ha
        rw [g5 a ha, h5 a ha]
      · intro x hx
        rcases List.mem_append.1 hx with hx | hx
        · exact h6 x hx
        · exact g6 x hx
      · rw [g7, h7, List.filter_append, List.append_assoc]

theorem set_mapper_ref_same (w : World) (c : Nat) (m : jxs_mapper) :
    ((set_mapper w c m).mappers c).jmhead.ref = m.jmhead.ref := by
  simp [set_mapper]

theorem set_mapper_ref_other (w : World) (c a : Nat) (m : jxs_mapper) (h : a ≠ c) :
    ((set_mapper w c m).mappers a).jmhead.ref = (w.mappers a).jmhead.ref := by
  simp [set_mapper, h]

/-- Teardown with recursion budget `m + 1` meets `DelSpec` for the trees of
rank below `m`. -/
theorem map_delete_spec {rank : Nat → Nat} {S : Nat → jxs_mapper} {T : Finset Nat}
    (hG : TreeGraph rank S T) :
    ∀ m, DelSpec rank S T m (jxs_map_basic_delete (m + 1)) := by
  intro m
  induction m with
  | zero =>
    exact ⟨fun w => rfl, fun c p n w prog rel _ _ h => absurd h (by omega)⟩
  | succ m ih =>
    refine ⟨fun w => rfl, ?_⟩
    intro c p n w prog rel hc hp hcm hcn hnp hi hsub hinv
    have hcp : c ≠ p := fun e => by subst e; omega
    have hlt := attach_done_lt S T prog p c hp hinv.prog_le hi hsub
    have hnrel : c ∉ rel := fun h => by
      have := (hinv.done c h).2.2
      omega
    obtain ⟨hsum, hone, hprog0⟩ := hinv.low c hc hcn hnrel
    have hrefers : refers S p (prog p) c = true := by
      unfold refers
      exact decide_eq_true hsub
    have hother : ∀ q, q ≠ c → ¬ refers S p (prog p) q = true := by
      intro q hq h
      unfold refers at h
      have := of_decide_eq_true h
      rw [hsub] at this
      exact hq (Option.some.inj this).symm
    -- the count of passed references once node `prog p` of `p` is passed
    have hstep : ∀ (pr : Nat → Nat), pr p = prog p → ∀ q,
        attach_done S T (Function.update pr p (prog p + 1)) q
          = attach_done S T pr q + (if q = c then 1 else 0) := by
      intro pr hpr q
      rw [attach_done_step S T pr _ p hp (by simp [hpr]) (fun a _ ha => by simp [ha]) q, hpr]
      by_cases hq : q = c
      · subst hq; simp [hrefers]
      · simp [hq, hother q hq]
    simp only [jxs_map_basic_delete]
    by_cases href : (w.mappers c).jmhead.ref = 1
    · -- last reference: the nodes of `c` are walked, then `c` is released
      rw [if_pos href]
      have hinvc : TearInv rank S T (rank c) w prog rel := tear_inv_mono hinv (by omega)
      obtain ⟨w1, prog1, new1, h1, h2, h3, h4, h5, h6, h7⟩ :=
        map_delete_loop_spec hG ih c hc (by omega) (S c).jmhead.idx w prog rel
          (by rw [hprog0]; omega) hinvc
      rw [hprog0, ← hinv.idx c] at h1
      rw [h1]
      simp only []
      have hp1 : prog1 p = prog p := h4 p (by omega) (Ne.symm hcp)
      have hfinal : ∀ w' : World, w'.mappers = w1.mappers →
          TearInv rank S T n w' (Function.update prog1 p (prog p + 1)) (rel ++ (new1 ++ [c])) := by
        intro w' hm
        refine ⟨?_, ?_, ?_, ?_, ?_, ?_, ?_⟩
        · intro r; rw [hm]; exact h2.list r
        · intro r; rw [hm]; exact h2.idx r
        · intro r; rw [hm]; exact h2.isbuf r
        · intro a
          by_cases ha : a = p
          · subst ha; simp; omega
          · simp [ha, h2.prog_le a]
        · intro q hq hr hn
          have hqc : q ≠ c := fun e => hn (by simp [e])
          have hqp : q ≠ p := fun e => by subst e; omega
          have hqn : q ∉ rel ++ new1 := fun h => hn (by
            rw [← List.append_assoc]; exact List.mem_append_left _ h)
          rw [hstep prog1 hp1, if_neg hqc, Nat.add_zero, Function.update_noteq hqp, hm]
          by_cases hrc : rank q < rank c
          · exact h2.low q hq hrc hqn
          · have hqr : q ∉ rel := fun h => hqn (List.mem_append_left _ h)
            have hpre := hinv.low q hq hr hqr
            rw [h5 q (by omega), h4 q (by omega) hqc]
            rw [attach_done_congr hG.acyclic T prog prog1 q hinv.prog_le h2.prog_le
              (fun a _ ha => h4 a (by omega) (fun e => by subst e; omega))]
            exact hpre
        · intro q hq
          rw [← List.append_assoc] at hq
          rcases List.mem_append.1 hq with hq | hq
          · obtain ⟨d1, d2, d3⟩ := h2.done q hq
            have hqp : q ≠ p := fun e => by subst e; omega
            refine ⟨d1, by rw [Function.update_noteq hqp]; exact d2, ?_⟩
            have hle := attach_done_le S T (Function.update prog1 p (prog p + 1)) q (by
              intro a
              by_cases ha : a = p
              · subst ha; simp; omega
              · simp [ha, h2.prog_le a])
            rw [hstep prog1 hp1] at hle ⊢
            split at hle <;> split <;> omega
          · have hqc : q = c := by simpa using hq
            subst hqc
            refine ⟨hc, by rw [Function.update_noteq hcp]; exact h3, ?_⟩
            rw [hstep prog1 hp1, if_pos rfl]
            rw [attach_done_congr hG.acyclic T prog prog1 q hinv.prog_le h2.prog_le
              (fun a _ ha => h4 a (by omega) (fun e => by subst e; omega))]
            omega
        · rw [← List.append_assoc]
          apply List.Nodup.append h2.nodup (by simp)
          intro x hx1 hx2
          have hxc : x = c := by simpa using hx2
          subst hxc
          rcases List.mem_append.1 hx1 with hx | hx
          · exact hnrel hx
          · have := h6 x hx
            omega
      have hframe1 : ∀ a, n ≤ rank a → a ≠ p →
          Function.update prog1 p (prog p + 1) a = prog a := by
        intro a ha hap
        rw [Function.update_noteq hap]
        exact h4 a (by omega) (fun e => by subst e; omega)
      have hnew : ∀ x ∈ new1 ++ [c], rank x < n := by
        intro x hx
        rcases List.mem_append.1 hx with hx | hx
        · have := h6 x hx; omega
        · have hxc : x = c := by simpa using hx
          rw [hxc]; exact hcn
      have hib : (w1.mappers c).jmhead.isbuf = (S c).jmhead.isbuf := h2.isbuf c
      by_cases hheap : (S c).jmhead.isbuf = false
      · rw [if_pos (by rw [hib]; exact hheap)]
        refine ⟨_, Function.update prog1 p (prog p + 1), new1 ++ [c], rfl, hfinal _ rfl,
          by simp, hframe1, fun a ha => h5 a (by omega), hnew, ?_⟩
        show w1.freed ++ [c] = _
        rw [h7, List.filter_append, List.append_assoc]
        simp [hheap]
      · rw [if_neg (by rw [hib]; exact hheap)]
        refine ⟨w1, Function.update prog1 p (prog p + 1), new1 ++ [c], rfl, hfinal _ rfl,
          by simp, hframe1, fun a ha => h5 a (by omega), hnew, ?_⟩
        rw [h7, List.filter_append]
        simp [hheap]
    · -- other references remain: the count is decremented
      rw [if_neg href]
      have hsmall := hG.small c hc
      have hdec : ((w.mappers c).jmhead.ref + (PTR_MOD - 1)) % PTR_MOD
          = (w.mappers c).jmhead.ref - 1 := by
        have h2 : (w.mappers c).jmhead.ref < PTR_MOD := by omega
        simp only [PTR_MOD] at h2 ⊢
        omega
      refine ⟨_, Function.update prog p (prog p + 1), [], rfl, ?_, by simp, ?_, ?_,
        fun x hx => (by cases hx), by simp [set_mapper]⟩
      · rw [List.append_nil]
        refine ⟨?_, ?_, ?_, ?_, ?_, ?_, hinv.nodup⟩
        · intro r
          by_cases hr : r = c
          · subst hr; simp [set_mapper, hinv.list]
          · simp [set_mapper, hr, hinv.list]
        · intro r
          by_cases hr : r = c
          · subst hr; simp [set_mapper, hinv.idx]
          · simp [set_mapper, hr, hinv.idx]
        · intro r
          by_cases hr : r = c
          · subst hr; simp [set_mapper, hinv.isbuf]
          · simp [set_mapper, hr, hinv.isbuf]
        · intro a
          by_cases ha : a = p
          · subst ha; simp; omega
          · simp [ha, hinv.prog_le a]
        · intro q hq hr hn
          have hqp : q ≠ p := fun e => by subst e; omega
          rw [hstep prog rfl, Function.update_noteq hqp]
          by_cases hqc : q = c
          · subst hqc
            rw [set_mapper_ref_same, if_pos rfl]
            show ((w.mappers q).jmhead.ref + (PTR_MOD - 1)) % PTR_MOD + _ = _ ∧
              1 ≤ ((w.mappers q).jmhead.ref + (PTR_MOD - 1)) % PTR_MOD ∧ _
            rw [hdec]
            exact ⟨by omega, by omega, hprog0⟩
          · rw [set_mapper_ref_other _ _ _ _ hqc, if_neg hqc]
            exact hinv.low q hq hr hn
        · intro q hq
          obtain ⟨d1, d2, d3⟩ := hinv.done q hq
          have hqp : q ≠ p := fun e => by subst e; omega
          refine ⟨d1, by rw [Function.update_noteq hqp]; exact d2, ?_⟩
          have hle := attach_done_le S T (Function.update prog p (prog p + 1)) q (by
            intro a
            by_cases ha : a = p
            · subst ha; simp; omega
            · simp [ha, hinv.prog_le a])
          rw [hstep prog rfl] at hle ⊢
          split at hle <;> split <;> omega
      · intro a _ hap
        exact Function.update_noteq hap _ _
      · intro a ha
        exact set_mapper_ref_other _ _ _ _ (fun e => by subst e; omega)



theorem attach_lt_pos_exists (S : Nat → jxs_mapper) (a q : Nat) :
    ∀ j, 0 < attach_lt S a j q → ∃ i, i < j ∧ ((S a).jmlist i).subjm = some q := by
  intro j
  induction j with
  | zero => intro h; simp [attach_lt] at h
  | succ j ih =>
    intro h
    rw [attach_lt_succ] at h
    by_cases hr : refers S a j q = true
    · unfold refers at hr
      exact ⟨j, by omega, of_decide_eq_true hr⟩
    · rw [if_neg hr] at h
      obtain ⟨i, hi, hs⟩ := ih (by omega)
      exact ⟨i, by omega, hs⟩

/-- A tree that has been attached has a parent among the trees. -/
theorem attach_total_pos_exists (S : Nat → jxs_mapper) (T : Finset Nat) (q : Nat)
    (h : 1 ≤ attach_total S T q) :
    ∃ a ∈ T, ∃ i, i < (S a).jmhead.idx ∧ ((S a).jmlist i).subjm = some q := by
  by_contra hne
  have hz : attach_total S T q = 0 := by
    unfold attach_total
    apply Finset.sum_eq_zero
    intro a ha
    by_contra hpos
    obtain ⟨i, hi, hs⟩ := attach_lt_pos_exists S a q _ (Nat.pos_of_ne_zero hpos)
    exact hne ⟨a, ha, i, hi, hs⟩
  omega

/-- In a graph in which every tree but `root` has been attached, `root` is
above every other tree. -/
theorem root_is_top {rank : Nat → Nat} {S : Nat → jxs_mapper} {T : Finset Nat}
    (hG : TreeGraph rank S T) (root : Nat)
    (hatt : ∀ q ∈ T, q ≠ root → 1 ≤ attach_total S T q) :
    ∀ q ∈ T, q ≠ root → rank q < rank root := by
  by_contra hne
  push_neg at hne
  obtain ⟨q0, hq0, hq0r, hq0k⟩ := hne
  have hX : (T.filter (fun q => q ≠ root ∧ rank root ≤ rank q)).Nonempty :=
    ⟨q0, by simp [hq0, hq0r, hq0k]⟩
  obtain ⟨q, hq, hmax⟩ := Finset.exists_max_image _ rank hX
  simp only [Finset.mem_filter] at hq hmax
  obtain ⟨a, ha, i, hi, hs⟩ := attach_total_pos_exists S T q (hatt q hq.1 hq.2.1)
  have hr := hG.acyclic a i q hi hs
  have har : a ≠ root := fun e => by subst e; omega
  have := hmax a ⟨ha, har, by omega⟩
  omega

/-- In a graph in which every tree but `root` has been attached, every tree is
reachable from `root`, and the reachable trees are the trees of the graph. -/
theorem reach_iff_mem {rank : Nat → Nat} {S : Nat → jxs_mapper} {T : Finset Nat}
    (hG : TreeGraph rank S T) (root : Nat) (hroot : root ∈ T)
    (hatt : ∀ q ∈ T, q ≠ root → 1 ≤ attach_total S T q) (q : Nat) :
    Reach S root q ↔ q ∈ T := by
  constructor
  · intro h
    induction h with
    | root => exact hroot
    | step p i q _ hi hs ih => exact hG.closed p ih i q hi hs
  · have htop := root_is_top hG root hatt
    have key : ∀ k, ∀ q ∈ T, rank root - rank q ≤ k → Reach S root q := by
      intro k
      induction k with
      | zero =>
        intro q hq hk
        by_cases hqr : q = root
        · rw [hqr]; exact Reach.root
        · have := htop q hq hqr
          omega
      | succ k ih =>
        intro q hq hk
        by_cases hqr : q = root
        · rw [hqr]; exact Reach.root
        · obtain ⟨a, ha, i, hi, hs⟩ := attach_total_pos_exists S T q (hatt q hq hqr)
          have hr := hG.acyclic a i q hi hs
          have hqt := htop q hq hqr
          have hle : rank a ≤ rank root := by
            by_cases har : a = root
            · rw [har]
            · exact le_of_lt (htop a ha har)
          exact Reach.step a i q (ih a ha (by omega)) hi hs
    intro hq
    exact key _ q hq (le_refl _)

/-- Once all nodes of `root` are passed, every other tree of the graph is
released. -/
theorem all_released {rank : Nat → Nat} {S : Nat → jxs_mapper} {T : Finset Nat}
    (hG : TreeGraph rank S T) (root : Nat)
    (hatt : ∀ q ∈ T, q ≠ root → 1 ≤ attach_total S T q)
    {w : World} {prog : Nat → Nat} {rel : List Nat}
    (hinv : TearInv rank S T (rank root) w prog rel) (hdone : prog root = (S root).jmhead.idx) :
    ∀ q ∈ T, q ≠ root → q ∈ rel := by
  have htop := root_is_top hG root hatt
  have key : ∀ k, ∀ q ∈ T, q ≠ root → rank root - rank q ≤ k → q ∈ rel := by
    intro k
    induction k using Nat.strong_induction_on with
    | _ k ih =>
      intro q hq hqr hk
      by_contra hn
      obtain ⟨hsum, hone, _⟩ := hinv.low q hq (htop q hq hqr) hn
      have hfull : attach_done S T prog q = attach_total S T q := by
        unfold attach_done attach_total attach
        apply Finset.sum_congr rfl
        intro a ha
        by_cases hr : rank q < rank a
        · by_cases har : a = root
          · rw [har, hdone]
          · have hta := htop a ha har
            have hqt := htop q hq hqr
            have := ih (rank root - rank a) (by omega) a ha har (le_refl _)
            rw [(hinv.done a this).2.1]
        · rw [attach_lt_zero_of_rank hG.acyclic a q hr _ (hinv.prog_le a),
            attach_lt_zero_of_rank hG.acyclic a q hr _ (le_refl _)]
      omega
  intro q hq hqr
  exact key _ q hq hqr (le_refl _)

/-- Claim C18: let the builder leave an acyclic graph of trees `T` in which
every sub-tree reference sits on a sub-structure node and stays inside the
graph, and every tree but `root` has been attached, its reference count being
the number of its attachments (as `jxs_map_basic_new` and
`jxs_item_basic_add` count them), and let `root` pass `check_ref_count`.
Then `jxs_map_basic_delete(root)` returns for every recursion budget above the
rank of `root`, and the heap trees it releases are, each exactly once, the
heap-allocated trees reachable from `root`: no tree is released twice, no
reachable heap tree is left, and no pooled tree is released. -/
theorem c18_teardown_releases_once (rank : Nat → Nat) (T : Finset Nat) (root : Nat)
    (w0 : World) (fuel : Nat) (hG : TreeGraph rank w0.mappers T) (hroot : root ∈ T)
    (hrefs : ∀ q ∈ T, q ≠ root →
      (w0.mappers q).jmhead.ref = attach_total w0.mappers T q ∧
      1 ≤ attach_total w0.mappers T q)
    (hchk : (check_ref_count w0 root).1 = 0) (hfuel : rank root + 1 < fuel) :
    ∃ w' L, jxs_map_basic_delete fuel (some root) (check_ref_count w0 root).2 = some w' ∧
      w'.freed = (check_ref_count w0 root).2.freed ++ L ∧ L.Nodup ∧
      ∀ q, q ∈ L ↔ (Reach w0.mappers root q ∧ (w0.mappers q).jmhead.isbuf = false) := by
  have hatt : ∀ q ∈ T, q ≠ root → 1 ≤ attach_total w0.mappers T q :=
    fun q hq hqr => (hrefs q hq hqr).2
  have htop := root_is_top hG root hatt
  have href0 : (w0.mappers root).jmhead.ref = 0 := by
    unfold check_ref_count at hchk
    simp only [] at hchk
    by_contra h
    rw [if_pos h] at hchk
    exact absurd hchk int_neg_one_ne
  have hw : (check_ref_count w0 root).2 = set_mapper w0 root
      { jmhead := { (w0.mappers root).jmhead with ref := 1 },
        jmlist := (w0.mappers root).jmlist } := by
    unfold check_ref_count
    simp only [href0, ne_eq, not_true_eq_false, if_false]
  generalize (check_ref_count w0 root).2 = w at hw
  have hother : ∀ r, r ≠ root → w.mappers r = w0.mappers r := by
    intro r hr
    rw [hw]
    simp [set_mapper, hr]
  have hsame : (w.mappers root).jmlist = (w0.mappers root).jmlist ∧
      (w.mappers root).jmhead.idx = (w0.mappers root).jmhead.idx ∧
      (w.mappers root).jmhead.isbuf = (w0.mappers root).jmhead.isbuf ∧
      (w.mappers root).jmhead.ref = 1 := by
    rw [hw]
    simp [set_mapper]
  have hinv : TearInv rank w0.mappers T (rank root) w (fun _ => 0) [] := by
    refine ⟨?_, ?_, ?_, fun _ => Nat.zero_le _, ?_, fun q hq => (by cases hq), List.nodup_nil⟩
    · intro r
      by_cases hr : r = root
      · rw [hr]; exact hsame.1
      · rw [hother r hr]
    · intro r
      by_cases hr : r = root
      · rw [hr]; exact hsame.2.1
      · rw [hother r hr]
    · intro r
      by_cases hr : r = root
      · rw [hr]; exact hsame.2.2.1
      · rw [hother r hr]
    · intro q hq hr _
      have hqr : q ≠ root := fun e => by subst e; omega
      have h0 : attach_done w0.mappers T (fun _ => 0) q = 0 := by
        unfold attach_done
        apply Finset.sum_eq_zero
        intro a _
        rfl
      rw [hother q hqr, h0, (hrefs q hq hqr).1]
      exact ⟨rfl, (hrefs q hq hqr).2, rfl⟩
  obtain ⟨m, rfl⟩ : ∃ m, fuel = m + 2 := ⟨fuel - 2, by omega⟩
  obtain ⟨w1, prog1, new1, h1, h2, h3, _, _, h6, h7⟩ :=
    map_delete_loop_spec hG (map_delete_spec hG m) root hroot (by omega)
      (w0.mappers root).jmhead.idx w (fun _ => 0) [] (by simp) hinv
  simp only [List.nil_append] at h2 h7
  have hrel := all_released hG root hatt h2 h3
  have hmem : ∀ q, q ∈ new1 → q ∈ T := fun q hq => (h2.done q hq).1
  have hreach := reach_iff_mem hG root hroot hatt
  simp only [jxs_map_basic_delete]
  rw [if_pos hsame.2.2.2, hsame.2.1]
  rw [h1]
  simp only []
  have hib : (w1.mappers root).jmhead.isbuf = (w0.mappers root).jmhead.isbuf := h2.isbuf root
  have hrn : root ∉ new1 := fun h => by have := h6 root h; omega
  by_cases hheap : (w0.mappers root).jmhead.isbuf = false
  · rw [if_pos (by rw [hib]; exact hheap)]
    refine ⟨_, new1.filter (fun x => decide ((w0.mappers x).jmhead.isbuf = false)) ++ [root],
      rfl, ?_, ?_, ?_⟩
    · show w1.freed ++ [root] = _
      rw [h7, List.append_assoc]
    · apply List.Nodup.append (h2.nodup.filter _) (by simp)
      intro x hx1 hx2
      have hxr : x = root := by simpa using hx2
      exact hrn (hxr ▸ (List.mem_filter.1 hx1).1)
    · intro q
      rw [hreach q]
      constructor
      · intro hq
        rcases List.mem_append.1 hq with hq | hq
        · have := List.mem_filter.1 hq
          exact ⟨hmem q this.1, of_decide_eq_true this.2⟩
        · have hqr : q = root := by simpa using hq
          rw [hqr]; exact ⟨hroot, hheap⟩
      · intro ⟨hq, hh⟩
        by_cases hqr : q = root
        · rw [hqr]; simp
        · exact List.mem_append_left _
            (List.mem_filter.2 ⟨hrel q hq hqr, decide_eq_true hh⟩)
  · rw [if_neg (by rw [hib]; exact hheap)]
    refine ⟨w1, new1.filter (fun x => decide ((w0.mappers x).jmhead.isbuf = false)), rfl, h7,
      h2.nodup.filter _, ?_⟩
    intro q
    rw [hreach q]
    constructor
    · intro hq
      have := List.mem_filter.1 hq
      exact ⟨hmem q this.1, of_decide_eq_true this.2⟩
    · intro ⟨hq, hh⟩
      have hqr : q ≠ root := fun e => hheap (e ▸ hh)
      exact List.mem_filter.2 ⟨hrel q hq hqr, decide_eq_true hh⟩



theorem world_shared_other (p : Nat) (h0 : p ≠ 0) (h65 : p ≠ 65) :
    world_shared.mappers p = jxs_mapper_zero := by
  have hr : (jxs_map_basic_new (set_ctx_target (world_init mem_zero) 100 0) true 2).1 = some 0 := by
    decide
  have hs : (jxs_map_basic_new
      (jxs_map_basic_new (set_ctx_target (world_init mem_zero) 100 0) true 2).2 true 100).1
      = some 65 := by decide
  have n0 : (none : Option Nat) ≠ some p := by simp
  have n65 : some 65 ≠ some p := fun h => h65 (Option.some.inj h).symm
  unfold world_shared call_descriptor
  simp only [bld_shared, hr, hs]
  rw [item_add_mappers_other _ _ _ _ _ _ _ _ _ h0 n65,
    item_add_mappers_other _ _ _ _ _ _ _ _ _ h0 n65,
    item_add_mappers_other _ _ _ _ _ _ _ _ _ h65 n0,
    map_new_mappers_other _ _ _ _ (by rw [hs]; exact n65),
    map_new_mappers_other _ _ _ _ (by rw [hr]; exact fun h => h0 (Option.some.inj h).symm)]
  rfl

theorem world_shared_graph : TreeGraph rank_rec world_shared.mappers {0, 65} := by
  have h0 : ∀ i, i < 2 → ((world_shared.mappers 0).jmlist i).subjm = some 65 ∧
      ((world_shared.mappers 0).jmlist i).type = jxs_type.struct := by decide
  have h65 : ∀ i, i < 1 → ((world_shared.mappers 65).jmlist i).subjm = none := by decide
  have hi0 : (world_shared.mappers 0).jmhead.idx = 2 := by decide
  have hi65 : (world_shared.mappers 65).jmhead.idx = 1 := by decide
  have hedge : ∀ p i q, i < (world_shared.mappers p).jmhead.idx →
      ((world_shared.mappers p).jmlist i).subjm = some q →
      p = 0 ∧ q = 65 ∧ ((world_shared.mappers p).jmlist i).type = jxs_type.struct := by
    intro p i q hi hq
    by_cases hp0 : p = 0
    · subst hp0
      rw [hi0] at hi
      rw [(h0 i hi).1] at hq
      exact ⟨rfl, (Option.some.inj hq).symm, (h0 i hi).2⟩
    · by_cases hp65 : p = 65
      · subst hp65
        rw [hi65] at hi
        rw [h65 i hi] at hq
        cases hq
      · rw [world_shared_other p hp0 hp65] at hi
        exact absurd hi (by simp [jxs_mapper_zero])
  refine ⟨?_, ?_, ?_, ?_⟩
  · intro p i q hi hq
    obtain ⟨rfl, rfl, _⟩ := hedge p i q hi hq
    decide
  · intro p _ i q hi hq
    obtain ⟨_, rfl, _⟩ := hedge p i q hi hq
    simp
  · intro p _ i q hi hq
    exact Or.inl (hedge p i q hi hq).2.2
  · decide

/-- Witness of `c18_teardown_releases_once`: the graph of `bld_shared`, a
pooled root (handle 0) whose fields `a` and `b` share the heap tree 65. -/
theorem c18_teardown_releases_once_witness :
    ∃ w' L, jxs_map_basic_delete 3 (some 0) (check_ref_count world_shared 0).2 = some w' ∧
      w'.freed = (check_ref_count world_shared 0).2.freed ++ L ∧ L.Nodup ∧
      ∀ q, q ∈ L ↔ (Reach world_shared.mappers 0 q ∧
        (world_shared.mappers q).jmhead.isbuf = false) :=
  c18_teardown_releases_once rank_rec {0, 65} 0 world_shared 3 world_shared_graph (by simp)
    (by decide) (by decide) (by decide)



/-! ## Claim C25: deserialization followed by serialization -/

theorem read_le_of_bytes (m : Mem) : ∀ (n a v : Nat),
    (∀ k, k < n → (m (a + k)).val = v / 256 ^ k % 256) → read_le m a n = v % 256 ^ n := by
  intro n
  induction n with
  | zero => intro a v _; simp [read_le, Nat.mod_one]
  | succ n ih =>
    intro a v h
    have h0 := h 0 (by omega)
    simp only [Nat.add_zero, pow_zero, Nat.div_one] at h0
    have h1 : read_le m (a + 1) n = (v / 256) % 256 ^ n := by
      apply ih
      intro k hk
      have := h (k + 1) (by omega)
      rw [show a + 1 + k = a + (k + 1) by omega, this, Nat.div_div_eq_div_mul, pow_succ,
        Nat.mul_comm]
    simp only [read_le]
    rw [h0, h1, pow_succ, Nat.mul_comm (256 ^ n) 256, Nat.mod_mul]

/-- A load of `n` bytes from a memory that agrees, on the `n` bytes at `a`,
with the memory a store of `v` has left: the low `n` bytes of `v`. -/
theorem read_le_after_write (t s : Mem) (a n v : Nat)
    (h : ∀ x, a ≤ x → x < a + n → s x = write_le t a n v x) :
    read_le s a n = v % 256 ^ n := by
  apply read_le_of_bytes
  intro k hk
  rw [h (a + k) (by omega) (by omega), write_le_apply, if_pos (by omega)]
  simp [byte_of]

theorem to_signed_of_signed (n : Nat) (v : Int) (hn : n = 1 ∨ n = 2 ∨ n = 4 ∨ n = 8)
    (hlo : -(2 : Int) ^ (8 * n - 1) ≤ v) (hhi : v < (2 : Int) ^ (8 * n - 1)) :
    to_signed n (of_signed n v % 256 ^ n) = v := by
  rcases hn with h | h | h | h <;> subst h <;>
    simp only [of_signed, to_signed] <;> norm_num at hlo hhi ⊢ <;> split <;> omega

theorem sat_int32_of_range (v : Int) (hlo : -2147483648 ≤ v) (hhi : v < 2147483648) :
    sat_int32 v = v := by
  unfold sat_int32
  split
  · omega
  · split
    · omega
    · rfl

/-- A load of a NUL-terminated string from a memory that holds the non-NUL
bytes `s` and then a NUL. -/
theorem read_cstr_of_bytes (m : Mem) : ∀ (s : List Nat) (a n : Nat),
    (∀ k, k < s.length → (m (a + k)).val = s.getD k 0) → (∀ c ∈ s, c ≠ 0) →
    (m (a + s.length)).val = 0 → s.length < n → read_cstr m a n = s := by
  intro s
  induction s with
  | nil =>
    intro a n _ _ hz hn
    obtain ⟨n', rfl⟩ : ∃ n', n = n' + 1 := ⟨n - 1, by simp at hn; omega⟩
    simp only [List.length_nil, Nat.add_zero] at hz
    simp [read_cstr, hz]
  | cons c s ih =>
    intro a n hb hnz hz hn
    obtain ⟨n', rfl⟩ : ∃ n', n = n' + 1 := ⟨n - 1, by simp at hn; omega⟩
    have h0 := hb 0 (by simp)
    simp only [Nat.add_zero, List.getD_cons_zero] at h0
    have hc : c ≠ 0 := hnz c (List.mem_cons_self _ _)
    simp only [read_cstr, h0, hc, if_false]
    congr 1
    apply ih
    · intro k hk
      have := hb (k + 1) (by simp; omega)
      rw [show a + 1 + k = a + (k + 1) by omega, this]
      simp
    · intro x hx
      exact hnz x (List.mem_cons_of_mem _ hx)
    · rw [show a + 1 + s.length = a + (c :: s).length by simp; omega]
      exact hz
    · simp at hn; omega

/-- A conforming leaf value: the store succeeds and writes inside the field,
and a load from any memory that agrees on the field with the memory the store
has left gives the value again. -/
theorem leaf_back (lib : JsonLib) (t : Mem) (type : jxs_type) (size a : Nat) (doc : Json)
    (h : leaf_conf lib type size doc) (hnw : a + size ≤ PTR_MOD) :
    ∃ m', from_json_scalar lib t type size a doc = some m' ∧
      (∀ x, x < a ∨ a + size ≤ x → m' x = t x) ∧
      ∀ s : Mem, (∀ x, a ≤ x → x < a + size → s x = m' x) →
        to_json_scalar lib s type size a = some doc := by
  cases type <;> simp only [leaf_conf] at h
  · -- boolean
    obtain ⟨hs, hv⟩ := h
    rcases hs with hs | hs <;> subst hs
    · refine ⟨write_int t a 4 (json_object_get_boolean doc), by simp [from_json_scalar], ?_, ?_⟩
      · intro x hx
        simp only [write_int, write_le_apply]
        rw [if_neg (by omega)]
      · intro s hs
        have hr := read_le_after_write t s a 4 _ hs
        rcases hv with hv | hv <;> subst hv <;>
          simp only [to_json_scalar, json_object_get_boolean, read_int, if_true] at hr ⊢ <;>
          rw [hr] <;> rfl
    · refine ⟨write_le t a 1 (if json_object_get_boolean doc ≠ 0 then 1 else 0),
        by simp [from_json_scalar], ?_, ?_⟩
      · intro x hx
        simp only [write_le_apply]
        rw [if_neg (by omega)]
      · intro s hs
        have hr := hs a (by omega) (by omega)
        rw [write_le_apply, if_pos (by omega)] at hr
        rcases hv with hv | hv <;> subst hv <;>
          simp only [to_json_scalar, json_object_get_boolean] at hr ⊢ <;>
          simp [hr, byte_of]
  · -- double
    obtain ⟨b, hd, hb⟩ := h
    subst hd
    rcases hb with ⟨hs, hb⟩ | ⟨hs, hb⟩ <;> subst hs
    · refine ⟨write_le t a 8 b, by simp [from_json_scalar, json_object_get_double], ?_, ?_⟩
      · intro x hx
        simp only [write_le_apply]
        rw [if_neg (by omega)]
      · intro s hs
        have hr := read_le_after_write t s a 8 _ hs
        simp only [to_json_scalar, if_true]
        rw [hr, Nat.mod_eq_of_lt (by norm_num at hb ⊢; omega)]
    · refine ⟨write_le t a 4 (lib.f64_to_f32 b),
        by simp [from_json_scalar, json_object_get_double], ?_, ?_⟩
      · intro x hx
        simp only [write_le_apply]
        rw [if_neg (by omega)]
      · intro s hs
        have hr := read_le_after_write t s a 4 _ hs
        have hb' : lib.f32_to_f64 (lib.f64_to_f32 b % 256 ^ 4) = b := by
          rw [show (256 : Nat) ^ 4 = 2 ^ 32 by norm_num]; exact hb
        simp only [to_json_scalar]
        rw [hr, hb']
        simp
  · -- int
    obtain ⟨hs, v, hd, hlo, hhi⟩ := h
    subst hd
    have key : ∀ n, (n = 1 ∨ n = 2 ∨ n = 4 ∨ n = 8) → size = n →
        ∀ s : Mem, (∀ x, a ≤ x → x < a + n → s x = write_int t a n v x) →
          read_int s a n = v := by
      intro n hn hsz s hs
      subst hsz
      unfold read_int
      rw [read_le_after_write t s a size (of_signed size v) hs]
      exact to_signed_of_signed size v hn hlo hhi
    have hsat : size = 4 ∨ size = 2 ∨ size = 1 → sat_int32 v = v := by
      intro h
      apply sat_int32_of_range
      · rcases h with h | h | h <;> subst h <;> norm_num at hlo ⊢ <;> omega
      · rcases h with h | h | h <;> subst h <;> norm_num at hhi ⊢ <;> omega
    rcases hs with hs | hs | hs | hs
    · have := key 8 (by decide) hs
      subst hs
      refine ⟨write_int t a 8 v, by simp [from_json_scalar, json_object_get_int64], ?_, ?_⟩
      · intro x hx
        simp only [write_int, write_le_apply]
        rw [if_neg (by omega)]
      · intro s hs
        simp only [to_json_scalar, if_true]
        rw [this s hs]
    · have := key 4 (by decide) hs
      have hsv := hsat (Or.inl hs)
      subst hs
      refine ⟨write_int t a 4 v, by simp [from_json_scalar, json_object_get_int, hsv], ?_, ?_⟩
      · intro x hx
        simp only [write_int, write_le_apply]
        rw [if_neg (by omega)]
      · intro s hs
        simp [to_json_scalar, this s hs]
    · have := key 2 (by decide) hs
      have hsv := hsat (Or.inr (Or.inl hs))
      subst hs
      refine ⟨write_int t a 2 v, by simp [from_json_scalar, json_object_get_int, hsv], ?_, ?_⟩
      · intro x hx
        simp only [write_int, write_le_apply]
        rw [if_neg (by omega)]
      · intro s hs
        simp [to_json_scalar, this s hs]
    · have := key 1 (by decide) hs
      have hsv := hsat (Or.inr (Or.inr hs))
      subst hs
      refine ⟨write_int t a 1 v, by simp [from_json_scalar, json_object_get_int, hsv], ?_, ?_⟩
      · intro x hx
        simp only [write_int, write_le_apply]
        rw [if_neg (by omega)]
      · intro s hs
        simp [to_json_scalar, this s hs]
  · -- string
    obtain ⟨str, hd, hlen, hbytes⟩ := h
    subst hd
    have hs0 : size ≠ 0 := by omega
    have htw : str.takeWhile (fun b => decide (b % 256 ≠ 0)) = str := by
      rw [List.takeWhile_eq_self_iff]
      intro b hb
      have := hbytes b hb
      simp only [decide_eq_true_eq]
      omega
    have hsn : snprintf_bytes size str = str ++ [0] := by
      unfold snprintf_bytes
      simp only [hs0, if_false]
      rw [htw, List.take_of_length_le (by omega)]
    refine ⟨write_bytes t a (str ++ [0]),
      by simp [from_json_scalar, json_object_get_string, hsn], ?_, ?_⟩
    · intro x hx
      rw [write_bytes_apply, if_neg (by simp; omega)]
    · intro s hs
      simp only [to_json_scalar]
      congr 2
      unfold c_string
      apply read_cstr_of_bytes
      · intro k hk
        rw [hs (a + k) (by omega) (by omega), write_bytes_apply, if_pos (by simp; omega)]
        rw [show a + k - a = k by omega, List.getD_append _ _ _ _ hk]
        have hc := hbytes (str.getD k 0) (by
          rw [List.getD_eq_getElem _ _ hk]; exact List.getElem_mem _)
        simp only [byte_of]
        exact Nat.mod_eq_of_lt hc.2
      · intro c hc
        have := hbytes c hc
        omega
      · rw [hs (a + str.length) (by omega) (by omega), write_bytes_apply,
          if_pos (by simp)]
        rw [show a + str.length - a = str.length by omega,
          List.getD_append_right _ _ _ _ (by omega)]
        simp [byte_of]
      · omega



theorem addr_of_eq_lo (start : Nat) (it : jmap_item_t) (idx : Nat)
    (h0 : base_of start it ≠ 0) (hnw : node_lo start it idx + it.size ≤ PTR_MOD) :
    base_of start it = start + it.offset ∧ addr_of start it idx = node_lo start it idx := by
  unfold node_lo at hnw ⊢
  have hb : start + it.offset < PTR_MOD := by
    by_contra hge
    have h1 : it.size = 0 := by omega
    have h2 : start + it.offset = PTR_MOD := by rw [h1] at hnw; simp at hnw; omega
    apply h0
    unfold base_of
    rw [h2, Nat.mod_self]
  have hbase : base_of start it = start + it.offset := by
    unfold base_of
    exact Nat.mod_eq_of_lt hb
  refine ⟨hbase, ?_⟩
  unfold addr_of
  rw [hbase]
  apply Nat.mod_eq_of_lt
  by_cases hs : it.size = 0
  · rw [hs]; simp; exact hb
  · omega

theorem leaf_fits_of_conf (lib : JsonLib) (type : jxs_type) (size : Nat) (doc : Json)
    (h : leaf_conf lib type size doc) : leaf_fits type size := by
  cases type <;> simp only [leaf_conf] at h <;> simp only [leaf_fits]
  · exact h.1
  · obtain ⟨b, _, hb⟩ := h
    rcases hb with ⟨hs, _⟩ | ⟨hs, _⟩
    · exact Or.inl hs
    · exact Or.inr hs
  · exact h.1

/-- A conforming leaf value comes back. -/
theorem back_leaf (lib : JsonLib) (S : Nat → jxs_mapper) (rank : Nat → Nat)
    (fuel hp start : Nat) (it : jmap_item_t) (idx : Nat) (doc : Json)
    (h0 : base_of start it ≠ 0) (hrule : it.rule = JXS_RULE_KEEP_RAW)
    (hnw : node_lo start it idx + it.size ≤ PTR_MOD)
    (hd : leaf_conf lib it.type it.size doc) :
    Back lib S rank (fuel + 1) hp start it idx doc doc := by
  intro wt hinvt
  obtain ⟨_, haddr⟩ := addr_of_eq_lo start it idx h0 hnw
  have hstt := hinvt.2.2.1
  have hbaset : node_base wt hp it = base_of start it := by unfold node_base; rw [hstt]
  have haddrt : node_addr wt hp it idx = node_lo start it idx := by
    unfold node_addr; rw [hstt, haddr]
  obtain ⟨m', hm', hout, hback⟩ := leaf_back lib wt.mem it.type it.size (node_lo start it idx)
    doc hd hnw
  refine ⟨set_mem (record_visit wt (node_addr wt hp it idx) it) m', ?_, hout, ?_⟩
  · rw [de_wrapper_leaf lib fuel hp it idx doc wt (leaf_fits_of_conf lib _ _ _ hd)
      (by rw [hbaset]; exact h0), haddrt, hm']
    rfl
  · intro ws hinv hcb hag
    have hst := hinv.2.2.1
    have hbase : node_base ws hp it = base_of start it := by unfold node_base; rw [hst]
    have haddrs : node_addr ws hp it idx = node_lo start it idx := by
      unfold node_addr; rw [hst, haddr]
    refine ⟨set_now_vptr (record_visit ws (node_addr ws hp it idx) it)
      (node_addr ws hp it idx), ?_⟩
    rw [ser_wrapper_keep lib fuel hp it idx ws (by rw [hbase]; exact h0) hrule hcb]
    exact to_json_by_type_scalar lib _ hp it idx _ _ doc (by
      show to_json_scalar lib ws.mem it.type it.size (node_addr ws hp it idx) = some doc
      rw [haddrs]
      exact hback ws.mem hag)

/-- The element loops over conforming element values: deserialization writes
the elements from `i` on, serialization reads their values again. -/
theorem array_loop_back (lib : JsonLib) (S : Nat → jxs_mapper) (rank : Nat → Nat)
    (fuel hp start : Nat) (e : jmap_item_t) (ntot : Nat) (arr : List Json) (O : Nat → Json)
    (hb : Below rank e hp)
    (H : ∀ i, i < ntot → Back lib S rank fuel hp start e i (arr.getD i .null) (O i)) :
    ∀ (n i : Nat), i + n = ntot → ∀ (wt : World) (loc fz : Option (List Char)),
      WalkInv S rank hp start wt →
      ∃ wt', from_json_array_loop (jmap_from_json_warpper lib fuel) hp e loc fz (.array arr)
          n i wt = some (0, wt') ∧
        WalkInv S rank hp start wt' ∧
        (∀ x, x < node_lo start e i ∨ node_lo start e (i + n) ≤ x → wt'.mem x = wt.mem x) ∧
        ∀ (ws : World) (xs : List Json) (loc' fz' : Option (List Char)),
          WalkInv S rank hp start ws → ws.ctx.convert_callback = none →
          (∀ x, node_lo start e i ≤ x → x < node_lo start e (i + n) → ws.mem x = wt'.mem x) →
          ∃ js ws', to_json_array_loop (jmap_to_json_warpper lib fuel) hp e loc' fz' n i
              (.array xs) ws = some (0, .array (xs ++ js), ws') ∧
            js.length = n ∧ ∀ k, k < n → js.getD k .null = O (i + k) := by
  intro n
  induction n with
  | zero =>
    intro i _ wt loc fz hinvt
    refine ⟨wt, rfl, hinvt, fun _ _ => rfl, ?_⟩
    intro ws xs loc' fz' _ _ _
    exact ⟨[], ws, by simp [to_json_array_loop], rfl, fun k hk => absurd hk (by omega)⟩
  | succ n ih =>
    intro i hin wt loc fz hinvt
    have hlo : node_lo start e (i + 1) = node_lo start e i + e.size := by
      unfold node_lo; ring
    have hmono : node_lo start e (i + 1) ≤ node_lo start e (i + 1 + n) := by
      unfold node_lo
      have : e.size * (i + 1) ≤ e.size * (i + 1 + n) := Nat.mul_le_mul_left _ (by omega)
      omega
    have hinvt1 : WalkInv S rank hp start (set_now wt (SET_NEW_LOCATOR loc e.key true i)
        (SET_NEW_FUZZY_LOCATOR fz loc e.key true)) := walk_inv_of_mappers_eq hinvt rfl
    obtain ⟨wt2, hdeq, hout1, hser1⟩ := H i (by omega) _ hinvt1
    have hfrt := de_wrapper_frame lib rank fuel hp e i _ _ 0 wt2 hinvt1.1 hinvt1.2.1 hb hdeq
    have hinvt2 : WalkInv S rank hp start wt2 := walk_inv_of_frame hinvt1 (hfrt.2 rfl)
    obtain ⟨wt', hdeq2, hinvt', hout2, hser2⟩ := ih (i + 1) (by omega) wt2 loc fz hinvt2
    rw [show i + 1 + n = i + (n + 1) by omega] at hout2 hser2 hmono
    refine ⟨wt', ?_, hinvt', ?_, ?_⟩
    · simp only [from_json_array_loop, json_object_array_get_idx, hdeq]
      simp only [ne_eq, not_true_eq_false, if_false]
      exact hdeq2
    · intro x hx
      rw [hout2 x (by omega), hout1 x (by omega)]
      rfl
    · intro ws xs loc' fz' hinv hcb hag
      have hinv1 : WalkInv S rank hp start (set_now ws (SET_NEW_LOCATOR loc' e.key true i)
          (SET_NEW_FUZZY_LOCATOR fz' loc' e.key true)) := walk_inv_of_mappers_eq hinv rfl
      obtain ⟨ws2, hs1⟩ := hser1 _ hinv1 hcb (by
        intro x h1 h2
        show ws.mem x = _
        rw [hag x h1 (by omega), hout2 x (Or.inl (by omega))])
      have hfr := ser_wrapper_frame lib rank fuel hp e i _ 0 _ ws2 hinv1.1 hinv1.2.1 hb hs1
      have hinv2 : WalkInv S rank hp start ws2 := walk_inv_of_frame hinv1 (hfr.2 (by decide))
      have hmem2 : ws2.mem = ws.mem := hfr.1.mem hcb
      have hcb2 : ws2.ctx.convert_callback = none := hfr.1.cb.trans hcb
      obtain ⟨js, ws', hs2, hlen, hjs⟩ := hser2 ws2 (xs ++ [O i]) loc' fz' hinv2 hcb2 (by
        intro x h1 h2
        rw [hmem2]
        exact hag x (by omega) h2)
      refine ⟨O i :: js, ws', ?_, by simp [hlen], ?_⟩
      · simp only [to_json_array_loop, hs1]
        simp only [show ¬ ((0 : Int) = -1) by decide, if_false, if_true, json_object_array_add]
        rw [hs2]
        simp
      · intro k hk
        cases k with
        | zero => simp
        | succ k =>
          simp only [List.getD_cons_succ]
          rw [hjs k (by omega)]
          congr 1
          omega



theorem list_eq_range_map_of_getD {α : Type} (ys : List α) (n : Nat) (f : Nat → α) (d : α)
    (hl : ys.length = n) (h : ∀ k, k < n → ys.getD k d = f k) : ys = (List.range n).map f := by
  apply List.ext_getElem
  · simp [hl]
  · intro k h1 h2
    have := h k (by omega)
    rw [List.getD_eq_getElem _ _ h1] at this
    rw [this]
    simp

/-- The node loops over conforming values of fields that do not overlap:
deserialization writes the fields from node `i` on, serialization reads their
values again and adds them under their keys, in declaration order. -/
theorem object_loop_back (lib : JsonLib) (S : Nat → jxs_mapper) (rank : Nat → Nat)
    (fuel q start : Nat) (L : Nat → jmap_item_t) (ntot : Nat) (doc : Json) (O : Nat → Json)
    (hkeys : ∀ i j, i < ntot → j < ntot → i ≠ j → (L i).key ≠ (L j).key)
    (hb : ∀ i, i < ntot → Below rank (L i) q)
    (hdis : ∀ i j, i < ntot → j < ntot → i ≠ j →
      node_lo start (L i) 0 + (L i).size ≤ node_lo start (L j) 0 ∨
      node_lo start (L j) 0 + (L j).size ≤ node_lo start (L i) 0)
    (H : ∀ i, i < ntot →
      Back lib S rank fuel q start (L i) 0 (json_object_object_get doc (L i).key) (O i)) :
    ∀ (n i : Nat), i + n = ntot → ∀ (wt : World) (loc fz : Option (List Char)),
      WalkInv S rank q start wt → (wt.mappers q).jmlist = L →
      ∃ wt', from_json_object_loop (jmap_from_json_warpper lib fuel) q loc fz doc n i wt
          = some (0, wt') ∧
        StoreFrame rank (rank q) wt wt' ∧
        (∀ x, (∀ m, i ≤ m → m < ntot →
            x < node_lo start (L m) 0 ∨ node_lo start (L m) 0 + (L m).size ≤ x) →
          wt'.mem x = wt.mem x) ∧
        ∀ (ws : World) (acc : List (List Char × Json)) (loc' fz' : Option (List Char)),
          WalkInv S rank q start ws → (ws.mappers q).jmlist = L →
          ws.ctx.convert_callback = none →
          (∀ m, i ≤ m → m < ntot → ∀ x, node_lo start (L m) 0 ≤ x →
            x < node_lo start (L m) 0 + (L m).size → ws.mem x = wt'.mem x) →
          acc.map Prod.fst = (List.range i).map (fun m => (L m).key) →
          ∃ kvs' ws', to_json_object_loop (jmap_to_json_warpper lib fuel) q loc' fz' n i
              (.object acc) ws = some (0, .object (acc ++ kvs'), ws') ∧
            StoreFrame rank (rank q) ws ws' ∧
            kvs'.length = n ∧
            ∀ k, k < n → kvs'.getD k ([], .null) = ((L (i + k)).key, O (i + k)) := by
  intro n
  induction n with
  | zero =>
    intro i _ wt loc fz _ _
    refine ⟨wt, rfl, store_frame_refl _ _ _, fun _ _ => rfl, ?_⟩
    intro ws acc loc' fz' _ _ _ _ _
    exact ⟨[], ws, by simp [to_json_object_loop], store_frame_refl _ _ _, rfl,
      fun k hk => absurd hk (by omega)⟩
  | succ n ih =>
    intro i hin wt loc fz hinvt hLt
    have hinvt1 : WalkInv S rank q start (set_now wt (SET_NEW_LOCATOR loc (L i).key false 0)
        (SET_NEW_FUZZY_LOCATOR fz loc (L i).key false)) := walk_inv_of_mappers_eq hinvt rfl
    obtain ⟨wt2, hdeq, hout1, hser1⟩ := H i (by omega) _ hinvt1
    have hfrt := de_wrapper_frame lib rank fuel q (L i) 0 _ _ 0 wt2 hinvt1.1 hinvt1.2.1
      (hb i (by omega)) hdeq
    have hsft0 : StoreFrame rank (rank q) wt (set_now wt
        (SET_NEW_LOCATOR loc (L i).key false 0)
        (SET_NEW_FUZZY_LOCATOR fz loc (L i).key false)) :=
      store_frame_of_mappers_eq rank _ rfl
    have hsft : StoreFrame rank (rank q) wt wt2 := store_frame_trans hsft0 (hfrt.2 rfl)
    have hinvt2 : WalkInv S rank q start wt2 := walk_inv_of_frame hinvt hsft
    have hLt2 : (wt2.mappers q).jmlist = L := (hsft.list q).trans hLt
    obtain ⟨wt', hdeq2, hsft2, hout2, hser2⟩ := ih (i + 1) (by omega) wt2 loc fz hinvt2 hLt2
    refine ⟨wt', ?_, store_frame_trans hsft hsft2, ?_, ?_⟩
    · simp only [from_json_object_loop, hLt, hdeq]
      simp only [ne_eq, not_true_eq_false, if_false]
      exact hdeq2
    · intro x hx
      rw [hout2 x (fun m hm1 hm2 => hx m (by omega) hm2), hout1 x (hx i (le_refl _) (by omega))]
      rfl
    · intro ws acc loc' fz' hinv hL hcb hag hacc
      have hinv1 : WalkInv S rank q start (set_now ws (SET_NEW_LOCATOR loc' (L i).key false 0)
          (SET_NEW_FUZZY_LOCATOR fz' loc' (L i).key false)) := walk_inv_of_mappers_eq hinv rfl
      obtain ⟨ws2, hs1⟩ := hser1 _ hinv1 hcb (by
        intro x h1 h2
        show ws.mem x = _
        rw [hag i (le_refl _) (by omega) x h1 h2]
        apply hout2
        intro m hm1 hm2
        have := hdis i m (by omega) hm2 (by omega)
        omega)
      have hfr := ser_wrapper_frame lib rank fuel q (L i) 0 _ 0 _ ws2 hinv1.1 hinv1.2.1
        (hb i (by omega)) hs1
      have hsf0 : StoreFrame rank (rank q) ws (set_now ws
          (SET_NEW_LOCATOR loc' (L i).key false 0)
          (SET_NEW_FUZZY_LOCATOR fz' loc' (L i).key false)) :=
        store_frame_of_mappers_eq rank _ rfl
      have hsf : StoreFrame rank (rank q) ws ws2 := store_frame_trans hsf0 (hfr.2 (by decide))
      have hinv2 : WalkInv S rank q start ws2 := walk_inv_of_frame hinv hsf
      have hL2 : (ws2.mappers q).jmlist = L := (hsf.list q).trans hL
      have hmem2 : ws2.mem = ws.mem := hfr.1.mem hcb
      have hcb2 : ws2.ctx.convert_callback = none := hfr.1.cb.trans hcb
      have hfresh : (L i).key ∉ acc.map Prod.fst := by
        rw [hacc]
        intro hmem
        obtain ⟨m, hm, hk⟩ := List.mem_map.1 hmem
        have hm' := List.mem_range.1 hm
        exact hkeys m i (by omega) (by omega) (by omega) hk
      obtain ⟨kvs', ws', hs2, hsf2, hlen, hk⟩ := hser2 ws2 (acc ++ [((L i).key, O i)]) loc' fz'
        hinv2 hL2 hcb2 (by
          intro m hm1 hm2 x h1 h2
          rw [hmem2]
          exact hag m (by omega) hm2 x h1 h2) (by
          rw [List.map_append, hacc, List.range_succ, List.map_append]
          rfl)
      refine ⟨((L i).key, O i) :: kvs', ws', ?_, store_frame_trans hsf hsf2, by simp [hlen], ?_⟩
      · simp only [to_json_object_loop, hL, hs1]
        simp only [show ¬ ((0 : Int) = -1) by decide, if_false, if_true, json_object_object_add,
          kvs_add_new acc (L i).key (O i) hfresh]
        rw [hs2]
        simp
      · intro k hk'
        cases k with
        | zero => simp
        | succ k =>
          simp only [List.getD_cons_succ]
          rw [hk k (by omega)]
          rw [show i + 1 + k = i + (k + 1) by omega]



/-- A conforming sub-structure value comes back. -/
theorem back_struct (lib : JsonLib) (S : Nat → jxs_mapper) (rank : Nat → Nat)
    (fuel hp start : Nat) (it : jmap_item_t) (idx q : Nat) (kvs : List (List Char × Json))
    (outs : Nat → Json)
    (h0 : base_of start it ≠ 0) (hrule : it.rule = JXS_RULE_KEEP_RAW)
    (hnw : node_lo start it idx + it.size ≤ PTR_MOD)
    (hty : it.type = jxs_type.struct) (hsub : it.subjm = some q)
    (hlt : rank q < rank hp) (hS : Acyclic rank S)
    (hkeys : ∀ i j, i < (S q).jmhead.idx → j < (S q).jmhead.idx → i ≠ j →
      ((S q).jmlist i).key ≠ ((S q).jmlist j).key)
    (hin : ∀ i, i < (S q).jmhead.idx →
      node_lo start it idx ≤ node_lo (base_of start it)
        (set_offset ((S q).jmlist i) ((((S q).jmlist i).offset + it.size * idx) % PTR_MOD)) 0 ∧
      node_lo (base_of start it)
        (set_offset ((S q).jmlist i) ((((S q).jmlist i).offset + it.size * idx) % PTR_MOD)) 0
        + ((S q).jmlist i).size ≤ node_lo start it idx + it.size)
    (hdis : ∀ i j, i < (S q).jmhead.idx → j < (S q).jmhead.idx → i ≠ j →
      node_lo (base_of start it)
        (set_offset ((S q).jmlist i) ((((S q).jmlist i).offset + it.size * idx) % PTR_MOD)) 0
        + ((S q).jmlist i).size ≤
      node_lo (base_of start it)
        (set_offset ((S q).jmlist j) ((((S q).jmlist j).offset + it.size * idx) % PTR_MOD)) 0 ∨
      node_lo (base_of start it)
        (set_offset ((S q).jmlist j) ((((S q).jmlist j).offset + it.size * idx) % PTR_MOD)) 0
        + ((S q).jmlist j).size ≤
      node_lo (base_of start it)
        (set_offset ((S q).jmlist i) ((((S q).jmlist i).offset + it.size * idx) % PTR_MOD)) 0)
    (H : ∀ i, i < (S q).jmhead.idx →
      Back lib S rank fuel q (base_of start it)
        (set_offset ((S q).jmlist i) ((((S q).jmlist i).offset + it.size * idx) % PTR_MOD)) 0
        (kvs_get kvs ((S q).jmlist i).key) (outs i)) :
    Back lib S rank (fuel + 1) hp start it idx (.object kvs)
      (.object ((List.range (S q).jmhead.idx).map (fun i => (((S q).jmlist i).key, outs i)))) := by
  intro wt hinvt
  obtain ⟨_, haddr⟩ := addr_of_eq_lo start it idx h0 hnw
  have hL : ∀ i, i < (S q).jmhead.idx →
      map_first (S q).jmhead.idx
        (fun it' => set_offset it' ((it'.offset + it.size * idx) % PTR_MOD)) (S q).jmlist i
      = set_offset ((S q).jmlist i) ((((S q).jmlist i).offset + it.size * idx) % PTR_MOD) := by
    intro i hi
    simp only [map_first, hi, if_true]
  have hstt := hinvt.2.2.1
  have hbaset : node_base wt hp it = base_of start it := by unfold node_base; rw [hstt]
  have haddrt : node_addr wt hp it idx = addr_of start it idx := by
    unfold node_addr; rw [hstt]
  have hinvt1 : WalkInv S rank hp start (record_visit wt (addr_of start it idx) it) :=
    walk_inv_of_mappers_eq hinvt rfl
  obtain ⟨hinvt3, hLt3, hnt3⟩ := rebase_walk_inv hinvt1 hlt (base_of start it) it.size idx
  obtain ⟨wt', hdeq, _, hout, hser⟩ :=
    object_loop_back lib S rank fuel q (base_of start it)
      (map_first (S q).jmhead.idx
        (fun it' => set_offset it' ((it'.offset + it.size * idx) % PTR_MOD)) (S q).jmlist)
      (S q).jmhead.idx (.object kvs) outs
      (fun i j hi hj hij => by rw [hL i hi, hL j hj]; exact hkeys i j hi hj hij)
      (fun i hi r hr => by
        rw [hL i hi] at hr
        exact hS q i r hi hr)
      (fun i j hi hj hij => by rw [hL i hi, hL j hj]; exact hdis i j hi hj hij)
      (fun i hi => by rw [hL i hi]; exact H i hi)
      (S q).jmhead.idx 0 (by omega) _
      (record_visit wt (addr_of start it idx) it).ctx.now_locator
      (record_visit wt (addr_of start it idx) it).ctx.now_fzlocator hinvt3 hLt3
  refine ⟨jmap_struct_move_backward wt' q it.size idx, ?_, ?_, ?_⟩
  · rw [de_wrapper_unfold lib fuel hp it idx _ wt (by rw [hbaset]; exact h0), haddrt]
    simp only [from_json_by_type, hty, hsub, jmap_from_json_object_with, Json.is_null]
    simp only [node_base, record_visit_mappers, hstt, hnt3,
      move_forward_ctx, set_start_addr_ctx]
    simp only [Bool.false_eq_true, if_false]
    rw [hdeq]
    simp
  · intro x hx
    rw [move_backward_mem, hout x (fun m _ hm => by
      rw [hL m hm]
      have := hin m hm
      show x < _ ∨ _ + ((S q).jmlist m).size ≤ x
      omega)]
    rfl
  · intro ws hinv hcb hag
    have hst := hinv.2.2.1
    have hbase : node_base ws hp it = base_of start it := by unfold node_base; rw [hst]
    have haddrs : node_addr ws hp it idx = addr_of start it idx := by
      unfold node_addr; rw [hst]
    have hinv1 : WalkInv S rank hp start
        (set_now_vptr (record_visit ws (addr_of start it idx) it) (addr_of start it idx)) :=
      walk_inv_of_mappers_eq hinv rfl
    obtain ⟨hinv3, hL3, hn3⟩ := rebase_walk_inv hinv1 hlt (base_of start it) it.size idx
    obtain ⟨kvs', ws', hloop, _, hlen, hk⟩ := hser _ []
      (set_now_vptr (record_visit ws (addr_of start it idx) it)
        (addr_of start it idx)).ctx.now_locator
      (set_now_vptr (record_visit ws (addr_of start it idx) it)
        (addr_of start it idx)).ctx.now_fzlocator
      hinv3 hL3 hcb (by
        intro m _ hm x h1 h2
        rw [hL m hm] at h1 h2
        have := hin m hm
        have h2' : x < node_lo (base_of start it)
            (set_offset ((S q).jmlist m)
              ((((S q).jmlist m).offset + it.size * idx) % PTR_MOD)) 0
            + ((S q).jmlist m).size := h2
        have := hag x (by omega) (by omega)
        rw [move_backward_mem] at this
        exact this) rfl
    have hkv : kvs' = (List.range (S q).jmhead.idx).map
        (fun i => (((S q).jmlist i).key, outs i)) := by
      apply list_eq_range_map_of_getD kvs' _ _ ([], .null) hlen
      intro k hk'
      rw [hk k hk', Nat.zero_add, hL k hk']
      rfl
    refine ⟨jmap_struct_move_backward ws' q it.size idx, ?_⟩
    rw [ser_wrapper_keep lib fuel hp it idx ws (by rw [hbase]; exact h0) hrule hcb, haddrs]
    simp only [to_json_by_type, hty, hsub, jmap_to_json_object_with, Json.is_null,
      Json.is_object]
    simp only [node_base, set_now_vptr_mappers, record_visit_mappers, hst, hn3,
      move_forward_ctx, set_start_addr_ctx]
    simp only [Bool.false_eq_true, if_false, Bool.not_true]
    rw [hloop]
    simp [hkv]



/-- A conforming array value comes back. -/
theorem back_array (lib : JsonLib) (S : Nat → jxs_mapper) (rank : Nat → Nat)
    (fuel hp start : Nat) (it : jmap_item_t) (idx : Nat) (xs : List Json) (outs : Nat → Json)
    (h0 : base_of start it ≠ 0) (hrule : it.rule = JXS_RULE_KEEP_RAW)
    (hnw : node_lo start it idx + it.size ≤ PTR_MOD)
    (hty : it.type = jxs_type.array)
    (hdep : it.arr.cur_depth < it.arr.depth) (hd0 : it.arr.deptab.getD 0 0 ≠ 0)
    (hsz : it.size / it.arr.deptab.getD 0 0 ≠ 0)
    (hlen : xs.length = it.arr.deptab.getD 0 0)
    (hb : Below rank it hp)
    (H : ∀ i, i < it.arr.deptab.getD 0 0 →
      Back lib S rank fuel hp start (jmap_array_move_next_dimen it idx) i
        (xs.getD i .null) (outs i)) :
    Back lib S rank (fuel + 1) hp start it idx (.array xs)
      (.array ((List.range (it.arr.deptab.getD 0 0)).map outs)) := by
  intro wt hinvt
  obtain ⟨_, haddr⟩ := addr_of_eq_lo start it idx h0 hnw
  obtain ⟨hesz, helen⟩ := next_dimen_size it idx hdep hd0
  have hsize : it.arr.deptab.getD 0 0 ≤ it.size := by
    by_contra hlt
    exact hsz (Nat.div_eq_of_lt (by omega))
  have hmul : it.size / it.arr.deptab.getD 0 0 * it.arr.deptab.getD 0 0 ≤ it.size :=
    Nat.div_mul_le_self _ _
  have heoff : (jmap_array_move_next_dimen it idx).offset = it.offset + it.size * idx := by
    have : (jmap_array_move_next_dimen it idx).offset
        = (it.offset + it.size * idx) % PTR_MOD := by
      unfold jmap_array_move_next_dimen
      rw [if_neg (by
        intro h
        rcases h with h | h
        · omega
        · exact hd0 h)]
    rw [this]
    apply Nat.mod_eq_of_lt
    unfold node_lo at hnw
    have : 0 < it.size := by omega
    omega
  have hlo0 : node_lo start (jmap_array_move_next_dimen it idx) 0 = node_lo start it idx := by
    unfold node_lo
    rw [heoff]
    omega
  have hlod : node_lo start (jmap_array_move_next_dimen it idx) (0 + it.arr.deptab.getD 0 0)
      ≤ node_lo start it idx + it.size := by
    unfold node_lo
    rw [heoff, hesz, Nat.zero_add]
    omega
  have hstt := hinvt.2.2.1
  have hbaset : node_base wt hp it = base_of start it := by unfold node_base; rw [hstt]
  have haddrt : node_addr wt hp it idx = addr_of start it idx := by
    unfold node_addr; rw [hstt]
  have hinvt1 : WalkInv S rank hp start (record_visit wt (addr_of start it idx) it) :=
    walk_inv_of_mappers_eq hinvt rfl
  obtain ⟨wt', hdeq, _, hout, hser⟩ :=
    array_loop_back lib S rank fuel hp start (jmap_array_move_next_dimen it idx)
      (it.arr.deptab.getD 0 0) xs outs (below_next_dimen hb idx) H
      (it.arr.deptab.getD 0 0) 0 (by omega) _
      (record_visit wt (addr_of start it idx) it).ctx.now_locator
      (record_visit wt (addr_of start it idx) it).ctx.now_fzlocator hinvt1
  refine ⟨wt', ?_, ?_, ?_⟩
  · rw [de_wrapper_unfold lib fuel hp it idx _ wt (by rw [hbaset]; exact h0), haddrt]
    simp only [from_json_by_type, hty, jmap_from_json_array_with, hesz, helen, hsz, hd0,
      Json.is_array, Json.is_null, or_self, if_false, Bool.not_true, Bool.false_eq_true,
      json_object_array_length, hlen]
    rw [hdeq]
    simp
  · intro x hx
    rw [hout x (by omega)]
    rfl
  · intro ws hinv hcb hag
    have hst := hinv.2.2.1
    have hbase : node_base ws hp it = base_of start it := by unfold node_base; rw [hst]
    have haddrs : node_addr ws hp it idx = addr_of start it idx := by
      unfold node_addr; rw [hst]
    have hinv1 : WalkInv S rank hp start
        (set_now_vptr (record_visit ws (addr_of start it idx) it) (addr_of start it idx)) :=
      walk_inv_of_mappers_eq hinv rfl
    obtain ⟨js, ws', hloop, hjl, hjs⟩ := hser _ []
      (set_now_vptr (record_visit ws (addr_of start it idx) it)
        (addr_of start it idx)).ctx.now_locator
      (set_now_vptr (record_visit ws (addr_of start it idx) it)
        (addr_of start it idx)).ctx.now_fzlocator hinv1 hcb (by
        intro x h1 h2
        exact hag x (by omega) (by omega))
    have hjv : js = (List.range (it.arr.deptab.getD 0 0)).map outs := by
      apply list_eq_range_map_of_getD js _ _ .null hjl
      intro k hk
      rw [hjs k hk, Nat.zero_add]
    refine ⟨ws', ?_⟩
    rw [ser_wrapper_keep lib fuel hp it idx ws (by rw [hbase]; exact h0) hrule hcb, haddrs]
    simp only [to_json_by_type, hty, jmap_to_json_array_with, hesz, helen, hsz, hd0,
      Json.is_array, or_self, if_false, Bool.not_true, Bool.false_eq_true]
    rw [hloop]
    simp [hjv]

/-- A value that conforms to a node comes back, from some recursion budget
on. -/
theorem node_back (lib : JsonLib) (S : Nat → jxs_mapper) (rank : Nat → Nat)
    (hS : Acyclic rank S) :
    ∀ (start : Nat) (it : jmap_item_t) (idx : Nat) (doc out : Json),
      Conf lib S start it idx doc out →
      ∀ hp, Below rank it hp →
        ∃ N, ∀ fuel, N ≤ fuel → Back lib S rank fuel hp start it idx doc out := by
  intro start it idx doc out h
  induction h with
  | leaf start it idx doc h0 hr hnw hd =>
    intro hp _
    refine ⟨1, fun fuel hf => ?_⟩
    obtain ⟨f, rfl⟩ : ∃ f, fuel = f + 1 := ⟨fuel - 1, by omega⟩
    exact back_leaf lib S rank f hp start it idx doc h0 hr hnw hd
  | struct start it idx q kvs outs h0 hr hnw hty hsub hkeys _ _ hin hdis ih =>
    intro hp hb
    obtain ⟨N, hN⟩ := uniform_bound (S q).jmhead.idx
      (fun i fuel => Back lib S rank fuel q (base_of start it)
        (set_offset ((S q).jmlist i) ((((S q).jmlist i).offset + it.size * idx) % PTR_MOD)) 0
        (kvs_get kvs ((S q).jmlist i).key) (outs i))
      (fun i hi => ih i hi q (fun r hr => hS q i r hi hr))
    refine ⟨N + 1, fun fuel hf => ?_⟩
    obtain ⟨f, rfl⟩ : ∃ f, fuel = f + 1 := ⟨fuel - 1, by omega⟩
    exact back_struct lib S rank f hp start it idx q kvs outs h0 hr hnw hty hsub (hb q hsub) hS
      hkeys hin hdis (fun i hi => hN f (by omega) i hi)
  | array start it idx xs outs h0 hr hnw hty hdep hd0 hsz hlen _ ih =>
    intro hp hb
    obtain ⟨N, hN⟩ := uniform_bound (it.arr.deptab.getD 0 0)
      (fun i fuel => Back lib S rank fuel hp start (jmap_array_move_next_dimen it idx) i
        (xs.getD i .null) (outs i))
      (fun i hi => ih i hi hp (below_next_dimen hb idx))
    refine ⟨N + 1, fun fuel hf => ?_⟩
    obtain ⟨f, rfl⟩ : ∃ f, fuel = f + 1 := ⟨fuel - 1, by omega⟩
    exact back_array lib S rank f hp start it idx xs outs h0 hr hnw hty hdep hd0 hsz hlen hb
      (fun i hi => hN f (by omega) i hi)



theorem kvs_get_of_mem (l : List (List Char × Json)) (k : List Char) (v : Json)
    (hnd : (l.map Prod.fst).Nodup) (hm : (k, v) ∈ l) : kvs_get l k = v := by
  induction l with
  | nil => cases hm
  | cons hd tl ih =>
    obtain ⟨k', v'⟩ := hd
    simp only [List.map_cons, List.nodup_cons] at hnd
    simp only [kvs_get]
    rcases List.mem_cons.1 hm with h | h
    · cases h
      simp
    · have hne : k' ≠ k := by
        intro e
        apply hnd.1
        rw [e]
        exact List.mem_map.2 ⟨(k, v), h, rfl⟩
      rw [if_neg hne]
      exact ih hnd.2 h

/-- Lookup in the entries of the nodes of a tree, listed in declaration order
under pairwise distinct keys. -/
theorem kvs_get_entries (L : Nat → jmap_item_t) (n : Nat) (outs : Nat → Json)
    (hkeys : ∀ i j, i < n → j < n → i ≠ j → (L i).key ≠ (L j).key) :
    (∀ i, i < n → kvs_get ((List.range n).map (fun i => ((L i).key, outs i))) (L i).key
      = outs i) ∧
    ∀ k, k ∈ ((List.range n).map (fun i => ((L i).key, outs i))).map Prod.fst ↔
      ∃ i, i < n ∧ (L i).key = k := by
  have hnd : (((List.range n).map (fun i => ((L i).key, outs i))).map Prod.fst).Nodup := by
    rw [List.map_map]
    apply List.Nodup.map_on _ (List.nodup_range n)
    intro a ha b hb hab
    by_contra hne
    exact hkeys a b (List.mem_range.1 ha) (List.mem_range.1 hb) hne hab
  refine ⟨fun i hi => ?_, fun k => ?_⟩
  · apply kvs_get_of_mem _ _ _ hnd
    exact List.mem_map.2 ⟨i, List.mem_range.2 hi, rfl⟩
  · rw [List.map_map]
    constructor
    · intro h
      obtain ⟨i, hi, hk⟩ := List.mem_map.1 h
      exact ⟨i, List.mem_range.1 hi, hk⟩
    · intro ⟨i, hi, hk⟩
      exact List.mem_map.2 ⟨i, List.mem_range.2 hi, hk⟩

theorem json_eq_entries (L : Nat → jmap_item_t) (n : Nat) (kvs : List (List Char × Json))
    (outs : Nat → Json)
    (hkeys : ∀ i j, i < n → j < n → i ≠ j → (L i).key ≠ (L j).key)
    (hexact : ∀ k, k ∈ kvs.map Prod.fst ↔ ∃ i, i < n ∧ (L i).key = k)
    (hval : ∀ i, i < n → JsonEq (outs i) (kvs_get kvs (L i).key)) :
    JsonEq (.object ((List.range n).map (fun i => ((L i).key, outs i)))) (.object kvs) := by
  obtain ⟨hget, hmem⟩ := kvs_get_entries L n outs hkeys
  apply JsonEq.object
  · intro k
    rw [hmem k, hexact k]
  · intro k
    by_cases hk : ∃ i, i < n ∧ (L i).key = k
    · obtain ⟨i, hi, rfl⟩ := hk
      rw [hget i hi]
      exact hval i hi
    · have h1 : kvs_get ((List.range n).map (fun i => ((L i).key, outs i))) k = .null := by
        apply kvs_get_absent
        intro kv hkv he
        exact hk ((hmem k).1 (List.mem_map.2 ⟨kv, hkv, he⟩))
      have h2 : kvs_get kvs k = .null := by
        apply kvs_get_absent
        intro kv hkv he
        exact hk ((hexact k).1 (List.mem_map.2 ⟨kv, hkv, he⟩))
      rw [h1, h2]
      exact JsonEq.refl _

/-- The document in declaration order is equal, as a document, to the
conforming document it comes from. -/
theorem conf_json_eq (lib : JsonLib) (S : Nat → jxs_mapper) :
    ∀ (start : Nat) (it : jmap_item_t) (idx : Nat) (doc out : Json),
      Conf lib S start it idx doc out → JsonEq out doc := by
  intro start it idx doc out h
  induction h with
  | leaf => exact JsonEq.refl _
  | struct start it idx q kvs outs _ _ _ _ _ hkeys hexact _ _ _ ih =>
    exact json_eq_entries (S q).jmlist (S q).jmhead.idx kvs outs hkeys hexact ih
  | array start it idx xs outs _ _ _ _ _ _ _ hlen _ ih =>
    apply JsonEq.array
    · simp [hlen]
    · intro i hi
      simp only [List.length_map, List.length_range] at hi
      rw [List.getD_eq_getElem _ _ (by simpa using hi)]
      simp only [List.getElem_map, List.getElem_range]
      exact ih i hi

/-- Claim C25, amended: in a store whose sub-tree references are well-founded
and whose offsets are 64-bit patterns, without dynamic callback, let `doc`
conform to tree `p` (`ConfTree`: rule keep-as-is everywhere; boolean, integer,
floating and text leaves of supported widths, sub-structures and arrays; no
field at address `NULL` or outside the address space; the keys of each tree
pairwise distinct and the fields of its nodes inside the enclosing element and
not overlapping; each object with exactly the described keys, each array of
exactly the declared length, each text shorter than its field and free of NUL
bytes, each integer inside the range of its width, each floating value
representable in its width, booleans false or true).  Then there is a recursion
budget from which on `jmap_from_json_object` of `doc` into any target memory `t`
returns 0, and `jmap_to_json_object` of the memory it leaves returns 0 with the
document `out`, which is `doc` with the entries of each object in declaration
order: a document equal to `doc`. -/
theorem c25_document_round_trip (lib : JsonLib) (rank : Nat → Nat) (w : World) (t : Mem)
    (p : Nat) (doc out : Json) (hac : Acyclic rank w.mappers) (hoff : OffsOK w.mappers)
    (hcb : w.ctx.convert_callback = none) (hconf : ConfTree lib w.mappers p doc out) :
    JsonEq out doc ∧
    ∃ N, ∀ fuel, N ≤ fuel →
      ∃ w1 w2,
        jmap_from_json_object lib fuel p doc (set_mem w t) = some (0, w1) ∧
        jmap_to_json_object lib fuel p (.object []) (set_mem w w1.mem) = some (0, out, w2) ∧
        round_trip_doc lib fuel p w t doc = some (0, 0, out) := by
  obtain ⟨kvs, outs, hdoc, hout, hkeys, hexact, hnodes, hdis⟩ := hconf
  subst hdoc hout
  refine ⟨json_eq_entries _ _ kvs outs hkeys hexact
    (fun i hi => conf_json_eq lib _ _ _ _ _ _ (hnodes i hi)), ?_⟩
  obtain ⟨N, hN⟩ := uniform_bound (w.mappers p).jmhead.idx
    (fun i fuel => Back lib w.mappers rank fuel p (w.mappers p).jmhead.start_addr
      ((w.mappers p).jmlist i) 0 (kvs_get kvs ((w.mappers p).jmlist i).key) (outs i))
    (fun i hi => node_back lib w.mappers rank hac _ _ _ _ _ (hnodes i hi) p
      (fun r hr => hac p i r hi hr))
  refine ⟨N, fun fuel hf => ?_⟩
  have hinv : WalkInv w.mappers rank p (w.mappers p).jmhead.start_addr w :=
    ⟨hac, hoff, rfl, fun r _ => ⟨rfl, rfl⟩⟩
  obtain ⟨w1, hdeq, _, _, hser⟩ :=
    object_loop_back lib w.mappers rank fuel p (w.mappers p).jmhead.start_addr
      (w.mappers p).jmlist (w.mappers p).jmhead.idx (.object kvs) outs hkeys
      (fun i hi r hr => hac p i r hi hr) hdis (fun i hi => hN fuel hf i hi)
      (w.mappers p).jmhead.idx 0 (by omega) (set_mem w t) w.ctx.now_locator
      w.ctx.now_fzlocator (walk_inv_of_mappers_eq hinv rfl) rfl
  obtain ⟨kvs', w2, hloop, _, hlen, hk⟩ := hser (set_mem w w1.mem) [] w.ctx.now_locator
    w.ctx.now_fzlocator (walk_inv_of_mappers_eq hinv rfl) rfl hcb (fun _ _ _ _ _ _ => rfl) rfl
  have hkv : kvs' = (List.range (w.mappers p).jmhead.idx).map
      (fun i => (((w.mappers p).jmlist i).key, outs i)) := by
    apply list_eq_range_map_of_getD kvs' _ _ ([], .null) hlen
    intro k hk'
    rw [hk k hk', Nat.zero_add]
  have h1 : jmap_from_json_object lib fuel p (.object kvs) (set_mem w t) = some (0, w1) := by
    simp only [jmap_from_json_object, jmap_from_json_object_with, Json.is_null,
      Bool.false_eq_true, if_false]
    exact hdeq
  have h2 : jmap_to_json_object lib fuel p (.object []) (set_mem w w1.mem)
      = some (0, .object ((List.range (w.mappers p).jmhead.idx).map
          (fun i => (((w.mappers p).jmlist i).key, outs i))), w2) := by
    simp only [jmap_to_json_object, jmap_to_json_object_with, Json.is_null, Json.is_object,
      Bool.false_eq_true, if_false, Bool.not_true]
    rw [← hkv]
    exact hloop
  refine ⟨w1, w2, h1, h2, ?_⟩
  unfold round_trip_doc
  rw [h1]
  simp only []
  rw [h2]
  rfl



theorem json_int_ne (a b : Int) (h : a ≠ b) : ¬ JsonEq (.int a) (.int b) := by
  intro he
  cases he
  exact h rfl

theorem json_string_ne (a b : List Nat) (h : a ≠ b) : ¬ JsonEq (.string a) (.string b) := by
  intro he
  cases he
  exact h rfl

theorem pigeonhole_mod (N : Nat) (hN : 0 < N) (f : Nat → Nat) :
    ∃ x y, x ≤ N ∧ y ≤ N ∧ x ≠ y ∧ f x % N = f y % N := by
  obtain ⟨x, hx, y, hy, hxy, hf⟩ :=
    Finset.exists_ne_map_eq_of_card_lt_of_maps_to
      (show (Finset.range N).card < (Finset.range (N + 1)).card by
        rw [Finset.card_range, Finset.card_range]; omega)
      (fun a _ => Finset.mem_range.2 (Nat.mod_lt (f a) hN))
  exact ⟨x, y, by have := Finset.mem_range.1 hx; omega, by have := Finset.mem_range.1 hy; omega,
    hxy, hf⟩

/-- The narrowing of a binary64 pattern to 4 bytes loses values, whatever the
conversions are: some value does not come back from a floating field of width
4. -/
theorem float_field_loses (lib : JsonLib) :
    ∃ b, b < 2 ^ 64 ∧ ∀ (mem m' : Mem) (a : Nat),
      from_json_scalar lib mem .double 4 a (.double b) = some m' →
      to_json_scalar lib m' .double 4 a ≠ some (.double b) := by
  obtain ⟨x, y, hx, hy, hne, hfv⟩ := pigeonhole_mod (256 ^ 4) (by norm_num) lib.f64_to_f32
  have key : ∀ b : Nat, ∀ (mem m' : Mem) (a : Nat),
      from_json_scalar lib mem .double 4 a (.double b) = some m' →
      to_json_scalar lib m' .double 4 a
        = some (.double (lib.f32_to_f64 (lib.f64_to_f32 b % 256 ^ 4))) := by
    intro b mem m' a hm
    have hm2 : from_json_scalar lib mem .double 4 a (.double b)
        = some (write_le mem a 4 (lib.f64_to_f32 b)) := rfl
    rw [hm2] at hm
    cases hm
    have hr := read_le_after_write mem (write_le mem a 4 (lib.f64_to_f32 b)) a 4
      (lib.f64_to_f32 b) (fun _ _ _ => rfl)
    have hs2 : to_json_scalar lib (write_le mem a 4 (lib.f64_to_f32 b)) .double 4 a
        = some (.double (lib.f32_to_f64 (read_le (write_le mem a 4 (lib.f64_to_f32 b)) a 4))) :=
      rfl
    rw [hs2, hr]
  have hb64 : ∀ z, z ≤ 256 ^ 4 → z < 2 ^ 64 := by
    intro z hz
    have : (256 : Nat) ^ 4 < 2 ^ 64 := by norm_num
    omega
  by_cases hxx : lib.f32_to_f64 (lib.f64_to_f32 x % 256 ^ 4) = x
  · refine ⟨y, hb64 y hy, fun mem m' a hm => ?_⟩
    rw [key y mem m' a hm, ← hfv, hxx]
    intro h
    simp only [Option.some.injEq, Json.double.injEq] at h
    exact hne h
  · refine ⟨x, hb64 x hx, fun mem m' a hm => ?_⟩
    rw [key x mem m' a hm]
    intro h
    simp only [Option.some.injEq, Json.double.injEq] at h
    exact hxx h

/-- Claim C25 as stated fails.  For the tree of `bld_union`, whose fields `a`
and `b` share their four bytes, the document `{"a": 1, "b": 2}` comes back as
`{"a": 2, "b": 2}`.  For a text field of 4 bytes, the text of the three bytes
`a`, NUL, `b` comes back as `a`.  And a floating field of width 4 does not give
every binary64 value back, whatever the conversions between the two formats
are.  Each of the two documents has exactly the described keys and values that
fit the fields, and both calls return 0. -/
theorem c25_counterexample_overlap_nul_narrowing :
    (round_trip_doc lib0 1 0 world_union mem_zero
        (.object [([Char.ofNat 97], .int 1), ([Char.ofNat 98], .int 2)])
      = some (0, 0, .object [([Char.ofNat 97], .int 2), ([Char.ofNat 98], .int 2)]) ∧
     ¬ JsonEq (.object [([Char.ofNat 97], .int 2), ([Char.ofNat 98], .int 2)])
        (.object [([Char.ofNat 97], .int 1), ([Char.ofNat 98], .int 2)])) ∧
    (round_trip_doc lib0 1 0 world_text4 mem_zero
        (.object [([Char.ofNat 116], .string [97, 0, 98])])
      = some (0, 0, .object [([Char.ofNat 116], .string [97])]) ∧
     ¬ JsonEq (.object [([Char.ofNat 116], .string [97])])
        (.object [([Char.ofNat 116], .string [97, 0, 98])])) ∧
    (∀ lib : JsonLib, ∃ b, b < 2 ^ 64 ∧ ∀ (mem m' : Mem) (a : Nat),
      from_json_scalar lib mem .double 4 a (.double b) = some m' →
      to_json_scalar lib m' .double 4 a ≠ some (.double b)) := by
  refine ⟨⟨rfl, ?_⟩, ⟨rfl, ?_⟩, float_field_loses⟩
  · intro h
    cases h with
    | object _ _ _ hv =>
      exact json_int_ne 2 1 (by decide) (hv [Char.ofNat 97])
  · intro h
    cases h with
    | object _ _ _ hv =>
      exact json_string_ne [97] [97, 0, 98] (by decide) (hv [Char.ofNat 116])



theorem exact_keys_of_eq (L : Nat → jmap_item_t) (n : Nat) (kvs : List (List Char × Json))
    (h : kvs.map Prod.fst = (List.range n).map (fun i => (L i).key)) :
    ∀ k, k ∈ kvs.map Prod.fst ↔ ∃ i, i < n ∧ (L i).key = k := by
  intro k
  rw [h]
  constructor
  · intro hk
    obtain ⟨i, hi, he⟩ := List.mem_map.1 hk
    exact ⟨i, List.mem_range.1 hi, he⟩
  · intro ⟨i, hi, he⟩
    exact List.mem_map.2 ⟨i, List.mem_range.2 hi, he⟩

theorem world_rec_sub_keys : ∀ i j, i < (world_rec.mappers 5).jmhead.idx →
    j < (world_rec.mappers 5).jmhead.idx → i ≠ j →
    ((world_rec.mappers 5).jmlist i).key ≠ ((world_rec.mappers 5).jmlist j).key := by
  intro i j hi hj hij
  have hi2 : i < 2 := hi
  have hj2 : j < 2 := hj
  interval_cases i <;> interval_cases j <;> first | exact absurd rfl hij | decide

/-- An element of the array `s` of `bld_rec`: the object with a boolean `b` and
an integer `c` of one byte conforms. -/
theorem world_rec_conf_pair (k : Nat) (hk : k < 2) (b c : Int) (hb : b = 0 ∨ b = 1)
    (hc1 : -128 ≤ c) (hc2 : c < 128) :
    Conf lib0 world_rec.mappers 100
      (jmap_array_move_next_dimen ((world_rec.mappers 0).jmlist 1) 0) k
      (.object [([Char.ofNat 98], .boolean b), ([Char.ofNat 99], .int c)])
      (.object [([Char.ofNat 98], .boolean b), ([Char.ofNat 99], .int c)]) := by
  have hleafb : leaf_conf lib0 .boolean 1 (.boolean b) := by
    refine ⟨Or.inr rfl, ?_⟩
    rcases hb with h | h <;> subst h
    · exact Or.inl rfl
    · exact Or.inr rfl
  have hleafc : leaf_conf lib0 .int 1 (.int c) :=
    ⟨Or.inr (Or.inr (Or.inr rfl)), c, rfl, by norm_num; omega, by norm_num; omega⟩
  have hk01 : k = 0 ∨ k = 1 := by omega
  rcases hk01 with rfl | rfl
  · exact @Conf.struct lib0 world_rec.mappers 100
      (jmap_array_move_next_dimen ((world_rec.mappers 0).jmlist 1) 0) 0 5
      [([Char.ofNat 98], .boolean b), ([Char.ofNat 99], .int c)]
      (fun i => [Json.boolean b, Json.int c].getD i .null)
      (by decide) (by decide) (by decide) (by decide) (by decide)
      world_rec_sub_keys
      (exact_keys_of_eq _ 2 _ rfl)
      (by
        intro i hi
        have hi2 : i < 2 := hi
        interval_cases i
        · exact Conf.leaf _ _ _ (.boolean b) (by decide) (by decide) (by decide) hleafb
        · exact Conf.leaf _ _ _ (.int c) (by decide) (by decide) (by decide) hleafc)
      (by
        intro i hi
        have hi2 : i < 2 := hi
        interval_cases i <;> decide)
      (by
        intro i j hi hj hij
        have hi2 : i < 2 := hi
        have hj2 : j < 2 := hj
        interval_cases i <;> interval_cases j <;> first | exact absurd rfl hij | decide)
  · exact @Conf.struct lib0 world_rec.mappers 100
      (jmap_array_move_next_dimen ((world_rec.mappers 0).jmlist 1) 0) 1 5
      [([Char.ofNat 98], .boolean b), ([Char.ofNat 99], .int c)]
      (fun i => [Json.boolean b, Json.int c].getD i .null)
      (by decide) (by decide) (by decide) (by decide) (by decide)
      world_rec_sub_keys
      (exact_keys_of_eq _ 2 _ rfl)
      (by
        intro i hi
        have hi2 : i < 2 := hi
        interval_cases i
        · exact Conf.leaf _ _ _ (.boolean b) (by decide) (by decide) (by decide) hleafb
        · exact Conf.leaf _ _ _ (.int c) (by decide) (by decide) (by decide) hleafc)
      (by
        intro i hi
        have hi2 : i < 2 := hi
        interval_cases i <;> decide)
      (by
        intro i j hi hj hij
        have hi2 : i < 2 := hi
        have hj2 : j < 2 := hj
        interval_cases i <;> interval_cases j <;> first | exact absurd rfl hij | decide)

/-- The document `doc_rec` conforms to the tree of `bld_rec` and lists its
entries in declaration order. -/
theorem world_rec_conf : ConfTree lib0 world_rec.mappers 0 doc_rec doc_rec := by
  refine ⟨[([Char.ofNat 110], .int 7),
      ([Char.ofNat 115], .array [
        .object [([Char.ofNat 98], .boolean 1), ([Char.ofNat 99], .int (-1))],
        .object [([Char.ofNat 98], .boolean 0), ([Char.ofNat 99], .int 3)]]),
      ([Char.ofNat 118], .array [.int (-2), .int 5]),
      ([Char.ofNat 116], .string [104, 105])],
    fun i => [Json.int 7,
      .array [
        .object [([Char.ofNat 98], .boolean 1), ([Char.ofNat 99], .int (-1))],
        .object [([Char.ofNat 98], .boolean 0), ([Char.ofNat 99], .int 3)]],
      .array [.int (-2), .int 5], .string [104, 105]].getD i .null,
    rfl, rfl, ?_, exact_keys_of_eq _ 4 _ (by decide), ?_, ?_⟩
  · intro i j hi hj hij
    have hi4 : i < 4 := hi
    have hj4 : j < 4 := hj
    interval_cases i <;> interval_cases j <;> first | exact absurd rfl hij | decide
  · intro i hi
    have hi4 : i < 4 := hi
    interval_cases i
    · refine Conf.leaf _ _ _ (.int 7) (by decide) (by decide) (by decide) ?_
      show leaf_conf lib0 .int 4 (.int 7)
      exact ⟨Or.inr (Or.inl rfl), 7, rfl, by decide, by decide⟩
    · exact @Conf.array lib0 world_rec.mappers 100
        ((world_rec.mappers 0).jmlist 1) 0
        [.object [([Char.ofNat 98], .boolean 1), ([Char.ofNat 99], .int (-1))],
         .object [([Char.ofNat 98], .boolean 0), ([Char.ofNat 99], .int 3)]]
        (fun i => [Json.object [([Char.ofNat 98], .boolean 1), ([Char.ofNat 99], .int (-1))],
          Json.object [([Char.ofNat 98], .boolean 0), ([Char.ofNat 99], .int 3)]].getD i .null)
        (by decide) (by decide) (by decide) (by decide) (by decide) (by decide) (by decide)
        (by decide)
        (by
          intro k hk
          have hk2 : k < 2 := hk
          interval_cases k
          · exact world_rec_conf_pair 0 (by decide) 1 (-1) (Or.inr rfl) (by decide) (by decide)
          · exact world_rec_conf_pair 1 (by decide) 0 3 (Or.inl rfl) (by decide) (by decide))
    · exact @Conf.array lib0 world_rec.mappers 100
        ((world_rec.mappers 0).jmlist 2) 0 [.int (-2), .int 5]
        (fun i => [Json.int (-2), Json.int 5].getD i .null)
        (by decide) (by decide) (by decide) (by decide) (by decide) (by decide) (by decide)
        (by decide)
        (by
          intro k hk
          have hk2 : k < 2 := hk
          interval_cases k
          · refine Conf.leaf _ _ _ (.int (-2)) (by decide) (by decide) (by decide) ?_
            show leaf_conf lib0 .int 2 (.int (-2))
            exact ⟨Or.inr (Or.inr (Or.inl rfl)), -2, rfl, by decide, by decide⟩
          · refine Conf.leaf _ _ _ (.int 5) (by decide) (by decide) (by decide) ?_
            show leaf_conf lib0 .int 2 (.int 5)
            exact ⟨Or.inr (Or.inr (Or.inl rfl)), 5, rfl, by decide, by decide⟩)
    · refine Conf.leaf _ _ _ (.string [104, 105]) (by decide) (by decide) (by decide) ?_
      show leaf_conf lib0 .string 4 (.string [104, 105])
      exact ⟨[104, 105], rfl, by decide, by decide⟩
  · intro i j hi hj hij
    have hi4 : i < 4 := hi
    have hj4 : j < 4 := hj
    interval_cases i <;> interval_cases j <;> first | exact absurd rfl hij | decide

/-- Witness of `c25_document_round_trip`: the tree of `bld_rec` (an integer, an
array of two sub-structures, an array of two integers, a text) and the
document `doc_rec`, deserialized into zeroed memory. -/
theorem c25_document_round_trip_witness :
    JsonEq doc_rec doc_rec ∧
    ∃ N, ∀ fuel, N ≤ fuel →
      ∃ w1 w2,
        jmap_from_json_object lib0 fuel 0 doc_rec (set_mem world_rec mem_zero) = some (0, w1) ∧
        jmap_to_json_object lib0 fuel 0 (.object []) (set_mem world_rec w1.mem)
          = some (0, doc_rec, w2) ∧
        round_trip_doc lib0 fuel 0 world_rec mem_zero doc_rec = some (0, 0, doc_rec) :=
  c25_document_round_trip lib0 rank_rec world_rec mem_zero 0 doc_rec doc_rec world_rec_acyclic
    world_rec_offs rfl world_rec_conf



/-! ## Claims C38 and C32: containers under static rules, the one-shot override -/

theorem value_is_empty_container (mem : Mem) (t : jxs_type) (size vptr : Nat)
    (ht : t = jxs_type.struct ∨ t = jxs_type.array) : value_is_empty mem t size vptr = false := by
  rcases ht with h | h <;> subst h <;> rfl

/-- C38: for a node whose type is sub-structure or array, with a non-zero
static rule, `jmap_convert_handler` returns Keep on every visit without
override (no callback registered, or a callback that leaves the override slot
at 0), whatever the static rule and whatever the memory holds; and on a visit
on which the callback sets the override drop or force-null, the action is
Delete or Set: only a dynamic override deletes or nulls a container. -/
theorem c38_static_rule_keeps_container (w : World) (jmitem : jmap_item_t) (vptr : Nat)
    (ht : jmitem.type = jxs_type.struct ∨ jmitem.type = jxs_type.array)
    (hrule : jmitem.rule ≠ 0) :
    (override_of w vptr = 0 →
      (jmap_convert_handler w jmitem vptr).1 = item_action.RULE_ITEM_KEEP) ∧
    (∀ cb, w.ctx.convert_callback = some cb →
      ((cb (cb_view w vptr)).rule = some JXS_RULE_DROP_SELF →
        (jmap_convert_handler w jmitem vptr).1 = item_action.RULE_ITEM_DELETE) ∧
      ((cb (cb_view w vptr)).rule = some JXS_RULE_SET_NULL →
        (jmap_convert_handler w jmitem vptr).1 = item_action.RULE_ITEM_SET)) := by
  refine ⟨fun hov => ?_, fun cb hcb => ⟨fun hset => ?_, fun hset => ?_⟩⟩
  · rw [handler_no_override w jmitem vptr hrule hov,
      value_is_empty_container _ _ _ _ ht]
    simp
  · rw [handler_override w jmitem vptr cb JXS_RULE_DROP_SELF hrule hcb hset (Or.inr (Or.inr rfl))]
    decide
  · rw [handler_override w jmitem vptr cb JXS_RULE_SET_NULL hrule hcb hset (Or.inr (Or.inl rfl))]
    decide

/-- Witness for C38: the array field `int32_t v[2]` with static rule drop, all
its bytes zero, no callback registered: the action is Keep. -/
theorem c38_static_rule_keeps_container_witness :
    (jmap_convert_handler (world_of_items [item_arr_drop] mem_zero none) item_arr_drop 100).1
      = item_action.RULE_ITEM_KEEP :=
  (c38_static_rule_keeps_container (world_of_items [item_arr_drop] mem_zero none) item_arr_drop
    100 (Or.inr rfl) (by decide)).1 rfl

theorem handler_slot_zero (w : World) (it : jmap_item_t) (v : Nat)
    (h : w.ctx.convert_rule = 0) : (jmap_convert_handler w it v).2.ctx.convert_rule = 0 := by
  rw [handler_snd]; unfold handler_world
  by_cases hr : it.rule = 0
  · simp only [hr, if_true]; exact h
  · simp only [hr, if_false]
    cases hcb : w.ctx.convert_callback with
    | none => exact h
    | some cb => rfl

/-- A serialization wrapper call that starts with the override slot at 0 ends
with the override slot at 0. -/
theorem ser_wrapper_slot_zero (lib : JsonLib) (fuel hp : Nat) (it : jmap_item_t) (idx : Nat)
    (w : World) (r : Int × Json × World)
    (h : jmap_to_json_warpper lib fuel hp it idx w = some r) :
    w.ctx.convert_rule = 0 → r.2.2.ctx.convert_rule = 0 :=
  ser_wrapper_rel lib (fun a b => a.ctx.convert_rule = 0 → b.ctx.convert_rule = 0)
    (fun _ h => h) (fun _ _ _ h1 h2 h => h2 (h1 h))
    (fun _ _ _ h => h) (fun _ _ _ h => h) handler_slot_zero
    (fun _ _ _ _ _ h => h) (fun _ _ _ _ h => h) fuel hp it idx w r h

/-- C32: the dynamic override is one-shot.  After a call of
`jmap_convert_handler` made with a registered callback for a node with a
non-zero static rule, the override slot of the context is 0.  A serialization
wrapper call that starts with the slot at 0 ends with the slot at 0.  And on a
visit that starts with the slot at 0 and on which the callback does not set an
override, the action is the one the static rule gives (the action of the same
call without a callback, on the memory the callback leaves). -/
theorem c32_override_is_one_shot (w : World) (jmitem : jmap_item_t) (vptr : Nat)
    (cb : CbView → CbEffect) (hcb : w.ctx.convert_callback = some cb)
    (hrule : jmitem.rule ≠ 0) :
    (jmap_convert_handler w jmitem vptr).2.ctx.convert_rule = 0 ∧
    (∀ (lib : JsonLib) (fuel hp : Nat) (it : jmap_item_t) (idx : Nat) (w1 : World)
        (r : Int × Json × World),
      jmap_to_json_warpper lib fuel hp it idx w1 = some r →
      w1.ctx.convert_rule = 0 → r.2.2.ctx.convert_rule = 0) ∧
    (∀ (w1 : World) (it : jmap_item_t) (v : Nat) (cb1 : CbView → CbEffect),
      w1.ctx.convert_rule = 0 → w1.ctx.convert_callback = some cb1 →
      (cb1 (cb_view w1 v)).rule = none →
      (jmap_convert_handler w1 it v).1 =
        (jmap_convert_handler
          { w1 with ctx := { w1.ctx with convert_callback := none },
                    mem := (cb1 (cb_view w1 v)).mem } it v).1) := by
  refine ⟨?_, fun lib fuel hp it idx w1 r h => ser_wrapper_slot_zero lib fuel hp it idx w1 r h,
    ?_⟩
  · rw [handler_snd]
    simp only [handler_world, hrule, if_false, hcb]
  · intro w1 it v cb1 h0 hcb1 hnone
    by_cases hr : it.rule = 0
    · rw [handler_rule_zero _ _ _ hr, handler_rule_zero _ _ _ hr]
    · have hov : override_of w1 v = 0 := by
        simp only [override_of, hcb1, hnone]
        exact h0
      rw [handler_no_override w1 it v hr hov, handler_no_callback _ it v hr rfl]
      simp only [handler_world, hr, if_false, hcb1]

/-- Witness for C32: after the visit of the field `b` with the callback
`cb_drop_all` registered, which sets the override drop, the override slot of
the context is 0 again. -/
theorem c32_override_is_one_shot_witness :
    (jmap_convert_handler (world_of_items [item_int_rule0, item_b_keep] mem_zero
      (some cb_drop_all)) item_b_keep 104).2.ctx.convert_rule = 0 :=
  (c32_override_is_one_shot (world_of_items [item_int_rule0, item_b_keep] mem_zero
    (some cb_drop_all)) item_b_keep 104 cb_drop_all rfl (by decide)).1



/-! ## Claim C34: a depth error aborts the conversion of the array node -/

theorem next_dimen_depth_error (it : jmap_item_t) (idx : Nat)
    (h : it.arr.cur_depth ≥ it.arr.depth ∨ it.arr.deptab.getD 0 0 = 0) :
    jmap_array_move_next_dimen it idx = jmap_item_zero := by
  unfold jmap_array_move_next_dimen
  rw [if_pos h]

theorem next_dimen_size_zero (it : jmap_item_t) (idx : Nat)
    (h : it.arr.cur_depth ≥ it.arr.depth ∨ it.arr.deptab.getD 0 0 = 0 ∨
      it.size / it.arr.deptab.getD 0 0 = 0) :
    (jmap_array_move_next_dimen it idx).size = 0 := by
  unfold jmap_array_move_next_dimen
  split
  · rfl
  · rename_i hn
    rcases h with h | h | h
    · exact absurd (Or.inl h) hn
    · exact absurd (Or.inr h) hn
    · exact h

/-- C34: let `jmitem` be an array node, not at address `NULL`, whose current
depth is not below its depth, or whose outer dimension is 0, or whose slice
size `size / deptab[0]` is 0.  In the first two cases
`jmap_array_move_next_dimen` gives the all-zero node.  In all three cases
`jmap_to_json_array` and `jmap_from_json_array` on the derived node return -1;
the serialization wrapper returns -1 for `jmitem` whenever its rule engine
neither deletes nor nulls the node (so that the derived node is computed); and
the deserialization wrapper returns -1 for `jmitem` whenever the document
value for it is not `null`. -/
theorem c34_depth_error_aborts (lib : JsonLib) (fuel hp : Nat) (jmitem : jmap_item_t)
    (idx : Nat) (w : World) (ht : jmitem.type = jxs_type.array)
    (h0 : node_base w hp jmitem ≠ 0)
    (herr : jmitem.arr.cur_depth ≥ jmitem.arr.depth ∨ jmitem.arr.deptab.getD 0 0 = 0 ∨
      jmitem.size / jmitem.arr.deptab.getD 0 0 = 0) :
    (jmitem.arr.cur_depth ≥ jmitem.arr.depth ∨ jmitem.arr.deptab.getD 0 0 = 0 →
      jmap_array_move_next_dimen jmitem idx = jmap_item_zero) ∧
    (∀ (arrjso : Json) (w1 : World),
      jmap_to_json_array lib fuel hp (jmap_array_move_next_dimen jmitem idx) arrjso w1
        = some (-1, arrjso, w1)) ∧
    (∀ (arrjso : Json) (w1 : World),
      jmap_from_json_array lib fuel hp (jmap_array_move_next_dimen jmitem idx) arrjso w1
        = some (-1, w1)) ∧
    ((jmap_convert_handler (record_visit w (node_addr w hp jmitem idx) jmitem) jmitem
        (node_addr w hp jmitem idx)).1 ≠ item_action.RULE_ITEM_DELETE →
     (jmap_convert_handler (record_visit w (node_addr w hp jmitem idx) jmitem) jmitem
        (node_addr w hp jmitem idx)).1 ≠ item_action.RULE_ITEM_SET →
     ∃ w1, jmap_to_json_warpper lib (fuel + 1) hp jmitem idx w = some (-1, .null, w1)) ∧
    (∀ item_jso : Json, item_jso.is_null = false →
      ∃ w1, jmap_from_json_warpper lib (fuel + 1) hp jmitem idx item_jso w = some (-1, w1)) := by
  have hsz := next_dimen_size_zero jmitem idx herr
  have hser : ∀ (arrjso : Json) (w1 : World),
      jmap_to_json_array lib fuel hp (jmap_array_move_next_dimen jmitem idx) arrjso w1
        = some (-1, arrjso, w1) := by
    intro arrjso w1
    unfold jmap_to_json_array jmap_to_json_array_with
    rw [if_pos (Or.inl hsz)]
  have hde : ∀ (arrjso : Json) (w1 : World),
      jmap_from_json_array lib fuel hp (jmap_array_move_next_dimen jmitem idx) arrjso w1
        = some (-1, w1) := by
    intro arrjso w1
    unfold jmap_from_json_array jmap_from_json_array_with
    split
    · rfl
    · rw [if_pos (Or.inl hsz)]
  refine ⟨next_dimen_depth_error jmitem idx, hser, hde, ?_, ?_⟩
  · intro hd hs
    rw [wrapper_unfold lib fuel hp jmitem idx w h0]
    have hty : to_json_by_type lib (jmap_to_json_warpper lib fuel) hp jmitem idx
        (node_addr w hp jmitem idx)
        (handler_world (record_visit w (node_addr w hp jmitem idx) jmitem) jmitem
          (node_addr w hp jmitem idx))
        = some (-1, .null, handler_world (record_visit w (node_addr w hp jmitem idx) jmitem)
            jmitem (node_addr w hp jmitem idx)) := by
      unfold to_json_by_type
      simp only [ht]
      have := hser (.array []) (handler_world (record_visit w (node_addr w hp jmitem idx) jmitem)
        jmitem (node_addr w hp jmitem idx))
      unfold jmap_to_json_array at this
      rw [this]
      rfl
    refine ⟨handler_world (record_visit w (node_addr w hp jmitem idx) jmitem) jmitem
      (node_addr w hp jmitem idx), ?_⟩
    split
    · rename_i heq; exact absurd heq hd
    · rename_i heq; exact absurd heq hs
    · exact hty
  · intro item_jso hj
    rw [de_wrapper_unfold lib fuel hp jmitem idx item_jso w h0]
    unfold from_json_by_type
    simp only [ht, hj, Bool.false_eq_true, if_false]
    have := hde item_jso (record_visit w (node_addr w hp jmitem idx) jmitem)
    unfold jmap_from_json_array at this
    rw [this]
    exact ⟨_, rfl⟩

/-- Witness for C34: serialization of the array field `item_arr_small`, whose
slice size is 0, returns -1. -/
theorem c34_depth_error_aborts_witness :
    ∃ w1, jmap_to_json_warpper lib0 1 0 item_arr_small 0
      (world_of_items [item_arr_small] mem_zero none) = some (-1, .null, w1) :=
  (c34_depth_error_aborts lib0 0 0 item_arr_small 0
    (world_of_items [item_arr_small] mem_zero none) rfl (by decide)
    (Or.inr (Or.inr (by decide)))).2.2.2.1 (by decide) (by decide)



/-! ## Claim C36: a text value is stored truncated -/

theorem getD_take_of_lt (l : List Nat) (n i d : Nat) (h : i < n) :
    (l.take n).getD i d = l.getD i d := by
  simp [List.getD_eq_getElem?_getD, List.getElem?_take, h]

theorem getD_take_while_of_lt (l : List Nat) (i d : Nat)
    (h : i < (l.takeWhile (fun b => b % 256 ≠ 0)).length) :
    (l.takeWhile (fun b => b % 256 ≠ 0)).getD i d = l.getD i d := by
  have hpre := List.takeWhile_prefix (fun b => decide (b % 256 ≠ 0)) (l := l)
  have hle := hpre.length_le
  rw [List.getD_eq_getElem _ _ h, List.getD_eq_getElem _ _ (by omega)]
  exact hpre.getElem h

/-- The deserialization wrapper on a text node at a non-`NULL` address, for a
document text `s`. -/
theorem de_wrapper_text (lib : JsonLib) (fuel hp : Nat) (it : jmap_item_t) (idx : Nat)
    (w : World) (s : List Nat) (ht : it.type = jxs_type.string) (h0 : node_base w hp it ≠ 0) :
    jmap_from_json_warpper lib (fuel + 1) hp it idx (.string s) w =
      some (0, set_mem (record_visit w (node_addr w hp it idx) it)
        (write_bytes w.mem (node_addr w hp it idx) (snprintf_bytes it.size s))) := by
  rw [de_wrapper_leaf lib fuel hp it idx (.string s) w (by rw [ht]; exact True.intro) h0]
  simp only [from_json_scalar, ht, json_object_get_string, Option.getD_some]

/-- Claim C36 as stated fails for a text that holds a NUL byte: the text of the
three bytes `a`, NUL, `b` stored into the text field `item_text8` of 8 bytes, in
a memory that holds 7 everywhere, leaves the bytes `a`, NUL, 7, 7 at the
addresses 100 to 103 of the field (return code 0): the third byte of the text
and the terminating NUL after it are not stored. -/
theorem c36_counterexample_embedded_nul :
    (jmap_from_json_warpper lib0 1 0 item_text8 0 (.string [97, 0, 98])
        (world_of_items [item_text8] mem_sevens none)).map
      (fun r => (r.1, (r.2.mem 100).val, (r.2.mem 101).val, (r.2.mem 102).val,
        (r.2.mem 103).val)) = some (0, 97, 0, 7, 7) := by
  decide

/-- C36 (as amended): let `L` be the number of bytes of the document text `s`
before its first NUL byte.  Deserializing `s` into a text node of size `n ≥ 1`
at a non-`NULL` address `a` returns 0, stores the first `min L (n - 1)` bytes
of `s` at `a`, a 0 byte after them, and leaves every other byte of memory (the
rest of the field and everything outside it) unchanged. -/
theorem c36_text_is_truncated (lib : JsonLib) (fuel hp : Nat) (jmitem : jmap_item_t)
    (idx : Nat) (w : World) (s : List Nat) (ht : jmitem.type = jxs_type.string)
    (h0 : node_base w hp jmitem ≠ 0) (hn : 1 ≤ jmitem.size) :
    ∃ w1, jmap_from_json_warpper lib (fuel + 1) hp jmitem idx (.string s) w = some (0, w1) ∧
      (∀ i, i < min (s.takeWhile (fun b => b % 256 ≠ 0)).length (jmitem.size - 1) →
        (w1.mem (node_addr w hp jmitem idx + i)).val = s.getD i 0 % 256) ∧
      (w1.mem (node_addr w hp jmitem idx
        + min (s.takeWhile (fun b => b % 256 ≠ 0)).length (jmitem.size - 1))).val = 0 ∧
      (∀ x, x < node_addr w hp jmitem idx ∨
          node_addr w hp jmitem idx
            + min (s.takeWhile (fun b => b % 256 ≠ 0)).length (jmitem.size - 1) < x →
        w1.mem x = w.mem x) := by
  refine ⟨_, de_wrapper_text lib fuel hp jmitem idx w s ht h0, ?_, ?_, ?_⟩
  all_goals simp only [set_mem_mem]
  all_goals
    have hs0 : jmitem.size ≠ 0 := by omega
    have hlen : (snprintf_bytes jmitem.size s).length
        = min (s.takeWhile (fun b => b % 256 ≠ 0)).length (jmitem.size - 1) + 1 := by
      unfold snprintf_bytes
      simp only [hs0, if_false, List.length_append, List.length_take, List.length_singleton]
      rw [Nat.min_comm]
  · intro i hi
    rw [write_bytes_apply, if_pos (by omega)]
    have h1 : node_addr w hp jmitem idx + i - node_addr w hp jmitem idx = i := by omega
    rw [h1]
    unfold snprintf_bytes
    simp only [hs0, if_false]
    have hi1 : i < (s.takeWhile (fun b => b % 256 ≠ 0)).length := by omega
    have hi2 : i < jmitem.size - 1 := by omega
    rw [List.getD_append _ _ _ _ (by rw [List.length_take]; omega)]
    rw [getD_take_of_lt _ _ _ _ hi2, getD_take_while_of_lt _ _ _ hi1]
    simp [byte_of]
  · rw [write_bytes_apply, if_pos (by omega)]
    have h1 : node_addr w hp jmitem idx
        + min (s.takeWhile (fun b => b % 256 ≠ 0)).length (jmitem.size - 1)
        - node_addr w hp jmitem idx
        = min (s.takeWhile (fun b => b % 256 ≠ 0)).length (jmitem.size - 1) := by omega
    rw [h1]
    unfold snprintf_bytes
    simp only [hs0, if_false]
    rw [List.getD_append_right _ _ _ _ (by rw [List.length_take, Nat.min_comm])]
    rw [List.length_take, Nat.min_comm, Nat.sub_self]
    rfl
  · intro x hx
    rw [write_bytes_apply, if_neg (by omega)]

/-- Witness for C36: the text `abc` stored into the text field `item_text8`. -/
theorem c36_text_is_truncated_witness :
    ∃ w1, jmap_from_json_warpper lib0 1 0 item_text8 0 (.string [97, 98, 99])
        (world_of_items [item_text8] mem_sevens none) = some (0, w1) ∧
      (∀ i, i < min ([97, 98, 99].takeWhile (fun b => b % 256 ≠ 0)).length (item_text8.size - 1) →
        (w1.mem (node_addr (world_of_items [item_text8] mem_sevens none) 0 item_text8 0 + i)).val
          = [97, 98, 99].getD i 0 % 256) ∧
      (w1.mem (node_addr (world_of_items [item_text8] mem_sevens none) 0 item_text8 0
        + min ([97, 98, 99].takeWhile (fun b => b % 256 ≠ 0)).length (item_text8.size - 1))).val
          = 0 ∧
      (∀ x, x < node_addr (world_of_items [item_text8] mem_sevens none) 0 item_text8 0 ∨
          node_addr (world_of_items [item_text8] mem_sevens none) 0 item_text8 0
            + min ([97, 98, 99].takeWhile (fun b => b % 256 ≠ 0)).length (item_text8.size - 1)
            < x →
        w1.mem x = (world_of_items [item_text8] mem_sevens none).mem x) :=
  c36_text_is_truncated lib0 0 0 item_text8 0 (world_of_items [item_text8] mem_sevens none)
    [97, 98, 99] rfl (by decide) (by decide)



/-! ## Claim C40: the pool of a context -/

/-- The pool index never leaves the pool: a call of `jxs_map_basic_new` made
with the index inside the pool leaves it inside the pool, whatever `num`. -/
theorem map_new_index_bound (w : World) (context : Bool) (num : Nat)
    (h : w.ctx.buf_idx ≤ MAPPER_BUFFER_LENGTH) :
    (jxs_map_basic_new w context num).2.ctx.buf_idx ≤ MAPPER_BUFFER_LENGTH := by
  have hb : MAPPER_BUFFER_LENGTH = 65 := by decide
  unfold jxs_map_basic_new
  split
  · exact h
  · split
    · exact h
    · split
      · simp only [set_mapper_ctx]
        exact h
      · rename_i hlt
        simp only [set_mapper_ctx]
        rw [hb] at h hlt ⊢
        unfold PTR_MOD at hlt ⊢
        omega

/-- C40 (defect in the code).  The pool index stays inside the pool for every
sequence of calls and every `num`.  But the slots of a pooled tree need not:
on a fresh context, after `jxs_map_basic_new(context, 3)` (slots 0 to 3, index
4), the call `jxs_map_basic_new(context, SIZE_MAX)` computes `num + 1 = 0`,
finds the remaining capacity 61 not below it and returns the pool slot 4,
flagged as pooled, with limit `2^64 - 1`: its `limit + 1` slots do not fit the
61 slots left, and the index stays 4.  The next call
`jxs_map_basic_new(context, 2)` returns the same slot 4, flagged as pooled: the
slots of the two pooled trees overlap. -/
theorem c40_pooled_slots_overlap :
    (∀ (w : World) (context : Bool) (num : Nat), w.ctx.buf_idx ≤ MAPPER_BUFFER_LENGTH →
      (jxs_map_basic_new w context num).2.ctx.buf_idx ≤ MAPPER_BUFFER_LENGTH) ∧
    (jxs_map_basic_new (set_ctx_target (world_init mem_zero) 100 0) true 3).1 = some 0 ∧
    (jxs_map_basic_new (set_ctx_target (world_init mem_zero) 100 0) true 3).2.ctx.buf_idx = 4 ∧
    (jxs_map_basic_new
      (jxs_map_basic_new (set_ctx_target (world_init mem_zero) 100 0) true 3).2
      true (PTR_MOD - 1)).1 = some 4 ∧
    ((jxs_map_basic_new
      (jxs_map_basic_new (set_ctx_target (world_init mem_zero) 100 0) true 3).2
      true (PTR_MOD - 1)).2.mappers 4).jmhead.isbuf = true ∧
    ((jxs_map_basic_new
      (jxs_map_basic_new (set_ctx_target (world_init mem_zero) 100 0) true 3).2
      true (PTR_MOD - 1)).2.mappers 4).jmhead.limit = PTR_MOD - 1 ∧
    MAPPER_BUFFER_LENGTH < 4 + ((jxs_map_basic_new
      (jxs_map_basic_new (set_ctx_target (world_init mem_zero) 100 0) true 3).2
      true (PTR_MOD - 1)).2.mappers 4).jmhead.limit + 1 ∧
    (jxs_map_basic_new
      (jxs_map_basic_new (set_ctx_target (world_init mem_zero) 100 0) true 3).2
      true (PTR_MOD - 1)).2.ctx.buf_idx = 4 ∧
    (jxs_map_basic_new
      (jxs_map_basic_new
        (jxs_map_basic_new (set_ctx_target (world_init mem_zero) 100 0) true 3).2
        true (PTR_MOD - 1)).2 true 2).1 = some 4 ∧
    ((jxs_map_basic_new
      (jxs_map_basic_new
        (jxs_map_basic_new (set_ctx_target (world_init mem_zero) 100 0) true 3).2
        true (PTR_MOD - 1)).2 true 2).2.mappers 4).jmhead.isbuf = true := by
  refine ⟨map_new_index_bound, ?_, ?_, ?_, ?_, ?_, ?_, ?_, ?_, ?_⟩ <;> decide



/-! ## Claim C35: no depth error on trees built through the construction API -/

/-- The dimension table read from the arguments: the depth is at most
`JXS_ARRAY_DEPTH` and the first `depth` entries are not 0. -/
theorem va_deptab_nonzero (va : List Int) :
    (va_deptab va).2 ≤ JXS_ARRAY_DEPTH ∧
    ∀ j, j < (va_deptab va).2 → (va_deptab va).1.getD j 0 ≠ 0 := by
  unfold va_deptab
  simp only []
  have hlen := va_vals_length va
  generalize hv : (List.range (JXS_ARRAY_DEPTH + 1)).map (fun i => of_signed 8 (va.getD i 0))
    = vals at hlen
  by_cases hk : vals.findIdx (fun v => decide (v = 0)) < JXS_ARRAY_DEPTH + 1
  · simp only [hk, if_true]
    refine ⟨by omega, ?_⟩
    intro j hj
    have hjl : j < vals.length := by
      rw [hlen]; simp only [JXS_ARRAY_DEPTH] at hk; omega
    rw [List.getD_append _ _ _ _ (by rw [List.length_take]; omega)]
    rw [List.getD_eq_getElem _ _ (by rw [List.length_take]; omega)]
    rw [List.getElem_take]
    have := List.not_of_lt_findIdx hj
    simpa using this
  · simp only [hk, if_false]
    refine ⟨Nat.zero_le _, ?_⟩
    intro j hj
    omega

theorem api_node_dims_left (it : jmap_item_t) (h : ApiNode it) : DimsLeft it := by
  obtain ⟨type, va, hty, hlast, h1, h2, h3⟩ := h
  obtain ⟨_, hnz⟩ := va_deptab_nonzero va
  refine ⟨by rw [h2]; exact hty, ?_, ?_⟩
  · intro ha
    rw [h3]
    show 0 < (va_deptab va).2
    rw [h1] at ha
    by_cases h0 : (va_deptab va).2 = 0
    · rw [if_pos h0] at ha
      exact absurd ha hty
    · omega
  · intro j hj
    rw [h3] at hj ⊢
    exact hnz j (by simpa using hj)

theorem dims_left_zero : DimsLeft jmap_item_zero := by
  refine ⟨by decide, fun h => absurd h (by decide), ?_⟩
  intro j hj
  exact absurd hj (Nat.not_lt_zero _)

theorem dims_left_next (it : jmap_item_t) (idx : Nat) (h : DimsLeft it) :
    DimsLeft (jmap_array_move_next_dimen it idx) := by
  unfold jmap_array_move_next_dimen
  split
  · exact dims_left_zero
  · rename_i hc
    have hlt : it.arr.cur_depth < it.arr.depth := by
      by_contra hx
      exact hc (Or.inl (by omega))
    refine ⟨h.1, ?_, ?_⟩
    · intro ha
      show it.arr.cur_depth + 1 < it.arr.depth
      have ha' : (if it.arr.depth - it.arr.cur_depth = 1 then it.basetype else jxs_type.array)
          = jxs_type.array := ha
      by_cases h1 : it.arr.depth - it.arr.cur_depth = 1
      · rw [if_pos h1] at ha'
        exact absurd ha' h.1
      · omega
    · intro j hj
      show (it.arr.deptab.tail ++ [0]).getD j 0 ≠ 0
      rw [getD_tail_append_zero]
      have hj' : it.arr.cur_depth + 1 + j < it.arr.depth := hj
      exact h.2.2 (j + 1) (by omega)

theorem dims_left_derived (it : jmap_item_t) (idxs : List Nat) (h : DimsLeft it) :
    DimsLeft (derived_node it idxs) := by
  unfold derived_node
  induction idxs generalizing it with
  | nil => exact h
  | cons i rest ih => exact ih _ (dims_left_next it i h)

theorem dims_left_of_shape {a b : jmap_item_t} (hsh : same_shape a b) (h : DimsLeft b) :
    DimsLeft a := by
  obtain ⟨h1, _, _, _, h5, h6, _⟩ := same_shape_fields hsh
  unfold DimsLeft
  rw [h1, h5, h6]
  exact h

theorem dims_left_ok (it : jmap_item_t) (h : DimsLeft it) (ha : it.type = jxs_type.array) :
    it.arr.cur_depth < it.arr.depth ∧ it.arr.deptab.getD 0 0 ≠ 0 :=
  ⟨h.2.1 ha, h.2.2 0 (h.2.1 ha)⟩

/-- On a store all of whose nodes have their dimensions in order, so has every
node that a route from the root tree reaches. -/
theorem route_dims_left (S : Nat → jxs_mapper) (p0 : Nat)
    (hS : ∀ q i, i < (S q).jmhead.idx → DimsLeft ((S q).jmlist i))
    (steps : List Step) (it : jmap_item_t) (hr : Route S p0 steps it) : DimsLeft it := by
  induction hr with
  | root i hi => exact hS p0 i hi
  | field steps it q i _ _ _ hi _ => exact hS q i hi
  | elem steps it i _ _ _ ih => exact dims_left_next it 0 ih

/-- C35: a successful `jxs_item_basic_add` writes a node with the type, base
type and dimension record of `ApiNode`.  For every node with such a record
(whatever its key, offset, size and rule), every node derived from it through
any element indices that is an array node, which are the nodes on which the
traversal wrappers call `jmap_array_move_next_dimen`, has its current depth
below its depth and an outer dimension that is not 0.  And in a store all of
whose nodes have such a record, the same holds for every array node that a
route from the root tree reaches (a node of the root tree, of the sub-tree of
a sub-structure node reached, or derived from an array node reached): the
depth-error branch is not taken. -/
theorem c35_depth_error_unreachable (w : World) (p : Nat) (type : jxs_type) (key : List Char)
    (offset : Int) (mbsize : Nat) (subjm : Option Nat) (va : List Int)
    (hs : (jxs_item_basic_add w (some p) type key offset mbsize subjm va).1 ≠ none) :
    ApiNode (((jxs_item_basic_add w (some p) type key offset mbsize subjm va).2.mappers p).jmlist
      (w.mappers p).jmhead.idx) ∧
    (∀ (it : jmap_item_t) (idxs : List Nat), ApiNode it →
      (derived_node it idxs).type = jxs_type.array →
      (derived_node it idxs).arr.cur_depth < (derived_node it idxs).arr.depth ∧
      (derived_node it idxs).arr.deptab.getD 0 0 ≠ 0) ∧
    (∀ (S : Nat → jxs_mapper) (p0 : Nat) (steps : List Step) (it : jmap_item_t),
      (∀ q i, i < (S q).jmhead.idx → ApiNode ((S q).jmlist i)) →
      Route S p0 steps it → it.type = jxs_type.array →
      it.arr.cur_depth < it.arr.depth ∧ it.arr.deptab.getD 0 0 ≠ 0) := by
  have hok := item_add_ok_of_some w p type key offset mbsize subjm va hs
  refine ⟨?_, ?_, ?_⟩
  · rw [item_add_unfold w p type key offset mbsize subjm va hok]
    rw [(add_stores_spec w p _ subjm p).1, if_pos rfl]
    simp only [set_slot, if_true]
    exact ⟨type, va, hok.1, hok.2.2.2, rfl, rfl, rfl⟩
  · intro it idxs hap ha
    exact dims_left_ok _ (dims_left_derived it idxs (api_node_dims_left it hap)) ha
  · intro S p0 steps it hS hr ha
    exact dims_left_ok _
      (route_dims_left S p0 (fun q i hi => api_node_dims_left _ (hS q i hi)) steps it hr) ha

/-- Witness for C35: the node that the builder `bld_mat` adds for its matrix
field. -/
theorem c35_depth_error_unreachable_witness :
    ApiNode (((jxs_item_basic_add (jxs_map_basic_new (set_ctx_target (world_init mem_zero) 100 0)
        true 1).2 (some 0) .int [Char.ofNat 109] 0 24 none [3, 2, 0]).2.mappers 0).jmlist
      ((jxs_map_basic_new (set_ctx_target (world_init mem_zero) 100 0)
        true 1).2.mappers 0).jmhead.idx) :=
  (c35_depth_error_unreachable (jxs_map_basic_new (set_ctx_target (world_init mem_zero) 100 0)
    true 1).2 0 .int [Char.ofNat 109] 0 24 none [3, 2, 0] (by decide)).1



/-! ## Claim C31: the two separator rules of the fuzzy locator agree -/

/-- On locators that agree on being present and on being empty, the macro as
written gives the fuzzy locator of the intended rule. -/
theorem fuzzy_locator_intended (loc fz : Option (List Char)) (key : List Char) (isarray : Bool)
    (h : LocAgree loc fz) :
    SET_NEW_FUZZY_LOCATOR fz loc key isarray = intended_fuzzy_locator fz key isarray := by
  unfold SET_NEW_FUZZY_LOCATOR intended_fuzzy_locator
  cases isarray with
  | true => rfl
  | false =>
    simp only [Bool.false_eq_true, if_false]
    rcases h with ⟨h1, h2⟩ | ⟨l, f, h1, h2, h3⟩
    · subst h1; subst h2; rfl
    · subst h1; subst h2
      cases l with
      | nil =>
        have := h3.1 rfl
        subst this
        rfl
      | cons a t =>
        cases f with
        | nil => exact absurd (h3.2 rfl) (by simp)
        | cons b u => rfl

/-- The locators of a visit agree when those of the parent do. -/
theorem loc_agree_step (loc fz : Option (List Char)) (key : List Char) (isarray : Bool)
    (i : Nat) (h : LocAgree loc fz) :
    LocAgree (some (SET_NEW_LOCATOR loc key isarray i))
      (some (SET_NEW_FUZZY_LOCATOR fz loc key isarray)) := by
  refine Or.inr ⟨_, _, rfl, rfl, ?_⟩
  unfold SET_NEW_LOCATOR SET_NEW_FUZZY_LOCATOR
  cases isarray with
  | true =>
    simp only [if_true, snprintf_key_empty_iff]
    constructor <;> intro hx <;> simp at hx
  | false =>
    simp only [Bool.false_eq_true, if_false, snprintf_key_empty_iff]
    rcases h with ⟨h1, h2⟩ | ⟨l, f, h1, h2, h3⟩
    · subst h1; subst h2; simp
    · subst h1; subst h2
      cases l with
      | nil =>
        have := h3.1 rfl
        subst this
        simp
      | cons a t =>
        cases f with
        | nil => exact absurd (h3.2 rfl) (by simp)
        | cons b u => simp

theorem to_json_array_loop_intended_eq
    {wr' wr : Nat → jmap_item_t → Nat → World → Option (Int × Json × World)}
    (hwr : ∀ hp it idx w, LocAgree w.ctx.now_locator w.ctx.now_fzlocator →
      wr' hp it idx w = wr hp it idx w)
    (hp : Nat) (it : jmap_item_t) (loc fz : Option (List Char)) (h : LocAgree loc fz) :
    ∀ (n i : Nat) (arr : Json) (w : World),
      to_json_array_loop_intended wr' hp it loc fz n i arr w
        = to_json_array_loop wr hp it loc fz n i arr w := by
  intro n
  induction n with
  | zero => intro i arr w; rfl
  | succ n ih =>
    intro i arr w
    simp only [to_json_array_loop_intended, to_json_array_loop]
    rw [← fuzzy_locator_intended loc fz it.key true h]
    rw [hwr hp it i _ (loc_agree_step loc fz it.key true i h)]
    cases wr hp it i (set_now w (SET_NEW_LOCATOR loc it.key true i)
      (SET_NEW_FUZZY_LOCATOR fz loc it.key true)) with
    | none => rfl
    | some r =>
      obtain ⟨ret, j, w2⟩ := r
      simp only [ih]

theorem to_json_object_loop_intended_eq
    {wr' wr : Nat → jmap_item_t → Nat → World → Option (Int × Json × World)}
    (hwr : ∀ hp it idx w, LocAgree w.ctx.now_locator w.ctx.now_fzlocator →
      wr' hp it idx w = wr hp it idx w)
    (p : Nat) (loc fz : Option (List Char)) (h : LocAgree loc fz) :
    ∀ (n i : Nat) (jso : Json) (w : World),
      to_json_object_loop_intended wr' p loc fz n i jso w
        = to_json_object_loop wr p loc fz n i jso w := by
  intro n
  induction n with
  | zero => intro i jso w; rfl
  | succ n ih =>
    intro i jso w
    simp only [to_json_object_loop_intended, to_json_object_loop]
    rw [← fuzzy_locator_intended loc fz ((w.mappers p).jmlist i).key false h]
    rw [hwr p _ 0 _ (loc_agree_step loc fz ((w.mappers p).jmlist i).key false 0 h)]
    cases wr p ((w.mappers p).jmlist i) 0
      (set_now w (SET_NEW_LOCATOR loc ((w.mappers p).jmlist i).key false 0)
        (SET_NEW_FUZZY_LOCATOR fz loc ((w.mappers p).jmlist i).key false)) with
    | none => rfl
    | some r =>
      obtain ⟨ret, j, w2⟩ := r
      simp only [ih]

theorem to_json_by_type_intended_eq (lib : JsonLib)
    {wr' wr : Nat → jmap_item_t → Nat → World → Option (Int × Json × World)}
    (hwr : ∀ hp it idx w, LocAgree w.ctx.now_locator w.ctx.now_fzlocator →
      wr' hp it idx w = wr hp it idx w)
    (hp : Nat) (it : jmap_item_t) (idx vptr : Nat) (w : World)
    (h : LocAgree w.ctx.now_locator w.ctx.now_fzlocator) :
    to_json_by_type_intended lib wr' hp it idx vptr w = to_json_by_type lib wr hp it idx vptr w := by
  unfold to_json_by_type_intended to_json_by_type
  have hobj : ∀ q (w3 : World), w3.ctx = w.ctx →
      jmap_to_json_object_with_intended wr' q (.object []) w3
        = jmap_to_json_object_with wr q (.object []) w3 := by
    intro q w3 hc
    unfold jmap_to_json_object_with_intended jmap_to_json_object_with
    rw [to_json_object_loop_intended_eq hwr q _ _ (by rw [hc]; exact h)]
  have harr : ∀ e, jmap_to_json_array_with_intended wr' hp e (.array []) w
      = jmap_to_json_array_with wr hp e (.array []) w := by
    intro e
    unfold jmap_to_json_array_with_intended jmap_to_json_array_with
    rw [to_json_array_loop_intended_eq hwr hp e _ _ h]
  cases ht : it.type with
  | struct =>
    simp only []
    cases hq : it.subjm with
    | none => rfl
    | some q =>
      simp only []
      rw [hobj q _ (by simp)]
  | array =>
    simp only []
    rw [harr]
  | _ => rfl

/-- Serialization of a node gives the same result, context included, under the
two separator rules, from every context whose locators agree. -/
theorem ser_wrapper_intended_eq (lib : JsonLib) :
    ∀ (fuel hp : Nat) (it : jmap_item_t) (idx : Nat) (w : World),
      LocAgree w.ctx.now_locator w.ctx.now_fzlocator →
      jmap_to_json_warpper_intended lib fuel hp it idx w
        = jmap_to_json_warpper lib fuel hp it idx w := by
  intro fuel
  induction fuel with
  | zero => intro hp it idx w _; rfl
  | succ fuel ih =>
    intro hp it idx w h
    simp only [jmap_to_json_warpper_intended, jmap_to_json_warpper]
    have hloc := handler_now_locator (record_visit w (node_addr w hp it idx) it) it
      (node_addr w hp it idx)
    rw [to_json_by_type_intended_eq lib ih hp it idx _ _ (by
      rw [hloc.1, hloc.2]; exact h)]

theorem from_json_array_loop_intended_eq
    {wr' wr : Nat → jmap_item_t → Nat → Json → World → Option (Int × World)}
    (hwr : ∀ hp it idx j w, LocAgree w.ctx.now_locator w.ctx.now_fzlocator →
      wr' hp it idx j w = wr hp it idx j w)
    (hp : Nat) (it : jmap_item_t) (loc fz : Option (List Char)) (arr : Json)
    (h : LocAgree loc fz) :
    ∀ (n i : Nat) (w : World),
      from_json_array_loop_intended wr' hp it loc fz arr n i w
        = from_json_array_loop wr hp it loc fz arr n i w := by
  intro n
  induction n with
  | zero => intro i w; rfl
  | succ n ih =>
    intro i w
    simp only [from_json_array_loop_intended, from_json_array_loop]
    rw [← fuzzy_locator_intended loc fz it.key true h]
    rw [hwr hp it i _ _ (loc_agree_step loc fz it.key true i h)]
    cases wr hp it i (json_object_array_get_idx arr i)
      (set_now w (SET_NEW_LOCATOR loc it.key true i)
        (SET_NEW_FUZZY_LOCATOR fz loc it.key true)) with
    | none => rfl
    | some r =>
      obtain ⟨ret, w2⟩ := r
      simp only [ih]

theorem from_json_object_loop_intended_eq
    {wr' wr : Nat → jmap_item_t → Nat → Json → World → Option (Int × World)}
    (hwr : ∀ hp it idx j w, LocAgree w.ctx.now_locator w.ctx.now_fzlocator →
      wr' hp it idx j w = wr hp it idx j w)
    (p : Nat) (loc fz : Option (List Char)) (jso : Json) (h : LocAgree loc fz) :
    ∀ (n i : Nat) (w : World),
      from_json_object_loop_intended wr' p loc fz jso n i w
        = from_json_object_loop wr p loc fz jso n i w := by
  intro n
  induction n with
  | zero => intro i w; rfl
  | succ n ih =>
    intro i w
    simp only [from_json_object_loop_intended, from_json_object_loop]
    rw [← fuzzy_locator_intended loc fz ((w.mappers p).jmlist i).key false h]
    rw [hwr p _ 0 _ _ (loc_agree_step loc fz ((w.mappers p).jmlist i).key false 0 h)]
    cases wr p ((w.mappers p).jmlist i) 0
      (json_object_object_get jso ((w.mappers p).jmlist i).key)
      (set_now w (SET_NEW_LOCATOR loc ((w.mappers p).jmlist i).key false 0)
        (SET_NEW_FUZZY_LOCATOR fz loc ((w.mappers p).jmlist i).key false)) with
    | none => rfl
    | some r =>
      obtain ⟨ret, w2⟩ := r
      simp only [ih]

theorem from_json_by_type_intended_eq (lib : JsonLib)
    {wr' wr : Nat → jmap_item_t → Nat → Json → World → Option (Int × World)}
    (hwr : ∀ hp it idx j w, LocAgree w.ctx.now_locator w.ctx.now_fzlocator →
      wr' hp it idx j w = wr hp it idx j w)
    (hp : Nat) (it : jmap_item_t) (idx vptr : Nat) (j : Json) (w : World)
    (h : LocAgree w.ctx.now_locator w.ctx.now_fzlocator) :
    from_json_by_type_intended lib wr' hp it idx vptr j w
      = from_json_by_type lib wr hp it idx vptr j w := by
  unfold from_json_by_type_intended from_json_by_type
  have hobj : ∀ q (w3 : World), w3.ctx = w.ctx →
      jmap_from_json_object_with_intended wr' q j w3
        = jmap_from_json_object_with wr q j w3 := by
    intro q w3 hc
    unfold jmap_from_json_object_with_intended jmap_from_json_object_with
    rw [from_json_object_loop_intended_eq hwr q _ _ j (by rw [hc]; exact h)]
  have harr : ∀ e, jmap_from_json_array_with_intended wr' hp e j w
      = jmap_from_json_array_with wr hp e j w := by
    intro e
    unfold jmap_from_json_array_with_intended jmap_from_json_array_with
    rw [from_json_array_loop_intended_eq hwr hp e _ _ j h]
  cases ht : it.type with
  | struct =>
    simp only []
    cases hq : it.subjm with
    | none => rfl
    | some q =>
      simp only []
      rw [hobj q _ (by simp)]
  | array =>
    simp only []
    rw [harr]
  | _ => rfl

/-- Deserialization of a node gives the same result, context included, under
the two separator rules, from every context whose locators agree. -/
theorem de_wrapper_intended_eq (lib : JsonLib) :
    ∀ (fuel hp : Nat) (it : jmap_item_t) (idx : Nat) (j : Json) (w : World),
      LocAgree w.ctx.now_locator w.ctx.now_fzlocator →
      jmap_from_json_warpper_intended lib fuel hp it idx j w
        = jmap_from_json_warpper lib fuel hp it idx j w := by
  intro fuel
  induction fuel with
  | zero => intro hp it idx j w _; rfl
  | succ fuel ih =>
    intro hp it idx j w h
    simp only [jmap_from_json_warpper_intended, jmap_from_json_warpper]
    rw [from_json_by_type_intended_eq lib ih hp it idx _ j _ (by
      rw [record_visit_ctx]; exact h)]

/-- C31: the traversals that compute the fuzzy locator by the intended rule
(separator when the fuzzy locator of the parent is not empty) and the
traversals as written (separator when the exact locator of the parent is not
empty) are equal.  From the context of an entry point, in which no locator is
set, `jmap_to_json_object` and `jmap_from_json_object` give, for every tree,
document, memory and recursion budget, the same result under both rules:
return code, document and final world, which holds the locators of the last
visit and the locators that every callback invocation has seen. -/
theorem c31_fuzzy_separator_rules_agree (lib : JsonLib) (fuel p : Nat) (jso : Json) (w : World)
    (hl : w.ctx.now_locator = none) (hf : w.ctx.now_fzlocator = none) :
    jmap_to_json_object_intended lib fuel p jso w = jmap_to_json_object lib fuel p jso w ∧
    jmap_from_json_object_intended lib fuel p jso w = jmap_from_json_object lib fuel p jso w := by
  have h : LocAgree w.ctx.now_locator w.ctx.now_fzlocator := Or.inl ⟨hl, hf⟩
  constructor
  · unfold jmap_to_json_object_intended jmap_to_json_object
      jmap_to_json_object_with_intended jmap_to_json_object_with
    rw [to_json_object_loop_intended_eq (ser_wrapper_intended_eq lib fuel) p _ _ h]
  · unfold jmap_from_json_object_intended jmap_from_json_object
      jmap_from_json_object_with_intended jmap_from_json_object_with
    rw [from_json_object_loop_intended_eq (de_wrapper_intended_eq lib fuel) p _ _ jso h]

/-- Witness for C31: the serialization of the tree of `bld_path`, with its
nested fields and its array of sub-structures, from the context of the entry
point. -/
theorem c31_fuzzy_separator_rules_agree_witness :
    jmap_to_json_object_intended lib0 5 0 (.object []) world_path
      = jmap_to_json_object lib0 5 0 (.object []) world_path ∧
    jmap_from_json_object_intended lib0 5 0 (.object []) world_path
      = jmap_from_json_object lib0 5 0 (.object []) world_path :=
  c31_fuzzy_separator_rules_agree lib0 5 0 (.object []) world_path rfl rfl



/-! ## Claim C39: deserialization does not read the rule system -/

theorem same_but_rule_fields {a b : jmap_item_t} (h : same_but_rule a b) :
    a.type = b.type ∧ a.key = b.key ∧ a.offset = b.offset ∧ a.size = b.size ∧
    a.subjm = b.subjm ∧ a.basetype = b.basetype ∧ a.arr = b.arr := by
  unfold same_but_rule with_rule at h
  have h1 := congrArg jmap_item_t.type h
  have h2 := congrArg jmap_item_t.key h
  have h3 := congrArg jmap_item_t.offset h
  have h4 := congrArg jmap_item_t.size h
  have h5 := congrArg jmap_item_t.subjm h
  have h6 := congrArg jmap_item_t.basetype h
  have h7 := congrArg jmap_item_t.arr h
  exact ⟨h1, h2, h3, h4, h5, h6, h7⟩

theorem same_but_rule_of_fields {a b : jmap_item_t} (h1 : a.type = b.type) (h2 : a.key = b.key)
    (h3 : a.offset = b.offset) (h4 : a.size = b.size) (h5 : a.subjm = b.subjm)
    (h6 : a.basetype = b.basetype) (h7 : a.arr = b.arr) : same_but_rule a b := by
  cases a; cases b
  simp only [] at h1 h2 h3 h4 h5 h6 h7
  simp only [same_but_rule, with_rule, h1, h2, h3, h4, h5, h6, h7]

theorem same_but_rule_next_dimen {a b : jmap_item_t} (h : same_but_rule a b) (i : Nat) :
    same_but_rule (jmap_array_move_next_dimen a i) (jmap_array_move_next_dimen b i) := by
  obtain ⟨h1, h2, h3, h4, h5, h6, h7⟩ := same_but_rule_fields h
  unfold jmap_array_move_next_dimen
  rw [h7]
  split
  · rfl
  · simp only [same_but_rule, with_rule, h2, h3, h4, h5, h6, h7]

theorem same_but_rule_set_offset {a b : jmap_item_t} (h : same_but_rule a b) (o : Nat) :
    same_but_rule (set_offset a o) (set_offset b o) := by
  obtain ⟨h1, h2, _, h4, h5, h6, h7⟩ := same_but_rule_fields h
  exact same_but_rule_of_fields h1 h2 rfl h4 h5 h6 h7

theorem rule_blind_refl (w : World) : RuleBlind w w := ⟨fun _ => rfl, fun _ _ => rfl, rfl⟩

theorem rule_blind_trans {a b c : World} (h1 : RuleBlind a b) (h2 : RuleBlind b c) :
    RuleBlind a c :=
  ⟨fun p => (h2.head p).trans (h1.head p),
   fun p i => Eq.trans (h2.item p i) (h1.item p i), h2.mem.trans h1.mem⟩

theorem rule_blind_ctx {w w' : World} (h : RuleBlind w w') (c c' : jmap_context_t)
    (v v' : List Visit) :
    RuleBlind { w with ctx := c, visits := v } { w' with ctx := c', visits := v' } :=
  ⟨h.head, h.item, h.mem⟩

theorem rule_blind_set_now {w w' : World} (h : RuleBlind w w') (a b a' b' : List Char) :
    RuleBlind (set_now w a b) (set_now w' a' b') := ⟨h.head, h.item, h.mem⟩

theorem rule_blind_visit {w w' : World} (h : RuleBlind w w') (v v' : Nat)
    (it it' : jmap_item_t) : RuleBlind (record_visit w v it) (record_visit w' v' it') :=
  ⟨h.head, h.item, h.mem⟩

theorem rule_blind_set_mem {w w' : World} (h : RuleBlind w w') (m : Mem) :
    RuleBlind (set_mem w m) (set_mem w' m) := ⟨h.head, h.item, rfl⟩

theorem rule_blind_forward {w w' : World} (h : RuleBlind w w') (q a s i : Nat) :
    RuleBlind (jmap_struct_move_forward (set_start_addr w q a) q s i)
      (jmap_struct_move_forward (set_start_addr w' q a) q s i) := by
  refine ⟨fun p => ?_, fun p k => ?_, h.mem⟩
  · rw [move_forward_head, move_forward_head]
    unfold set_start_addr
    by_cases hp : p = q
    · simp only [hp, set_mapper_mappers, if_true, h.head q]
    · simp only [hp, set_mapper_mappers, if_false, h.head p]
  · rw [move_forward_jmlist, move_forward_jmlist]
    by_cases hp : p = q
    · subst hp
      simp only [if_true, map_first, set_start_addr_jmlist, set_start_addr_idx, h.head p]
      split
      · rw [(same_but_rule_fields (h.item p k)).2.2.1]
        exact same_but_rule_set_offset (h.item p k) _
      · exact h.item p k
    · simp only [hp, if_false, set_start_addr_jmlist]
      exact h.item p k

theorem rule_blind_backward {w w' : World} (h : RuleBlind w w') (q s i : Nat) :
    RuleBlind (jmap_struct_move_backward w q s i) (jmap_struct_move_backward w' q s i) := by
  refine ⟨fun p => ?_, fun p k => ?_, h.mem⟩
  · rw [move_backward_head, move_backward_head]
    exact h.head p
  · rw [move_backward_jmlist, move_backward_jmlist]
    by_cases hp : p = q
    · subst hp
      simp only [if_true, map_first, h.head p]
      split
      · rw [(same_but_rule_fields (h.item p k)).2.2.1]
        exact same_but_rule_set_offset (h.item p k) _
      · exact h.item p k
    · simp only [hp, if_false]
      exact h.item p k

theorem de_agree_some {a b : Int × World} (h1 : a.1 = b.1) (h2 : RuleBlind a.2 b.2) :
    DeAgree (some a) (some b) := ⟨h1, h2⟩

theorem from_json_array_loop_blind
    {wr wr' : Nat → jmap_item_t → Nat → Json → World → Option (Int × World)}
    (hwr : ∀ hp it it' idx j w w', same_but_rule it' it → RuleBlind w w' →
      DeAgree (wr hp it idx j w) (wr' hp it' idx j w'))
    (hp : Nat) (it it' : jmap_item_t) (loc fz loc' fz' : Option (List Char)) (arr : Json)
    (hit : same_but_rule it' it) :
    ∀ (n i : Nat) (w w' : World), RuleBlind w w' →
      DeAgree (from_json_array_loop wr hp it loc fz arr n i w)
        (from_json_array_loop wr' hp it' loc' fz' arr n i w') := by
  intro n
  induction n with
  | zero => intro i w w' h; exact de_agree_some rfl h
  | succ n ih =>
    intro i w w' h
    simp only [from_json_array_loop]
    have h1 := hwr hp it it' i (json_object_array_get_idx arr i)
      (set_now w (SET_NEW_LOCATOR loc it.key true i) (SET_NEW_FUZZY_LOCATOR fz loc it.key true))
      (set_now w' (SET_NEW_LOCATOR loc' it'.key true i)
        (SET_NEW_FUZZY_LOCATOR fz' loc' it'.key true))
      hit (rule_blind_set_now h _ _ _ _)
    revert h1
    cases wr hp it i (json_object_array_get_idx arr i)
      (set_now w (SET_NEW_LOCATOR loc it.key true i)
        (SET_NEW_FUZZY_LOCATOR fz loc it.key true)) with
    | none =>
      cases wr' hp it' i (json_object_array_get_idx arr i)
        (set_now w' (SET_NEW_LOCATOR loc' it'.key true i)
          (SET_NEW_FUZZY_LOCATOR fz' loc' it'.key true)) with
      | none => intro _; exact True.intro
      | some b => intro h1; exact h1.elim
    | some a =>
      cases wr' hp it' i (json_object_array_get_idx arr i)
        (set_now w' (SET_NEW_LOCATOR loc' it'.key true i)
          (SET_NEW_FUZZY_LOCATOR fz' loc' it'.key true)) with
      | none => intro h1; exact h1.elim
      | some b =>
        intro h1
        obtain ⟨ra, wa⟩ := a
        obtain ⟨rb, wb⟩ := b
        obtain ⟨e1, e2⟩ := h1
        simp only [] at e1 e2
        subst e1
        simp only []
        by_cases hr : ra ≠ 0
        · rw [if_pos hr, if_pos hr]
          exact de_agree_some rfl e2
        · rw [if_neg hr, if_neg hr]
          exact ih (i + 1) wa wb e2

theorem from_json_object_loop_blind
    {wr wr' : Nat → jmap_item_t → Nat → Json → World → Option (Int × World)}
    (hwr : ∀ hp it it' idx j w w', same_but_rule it' it → RuleBlind w w' →
      DeAgree (wr hp it idx j w) (wr' hp it' idx j w'))
    (p : Nat) (loc fz loc' fz' : Option (List Char)) (jso : Json) :
    ∀ (n i : Nat) (w w' : World), RuleBlind w w' →
      DeAgree (from_json_object_loop wr p loc fz jso n i w)
        (from_json_object_loop wr' p loc' fz' jso n i w') := by
  intro n
  induction n with
  | zero => intro i w w' h; exact de_agree_some rfl h
  | succ n ih =>
    intro i w w' h
    simp only [from_json_object_loop]
    have hk : ((w'.mappers p).jmlist i).key = ((w.mappers p).jmlist i).key :=
      (same_but_rule_fields (h.item p i)).2.1
    have h1 := hwr p ((w.mappers p).jmlist i) ((w'.mappers p).jmlist i) 0
      (json_object_object_get jso ((w.mappers p).jmlist i).key)
      (set_now w (SET_NEW_LOCATOR loc ((w.mappers p).jmlist i).key false 0)
        (SET_NEW_FUZZY_LOCATOR fz loc ((w.mappers p).jmlist i).key false))
      (set_now w' (SET_NEW_LOCATOR loc' ((w'.mappers p).jmlist i).key false 0)
        (SET_NEW_FUZZY_LOCATOR fz' loc' ((w'.mappers p).jmlist i).key false))
      (h.item p i) (rule_blind_set_now h _ _ _ _)
    rw [hk]
    rw [hk] at h1
    revert h1
    cases wr p ((w.mappers p).jmlist i) 0
      (json_object_object_get jso ((w.mappers p).jmlist i).key)
      (set_now w (SET_NEW_LOCATOR loc ((w.mappers p).jmlist i).key false 0)
        (SET_NEW_FUZZY_LOCATOR fz loc ((w.mappers p).jmlist i).key false)) with
    | none =>
      cases wr' p ((w'.mappers p).jmlist i) 0
        (json_object_object_get jso ((w.mappers p).jmlist i).key)
        (set_now w' (SET_NEW_LOCATOR loc' ((w.mappers p).jmlist i).key false 0)
          (SET_NEW_FUZZY_LOCATOR fz' loc' ((w.mappers p).jmlist i).key false)) with
      | none => intro _; exact True.intro
      | some b => intro h1; exact h1.elim
    | some a =>
      cases wr' p ((w'.mappers p).jmlist i) 0
        (json_object_object_get jso ((w.mappers p).jmlist i).key)
        (set_now w' (SET_NEW_LOCATOR loc' ((w.mappers p).jmlist i).key false 0)
          (SET_NEW_FUZZY_LOCATOR fz' loc' ((w.mappers p).jmlist i).key false)) with
      | none => intro h1; exact h1.elim
      | some b =>
        intro h1
        obtain ⟨ra, wa⟩ := a
        obtain ⟨rb, wb⟩ := b
        obtain ⟨e1, e2⟩ := h1
        simp only [] at e1 e2
        subst e1
        simp only []
        by_cases hr : ra ≠ 0
        · rw [if_pos hr, if_pos hr]
          exact de_agree_some rfl e2
        · rw [if_neg hr, if_neg hr]
          exact ih (i + 1) wa wb e2

theorem from_json_object_with_blind
    {wr wr' : Nat → jmap_item_t → Nat → Json → World → Option (Int × World)}
    (hwr : ∀ hp it it' idx j w w', same_but_rule it' it → RuleBlind w w' →
      DeAgree (wr hp it idx j w) (wr' hp it' idx j w'))
    (p : Nat) (jso : Json) (w w' : World) (h : RuleBlind w w') :
    DeAgree (jmap_from_json_object_with wr p jso w) (jmap_from_json_object_with wr' p jso w') := by
  unfold jmap_from_json_object_with
  by_cases hn : jso.is_null = true
  · rw [if_pos hn, if_pos hn]
    exact de_agree_some rfl h
  · rw [if_neg hn, if_neg hn, h.head p]
    exact from_json_object_loop_blind hwr p _ _ _ _ jso _ 0 w w' h

theorem from_json_array_with_blind
    {wr wr' : Nat → jmap_item_t → Nat → Json → World → Option (Int × World)}
    (hwr : ∀ hp it it' idx j w w', same_but_rule it' it → RuleBlind w w' →
      DeAgree (wr hp it idx j w) (wr' hp it' idx j w'))
    (hp : Nat) (it it' : jmap_item_t) (hit : same_but_rule it' it) (arr : Json)
    (w w' : World) (h : RuleBlind w w') :
    DeAgree (jmap_from_json_array_with wr hp it arr w)
      (jmap_from_json_array_with wr' hp it' arr w') := by
  obtain ⟨_, _, _, h4, _, _, h7⟩ := same_but_rule_fields hit
  unfold jmap_from_json_array_with
  rw [h4, h7]
  by_cases hn : arr.is_null = true
  · rw [if_pos hn, if_pos hn]
    exact de_agree_some rfl h
  · rw [if_neg hn, if_neg hn]
    by_cases hz : it.size = 0 ∨ it.arr.length = 0
    · rw [if_pos hz, if_pos hz]
      exact de_agree_some rfl h
    · rw [if_neg hz, if_neg hz]
      by_cases ha : (!arr.is_array) = true
      · rw [if_pos ha, if_pos ha]
        exact de_agree_some rfl h
      · rw [if_neg ha, if_neg ha]
        exact from_json_array_loop_blind hwr hp it it' _ _ _ _ arr hit _ 0 w w' h

theorem from_json_by_type_blind (lib : JsonLib)
    {wr wr' : Nat → jmap_item_t → Nat → Json → World → Option (Int × World)}
    (hwr : ∀ hp it it' idx j w w', same_but_rule it' it → RuleBlind w w' →
      DeAgree (wr hp it idx j w) (wr' hp it' idx j w'))
    (hp : Nat) (it it' : jmap_item_t) (hit : same_but_rule it' it) (idx vptr : Nat) (j : Json)
    (w w' : World) (h : RuleBlind w w') :
    DeAgree (from_json_by_type lib wr hp it idx vptr j w)
      (from_json_by_type lib wr' hp it' idx vptr j w') := by
  obtain ⟨h1, h2, h3, h4, h5, h6, h7⟩ := same_but_rule_fields hit
  have hbase : node_base w' hp it' = node_base w hp it := by
    unfold node_base base_of
    rw [h.head hp, h3]
  unfold from_json_by_type
  rw [h1, h4, h5, h.mem]
  cases ht : it.type with
  | struct =>
    simp only []
    cases hq : it.subjm with
    | none => exact de_agree_some rfl h
    | some q =>
      simp only []
      by_cases hn : j.is_null = true
      · rw [if_pos hn, if_pos hn]
        exact de_agree_some rfl (rule_blind_set_mem h (memset0 w.mem vptr it.size))
      · rw [if_neg hn, if_neg hn, hbase]
        have hobj := from_json_object_with_blind hwr q j _ _
          (rule_blind_forward h q (node_base w hp it) it.size idx)
        revert hobj
        cases jmap_from_json_object_with wr q j
          (jmap_struct_move_forward (set_start_addr w q (node_base w hp it)) q it.size idx) with
        | none =>
          cases jmap_from_json_object_with wr' q j
            (jmap_struct_move_forward (set_start_addr w' q (node_base w hp it)) q it.size idx) with
          | none => intro _; exact True.intro
          | some b => intro hx; exact hx.elim
        | some a =>
          cases jmap_from_json_object_with wr' q j
            (jmap_struct_move_forward (set_start_addr w' q (node_base w hp it)) q it.size idx) with
          | none => intro hx; exact hx.elim
          | some b =>
            intro hx
            obtain ⟨ra, wa⟩ := a
            obtain ⟨rb, wb⟩ := b
            obtain ⟨e1, e2⟩ := hx
            simp only [] at e1 e2
            subst e1
            simp only []
            by_cases hr : ra ≠ 0
            · rw [if_pos hr, if_pos hr]
              exact de_agree_some rfl e2
            · rw [if_neg hr, if_neg hr]
              exact de_agree_some rfl (rule_blind_backward e2 q it.size idx)
  | array =>
    simp only []
    by_cases hn : j.is_null = true
    · rw [if_pos hn, if_pos hn]
      exact de_agree_some rfl (rule_blind_set_mem h (memset0 w.mem vptr it.size))
    · rw [if_neg hn, if_neg hn]
      have harr := from_json_array_with_blind hwr hp _ _
        (same_but_rule_next_dimen hit idx) j w w' h
      revert harr
      cases jmap_from_json_array_with wr hp (jmap_array_move_next_dimen it idx) j w with
      | none =>
        cases jmap_from_json_array_with wr' hp (jmap_array_move_next_dimen it' idx) j w' with
        | none => intro _; exact True.intro
        | some b => intro hx; exact hx.elim
      | some a =>
        cases jmap_from_json_array_with wr' hp (jmap_array_move_next_dimen it' idx) j w' with
        | none => intro hx; exact hx.elim
        | some b =>
          intro hx
          obtain ⟨ra, wa⟩ := a
          obtain ⟨rb, wb⟩ := b
          obtain ⟨e1, e2⟩ := hx
          simp only [] at e1 e2
          subst e1
          simp only []
          by_cases hr : ra ≠ 0
          · rw [if_pos hr, if_pos hr]
            exact de_agree_some rfl e2
          · rw [if_neg hr, if_neg hr]
            exact de_agree_some rfl e2
  | _ =>
    simp only []
    cases from_json_scalar lib w.mem _ it.size vptr j with
    | none => exact de_agree_some rfl h
    | some m =>
      have := rule_blind_set_mem h m
      exact de_agree_some rfl this

/-- Deserialization of a node does not read the rule system: on worlds that
agree up to static rules and context, for nodes that agree up to the static
rule, the results agree. -/
theorem de_wrapper_blind (lib : JsonLib) :
    ∀ (fuel hp : Nat) (it it' : jmap_item_t) (idx : Nat) (j : Json) (w w' : World),
      same_but_rule it' it → RuleBlind w w' →
      DeAgree (jmap_from_json_warpper lib fuel hp it idx j w)
        (jmap_from_json_warpper lib fuel hp it' idx j w') := by
  intro fuel
  induction fuel with
  | zero => intro hp it it' idx j w w' _ _; exact True.intro
  | succ fuel ih =>
    intro hp it it' idx j w w' hit h
    obtain ⟨h1, h2, h3, h4, h5, h6, h7⟩ := same_but_rule_fields hit
    have hbase : node_base w' hp it' = node_base w hp it := by
      unfold node_base base_of
      rw [h.head hp, h3]
    have haddr : node_addr w' hp it' idx = node_addr w hp it idx := by
      unfold node_addr addr_of base_of
      rw [h.head hp, h3, h4]
    simp only [jmap_from_json_warpper]
    rw [hbase, haddr]
    by_cases h0 : node_base w hp it = 0
    · rw [if_pos h0, if_pos h0]
      exact de_agree_some rfl h
    · rw [if_neg h0, if_neg h0]
      exact from_json_by_type_blind lib (fun hp a b idx j x y ha hx => ih hp a b idx j x y ha hx)
        hp it it' hit idx _ j _ _ (rule_blind_visit h _ _ _ _)

/-- The callback record is left alone by every deserialization wrapper call. -/
theorem de_wrapper_no_calls (lib : JsonLib) (fuel hp : Nat) (it : jmap_item_t) (idx : Nat)
    (j : Json) (w : World) (r : Int × World)
    (h : jmap_from_json_warpper lib fuel hp it idx j w = some r) : r.2.cb_calls = w.cb_calls :=
  de_wrapper_rel lib (fun a b => b.cb_calls = a.cb_calls) (fun _ => rfl)
    (fun _ _ _ h1 h2 => h2.trans h1) (fun _ _ _ => rfl) (fun _ _ _ => rfl) (fun _ _ => rfl)
    (fun _ _ _ _ _ => rfl) (fun _ _ _ _ => rfl) fuel hp it idx j w r h

theorem rule_blind_set_rule (w : World) (item : Option jxs_item) (rule : Int) :
    RuleBlind w (jxs_item_set_rule w item rule) := by
  unfold jxs_item_set_rule
  cases item with
  | none => exact rule_blind_refl w
  | some pi =>
    obtain ⟨p, i⟩ := pi
    simp only []
    refine ⟨fun q => ?_, fun q k => ?_, rfl⟩
    · by_cases hq : q = p
      · simp only [hq, set_mapper_mappers, if_true]
      · simp only [hq, set_mapper_mappers, if_false]
    · by_cases hq : q = p
      · simp only [hq, set_mapper_mappers, if_true, set_slot]
        split
        · rename_i hk
          rw [hk]
          rfl
        · rfl
      · simp only [hq, set_mapper_mappers, if_false]
        rfl

theorem rule_blind_set_callback (w : World) (cb : Option (CbView → CbEffect)) :
    RuleBlind w (jxs_set_convert_callback w cb) := by
  unfold jxs_set_convert_callback
  cases cb with
  | none => exact rule_blind_refl w
  | some f => exact ⟨fun _ => rfl, fun _ _ => rfl, rfl⟩

/-- C39: deserialization is independent of the rule system.  For two worlds
that hold the same trees up to the static rules of the nodes (rule 0
included) and the same memory, whatever their contexts hold (a callback may
be registered in one and not in the other), `jmap_from_json_object` of a
document gives, for every recursion budget, the same return code and the same
final memory; and it leaves the record of callback invocations as it was: the
callback is never invoked. -/
theorem c39_deserialization_ignores_rules (lib : JsonLib) (fuel p : Nat) (jso : Json)
    (w w' : World) (h : RuleBlind w w') :
    (jmap_from_json_object lib fuel p jso w).map (fun r => (r.1, r.2.mem))
      = (jmap_from_json_object lib fuel p jso w').map (fun r => (r.1, r.2.mem)) ∧
    (∀ r, jmap_from_json_object lib fuel p jso w = some r → r.2.cb_calls = w.cb_calls) ∧
    (∀ r, jmap_from_json_object lib fuel p jso w' = some r → r.2.cb_calls = w'.cb_calls) := by
  have hcalls : ∀ (x : World) (r : Int × World),
      jmap_from_json_object lib fuel p jso x = some r → r.2.cb_calls = x.cb_calls := by
    intro x r hr
    unfold jmap_from_json_object jmap_from_json_object_with at hr
    split at hr
    · simp only [Option.some.injEq] at hr
      rw [← hr]
    · exact from_json_object_loop_rel (fun a b => b.cb_calls = a.cb_calls) (fun _ => rfl)
        (fun _ _ _ h1 h2 => h2.trans h1) (fun _ _ _ => rfl) (de_wrapper_no_calls lib fuel)
        _ _ _ _ _ _ _ _ hr
  refine ⟨?_, hcalls w, hcalls w'⟩
  have hag := from_json_object_with_blind
    (fun hp a b idx j x y ha hx => de_wrapper_blind lib fuel hp a b idx j x y ha hx) p jso w w' h
  unfold jmap_from_json_object
  revert hag
  cases jmap_from_json_object_with (jmap_from_json_warpper lib fuel) p jso w with
  | none =>
    cases jmap_from_json_object_with (jmap_from_json_warpper lib fuel) p jso w' with
    | none => intro _; rfl
    | some b => intro hx; exact hx.elim
  | some a =>
    cases jmap_from_json_object_with (jmap_from_json_warpper lib fuel) p jso w' with
    | none => intro hx; exact hx.elim
    | some b =>
      intro hx
      obtain ⟨e1, e2⟩ := hx
      simp only [Option.map_some']
      rw [e1, e2.mem]

/-- Witness for C39: the tree of `bld_rec`, and the same tree after the rule of
its first node is set to drop and a callback that drops every visit is
registered. -/
theorem c39_deserialization_ignores_rules_witness :
    (jmap_from_json_object lib0 3 0 doc_rec (set_mem world_rec mem_zero)).map
        (fun r => (r.1, r.2.mem))
      = (jmap_from_json_object lib0 3 0 doc_rec world_rec_rules_changed).map
        (fun r => (r.1, r.2.mem)) ∧
    (∀ r, jmap_from_json_object lib0 3 0 doc_rec (set_mem world_rec mem_zero) = some r →
      r.2.cb_calls = (set_mem world_rec mem_zero).cb_calls) ∧
    (∀ r, jmap_from_json_object lib0 3 0 doc_rec world_rec_rules_changed = some r →
      r.2.cb_calls = world_rec_rules_changed.cb_calls) :=
  c39_deserialization_ignores_rules lib0 3 0 doc_rec (set_mem world_rec mem_zero)
    world_rec_rules_changed
    (rule_blind_trans (rule_blind_set_rule _ _ _) (rule_blind_set_callback _ _))



/-! ## Claim C33: the traversals terminate -/

/-- A step of `jmap_array_move_next_dimen` that is not a depth error takes one
dimension off. -/
theorem next_dimen_remaining (it : jmap_item_t) (idx : Nat)
    (h : ¬ (it.arr.cur_depth ≥ it.arr.depth ∨ it.arr.deptab.getD 0 0 = 0)) :
    remaining_dims (jmap_array_move_next_dimen it idx) + 1 = remaining_dims it := by
  unfold jmap_array_move_next_dimen remaining_dims
  rw [if_neg h]
  simp only []
  have : it.arr.cur_depth < it.arr.depth := by
    by_contra hx
    exact h (Or.inl (by omega))
  omega

theorem next_dimen_remaining_le (it : jmap_item_t) (idx : Nat) :
    remaining_dims (jmap_array_move_next_dimen it idx) ≤ remaining_dims it - 1 := by
  by_cases h : it.arr.cur_depth ≥ it.arr.depth ∨ it.arr.deptab.getD 0 0 = 0
  · rw [next_dimen_depth_error it idx h]
    exact Nat.zero_le _
  · have := next_dimen_remaining it idx h
    omega

theorem dims_bounded_of_shape {w w' : World} (h : DimsBounded w.mappers)
    (hf : ShapeFrame w w') : DimsBounded w'.mappers := by
  intro q i hi
  rw [hf.idx q] at hi
  have := h q i hi
  unfold remaining_dims at this ⊢
  rw [(same_shape_fields (hf.item q i)).2.2.2.2.2.1]
  exact this

theorem api_node_dims_bounded (it : jmap_item_t) (h : ApiNode it) :
    remaining_dims it ≤ JXS_ARRAY_DEPTH := by
  obtain ⟨type, va, _, _, _, _, h3⟩ := h
  unfold remaining_dims
  rw [h3]
  exact (va_deptab_nonzero va).1

theorem ser_array_loop_total
    {wr : Nat → jmap_item_t → Nat → World → Option (Int × Json × World)}
    (hp : Nat) (e : jmap_item_t) (loc fz : Option (List Char)) (w0 : World)
    (hwr : ∀ i w, ShapeFrame w0 w → ∃ r, wr hp e i w = some r ∧ ShapeFrame w r.2.2) :
    ∀ (n i : Nat) (arr : Json) (w : World), ShapeFrame w0 w →
      ∃ r, to_json_array_loop wr hp e loc fz n i arr w = some r := by
  intro n
  induction n with
  | zero => intro i arr w _; exact ⟨_, rfl⟩
  | succ n ih =>
    intro i arr w hsh
    simp only [to_json_array_loop]
    have hsh1 : ShapeFrame w0 (set_now w (SET_NEW_LOCATOR loc e.key true i)
        (SET_NEW_FUZZY_LOCATOR fz loc e.key true)) :=
      shape_frame_trans _ _ _ hsh (shape_frame_of_mappers_eq rfl)
    obtain ⟨⟨ret, j, w2⟩, hr, hs⟩ := hwr i _ hsh1
    rw [hr]
    simp only []
    have hsh2 : ShapeFrame w0 w2 := shape_frame_trans _ _ _ hsh1 hs
    split
    · exact ⟨_, rfl⟩
    · split
      · exact ih _ _ _ hsh2
      · exact ih _ _ _ hsh2

theorem ser_object_loop_total
    {wr : Nat → jmap_item_t → Nat → World → Option (Int × Json × World)}
    (p : Nat) (loc fz : Option (List Char)) (w0 : World)
    (hwr : ∀ i w, ShapeFrame w0 w → i < (w0.mappers p).jmhead.idx →
      ∃ r, wr p ((w.mappers p).jmlist i) 0 w = some r ∧ ShapeFrame w r.2.2) :
    ∀ (n i : Nat) (jso : Json) (w : World), ShapeFrame w0 w →
      i + n ≤ (w0.mappers p).jmhead.idx →
      ∃ r, to_json_object_loop wr p loc fz n i jso w = some r := by
  intro n
  induction n with
  | zero => intro i jso w _ _; exact ⟨_, rfl⟩
  | succ n ih =>
    intro i jso w hsh hle
    simp only [to_json_object_loop]
    have hsh1 : ShapeFrame w0 (set_now w
        (SET_NEW_LOCATOR loc ((w.mappers p).jmlist i).key false 0)
        (SET_NEW_FUZZY_LOCATOR fz loc ((w.mappers p).jmlist i).key false)) :=
      shape_frame_trans _ _ _ hsh (shape_frame_of_mappers_eq rfl)
    obtain ⟨⟨ret, j, w2⟩, hr, hs⟩ := hwr i _ hsh1 (by omega)
    simp only [set_now_mappers] at hr
    rw [hr]
    simp only []
    have hsh2 : ShapeFrame w0 w2 := shape_frame_trans _ _ _ hsh1 hs
    split
    · exact ⟨_, rfl⟩
    · split
      · exact ih _ _ _ hsh2 (by omega)
      · exact ih _ _ _ hsh2 (by omega)

/-- The nodes of a tree of an acyclic store refer to trees below it. -/
theorem below_of_acyclic {rank : Nat → Nat} {w : World} (h : Acyclic rank w.mappers)
    (q i : Nat) (hi : i < (w.mappers q).jmhead.idx) : Below rank ((w.mappers q).jmlist i) q :=
  fun q' hq' => h q i q' hi hq'

/-- Serialization of a node returns whenever the budget exceeds the measure
`rank hp * (JXS_ARRAY_DEPTH + 1) + remaining_dims it`: the recursion descends
in the pair of the rank of the tree and the dimensions left. -/
theorem ser_wrapper_total (lib : JsonLib) (rank : Nat → Nat) :
    ∀ (fuel hp : Nat) (it : jmap_item_t) (idx : Nat) (w : World),
      Acyclic rank w.mappers → DimsBounded w.mappers → Below rank it hp →
      rank hp * (JXS_ARRAY_DEPTH + 1) + remaining_dims it < fuel →
      ∃ r, jmap_to_json_warpper lib fuel hp it idx w = some r := by
  intro fuel
  induction fuel with
  | zero => intro hp it idx w _ _ _ h; omega
  | succ f ih =>
    intro hp it idx w hac hdim hbel hfuel
    simp only [jmap_to_json_warpper]
    split
    · exact ⟨_, rfl⟩
    · have hsh0 : ShapeFrame w (jmap_convert_handler (record_visit w (node_addr w hp it idx) it)
          it (node_addr w hp it idx)).2 :=
        shape_frame_trans _ (record_visit w (node_addr w hp it idx) it) _
          (shape_frame_of_mappers_eq rfl) (shape_frame_handler _ _ _)
      generalize (jmap_convert_handler (record_visit w (node_addr w hp it idx) it) it
        (node_addr w hp it idx)).2 = w1 at hsh0
      have hac1 := acyclic_of_shape_frame hac hsh0
      have hdim1 := dims_bounded_of_shape hdim hsh0
      have hty : ∃ r, to_json_by_type lib (jmap_to_json_warpper lib f) hp it idx
          (node_addr w hp it idx) w1 = some r := by
        unfold to_json_by_type
        split
        · split
          · exact ⟨_, rfl⟩
          · rename_i q hq
            have hlt : rank q < rank hp := hbel q hq
            have hsh3 : ShapeFrame w1 (jmap_struct_move_forward
                (set_start_addr w1 q (node_base w1 hp it)) q it.size idx) :=
              shape_frame_forward w1 q _ _ _
            simp only []
            generalize jmap_struct_move_forward
              (set_start_addr w1 q (node_base w1 hp it)) q it.size idx = w3 at hsh3 ⊢
            have hac3 := acyclic_of_shape_frame hac1 hsh3
            have hdim3 := dims_bounded_of_shape hdim1 hsh3
            have hobj : ∃ r4, jmap_to_json_object_with (jmap_to_json_warpper lib f) q
                (.object []) w3 = some r4 := by
              unfold jmap_to_json_object_with
              split
              · exact ⟨_, rfl⟩
              · split
                · exact ⟨_, rfl⟩
                · refine ser_object_loop_total q _ _ w3 ?_ _ 0 _ w3 (shape_frame_refl w3)
                    (by omega)
                  intro i w' hsh' hi
                  have hac' := acyclic_of_shape_frame hac3 hsh'
                  have hdim' := dims_bounded_of_shape hdim3 hsh'
                  have hi' : i < (w'.mappers q).jmhead.idx := by rw [hsh'.idx q]; exact hi
                  have hrem := hdim' q i hi'
                  obtain ⟨r, hr⟩ := ih q ((w'.mappers q).jmlist i) 0 w' hac' hdim'
                    (below_of_acyclic hac' q i hi') (by
                      simp only [JXS_ARRAY_DEPTH] at hfuel hrem ⊢
                      omega)
                  exact ⟨r, hr, ser_wrapper_shape lib f q _ 0 w' r hr⟩
            obtain ⟨⟨ret, j, w4⟩, hr⟩ := hobj
            rw [hr]
            simp only []
            split <;> exact ⟨_, rfl⟩
        · have harr : ∃ r4, jmap_to_json_array_with (jmap_to_json_warpper lib f) hp
              (jmap_array_move_next_dimen it idx) (.array []) w1 = some r4 := by
            unfold jmap_to_json_array_with
            split
            · exact ⟨_, rfl⟩
            · split
              · exact ⟨_, rfl⟩
              · refine ser_array_loop_total hp _ _ _ w1 ?_ _ 0 _ w1 (shape_frame_refl w1)
                intro i w' hsh'
                have hac' := acyclic_of_shape_frame hac1 hsh'
                have hdim' := dims_bounded_of_shape hdim1 hsh'
                have hle := next_dimen_remaining_le it idx
                have hpos : 0 < remaining_dims it := by
                  by_contra hx
                  have h0 : it.arr.cur_depth ≥ it.arr.depth := by
                    unfold remaining_dims at hx; omega
                  rename_i hsz _
                  apply hsz
                  left
                  rw [next_dimen_depth_error it idx (Or.inl h0)]
                  rfl
                obtain ⟨r, hr⟩ := ih hp (jmap_array_move_next_dimen it idx) i w' hac' hdim'
                  (below_next_dimen hbel idx) (by omega)
                exact ⟨r, hr, ser_wrapper_shape lib f hp _ i w' r hr⟩
          obtain ⟨⟨ret, j, w4⟩, hr⟩ := harr
          rw [hr]
          simp only []
          split <;> exact ⟨_, rfl⟩
        · split <;> exact ⟨_, rfl⟩
      split
      · exact ⟨_, rfl⟩
      · exact ⟨_, rfl⟩
      · exact hty

theorem de_array_loop_ranked
    {wr : Nat → jmap_item_t → Nat → Json → World → Option (Int × World)}
    (hp : Nat) (e : jmap_item_t) (loc fz : Option (List Char)) (arr : Json) (w0 : World)
    (hwr : ∀ i j w, ShapeFrame w0 w → ∃ r, wr hp e i j w = some r ∧ ShapeFrame w r.2) :
    ∀ (n i : Nat) (w : World), ShapeFrame w0 w →
      ∃ r, from_json_array_loop wr hp e loc fz arr n i w = some r := by
  intro n
  induction n with
  | zero => intro i w _; exact ⟨_, rfl⟩
  | succ n ih =>
    intro i w hsh
    simp only [from_json_array_loop]
    have hsh1 : ShapeFrame w0 (set_now w (SET_NEW_LOCATOR loc e.key true i)
        (SET_NEW_FUZZY_LOCATOR fz loc e.key true)) :=
      shape_frame_trans _ _ _ hsh (shape_frame_of_mappers_eq rfl)
    obtain ⟨⟨ret, w2⟩, hr, hs⟩ := hwr i (json_object_array_get_idx arr i) _ hsh1
    rw [hr]
    simp only []
    have hsh2 : ShapeFrame w0 w2 := shape_frame_trans _ _ _ hsh1 hs
    split
    · exact ⟨_, rfl⟩
    · exact ih _ _ hsh2

theorem de_object_loop_ranked
    {wr : Nat → jmap_item_t → Nat → Json → World → Option (Int × World)}
    (p : Nat) (loc fz : Option (List Char)) (jso : Json) (w0 : World)
    (hwr : ∀ i j w, ShapeFrame w0 w → i < (w0.mappers p).jmhead.idx →
      ∃ r, wr p ((w.mappers p).jmlist i) 0 j w = some r ∧ ShapeFrame w r.2) :
    ∀ (n i : Nat) (w : World), ShapeFrame w0 w → i + n ≤ (w0.mappers p).jmhead.idx →
      ∃ r, from_json_object_loop wr p loc fz jso n i w = some r := by
  intro n
  induction n with
  | zero => intro i w _ _; exact ⟨_, rfl⟩
  | succ n ih =>
    intro i w hsh hle
    simp only [from_json_object_loop]
    have hsh1 : ShapeFrame w0 (set_now w
        (SET_NEW_LOCATOR loc ((w.mappers p).jmlist i).key false 0)
        (SET_NEW_FUZZY_LOCATOR fz loc ((w.mappers p).jmlist i).key false)) :=
      shape_frame_trans _ _ _ hsh (shape_frame_of_mappers_eq rfl)
    obtain ⟨⟨ret, w2⟩, hr, hs⟩ := hwr i
      (json_object_object_get jso ((w.mappers p).jmlist i).key) _ hsh1 (by omega)
    simp only [set_now_mappers] at hr
    rw [hr]
    simp only []
    have hsh2 : ShapeFrame w0 w2 := shape_frame_trans _ _ _ hsh1 hs
    split
    · exact ⟨_, rfl⟩
    · exact ih _ _ hsh2 (by omega)

/-- Deserialization of a node returns whenever the budget exceeds the measure
`rank hp * (JXS_ARRAY_DEPTH + 1) + remaining_dims it`, whatever the document
is. -/
theorem de_wrapper_ranked (lib : JsonLib) (rank : Nat → Nat) :
    ∀ (fuel hp : Nat) (it : jmap_item_t) (idx : Nat) (j : Json) (w : World),
      Acyclic rank w.mappers → DimsBounded w.mappers → Below rank it hp →
      rank hp * (JXS_ARRAY_DEPTH + 1) + remaining_dims it < fuel →
      ∃ r, jmap_from_json_warpper lib fuel hp it idx j w = some r := by
  intro fuel
  induction fuel with
  | zero => intro hp it idx j w _ _ _ h; omega
  | succ f ih =>
    intro hp it idx j w hac hdim hbel hfuel
    simp only [jmap_from_json_warpper]
    split
    · exact ⟨_, rfl⟩
    · have hsh0 : ShapeFrame w (record_visit w (node_addr w hp it idx) it) :=
        shape_frame_of_mappers_eq rfl
      generalize record_visit w (node_addr w hp it idx) it = w1 at hsh0
      have hac1 := acyclic_of_shape_frame hac hsh0
      have hdim1 := dims_bounded_of_shape hdim hsh0
      unfold from_json_by_type
      split
      · split
        · exact ⟨_, rfl⟩
        · split
          · exact ⟨_, rfl⟩
          · rename_i q hq _
            have hlt : rank q < rank hp := hbel q hq
            have hsh3 : ShapeFrame w1 (jmap_struct_move_forward
                (set_start_addr w1 q (node_base w1 hp it)) q it.size idx) :=
              shape_frame_forward w1 q _ _ _
            simp only []
            generalize jmap_struct_move_forward
              (set_start_addr w1 q (node_base w1 hp it)) q it.size idx = w3 at hsh3 ⊢
            have hac3 := acyclic_of_shape_frame hac1 hsh3
            have hdim3 := dims_bounded_of_shape hdim1 hsh3
            have hobj : ∃ r4, jmap_from_json_object_with (jmap_from_json_warpper lib f) q
                j w3 = some r4 := by
              unfold jmap_from_json_object_with
              split
              · exact ⟨_, rfl⟩
              · refine de_object_loop_ranked q _ _ j w3 ?_ _ 0 w3 (shape_frame_refl w3)
                  (by omega)
                intro i j' w' hsh' hi
                have hac' := acyclic_of_shape_frame hac3 hsh'
                have hdim' := dims_bounded_of_shape hdim3 hsh'
                have hi' : i < (w'.mappers q).jmhead.idx := by rw [hsh'.idx q]; exact hi
                have hrem := hdim' q i hi'
                obtain ⟨r, hr⟩ := ih q ((w'.mappers q).jmlist i) 0 j' w' hac' hdim'
                  (below_of_acyclic hac' q i hi') (by
                    simp only [JXS_ARRAY_DEPTH] at hfuel hrem ⊢
                    omega)
                exact ⟨r, hr, de_wrapper_shape lib f q _ 0 j' w' r hr⟩
            obtain ⟨⟨ret, w4⟩, hr⟩ := hobj
            rw [hr]
            simp only []
            split <;> exact ⟨_, rfl⟩
      · split
        · exact ⟨_, rfl⟩
        · have harr : ∃ r4, jmap_from_json_array_with (jmap_from_json_warpper lib f) hp
              (jmap_array_move_next_dimen it idx) j w1 = some r4 := by
            unfold jmap_from_json_array_with
            split
            · exact ⟨_, rfl⟩
            · split
              · exact ⟨_, rfl⟩
              · split
                · exact ⟨_, rfl⟩
                · refine de_array_loop_ranked hp _ _ _ j w1 ?_ _ 0 w1 (shape_frame_refl w1)
                  intro i j' w' hsh'
                  have hac' := acyclic_of_shape_frame hac1 hsh'
                  have hdim' := dims_bounded_of_shape hdim1 hsh'
                  have hle := next_dimen_remaining_le it idx
                  have hpos : 0 < remaining_dims it := by
                    by_contra hx
                    have h0 : it.arr.cur_depth ≥ it.arr.depth := by
                      unfold remaining_dims at hx; omega
                    rename_i hsz _
                    apply hsz
                    left
                    rw [next_dimen_depth_error it idx (Or.inl h0)]
                    rfl
                  obtain ⟨r, hr⟩ := ih hp (jmap_array_move_next_dimen it idx) i j' w' hac' hdim'
                    (below_next_dimen hbel idx) (by omega)
                  exact ⟨r, hr, de_wrapper_shape lib f hp _ i j' w' r hr⟩
          obtain ⟨⟨ret, w4⟩, hr⟩ := harr
          rw [hr]
          simp only []
          split <;> exact ⟨_, rfl⟩
      · split <;> exact ⟨_, rfl⟩

/-- C33: let the sub-tree relation of the store be acyclic (`rank` decreases
from a tree to the sub-tree of each of its nodes) and let every node have at
most `JXS_ARRAY_DEPTH` dimensions left, as the nodes written by
`jxs_item_basic_add` have.  A step of `jmap_array_move_next_dimen` that is not
a depth error takes exactly one dimension off.  And with every recursion
budget from `(rank p + 1) * (JXS_ARRAY_DEPTH + 1)` on, a bound that depends on
the tree only, `jmap_to_json_object` and `jmap_from_json_object` of tree `p`
return a result for every memory and every document: the recursion descends
in the pair (rank of the tree, dimensions left). -/
theorem c33_traversals_terminate (lib : JsonLib) (rank : Nat → Nat) (p : Nat) (w : World)
    (hac : Acyclic rank w.mappers) (hdim : DimsBounded w.mappers) :
    (∀ (it : jmap_item_t) (idx : Nat),
      ¬ (it.arr.cur_depth ≥ it.arr.depth ∨ it.arr.deptab.getD 0 0 = 0) →
      remaining_dims (jmap_array_move_next_dimen it idx) + 1 = remaining_dims it) ∧
    (∀ (it : jmap_item_t), ApiNode it → remaining_dims it ≤ JXS_ARRAY_DEPTH) ∧
    ∀ fuel, (rank p + 1) * (JXS_ARRAY_DEPTH + 1) ≤ fuel →
      ∀ (mem : Mem) (jso : Json),
        (∃ r, jmap_to_json_object lib fuel p jso (set_mem w mem) = some r) ∧
        (∃ r, jmap_from_json_object lib fuel p jso (set_mem w mem) = some r) := by
  refine ⟨next_dimen_remaining, api_node_dims_bounded, ?_⟩
  intro fuel hfuel mem jso
  have hsh : ShapeFrame w (set_mem w mem) := shape_frame_of_mappers_eq rfl
  generalize set_mem w mem = w0 at hsh
  have hac0 := acyclic_of_shape_frame hac hsh
  have hdim0 := dims_bounded_of_shape hdim hsh
  constructor
  · unfold jmap_to_json_object jmap_to_json_object_with
    split
    · exact ⟨_, rfl⟩
    · split
      · exact ⟨_, rfl⟩
      · refine ser_object_loop_total p _ _ w0 ?_ _ 0 _ w0 (shape_frame_refl w0) (by omega)
        intro i w' hsh' hi
        have hac' := acyclic_of_shape_frame hac0 hsh'
        have hdim' := dims_bounded_of_shape hdim0 hsh'
        have hi' : i < (w'.mappers p).jmhead.idx := by rw [hsh'.idx p]; exact hi
        have hrem := hdim' p i hi'
        obtain ⟨r, hr⟩ := ser_wrapper_total lib rank fuel p ((w'.mappers p).jmlist i) 0 w'
          hac' hdim' (below_of_acyclic hac' p i hi') (by
            simp only [JXS_ARRAY_DEPTH] at hfuel hrem ⊢
            omega)
        exact ⟨r, hr, ser_wrapper_shape lib fuel p _ 0 w' r hr⟩
  · unfold jmap_from_json_object jmap_from_json_object_with
    split
    · exact ⟨_, rfl⟩
    · refine de_object_loop_ranked p _ _ jso w0 ?_ _ 0 w0 (shape_frame_refl w0) (by omega)
      intro i j' w' hsh' hi
      have hac' := acyclic_of_shape_frame hac0 hsh'
      have hdim' := dims_bounded_of_shape hdim0 hsh'
      have hi' : i < (w'.mappers p).jmhead.idx := by rw [hsh'.idx p]; exact hi
      have hrem := hdim' p i hi'
      obtain ⟨r, hr⟩ := de_wrapper_ranked lib rank fuel p ((w'.mappers p).jmlist i) 0 j' w'
        hac' hdim' (below_of_acyclic hac' p i hi') (by
          simp only [JXS_ARRAY_DEPTH] at hfuel hrem ⊢
          omega)
      exact ⟨r, hr, de_wrapper_shape lib fuel p _ 0 j' w' r hr⟩

theorem world_rec_dims : DimsBounded world_rec.mappers := by
  intro p i hi
  by_cases h0 : p = 0
  · subst h0
    exact (show ∀ i, i < 4 →
      remaining_dims ((world_rec.mappers 0).jmlist i) ≤ JXS_ARRAY_DEPTH by decide) i hi
  · by_cases h5 : p = 5
    · subst h5
      exact (show ∀ i, i < 2 →
        remaining_dims ((world_rec.mappers 5).jmlist i) ≤ JXS_ARRAY_DEPTH by decide) i hi
    · rw [world_rec_other p h0 h5] at hi
      exact absurd hi (by simp [jxs_mapper_zero])

/-- Witness for C33: the tree of `bld_rec`, whose root has rank 1: with the
budget 18 the serialization of the aggregate in `mem_rec` and the
deserialization of `doc_rec` into zeroed memory return. -/
theorem c33_traversals_terminate_witness :
    (∃ r, jmap_to_json_object lib0 18 0 (.object []) (set_mem world_rec mem_rec) = some r) ∧
    (∃ r, jmap_from_json_object lib0 18 0 doc_rec (set_mem world_rec mem_zero) = some r) :=
  ⟨((c33_traversals_terminate lib0 rank_rec 0 world_rec world_rec_acyclic world_rec_dims).2.2
      18 (by decide) mem_rec (.object [])).1,
   ((c33_traversals_terminate lib0 rank_rec 0 world_rec world_rec_acyclic world_rec_dims).2.2
      18 (by decide) mem_zero doc_rec).2⟩



/-! ## Claim C37: the drop rule on an array field compacts the array -/

theorem kept_elems_succ (lib : JsonLib) (mem : Mem) (e : jmap_item_t) (start i n : Nat) :
    kept_elems lib mem e start i (n + 1)
      = (if value_is_empty mem e.type e.size (addr_of start e i) then []
         else [(to_json_scalar lib mem e.type e.size (addr_of start e i)).getD .null])
        ++ kept_elems lib mem e start (i + 1) n := by
  unfold kept_elems
  rw [List.range'_succ, List.filter_cons]
  cases value_is_empty mem e.type e.size (addr_of start e i) <;> simp

theorem kept_elems_length_le (lib : JsonLib) (mem : Mem) (e : jmap_item_t) (start i n : Nat) :
    (kept_elems lib mem e start i n).length ≤ n := by
  unfold kept_elems
  rw [List.length_map]
  have := List.length_filter_le
    (fun k => !value_is_empty mem e.type e.size (addr_of start e k)) (List.range' i n)
  rw [List.length_range'] at this
  exact this

/-- A leaf node under rule drop, without callback: the visit returns the
delete code 1 when the rule engine finds the value empty, and 0 with the value
otherwise. -/
theorem wrapper_leaf_drop (lib : JsonLib) (fuel hp : Nat) (it : jmap_item_t) (idx : Nat)
    (w : World) (hcb : w.ctx.convert_callback = none) (hrule : it.rule = JXS_RULE_DROP_SELF)
    (hs : it.type ≠ jxs_type.struct) (ha : it.type ≠ jxs_type.array)
    (h0 : node_base w hp it ≠ 0) :
    jmap_to_json_warpper lib (fuel + 1) hp it idx w =
      if value_is_empty w.mem it.type it.size (node_addr w hp it idx) then
        some (1, .null, set_now_vptr (record_visit w (node_addr w hp it idx) it)
          (node_addr w hp it idx))
      else
        some (0, (to_json_scalar lib w.mem it.type it.size (node_addr w hp it idx)).getD .null,
          set_now_vptr (record_visit w (node_addr w hp it idx) it) (node_addr w hp it idx)) := by
  have hr0 : it.rule ≠ 0 := by rw [hrule]; decide
  rw [wrapper_unfold lib fuel hp it idx w h0,
    handler_no_callback (record_visit w (node_addr w hp it idx) it) it _ hr0 hcb]
  have hw : handler_world (record_visit w (node_addr w hp it idx) it) it (node_addr w hp it idx)
      = set_now_vptr (record_visit w (node_addr w hp it idx) it) (node_addr w hp it idx) := by
    simp only [handler_world, hr0, if_false, record_visit_ctx, hcb]
  rw [hw]
  simp only [hrule, JXS_RULE_SET_NULL, JXS_RULE_KEEP_RAW, JXS_RULE_DROP_SELF, record_visit_mem]
  cases hemp : value_is_empty w.mem it.type it.size (node_addr w hp it idx)
  · simp only [show ¬ (3 = 1) by decide, if_false, if_true, Bool.false_eq_true]
    rw [to_json_by_type_leaf lib _ hp it idx _ _ hs ha]
    rfl
  · simp only [show ¬ (3 = 1) by decide, if_false, if_true, Bool.true_eq_false]

/-- The element loop of `jmap_to_json_array` over leaf elements under rule
drop, without callback: the elements that are not empty are appended, in index
order, and nothing else. -/
theorem to_json_array_loop_drop (lib : JsonLib) (fuel hp : Nat) (it : jmap_item_t)
    (loc fz : Option (List Char)) (hrule : it.rule = JXS_RULE_DROP_SELF)
    (hs : it.type ≠ jxs_type.struct) (ha : it.type ≠ jxs_type.array) :
    ∀ (n i : Nat) (xs : List Json) (w : World), w.ctx.convert_callback = none →
      node_base w hp it ≠ 0 →
      ∃ w', to_json_array_loop (jmap_to_json_warpper lib (fuel + 1)) hp it loc fz n i
          (.array xs) w
          = some (0, .array (xs ++ kept_elems lib w.mem it (w.mappers hp).jmhead.start_addr i n),
              w') ∧
        w'.mem = w.mem ∧ w'.mappers = w.mappers := by
  intro n
  induction n with
  | zero =>
    intro i xs w _ _
    refine ⟨w, ?_, rfl, rfl⟩
    simp [to_json_array_loop, kept_elems]
  | succ n ih =>
    intro i xs w hcb h0
    have hstep := wrapper_leaf_drop lib fuel hp it i
      (set_now w (SET_NEW_LOCATOR loc it.key true i) (SET_NEW_FUZZY_LOCATOR fz loc it.key true))
      hcb hrule hs ha h0
    simp only [to_json_array_loop, hstep, kept_elems_succ]
    have hadr : node_addr (set_now w (SET_NEW_LOCATOR loc it.key true i)
        (SET_NEW_FUZZY_LOCATOR fz loc it.key true)) hp it i
        = addr_of (w.mappers hp).jmhead.start_addr it i := rfl
    rw [hadr]
    simp only [set_now_mem]
    cases hemp : value_is_empty w.mem it.type it.size
      (addr_of (w.mappers hp).jmhead.start_addr it i)
    · simp only [Bool.false_eq_true, if_false, show ¬ ((0 : Int) = -1) by decide, if_true,
        json_object_array_add]
      obtain ⟨w', hl, hm, hmp⟩ := ih (i + 1)
        (xs ++ [(to_json_scalar lib w.mem it.type it.size
          (addr_of (w.mappers hp).jmhead.start_addr it i)).getD .null])
        (set_now_vptr (record_visit (set_now w (SET_NEW_LOCATOR loc it.key true i)
            (SET_NEW_FUZZY_LOCATOR fz loc it.key true))
          (addr_of (w.mappers hp).jmhead.start_addr it i) it)
          (addr_of (w.mappers hp).jmhead.start_addr it i)) hcb h0
      refine ⟨w', ?_, hm, hmp⟩
      rw [hl]
      simp only [List.append_assoc, List.singleton_append]
      rfl
    · simp only [if_true, show ¬ ((1 : Int) = -1) by decide, show ¬ ((1 : Int) = 0) by decide,
        if_false, List.nil_append]
      obtain ⟨w', hl, hm, hmp⟩ := ih (i + 1) xs
        (set_now_vptr (record_visit (set_now w (SET_NEW_LOCATOR loc it.key true i)
            (SET_NEW_FUZZY_LOCATOR fz loc it.key true))
          (addr_of (w.mappers hp).jmhead.start_addr it i) it)
          (addr_of (w.mappers hp).jmhead.start_addr it i)) hcb h0
      exact ⟨w', hl, hm, hmp⟩

/-- Deserialization of a document array that is not longer than an array slice
of leaf elements: element `k` of the slice holds what the scalar store of
document element `k` writes. -/
theorem de_array_prefix (lib : JsonLib) (w : World) (hp : Nat) (it : jmap_item_t)
    (xs : List Json) (fuel : Nat)
    (hfit : leaf_fits it.type it.size) (hsz : it.size ≠ 0)
    (hlen : xs.length ≤ it.arr.length) (hl0 : it.arr.length ≠ 0)
    (h0 : node_base w hp it ≠ 0)
    (hwrap : node_base w hp it + it.size * it.arr.length ≤ PTR_MOD) :
    ∃ w', jmap_from_json_array_with (jmap_from_json_warpper lib (fuel + 1)) hp it (.array xs) w
        = some (0, w') ∧
      (∀ k, k < xs.length → ∀ b, b < it.size →
        w'.mem (node_base w hp it + it.size * k + b)
          = (from_json_scalar lib w.mem it.type it.size (node_base w hp it + it.size * k)
              (xs.getD k .null)).getD w.mem (node_base w hp it + it.size * k + b)) ∧
      (∀ x, x < node_base w hp it ∨ node_base w hp it + it.size * xs.length ≤ x →
        w'.mem x = w.mem x) := by
  obtain ⟨w', hl, _, hmem⟩ := from_json_array_loop_leaf lib fuel hp it w.ctx.now_locator
    w.ctx.now_fzlocator (.array xs) hfit xs.length 0 w h0
  have hmono : ∀ a b, a < b → it.size * a + it.size ≤ it.size * b := by
    intro a b hab
    have : it.size * (a + 1) ≤ it.size * b := Nat.mul_le_mul_left _ (by omega)
    rw [Nat.mul_add, Nat.mul_one] at this
    exact this
  have hle : it.size * xs.length ≤ it.size * it.arr.length :=
    Nat.mul_le_mul_left _ hlen
  have hmod : ∀ j, j < xs.length →
      (node_base w hp it + it.size * j) % PTR_MOD = node_base w hp it + it.size * j := by
    intro j hj
    have := hmono j xs.length hj
    exact Nat.mod_eq_of_lt (by omega)
  refine ⟨w', ?_, ?_, ?_⟩
  · unfold jmap_from_json_array_with
    simp only [Json.is_null, Json.is_array, hsz, hl0, or_self, if_false, Bool.not_true,
      Bool.false_eq_true, json_object_array_length]
    exact hl
  · intro k hk b hb
    rw [hmem, store_elems_content lib it _ _ hfit _ xs.length 0 w.mem
      (by rw [Nat.zero_add]; omega) k (by omega) (by omega) (by omega) (by omega)]
    simp only [json_object_array_get_idx]
  · intro x hx
    rw [hmem]
    apply store_elems_frame lib it _ _ hfit x
    intro k _ hk
    rw [hmod k (by omega)]
    have := hmono k xs.length (by omega)
    omega

/-- C37: let `jmitem` be an array node with one dimension left, of a non-zero
length, static rule drop, no callback registered, whose elements are leaves of
a supported width at a non-`NULL` address inside the address space.  The
element node derived by `jmap_array_move_next_dimen` has the rule of `jmitem`.
`jmap_to_json_warpper` returns 0 for `jmitem`, with the array of the values of
exactly the elements that the rule engine does not find empty, in index
order: its length is the number of those elements, at most the declared
length.  And `jmap_from_json_warpper` of that array into any memory `t`
returns 0 and stores entry `k` of the array in element `k` of the field, for
`k = 0, 1, ...`, whatever the index of the element it came from; the bytes
outside these first elements are as before. -/
theorem c37_drop_compacts_array (lib : JsonLib) (fuel hp : Nat) (jmitem : jmap_item_t)
    (idx : Nat) (w : World) (t : Mem)
    (ht : jmitem.type = jxs_type.array) (hrule : jmitem.rule = JXS_RULE_DROP_SELF)
    (hcb : w.ctx.convert_callback = none)
    (hlast : jmitem.arr.depth - jmitem.arr.cur_depth = 1)
    (hlen : jmitem.arr.deptab.getD 0 0 ≠ 0)
    (hfit : leaf_fits jmitem.basetype (jmitem.size / jmitem.arr.deptab.getD 0 0))
    (hsz : jmitem.size / jmitem.arr.deptab.getD 0 0 ≠ 0)
    (h0 : node_base w hp jmitem ≠ 0)
    (h0e : node_base w hp (jmap_array_move_next_dimen jmitem idx) ≠ 0)
    (hwrap : node_base w hp (jmap_array_move_next_dimen jmitem idx)
      + jmitem.size / jmitem.arr.deptab.getD 0 0 * jmitem.arr.deptab.getD 0 0 ≤ PTR_MOD) :
    (jmap_array_move_next_dimen jmitem idx).rule = jmitem.rule ∧
    (∃ w1, jmap_to_json_warpper lib (fuel + 2) hp jmitem idx w
      = some (0, .array (kept_elems lib w.mem (jmap_array_move_next_dimen jmitem idx)
          (w.mappers hp).jmhead.start_addr 0 (jmitem.arr.deptab.getD 0 0)), w1)) ∧
    (kept_elems lib w.mem (jmap_array_move_next_dimen jmitem idx)
        (w.mappers hp).jmhead.start_addr 0 (jmitem.arr.deptab.getD 0 0)).length
      = (List.range (jmitem.arr.deptab.getD 0 0)).countP
          (fun k => !value_is_empty w.mem jmitem.basetype
            (jmitem.size / jmitem.arr.deptab.getD 0 0)
            (addr_of (w.mappers hp).jmhead.start_addr
              (jmap_array_move_next_dimen jmitem idx) k)) ∧
    (kept_elems lib w.mem (jmap_array_move_next_dimen jmitem idx)
        (w.mappers hp).jmhead.start_addr 0 (jmitem.arr.deptab.getD 0 0)).length
      ≤ jmitem.arr.deptab.getD 0 0 ∧
    ∃ w2, jmap_from_json_warpper lib (fuel + 2) hp jmitem idx
        (.array (kept_elems lib w.mem (jmap_array_move_next_dimen jmitem idx)
          (w.mappers hp).jmhead.start_addr 0 (jmitem.arr.deptab.getD 0 0))) (set_mem w t)
        = some (0, w2) ∧
      (∀ k, k < (kept_elems lib w.mem (jmap_array_move_next_dimen jmitem idx)
          (w.mappers hp).jmhead.start_addr 0 (jmitem.arr.deptab.getD 0 0)).length →
        ∀ b, b < jmitem.size / jmitem.arr.deptab.getD 0 0 →
        w2.mem (node_base w hp (jmap_array_move_next_dimen jmitem idx)
            + jmitem.size / jmitem.arr.deptab.getD 0 0 * k + b)
          = (from_json_scalar lib t jmitem.basetype (jmitem.size / jmitem.arr.deptab.getD 0 0)
              (node_base w hp (jmap_array_move_next_dimen jmitem idx)
                + jmitem.size / jmitem.arr.deptab.getD 0 0 * k)
              ((kept_elems lib w.mem (jmap_array_move_next_dimen jmitem idx)
                (w.mappers hp).jmhead.start_addr 0 (jmitem.arr.deptab.getD 0 0)).getD k
                  .null)).getD t
              (node_base w hp (jmap_array_move_next_dimen jmitem idx)
                + jmitem.size / jmitem.arr.deptab.getD 0 0 * k + b)) ∧
      (∀ x, x < node_base w hp (jmap_array_move_next_dimen jmitem idx) ∨
          node_base w hp (jmap_array_move_next_dimen jmitem idx)
            + jmitem.size / jmitem.arr.deptab.getD 0 0
              * (kept_elems lib w.mem (jmap_array_move_next_dimen jmitem idx)
                (w.mappers hp).jmhead.start_addr 0 (jmitem.arr.deptab.getD 0 0)).length ≤ x →
        w2.mem x = t x) := by
  have hc : ¬ (jmitem.arr.cur_depth ≥ jmitem.arr.depth ∨ jmitem.arr.deptab.getD 0 0 = 0) := by
    intro hx
    rcases hx with hx | hx
    · omega
    · exact hlen hx
  have hety : (jmap_array_move_next_dimen jmitem idx).type = jmitem.basetype := by
    unfold jmap_array_move_next_dimen
    rw [if_neg hc]
    simp only [hlast, if_true]
  have hesz : (jmap_array_move_next_dimen jmitem idx).size
      = jmitem.size / jmitem.arr.deptab.getD 0 0 := by
    unfold jmap_array_move_next_dimen
    rw [if_neg hc]
  have helen : (jmap_array_move_next_dimen jmitem idx).arr.length
      = jmitem.arr.deptab.getD 0 0 := by
    unfold jmap_array_move_next_dimen
    rw [if_neg hc]
  have herule : (jmap_array_move_next_dimen jmitem idx).rule = jmitem.rule := by
    unfold jmap_array_move_next_dimen
    rw [if_neg hc]
  generalize he : jmap_array_move_next_dimen jmitem idx = e at *
  have hfit' : leaf_fits e.type e.size := by rw [hety, hesz]; exact hfit
  obtain ⟨hns, hna⟩ := leaf_fits_not_container e.type e.size hfit'
  have hr0 : jmitem.rule ≠ 0 := by rw [hrule]; decide
  refine ⟨herule, ?_, ?_, kept_elems_length_le _ _ _ _ _ _, ?_⟩
  · -- serialization
    rw [wrapper_unfold lib (fuel + 1) hp jmitem idx w h0,
      handler_no_callback (record_visit w (node_addr w hp jmitem idx) jmitem) jmitem _ hr0 hcb]
    have hw : handler_world (record_visit w (node_addr w hp jmitem idx) jmitem) jmitem
        (node_addr w hp jmitem idx)
        = set_now_vptr (record_visit w (node_addr w hp jmitem idx) jmitem)
            (node_addr w hp jmitem idx) := by
      simp only [handler_world, hr0, if_false, record_visit_ctx, hcb]
    rw [hw]
    have hemp : value_is_empty (record_visit w (node_addr w hp jmitem idx) jmitem).mem
        jmitem.type jmitem.size (node_addr w hp jmitem idx) = false :=
      value_is_empty_container _ _ _ _ (Or.inr ht)
    simp only [hemp, hrule, JXS_RULE_DROP_SELF, JXS_RULE_KEEP_RAW,
      show ¬ (3 = 1) by decide, if_false, if_true]
    obtain ⟨w', hl, hm, hmp⟩ := to_json_array_loop_drop lib fuel hp e
      (set_now_vptr (record_visit w (node_addr w hp jmitem idx) jmitem)
        (node_addr w hp jmitem idx)).ctx.now_locator
      (set_now_vptr (record_visit w (node_addr w hp jmitem idx) jmitem)
        (node_addr w hp jmitem idx)).ctx.now_fzlocator
      (by rw [herule]; exact hrule) hns hna (jmitem.arr.deptab.getD 0 0) 0 []
      (set_now_vptr (record_visit w (node_addr w hp jmitem idx) jmitem)
        (node_addr w hp jmitem idx)) hcb h0e
    refine ⟨w', ?_⟩
    unfold to_json_by_type
    simp only [ht, he]
    unfold jmap_to_json_array_with
    rw [hesz, helen]
    simp only [hsz, hlen, or_self, if_false, Json.is_array, Bool.not_true, Bool.false_eq_true]
    rw [hl]
    simp only [List.nil_append, show ¬ ((0 : Int) = -1) by decide, if_false]
    rfl
  · unfold kept_elems
    rw [List.length_map, ← List.countP_eq_length_filter, hety, hesz, List.range_eq_range']
  · -- deserialization
    have hlenle := kept_elems_length_le lib w.mem e (w.mappers hp).jmhead.start_addr 0
      (jmitem.arr.deptab.getD 0 0)
    generalize kept_elems lib w.mem e (w.mappers hp).jmhead.start_addr 0
      (jmitem.arr.deptab.getD 0 0) = js at hlenle ⊢
    obtain ⟨w2, hl, hcont, hframe⟩ := de_array_prefix lib
      (record_visit (set_mem w t) (node_addr (set_mem w t) hp jmitem idx) jmitem) hp e js fuel
      hfit' (by rw [hesz]; exact hsz) (by rw [helen]; exact hlenle) (by rw [helen]; exact hlen)
      h0e (by rw [hesz, helen]; exact hwrap)
    refine ⟨w2, ?_, ?_, ?_⟩
    · rw [de_wrapper_unfold lib (fuel + 1) hp jmitem idx (.array js) (set_mem w t) h0]
      unfold from_json_by_type
      simp only [ht, he, Json.is_null, Bool.false_eq_true, if_false]
      rw [hl]
      rfl
    · intro k hk b hb
      have := hcont k hk b (by rw [hesz]; exact hb)
      rw [hety, hesz] at this
      exact this
    · intro x hx
      have := hframe x (by rw [hesz]; exact hx)
      exact this

/-- Witness for C37: the field `int32_t v[2]` with static rule drop holding 0
and 5: the serialized array is `[5]`. -/
theorem c37_drop_compacts_array_witness :
    ∃ w1, jmap_to_json_warpper lib0 2 0 item_arr_drop 0
      (world_of_items [item_arr_drop] mem_zero_five none)
      = some (0, .array (kept_elems lib0 (world_of_items [item_arr_drop] mem_zero_five none).mem
          (jmap_array_move_next_dimen item_arr_drop 0)
          ((world_of_items [item_arr_drop] mem_zero_five none).mappers 0).jmhead.start_addr 0
          (item_arr_drop.arr.deptab.getD 0 0)), w1) :=
  (c37_drop_compacts_array lib0 0 0 item_arr_drop 0
    (world_of_items [item_arr_drop] mem_zero_five none) mem_zero rfl rfl rfl (by decide)
    (by decide) (by decide) (by decide) (by decide) (by decide) (by decide)).2.1

/-- The array that the witness of C37 speaks about is `[5]`. -/
theorem kept_elems_zero_five :
    kept_elems lib0 mem_zero_five (jmap_array_move_next_dimen item_arr_drop 0) 100 0 2
      = [.int 5] := rfl



/-! ## Claim C8: non-empty values are kept -/

theorem to_signed_ne_zero (n u : Nat) (hn : n = 1 ∨ n = 2 ∨ n = 4 ∨ n = 8) (hu : u < 256 ^ n)
    (h0 : u ≠ 0) : to_signed n u ≠ 0 := by
  rcases hn with h | h | h | h <;> subst h <;>
    simp only [to_signed] <;> norm_num at hu ⊢ <;> split <;> omega

theorem read_int_ne_zero (mem : Mem) (a n : Nat) (hn : n = 1 ∨ n = 2 ∨ n = 4 ∨ n = 8)
    (h0 : read_le mem a n ≠ 0) : read_int mem a n ≠ 0 :=
  to_signed_ne_zero n _ hn (read_le_lt mem a n) h0

/-- A value of a supported width that is non-empty in the sense of the
specification is not empty for the rule engine. -/
theorem value_is_empty_of_nonempty (mem : Mem) (type : jxs_type) (size vptr : Nat)
    (hw : ¬ width_unsupported type size) (h : field_is_nonempty mem type size vptr) :
    value_is_empty mem type size vptr = false := by
  cases type <;> simp only [field_is_nonempty, width_unsupported] at h hw <;>
    simp only [value_is_empty]
  · -- boolean
    by_cases h4 : size = 4
    · subst h4
      simp [read_int_ne_zero mem vptr 4 (by decide) h]
    · have h1 : size = 1 := by omega
      subst h1
      rw [read_le_one] at h
      simp [h]
  · -- double
    by_cases h8 : size = 8
    · subst h8
      simp only [if_true, f64_nonzero]
      norm_num at h ⊢
      exact h
    · have h4 : size = 4 := by omega
      subst h4
      norm_num at h ⊢
      exact h
  · -- int
    by_cases h8 : size = 8
    · subst h8
      simp [read_int_ne_zero mem vptr 8 (by decide) h]
    · by_cases h4 : size = 4
      · subst h4
        simp [read_int_ne_zero mem vptr 4 (by decide) h]
      · by_cases h2 : size = 2
        · subst h2
          simp [read_int_ne_zero mem vptr 2 (by decide) h]
        · have h1 : size = 1 := by omega
          subst h1
          simp [read_int_ne_zero mem vptr 1 (by decide) h]
  · -- string
    simp [h.1, h.2]
  · -- object
    simp [h]

/-- C8 (as amended): for every node of a supported width (a boolean of size 1
or 4, a floating field of size 4 or 8, an integer of size 1, 2, 4 or 8; any
other kind of node) with a non-zero static rule, no override and a non-empty
value in the sense of the specification, `jmap_convert_handler` returns Keep;
and when the node is not an array node, `jmap_to_json_warpper` gives exactly the
result (return code, document and world) that it gives for the same node under
rule keep-as-is. -/
theorem c8_non_empty_value_is_kept (lib : JsonLib) (w : World) (hp : Nat) (jmitem : jmap_item_t)
    (idx fuel : Nat)
    (hrule : jmitem.rule = JXS_RULE_KEEP_RAW ∨ jmitem.rule = JXS_RULE_SET_NULL ∨
      jmitem.rule = JXS_RULE_DROP_SELF)
    (hov : override_of w (node_addr w hp jmitem idx) = 0)
    (hwidth : ¬ width_unsupported jmitem.type jmitem.size)
    (hne : field_is_nonempty
      (handler_world (record_visit w (node_addr w hp jmitem idx) jmitem) jmitem
        (node_addr w hp jmitem idx)).mem
      jmitem.type jmitem.size (node_addr w hp jmitem idx)) :
    (jmap_convert_handler (record_visit w (node_addr w hp jmitem idx) jmitem) jmitem
      (node_addr w hp jmitem idx)).1 = item_action.RULE_ITEM_KEEP ∧
    (jmitem.type ≠ jxs_type.array →
      jmap_to_json_warpper lib fuel hp jmitem idx w =
        jmap_to_json_warpper lib fuel hp (with_rule jmitem JXS_RULE_KEEP_RAW) idx w) := by
  have hr0 : jmitem.rule ≠ 0 := by
    simp only [JXS_RULE_KEEP_RAW, JXS_RULE_DROP_SELF, JXS_RULE_SET_NULL] at hrule
    omega
  have hov' : override_of (record_visit w (node_addr w hp jmitem idx) jmitem)
      (node_addr w hp jmitem idx) = 0 := hov
  have hact : (jmap_convert_handler (record_visit w (node_addr w hp jmitem idx) jmitem) jmitem
      (node_addr w hp jmitem idx)).1 = item_action.RULE_ITEM_KEEP := by
    rw [handler_no_override _ _ _ hr0 hov', value_is_empty_of_nonempty _ _ _ _ hwidth hne]
    simp
  refine ⟨hact, fun ht => ?_⟩
  cases fuel with
  | zero => simp [jmap_to_json_warpper]
  | succ n =>
    by_cases h0 : node_base w hp jmitem = 0
    · have h0' : node_base w hp (with_rule jmitem JXS_RULE_KEEP_RAW) = 0 := h0
      simp only [jmap_to_json_warpper, h0, h0', if_true]
    · have h0' : node_base w hp (with_rule jmitem JXS_RULE_KEEP_RAW) ≠ 0 := h0
      rw [wrapper_unfold lib n hp jmitem idx w h0, wrapper_unfold lib n hp _ idx w h0', hact]
      have haddr : node_addr w hp (with_rule jmitem JXS_RULE_KEEP_RAW) idx
          = node_addr w hp jmitem idx := rfl
      have hrec : record_visit w (node_addr w hp jmitem idx) (with_rule jmitem JXS_RULE_KEEP_RAW)
          = record_visit w (node_addr w hp jmitem idx) jmitem := rfl
      have hact' : (jmap_convert_handler
          (record_visit w (node_addr w hp jmitem idx) jmitem)
          (with_rule jmitem JXS_RULE_KEEP_RAW) (node_addr w hp jmitem idx)).1
            = item_action.RULE_ITEM_KEEP := by
        rw [handler_no_override _ _ _ (by simp [with_rule, JXS_RULE_KEEP_RAW]) hov']
        simp [with_rule]
      rw [haddr, hrec, hact']
      simp only []
      rw [handler_world_with_rule _ _ _ _ hr0 (by decide),
        to_json_by_type_with_rule lib _ hp jmitem idx _ _ _ ht]

/-- Witness for C8: an `int32_t` field holding 5 with static rule drop. -/
theorem c8_non_empty_value_is_kept_witness :
    (jmap_convert_handler (record_visit (world_of_items [leaf_item .int [Char.ofNat 97] 0 4 3]
        mem_five none) 100 (leaf_item .int [Char.ofNat 97] 0 4 3))
      (leaf_item .int [Char.ofNat 97] 0 4 3) 100).1 = item_action.RULE_ITEM_KEEP ∧
    jmap_to_json_warpper lib0 1 0 (leaf_item .int [Char.ofNat 97] 0 4 3) 0
        (world_of_items [leaf_item .int [Char.ofNat 97] 0 4 3] mem_five none) =
      jmap_to_json_warpper lib0 1 0
        (with_rule (leaf_item .int [Char.ofNat 97] 0 4 3) JXS_RULE_KEEP_RAW) 0
        (world_of_items [leaf_item .int [Char.ofNat 97] 0 4 3] mem_five none) :=
  ⟨(c8_non_empty_value_is_kept lib0
      (world_of_items [leaf_item .int [Char.ofNat 97] 0 4 3] mem_five none) 0
      (leaf_item .int [Char.ofNat 97] 0 4 3) 0 1 (Or.inr (Or.inr rfl)) rfl (by decide)
      (by decide)).1,
   (c8_non_empty_value_is_kept lib0
      (world_of_items [leaf_item .int [Char.ofNat 97] 0 4 3] mem_five none) 0
      (leaf_item .int [Char.ofNat 97] 0 4 3) 0 1 (Or.inr (Or.inr rfl)) rfl (by decide)
      (by decide)).2
      (by decide)⟩

/-- Counterexample to C8 as stated, in two parts.  First, the integer node of
declared size 3 (no native width) holding the bytes 5, 0, 0, with static rule
drop and no callback: its value is not zero, yet the rule engine reads no value
for a width it does not support, classifies the node as empty and returns
Delete, not Keep.  Second, the array node `int32_t v[2] = {0, 5}` with static
rule drop and no callback: Keep is returned for the array itself, yet it is
serialized as an array of length 1, whereas under rule keep-as-is it is
serialized as an array of length 2: the elements inherit the rule. -/
theorem c8_counterexample_width_and_array :
    (item_int3_drop.rule = JXS_RULE_DROP_SELF ∧
      item_int3_drop.type = jxs_type.int ∧ item_int3_drop.size = 3 ∧
      (world_of_items [item_int3_drop] mem_five none).ctx.convert_callback.isNone = true ∧
      override_of (world_of_items [item_int3_drop] mem_five none) 100 = 0 ∧
      node_addr (world_of_items [item_int3_drop] mem_five none) 0 item_int3_drop 0 = 100 ∧
      read_le mem_five 100 3 = 5 ∧
      field_is_nonempty mem_five item_int3_drop.type item_int3_drop.size 100 ∧
      (jmap_convert_handler
        (record_visit (world_of_items [item_int3_drop] mem_five none) 100 item_int3_drop)
        item_int3_drop 100).1 = item_action.RULE_ITEM_DELETE) ∧
    (item_arr_drop.rule = JXS_RULE_DROP_SELF ∧
      (world_of_items [item_arr_drop] mem_zero_five none).ctx.convert_callback.isNone = true ∧
      field_is_nonempty mem_zero_five item_arr_drop.type item_arr_drop.size 100 ∧
      ¬ width_unsupported item_arr_drop.type item_arr_drop.size ∧
      (jmap_convert_handler (world_of_items [item_arr_drop] mem_zero_five none)
        item_arr_drop 100).1 = item_action.RULE_ITEM_KEEP ∧
      json_object_array_length (result_json (jmap_to_json_warpper lib0 2 0 item_arr_drop 0
        (world_of_items [item_arr_drop] mem_zero_five none))) = 1 ∧
      json_object_array_length (result_json (jmap_to_json_warpper lib0 2 0
        (with_rule item_arr_drop JXS_RULE_KEEP_RAW) 0
        (world_of_items [item_arr_drop] mem_zero_five none))) = 2) := by
  refine ⟨⟨rfl, rfl, rfl, rfl, rfl, by decide, by decide, by decide, by decide⟩,
    ⟨rfl, rfl, by decide, by decide, by decide, by decide, by decide⟩⟩




/-! ## Claim C3: a document array shorter than the field -/

/-- The loop of `jmap_from_json_array` over element stores that return 0 and
leave the elements from `m` on alone: `I k` is what holds before the store of
element `k`, `s k` the state before that store. -/
theorem array_loop_chain (lib : JsonLib) (fuel hp : Nat) (it : jmap_item_t)
    (loc fz : Option (List Char)) (xs : List Json) (start m n : Nat)
    (I : Nat → World → Prop)
    (hstore : ∀ k, k < m → ∀ wt, I k wt →
      ∃ wt', jmap_from_json_warpper lib fuel hp it k (xs.getD k .null)
          (set_now wt (SET_NEW_LOCATOR loc it.key true k)
            (SET_NEW_FUZZY_LOCATOR fz loc it.key true)) = some (0, wt') ∧
        I (k + 1) wt' ∧
        ∀ j, m ≤ j → j < n → ∀ b, b < it.size →
          wt'.mem (elem_at start it j b) = wt.mem (elem_at start it j b)) :
    ∀ (r i : Nat), i + r = m → ∀ (wt : World), I i wt →
      ∃ (w' : World) (s : Nat → World),
        from_json_array_loop (jmap_from_json_warpper lib fuel) hp it loc fz (.array xs)
          r i wt = some (0, w') ∧
        s i = wt ∧ s m = w' ∧
        (∀ k, i ≤ k → k < m → I k (s k) ∧
          jmap_from_json_warpper lib fuel hp it k (xs.getD k .null)
            (set_now (s k) (SET_NEW_LOCATOR loc it.key true k)
              (SET_NEW_FUZZY_LOCATOR fz loc it.key true)) = some (0, s (k + 1))) ∧
        (∀ j, m ≤ j → j < n → ∀ b, b < it.size →
          w'.mem (elem_at start it j b) = wt.mem (elem_at start it j b)) := by
  intro r
  induction r with
  | zero =>
    intro i him wt _
    have him' : i = m := by omega
    subst him'
    exact ⟨wt, fun _ => wt, rfl, rfl, rfl, fun k h1 h2 => absurd h2 (by omega),
      fun _ _ _ _ _ => rfl⟩
  | succ r ih =>
    intro i him wt hI
    obtain ⟨wt2, hde, hI2, hfr⟩ := hstore i (by omega) wt hI
    obtain ⟨w', s, hloop, hs1, hsm, hch, hout⟩ := ih (i + 1) (by omega) wt2 hI2
    refine ⟨w', fun k => if k = i then wt else s k, ?_, ?_, ?_, ?_, ?_⟩
    · simp only [from_json_array_loop, json_object_array_get_idx, hde]
      simp only [ne_eq, not_true_eq_false, if_false]
      exact hloop
    · simp
    · have hmi : m ≠ i := by omega
      simp only [hmi, if_false]
      exact hsm
    · intro k hk1 hk2
      have hk1i : k + 1 ≠ i := by omega
      by_cases hki : k = i
      · subst hki
        simp only [if_true, hk1i, if_false, hs1]
        exact ⟨hI, hde⟩
      · simp only [hki, hk1i, if_false]
        exact hch k (by omega) hk2
    · intro j hj1 hj2 b hb
      rw [hout j hj1 hj2 b hb, hfr j hj1 hj2 b hb]

/-- A byte that the later states of a chain keep is in the last state what it
is after step `k`. -/
theorem chain_keeps (s : Nat → World) (x k m : Nat) (hkm : k < m)
    (h : ∀ i, k < i → i < m → (s (i + 1)).mem x = (s i).mem x) :
    (s m).mem x = (s (k + 1)).mem x := by
  have key : ∀ d, k + 1 + d ≤ m → (s (k + 1 + d)).mem x = (s (k + 1)).mem x := by
    intro d
    induction d with
    | zero => intro _; rfl
    | succ d ih =>
      intro hd
      rw [show k + 1 + (d + 1) = (k + 1 + d) + 1 by omega, h (k + 1 + d) (by omega) (by omega)]
      exact ih (by omega)
  have := key (m - (k + 1)) (by omega)
  rw [show k + 1 + (m - (k + 1)) = m by omega] at this
  exact this

/-- Byte `b` of element `j` of a field that lies inside the address space, at a
non-`NULL` address. -/
theorem elem_at_eq_lo (start : Nat) (it : jmap_item_t) (n j b : Nat)
    (h0 : base_of start it ≠ 0) (hnw : node_lo start it n ≤ PTR_MOD) (hj : j < n)
    (hb : b < it.size) : elem_at start it j b = node_lo start it j + b := by
  have hstep : node_lo start it j + it.size ≤ node_lo start it n := by
    unfold node_lo
    have : it.size * (j + 1) ≤ it.size * n := Nat.mul_le_mul_left _ (by omega)
    rw [Nat.mul_add, Nat.mul_one] at this
    omega
  obtain ⟨_, haddr⟩ := addr_of_eq_lo start it j h0 (by omega)
  unfold elem_at
  rw [haddr]
  exact Nat.mod_eq_of_lt (by omega)

/-- The bytes of two different elements of a field are different. -/
theorem elem_at_outside (start : Nat) (it : jmap_item_t) (n j k b : Nat)
    (h0 : base_of start it ≠ 0) (hnw : node_lo start it n ≤ PTR_MOD) (hj : j < n)
    (hjk : j ≠ k) (hb : b < it.size) :
    elem_at start it j b < node_lo start it k ∨
      node_lo start it k + it.size ≤ elem_at start it j b := by
  rw [elem_at_eq_lo start it n j b h0 hnw hj hb]
  unfold node_lo
  rcases Nat.lt_or_gt_of_ne hjk with h | h
  · left
    have : it.size * (j + 1) ≤ it.size * k := Nat.mul_le_mul_left _ (by omega)
    rw [Nat.mul_add, Nat.mul_one] at this
    omega
  · right
    have : it.size * (k + 1) ≤ it.size * j := Nat.mul_le_mul_left _ (by omega)
    rw [Nat.mul_add, Nat.mul_one] at this
    omega

/-- The element stores of claim C3 for leaves: the store of any document value
into an element that is a leaf of a supported width, at a non-`NULL` address of
a field inside the address space, returns 0, keeps the descriptor store and
changes no byte of the other elements. -/
theorem stores_of_leaf (lib : JsonLib) (fuel hp : Nat) (it : jmap_item_t) (n : Nat)
    (S : Nat → jxs_mapper) (hfit : leaf_fits it.type it.size)
    (h0 : base_of (S hp).jmhead.start_addr it ≠ 0)
    (hnw : node_lo (S hp).jmhead.start_addr it n ≤ PTR_MOD)
    (k : Nat) (hk : k < n) (doc : Json) (loc fz : List Char) :
    ∀ wt, wt.mappers = S →
      ∃ wt', jmap_from_json_warpper lib (fuel + 1) hp it k doc (set_now wt loc fz)
          = some (0, wt') ∧
        wt'.mappers = S ∧
        ∀ j, j < n → j ≠ k → ∀ b, b < it.size →
          wt'.mem (elem_at (S hp).jmhead.start_addr it j b)
            = wt.mem (elem_at (S hp).jmhead.start_addr it j b) := by
  intro wt hwt
  subst hwt
  have hstep := de_wrapper_leaf lib fuel hp it k doc (set_now wt loc fz) hfit h0
  obtain ⟨m', hm', hout⟩ := from_json_scalar_fits lib (set_now wt loc fz).mem it.type it.size
    (node_addr (set_now wt loc fz) hp it k) doc hfit
  rw [hm'] at hstep
  refine ⟨_, hstep, rfl, fun j hj hjk b hb => ?_⟩
  have haddr : node_addr (set_now wt loc fz) hp it k
      = node_lo (wt.mappers hp).jmhead.start_addr it k :=
    (addr_of_eq_lo (wt.mappers hp).jmhead.start_addr it k h0 (by
      have hstep : node_lo (wt.mappers hp).jmhead.start_addr it k + it.size
          ≤ node_lo (wt.mappers hp).jmhead.start_addr it n := by
        unfold node_lo
        have : it.size * (k + 1) ≤ it.size * n := Nat.mul_le_mul_left _ (by omega)
        rw [Nat.mul_add, Nat.mul_one] at this
        omega
      omega)).2
  show m' _ = wt.mem _
  rw [hout _ (by rw [haddr]; exact elem_at_outside _ it n j k b h0 hnw hj hjk hb)]
  rfl

/-- The element stores of claim C3 for conforming values: when the store of
`doc` into element `k` of a field inside the address space returns 0 from every
well-formed state and changes no byte outside the element (as `node_back` shows
for every value that conforms to the element: a leaf, a sub-structure, an inner
array), it returns 0 from every well-formed state, leaves a well-formed state
and changes no byte of the other elements. -/
theorem stores_of_back (lib : JsonLib) (S : Nat → jxs_mapper) (rank : Nat → Nat)
    (fuel hp start : Nat) (it : jmap_item_t) (n : Nat) (hb : Below rank it hp)
    (h0 : base_of start it ≠ 0) (hnw : node_lo start it n ≤ PTR_MOD)
    (k : Nat) (doc out : Json) (H : Back lib S rank fuel hp start it k doc out)
    (loc fz : List Char) :
    ∀ wt, WalkInv S rank hp start wt →
      ∃ wt', jmap_from_json_warpper lib fuel hp it k doc (set_now wt loc fz) = some (0, wt') ∧
        WalkInv S rank hp start wt' ∧
        ∀ j, j < n → j ≠ k → ∀ b, b < it.size →
          wt'.mem (elem_at start it j b) = wt.mem (elem_at start it j b) := by
  intro wt hinv
  have hinv1 : WalkInv S rank hp start (set_now wt loc fz) := walk_inv_of_mappers_eq hinv rfl
  obtain ⟨wt', hde, hout, _⟩ := H _ hinv1
  have hfr := de_wrapper_frame lib rank fuel hp it k _ _ 0 wt' hinv1.1 hinv1.2.1 hb hde
  refine ⟨wt', hde, walk_inv_of_frame hinv1 (hfr.2 rfl), fun j hj hjk b hbs => ?_⟩
  rw [hout _ (elem_at_outside start it n j k b h0 hnw hj hjk hbs)]
  rfl

/-- C3 (as amended): for an array node of declared length `n` with a non-zero
element size and a document array of length `m < n` such that, for each
`k < m`, the store of document element `k` into element `k` of the field
(`jmap_from_json_warpper` at index `k`, with the locators the loop sets) returns
0 and changes no byte of the elements `m..n-1`, `jmap_from_json_array` returns
0, it writes the elements `0..m-1` from the document (the state it leaves is the
one that the stores of the document elements `0..m-1` into the elements
`0..m-1` produce one after the other, `s k` being the state before the store of
element `k`; so element `k` holds what the store of document element `k` has
written whenever the later stores leave it alone), and the elements `m..n-1`
are exactly as before the call.  The condition on the stores is stated with an
invariant of the loop: `I 0` holds at the call, and from every state in which
`I k` holds the store of element `k` returns 0, establishes `I (k + 1)` and
leaves the elements `m..n-1` alone (`stores_of_leaf`: leaves of a supported
width; `stores_of_back` with `node_back`: conforming sub-structures and inner
arrays). -/
theorem c3_shorter_document_array (lib : JsonLib) (w : World) (hp : Nat) (it : jmap_item_t)
    (xs : List Json) (fuel : Nat) (I : Nat → World → Prop)
    (hsz : it.size ≠ 0) (hlen : xs.length < it.arr.length) (hI : I 0 w)
    (hstore : ∀ k, k < xs.length → ∀ wt, I k wt →
      ∃ wt', jmap_from_json_warpper lib fuel hp it k (xs.getD k .null)
          (set_now wt (SET_NEW_LOCATOR w.ctx.now_locator it.key true k)
            (SET_NEW_FUZZY_LOCATOR w.ctx.now_fzlocator w.ctx.now_locator it.key true))
          = some (0, wt') ∧
        I (k + 1) wt' ∧
        ∀ j, xs.length ≤ j → j < it.arr.length → ∀ b, b < it.size →
          wt'.mem (elem_at (w.mappers hp).jmhead.start_addr it j b)
            = wt.mem (elem_at (w.mappers hp).jmhead.start_addr it j b)) :
    ∃ (w' : World) (s : Nat → World),
      jmap_from_json_array lib fuel hp it (.array xs) w = some (0, w') ∧
      s 0 = w ∧ s xs.length = w' ∧
      (∀ k, k < xs.length → I k (s k) ∧
        jmap_from_json_warpper lib fuel hp it k (xs.getD k .null)
          (set_now (s k) (SET_NEW_LOCATOR w.ctx.now_locator it.key true k)
            (SET_NEW_FUZZY_LOCATOR w.ctx.now_fzlocator w.ctx.now_locator it.key true))
          = some (0, s (k + 1))) ∧
      (∀ k, k < xs.length →
        (∀ i, k < i → i < xs.length → ∀ b, b < it.size →
          (s (i + 1)).mem (elem_at (w.mappers hp).jmhead.start_addr it k b)
            = (s i).mem (elem_at (w.mappers hp).jmhead.start_addr it k b)) →
        ∀ b, b < it.size →
          w'.mem (elem_at (w.mappers hp).jmhead.start_addr it k b)
            = (s (k + 1)).mem (elem_at (w.mappers hp).jmhead.start_addr it k b)) ∧
      (∀ j, xs.length ≤ j → j < it.arr.length → ∀ b, b < it.size →
        w'.mem (elem_at (w.mappers hp).jmhead.start_addr it j b)
          = w.mem (elem_at (w.mappers hp).jmhead.start_addr it j b)) := by
  obtain ⟨w', s, hl, hs0, hsm, hch, hout⟩ := array_loop_chain lib fuel hp it w.ctx.now_locator
    w.ctx.now_fzlocator xs (w.mappers hp).jmhead.start_addr xs.length it.arr.length
    I hstore xs.length 0 (by omega) w hI
  refine ⟨w', s, ?_, hs0, hsm, fun k hk => hch k (by omega) hk, ?_, hout⟩
  · unfold jmap_from_json_array jmap_from_json_array_with
    have hl0 : it.arr.length ≠ 0 := by omega
    simp only [Json.is_null, Json.is_array, hsz, hl0, or_self, if_false, Bool.not_true,
      Bool.false_eq_true, json_object_array_length]
    exact hl
  · intro k hk hkeep b hb
    rw [← hsm]
    exact chain_keeps s _ k xs.length hk (fun i hi1 hi2 => hkeep i hi1 hi2 b hb)

/-- Witness for C3: the field `s` of the tree of `bld_rec`, an array of two
sub-structures of two bytes each at address 104, and a document array with the
one element `\x7b"b": false, "c": 9\x7d`: the call returns 0 and the two bytes
of element 1, at 106 and 107, are as before. -/
theorem c3_shorter_document_array_witness :
    ∃ N, ∀ fuel, N ≤ fuel →
      ∃ w', jmap_from_json_array lib0 fuel 0
          (jmap_array_move_next_dimen ((world_rec.mappers 0).jmlist 1) 0)
          (.array [.object [([Char.ofNat 98], .boolean 0), ([Char.ofNat 99], .int 9)]])
          world_rec = some (0, w') ∧
        w'.mem 106 = mem_rec 106 ∧ w'.mem 107 = mem_rec 107 := by
  have hbelow : Below rank_rec (jmap_array_move_next_dimen ((world_rec.mappers 0).jmlist 1) 0)
      0 := below_next_dimen (fun r hr => world_rec_acyclic 0 1 r (by decide) hr) 0
  obtain ⟨N, hN⟩ := node_back lib0 world_rec.mappers rank_rec world_rec_acyclic 100
    (jmap_array_move_next_dimen ((world_rec.mappers 0).jmlist 1) 0) 0 _ _
    (world_rec_conf_pair 0 (by decide) 0 9 (Or.inl rfl) (by decide) (by decide)) 0 hbelow
  refine ⟨N, fun fuel hf => ?_⟩
  obtain ⟨w', _, h1, _, _, _, _, h3⟩ := c3_shorter_document_array lib0 world_rec 0
    (jmap_array_move_next_dimen ((world_rec.mappers 0).jmlist 1) 0)
    [.object [([Char.ofNat 98], .boolean 0), ([Char.ofNat 99], .int 9)]] fuel
    (fun _ => WalkInv world_rec.mappers rank_rec 0 100) (by decide) (by decide)
    ⟨world_rec_acyclic, world_rec_offs, rfl, fun r _ => ⟨rfl, rfl⟩⟩
    (fun k hk wt hinv => by
      have hk0 : k = 0 := by
        have : k < 1 := hk
        omega
      subst hk0
      obtain ⟨wt', hde, hinv', hfr⟩ := stores_of_back lib0 world_rec.mappers rank_rec fuel 0 100
        (jmap_array_move_next_dimen ((world_rec.mappers 0).jmlist 1) 0) 2 hbelow
        (by decide) (by decide) 0 _ _ (hN fuel hf)
        (SET_NEW_LOCATOR world_rec.ctx.now_locator
          (jmap_array_move_next_dimen ((world_rec.mappers 0).jmlist 1) 0).key true 0)
        (SET_NEW_FUZZY_LOCATOR world_rec.ctx.now_fzlocator world_rec.ctx.now_locator
          (jmap_array_move_next_dimen ((world_rec.mappers 0).jmlist 1) 0).key true) wt hinv
      exact ⟨wt', hde, hinv', fun j hj1 hj2 b hb =>
        hfr j hj2 (by have : 1 ≤ j := hj1; omega) b hb⟩)
  exact ⟨w', h1, h3 1 (by decide) (by decide) 0 (by decide),
    h3 1 (by decide) (by decide) 1 (by decide)⟩

/-- Counterexample to C3 as stated, in three parts, each for an array node and
a document array shorter than the declared length.  First, integer elements of
the declared size 3 (no native width) and the document array `[5]`: the store
of element 0 fails and `jmap_from_json_array` returns -1, not 0.  Second,
elements of size 0 (the field `int32_t v[4]` declared with size 2) and the
empty document array: `jmap_from_json_array` returns -1, not 0.  Third, two
document references declared with 4 bytes each, in memory holding 7
everywhere, and the document array `[5]`: the call returns 0, but the store of
element 0 writes the 8 bytes of a reference, so byte 0 of element 1, at address
104, is 0 after the call and no longer 7. -/
theorem c3_counterexample_store_fails_or_spills :
    (item_elem_int3.arr.length = 2 ∧ item_elem_int3.size = 3 ∧
      json_object_array_length (.array [.int 5]) = 1 ∧
      (jmap_from_json_array lib0 1 0 item_elem_int3 (.array [.int 5])
        (world_of_items [] mem_zero none)).map (fun r => r.1) = some (-1)) ∧
    (item_elem_small.arr.length = 4 ∧ item_elem_small.size = 0 ∧
      json_object_array_length (.array []) = 0 ∧
      (jmap_from_json_array lib0 1 0 item_elem_small (.array [])
        (world_of_items [] mem_zero none)).map (fun r => r.1) = some (-1)) ∧
    (item_elem_ref4.arr.length = 2 ∧ item_elem_ref4.size = 4 ∧
      item_elem_ref4.type = jxs_type.object ∧
      json_object_array_length (.array [.int 5]) = 1 ∧
      (jmap_from_json_array lib0 1 0 item_elem_ref4 (.array [.int 5])
        (world_of_items [] mem_sevens none)).map (fun r => (r.1, r.2.mem 104)) = some (0, 0) ∧
      elem_at ((world_of_items [] mem_sevens none).mappers 0).jmhead.start_addr
        item_elem_ref4 1 0 = 104 ∧
      mem_sevens 104 = 7) := by
  refine ⟨⟨by decide, by decide, by decide, by decide⟩,
    ⟨by decide, by decide, by decide, by decide⟩,
    ⟨by decide, by decide, by decide, by decide, by decide, by decide, by decide⟩⟩


end JsonXStruct
